import Mathlib

/-!
# JerryScript byte-code compiler: literal pool, literal encoding and post-processing

A shallow embedding of `jerry-core/parser/js/new-parser/src/js-parser.c`.

Conventions of the embedding:

* machine integers are natural numbers; a cast to `uint8_t` is `% 256`, a cast to
  `uint16_t` is `% 65536`;
* a destination pointer `dst_p` into a buffer that is only appended to is the list of the
  bytes written so far, so that `*dst_p++ = b` is `dst ++ [b]` and the pointer value is the
  length of the list;
* `PARSER_DEBUG` is defined in `common.h`, hence a failing `PARSER_ASSERT` aborts: functions
  that can raise a parser error or fail an assertion return `Except parser_error_t _`.
-/

namespace Jerry

/-! ## Constants of the byte-code format -/

/-- Modelled from the spec: `CBC_MAXIMUM_BYTE_VALUE` of the absent `byte-code.h`, the escape
marker 255 of the small literal encoding. -/
def CBC_MAXIMUM_BYTE_VALUE : Nat := 255

/-- Modelled from the spec: `CBC_HIGHEST_BIT_MASK` of the absent `byte-code.h`, the high bit of
a byte (branch marker, and marker of the two byte form of the full literal encoding). -/
def CBC_HIGHEST_BIT_MASK : Nat := 0x80

/-- Modelled from the spec: `CBC_LOWER_SEVEN_BIT_MASK` of the absent `byte-code.h`, the low
seven bits of a byte. -/
def CBC_LOWER_SEVEN_BIT_MASK : Nat := 0x7f

/-- Modelled from the spec: `CBC_MAXIMUM_FULL_VALUE` of the absent `byte-code.h`
(`FullValueMax`, 32767). -/
def CBC_MAXIMUM_FULL_VALUE : Nat := 32767

/-- Modelled from the spec: `PARSER_MAXIMUM_NUMBER_OF_LITERALS` of the absent
`js-parser-internal.h` (`MaxLiteralsPerFunction`, 32767). -/
def PARSER_MAXIMUM_NUMBER_OF_LITERALS : Nat := 32767

/-- Cast to `uint8_t`. -/
def u8 (n : Nat) : Nat := n % 256

/-- Cast to `uint16_t`. -/
def u16 (n : Nat) : Nat := n % 65536

/-! ## Errors -/

/-- Parser error kinds (the ones raised by the embedded functions). -/
inductive parser_error_t
  | PARSER_ERR_NO_ERROR
  | PARSER_ERR_LITERAL_LIMIT_REACHED
  | PARSER_ERR_STACK_LIMIT_REACHED
  | PARSER_ERR_REGISTER_LIMIT_REACHED
  deriving DecidableEq, Repr

/-- Ways in which an embedded function does not return: `parser_raise_error` (a long jump out
of the parse), a failing `PARSER_ASSERT` (`abort`), or the dereference of a `NULL` or dangling
pointer. -/
inductive Fault
  | raised (e : parser_error_t)
  | assertion
  | invalid_pointer
  deriving DecidableEq, Repr

/-- Embedding of `PARSER_ASSERT`. -/
def PARSER_ASSERT (c : Bool) : Except Fault Unit :=
  if c then .ok () else .error Fault.assertion

/-! ## Literal pool -/

/-- Embedding of `lexer_literal_type_t` (`common.h`). -/
inductive lexer_literal_type_t
  | LEXER_IDENT_LITERAL
  | LEXER_STRING_LITERAL
  | LEXER_NUMBER_LITERAL
  | LEXER_FUNCTION_LITERAL
  | LEXER_REGEXP_LITERAL
  | LEXER_UNUSED_LITERAL
  deriving DecidableEq, Repr

open lexer_literal_type_t

/-- Embedding of the bit set `lexer_literal_status_flags_t` (`common.h`), one boolean per bit:
`LEXER_FLAG_VAR`, `LEXER_FLAG_NO_REG_STORE`, `LEXER_FLAG_INITIALIZED`,
`LEXER_FLAG_FUNCTION_ARGUMENT`, `LEXER_FLAG_UNUSED_IDENT`, `LEXER_FLAG_SOURCE_PTR`. -/
structure lexer_flags where
  var : Bool := false
  no_reg_store : Bool := false
  initialized : Bool := false
  function_argument : Bool := false
  unused_ident : Bool := false
  source_ptr : Bool := false
  deriving DecidableEq, Repr

/-- Embedding of `literal_value_t`: a pointer, `none` is `NULL`, `some bs` points to the
bytes `bs`. -/
abbrev literal_value_t := Option (List Nat)

/-- Embedding of `lexer_literal_t` (`common.h`). With `PARSER_DUMP_BYTE_CODE` defined, `prop`
is a struct, so `length` and `index` are two fields. -/
structure lexer_literal_t where
  value : literal_value_t := none
  length : Nat := 0
  index : Nat := 0
  type : lexer_literal_type_t
  status_flags : lexer_flags := {}
  deriving DecidableEq, Repr

/-- Embedding of `status_flags |= LEXER_FLAG_NO_REG_STORE`. -/
def lexer_literal_t.set_no_reg_store (l : lexer_literal_t) : lexer_literal_t :=
  { l with status_flags := { l.status_flags with no_reg_store := true } }

/-- Embedding of `memcmp (p, q, n) == 0` on two literal values. -/
def memcmp_eq (p q : literal_value_t) (n : Nat) : Bool :=
  match p, q with
  | some a, some b => a.take n == b.take n
  | _, _ => false

/-- Embedding of the bits of the context `status_flags` used by the embedded functions:
`PARSER_IS_FUNCTION`, `PARSER_IS_STRICT`, `PARSER_NO_REG_STORE`, `PARSER_ARGUMENTS_NEEDED`,
`PARSER_ARGUMENTS_NOT_NEEDED`, `PARSER_LEXICAL_ENV_NEEDED`, `PARSER_HAS_INITIALIZED_VARS`,
`PARSER_NO_END_LABEL`, `PARSER_FUNCTION_HAS_REST_PARAM`, `PARSER_IS_ARROW_FUNCTION`,
`PARSER_CLASS_CONSTRUCTOR`. -/
structure parser_flags where
  is_function : Bool := false
  is_strict : Bool := false
  no_reg_store : Bool := false
  arguments_needed : Bool := false
  arguments_not_needed : Bool := false
  lexical_env_needed : Bool := false
  has_initialized_vars : Bool := false
  no_end_label : Bool := false
  function_has_rest_param : Bool := false
  is_arrow_function : Bool := false
  class_constructor : Bool := false
  deriving DecidableEq, Repr

/-- Embedding of `parser_mem_page_t`: page pointers are indices into the page store of the
stream, `next_p = none` is `NULL`. -/
structure parser_mem_page_t where
  next_p : Option Nat := none
  bytes : List Nat := []
  deriving DecidableEq, Repr

/-- Embedding of `parser_mem_data_t` for the byte-code stream, together with the store
`pages` that holds the pages the pointers refer to. -/
structure parser_mem_data_t where
  pages : List parser_mem_page_t := []
  first_p : Option Nat := none
  last_p : Option Nat := none
  last_position : Nat := 0
  deriving DecidableEq, Repr

/-- Embedding of the fields of `parser_saved_context_t` used by the embedded functions. -/
structure parser_saved_context_t where
  status_flags : parser_flags := {}
  literal_count : Nat := 0
  literal_pool_data : List lexer_literal_t := []
  deriving DecidableEq, Repr

/-- Embedding of the fields of `parser_context_t` used by the embedded functions. -/
structure parser_context_t where
  status_flags : parser_flags := {}
  stack_limit : Nat := 0
  argument_count : Nat := 0
  register_count : Nat := 0
  literal_count : Nat := 0
  literal_pool : List lexer_literal_t := []
  byte_code : parser_mem_data_t := {}
  last_context_p : Option parser_saved_context_t := none
  deriving DecidableEq, Repr

/-! ## `parser_copy_identifiers` -/

/-- The inner `while` loop of `parser_copy_identifiers`: walks the parent pool and sets
`LEXER_FLAG_NO_REG_STORE` on the first identifier with the given length and bytes. Returns
the updated pool and whether such a record was found (`parent_literal_p != NULL`). -/
def mark_parent_literal (char_p : literal_value_t) (length : Nat) :
    List lexer_literal_t → List lexer_literal_t × Bool
  | [] => ([], false)
  | parent_literal :: rest =>
    if parent_literal.type = LEXER_IDENT_LITERAL
        ∧ parent_literal.length = length
        ∧ memcmp_eq parent_literal.value char_p length = true then
      (parent_literal.set_no_reg_store :: rest, true)
    else
      let r := mark_parent_literal char_p length rest
      (parent_literal :: r.1, r.2)

/-- The outer `while` loop of `parser_copy_identifiers` over the literals of the finished
function: `done` are the child literals already visited (as left by the loop), the result is
the child pool, the parent pool and the parent `literal_count`. Every call of
`parser_list_append` returns here; `copy_identifiers_loop_alloc` is the loop with the
call that may raise. -/
def copy_identifiers_loop :
    List lexer_literal_t → List lexer_literal_t → List lexer_literal_t → Nat →
    Except Fault (List lexer_literal_t × List lexer_literal_t × Nat)
  | [], done, parent_pool, parent_count => .ok (done, parent_pool, parent_count)
  | literal :: rest, done, parent_pool, parent_count =>
    if literal.type ≠ LEXER_IDENT_LITERAL ∨ literal.status_flags.var = true then
      copy_identifiers_loop rest (done ++ [literal]) parent_pool parent_count
    else
      let char_p := literal.value
      let length := literal.length
      let r := mark_parent_literal char_p length parent_pool
      if r.2 then
        copy_identifiers_loop rest (done ++ [literal]) r.1 parent_count
      else if parent_count ≥ PARSER_MAXIMUM_NUMBER_OF_LITERALS then
        .error (Fault.raised parser_error_t.PARSER_ERR_LITERAL_LIMIT_REACHED)
      else
        let parent_literal : lexer_literal_t :=
          { value := char_p
            length := u16 length
            index := 0
            type := LEXER_IDENT_LITERAL
            status_flags :=
              { source_ptr := literal.status_flags.source_ptr
                no_reg_store := true
                unused_ident := true } }
        let literal1 :=
          { literal with status_flags := { literal.status_flags with source_ptr := true } }
        copy_identifiers_loop rest (done ++ [literal1]) (r.1 ++ [parent_literal])
          (u16 (parent_count + 1))

/-- Embedding of `parser_copy_identifiers`. -/
def parser_copy_identifiers (context : parser_context_t) : Except Fault parser_context_t :=
  match context.last_context_p with
  | none => .ok context
  | some parent =>
    if !parent.status_flags.is_function then
      .ok context
    else if context.status_flags.no_reg_store then
      .ok { context with
        last_context_p :=
          some { parent with status_flags := { parent.status_flags with no_reg_store := true } } }
    else
      match copy_identifiers_loop context.literal_pool [] parent.literal_pool_data
          parent.literal_count with
      | .error e => .error e
      | .ok (pool, parent_pool, parent_count) =>
        .ok { context with
          literal_pool := pool
          last_context_p :=
            some { parent with literal_pool_data := parent_pool, literal_count := parent_count } }

/-! ## `parser_encode_literal` -/

/-- Embedding of `parser_encode_literal`: `dst` holds the bytes written so far, the result is
`dst` followed by the one or two bytes of the encoded index. -/
def parser_encode_literal (dst : List Nat) (literal_index literal_one_byte_limit : Nat) :
    List Nat :=
  if literal_index ≤ literal_one_byte_limit then
    dst ++ [u8 literal_index]
  else if literal_one_byte_limit = CBC_MAXIMUM_BYTE_VALUE - 1 then
    dst ++ [u8 CBC_MAXIMUM_BYTE_VALUE, u8 (literal_index - CBC_MAXIMUM_BYTE_VALUE)]
  else
    dst ++ [u8 (u8 (literal_index >>> 8) ||| CBC_HIGHEST_BIT_MASK),
            u8 (literal_index &&& CBC_MAXIMUM_BYTE_VALUE)]

/-- Embedding of the macro `PARSER_READ_IDENTIFIER_INDEX`: reads one literal index from the
front of `byte_code`, returns the index (a `uint16_t`) and the rest of the byte code. The
subtraction is done on `int` and the result is cast to `uint16_t`. -/
def PARSER_READ_IDENTIFIER_INDEX (encoding_limit encoding_delta : Nat) :
    List Nat → Option (Nat × List Nat)
  | [] => none
  | b0 :: rest =>
    if b0 ≥ encoding_limit then
      match rest with
      | [] => none
      | b1 :: rest1 =>
        some ((((((b0 <<< 8) ||| b1 : Nat) : Int) - (encoding_delta : Int)) % 65536).toNat, rest1)
    else
      some (b0, rest)

/-! ## `parser_compute_indicies` -/

/-- The constants of the absent headers `byte-code.h` and `js-parser-internal.h` that
`parser_compute_indicies` uses and whose value the sources at hand do not fix, taken as
parameters. -/
structure parser_limits where
  PARSER_MAXIMUM_NUMBER_OF_REGISTERS : Nat
  CBC_MAXIMUM_SMALL_VALUE : Nat
  deriving DecidableEq, Repr

/-- The local counters of the first phase of `parser_compute_indicies` together with the
context fields the phase updates (`uint16_t` each, apart from the flags). -/
structure count_state where
  status_flags : parser_flags
  literal_count : Nat
  register_count : Nat
  uninitialized_var_count : Nat := 0
  initialized_var_count : Nat := 0
  ident_count : Nat := 0
  const_literal_count : Nat := 0
  deriving DecidableEq, Repr

/-- Body of the first `while` loop of `parser_compute_indicies` for one literal: returns the
literal (its `LEXER_FLAG_NO_REG_STORE` may have been set) and the updated counters. -/
def count_literal (lim : parser_limits) (st : count_state) (literal : lexer_literal_t) :
    Except Fault (lexer_literal_t × count_state) :=
  if literal.status_flags.unused_ident then
    .ok (literal, { st with literal_count := u16 (st.literal_count + 65535) })
  else
    match literal.type with
    | LEXER_IDENT_LITERAL =>
      if literal.status_flags.var then
        let literal1 := if st.status_flags.no_reg_store then literal.set_no_reg_store else literal
        let set_lexical_env (r : lexer_literal_t × count_state) : lexer_literal_t × count_state :=
          if r.1.status_flags.no_reg_store then
            (r.1, { r.2 with status_flags := { r.2.status_flags with lexical_env_needed := true } })
          else r
        if literal1.status_flags.initialized then
          let r : lexer_literal_t × count_state :=
            if literal1.status_flags.function_argument then
              let literal2 :=
                if st.status_flags.arguments_needed && !st.status_flags.is_strict then
                  literal1.set_no_reg_store
                else literal1
              if literal2.status_flags.no_reg_store then
                (literal2, { st with
                  initialized_var_count := u16 (st.initialized_var_count + 1)
                  literal_count := u16 (st.literal_count + 1) })
              else (literal2, st)
            else if !literal1.status_flags.no_reg_store
                && decide (st.register_count < lim.PARSER_MAXIMUM_NUMBER_OF_REGISTERS) then
              (literal1, { st with register_count := u16 (st.register_count + 1) })
            else
              (literal1.set_no_reg_store,
                { st with initialized_var_count := u16 (st.initialized_var_count + 1) })
          if r.2.literal_count ≥ PARSER_MAXIMUM_NUMBER_OF_LITERALS then
            .error (Fault.raised parser_error_t.PARSER_ERR_LITERAL_LIMIT_REACHED)
          else
            .ok (set_lexical_env r)
        else if !literal1.status_flags.no_reg_store
            && decide (st.register_count < lim.PARSER_MAXIMUM_NUMBER_OF_REGISTERS) then
          .ok (set_lexical_env
            (literal1, { st with register_count := u16 (st.register_count + 1) }))
        else
          .ok (set_lexical_env (literal1.set_no_reg_store,
            { st with uninitialized_var_count := u16 (st.uninitialized_var_count + 1) }))
      else
        .ok (literal, { st with ident_count := u16 (st.ident_count + 1) })
    | LEXER_STRING_LITERAL | LEXER_NUMBER_LITERAL =>
      .ok (literal, { st with const_literal_count := u16 (st.const_literal_count + 1) })
    | LEXER_UNUSED_LITERAL =>
      if !literal.status_flags.function_argument then
        .ok (literal, { st with literal_count := u16 (st.literal_count + 65535) })
      else .ok (literal, st)
    | _ => .ok (literal, st)

/-- The first `while` loop of `parser_compute_indicies` over the literal pool. -/
def count_literals (lim : parser_limits) :
    count_state → List lexer_literal_t → Except Fault (List lexer_literal_t × count_state)
  | st, [] => .ok ([], st)
  | st, literal :: rest =>
    match count_literal lim st literal with
    | .error e => .error e
    | .ok (literal1, st1) =>
      match count_literals lim st1 rest with
      | .error e => .error e
      | .ok (rest1, st2) => .ok (literal1 :: rest1, st2)

/-- The local variables of the second phase of `parser_compute_indicies` (`uint16_t` each,
apart from `length`, a `size_t`). -/
structure index_state where
  argument_count : Nat
  register_index : Nat
  uninitialized_var_index : Nat
  initialized_var_index : Nat
  ident_index : Nat
  const_literal_index : Nat
  literal_index : Nat
  length : Nat
  deriving DecidableEq, Repr

/-- The end of the body of the second loop of `parser_compute_indicies`: the bytes of the
`CBC_INITIALIZE_VAR` instruction, or of the operand of `CBC_INITIALIZE_VARS`, for an
initialized variable with final index `index` initialized from `init_index`. -/
def initializer_length (has_initialized_vars : Bool) (literal_one_byte_limit : Nat)
    (literal : lexer_literal_t) (init_index : Nat) (length : Nat) : Nat :=
  let length1 :=
    if !has_initialized_vars || !literal.status_flags.no_reg_store then
      (length + 2) + (if literal.index > literal_one_byte_limit then 1 else 0)
    else length
  (length1 + 1) + (if init_index > literal_one_byte_limit then 1 else 0)

/-- Body of the second `while` loop of `parser_compute_indicies` for one literal. `next` is
what a further `parser_list_iterator_next` returns (`none` for `NULL`); the third component of
the result is the function literal when that further call was made, with its index assigned.
`register_count` is the register count of the first phase. -/
def assign_index (lim : parser_limits) (has_initialized_vars : Bool)
    (literal_one_byte_limit register_count : Nat)
    (st : index_state) (literal : lexer_literal_t) (next : Option lexer_literal_t) :
    Except Fault (lexer_literal_t × index_state × Option lexer_literal_t) :=
  if literal.type ≠ LEXER_IDENT_LITERAL then
    if literal.type = LEXER_STRING_LITERAL ∨ literal.type = LEXER_NUMBER_LITERAL then
      if literal.status_flags = { source_ptr := literal.status_flags.source_ptr } then
        .ok ({ literal with index := st.const_literal_index },
          { st with const_literal_index := u16 (st.const_literal_index + 1) }, none)
      else .error Fault.assertion
    else if literal.type ≠ LEXER_UNUSED_LITERAL then
      if literal.status_flags = {}
          ∧ (literal.type = LEXER_FUNCTION_LITERAL ∨ literal.type = LEXER_REGEXP_LITERAL) then
        .ok ({ literal with index := st.literal_index },
          { st with literal_index := u16 (st.literal_index + 1) }, none)
      else .error Fault.assertion
    else if literal.status_flags
        = { function_argument := literal.status_flags.function_argument
            source_ptr := literal.status_flags.source_ptr } then
      if literal.status_flags.function_argument then
        .ok (literal, { st with argument_count := u16 (st.argument_count + 1) }, none)
      else .ok (literal, st, none)
    else .error Fault.assertion
  else if literal.status_flags.unused_ident then
    .ok (literal, st, none)
  else if !literal.status_flags.var then
    .ok ({ literal with index := st.ident_index },
      { st with ident_index := u16 (st.ident_index + 1) }, none)
  else if !literal.status_flags.initialized then
    if !literal.status_flags.no_reg_store then
      if register_count ≤ lim.PARSER_MAXIMUM_NUMBER_OF_REGISTERS then
        .ok ({ literal with index := st.register_index },
          { st with register_index := u16 (st.register_index + 1) }, none)
      else .error Fault.assertion
    else
      .ok ({ literal with index := st.uninitialized_var_index },
        { st with uninitialized_var_index := u16 (st.uninitialized_var_index + 1) }, none)
  else if literal.status_flags.function_argument then
    if literal.status_flags.no_reg_store then
      let literal1 := { literal with index := st.initialized_var_index }
      let init_index := st.argument_count
      .ok (literal1,
        { st with
          initialized_var_index := u16 (st.initialized_var_index + 1)
          argument_count := u16 (st.argument_count + 1)
          length := initializer_length has_initialized_vars literal_one_byte_limit
            literal1 init_index st.length }, none)
    else
      .ok ({ literal with index := st.argument_count },
        { st with argument_count := u16 (st.argument_count + 1) }, none)
  else if !literal.status_flags.no_reg_store then
    if register_count ≤ lim.PARSER_MAXIMUM_NUMBER_OF_REGISTERS then
      let literal1 := { literal with index := st.register_index }
      let init_index := st.literal_index
      match next with
      | none => .error Fault.assertion
      | some func_literal =>
        if func_literal.type = LEXER_FUNCTION_LITERAL then
          .ok (literal1,
            { st with
              register_index := u16 (st.register_index + 1)
              literal_index := u16 (st.literal_index + 1)
              length := initializer_length has_initialized_vars literal_one_byte_limit
                literal1 init_index st.length },
            some { func_literal with index := init_index })
        else .error Fault.assertion
    else .error Fault.assertion
  else
    let literal1 := { literal with index := st.initialized_var_index }
    let init_index := st.literal_index
    match next with
    | none => .error Fault.assertion
    | some func_literal =>
      if func_literal.type = LEXER_FUNCTION_LITERAL then
        .ok (literal1,
          { st with
            initialized_var_index := u16 (st.initialized_var_index + 1)
            literal_index := u16 (st.literal_index + 1)
            length := initializer_length has_initialized_vars literal_one_byte_limit
              literal1 init_index st.length },
          some { func_literal with index := init_index })
      else .error Fault.assertion

/-- The second `while` loop of `parser_compute_indicies` over the literal pool: assigns
`prop.index` to each literal. -/
def assign_indices (lim : parser_limits) (has_initialized_vars : Bool)
    (literal_one_byte_limit register_count : Nat) :
    index_state → List lexer_literal_t → Except Fault (List lexer_literal_t × index_state)
  | st, [] => .ok ([], st)
  | st, [literal] =>
    match assign_index lim has_initialized_vars literal_one_byte_limit register_count
        st literal none with
    | .error e => .error e
    | .ok (literal1, st1, _) => .ok ([literal1], st1)
  | st, literal :: next :: rest =>
    match assign_index lim has_initialized_vars literal_one_byte_limit register_count
        st literal (some next) with
    | .error e => .error e
    | .ok (literal1, st1, none) =>
      match assign_indices lim has_initialized_vars literal_one_byte_limit register_count
          st1 (next :: rest) with
      | .error e => .error e
      | .ok (rest1, st2) => .ok (literal1 :: rest1, st2)
    | .ok (literal1, st1, some func_literal) =>
      match assign_indices lim has_initialized_vars literal_one_byte_limit register_count
          st1 rest with
      | .error e => .error e
      | .ok (rest1, st2) => .ok (literal1 :: func_literal :: rest1, st2)

/-- The values `parser_compute_indicies` hands back: the context, the four output
parameters and the returned length of the prefix opcodes. -/
structure compute_indicies_result where
  context : parser_context_t
  ident_end : Nat
  uninitialized_var_end : Nat
  initialized_var_end : Nat
  const_literal_end : Nat
  length : Nat
  deriving DecidableEq, Repr

/-- Embedding of `parser_compute_indicies`. -/
def parser_compute_indicies (lim : parser_limits) (context : parser_context_t) :
    Except Fault compute_indicies_result :=
  let status_flags : parser_flags :=
    if context.status_flags.arguments_not_needed then
      { context.status_flags with arguments_needed := false }
    else context.status_flags
  match count_literals lim
      { status_flags := status_flags
        literal_count := context.literal_count
        register_count := context.register_count } context.literal_pool with
  | .error e => .error e
  | .ok (pool1, c) =>
    let literal_one_byte_limit :=
      if c.literal_count ≤ lim.CBC_MAXIMUM_SMALL_VALUE then CBC_MAXIMUM_BYTE_VALUE - 1
      else CBC_LOWER_SEVEN_BIT_MASK
    let length0 :=
      if c.uninitialized_var_count > 0 then
        2 + (if c.register_count + c.uninitialized_var_count - 1 > literal_one_byte_limit
              then 1 else 0)
      else 0
    let register_index := context.register_count
    let uninitialized_var_index := c.register_count
    let initialized_var_index := u16 (uninitialized_var_index + c.uninitialized_var_count)
    let ident_index := u16 (initialized_var_index + c.initialized_var_count)
    let const_literal_index := u16 (ident_index + c.ident_count)
    let literal_index := u16 (const_literal_index + c.const_literal_count)
    let has_initialized_vars := decide (c.initialized_var_count > 2)
    let status_flags1 : parser_flags :=
      if has_initialized_vars then { c.status_flags with has_initialized_vars := true }
      else c.status_flags
    let length1 :=
      if has_initialized_vars then
        (length0 + 3) + (if initialized_var_index > literal_one_byte_limit then 1 else 0)
          + (if ident_index - 1 > literal_one_byte_limit then 1 else 0)
      else length0
    match assign_indices lim status_flags1.has_initialized_vars literal_one_byte_limit
        c.register_count
        { argument_count := 0
          register_index := register_index
          uninitialized_var_index := uninitialized_var_index
          initialized_var_index := initialized_var_index
          ident_index := ident_index
          const_literal_index := const_literal_index
          literal_index := literal_index
          length := length1 } pool1 with
    | .error e => .error e
    | .ok (pool2, i) =>
      if i.argument_count = context.argument_count
          ∧ i.register_index = c.register_count
          ∧ i.uninitialized_var_index = c.register_count + c.uninitialized_var_count
          ∧ i.initialized_var_index = i.uninitialized_var_index + c.initialized_var_count
          ∧ i.ident_index = i.initialized_var_index + c.ident_count
          ∧ i.const_literal_index = i.ident_index + c.const_literal_count
          ∧ i.literal_index = c.literal_count then
        .ok
          { context := { context with
              status_flags := status_flags1
              literal_count := c.literal_count
              register_count := i.register_index
              literal_pool := pool2 }
            ident_end := i.ident_index
            uninitialized_var_end := i.uninitialized_var_index
            initialized_var_end := i.initialized_var_index
            const_literal_end := i.const_literal_index
            length := i.length }
      else .error Fault.assertion

/-! ### Specification vocabulary for `parser_compute_indicies` -/

/-- A record is in use: it is not of type `LEXER_UNUSED_LITERAL` and is not flagged
`LEXER_FLAG_UNUSED_IDENT`. -/
def in_use (x : lexer_literal_t) : Bool :=
  !decide (x.type = LEXER_UNUSED_LITERAL) && !x.status_flags.unused_ident

/-- Records counted as function arguments by the second phase: tombstones of arguments and
argument bindings. -/
def is_counted_argument (x : lexer_literal_t) : Bool :=
  !x.status_flags.unused_ident && x.status_flags.function_argument &&
    (decide (x.type = LEXER_UNUSED_LITERAL) ||
      (decide (x.type = LEXER_IDENT_LITERAL) && x.status_flags.var && x.status_flags.initialized))

/-- Class of the unmirrored arguments: argument bindings that stay at their position. -/
def is_argument (x : lexer_literal_t) : Bool :=
  decide (x.type = LEXER_IDENT_LITERAL) && !x.status_flags.unused_ident && x.status_flags.var &&
    x.status_flags.initialized && x.status_flags.function_argument &&
    !x.status_flags.no_reg_store

/-- Class of the register locals. -/
def is_register (x : lexer_literal_t) : Bool :=
  decide (x.type = LEXER_IDENT_LITERAL) && !x.status_flags.unused_ident && x.status_flags.var &&
    !x.status_flags.no_reg_store &&
    !(x.status_flags.initialized && x.status_flags.function_argument)

/-- Class of the uninitialized variables that cannot be stored in a register. -/
def is_uninitialized_var (x : lexer_literal_t) : Bool :=
  decide (x.type = LEXER_IDENT_LITERAL) && !x.status_flags.unused_ident && x.status_flags.var &&
    !x.status_flags.initialized && x.status_flags.no_reg_store

/-- Class of the initialized variables that cannot be stored in a register, mirrored
arguments included. -/
def is_initialized_var (x : lexer_literal_t) : Bool :=
  decide (x.type = LEXER_IDENT_LITERAL) && !x.status_flags.unused_ident && x.status_flags.var &&
    x.status_flags.initialized && x.status_flags.no_reg_store

/-- Mirrored arguments: argument bindings moved to the initialized variables. -/
def is_mirrored_argument (x : lexer_literal_t) : Bool :=
  is_initialized_var x && x.status_flags.function_argument

/-- Class of the identifiers that are not local bindings. -/
def is_ident (x : lexer_literal_t) : Bool :=
  decide (x.type = LEXER_IDENT_LITERAL) && !x.status_flags.unused_ident && !x.status_flags.var

/-- Class of the string and number constants. -/
def is_const_literal (x : lexer_literal_t) : Bool :=
  (decide (x.type = LEXER_STRING_LITERAL) || decide (x.type = LEXER_NUMBER_LITERAL)) &&
    !x.status_flags.unused_ident

/-- Records of type function or regexp, whatever their flags. -/
def is_function_type (x : lexer_literal_t) : Bool :=
  decide (x.type = LEXER_FUNCTION_LITERAL) || decide (x.type = LEXER_REGEXP_LITERAL)

/-- Class of the function and regexp literals. -/
def is_function_literal (x : lexer_literal_t) : Bool :=
  is_function_type x && !x.status_flags.unused_ident

/-- Records that lower `literal_count` in the first phase. -/
def is_dropped (x : lexer_literal_t) : Bool :=
  x.status_flags.unused_ident ||
    (decide (x.type = LEXER_UNUSED_LITERAL) && !x.status_flags.function_argument)

/-- The indices (`prop.index`) of the records of a class, in pool order. -/
def class_indices (K : lexer_literal_t → Bool) (pool : List lexer_literal_t) : List Nat :=
  (pool.filter K).map (fun x => x.index)

/-- The indices handed out from counter value `s` to the records of class `K` of the pool `l`
(`l2` after the assignment) leave the counter at `e`: the counter advanced by the number of
records of the class (as a `uint16_t`), and without wrap-around the records of the class
carry `s`, `s + 1`, ... in pool order. -/
def seq_ok (K : lexer_literal_t → Bool) (s e : Nat) (l l2 : List lexer_literal_t) : Prop :=
  (s < 65536 → e = (s + (l.filter K).length) % 65536) ∧
  (s + (l.filter K).length < 65536 →
    class_indices K l2 = List.range' s (l.filter K).length)

/-- The argument positions handed out from counter value `s`: the counter advances by the
number of counted arguments, and without wrap-around the unmirrored arguments carry
increasing positions below the final counter. -/
def arg_ok (s e : Nat) (l l2 : List lexer_literal_t) : Prop :=
  (s < 65536 → e = (s + (l.filter is_counted_argument).length) % 65536) ∧
  (s + (l.filter is_counted_argument).length < 65536 →
    (class_indices is_argument l2).Sublist
      (List.range' s (l.filter is_counted_argument).length))

/-- Relation between a record before and after the second phase: only `prop.index` may
differ. -/
def same_but_index (a b : lexer_literal_t) : Prop :=
  b = { a with index := b.index }

/-- One step of a class counter: the record is not of the class and the counter is kept, or
it is of the class, receives the counter value as its index and the counter advances. -/
def step_ok (K : lexer_literal_t → Bool) (s s1 : Nat) (x x2 : lexer_literal_t) : Prop :=
  (K x = false ∧ K x2 = false ∧ s1 = s) ∨
  (K x = true ∧ K x2 = true ∧ x2.index = s ∧ s1 = u16 (s + 1))

/-- One step of the argument counter: the record is not counted, or it is counted without
receiving the position (tombstones and mirrored arguments), or it is an unmirrored argument
and receives the position. -/
def arg_step (s s1 : Nat) (x x2 : lexer_literal_t) : Prop :=
  (is_counted_argument x = false ∧ is_argument x2 = false ∧ s1 = s) ∨
  (is_counted_argument x = true ∧ is_argument x2 = false ∧ s1 = u16 (s + 1)) ∨
  (is_counted_argument x = true ∧ is_argument x2 = true ∧ x2.index = s ∧ s1 = u16 (s + 1))

/-! ### Specification vocabulary for `parser_copy_identifiers` -/

/-- Two literal records have byte-identical names: same length and the same `length` bytes. -/
def same_name (p c : lexer_literal_t) : Prop :=
  p.length = c.length ∧ p.value.map (List.take p.length) = c.value.map (List.take c.length)

/-- A parent record after the call is the record before the call, possibly with
`LEXER_FLAG_NO_REG_STORE` added. -/
def marked_from (q p : lexer_literal_t) : Prop :=
  p = q ∨ p = q.set_no_reg_store

/-- A free identifier of the finished function as far as its name goes: what a parent record
has to match. -/
def covers (c p : lexer_literal_t) : Prop :=
  p.type = LEXER_IDENT_LITERAL ∧ same_name p c ∧ p.status_flags.no_reg_store = true

/-- Example for `parser_copy_identifiers`: an inner function that refers to the free
identifiers `a` (bytes 97) and `b` (bytes 98) and has its own local `c`; the enclosing function
binds `a`. -/
def hoist_example : parser_context_t :=
  { literal_count := 3
    literal_pool :=
      [ { value := some [97], length := 1, type := LEXER_IDENT_LITERAL },
        { value := some [99], length := 1, type := LEXER_IDENT_LITERAL,
          status_flags := { var := true } },
        { value := some [98], length := 1, type := LEXER_IDENT_LITERAL } ]
    last_context_p := some
      { status_flags := { is_function := true }
        literal_count := 1
        literal_pool_data :=
          [ { value := some [97, 61], length := 1, type := LEXER_IDENT_LITERAL,
              status_flags := { var := true } } ] } }

/-- The enclosing function of `hoist_example`. -/
def hoist_example_parent : parser_saved_context_t :=
  { status_flags := { is_function := true }
    literal_count := 1
    literal_pool_data :=
      [ { value := some [97, 61], length := 1, type := LEXER_IDENT_LITERAL,
          status_flags := { var := true } } ] }

/-- Every non-argument initialized variable is followed by a function record
(executable form). -/
def initialized_vars_followed : List lexer_literal_t → Bool
  | [] => true
  | x :: rest =>
    (if decide (x.type = LEXER_IDENT_LITERAL) && !x.status_flags.unused_ident
          && x.status_flags.var && x.status_flags.initialized
          && !x.status_flags.function_argument then
        match rest with
        | [] => false
        | f :: _ => decide (f.type = LEXER_FUNCTION_LITERAL)
      else true) && initialized_vars_followed rest

/-- The pool is consistent with the counters of the context: `register_count` and
`argument_count` both are the number of records flagged `LEXER_FLAG_FUNCTION_ARGUMENT`,
`literal_count` is the number of records and is at most 32767, and every initialized
variable that is not an argument is followed by a function record. -/
def pool_consistent (context : parser_context_t) : Prop :=
  context.register_count = context.argument_count ∧
  context.argument_count
    = (context.literal_pool.filter (fun x => x.status_flags.function_argument)).length ∧
  context.literal_count = context.literal_pool.length ∧
  context.literal_pool.length ≤ 32767 ∧
  initialized_vars_followed context.literal_pool = true

instance (context : parser_context_t) : Decidable (pool_consistent context) := by
  unfold pool_consistent; infer_instance

/-- Example values of the two limits. -/
def example_limits : parser_limits :=
  { PARSER_MAXIMUM_NUMBER_OF_REGISTERS := 256, CBC_MAXIMUM_SMALL_VALUE := 510 }

/-- Example for `parser_compute_indicies`: a function with the arguments `a` and `b` (`b`
captured by an inner function), the local `c` initialized with a function, the free
identifier `d`, the string `s` and the captured local `e`. -/
def compute_example : parser_context_t :=
  { status_flags := { is_function := true }
    argument_count := 2
    register_count := 2
    literal_count := 7
    literal_pool :=
      [ { value := some [97], length := 1, type := LEXER_IDENT_LITERAL,
          status_flags := { var := true, initialized := true, function_argument := true } },
        { value := some [98], length := 1, type := LEXER_IDENT_LITERAL,
          status_flags := { var := true, initialized := true, function_argument := true,
                            no_reg_store := true } },
        { value := some [99], length := 1, type := LEXER_IDENT_LITERAL,
          status_flags := { var := true, initialized := true } },
        { type := LEXER_FUNCTION_LITERAL },
        { value := some [100], length := 1, type := LEXER_IDENT_LITERAL },
        { value := some [115], length := 1, type := LEXER_STRING_LITERAL },
        { value := some [101], length := 1, type := LEXER_IDENT_LITERAL,
          status_flags := { var := true, no_reg_store := true } } ] }

/-! ## The paged byte-code stream and the opcode tables -/

/-- Embedding of the flag byte of an opcode (`cbc_flags`, `cbc_ext_flags`), one boolean per
bit: `CBC_HAS_LITERAL_ARG`, `CBC_HAS_LITERAL_ARG2`, `CBC_HAS_BYTE_ARG`, `CBC_HAS_BRANCH_ARG`,
`CBC_FORWARD_BRANCH_ARG` (the bit tested by `CBC_BRANCH_IS_FORWARD`). -/
structure cbc_flags_t where
  has_literal_arg : Bool := false
  has_literal_arg2 : Bool := false
  has_byte_arg : Bool := false
  has_branch_arg : Bool := false
  forward_branch_arg : Bool := false
  deriving DecidableEq, Repr

/-- The macros, opcodes and tables of the absent headers `byte-code.h` and
`js-parser-internal.h` that post-processing uses, taken as parameters. -/
structure cbc_tables where
  PARSER_CBC_STREAM_PAGE_SIZE : Nat
  PARSER_MAXIMUM_CODE_SIZE : Nat
  PARSER_MAXIMUM_STACK_LIMIT : Nat
  CBC_EXT_OPCODE : Nat
  CBC_JUMP_FORWARD : Nat
  CBC_JUMP_FORWARD_2 : Nat
  CBC_JUMP_FORWARD_3 : Nat
  CBC_RETURN : Nat
  CBC_RETURN_WITH_BLOCK : Nat
  CBC_EXT_CONSTRUCTOR_RETURN : Nat
  CBC_DEFINE_VARS : Nat
  CBC_INITIALIZE_VARS : Nat
  CBC_INITIALIZE_VAR : Nat
  cbc_flags : Nat → cbc_flags_t
  cbc_ext_flags : Nat → cbc_flags_t
  CBC_BRANCH_OFFSET_LENGTH : Nat → Nat
  PARSER_OPCODE_IS_RETURN : Nat → Bool
  sizeof_cbc_uint8_arguments_t : Nat
  sizeof_cbc_uint16_arguments_t : Nat
  sizeof_literal_value_t : Nat

/-- The unconditional forward jump with the widest offset, `jump_forward` in the source:
`CBC_JUMP_FORWARD_2` when `PARSER_MAXIMUM_CODE_SIZE <= 65535`, else `CBC_JUMP_FORWARD_3`. -/
def cbc_tables.jump_forward (t : cbc_tables) : Nat :=
  if t.PARSER_MAXIMUM_CODE_SIZE ≤ 65535 then t.CBC_JUMP_FORWARD_2 else t.CBC_JUMP_FORWARD_3

/-- Embedding of `*page_p`: the page a pointer refers to. -/
def page_get (pages : List parser_mem_page_t) (page_p : Option Nat) :
    Except Fault parser_mem_page_t :=
  match page_p with
  | none => .error Fault.invalid_pointer
  | some p =>
    match pages[p]? with
    | none => .error Fault.invalid_pointer
    | some page => .ok page

/-- Embedding of the read `page_p->bytes[offset]`. -/
def page_read (pages : List parser_mem_page_t) (page_p : Option Nat) (offset : Nat) :
    Except Fault Nat :=
  match page_get pages page_p with
  | .error e => .error e
  | .ok page =>
    match page.bytes[offset]? with
    | none => .error Fault.invalid_pointer
    | some b => .ok b

/-- Embedding of the write `page_p->bytes[offset] = b`. -/
def page_write (pages : List parser_mem_page_t) (page_p : Option Nat) (offset b : Nat) :
    Except Fault (List parser_mem_page_t) :=
  match page_p with
  | none => .error Fault.invalid_pointer
  | some p =>
    match pages[p]? with
    | none => .error Fault.invalid_pointer
    | some page =>
      if offset < page.bytes.length then
        .ok (pages.set p { page with bytes := page.bytes.set offset b })
      else .error Fault.invalid_pointer

/-- Embedding of the macro `PARSER_NEXT_BYTE`. -/
def PARSER_NEXT_BYTE (t : cbc_tables) (pages : List parser_mem_page_t)
    (page_p : Option Nat) (offset : Nat) : Except Fault (Option Nat × Nat) :=
  if offset + 1 ≥ t.PARSER_CBC_STREAM_PAGE_SIZE then
    match page_get pages page_p with
    | .error e => .error e
    | .ok page => .ok (page.next_p, 0)
  else .ok (page_p, offset + 1)

/-- Embedding of `PARSER_GET_LITERAL`: the record at a position of the literal pool. -/
def PARSER_GET_LITERAL (pool : List lexer_literal_t) (literal_index : Nat) :
    Except Fault lexer_literal_t :=
  match pool[literal_index]? with
  | none => .error Fault.invalid_pointer
  | some literal => .ok literal

/-- The end of the stream as the loops of post-processing see it: `(last_page_p,
last_position)`, with `(NULL, 0)` when the last page is full. -/
def stream_end (t : cbc_tables) (byte_code : parser_mem_data_t) : Option Nat × Nat :=
  if byte_code.last_position ≥ t.PARSER_CBC_STREAM_PAGE_SIZE then (none, 0)
  else (byte_code.last_p, byte_code.last_position)

/-! ## First pass of `parser_post_processing` -/

/-- The variables of the first loop of `parser_post_processing`. -/
structure first_pass_state where
  pages : List parser_mem_page_t
  page_p : Option Nat
  offset : Nat
  length : Nat
  last_opcode : Nat
  deriving DecidableEq, Repr

/-- The flags after one literal argument: `none` is the `break` of the loop. -/
def next_literal_flags (flags : cbc_flags_t) : Option cbc_flags_t :=
  if flags.has_literal_arg2 then
    if flags.has_literal_arg then some { has_literal_arg := true }
    else some { has_literal_arg := true, has_literal_arg2 := true }
  else none

/-- One literal argument in the first pass: reads the two byte placeholder, follows the
redirect of an unused record and writes the final encoding in place. -/
def first_pass_literal (lim : parser_limits) (t : cbc_tables) (pool : List lexer_literal_t)
    (literal_count literal_one_byte_limit : Nat) (st : first_pass_state) :
    Except Fault first_pass_state :=
  match page_read st.pages st.page_p st.offset with
  | .error e => .error e
  | .ok first =>
    match PARSER_NEXT_BYTE t st.pages st.page_p st.offset with
    | .error e => .error e
    | .ok (page1, offset1) =>
      match page_read st.pages page1 offset1 with
      | .error e => .error e
      | .ok second =>
        let literal_index := first ||| (second <<< 8)
        match PARSER_GET_LITERAL pool literal_index with
        | .error e => .error e
        | .ok literal0 =>
          match (if literal0.type = LEXER_UNUSED_LITERAL then
              match PARSER_GET_LITERAL pool literal0.index with
              | .error _ => .error Fault.assertion
              | .ok literal1 =>
                if literal1.type ≠ LEXER_UNUSED_LITERAL then .ok literal1
                else .error Fault.assertion
            else .ok literal0 : Except Fault lexer_literal_t) with
          | .error e => .error e
          | .ok literal =>
            match (if literal.index ≤ literal_one_byte_limit then
                match page_write st.pages st.page_p st.offset (u8 literal.index) with
                | .error e => .error e
                | .ok pages1 => .ok (pages1, st.length + 1)
              else if literal_count ≤ lim.CBC_MAXIMUM_SMALL_VALUE then
                if literal_index ≤ lim.CBC_MAXIMUM_SMALL_VALUE then
                  match page_write st.pages st.page_p st.offset CBC_MAXIMUM_BYTE_VALUE with
                  | .error e => .error e
                  | .ok pages1 =>
                    match page_write pages1 page1 offset1
                        (u8 (literal.index - CBC_MAXIMUM_BYTE_VALUE)) with
                    | .error e => .error e
                    | .ok pages2 => .ok (pages2, st.length + 2)
                else .error Fault.assertion
              else
                if literal_index ≤ CBC_MAXIMUM_FULL_VALUE then
                  match page_write st.pages st.page_p st.offset
                      (u8 (u8 (literal.index >>> 8) ||| CBC_HIGHEST_BIT_MASK)) with
                  | .error e => .error e
                  | .ok pages1 =>
                    match page_write pages1 page1 offset1 (u8 (literal.index &&& 0xff)) with
                    | .error e => .error e
                    | .ok pages2 => .ok (pages2, st.length + 2)
                else .error Fault.assertion :
                  Except Fault (List parser_mem_page_t × Nat)) with
            | .error e => .error e
            | .ok (pages2, length2) =>
              match PARSER_NEXT_BYTE t pages2 page1 offset1 with
              | .error e => .error e
              | .ok (page2, offset2) =>
                .ok { st with pages := pages2, page_p := page2, offset := offset2,
                              length := length2 }

/-- The `while (flags & (CBC_HAS_LITERAL_ARG | CBC_HAS_LITERAL_ARG2))` loop of the first
pass; it runs at most three times, `fuel` bounds the number of iterations. Returns the flags
on leaving the loop. -/
def first_pass_literals (lim : parser_limits) (t : cbc_tables) (pool : List lexer_literal_t)
    (literal_count literal_one_byte_limit : Nat) :
    Nat → cbc_flags_t → first_pass_state → Except Fault (cbc_flags_t × first_pass_state)
  | 0, flags, st =>
    if flags.has_literal_arg || flags.has_literal_arg2 then .error Fault.invalid_pointer
    else .ok (flags, st)
  | fuel + 1, flags, st =>
    if flags.has_literal_arg || flags.has_literal_arg2 then
      match first_pass_literal lim t pool literal_count literal_one_byte_limit st with
      | .error e => .error e
      | .ok st1 =>
        match next_literal_flags flags with
        | none => .ok (flags, st1)
        | some flags1 =>
          first_pass_literals lim t pool literal_count literal_one_byte_limit fuel flags1 st1
    else .ok (flags, st)

/-- The loop `while (--branch_offset_length > 0)` of the first pass over the leading bytes
of a branch argument; `count` is the number of iterations. Returns `prefix_zero`. -/
def first_pass_branch_bytes (t : cbc_tables) (flags : cbc_flags_t) :
    Nat → Bool → first_pass_state → Except Fault (Bool × first_pass_state)
  | 0, prefix_zero, st => .ok (prefix_zero, st)
  | count + 1, prefix_zero, st =>
    match page_read st.pages st.page_p st.offset with
    | .error e => .error e
    | .ok byte =>
      match (if byte > 0 ∨ prefix_zero = false then .ok (false, st.length + 1)
          else if flags.forward_branch_arg then .ok (prefix_zero, st.length)
          else .error Fault.assertion : Except Fault (Bool × Nat)) with
      | .error e => .error e
      | .ok (prefix_zero1, length1) =>
        match PARSER_NEXT_BYTE t st.pages st.page_p st.offset with
        | .error e => .error e
        | .ok (page1, offset1) =>
          first_pass_branch_bytes t flags count prefix_zero1
            { st with page_p := page1, offset := offset1, length := length1 }

/-- The branch argument in the first pass: counts the bytes that are kept and turns a jump
to the next instruction into the one byte `CBC_JUMP_FORWARD` marker. -/
def first_pass_branch (t : cbc_tables) (flags : cbc_flags_t) (branch_offset_length : Nat)
    (opcode_page : Option Nat) (opcode_offset : Nat) (st : first_pass_state) :
    Except Fault first_pass_state :=
  if 0 < branch_offset_length ∧ branch_offset_length ≤ 3 then
    match first_pass_branch_bytes t flags (branch_offset_length - 1) true st with
    | .error e => .error e
    | .ok (prefix_zero, st1) =>
      match (if st1.last_opcode = t.jump_forward ∧ prefix_zero = true then
            match page_read st1.pages st1.page_p st1.offset with
            | .error e => .error e
            | .ok last =>
              if last = t.CBC_BRANCH_OFFSET_LENGTH t.jump_forward + 1 then
                match page_write st1.pages opcode_page opcode_offset t.CBC_JUMP_FORWARD with
                | .error e => .error e
                | .ok pages1 => .ok (pages1, st1.length - 1)
              else .ok (st1.pages, st1.length + 1)
          else .ok (st1.pages, st1.length + 1) :
            Except Fault (List parser_mem_page_t × Nat)) with
      | .error e => .error e
      | .ok (pages2, length2) =>
        match PARSER_NEXT_BYTE t pages2 st1.page_p st1.offset with
        | .error e => .error e
        | .ok (page2, offset2) =>
          .ok { st1 with pages := pages2, page_p := page2, offset := offset2,
                         length := length2 }
  else .error Fault.assertion

/-- Body of the first `while` loop of `parser_post_processing`: one instruction. -/
def first_pass_instruction (lim : parser_limits) (t : cbc_tables)
    (pool : List lexer_literal_t) (literal_count literal_one_byte_limit : Nat)
    (st : first_pass_state) : Except Fault first_pass_state :=
  let opcode_page := st.page_p
  let opcode_offset := st.offset
  match page_read st.pages st.page_p st.offset with
  | .error e => .error e
  | .ok last_opcode =>
    match PARSER_NEXT_BYTE t st.pages st.page_p st.offset with
    | .error e => .error e
    | .ok (page1, offset1) =>
      match (if last_opcode = t.CBC_EXT_OPCODE then
            match page_read st.pages page1 offset1 with
            | .error e => .error e
            | .ok ext_opcode =>
              match PARSER_NEXT_BYTE t st.pages page1 offset1 with
              | .error e => .error e
              | .ok (page2, offset2) =>
                .ok (t.CBC_BRANCH_OFFSET_LENGTH ext_opcode, t.cbc_ext_flags ext_opcode,
                  ({ st with page_p := page2, offset := offset2, length := st.length + 2,
                             last_opcode :=
                               if ext_opcode = t.CBC_EXT_CONSTRUCTOR_RETURN then t.CBC_RETURN
                               else last_opcode } : first_pass_state))
          else
            .ok (t.CBC_BRANCH_OFFSET_LENGTH last_opcode, t.cbc_flags last_opcode,
              { st with page_p := page1, offset := offset1, length := st.length + 1,
                        last_opcode := last_opcode }) :
              Except Fault (Nat × cbc_flags_t × first_pass_state)) with
      | .error e => .error e
      | .ok (branch_offset_length, flags, st1) =>
        match first_pass_literals lim t pool literal_count literal_one_byte_limit 3 flags
            st1 with
        | .error e => .error e
        | .ok (flags1, st2) =>
          match (if flags1.has_byte_arg then
                match PARSER_NEXT_BYTE t st2.pages st2.page_p st2.offset with
                | .error e => .error e
                | .ok (page3, offset3) =>
                  .ok { st2 with page_p := page3, offset := offset3,
                                 length := st2.length + 1 }
              else .ok st2 : Except Fault first_pass_state) with
          | .error e => .error e
          | .ok st3 =>
            if flags1.has_branch_arg then
              first_pass_branch t flags1 branch_offset_length opcode_page opcode_offset st3
            else .ok st3

/-- The first `while` loop of `parser_post_processing`; every iteration consumes at least one
byte of the stream, `fuel` bounds the number of iterations. -/
def first_pass_loop (lim : parser_limits) (t : cbc_tables) (pool : List lexer_literal_t)
    (literal_count literal_one_byte_limit : Nat) (last : Option Nat × Nat) :
    Nat → first_pass_state → Except Fault first_pass_state
  | 0, st =>
    if st.page_p ≠ last.1 ∨ st.offset < last.2 then .error Fault.invalid_pointer else .ok st
  | fuel + 1, st =>
    if st.page_p ≠ last.1 ∨ st.offset < last.2 then
      match first_pass_instruction lim t pool literal_count literal_one_byte_limit st with
      | .error e => .error e
      | .ok st1 =>
        first_pass_loop lim t pool literal_count literal_one_byte_limit last fuel st1
    else .ok st

/-! ## Copy pass of `parser_post_processing` -/

/-- The variables of the second loop of `parser_post_processing`; `dst` holds the bytes
written to the final byte code so far (initializers included), `real_offset` is a
`uint8_t`. -/
structure copy_state where
  pages : List parser_mem_page_t
  page_p : Option Nat
  offset : Nat
  real_offset : Nat
  dst : List Nat
  deriving DecidableEq, Repr

/-- Embedding of the macro `PARSER_NEXT_BYTE_UPDATE`. -/
def PARSER_NEXT_BYTE_UPDATE (t : cbc_tables) (st : copy_state) : Except Fault copy_state :=
  match page_write st.pages st.page_p st.offset st.real_offset with
  | .error e => .error e
  | .ok pages1 =>
    if st.offset + 1 ≥ t.PARSER_CBC_STREAM_PAGE_SIZE then
      match page_get pages1 st.page_p with
      | .error e => .error e
      | .ok page => .ok { st with pages := pages1, page_p := page.next_p, offset := 0,
                                  real_offset := 0 }
    else .ok { st with pages := pages1, offset := st.offset + 1 }

/-- Embedding of `*dst_p++ = page_p->bytes[offset]; real_offset++;
PARSER_NEXT_BYTE_UPDATE (...)`: one byte of the stream is copied. -/
def copy_byte (t : cbc_tables) (st : copy_state) : Except Fault copy_state :=
  match page_read st.pages st.page_p st.offset with
  | .error e => .error e
  | .ok b =>
    PARSER_NEXT_BYTE_UPDATE t
      { st with dst := st.dst ++ [b], real_offset := u8 (st.real_offset + 1) }

/-- The `do ... while (--counter > 0)` loop that skips a deleted jump: `counter` calls of
`PARSER_NEXT_BYTE_UPDATE`. -/
def skip_bytes (t : cbc_tables) : Nat → copy_state → Except Fault copy_state
  | 0, st => .ok st
  | counter + 1, st =>
    match PARSER_NEXT_BYTE_UPDATE t st with
    | .error e => .error e
    | .ok st1 => skip_bytes t counter st1

/-- One literal argument in the copy pass: the first byte is copied, the second byte only
when the first byte is above the one byte limit. -/
def copy_literal (t : cbc_tables) (literal_one_byte_limit : Nat) (st : copy_state) :
    Except Fault copy_state :=
  match page_read st.pages st.page_p st.offset with
  | .error e => .error e
  | .ok first_byte =>
    match copy_byte t st with
    | .error e => .error e
    | .ok st1 =>
      if first_byte > literal_one_byte_limit then copy_byte t st1
      else PARSER_NEXT_BYTE_UPDATE t st1

/-- The `while (flags & (CBC_HAS_LITERAL_ARG | CBC_HAS_LITERAL_ARG2))` loop of the copy
pass. -/
def copy_literals (t : cbc_tables) (literal_one_byte_limit : Nat) :
    Nat → cbc_flags_t → copy_state → Except Fault (cbc_flags_t × copy_state)
  | 0, flags, st =>
    if flags.has_literal_arg || flags.has_literal_arg2 then .error Fault.invalid_pointer
    else .ok (flags, st)
  | fuel + 1, flags, st =>
    if flags.has_literal_arg || flags.has_literal_arg2 then
      match copy_literal t literal_one_byte_limit st with
      | .error e => .error e
      | .ok st1 =>
        match next_literal_flags flags with
        | none => .ok (flags, st1)
        | some flags1 => copy_literals t literal_one_byte_limit fuel flags1 st1
    else .ok (flags, st)

/-- Embedding of `(*opcode_p)--` on the final byte code. -/
def decrement_opcode (dst : List Nat) (opcode_p : Nat) : Except Fault (List Nat) :=
  match dst[opcode_p]? with
  | none => .error Fault.invalid_pointer
  | some opcode => .ok (dst.set opcode_p (u8 (opcode + 255)))

/-- The loop `while (--branch_offset_length > 0)` of the copy pass over the leading bytes of
a branch argument: leading zero bytes are dropped and the opcode is decreased for each. -/
def copy_branch_bytes (t : cbc_tables) (opcode_p : Nat) :
    Nat → Bool → copy_state → Except Fault copy_state
  | 0, _, st => .ok st
  | count + 1, prefix_zero, st =>
    match page_read st.pages st.page_p st.offset with
    | .error e => .error e
    | .ok byte =>
      if byte > 0 ∨ prefix_zero = false then
        match PARSER_NEXT_BYTE_UPDATE t
            { st with dst := st.dst ++ [byte], real_offset := u8 (st.real_offset + 1) } with
        | .error e => .error e
        | .ok st1 => copy_branch_bytes t opcode_p count false st1
      else
        match decrement_opcode st.dst opcode_p with
        | .error e => .error e
        | .ok dst1 =>
          match PARSER_NEXT_BYTE_UPDATE t { st with dst := dst1 } with
          | .error e => .error e
          | .ok st1 => copy_branch_bytes t opcode_p count prefix_zero st1

/-- Embedding of `*branch_mark_p |= CBC_HIGHEST_BIT_MASK`. -/
def set_branch_mark (pages : List parser_mem_page_t) (page_p : Option Nat) (offset : Nat) :
    Except Fault (List parser_mem_page_t) :=
  match page_read pages page_p offset with
  | .error e => .error e
  | .ok b => page_write pages page_p offset (b ||| CBC_HIGHEST_BIT_MASK)

/-- The part of the body of the second `while` loop of `parser_post_processing` that copies
the arguments of an instruction: the literal arguments, the byte argument and the branch
argument; `opcode_p` is the position of the opcode in the final byte code. -/
def copy_arguments (t : cbc_tables) (literal_one_byte_limit : Nat) (flags : cbc_flags_t)
    (branch_offset_length opcode_p : Nat) (st : copy_state) : Except Fault copy_state :=
  match copy_literals t literal_one_byte_limit 3 flags st with
  | .error e => .error e
  | .ok (flags1, st4) =>
    match (if flags1.has_byte_arg then copy_byte t st4
        else .ok st4 : Except Fault copy_state) with
    | .error e => .error e
    | .ok st5 =>
      if flags1.has_branch_arg then
        if 0 < branch_offset_length ∧ branch_offset_length ≤ 3 then
          match copy_branch_bytes t opcode_p (branch_offset_length - 1) true st5 with
          | .error e => .error e
          | .ok st6 => copy_byte t st6
        else .error Fault.assertion
      else .ok st5

/-- The part of the body of the second `while` loop of `parser_post_processing` that stores
the opcode (and the extended opcode after `CBC_EXT_OPCODE`): returns the flags, the branch
offset length, the position `opcode_p` of the opcode in the final byte code and the state. -/
def copy_opcode (t : cbc_tables) (opcode : Nat) (st : copy_state) :
    Except Fault (cbc_flags_t × Nat × Nat × copy_state) :=
  let opcode_p := st.dst.length
  match copy_byte t st with
  | .error e => .error e
  | .ok st1 =>
    if opcode = t.CBC_EXT_OPCODE then
      match page_read st1.pages st1.page_p st1.offset with
      | .error e => .error e
      | .ok ext_opcode =>
        match copy_byte t st1 with
        | .error e => .error e
        | .ok st2 =>
          .ok (t.cbc_ext_flags ext_opcode, t.CBC_BRANCH_OFFSET_LENGTH ext_opcode,
            opcode_p + 1, st2)
    else .ok (t.cbc_flags opcode, t.CBC_BRANCH_OFFSET_LENGTH opcode, opcode_p, st1)

/-- Body of the second `while` loop of `parser_post_processing`: one instruction. -/
def copy_instruction (t : cbc_tables) (literal_one_byte_limit : Nat) (st : copy_state) :
    Except Fault copy_state :=
  let branch_mark_page := st.page_p
  let branch_mark_offset := st.offset
  match page_read st.pages st.page_p st.offset with
  | .error e => .error e
  | .ok opcode =>
    if opcode = t.CBC_JUMP_FORWARD then
      skip_bytes t (if t.PARSER_MAXIMUM_CODE_SIZE ≤ 65535 then 3 else 4) st
    else
      match copy_opcode t opcode st with
      | .error e => .error e
      | .ok (flags, branch_offset_length, opcode_p, st2) =>
        match (if flags.has_branch_arg then
              match set_branch_mark st2.pages branch_mark_page branch_mark_offset with
              | .error e => .error e
              | .ok pages1 => .ok { st2 with pages := pages1 }
            else .ok st2 : Except Fault copy_state) with
        | .error e => .error e
        | .ok st3 =>
          if !flags.has_branch_arg || !(flags.has_byte_arg || flags.has_literal_arg) then
            copy_arguments t literal_one_byte_limit flags branch_offset_length opcode_p st3
          else .error Fault.assertion

/-- The second `while` loop of `parser_post_processing`; `fuel` bounds the number of
iterations. -/
def copy_loop (t : cbc_tables) (literal_one_byte_limit : Nat) (last : Option Nat × Nat) :
    Nat → copy_state → Except Fault copy_state
  | 0, st =>
    if st.page_p ≠ last.1 ∨ st.offset < last.2 then .error Fault.invalid_pointer else .ok st
  | fuel + 1, st =>
    if st.page_p ≠ last.1 ∨ st.offset < last.2 then
      match copy_instruction t literal_one_byte_limit st with
      | .error e => .error e
      | .ok st1 => copy_loop t literal_one_byte_limit last fuel st1
    else .ok st

/-! ## Recomputing the branch distances: `parse_update_branches` -/

/-- Subtraction on `size_t` (taken to be 64 bits wide): wraps around when the result would
be negative. -/
def size_sub (a b : Nat) : Nat := (a + 2 ^ 64 - b % 2 ^ 64) % 2 ^ 64

/-- Embedding of `page_p->bytes[offset] & CBC_LOWER_SEVEN_BIT_MASK`. -/
def page_read_count (pages : List parser_mem_page_t) (page_p : Option Nat) (offset : Nat) :
    Except Fault Nat :=
  match page_read pages page_p offset with
  | .error e => .error e
  | .ok b => .ok (b &&& CBC_LOWER_SEVEN_BIT_MASK)

/-- The `while (full_distance > PARSER_CBC_STREAM_PAGE_SIZE)` loop of
`parser_update_forward_branch`; `fuel` bounds the number of iterations. Returns the page, the
remaining distance and the distance summed up. -/
def update_forward_loop (t : cbc_tables) (pages : List parser_mem_page_t) :
    Nat → Option Nat → Nat → Nat → Except Fault (Option Nat × Nat × Nat)
  | 0, page_p, full_distance, new_distance =>
    if full_distance > t.PARSER_CBC_STREAM_PAGE_SIZE then .error Fault.invalid_pointer
    else .ok (page_p, full_distance, new_distance)
  | fuel + 1, page_p, full_distance, new_distance =>
    if full_distance > t.PARSER_CBC_STREAM_PAGE_SIZE then
      match page_read_count pages page_p (t.PARSER_CBC_STREAM_PAGE_SIZE - 1) with
      | .error e => .error e
      | .ok count =>
        match page_get pages page_p with
        | .error e => .error e
        | .ok page =>
          update_forward_loop t pages fuel page.next_p
            (full_distance - t.PARSER_CBC_STREAM_PAGE_SIZE) (new_distance + count)
    else .ok (page_p, full_distance, new_distance)

/-- Embedding of `parser_update_forward_branch`. -/
def parser_update_forward_branch (t : cbc_tables) (pages : List parser_mem_page_t)
    (page_p : Option Nat) (full_distance bytes_copied_before_jump : Nat) : Except Fault Nat :=
  match update_forward_loop t pages full_distance page_p full_distance 0 with
  | .error e => .error e
  | .ok (page1, full_distance1, new_distance) =>
    match page_read_count pages page1 (full_distance1 - 1) with
    | .error e => .error e
    | .ok count => .ok (size_sub (new_distance + count) bytes_copied_before_jump)

/-- The `while (full_distance >= PARSER_CBC_STREAM_PAGE_SIZE)` loop of
`parser_update_backward_branch`; `fuel` bounds the number of iterations. -/
def update_backward_loop (t : cbc_tables) (pages : List parser_mem_page_t) :
    Nat → Option Nat → Nat → Nat → Except Fault (Option Nat × Nat × Nat)
  | 0, page_p, full_distance, new_distance =>
    if full_distance ≥ t.PARSER_CBC_STREAM_PAGE_SIZE then .error Fault.invalid_pointer
    else .ok (page_p, full_distance, new_distance)
  | fuel + 1, page_p, full_distance, new_distance =>
    if full_distance ≥ t.PARSER_CBC_STREAM_PAGE_SIZE then
      if page_p ≠ none then
        match page_read_count pages page_p (t.PARSER_CBC_STREAM_PAGE_SIZE - 1) with
        | .error e => .error e
        | .ok count =>
          match page_get pages page_p with
          | .error e => .error e
          | .ok page =>
            update_backward_loop t pages fuel page.next_p
              (full_distance - t.PARSER_CBC_STREAM_PAGE_SIZE) (new_distance + count)
      else .error Fault.assertion
    else .ok (page_p, full_distance, new_distance)

/-- Embedding of `parser_update_backward_branch`. -/
def parser_update_backward_branch (t : cbc_tables) (pages : List parser_mem_page_t)
    (page_p : Option Nat) (full_distance bytes_copied_before_jump : Nat) : Except Fault Nat :=
  match update_backward_loop t pages full_distance page_p full_distance
      bytes_copied_before_jump with
  | .error e => .error e
  | .ok (page1, full_distance1, new_distance) =>
    if full_distance1 > 0 then
      let offset := t.PARSER_CBC_STREAM_PAGE_SIZE - full_distance1
      if page1 ≠ none then
        match page_read_count pages page1 (t.PARSER_CBC_STREAM_PAGE_SIZE - 1) with
        | .error e => .error e
        | .ok total =>
          match page_read_count pages page1 (offset - 1) with
          | .error e => .error e
          | .ok before => .ok (size_sub (new_distance + total) before)
      else .error Fault.assertion
    else .ok new_distance

/-- Embedding of the read `byte_code_p[i]` of the final byte code. -/
def code_read (code : List Nat) (i : Nat) : Except Fault Nat :=
  match code[i]? with
  | none => .error Fault.invalid_pointer
  | some b => .ok b

/-- The decoding loop `do ... while (--length > 0)` of `parse_update_branches`: reads
`length` bytes of the final byte code from position `bytes_p`, most significant first. -/
def decode_target (code : List Nat) : Nat → Nat → Nat → Except Fault Nat
  | 0, _, target_distance => .ok target_distance
  | length + 1, bytes_p, target_distance =>
    match code_read code bytes_p with
    | .error e => .error e
    | .ok b => decode_target code length (bytes_p + 1) ((target_distance <<< 8) ||| b)

/-- The encoding loop `do ... while (--branch_argument_length > 0)` of
`parse_update_branches`: writes `length` bytes of the distance backwards, ending right before
position `bytes_p`. -/
def encode_target : Nat → Nat → Nat → List Nat → Except Fault (List Nat)
  | 0, _, _, code => .ok code
  | length + 1, bytes_p, target_distance, code =>
    if 0 < bytes_p ∧ bytes_p - 1 < code.length then
      encode_target length (bytes_p - 1) (target_distance >>> 8)
        (code.set (bytes_p - 1) (target_distance &&& 0xff))
    else .error Fault.invalid_pointer

/-- The variables of the loop of `parse_update_branches`; `code` is the final byte code
(`byte_code_p` points to position `base` of it). -/
structure update_state where
  pages : List parser_mem_page_t
  page_p : Option Nat
  prev_page_p : Option Nat
  offset : Nat
  bytes_copied : Nat
  code : List Nat
  deriving DecidableEq, Repr

/-- The body of `if (page_p->bytes[offset] & CBC_HIGHEST_BIT_MASK)` in
`parse_update_branches`: the distance of one branch is recomputed and written back. -/
def update_branch (t : cbc_tables) (base : Nat) (st : update_state) :
    Except Fault (List Nat) :=
  match (if st.offset > 0 then page_read_count st.pages st.page_p (st.offset - 1)
      else .ok 0 : Except Fault Nat) with
  | .error e => .error e
  | .ok bytes_copied_before_jump =>
    let bytes_p := base + st.bytes_copied + bytes_copied_before_jump
    match code_read st.code bytes_p with
    | .error e => .error e
    | .ok first =>
      match (if first = t.CBC_EXT_OPCODE then
            match code_read st.code (bytes_p + 1) with
            | .error e => .error e
            | .ok ext_opcode => .ok (bytes_p + 1, ext_opcode, t.cbc_ext_flags ext_opcode)
          else .ok (bytes_p, first, t.cbc_flags first) :
            Except Fault (Nat × Nat × cbc_flags_t)) with
      | .error e => .error e
      | .ok (bytes_p1, opcode, flags) =>
        if flags.has_branch_arg then
          let branch_argument_length := t.CBC_BRANCH_OFFSET_LENGTH opcode
          if branch_argument_length = 0 then .error Fault.invalid_pointer
          else
            match decode_target st.code branch_argument_length (bytes_p1 + 1) 0 with
            | .error e => .error e
            | .ok target_distance =>
              match (if flags.forward_branch_arg then
                    if target_distance > 0 then
                      parser_update_forward_branch t st.pages st.page_p
                        (st.offset + target_distance) bytes_copied_before_jump
                    else .error Fault.assertion
                  else if target_distance < st.offset then
                    match page_read_count st.pages st.page_p
                        (st.offset - target_distance - 1) with
                    | .error e => .error e
                    | .ok bytes_copied_before_target =>
                      .ok (size_sub bytes_copied_before_jump bytes_copied_before_target)
                  else if target_distance = st.offset then .ok bytes_copied_before_jump
                  else
                    parser_update_backward_branch t st.pages st.prev_page_p
                      (target_distance - st.offset) bytes_copied_before_jump :
                    Except Fault Nat) with
              | .error e => .error e
              | .ok new_distance =>
                encode_target branch_argument_length
                  (bytes_p1 + 1 + branch_argument_length) new_distance st.code
        else .error Fault.assertion

/-- Body of the `while` loop of `parse_update_branches`: one byte of the stream. -/
def update_step (t : cbc_tables) (base : Nat) (st : update_state) :
    Except Fault update_state :=
  match page_read st.pages st.page_p st.offset with
  | .error e => .error e
  | .ok b =>
    match (if b &&& CBC_HIGHEST_BIT_MASK ≠ 0 then update_branch t base st
        else .ok st.code : Except Fault (List Nat)) with
    | .error e => .error e
    | .ok code1 =>
      if st.offset + 1 ≥ t.PARSER_CBC_STREAM_PAGE_SIZE then
        match st.page_p with
        | none => .error Fault.invalid_pointer
        | some p =>
          match st.pages[p]? with
          | none => .error Fault.invalid_pointer
          | some page =>
            let pages1 := st.pages.set p { page with next_p := st.prev_page_p }
            match page_read_count pages1 st.page_p (t.PARSER_CBC_STREAM_PAGE_SIZE - 1) with
            | .error e => .error e
            | .ok count =>
              .ok { pages := pages1, page_p := page.next_p, prev_page_p := st.page_p,
                    offset := 0, bytes_copied := st.bytes_copied + count, code := code1 }
      else .ok { st with offset := st.offset + 1, code := code1 }

/-- The `while` loop of `parse_update_branches`; `fuel` bounds the number of iterations. -/
def update_loop (t : cbc_tables) (base : Nat) (last : Option Nat × Nat) :
    Nat → update_state → Except Fault update_state
  | 0, st =>
    if st.page_p ≠ last.1 ∨ st.offset < last.2 then .error Fault.invalid_pointer else .ok st
  | fuel + 1, st =>
    if st.page_p ≠ last.1 ∨ st.offset < last.2 then
      match update_step t base st with
      | .error e => .error e
      | .ok st1 => update_loop t base last fuel st1
    else .ok st

/-- The number of iterations that suffices for the loops over a stream: one more than the
number of bytes its pages hold. -/
def stream_fuel (byte_code : parser_mem_data_t) : Nat :=
  (byte_code.pages.map (fun page => page.bytes.length)).sum + 1

/-- Embedding of `parse_update_branches`: returns the stream (pages linked in reverse order,
`first_p` and `last_p` exchanged) and the final byte code with the recomputed distances. -/
def parse_update_branches (t : cbc_tables) (byte_code : parser_mem_data_t)
    (code : List Nat) (base : Nat) : Except Fault (parser_mem_data_t × List Nat) :=
  let last := stream_end t byte_code
  match update_loop t base last (stream_fuel byte_code)
      { pages := byte_code.pages, page_p := byte_code.first_p, prev_page_p := none,
        offset := 0, bytes_copied := 0, code := code } with
  | .error e => .error e
  | .ok st =>
    match last.1 with
    | some p =>
      if last.1 = byte_code.last_p then
        match st.pages[p]? with
        | none => .error Fault.invalid_pointer
        | some page =>
          .ok ({ byte_code with
                  pages := st.pages.set p { page with next_p := st.prev_page_p }
                  last_p := byte_code.first_p
                  first_p := last.1 }, st.code)
      else .error Fault.assertion
    | none =>
      .ok ({ byte_code with
              pages := st.pages
              last_p := byte_code.first_p
              first_p := byte_code.last_p }, st.code)

/-! ## `parser_generate_initializers` -/

/-- The variables of the loops of `parser_generate_initializers`: the bytes written so far,
the local `argument_count` (a `uint16_t`), the debug counter `next_index` and the literal
table of the compiled code (entry `i` is the literal with index `register_count + i`). -/
structure initializers_state where
  dst : List Nat
  argument_count : Nat
  next_index : Nat
  literal_table : List literal_value_t
  deriving DecidableEq, Repr

/-- Body of the loop that emits the operands of `CBC_INITIALIZE_VARS` for one literal.
`next` is what a further `parser_list_iterator_next` returns; the third component of the
result tells whether that further call was made. -/
def initialize_vars_literal (literal_one_byte_limit : Nat) (st : initializers_state)
    (literal : lexer_literal_t) (next : Option lexer_literal_t) :
    Except Fault (lexer_literal_t × initializers_state × Bool) :=
  let argument_count :=
    if literal.status_flags.function_argument then u16 (st.argument_count + 1)
    else st.argument_count
  if literal.status_flags.var && literal.status_flags.no_reg_store
      && literal.status_flags.initialized then
    if literal.type = LEXER_IDENT_LITERAL ∧ literal.index = st.next_index then
      let literal1 :=
        { literal with status_flags := { literal.status_flags with initialized := false } }
      if literal1.status_flags.function_argument then
        .ok (literal1,
          { st with
            argument_count := argument_count
            next_index := u16 (st.next_index + 1)
            dst := parser_encode_literal st.dst (u16 (argument_count + 65535))
              literal_one_byte_limit }, false)
      else
        match next with
        | none => .error Fault.assertion
        | some func_literal =>
          if func_literal.type = LEXER_FUNCTION_LITERAL then
            .ok (literal1,
              { st with
                argument_count := argument_count
                next_index := u16 (st.next_index + 1)
                dst := parser_encode_literal st.dst func_literal.index
                  literal_one_byte_limit }, true)
          else .error Fault.assertion
    else .error Fault.assertion
  else .ok (literal, { st with argument_count := argument_count }, false)

/-- The loop of `parser_generate_initializers` that emits the operands of
`CBC_INITIALIZE_VARS`. -/
def initialize_vars_loop (literal_one_byte_limit : Nat) :
    initializers_state → List lexer_literal_t →
    Except Fault (List lexer_literal_t × initializers_state)
  | st, [] => .ok ([], st)
  | st, [literal] =>
    match initialize_vars_literal literal_one_byte_limit st literal none with
    | .error e => .error e
    | .ok (literal1, st1, _) => .ok ([literal1], st1)
  | st, literal :: next :: rest =>
    match initialize_vars_literal literal_one_byte_limit st literal (some next) with
    | .error e => .error e
    | .ok (literal1, st1, false) =>
      match initialize_vars_loop literal_one_byte_limit st1 (next :: rest) with
      | .error e => .error e
      | .ok (rest1, st2) => .ok (literal1 :: rest1, st2)
    | .ok (literal1, st1, true) =>
      match initialize_vars_loop literal_one_byte_limit st1 rest with
      | .error e => .error e
      | .ok (rest1, st2) => .ok (literal1 :: next :: rest1, st2)

/-- Body of the last loop of `parser_generate_initializers` for one literal: the value goes
to the literal table and a `CBC_INITIALIZE_VAR` is emitted for an initialized variable. -/
def initialize_var_literal (t : cbc_tables) (literal_one_byte_limit register_count : Nat)
    (st : initializers_state) (literal : lexer_literal_t) (next : Option lexer_literal_t) :
    Except Fault (initializers_state × Bool) :=
  match (if literal.type ≠ LEXER_UNUSED_LITERAL ∧ literal.status_flags.unused_ident = false
        ∧ literal.index ≥ register_count then
        if literal.index - register_count < st.literal_table.length then
          .ok (st.literal_table.set (literal.index - register_count) literal.value)
        else .error Fault.invalid_pointer
      else .ok st.literal_table : Except Fault (List literal_value_t)) with
  | .error e => .error e
  | .ok table1 =>
    let argument_count :=
      if literal.status_flags.function_argument then u16 (st.argument_count + 1)
      else st.argument_count
    let st1 := { st with literal_table := table1, argument_count := argument_count }
    if literal.status_flags.var && literal.status_flags.initialized then
      if literal.type = LEXER_IDENT_LITERAL then
        if literal.status_flags.function_argument then
          let init_index := u16 (argument_count + 65535)
          if init_index = literal.index then .ok (st1, false)
          else
            .ok ({ st1 with
              dst := parser_encode_literal
                (parser_encode_literal (st1.dst ++ [t.CBC_INITIALIZE_VAR]) literal.index
                  literal_one_byte_limit) init_index literal_one_byte_limit }, false)
        else
          match next with
          | none => .error Fault.assertion
          | some func_literal =>
            if func_literal.type = LEXER_FUNCTION_LITERAL then
              if func_literal.index ≥ register_count then
                .ok ({ st1 with
                  dst := parser_encode_literal
                    (parser_encode_literal (st1.dst ++ [t.CBC_INITIALIZE_VAR]) literal.index
                      literal_one_byte_limit) func_literal.index literal_one_byte_limit },
                  true)
              else .error Fault.assertion
            else .error Fault.assertion
      else .error Fault.assertion
    else .ok (st1, false)

/-- The last loop of `parser_generate_initializers`. -/
def initialize_var_loop (t : cbc_tables) (literal_one_byte_limit register_count : Nat) :
    initializers_state → List lexer_literal_t → Except Fault initializers_state
  | st, [] => .ok st
  | st, [literal] =>
    match initialize_var_literal t literal_one_byte_limit register_count st literal none with
    | .error e => .error e
    | .ok (st1, _) => .ok st1
  | st, literal :: next :: rest =>
    match initialize_var_literal t literal_one_byte_limit register_count st literal
        (some next) with
    | .error e => .error e
    | .ok (st1, false) =>
      initialize_var_loop t literal_one_byte_limit register_count st1 (next :: rest)
    | .ok (st1, true) =>
      initialize_var_loop t literal_one_byte_limit register_count st1 rest

/-- Embedding of `parser_generate_initializers`: returns the context (flags of the context
and of the literals updated), the bytes written and the literal table. -/
def parser_generate_initializers (t : cbc_tables) (context : parser_context_t)
    (dst : List Nat) (literal_table : List literal_value_t)
    (uninitialized_var_end initialized_var_end literal_one_byte_limit : Nat) :
    Except Fault (parser_context_t × List Nat × List literal_value_t) :=
  let dst1 :=
    if uninitialized_var_end > context.register_count then
      parser_encode_literal (dst ++ [t.CBC_DEFINE_VARS]) (u16 (uninitialized_var_end + 65535))
        literal_one_byte_limit
    else dst
  match (if context.status_flags.has_initialized_vars then
        let dst2 := parser_encode_literal
          (parser_encode_literal (dst1 ++ [t.CBC_INITIALIZE_VARS]) uninitialized_var_end
            literal_one_byte_limit)
          (u16 (initialized_var_end + 65535)) literal_one_byte_limit
        match initialize_vars_loop literal_one_byte_limit
            { dst := dst2, argument_count := 0, next_index := uninitialized_var_end,
              literal_table := literal_table } context.literal_pool with
        | .error e => .error e
        | .ok (pool1, st1) =>
          if st1.argument_count = context.argument_count then
            .ok ({ context with
                    status_flags := { context.status_flags with lexical_env_needed := true }
                    literal_pool := pool1 }, st1.dst)
          else .error Fault.assertion
      else .ok (context, dst1) : Except Fault (parser_context_t × List Nat)) with
  | .error e => .error e
  | .ok (context1, dst3) =>
    match initialize_var_loop t literal_one_byte_limit context1.register_count
        { dst := dst3, argument_count := 0, next_index := 0, literal_table := literal_table }
        context1.literal_pool with
    | .error e => .error e
    | .ok st2 =>
      if context1.status_flags.function_has_rest_param then
        if st2.argument_count = context1.argument_count + 1 then
          .ok (context1, st2.dst, st2.literal_table)
        else .error Fault.assertion
      else if st2.argument_count = context1.argument_count then
        .ok (context1, st2.dst, st2.literal_table)
      else .error Fault.assertion

/-! ## `parser_post_processing` -/

/-- Embedding of the bits of `cbc_compiled_code_t.status_flags`: `CBC_CODE_FLAGS_FUNCTION`,
`CBC_CODE_FLAGS_UINT16_ARGUMENTS`, `CBC_CODE_FLAGS_FULL_LITERAL_ENCODING`,
`CBC_CODE_FLAGS_STRICT_MODE`, `CBC_CODE_FLAGS_ARGUMENTS_NEEDED`,
`CBC_CODE_FLAGS_LEXICAL_ENV_NOT_NEEDED`, `CBC_CODE_FLAGS_ARROW_FUNCTION`,
`CBC_CODE_FLAGS_CONSTRUCTOR`, `CBC_CODE_FLAGS_REST_PARAMETER`. -/
structure cbc_code_flags where
  function : Bool := false
  uint16_arguments : Bool := false
  full_literal_encoding : Bool := false
  strict_mode : Bool := false
  arguments_needed : Bool := false
  lexical_env_not_needed : Bool := false
  arrow_function : Bool := false
  constructor : Bool := false
  rest_parameter : Bool := false
  deriving DecidableEq, Repr

/-- Embedding of the compiled code block: the header (`cbc_uint8_arguments_t` or
`cbc_uint16_arguments_t`), the literal table, the byte code and the optional table of
argument names; `total_size` is the size passed to `parser_malloc`. -/
structure cbc_compiled_code_t where
  status_flags : cbc_code_flags
  stack_limit : Nat
  argument_end : Nat
  register_end : Nat
  ident_end : Nat
  const_literal_end : Nat
  literal_end : Nat
  literal_table : List literal_value_t
  byte_code : List Nat
  argument_names : Option (List literal_value_t)
  total_size : Nat
  deriving DecidableEq, Repr

/-- The loop of `parser_post_processing` that fills the table of argument names; `fuel`
bounds the number of iterations. -/
def argument_names_loop (pool : List lexer_literal_t) (literal_table : List literal_value_t)
    (register_count context_argument_count : Nat) :
    Nat → List lexer_literal_t → Nat → List literal_value_t →
    Except Fault (List literal_value_t)
  | 0, _, argument_count, names =>
    if argument_count < context_argument_count then .error Fault.invalid_pointer
    else .ok names
  | fuel + 1, iterator, argument_count, names =>
    if argument_count < context_argument_count then
      match iterator with
      | [] => .error Fault.assertion
      | literal :: rest =>
        if !literal.status_flags.function_argument then
          argument_names_loop pool literal_table register_count context_argument_count
            fuel rest argument_count names
        else if literal.type = LEXER_UNUSED_LITERAL ∧ literal.value = none then
          argument_names_loop pool literal_table register_count context_argument_count
            fuel rest (u16 (argument_count + 1)) (names ++ [none])
        else
          match (if literal.type = LEXER_UNUSED_LITERAL then
                PARSER_GET_LITERAL pool literal.index
              else .ok literal : Except Fault lexer_literal_t) with
          | .error _ => .error Fault.assertion
          | .ok literal1 =>
            if literal1.type = LEXER_IDENT_LITERAL ∧ literal1.status_flags.var = true
                ∧ literal1.index ≥ register_count then
              match literal_table[literal1.index - register_count]? with
              | none => .error Fault.invalid_pointer
              | some value =>
                argument_names_loop pool literal_table register_count context_argument_count
                  fuel rest (u16 (argument_count + 1)) (names ++ [value])
            else .error Fault.assertion
    else .ok names

/-- The first part of `parser_post_processing`, up to the end of the first `while` loop: the
stack limit check, `parser_copy_identifiers`, `parser_compute_indicies` and the first pass
over the stream. Returns the result of `parser_compute_indicies` (with the context) and the
variables of the first loop. -/
def post_processing_first_pass (lim : parser_limits) (t : cbc_tables)
    (context0 : parser_context_t) : Except Fault (compute_indicies_result × first_pass_state) :=
  if context0.stack_limit + context0.register_count > t.PARSER_MAXIMUM_STACK_LIMIT then
    .error (Fault.raised parser_error_t.PARSER_ERR_STACK_LIMIT_REACHED)
  else if ¬ context0.literal_count ≤ PARSER_MAXIMUM_NUMBER_OF_LITERALS then
    .error Fault.assertion
  else
  match parser_copy_identifiers context0 with
  | .error e => .error e
  | .ok context1 =>
  match parser_compute_indicies lim context1 with
  | .error e => .error e
  | .ok r =>
  let context2 := r.context
  let literal_one_byte_limit :=
    if context2.literal_count ≤ lim.CBC_MAXIMUM_SMALL_VALUE then CBC_MAXIMUM_BYTE_VALUE - 1
    else CBC_LOWER_SEVEN_BIT_MASK
  match first_pass_loop lim t context2.literal_pool context2.literal_count
      literal_one_byte_limit (stream_end t context2.byte_code)
      (stream_fuel context2.byte_code)
      { pages := context2.byte_code.pages, page_p := context2.byte_code.first_p, offset := 0,
        length := r.length, last_opcode := t.CBC_EXT_OPCODE } with
  | .error e => .error e
  | .ok first => .ok (r, first)

/-- The part of `parser_post_processing` that decides on the end label after the first loop:
returns `length` and the context. -/
def post_processing_end_label (t : cbc_tables) (context : parser_context_t)
    (first : first_pass_state) : Nat × parser_context_t :=
  if !context.status_flags.no_end_label || !t.PARSER_OPCODE_IS_RETURN first.last_opcode then
    (first.length + 1,
      { context with status_flags := { context.status_flags with no_end_label := false } })
  else (first.length, context)

/-- The part of `parser_post_processing` that computes the size of the compiled code and
fills its header and status flags; the literal table is allocated, the byte code is still to
be written. Returns the compiled code and the context. -/
def post_processing_header (lim : parser_limits) (t : cbc_tables) (context3 : parser_context_t)
    (r : compute_indicies_result) (length : Nat) :
    Except Fault (cbc_compiled_code_t × parser_context_t) :=
  let needs_uint16_arguments :=
    decide (context3.stack_limit > CBC_MAXIMUM_BYTE_VALUE)
      || decide (context3.register_count > CBC_MAXIMUM_BYTE_VALUE)
      || decide (context3.literal_count > CBC_MAXIMUM_BYTE_VALUE)
  let header_size :=
    if needs_uint16_arguments then t.sizeof_cbc_uint16_arguments_t
    else t.sizeof_cbc_uint8_arguments_t
  let literal_length :=
    size_sub context3.literal_count context3.register_count * t.sizeof_literal_value_t
  let arguments_table :=
    context3.status_flags.arguments_needed && !context3.status_flags.is_strict
  let total_size :=
    header_size + literal_length + length
      + (if arguments_table then context3.argument_count * t.sizeof_literal_value_t else 0)
  match (if context3.status_flags.function_has_rest_param then
        if context3.argument_count > 0 then
          .ok { context3 with argument_count := u16 (context3.argument_count + 65535) }
        else .error Fault.assertion
      else .ok context3 : Except Fault parser_context_t) with
  | .error e => .error e
  | .ok context4 =>
    let narrow (n : Nat) : Nat := if needs_uint16_arguments then n else u8 n
    let context5 : parser_context_t :=
      if context4.status_flags.arguments_needed then
        { context4 with
          status_flags := { context4.status_flags with lexical_env_needed := true } }
      else context4
    .ok ({ status_flags :=
             { function := true
               uint16_arguments := needs_uint16_arguments
               full_literal_encoding :=
                 decide (context4.literal_count > lim.CBC_MAXIMUM_SMALL_VALUE)
               strict_mode := context4.status_flags.is_strict
               arguments_needed := context4.status_flags.arguments_needed
               lexical_env_not_needed := !context5.status_flags.lexical_env_needed
               arrow_function := context5.status_flags.is_arrow_function
               constructor := context5.status_flags.class_constructor
               rest_parameter := context5.status_flags.function_has_rest_param }
           stack_limit := narrow context4.stack_limit
           argument_end := narrow context4.argument_count
           register_end := narrow context4.register_count
           ident_end := narrow r.ident_end
           const_literal_end := narrow r.const_literal_end
           literal_end := narrow context4.literal_count
           literal_table :=
             List.replicate (size_sub context3.literal_count context3.register_count) none
           byte_code := []
           argument_names := none
           total_size := total_size }, context5)

/-- The part of `parser_post_processing` that writes the byte code: the initializers, the
second `while` loop (the copy pass) and the final `CBC_RETURN_WITH_BLOCK`, with the two
assertions on the number of bytes written. Returns the context, the variables of the loop,
the byte code and the literal table. -/
def post_processing_copy_pass (t : cbc_tables) (context5 : parser_context_t)
    (r : compute_indicies_result) (first : first_pass_state)
    (length literal_one_byte_limit : Nat) (literal_table : List literal_value_t) :
    Except Fault (parser_context_t × copy_state × List Nat × List literal_value_t) :=
  match parser_generate_initializers t context5 [] literal_table r.uninitialized_var_end
      r.initialized_var_end literal_one_byte_limit with
  | .error e => .error e
  | .ok (context6, dst0, literal_table1) =>
    if dst0.length = r.length then
      match copy_loop t literal_one_byte_limit (stream_end t context6.byte_code)
          (stream_fuel context6.byte_code)
          { pages := first.pages, page_p := context6.byte_code.first_p, offset := 0,
            real_offset := 0, dst := dst0 } with
      | .error e => .error e
      | .ok copied =>
        let dst1 :=
          if !context6.status_flags.no_end_label then copied.dst ++ [t.CBC_RETURN_WITH_BLOCK]
          else copied.dst
        if dst1.length = length then .ok (context6, copied, dst1, literal_table1)
        else .error Fault.assertion
    else .error Fault.assertion

/-- The last part of `parser_post_processing`: the table of argument names, present when the
`arguments` object is needed in non-strict code. -/
def post_processing_argument_names (context : parser_context_t)
    (literal_table : List literal_value_t) : Except Fault (Option (List literal_value_t)) :=
  if context.status_flags.arguments_needed && !context.status_flags.is_strict then
    match argument_names_loop context.literal_pool literal_table context.register_count
        context.argument_count (context.literal_pool.length + 1) context.literal_pool 0 [] with
    | .error e => .error e
    | .ok names => .ok (some names)
  else .ok none

/-- Embedding of `parser_post_processing`: returns the compiled code and the context as the
function leaves it. -/
def parser_post_processing (lim : parser_limits) (t : cbc_tables)
    (context0 : parser_context_t) : Except Fault (cbc_compiled_code_t × parser_context_t) :=
  match post_processing_first_pass lim t context0 with
  | .error e => .error e
  | .ok (r, first) =>
    let literal_one_byte_limit :=
      if r.context.literal_count ≤ lim.CBC_MAXIMUM_SMALL_VALUE then CBC_MAXIMUM_BYTE_VALUE - 1
      else CBC_LOWER_SEVEN_BIT_MASK
    let labelled := post_processing_end_label t r.context first
    match post_processing_header lim t labelled.2 r labelled.1 with
    | .error e => .error e
    | .ok (compiled_code, context5) =>
      match post_processing_copy_pass t context5 r first labelled.1 literal_one_byte_limit
          compiled_code.literal_table with
      | .error e => .error e
      | .ok (context6, copied, dst1, literal_table) =>
        match parse_update_branches t { context6.byte_code with pages := copied.pages } dst1
            r.length with
        | .error e => .error e
        | .ok (byte_code, code) =>
          let context7 := { context6 with byte_code := byte_code }
          match post_processing_argument_names context7 literal_table with
          | .error e => .error e
          | .ok argument_names =>
            .ok ({ compiled_code with
                    literal_table := literal_table
                    byte_code := code
                    argument_names := argument_names }, context7)

/-! ## A concrete instance of the tables -/

/-- Modelled from the spec: a small instance of the opcode tables with the layout the spec
describes (branch offset width encoded in the opcode family, `CBC_BRANCH_OFFSET_LENGTH` the
low two bits of the opcode); used for the concrete examples. Opcodes: `0` extended prefix,
`1..3` unconditional forward jump, `4` pop, `5..7` unconditional backward jump, `8` one
literal, `9` two literals, `10` three literals, `11` one byte argument, `12` return,
`13` return with block, `17..19` conditional forward branch. -/
def example_tables : cbc_tables where
  PARSER_CBC_STREAM_PAGE_SIZE := 8
  PARSER_MAXIMUM_CODE_SIZE := 65535
  PARSER_MAXIMUM_STACK_LIMIT := 1024
  CBC_EXT_OPCODE := 0
  CBC_JUMP_FORWARD := 1
  CBC_JUMP_FORWARD_2 := 2
  CBC_JUMP_FORWARD_3 := 3
  CBC_RETURN := 12
  CBC_RETURN_WITH_BLOCK := 13
  CBC_EXT_CONSTRUCTOR_RETURN := 4
  CBC_DEFINE_VARS := 14
  CBC_INITIALIZE_VARS := 15
  CBC_INITIALIZE_VAR := 16
  cbc_flags := fun opcode =>
    if opcode = 1 ∨ opcode = 2 ∨ opcode = 3 ∨ opcode = 17 ∨ opcode = 18 ∨ opcode = 19 then
      { has_branch_arg := true, forward_branch_arg := true }
    else if opcode = 5 ∨ opcode = 6 ∨ opcode = 7 then { has_branch_arg := true }
    else if opcode = 8 then { has_literal_arg := true }
    else if opcode = 9 then { has_literal_arg := true, has_literal_arg2 := true }
    else if opcode = 10 then { has_literal_arg2 := true }
    else if opcode = 11 then { has_byte_arg := true }
    else {}
  cbc_ext_flags := fun opcode =>
    if opcode = 1 ∨ opcode = 2 ∨ opcode = 3 then
      { has_branch_arg := true, forward_branch_arg := true }
    else if opcode = 5 ∨ opcode = 6 ∨ opcode = 7 then { has_branch_arg := true }
    else if opcode = 8 then { has_literal_arg := true }
    else {}
  CBC_BRANCH_OFFSET_LENGTH := fun opcode => opcode % 4
  PARSER_OPCODE_IS_RETURN := fun opcode => opcode = 12 || opcode = 13
  sizeof_cbc_uint8_arguments_t := 8
  sizeof_cbc_uint16_arguments_t := 16
  sizeof_literal_value_t := 8

/-- Example pool for the redirect of the first pass: record 0 is a tombstone (type Unused)
whose `prop.index` names record 1, an identifier to which the classifier gave index 300. -/
def redirect_example_pool : List lexer_literal_t :=
  [ { type := LEXER_UNUSED_LITERAL, index := 1 },
    { value := some [97], length := 1, type := LEXER_IDENT_LITERAL, index := 300 } ]

/-- Example state of the first pass: the cursor is on the two byte placeholder `0, 0` of a
literal operand. -/
def redirect_example_state : first_pass_state :=
  { pages := [ { bytes := [8, 0, 0, 4, 4, 4, 4, 4] } ], page_p := some 0, offset := 1,
    length := 1, last_opcode := 8 }

/-! ## Flat positions in the paged stream -/

/-- The page with number `i` of the stream, `chain` being the list of the page pointers in
stream order. -/
def page_at (pages : List parser_mem_page_t) (chain : List Nat) (i : Nat) :
    Option parser_mem_page_t :=
  chain[i]?.bind (fun p => pages[p]?)

/-- The pages listed in `chain` are distinct, exist and hold `PARSER_CBC_STREAM_PAGE_SIZE`
bytes each. -/
def pages_ok (t : cbc_tables) (pages : List parser_mem_page_t) (chain : List Nat) : Prop :=
  chain.Nodup ∧ ∀ i, i < chain.length →
    (page_at pages chain i).map (fun page => page.bytes.length)
      = some t.PARSER_CBC_STREAM_PAGE_SIZE

/-- The `next_p` pointers of the pages: the pages with number below `c` point to their
predecessor (the state the branch update leaves behind), the others to their successor. -/
def linked (pages : List parser_mem_page_t) (chain : List Nat) (c : Nat) : Prop :=
  ∀ i, i < chain.length →
    (page_at pages chain i).map (fun page => page.next_p)
      = some (if i < c then (if i = 0 then none else chain[i - 1]?) else chain[i + 1]?)

/-- The position `(page_p, offset)` of the byte with flat index `q` of the stream. -/
def cursor (t : cbc_tables) (chain : List Nat) (q : Nat) : Option Nat × Nat :=
  (chain[q / t.PARSER_CBC_STREAM_PAGE_SIZE]?, q % t.PARSER_CBC_STREAM_PAGE_SIZE)

/-- The byte with flat index `q` of the stream. -/
def stream_read (t : cbc_tables) (pages : List parser_mem_page_t) (chain : List Nat)
    (q : Nat) : Option Nat :=
  (page_at pages chain (q / t.PARSER_CBC_STREAM_PAGE_SIZE)).bind
    (fun page => page.bytes[q % t.PARSER_CBC_STREAM_PAGE_SIZE]?)

/-- A well-formed paged stream: the pages form the list `chain` from `first_p` to `last_p`,
and the write cursor `last_position` lies in the last page; a stream without pages has its
write cursor at `PARSER_CBC_STREAM_PAGE_SIZE`, so that the first write allocates a page. -/
def stream_ok (t : cbc_tables) (byte_code : parser_mem_data_t) (chain : List Nat) : Prop :=
  0 < t.PARSER_CBC_STREAM_PAGE_SIZE
    ∧ pages_ok t byte_code.pages chain ∧ linked byte_code.pages chain 0
    ∧ byte_code.first_p = chain.head? ∧ byte_code.last_p = chain.getLast?
    ∧ byte_code.last_position ≤ t.PARSER_CBC_STREAM_PAGE_SIZE
    ∧ (chain = [] → byte_code.last_position = t.PARSER_CBC_STREAM_PAGE_SIZE)

/-- The number of bytes the stream holds. -/
def stream_size (t : cbc_tables) (byte_code : parser_mem_data_t) (chain : List Nat) : Nat :=
  chain.length * t.PARSER_CBC_STREAM_PAGE_SIZE + byte_code.last_position
    - t.PARSER_CBC_STREAM_PAGE_SIZE

instance (t : cbc_tables) (pages : List parser_mem_page_t) (chain : List Nat) :
    Decidable (pages_ok t pages chain) := by
  unfold pages_ok; infer_instance

instance (pages : List parser_mem_page_t) (chain : List Nat) (c : Nat) :
    Decidable (linked pages chain c) := by
  unfold linked; infer_instance

instance (t : cbc_tables) (byte_code : parser_mem_data_t) (chain : List Nat) :
    Decidable (stream_ok t byte_code chain) := by
  unfold stream_ok; infer_instance

/-! ## Vocabulary for the copy pass -/

/-- The copy pass stands at the byte with flat index `q` of a well-formed stream. -/
def copy_at (t : cbc_tables) (chain : List Nat) (q : Nat) (st : copy_state) : Prop :=
  pages_ok t st.pages chain ∧ linked st.pages chain 0
    ∧ (st.page_p, st.offset) = cursor t chain q

/-- The counter the stream stores for position `q`: the low seven bits of the cell before
`q`, or zero at the start of a page. -/
def counter_at (t : cbc_tables) (pages : List parser_mem_page_t) (chain : List Nat)
    (q : Nat) : Nat :=
  if q % t.PARSER_CBC_STREAM_PAGE_SIZE = 0 then 0
  else ((stream_read t pages chain (q - 1)).getD 0) &&& CBC_LOWER_SEVEN_BIT_MASK

/-- The counter in the last cell of the page with number `i`. -/
def page_total (t : cbc_tables) (pages : List parser_mem_page_t) (chain : List Nat)
    (i : Nat) : Nat :=
  ((stream_read t pages chain
      (i * t.PARSER_CBC_STREAM_PAGE_SIZE + (t.PARSER_CBC_STREAM_PAGE_SIZE - 1))).getD 0)
    &&& CBC_LOWER_SEVEN_BIT_MASK

/-- The sum of the counters in the last cells of the pages with number below `i`. -/
def pages_total (t : cbc_tables) (pages : List parser_mem_page_t) (chain : List Nat)
    (i : Nat) : Nat :=
  ((List.range i).map (page_total t pages chain)).sum

/-- The number of bytes copied from the positions before `q`, as the counters in the stream
record it. -/
def copied_before (t : cbc_tables) (pages : List parser_mem_page_t) (chain : List Nat)
    (q : Nat) : Nat :=
  pages_total t pages chain (q / t.PARSER_CBC_STREAM_PAGE_SIZE) + counter_at t pages chain q

/-- The counters agree with the state of the copy pass at position `q`: `real_offset` is the
counter of the position and the final byte code written so far has `base` bytes more than
the counters record. -/
def counters_ok (t : cbc_tables) (chain : List Nat) (base q : Nat) (st : copy_state) : Prop :=
  st.real_offset = counter_at t st.pages chain q
    ∧ st.real_offset ≤ q % t.PARSER_CBC_STREAM_PAGE_SIZE
    ∧ st.dst.length = base + copied_before t st.pages chain q

/-- The copy pass went from position `q` in state `st` to position `q1` in state `st1`: it
wrote at most as many bytes as it consumed, left the first `pfx` bytes of the final byte code
and the cells outside `[q, q1)` alone, and kept the counters right. -/
def copy_run (t : cbc_tables) (chain : List Nat) (pfx q : Nat) (st : copy_state) (q1 : Nat)
    (st1 : copy_state) : Prop :=
  q ≤ q1 ∧ copy_at t chain q1 st1
    ∧ st.dst.length ≤ st1.dst.length
    ∧ st1.dst.length + q ≤ st.dst.length + q1
    ∧ (∀ x, x < pfx → st1.dst[x]? = st.dst[x]?)
    ∧ (∀ r, r < q ∨ q1 ≤ r →
        stream_read t st1.pages chain r = stream_read t st.pages chain r)
    ∧ (∀ base, t.PARSER_CBC_STREAM_PAGE_SIZE ≤ 127 → counters_ok t chain base q st →
        counters_ok t chain base q1 st1
          ∧ ∀ r, q ≤ r → r < q1 → ∃ c, stream_read t st1.pages chain r = some c ∧ c < 128)

/-- The copy pass marks the instruction at position `q` of the stream read by `read`: the
opcode is not the marker of a deleted jump and its flags carry `CBC_HAS_BRANCH_ARG`. -/
def branch_marked (t : cbc_tables) (read : Nat → Option Nat) (q : Nat) : Bool :=
  match read q with
  | none => false
  | some opcode =>
    if opcode = t.CBC_JUMP_FORWARD then false
    else if opcode = t.CBC_EXT_OPCODE then
      match read (q + 1) with
      | none => false
      | some ext_opcode => (t.cbc_ext_flags ext_opcode).has_branch_arg
    else (t.cbc_flags opcode).has_branch_arg

/-- The copy pass handled one instruction, going from position `q` in state `st` to position
`q1` in state `st1`: as `copy_run`, and the cell of the first byte of the instruction
carries the branch mark exactly when `marked` holds. -/
def instr_run (t : cbc_tables) (chain : List Nat) (marked : Bool) (q : Nat) (st : copy_state)
    (q1 : Nat) (st1 : copy_state) : Prop :=
  q < q1 ∧ copy_at t chain q1 st1
    ∧ st.dst.length ≤ st1.dst.length
    ∧ st1.dst.length + q ≤ st.dst.length + q1
    ∧ (∀ x, x < st.dst.length → st1.dst[x]? = st.dst[x]?)
    ∧ (∀ r, r < q ∨ q1 ≤ r →
        stream_read t st1.pages chain r = stream_read t st.pages chain r)
    ∧ (∀ base, t.PARSER_CBC_STREAM_PAGE_SIZE ≤ 127 → counters_ok t chain base q st →
        counters_ok t chain base q1 st1
          ∧ ∀ r, q ≤ r → r < q1 → ∃ c, stream_read t st1.pages chain r = some c
              ∧ (c &&& CBC_HIGHEST_BIT_MASK ≠ 0 ↔ r = q ∧ marked = true))

instance (t : cbc_tables) (chain : List Nat) (q : Nat) (st : copy_state) :
    Decidable (copy_at t chain q st) := by
  unfold copy_at; infer_instance

/-- Example state of the copy pass: the cursor is on an instruction with two literal
arguments, the first with a one byte index, the second with a two byte index. -/
def copy_example_state : copy_state :=
  { pages := [ { bytes := [9, 1, 0, 255, 45, 4, 4, 4] } ], page_p := some 0, offset := 0,
    real_offset := 0, dst := [] }

/-! ## Vocabulary for the first pass -/

/-- The first pass stands at the byte with flat index `q` of a well-formed stream. -/
def first_at (t : cbc_tables) (chain : List Nat) (q : Nat) (st : first_pass_state) : Prop :=
  pages_ok t st.pages chain ∧ linked st.pages chain 0
    ∧ (st.page_p, st.offset) = cursor t chain q
    ∧ q / t.PARSER_CBC_STREAM_PAGE_SIZE ≤ chain.length

/-- The first pass went from position `q` in state `st` to position `q1` in state `st1` and
counted at most as many bytes as it consumed. -/
def first_run (t : cbc_tables) (chain : List Nat) (q : Nat) (st : first_pass_state) (q1 : Nat)
    (st1 : first_pass_state) : Prop :=
  q ≤ q1 ∧ first_at t chain q1 st1 ∧ st1.length + q ≤ st.length + q1

/-- Example context: a function whose stream holds the single one byte instruction `4`
(no literals, no arguments). -/
def pop_example : parser_context_t :=
  { status_flags := { is_function := true }
    byte_code := { pages := [ { bytes := [4, 0, 0, 0, 0, 0, 0, 0] } ], first_p := some 0,
                   last_p := some 0, last_position := 1 } }

/-! ## Vocabulary for the branch update -/

/-- The state of the second `while` loop of `parser_post_processing` after at most `k`
iterations: as `copy_loop`, but the state is returned when the count is used up. -/
def copy_steps (t : cbc_tables) (literal_one_byte_limit : Nat) (last : Option Nat × Nat) :
    Nat → copy_state → Except Fault copy_state
  | 0, st => .ok st
  | k + 1, st =>
    if st.page_p ≠ last.1 ∨ st.offset < last.2 then
      match copy_instruction t literal_one_byte_limit st with
      | .error e => .error e
      | .ok st1 => copy_steps t literal_one_byte_limit last k st1
    else .ok st

/-- The value of the `w` bytes that `read` gives from position `p` on, most significant byte
first, on top of `acc` (the same arithmetic as `decode_target`). -/
def big_endian (read : Nat → Option Nat) : Nat → Nat → Nat → Option Nat
  | 0, _, acc => some acc
  | w + 1, p, acc =>
    match read p with
    | none => none
    | some b => big_endian read w (p + 1) ((acc <<< 8) ||| b)

/-- The branch instruction that `read` gives at position `p` (an opcode, after
`CBC_EXT_OPCODE` an extended opcode, then the distance, most significant byte first):
whether the branch is forward, and the distance; `none` when there is no branch instruction
at `p`. -/
def decode_branch (t : cbc_tables) (read : Nat → Option Nat) (p : Nat) : Option (Bool × Nat) :=
  match read p with
  | none => none
  | some opcode =>
    if opcode = t.CBC_EXT_OPCODE then
      match read (p + 1) with
      | none => none
      | some ext_opcode =>
        if (t.cbc_ext_flags ext_opcode).has_branch_arg then
          (big_endian read (t.CBC_BRANCH_OFFSET_LENGTH ext_opcode) (p + 2) 0).map
            (fun d => ((t.cbc_ext_flags ext_opcode).forward_branch_arg, d))
        else none
    else if (t.cbc_flags opcode).has_branch_arg then
      (big_endian read (t.CBC_BRANCH_OFFSET_LENGTH opcode) (p + 1) 0).map
        (fun d => ((t.cbc_flags opcode).forward_branch_arg, d))
    else none

/-- The final byte code holds at position `n` a branch instruction with `hdr` opcode bytes
(one, or two after `CBC_EXT_OPCODE`) and `w` distance bytes. -/
def code_branch (t : cbc_tables) (code : List Nat) (n hdr w : Nat) (forward : Bool) : Prop :=
  ((hdr = 1 ∧ ∃ opcode, code[n]? = some opcode ∧ opcode ≠ t.CBC_EXT_OPCODE
        ∧ (t.cbc_flags opcode).has_branch_arg = true
        ∧ (t.cbc_flags opcode).forward_branch_arg = forward
        ∧ t.CBC_BRANCH_OFFSET_LENGTH opcode = w)
    ∨ (hdr = 2 ∧ code[n]? = some t.CBC_EXT_OPCODE
        ∧ ∃ opcode, code[n + 1]? = some opcode
          ∧ (t.cbc_ext_flags opcode).has_branch_arg = true
          ∧ (t.cbc_ext_flags opcode).forward_branch_arg = forward
          ∧ t.CBC_BRANCH_OFFSET_LENGTH opcode = w))
    ∧ 1 ≤ w ∧ w ≤ 3 ∧ n + hdr + w ≤ code.length

/-- The byte at position `p` of `code` is present and not zero. -/
def nonzero_at (code : List Nat) (p : Nat) : Prop :=
  ∃ b, code[p]? = some b ∧ 0 < b

/-- The properties of the opcode tables that the branch update relies on: an opcode with a
branch argument has no literal and no byte argument; the opcode before a branch opcode with
an offset of two or three bytes is the same branch with an offset one byte shorter (the copy
pass decreases the opcode for every leading zero byte it drops); `CBC_EXT_OPCODE` itself is
no branch. Opcodes are bytes. -/
def tables_ok (t : cbc_tables) : Prop :=
  (∀ opcode, opcode < 256 → (t.cbc_flags opcode).has_branch_arg = true →
      (t.cbc_flags opcode).has_literal_arg = false
        ∧ (t.cbc_flags opcode).has_literal_arg2 = false
        ∧ (t.cbc_flags opcode).has_byte_arg = false
        ∧ opcode ≠ t.CBC_EXT_OPCODE
        ∧ (2 ≤ t.CBC_BRANCH_OFFSET_LENGTH opcode →
            1 ≤ opcode ∧ t.cbc_flags (opcode - 1) = t.cbc_flags opcode
              ∧ t.CBC_BRANCH_OFFSET_LENGTH (opcode - 1)
                  = t.CBC_BRANCH_OFFSET_LENGTH opcode - 1))
    ∧ (∀ opcode, opcode < 256 → (t.cbc_ext_flags opcode).has_branch_arg = true →
      (t.cbc_ext_flags opcode).has_literal_arg = false
        ∧ (t.cbc_ext_flags opcode).has_literal_arg2 = false
        ∧ (t.cbc_ext_flags opcode).has_byte_arg = false
        ∧ (2 ≤ t.CBC_BRANCH_OFFSET_LENGTH opcode →
            1 ≤ opcode ∧ t.cbc_ext_flags (opcode - 1) = t.cbc_ext_flags opcode
              ∧ t.CBC_BRANCH_OFFSET_LENGTH (opcode - 1)
                  = t.CBC_BRANCH_OFFSET_LENGTH opcode - 1))
    ∧ t.PARSER_CBC_STREAM_PAGE_SIZE ≤ 127

/-- The cells of the stream hold bytes. -/
def stream_bytes_ok (pages : List parser_mem_page_t) (chain : List Nat) : Prop :=
  ∀ i, i < chain.length →
    ((page_at pages chain i).map (fun page => page.bytes.all (fun b => decide (b < 256))))
      = some true

instance (pages : List parser_mem_page_t) (chain : List Nat) :
    Decidable (stream_bytes_ok pages chain) := by
  unfold stream_bytes_ok; infer_instance

/-- The copy pass went from position `q` in state `st` to position `q1` in state `st1` in
a number of whole instructions: it wrote at most as many bytes as it consumed, left the
bytes of the final byte code written before and the cells outside `[q, q1)` alone, and kept
the counters right. -/
def pass_run (t : cbc_tables) (chain : List Nat) (q : Nat) (st : copy_state) (q1 : Nat)
    (st1 : copy_state) : Prop :=
  q ≤ q1 ∧ copy_at t chain q1 st1
    ∧ st.dst.length ≤ st1.dst.length
    ∧ st1.dst.length + q ≤ st.dst.length + q1
    ∧ (∀ x, x < st.dst.length → st1.dst[x]? = st.dst[x]?)
    ∧ (∀ r, r < q ∨ q1 ≤ r →
        stream_read t st1.pages chain r = stream_read t st.pages chain r)
    ∧ (∀ base, t.PARSER_CBC_STREAM_PAGE_SIZE ≤ 127 → counters_ok t chain base q st →
        counters_ok t chain base q1 st1)

/-! ## Example streams -/

/-- Example builder: `k` linked pages of `page_size` bytes, numbered from `i` on, that hold
`bytes` (the last page filled up with zeros). -/
def example_pages (page_size : Nat) : Nat → Nat → List Nat → List parser_mem_page_t
  | 0, _, _ => []
  | k + 1, i, bytes =>
    { next_p := if k = 0 then none else some (i + 1),
      bytes := bytes.take page_size
        ++ List.replicate (page_size - (bytes.take page_size).length) 0 }
      :: example_pages page_size k (i + 1) (bytes.drop page_size)

/-- Example context: the stream starts with `CBC_JUMP_FORWARD_2` over 256 bytes (distance
bytes `1, 0`); the jump skips 84 jumps to the next instruction (`2, 0, 3`, removed by
post-processing) and the one byte instruction `4`, and lands on the return `12`. The stream
has 257 bytes in 33 pages of 8 bytes. -/
def long_jump_example : parser_context_t :=
  { status_flags := { is_function := true }
    byte_code :=
      { pages := example_pages 8 33 0
          ([2, 1, 0] ++ (List.replicate 84 [2, 0, 3]).flatten ++ [4, 12]),
        first_p := some 0, last_p := some 32, last_position := 1 } }
/-- Example context: the jump `2, 0, 6` (`CBC_JUMP_FORWARD_2` over six bytes) skips the
jump to the next instruction `2, 0, 3` and lands on the one byte instruction `4`. -/
def short_jump_example : parser_context_t :=
  { status_flags := { is_function := true }
    byte_code := { pages := [ { bytes := [2, 0, 6, 2, 0, 3, 4, 0] } ], first_p := some 0,
                   last_p := some 0, last_position := 7 } }
/-- Example context: the stream holds the single instruction `12` (`CBC_RETURN` of
`example_tables`); `PARSER_NO_END_LABEL` is clear. -/
def return_example : parser_context_t :=
  { status_flags := { is_function := true }
    byte_code := { pages := [ { bytes := [12, 0, 0, 0, 0, 0, 0, 0] } ], first_p := some 0,
                   last_p := some 0, last_position := 1 } }

/-- Example context: as `return_example`, with `PARSER_NO_END_LABEL` set. -/
def return_example_no_end_label : parser_context_t :=
  { status_flags := { is_function := true, no_end_label := true }
    byte_code := { pages := [ { bytes := [12, 0, 0, 0, 0, 0, 0, 0] } ], first_p := some 0,
                   last_p := some 0, last_position := 1 } }

/-- The counters and flags with which the first loop of `parser_compute_indicies` starts:
`PARSER_ARGUMENTS_NEEDED` is cleared when `PARSER_ARGUMENTS_NOT_NEEDED` is set. -/
def count_start (context : parser_context_t) : count_state :=
  { status_flags :=
      if context.status_flags.arguments_not_needed then
        { context.status_flags with arguments_needed := false }
      else context.status_flags
    literal_count := context.literal_count
    register_count := context.register_count }

/-- The number of records flagged `LEXER_FLAG_FUNCTION_ARGUMENT` in a list of records. -/
def argument_position (pre : List lexer_literal_t) : Nat :=
  (pre.filter (fun x => x.status_flags.function_argument)).length

/-- Two records carry the same name as `parser_copy_identifiers` compares names: the same
`prop.length` and `memcmp` finds the same bytes. -/
def same_bytes (p q : lexer_literal_t) : Prop :=
  p.length = q.length ∧ memcmp_eq p.value q.value p.length = true

/-- No two records of type `LEXER_IDENT_LITERAL` of the pool carry the same name. -/
def names_unique (pool : List lexer_literal_t) : Prop :=
  pool.Pairwise (fun p q =>
    ¬ (p.type = LEXER_IDENT_LITERAL ∧ q.type = LEXER_IDENT_LITERAL ∧ same_bytes p q))

instance (p q : lexer_literal_t) : Decidable (same_bytes p q) := by
  unfold same_bytes; infer_instance

instance (pool : List lexer_literal_t) : Decidable (names_unique pool) := by
  unfold names_unique; infer_instance

/-- Example for `parser_copy_identifiers`: the finished function has `PARSER_NO_REG_STORE`
and refers to the free identifier `a` (byte 97); the pool of the enclosing function is full,
32767 records for the identifier `b` (byte 98). -/
def full_parent_example : parser_context_t :=
  { status_flags := { no_reg_store := true }
    literal_count := 1
    literal_pool := [ { value := some [97], length := 1, type := LEXER_IDENT_LITERAL } ]
    last_context_p := some
      { status_flags := { is_function := true }
        literal_count := 32767
        literal_pool_data :=
          List.replicate 32767
            { value := some [98], length := 1, type := LEXER_IDENT_LITERAL,
              status_flags := { var := true } } } }

/-! ## Built-in objects: `ecma-builtins.c` -/

/-- Embedding of the identifiers of the internal properties that `ecma-builtins.c` uses. -/
inductive ecma_internal_property_id_t
  | ECMA_INTERNAL_PROPERTY_BUILT_IN_ID
  | ECMA_INTERNAL_PROPERTY_BUILT_IN_ROUTINE_DESC
  | ECMA_INTERNAL_PROPERTY_NON_INSTANTIATED_BUILT_IN_MASK_0_31
  | ECMA_INTERNAL_PROPERTY_NON_INSTANTIATED_BUILT_IN_MASK_32_63
  | ECMA_INTERNAL_PROPERTY_ECMA_VALUE
  | ECMA_INTERNAL_PROPERTY_DATE_FLOAT
  | ECMA_INTERNAL_PROPERTY_REGEXP_BYTECODE
  deriving DecidableEq, Repr

/-- Embedding of `ecma_builtin_property_type_t`, the `type` of a property descriptor; `other`
stands for a value outside the five cases of the `switch`. -/
inductive ecma_builtin_property_type_t
  | ECMA_BUILTIN_PROPERTY_SIMPLE
  | ECMA_BUILTIN_PROPERTY_NUMBER
  | ECMA_BUILTIN_PROPERTY_STRING
  | ECMA_BUILTIN_PROPERTY_OBJECT
  | ECMA_BUILTIN_PROPERTY_ROUTINE
  | other
  deriving DecidableEq, Repr

/-- Embedding of the numbers `ecma-builtins.c` makes: the conversion of a small integer, the
named constants of `builtin_number_list`, NaN and the two infinities. -/
inductive ecma_number_t
  | integer (value : Nat)
  | ECMA_NUMBER_MAX_VALUE
  | ECMA_NUMBER_MIN_VALUE
  | ECMA_NUMBER_E
  | ECMA_NUMBER_PI
  | ECMA_NUMBER_LN10
  | ECMA_NUMBER_LN2
  | ECMA_NUMBER_LOG2E
  | ECMA_NUMBER_LOG10E
  | ECMA_NUMBER_SQRT2
  | ECMA_NUMBER_SQRT_1_2
  | nan
  | infinity (negative : Bool)
  deriving DecidableEq, Repr

/-- Embedding of `ecma_value_t` as `ecma-builtins.c` makes values: `ecma_make_simple_value`,
`ecma_make_integer_value`, `ecma_make_number_value`, `ecma_make_string_value` of a magic
string and `ecma_make_object_value` of an object pointer. -/
inductive ecma_value_t
  | simple (value : Nat)
  | integer (value : Nat)
  | number (num : ecma_number_t)
  | string (magic_string_id : Nat)
  | object (object_p : Nat)
  deriving DecidableEq, Repr

/-- Modelled from the spec: an `ecma_string_t` is a magic string with its identifier (what
`ecma_is_string_magic` reports) or another string, given by its bytes. -/
inductive ecma_string_t
  | magic (magic_string_id : Nat)
  | chars (bytes : List Nat)
  deriving DecidableEq, Repr

/-- Embedding of `ecma_builtin_property_descriptor_t`. -/
structure ecma_builtin_property_descriptor_t where
  magic_string_id : Nat
  type : ecma_builtin_property_type_t
  value : Nat
  attributes : Nat
  deriving DecidableEq, Repr

/-- One `BUILTIN (...)` line of the absent `ecma-builtins.inc.h`: the object type, the
identifier of the prototype built-in (`ECMA_BUILTIN_ID__COUNT` for none), the extensible
flag and the property descriptor list, which ends with the descriptor whose
`magic_string_id` is `LIT_MAGIC_STRING__COUNT`. -/
structure ecma_builtin_description_t where
  object_type : Nat
  object_prototype_builtin_id : Nat
  is_extensible : Bool
  property_descriptor_list : List ecma_builtin_property_descriptor_t
  deriving DecidableEq, Repr

/-- The constants and tables of the absent headers that `ecma-builtins.c` uses, taken as
parameters; `builtins` is the table of `ecma-builtins.inc.h`, indexed by the built-in
identifier. An identifier of a built-in that the configuration leaves out is `none`. -/
structure ecma_builtin_tables where
  builtins : List ecma_builtin_description_t
  LIT_MAGIC_STRING__COUNT : Nat
  LIT_MAGIC_STRING_LENGTH : Nat
  LIT_MAGIC_STRING__EMPTY : Nat
  ECMA_OBJECT_TYPE_BUILT_IN_FUNCTION : Nat
  ECMA_OBJECT_TYPE_FUNCTION : Nat
  ECMA_BUILTIN_NUMBER_MAX : Nat
  ECMA_BUILTIN_NUMBER_NAN : Nat
  ECMA_BUILTIN_NUMBER_POSITIVE_INFINITY : Nat
  ECMA_BUILTIN_NUMBER_NEGATIVE_INFINITY : Nat
  ECMA_BUILTIN_ID_FUNCTION_PROTOTYPE : Nat
  ECMA_BUILTIN_ID_STRING_PROTOTYPE : Option Nat
  ECMA_BUILTIN_ID_NUMBER_PROTOTYPE : Option Nat
  ECMA_BUILTIN_ID_BOOLEAN_PROTOTYPE : Option Nat
  ECMA_BUILTIN_ID_DATE_PROTOTYPE : Option Nat
  ECMA_BUILTIN_ID_REGEXP_PROTOTYPE : Option Nat
  ECMA_SIMPLE_VALUE_EMPTY : Nat
  ECMA_SIMPLE_VALUE_FALSE : Nat
  ECMA_PROPERTY_FIXED : Nat
  ecma_is_property_configurable : Nat → Bool
  ECMA_BUILTIN_ROUTINE_ID_BUILT_IN_OBJECT_ID_POS : Nat
  ECMA_BUILTIN_ROUTINE_ID_BUILT_IN_OBJECT_ID_WIDTH : Nat
  ECMA_BUILTIN_ROUTINE_ID_BUILT_IN_ROUTINE_ID_POS : Nat
  ECMA_BUILTIN_ROUTINE_ID_BUILT_IN_ROUTINE_ID_WIDTH : Nat
  ECMA_BUILTIN_ROUTINE_ID_LENGTH_VALUE_POS : Nat
  ECMA_BUILTIN_ROUTINE_ID_LENGTH_VALUE_WIDTH : Nat

/-- The number of built-in identifiers, `ECMA_BUILTIN_ID__COUNT`. -/
def ecma_builtin_tables.ECMA_BUILTIN_ID__COUNT (t : ecma_builtin_tables) : Nat :=
  t.builtins.length

/-- The value an internal property holds: a `uint32_t`, an `ecma_value_t`, a pointer to a
number, or `ECMA_NULL_POINTER`. -/
inductive ecma_internal_value_t
  | uint32 (value : Nat)
  | ecma_value (value : ecma_value_t)
  | number_p (num : ecma_number_t)
  | null_pointer
  deriving DecidableEq, Repr

/-- A named data property of an object: name, attributes and value; `value = none` for a
property just created by `ecma_create_named_data_property`. -/
structure ecma_property_t where
  name : ecma_string_t
  attributes : Nat
  value : Option ecma_value_t := none
  deriving DecidableEq, Repr

/-- Modelled from the spec: the part of an object of the generic object model that
`ecma-builtins.c` touches: prototype, `[[Extensible]]`, object type, the built-in flag, the
internal properties and the named properties (the newest first). -/
structure ecma_object_t where
  prototype_p : Option Nat := none
  is_extensible : Bool := true
  type : Nat := 0
  is_builtin : Bool := false
  internal_properties : List (ecma_internal_property_id_t × ecma_internal_value_t) := []
  named_properties : List ecma_property_t := []
  deriving DecidableEq, Repr

/-- The state `ecma-builtins.c` works on: the objects of the heap (an object pointer is an
index) and the static array `ecma_builtin_objects` (`none` is `NULL`). Reference counts are
left out. -/
structure ecma_heap_t where
  objects : List ecma_object_t := []
  ecma_builtin_objects : List (Option Nat) := []
  deriving DecidableEq, Repr

/-- Modelled from the spec: `ecma_find_internal_property`, the value of the internal property
with the given identifier, `none` for `NULL`. -/
def ecma_find_internal_property (object : ecma_object_t) (id : ecma_internal_property_id_t) :
    Option ecma_internal_value_t :=
  object.internal_properties.lookup id

/-- Modelled from the spec: `ecma_create_internal_property`, a new internal property (its
value still to be set). -/
def ecma_create_internal_property (object : ecma_object_t)
    (id : ecma_internal_property_id_t) : ecma_object_t :=
  { object with
    internal_properties := (id, ecma_internal_value_t.uint32 0) :: object.internal_properties }

/-- Modelled from the spec: `ecma_set_internal_property_value` on the internal property with
the given identifier. -/
def ecma_set_internal_property_value (object : ecma_object_t)
    (id : ecma_internal_property_id_t) (value : ecma_internal_value_t) : ecma_object_t :=
  { object with
    internal_properties :=
      object.internal_properties.map (fun p => if p.1 = id then (id, value) else p) }

/-- Modelled from the spec: `ecma_create_named_data_property` followed by
`ecma_set_named_data_property_value` on the new property. -/
def ecma_create_named_data_property (object : ecma_object_t) (name : ecma_string_t)
    (attributes : Nat) (value : ecma_value_t) : ecma_object_t :=
  { object with
    named_properties :=
      { name := name, attributes := attributes, value := some value }
        :: object.named_properties }

/-- Modelled from the spec: `JRT_EXTRACT_BIT_FIELD`, the `width` bits of `container` from bit
`lsb` on. -/
def JRT_EXTRACT_BIT_FIELD (container lsb width : Nat) : Nat :=
  (container >>> lsb) &&& (2 ^ width - 1)

/-- Modelled from the spec: `JRT_SET_BIT_FIELD_VALUE` on a `uint64_t`, the container with the
`width` bits from bit `lsb` on replaced by `new_bit_field_value`. -/
def JRT_SET_BIT_FIELD_VALUE (container new_bit_field_value lsb width : Nat) : Nat :=
  ((container &&& (2 ^ 64 - 1 - ((2 ^ width - 1) <<< lsb) % 2 ^ 64))
    ||| ((new_bit_field_value <<< lsb) % 2 ^ 64)) % 2 ^ 64

/-- Embedding of `ecma_builtin_is`. -/
def ecma_builtin_is (t : ecma_builtin_tables) (heap : ecma_heap_t) (obj_p builtin_id : Nat) :
    Except Fault Bool :=
  if obj_p < heap.objects.length ∧ builtin_id < t.ECMA_BUILTIN_ID__COUNT then
    match heap.ecma_builtin_objects[builtin_id]? with
    | none => .error Fault.invalid_pointer
    | some none => .ok false
    | some (some p) => .ok (decide (obj_p = p))
  else .error Fault.assertion

/-- Embedding of `ecma_builtin_init_object`: creates the object of a built-in and returns
the heap and the pointer to the object. -/
def ecma_builtin_init_object (t : ecma_builtin_tables) (heap : ecma_heap_t)
    (obj_builtin_id : Nat) (prototype_obj_p : Option Nat) (obj_type : Nat)
    (is_extensible : Bool) : ecma_heap_t × Nat :=
  let object0 : ecma_object_t :=
    { prototype_p := prototype_obj_p, is_extensible := is_extensible, type := obj_type }
  let object1 :=
    ecma_set_internal_property_value
      (ecma_create_internal_property object0
        ecma_internal_property_id_t.ECMA_INTERNAL_PROPERTY_BUILT_IN_ID)
      ecma_internal_property_id_t.ECMA_INTERNAL_PROPERTY_BUILT_IN_ID
      (ecma_internal_value_t.uint32 obj_builtin_id)
  let object2 := { object1 with is_builtin := true }
  let object3 :=
    if t.ECMA_BUILTIN_ID_STRING_PROTOTYPE = some obj_builtin_id then
      ecma_set_internal_property_value
        (ecma_create_internal_property object2
          ecma_internal_property_id_t.ECMA_INTERNAL_PROPERTY_ECMA_VALUE)
        ecma_internal_property_id_t.ECMA_INTERNAL_PROPERTY_ECMA_VALUE
        (ecma_internal_value_t.ecma_value (ecma_value_t.string t.LIT_MAGIC_STRING__EMPTY))
    else if t.ECMA_BUILTIN_ID_NUMBER_PROTOTYPE = some obj_builtin_id then
      ecma_set_internal_property_value
        (ecma_create_internal_property object2
          ecma_internal_property_id_t.ECMA_INTERNAL_PROPERTY_ECMA_VALUE)
        ecma_internal_property_id_t.ECMA_INTERNAL_PROPERTY_ECMA_VALUE
        (ecma_internal_value_t.ecma_value (ecma_value_t.integer 0))
    else if t.ECMA_BUILTIN_ID_BOOLEAN_PROTOTYPE = some obj_builtin_id then
      ecma_set_internal_property_value
        (ecma_create_internal_property object2
          ecma_internal_property_id_t.ECMA_INTERNAL_PROPERTY_ECMA_VALUE)
        ecma_internal_property_id_t.ECMA_INTERNAL_PROPERTY_ECMA_VALUE
        (ecma_internal_value_t.ecma_value (ecma_value_t.simple t.ECMA_SIMPLE_VALUE_FALSE))
    else if t.ECMA_BUILTIN_ID_DATE_PROTOTYPE = some obj_builtin_id then
      ecma_set_internal_property_value
        (ecma_create_internal_property object2
          ecma_internal_property_id_t.ECMA_INTERNAL_PROPERTY_DATE_FLOAT)
        ecma_internal_property_id_t.ECMA_INTERNAL_PROPERTY_DATE_FLOAT
        (ecma_internal_value_t.number_p ecma_number_t.nan)
    else if t.ECMA_BUILTIN_ID_REGEXP_PROTOTYPE = some obj_builtin_id then
      ecma_set_internal_property_value
        (ecma_create_internal_property object2
          ecma_internal_property_id_t.ECMA_INTERNAL_PROPERTY_REGEXP_BYTECODE)
        ecma_internal_property_id_t.ECMA_INTERNAL_PROPERTY_REGEXP_BYTECODE
        ecma_internal_value_t.null_pointer
    else object2
  ({ heap with objects := heap.objects ++ [object3] }, heap.objects.length)

/-- Embedding of `ecma_init_builtins`. -/
def ecma_init_builtins (t : ecma_builtin_tables) (heap : ecma_heap_t) : ecma_heap_t :=
  { heap with ecma_builtin_objects := List.replicate t.ECMA_BUILTIN_ID__COUNT none }

/-- Embedding of `ecma_instantiate_builtin`; `fuel` bounds the depth of the recursion along
the prototypes. -/
def ecma_instantiate_builtin (t : ecma_builtin_tables) :
    Nat → ecma_heap_t → Nat → Except Fault ecma_heap_t
  | 0, _, _ => .error Fault.invalid_pointer
  | fuel + 1, heap, id =>
    match t.builtins[id]? with
    | none => .error Fault.assertion
    | some builtin =>
      if heap.ecma_builtin_objects[id]? = some none then
        match (if builtin.object_prototype_builtin_id = t.ECMA_BUILTIN_ID__COUNT then
              .ok (heap, none)
            else
              match (if heap.ecma_builtin_objects[builtin.object_prototype_builtin_id]?
                    = some none then
                    ecma_instantiate_builtin t fuel heap builtin.object_prototype_builtin_id
                  else .ok heap : Except Fault ecma_heap_t) with
              | .error e => .error e
              | .ok heap1 =>
                match heap1.ecma_builtin_objects[builtin.object_prototype_builtin_id]? with
                | some (some prototype_obj_p) => .ok (heap1, some prototype_obj_p)
                | some none => .error Fault.assertion
                | none => .error Fault.invalid_pointer :
              Except Fault (ecma_heap_t × Option Nat)) with
        | .error e => .error e
        | .ok (heap2, prototype_obj_p) =>
          let r := ecma_builtin_init_object t heap2 id prototype_obj_p builtin.object_type
            builtin.is_extensible
          .ok { r.1 with ecma_builtin_objects := r.1.ecma_builtin_objects.set id (some r.2) }
      else .error Fault.assertion

/-- Embedding of `ecma_builtin_get`: returns the pointer to the built-in and the heap. -/
def ecma_builtin_get (t : ecma_builtin_tables) (heap : ecma_heap_t) (builtin_id : Nat) :
    Except Fault (Nat × ecma_heap_t) :=
  if builtin_id < t.ECMA_BUILTIN_ID__COUNT then
    match (if heap.ecma_builtin_objects[builtin_id]? = some none then
          ecma_instantiate_builtin t (t.ECMA_BUILTIN_ID__COUNT + 1) heap builtin_id
        else .ok heap : Except Fault ecma_heap_t) with
    | .error e => .error e
    | .ok heap1 =>
      match heap1.ecma_builtin_objects[builtin_id]? with
      | some (some p) => .ok (p, heap1)
      | _ => .error Fault.invalid_pointer
  else .error Fault.assertion

/-- Embedding of `ecma_finalize_builtins`. -/
def ecma_finalize_builtins (heap : ecma_heap_t) : ecma_heap_t :=
  { heap with ecma_builtin_objects := heap.ecma_builtin_objects.map (fun _ => none) }

/-- The `packed_value` of `ecma_builtin_make_function_object_for_routine`: the identifier of
the built-in, the identifier of the routine and the value of `length`, each written into
its bit field of a `uint64_t` that starts as 0. -/
def ecma_builtin_routine_packed_value (t : ecma_builtin_tables)
    (builtin_id routine_id length_prop_value : Nat) : Nat :=
  JRT_SET_BIT_FIELD_VALUE
    (JRT_SET_BIT_FIELD_VALUE
      (JRT_SET_BIT_FIELD_VALUE 0 builtin_id
        t.ECMA_BUILTIN_ROUTINE_ID_BUILT_IN_OBJECT_ID_POS
        t.ECMA_BUILTIN_ROUTINE_ID_BUILT_IN_OBJECT_ID_WIDTH)
      routine_id t.ECMA_BUILTIN_ROUTINE_ID_BUILT_IN_ROUTINE_ID_POS
      t.ECMA_BUILTIN_ROUTINE_ID_BUILT_IN_ROUTINE_ID_WIDTH)
    length_prop_value t.ECMA_BUILTIN_ROUTINE_ID_LENGTH_VALUE_POS
    t.ECMA_BUILTIN_ROUTINE_ID_LENGTH_VALUE_WIDTH

/-- Embedding of `ecma_builtin_make_function_object_for_routine`: returns the pointer to the
function object and the heap. The parameter `routine_id` is a `uint16_t` and
`length_prop_value` a `uint8_t`. -/
def ecma_builtin_make_function_object_for_routine (t : ecma_builtin_tables)
    (heap : ecma_heap_t) (builtin_id routine_id length_prop_value : Nat) :
    Except Fault (Nat × ecma_heap_t) :=
  match ecma_builtin_get t heap t.ECMA_BUILTIN_ID_FUNCTION_PROTOTYPE with
  | .error e => .error e
  | .ok (prototype_obj_p, heap1) =>
    let func_obj : ecma_object_t :=
      { prototype_p := some prototype_obj_p, is_extensible := true,
        type := t.ECMA_OBJECT_TYPE_BUILT_IN_FUNCTION, is_builtin := true }
    let packed_value :=
      ecma_builtin_routine_packed_value t builtin_id (u16 routine_id) (u8 length_prop_value)
    if packed_value ≤ 2 ^ 32 - 1 then
      let func_obj1 :=
        ecma_set_internal_property_value
          (ecma_create_internal_property func_obj
            ecma_internal_property_id_t.ECMA_INTERNAL_PROPERTY_BUILT_IN_ROUTINE_DESC)
          ecma_internal_property_id_t.ECMA_INTERNAL_PROPERTY_BUILT_IN_ROUTINE_DESC
          (ecma_internal_value_t.uint32 (packed_value % 2 ^ 32))
      .ok (heap1.objects.length, { heap1 with objects := heap1.objects ++ [func_obj1] })
    else .error Fault.assertion

/-- The `while` loop of `ecma_builtin_try_to_instantiate_property` over the descriptor
list: the index and the descriptor with the given magic string identifier, `none` when the
descriptor with `LIT_MAGIC_STRING__COUNT` comes first. Running off the list is a fault. -/
def ecma_builtin_find_descriptor (t : ecma_builtin_tables) (magic_string_id : Nat) :
    List ecma_builtin_property_descriptor_t → Nat →
    Except Fault (Option (Nat × ecma_builtin_property_descriptor_t))
  | [], _ => .error Fault.invalid_pointer
  | curr_property :: rest, index =>
    if curr_property.magic_string_id ≠ magic_string_id then
      if curr_property.magic_string_id = t.LIT_MAGIC_STRING__COUNT then .ok none
      else ecma_builtin_find_descriptor t magic_string_id rest (index + 1)
    else .ok (some (index, curr_property))

/-- The table `builtin_number_list` of `ecma_builtin_try_to_instantiate_property`. -/
def builtin_number_list : List ecma_number_t :=
  [ ecma_number_t.ECMA_NUMBER_MAX_VALUE, ecma_number_t.ECMA_NUMBER_MIN_VALUE,
    ecma_number_t.ECMA_NUMBER_E, ecma_number_t.ECMA_NUMBER_PI,
    ecma_number_t.ECMA_NUMBER_LN10, ecma_number_t.ECMA_NUMBER_LN2,
    ecma_number_t.ECMA_NUMBER_LOG2E, ecma_number_t.ECMA_NUMBER_LOG10E,
    ecma_number_t.ECMA_NUMBER_SQRT2, ecma_number_t.ECMA_NUMBER_SQRT_1_2 ]

/-- The `switch (curr_property_p->type)` of `ecma_builtin_try_to_instantiate_property`: the
value of the property, materialized according to the type of the descriptor, and the heap
(a built-in or a function object may be created). -/
def ecma_builtin_property_value (t : ecma_builtin_tables) (heap : ecma_heap_t)
    (builtin_id magic_string_id : Nat) (curr_property : ecma_builtin_property_descriptor_t) :
    Except Fault (ecma_value_t × ecma_heap_t) :=
  match curr_property.type with
  | ecma_builtin_property_type_t.ECMA_BUILTIN_PROPERTY_SIMPLE =>
    .ok (ecma_value_t.simple curr_property.value, heap)
  | ecma_builtin_property_type_t.ECMA_BUILTIN_PROPERTY_NUMBER =>
    if curr_property.value < t.ECMA_BUILTIN_NUMBER_MAX then
      .ok (ecma_value_t.number (ecma_number_t.integer curr_property.value), heap)
    else if curr_property.value < t.ECMA_BUILTIN_NUMBER_NAN then
      match builtin_number_list[curr_property.value - t.ECMA_BUILTIN_NUMBER_MAX]? with
      | none => .error Fault.invalid_pointer
      | some num => .ok (ecma_value_t.number num, heap)
    else if curr_property.value = t.ECMA_BUILTIN_NUMBER_NAN then
      .ok (ecma_value_t.number ecma_number_t.nan, heap)
    else if curr_property.value = t.ECMA_BUILTIN_NUMBER_POSITIVE_INFINITY then
      .ok (ecma_value_t.number (ecma_number_t.infinity false), heap)
    else if curr_property.value = t.ECMA_BUILTIN_NUMBER_NEGATIVE_INFINITY then
      .ok (ecma_value_t.number (ecma_number_t.infinity true), heap)
    else .error Fault.assertion
  | ecma_builtin_property_type_t.ECMA_BUILTIN_PROPERTY_STRING =>
    .ok (ecma_value_t.string curr_property.value, heap)
  | ecma_builtin_property_type_t.ECMA_BUILTIN_PROPERTY_OBJECT =>
    match ecma_builtin_get t heap curr_property.value with
    | .error e => .error e
    | .ok (p, heap1) => .ok (ecma_value_t.object p, heap1)
  | ecma_builtin_property_type_t.ECMA_BUILTIN_PROPERTY_ROUTINE =>
    match ecma_builtin_make_function_object_for_routine t heap builtin_id magic_string_id
        (u8 curr_property.value) with
    | .error e => .error e
    | .ok (func_obj_p, heap1) => .ok (ecma_value_t.object func_obj_p, heap1)
  | ecma_builtin_property_type_t.other => .error Fault.assertion

/-- Writes the object `object` at the pointer `object_p`. -/
def ecma_heap_t.store (heap : ecma_heap_t) (object_p : Nat) (object : ecma_object_t) :
    ecma_heap_t :=
  { heap with objects := heap.objects.set object_p object }

/-- The test of the instantiation bit in `ecma_builtin_try_to_instantiate_property`: the mask
property is created with the bit set 0 when it does not exist; `none` when the bit is set,
otherwise the object and the bit set read. -/
def ecma_builtin_test_instantiated (object : ecma_object_t)
    (mask_prop_id : ecma_internal_property_id_t) (bit_for_index : Nat) :
    Except Fault (Option (ecma_object_t × Nat)) :=
  match ecma_find_internal_property object mask_prop_id with
  | none => .ok (some (ecma_create_internal_property object mask_prop_id, 0))
  | some (ecma_internal_value_t.uint32 instantiated_bitset) =>
    if instantiated_bitset &&& bit_for_index ≠ 0 then .ok none
    else .ok (some (object, instantiated_bitset))
  | some _ => .error Fault.assertion

/-- The part of `ecma_builtin_try_to_instantiate_property` behind the `while` loop, for the
descriptor `curr_property` found at `index`: the test and the update of the instantiation
bit, the value of the property and the new named data property. -/
def ecma_builtin_instantiate_descriptor (t : ecma_builtin_tables) (heap : ecma_heap_t)
    (object_p : Nat) (object : ecma_object_t) (string_p : ecma_string_t)
    (builtin_id magic_string_id index : Nat)
    (curr_property : ecma_builtin_property_descriptor_t) :
    Except Fault (Option ecma_property_t × ecma_heap_t) :=
  if index < 64 then
    let mask_prop_id :=
      if index < 32 then
        ecma_internal_property_id_t.ECMA_INTERNAL_PROPERTY_NON_INSTANTIATED_BUILT_IN_MASK_0_31
      else
        ecma_internal_property_id_t.ECMA_INTERNAL_PROPERTY_NON_INSTANTIATED_BUILT_IN_MASK_32_63
    let bit_for_index :=
      if index < 32 then (1 <<< index) % 2 ^ 32
      else (1 <<< (index - 32)) % 2 ^ 32
    match ecma_builtin_test_instantiated object mask_prop_id bit_for_index with
    | .error e => .error e
    | .ok none => .ok (none, heap)
    | .ok (some (object1, instantiated_bitset)) =>
      let object2 := ecma_set_internal_property_value object1 mask_prop_id
        (ecma_internal_value_t.uint32 (instantiated_bitset ||| bit_for_index))
      let heap2 := heap.store object_p object2
      match ecma_builtin_property_value t heap2 builtin_id magic_string_id curr_property with
      | .error e => .error e
      | .ok (value, heap3) =>
        match heap3.objects[object_p]? with
        | none => .error Fault.invalid_pointer
        | some object3 =>
          .ok (some { name := string_p, attributes := curr_property.attributes,
                      value := some value },
            heap3.store object_p
              (ecma_create_named_data_property object3 string_p
                curr_property.attributes value))
  else .error Fault.assertion

/-- Embedding of `ecma_builtin_try_to_instantiate_property`: returns the instantiated
property (`none` for `NULL`) and the heap. -/
def ecma_builtin_try_to_instantiate_property (t : ecma_builtin_tables) (heap : ecma_heap_t)
    (object_p : Nat) (string_p : ecma_string_t) :
    Except Fault (Option ecma_property_t × ecma_heap_t) :=
  match heap.objects[object_p]? with
  | none => .error Fault.invalid_pointer
  | some object =>
    if object.is_builtin then
      if object.type = t.ECMA_OBJECT_TYPE_BUILT_IN_FUNCTION then
        if string_p = ecma_string_t.magic t.LIT_MAGIC_STRING_LENGTH then
          match ecma_find_internal_property object
              ecma_internal_property_id_t.ECMA_INTERNAL_PROPERTY_BUILT_IN_ROUTINE_DESC with
          | some (ecma_internal_value_t.uint32 builtin_routine_desc) =>
            let length_prop_value :=
              u8 (JRT_EXTRACT_BIT_FIELD builtin_routine_desc
                t.ECMA_BUILTIN_ROUTINE_ID_LENGTH_VALUE_POS
                t.ECMA_BUILTIN_ROUTINE_ID_LENGTH_VALUE_WIDTH)
            if t.ecma_is_property_configurable t.ECMA_PROPERTY_FIXED then
              .error Fault.assertion
            else
              .ok (some { name := string_p, attributes := t.ECMA_PROPERTY_FIXED,
                          value := some (ecma_value_t.integer length_prop_value) },
                heap.store object_p
                  (ecma_create_named_data_property object string_p t.ECMA_PROPERTY_FIXED
                    (ecma_value_t.integer length_prop_value)))
          | _ => .error Fault.assertion
        else .ok (none, heap)
      else
        match string_p with
        | ecma_string_t.chars _ => .ok (none, heap)
        | ecma_string_t.magic magic_string_id =>
          match ecma_find_internal_property object
              ecma_internal_property_id_t.ECMA_INTERNAL_PROPERTY_BUILT_IN_ID with
          | some (ecma_internal_value_t.uint32 builtin_id) =>
            if builtin_id < t.ECMA_BUILTIN_ID__COUNT
                ∧ (ecma_builtin_is t heap object_p builtin_id).toOption = some true then
              match t.builtins[builtin_id]? with
              | none => .error Fault.invalid_pointer
              | some builtin =>
                match ecma_builtin_find_descriptor t magic_string_id
                    builtin.property_descriptor_list 0 with
                | .error e => .error e
                | .ok none => .ok (none, heap)
                | .ok (some (index, curr_property)) =>
                  ecma_builtin_instantiate_descriptor t heap object_p object string_p
                    builtin_id magic_string_id index curr_property
            else .error Fault.assertion
          | _ => .error Fault.assertion
    else .error Fault.assertion

/-- The internal property that holds the instantiation bit of the descriptor at `index`:
`mask_prop_id` of `ecma_builtin_try_to_instantiate_property`. -/
def ecma_builtin_mask_prop_id (index : Nat) : ecma_internal_property_id_t :=
  if index < 32 then
    ecma_internal_property_id_t.ECMA_INTERNAL_PROPERTY_NON_INSTANTIATED_BUILT_IN_MASK_0_31
  else
    ecma_internal_property_id_t.ECMA_INTERNAL_PROPERTY_NON_INSTANTIATED_BUILT_IN_MASK_32_63

/-- The instantiation bits an object holds in the mask property `mask_prop_id`: the value of
the property, 0 while the property does not exist. -/
def ecma_builtin_instantiated_bitset (object : ecma_object_t)
    (mask_prop_id : ecma_internal_property_id_t) : Nat :=
  match ecma_find_internal_property object mask_prop_id with
  | some (ecma_internal_value_t.uint32 instantiated_bitset) => instantiated_bitset
  | _ => 0

/-- The prototypes of the built-in `id` end, along the table, within `fuel` built-ins. -/
def prototype_chain_ends (t : ecma_builtin_tables) : Nat → Nat → Bool
  | 0, _ => false
  | fuel + 1, id =>
    match t.builtins[id]? with
    | none => false
    | some builtin =>
      decide (builtin.object_prototype_builtin_id = t.ECMA_BUILTIN_ID__COUNT)
        || prototype_chain_ends t fuel builtin.object_prototype_builtin_id

/-- The descriptor holds what its type needs for a value: a number below
`ECMA_BUILTIN_NUMBER_MAX`, an entry of `builtin_number_list`, or one of the three special
numbers from `ECMA_BUILTIN_NUMBER_NAN` on; the identifier of a built-in whose prototypes end; for a routine, a function
prototype whose prototypes end and a routine descriptor of 32 bits. -/
def ecma_builtin_value_ok (t : ecma_builtin_tables) (builtin_id magic_string_id : Nat)
    (curr_property : ecma_builtin_property_descriptor_t) : Prop :=
  match curr_property.type with
  | ecma_builtin_property_type_t.ECMA_BUILTIN_PROPERTY_SIMPLE => True
  | ecma_builtin_property_type_t.ECMA_BUILTIN_PROPERTY_NUMBER =>
    curr_property.value < t.ECMA_BUILTIN_NUMBER_MAX
      ∨ (curr_property.value < t.ECMA_BUILTIN_NUMBER_NAN
          ∧ curr_property.value - t.ECMA_BUILTIN_NUMBER_MAX < builtin_number_list.length)
      ∨ (t.ECMA_BUILTIN_NUMBER_NAN ≤ curr_property.value
          ∧ (curr_property.value = t.ECMA_BUILTIN_NUMBER_NAN
            ∨ curr_property.value = t.ECMA_BUILTIN_NUMBER_POSITIVE_INFINITY
            ∨ curr_property.value = t.ECMA_BUILTIN_NUMBER_NEGATIVE_INFINITY))
  | ecma_builtin_property_type_t.ECMA_BUILTIN_PROPERTY_STRING => True
  | ecma_builtin_property_type_t.ECMA_BUILTIN_PROPERTY_OBJECT =>
    prototype_chain_ends t (t.ECMA_BUILTIN_ID__COUNT + 1) curr_property.value = true
  | ecma_builtin_property_type_t.ECMA_BUILTIN_PROPERTY_ROUTINE =>
    prototype_chain_ends t (t.ECMA_BUILTIN_ID__COUNT + 1)
        t.ECMA_BUILTIN_ID_FUNCTION_PROTOTYPE = true
      ∧ ecma_builtin_routine_packed_value t builtin_id (u16 magic_string_id)
          (u8 (u8 curr_property.value)) ≤ 2 ^ 32 - 1
  | ecma_builtin_property_type_t.other => False

/-- The descriptors of built-in 0 of the examples: a simple value, the number
`ECMA_NUMBER_PI`, the built-in 1 and a routine. -/
def builtin_example_descriptors : List ecma_builtin_property_descriptor_t :=
  [ { magic_string_id := 3,
      type := ecma_builtin_property_type_t.ECMA_BUILTIN_PROPERTY_SIMPLE,
      value := 1, attributes := 0 },
    { magic_string_id := 7,
      type := ecma_builtin_property_type_t.ECMA_BUILTIN_PROPERTY_NUMBER,
      value := 259, attributes := 4 },
    { magic_string_id := 9,
      type := ecma_builtin_property_type_t.ECMA_BUILTIN_PROPERTY_OBJECT,
      value := 1, attributes := 6 },
    { magic_string_id := 11,
      type := ecma_builtin_property_type_t.ECMA_BUILTIN_PROPERTY_ROUTINE,
      value := 2, attributes := 6 } ]

/-- The descriptor that ends a descriptor list in the examples. -/
def builtin_example_sentinel : ecma_builtin_property_descriptor_t :=
  { magic_string_id := 100,
    type := ecma_builtin_property_type_t.ECMA_BUILTIN_PROPERTY_SIMPLE,
    value := 0, attributes := 0 }

/-- A table with two built-ins for the examples: built-in 0 is a general object with the
properties of `builtin_example_descriptors` and no prototype; built-in 1 is the function
prototype. Magic strings are below 100. -/
def builtin_example_tables : ecma_builtin_tables where
  builtins :=
    [ { object_type := 0, object_prototype_builtin_id := 2, is_extensible := true,
        property_descriptor_list := builtin_example_descriptors ++ [builtin_example_sentinel] },
      { object_type := 1, object_prototype_builtin_id := 0, is_extensible := true,
        property_descriptor_list := [builtin_example_sentinel] } ]
  LIT_MAGIC_STRING__COUNT := 100
  LIT_MAGIC_STRING_LENGTH := 5
  LIT_MAGIC_STRING__EMPTY := 0
  ECMA_OBJECT_TYPE_BUILT_IN_FUNCTION := 3
  ECMA_OBJECT_TYPE_FUNCTION := 1
  ECMA_BUILTIN_NUMBER_MAX := 256
  ECMA_BUILTIN_NUMBER_NAN := 266
  ECMA_BUILTIN_NUMBER_POSITIVE_INFINITY := 267
  ECMA_BUILTIN_NUMBER_NEGATIVE_INFINITY := 268
  ECMA_BUILTIN_ID_FUNCTION_PROTOTYPE := 1
  ECMA_BUILTIN_ID_STRING_PROTOTYPE := none
  ECMA_BUILTIN_ID_NUMBER_PROTOTYPE := none
  ECMA_BUILTIN_ID_BOOLEAN_PROTOTYPE := none
  ECMA_BUILTIN_ID_DATE_PROTOTYPE := none
  ECMA_BUILTIN_ID_REGEXP_PROTOTYPE := none
  ECMA_SIMPLE_VALUE_EMPTY := 0
  ECMA_SIMPLE_VALUE_FALSE := 1
  ECMA_PROPERTY_FIXED := 0
  ecma_is_property_configurable := fun attributes => attributes.testBit 2
  ECMA_BUILTIN_ROUTINE_ID_BUILT_IN_OBJECT_ID_POS := 0
  ECMA_BUILTIN_ROUTINE_ID_BUILT_IN_OBJECT_ID_WIDTH := 8
  ECMA_BUILTIN_ROUTINE_ID_BUILT_IN_ROUTINE_ID_POS := 8
  ECMA_BUILTIN_ROUTINE_ID_BUILT_IN_ROUTINE_ID_WIDTH := 16
  ECMA_BUILTIN_ROUTINE_ID_LENGTH_VALUE_POS := 24
  ECMA_BUILTIN_ROUTINE_ID_LENGTH_VALUE_WIDTH := 8

/-- The object of built-in 0 of `builtin_example_tables` with nothing instantiated. -/
def builtin_example_object : ecma_object_t :=
  { type := 0, is_builtin := true,
    internal_properties :=
      [(ecma_internal_property_id_t.ECMA_INTERNAL_PROPERTY_BUILT_IN_ID,
        ecma_internal_value_t.uint32 0)] }

/-- A heap that holds the object of built-in 0; built-in 1 is not instantiated. -/
def builtin_example_heap : ecma_heap_t :=
  { objects := [builtin_example_object], ecma_builtin_objects := [some 0, none] }

/-- The branch update stands at the byte with flat index `r`: the cells of the stream are
those the copy pass left in `final`, the pages before the current one are linked backwards,
`prev_page_p` is the page before the current one and `bytes_copied` is the sum of the
counters of the pages before the current one. -/
def upd_at (t : cbc_tables) (chain : List Nat) (final : List parser_mem_page_t) (r : Nat)
    (st : update_state) : Prop :=
  pages_ok t st.pages chain
    ∧ linked st.pages chain (r / t.PARSER_CBC_STREAM_PAGE_SIZE)
    ∧ (∀ x, stream_read t st.pages chain x = stream_read t final chain x)
    ∧ (st.page_p, st.offset) = cursor t chain r
    ∧ st.prev_page_p
        = (if r / t.PARSER_CBC_STREAM_PAGE_SIZE = 0 then none
            else chain[r / t.PARSER_CBC_STREAM_PAGE_SIZE - 1]?)
    ∧ st.bytes_copied = pages_total t final chain (r / t.PARSER_CBC_STREAM_PAGE_SIZE)

/-- The distance `v` that the branch update computes for a branch at position `r` of the
stream with the distance `d`, in terms of the counters that the copy pass left in the pages
`final`: the difference of two sums of counters that differ by the number of bytes copied
between the branch and its target. -/
def updated_distance (t : cbc_tables) (chain : List Nat) (final : List parser_mem_page_t)
    (r : Nat) (fwd : Bool) (d v : Nat) : Prop :=
  ∃ A bt, bt < 128 ∧ (v = size_sub A bt ∨ (v = A ∧ bt = 0))
    ∧ (fwd = true → 0 < d
        ∧ A + copied_before t final chain r = bt + copied_before t final chain (r + d))
    ∧ (fwd = false → d ≤ r
        ∧ A + copied_before t final chain (r - d) = bt + copied_before t final chain r)

/-- The state of the final byte code when the branch update stands at position `r` of the
stream; `site r1 hdr w fwd d` says that the copy pass wrote for the instruction at position
`r1` a branch with `hdr` opcode bytes and `w` distance bytes that hold `d`. The byte code is
the one of the copy pass from the branches not yet reached on; a branch already passed has
its opcode bytes and holds the updated distance (when `w` bytes can hold it). -/
def update_inv (t : cbc_tables) (chain : List Nat) (final : List parser_mem_page_t)
    (base : Nat) (code0 : List Nat) (site : Nat → Nat → Nat → Bool → Nat → Prop) (r : Nat)
    (code : List Nat) : Prop :=
  code.length = code0.length
    ∧ (∀ r1 hdr w fwd d, site r1 hdr w fwd d → r ≤ r1 →
        ∀ x, base + copied_before t final chain r1 ≤ x → code[x]? = code0[x]?)
    ∧ (∀ r1 hdr w fwd d, site r1 hdr w fwd d → r1 < r →
        (∀ x, base + copied_before t final chain r1 ≤ x →
          x < base + copied_before t final chain r1 + hdr → code[x]? = code0[x]?)
        ∧ ∃ v, updated_distance t chain final r1 fwd d v
          ∧ (v < 256 ^ w → big_endian (fun x => code[x]?) w
              (base + copied_before t final chain r1 + hdr) 0 = some v))

/-- The flat index of the byte of the stream that the copy pass stands at: the number of
the page in `chain` times the page size, plus the offset; behind the last page when
`page_p` is `NULL`. -/
def copy_pos (t : cbc_tables) (chain : List Nat) (st : copy_state) : Nat :=
  match st.page_p with
  | some p => chain.indexOf p * t.PARSER_CBC_STREAM_PAGE_SIZE + st.offset
  | none => chain.length * t.PARSER_CBC_STREAM_PAGE_SIZE + st.offset

/-- The copy pass, started in the state `st0`, comes with the loop still running to an
instruction at position `r` of the stream that it marks as a branch; it writes for it, at
the position `n` of the final byte code, a branch with `hdr` opcode bytes and `w` distance
bytes that hold the distance `d` of the stream. -/
def copy_site (t : cbc_tables) (limit : Nat) (last : Option Nat × Nat) (chain : List Nat)
    (st0 : copy_state) (r n hdr w : Nat) (fwd : Bool) (d : Nat) : Prop :=
  ∃ k st st1, copy_steps t limit last k st0 = .ok st ∧ copy_pos t chain st = r
    ∧ (st.page_p ≠ last.1 ∨ st.offset < last.2)
    ∧ copy_instruction t limit st = .ok st1
    ∧ branch_marked t (stream_read t st.pages chain) r = true
    ∧ n = st.dst.length
    ∧ code_branch t st1.dst n hdr w fwd
    ∧ st1.dst.length = n + hdr + w
    ∧ decode_branch t (stream_read t st.pages chain) r = some (fwd, d)
    ∧ big_endian (fun x => st1.dst[x]?) w (n + hdr) 0 = some d
    ∧ d < 256 ^ w

/-- Example context: a stream of two pages of eight bytes. The jump `2, 0, 11`
(`CBC_JUMP_FORWARD_2`) at position 0 of the first page lands on the return `12` at position
11, in the second page; the jump `5, 8` (backward, one distance byte) at position 8, the
first byte of the second page, lands on position 0. -/
def branch_example : parser_context_t :=
  { status_flags := { is_function := true }
    byte_code :=
      { pages := [ { next_p := some 1, bytes := [2, 0, 11, 4, 4, 4, 4, 4] },
                   { bytes := [5, 8, 4, 12, 0, 0, 0, 0] } ],
        first_p := some 0, last_p := some 1, last_position := 4 } }

/-! ## Built-in objects: the names of the lazy properties -/

/-- Modelled from the spec: `ecma_op_object_get_own_property`, which `ecma-builtins.c` calls
but does not define, as the property lookup of section 4.5: the named property of the
object with the given name when the object has one; otherwise, for a built-in, the lookup
instantiates the property (instantiation happens on first property lookup), which is the
call of `ecma_builtin_try_to_instantiate_property`. Returns the property (`none` for
`NULL`) and the heap. -/
def ecma_op_object_get_own_property (t : ecma_builtin_tables) (heap : ecma_heap_t)
    (obj_p : Nat) (property_name_p : ecma_string_t) :
    Except Fault (Option ecma_property_t × ecma_heap_t) :=
  match heap.objects[obj_p]? with
  | none => .error Fault.invalid_pointer
  | some object =>
    match object.named_properties.find? (fun p => decide (p.name = property_name_p)) with
    | some prop => .ok (some prop, heap)
    | none =>
      if object.is_builtin then
        ecma_builtin_try_to_instantiate_property t heap obj_p property_name_p
      else .ok (none, heap)

/-- The flag `was_instantiated` of `ecma_builtin_list_lazy_property_names`: true unless the
mask property `mask_prop_p` is there (not `NULL`) and its value has the bit clear. The
pointer to the mask property is the identifier of the property; its value is read from the
object as it is at the time. -/
def ecma_builtin_lazy_was_instantiated (object : ecma_object_t)
    (mask_prop_p : Option ecma_internal_property_id_t) (bit_for_index : Nat) :
    Except Fault Bool :=
  match mask_prop_p with
  | none => .ok true
  | some mask_prop_id =>
    match ecma_find_internal_property object mask_prop_id with
    | some (ecma_internal_value_t.uint32 instantiated_bitset) =>
      .ok (decide (instantiated_bitset &&& bit_for_index ≠ 0))
    | some _ => .error Fault.assertion
    | none => .error Fault.invalid_pointer

/-- The `while` loop of `ecma_builtin_list_lazy_property_names` over the descriptor list:
`mask_prop_p` is the mask property found last (`none` for `NULL`) and `for_non_enumerable`
the collection the names are appended to; the heap is threaded through the calls of
`ecma_op_object_get_own_property`, which is called only when `was_instantiated` is set.
Running off the list is a fault. -/
def ecma_builtin_list_lazy_loop (t : ecma_builtin_tables) (object_p : Nat) :
    List ecma_builtin_property_descriptor_t → ecma_heap_t → Nat →
    Option ecma_internal_property_id_t → List ecma_value_t →
    Except Fault (List ecma_value_t × ecma_heap_t)
  | [], _, _, _, _ => .error Fault.invalid_pointer
  | curr_property :: rest, heap, index, mask_prop_p, for_non_enumerable =>
    if curr_property.magic_string_id ≠ t.LIT_MAGIC_STRING__COUNT then
      if index < 64 then
        match heap.objects[object_p]? with
        | none => .error Fault.invalid_pointer
        | some object =>
          let mask_prop_p1 :=
            if index = 32 then
              (ecma_find_internal_property object
                ecma_internal_property_id_t.ECMA_INTERNAL_PROPERTY_NON_INSTANTIATED_BUILT_IN_MASK_32_63).map
                (fun _ =>
                  ecma_internal_property_id_t.ECMA_INTERNAL_PROPERTY_NON_INSTANTIATED_BUILT_IN_MASK_32_63)
            else mask_prop_p
          let bit_for_index :=
            if index ≥ 32 then (1 <<< (index - 32)) % 2 ^ 32
            else (1 <<< index) % 2 ^ 32
          match ecma_builtin_lazy_was_instantiated object mask_prop_p1 bit_for_index with
          | .error e => .error e
          | .ok was_instantiated =>
            let name_p := ecma_string_t.magic curr_property.magic_string_id
            if !was_instantiated then
              ecma_builtin_list_lazy_loop t object_p rest heap (index + 1) mask_prop_p1
                (for_non_enumerable ++ [ecma_value_t.string curr_property.magic_string_id])
            else
              match ecma_op_object_get_own_property t heap object_p name_p with
              | .error e => .error e
              | .ok (prop, heap1) =>
                ecma_builtin_list_lazy_loop t object_p rest heap1 (index + 1) mask_prop_p1
                  (if prop.isSome then
                    for_non_enumerable
                      ++ [ecma_value_t.string curr_property.magic_string_id]
                  else for_non_enumerable)
      else .error Fault.assertion
    else .ok (for_non_enumerable, heap)

/-- Embedding of `ecma_builtin_list_lazy_property_names`: returns the main collection, the
collection of the skipped non-enumerable names and the heap. -/
def ecma_builtin_list_lazy_property_names (t : ecma_builtin_tables) (heap : ecma_heap_t)
    (object_p : Nat) (separate_enumerable : Bool)
    (main_collection non_enum_collection : List ecma_value_t) :
    Except Fault ((List ecma_value_t × List ecma_value_t) × ecma_heap_t) :=
  match heap.objects[object_p]? with
  | none => .error Fault.invalid_pointer
  | some object =>
    if object.type = t.ECMA_OBJECT_TYPE_BUILT_IN_FUNCTION then
      if separate_enumerable then
        .ok ((main_collection,
          non_enum_collection ++ [ecma_value_t.string t.LIT_MAGIC_STRING_LENGTH]), heap)
      else
        .ok ((main_collection ++ [ecma_value_t.string t.LIT_MAGIC_STRING_LENGTH],
          non_enum_collection), heap)
    else
      match ecma_find_internal_property object
          ecma_internal_property_id_t.ECMA_INTERNAL_PROPERTY_BUILT_IN_ID with
      | some (ecma_internal_value_t.uint32 builtin_id) =>
        if builtin_id < t.ECMA_BUILTIN_ID__COUNT
            ∧ (ecma_builtin_is t heap object_p builtin_id).toOption = some true then
          match t.builtins[builtin_id]? with
          | none => .error Fault.invalid_pointer
          | some builtin =>
            match ecma_builtin_list_lazy_loop t object_p builtin.property_descriptor_list
                heap 0
                ((ecma_find_internal_property object
                  ecma_internal_property_id_t.ECMA_INTERNAL_PROPERTY_NON_INSTANTIATED_BUILT_IN_MASK_0_31).map
                  (fun _ =>
                    ecma_internal_property_id_t.ECMA_INTERNAL_PROPERTY_NON_INSTANTIATED_BUILT_IN_MASK_0_31))
                (if separate_enumerable then non_enum_collection else main_collection) with
            | .error e => .error e
            | .ok (for_non_enumerable, heap1) =>
              if separate_enumerable then .ok ((main_collection, for_non_enumerable), heap1)
              else .ok ((for_non_enumerable, non_enum_collection), heap1)
        else .error Fault.assertion
      | _ => .error Fault.assertion

/-- The descriptors whose names are to be listed: the instantiation bit of the descriptor at
`index` is clear in the object (the bit set of a mask property that does not exist yet is
0), or the bit is set and the object has a named property with the name of the
descriptor. -/
def ecma_builtin_lazy_name_listed (object : ecma_object_t) (index : Nat)
    (curr_property : ecma_builtin_property_descriptor_t) : Bool :=
  !(ecma_builtin_instantiated_bitset object (ecma_builtin_mask_prop_id index)).testBit
      (index % 32)
  || ((ecma_builtin_instantiated_bitset object (ecma_builtin_mask_prop_id index)).testBit
        (index % 32)
      && (object.named_properties.find? (fun p =>
            decide (p.name = ecma_string_t.magic curr_property.magic_string_id))).isSome)

/-- The object `object` behind the pointer `object_p` is the object of the non-function
built-in `builtin_id`: it has the built-in flag, holds the identifier, stands in the slot of
the built-in in a registry of `ECMA_BUILTIN_ID__COUNT` slots, and its mask properties hold
bit sets. -/
def ecma_builtin_object_ok (t : ecma_builtin_tables) (object_p builtin_id : Nat)
    (heap : ecma_heap_t) (object : ecma_object_t) : Prop :=
  heap.objects[object_p]? = some object
    ∧ object.is_builtin = true
    ∧ object.type ≠ t.ECMA_OBJECT_TYPE_BUILT_IN_FUNCTION
    ∧ ecma_find_internal_property object
        ecma_internal_property_id_t.ECMA_INTERNAL_PROPERTY_BUILT_IN_ID
      = some (ecma_internal_value_t.uint32 builtin_id)
    ∧ heap.ecma_builtin_objects[builtin_id]? = some (some object_p)
    ∧ heap.ecma_builtin_objects.length = t.ECMA_BUILTIN_ID__COUNT
    ∧ (∀ index v, ecma_find_internal_property object (ecma_builtin_mask_prop_id index)
        = some v → ∃ n, v = ecma_internal_value_t.uint32 n)

/-- The object of built-in 0 of `builtin_example_tables` after the properties at the indices
1 and 2 were instantiated and the one at index 2 (the name 9) was deleted. -/
def builtin_example_listed_object : ecma_object_t :=
  { type := 0, is_builtin := true,
    internal_properties :=
      [(ecma_internal_property_id_t.ECMA_INTERNAL_PROPERTY_NON_INSTANTIATED_BUILT_IN_MASK_0_31,
        ecma_internal_value_t.uint32 6),
       (ecma_internal_property_id_t.ECMA_INTERNAL_PROPERTY_BUILT_IN_ID,
        ecma_internal_value_t.uint32 0)],
    named_properties :=
      [{ name := ecma_string_t.magic 7, attributes := 4,
         value := some (ecma_value_t.number ecma_number_t.ECMA_NUMBER_PI) }] }

/-! ## Built-in objects: the dispatch of routines -/

/-- Embedding of `ecma_builtin_dispatch_routine`: the `switch` over the built-ins of the
absent `ecma-builtins.inc.h` calls the dispatcher of the built-in, the parameter
`dispatch_routine` (it gets the identifier of the built-in, the identifier of the routine,
the `this` value, the arguments and the heap); an identifier outside the table is a
fault. -/
def ecma_builtin_dispatch_routine (t : ecma_builtin_tables)
    (dispatch_routine : Nat → Nat → ecma_value_t → List ecma_value_t → ecma_heap_t →
      Except Fault (ecma_value_t × ecma_heap_t))
    (heap : ecma_heap_t) (builtin_object_id builtin_routine_id : Nat)
    (this_arg_value : ecma_value_t) (arguments_list : List ecma_value_t) :
    Except Fault (ecma_value_t × ecma_heap_t) :=
  if builtin_object_id < t.ECMA_BUILTIN_ID__COUNT then
    dispatch_routine builtin_object_id builtin_routine_id this_arg_value arguments_list heap
  else .error Fault.assertion

/-- The end of `ecma_builtin_dispatch_call`:
`JERRY_ASSERT (!ecma_is_value_empty (ret_value)); return ret_value;`. -/
def ecma_builtin_dispatch_return (t : ecma_builtin_tables)
    (ret : Except Fault (ecma_value_t × ecma_heap_t)) :
    Except Fault (ecma_value_t × ecma_heap_t) :=
  match ret with
  | .error e => .error e
  | .ok (ret_value, heap) =>
    if ret_value = ecma_value_t.simple t.ECMA_SIMPLE_VALUE_EMPTY then .error Fault.assertion
    else .ok (ret_value, heap)

/-- Embedding of `ecma_builtin_dispatch_call`; `dispatch_routine` and `dispatch_call` stand
for the dispatchers `ecma_builtin_ ## lowercase_name ## _dispatch_routine` and
`_dispatch_call` of the built-ins. -/
def ecma_builtin_dispatch_call (t : ecma_builtin_tables)
    (dispatch_routine : Nat → Nat → ecma_value_t → List ecma_value_t → ecma_heap_t →
      Except Fault (ecma_value_t × ecma_heap_t))
    (dispatch_call : Nat → List ecma_value_t → ecma_heap_t →
      Except Fault (ecma_value_t × ecma_heap_t))
    (heap : ecma_heap_t) (obj_p : Nat) (this_arg_value : ecma_value_t)
    (arguments_list : List ecma_value_t) : Except Fault (ecma_value_t × ecma_heap_t) :=
  match heap.objects[obj_p]? with
  | none => .error Fault.invalid_pointer
  | some obj =>
    if obj.is_builtin then
      if obj.type = t.ECMA_OBJECT_TYPE_BUILT_IN_FUNCTION then
        match ecma_find_internal_property obj
            ecma_internal_property_id_t.ECMA_INTERNAL_PROPERTY_BUILT_IN_ROUTINE_DESC with
        | some (ecma_internal_value_t.uint32 builtin_routine_desc) =>
          let built_in_id_field :=
            JRT_EXTRACT_BIT_FIELD builtin_routine_desc
              t.ECMA_BUILTIN_ROUTINE_ID_BUILT_IN_OBJECT_ID_POS
              t.ECMA_BUILTIN_ROUTINE_ID_BUILT_IN_OBJECT_ID_WIDTH
          if built_in_id_field < t.ECMA_BUILTIN_ID__COUNT then
            let routine_id_field :=
              JRT_EXTRACT_BIT_FIELD builtin_routine_desc
                t.ECMA_BUILTIN_ROUTINE_ID_BUILT_IN_ROUTINE_ID_POS
                t.ECMA_BUILTIN_ROUTINE_ID_BUILT_IN_ROUTINE_ID_WIDTH
            if routine_id_field ≤ 65535 then
              ecma_builtin_dispatch_return t
                (ecma_builtin_dispatch_routine t dispatch_routine heap built_in_id_field
                  (u16 routine_id_field) this_arg_value arguments_list)
            else .error Fault.assertion
          else .error Fault.assertion
        | _ => .error Fault.assertion
      else if obj.type = t.ECMA_OBJECT_TYPE_FUNCTION then
        match ecma_find_internal_property obj
            ecma_internal_property_id_t.ECMA_INTERNAL_PROPERTY_BUILT_IN_ID with
        | some (ecma_internal_value_t.uint32 builtin_id) =>
          if (ecma_builtin_is t heap obj_p builtin_id).toOption = some true then
            match t.builtins[builtin_id]? with
            | none => .error Fault.assertion
            | some builtin =>
              ecma_builtin_dispatch_return t
                (if builtin.object_type = t.ECMA_OBJECT_TYPE_FUNCTION then
                  dispatch_call builtin_id arguments_list heap
                else .ok (ecma_value_t.simple t.ECMA_SIMPLE_VALUE_EMPTY, heap))
          else .error Fault.assertion
        | _ => .error Fault.assertion
      else .error Fault.assertion
    else .error Fault.assertion


/-! ## `parser_parse_source` and `parser_raise_error` -/

/-- Embedding of `parser_error_location_t`. -/
structure parser_error_location_t where
  error : parser_error_t
  line : Nat
  column : Nat
  deriving DecidableEq, Repr

/-- The fields of `parser_context_t` that `parser_parse_source` touches besides those of the
structure `parser_context_t` above, which is the field `context` here: `error`,
`allocated_buffer_p`, the source range, `stack_depth`, `last_statement.current_p`,
`token.flags`, `token.line`, `token.column`, `line`, `column`, `last_cbc_opcode`,
`byte_code_size` and the stack with `stack_top_uint8`. -/
structure parser_source_context_t where
  context : parser_context_t := {}
  error : parser_error_t := parser_error_t.PARSER_ERR_NO_ERROR
  allocated_buffer_p : Option Nat := none
  source_p : List Nat := []
  stack_depth : Nat := 0
  last_statement_current_p : Option Nat := none
  token_flags : Nat := 0
  token_line : Nat := 0
  token_column : Nat := 0
  line : Nat := 0
  column : Nat := 0
  last_cbc_opcode : Nat := 0
  byte_code_size : Nat := 0
  stack : parser_mem_data_t := {}
  stack_top_uint8 : Nat := 0
  deriving DecidableEq, Repr

/-- How a part of the parse ends: it returns a value, or it calls `parser_raise_error` with
an error in the context it has reached (the long jump to `PARSER_CATCH`), or it does not
return at all (a failing assertion, a bad pointer). -/
inductive parser_result (α : Type)
  | returned (value : α)
  | raised (context : parser_source_context_t)
  | aborted (fault : Fault)

/-- Sequencing of two parts of the parse: the second runs when the first returns. -/
def parser_result.and_then {α β : Type} (r : parser_result α) (f : α → parser_result β) :
    parser_result β :=
  match r with
  | parser_result.returned value => f value
  | parser_result.raised context => parser_result.raised context
  | parser_result.aborted fault => parser_result.aborted fault

/-- Embedding of `parser_raise_error`: the error is recorded in the context and
`PARSER_THROW` jumps to the handler. The walk over the saved contexts only releases their
streams and pools (memory management) and is left out. -/
def parser_raise_error {α : Type} (context : parser_source_context_t)
    (error : parser_error_t) : parser_result α :=
  parser_result.raised { context with error := error }

/-- The routines of the lexer and the parser that `parser_parse_source` calls and that are
not in the sources at hand, taken as parameters: each gets the context and returns with a
context, or ends with a call of `parser_raise_error` (the error and the context of the
call), or aborts. `PARSER_CBC_UNAVAILABLE` is a constant of an absent header. -/
structure parser_routines where
  PARSER_CBC_UNAVAILABLE : Nat
  parser_cbc_stream_init : parser_mem_data_t
  parser_list_init : List lexer_literal_t
  parser_stack_init : parser_mem_data_t
  parser_stack_push_uint8 : parser_source_context_t → Nat →
    Except (parser_source_context_t × parser_error_t ⊕ Fault) parser_source_context_t
  lexer_next_token : parser_source_context_t →
    Except (parser_source_context_t × parser_error_t ⊕ Fault) parser_source_context_t
  parser_parse_function_arguments : parser_source_context_t →
    Except (parser_source_context_t × parser_error_t ⊕ Fault) parser_source_context_t
  parser_parse_statements : parser_source_context_t →
    Except (parser_source_context_t × parser_error_t ⊕ Fault) parser_source_context_t

/-- The call of a routine that is a parameter: an error it ends with goes through
`parser_raise_error`. -/
def parser_call
    (r : Except (parser_source_context_t × parser_error_t ⊕ Fault) parser_source_context_t) :
    parser_result parser_source_context_t :=
  match r with
  | .ok context => parser_result.returned context
  | .error (Sum.inl (context, error)) => parser_raise_error context error
  | .error (Sum.inr fault) => parser_result.aborted fault

/-- The call of `parser_post_processing` from `parser_parse_source`: an error raised by the
embedded function goes through `parser_raise_error`; post-processing does not touch the
fields of the context that are not in `context`. -/
def parser_call_post_processing (lim : parser_limits) (t : cbc_tables)
    (context : parser_source_context_t) : parser_result cbc_compiled_code_t :=
  match parser_post_processing lim t context.context with
  | .ok (compiled_code, _) => parser_result.returned compiled_code
  | .error (Fault.raised error) => parser_raise_error context error
  | .error fault => parser_result.aborted fault

/-- The context as `parser_parse_source` sets it up before `PARSER_TRY`; `context0` is the
local variable as it is found (the fields that are not assigned keep their value). -/
def parser_parse_source_init (routines : parser_routines)
    (arg_list_p : Option (List Nat)) (source_p : List Nat)
    (context0 : parser_source_context_t) : parser_source_context_t :=
  { context0 with
      error := parser_error_t.PARSER_ERR_NO_ERROR
      allocated_buffer_p := none
      source_p := match arg_list_p with
        | none => source_p
        | some arg_list => arg_list
      stack_depth := 0
      last_statement_current_p := none
      token_flags := 0
      line := 1
      column := 1
      last_cbc_opcode := routines.PARSER_CBC_UNAVAILABLE
      byte_code_size := 0
      stack := routines.parser_stack_init
      context :=
        { status_flags :=
            match arg_list_p with
            | none => { no_reg_store := true, lexical_env_needed := true,
                        arguments_not_needed := true }
            | some _ => { is_function := true }
          stack_limit := 0
          argument_count := 0
          register_count := 0
          literal_count := 0
          literal_pool := routines.parser_list_init
          byte_code := routines.parser_cbc_stream_init
          last_context_p := none } }

/-- The block of `PARSER_TRY` in `parser_parse_source`. -/
def parser_parse_source_try (lim : parser_limits) (t : cbc_tables)
    (routines : parser_routines) (arg_list_p : Option (List Nat)) (source_p : List Nat)
    (context : parser_source_context_t) : parser_result cbc_compiled_code_t :=
  (parser_call (routines.parser_stack_push_uint8 context CBC_MAXIMUM_BYTE_VALUE)).and_then
  fun context1 =>
  (parser_call (routines.lexer_next_token context1)).and_then fun context2 =>
  (match arg_list_p with
    | none => parser_result.returned context2
    | some _ =>
      (parser_call (routines.parser_parse_function_arguments context2)).and_then
      fun context3 =>
      parser_call (routines.lexer_next_token
        { context3 with source_p := source_p, line := 1, column := 1 })).and_then
  fun context4 =>
  (parser_call (routines.parser_parse_statements context4)).and_then fun context5 =>
  if context5.stack_top_uint8 = CBC_MAXIMUM_BYTE_VALUE
      ∧ context5.stack.last_position = 1
      ∧ (context5.stack.first_p.bind (fun first_p => context5.stack.pages[first_p]?)).map
          (fun (page : parser_mem_page_t) => page.next_p) = some none
      ∧ context5.stack.last_p = none
      ∧ context5.last_statement_current_p = none
      ∧ context5.last_cbc_opcode = routines.PARSER_CBC_UNAVAILABLE
      ∧ context5.allocated_buffer_p = none then
    parser_call_post_processing lim t context5
  else parser_result.aborted Fault.assertion

/-- Embedding of `parser_parse_source`: returns the compiled code (`none` for `NULL`) and
the error location as the function leaves it (`error_location_p = none` for `NULL`). The
release of the stream, the literals and the stack at the end is left out. -/
def parser_parse_source (lim : parser_limits) (t : cbc_tables) (routines : parser_routines)
    (arg_list_p : Option (List Nat)) (source_p : List Nat)
    (error_location_p : Option parser_error_location_t)
    (context0 : parser_source_context_t) :
    Except Fault (Option cbc_compiled_code_t × Option parser_error_location_t) :=
  let error_location1 :=
    error_location_p.map
      (fun location => { location with error := parser_error_t.PARSER_ERR_NO_ERROR })
  match parser_parse_source_try lim t routines arg_list_p source_p
      (parser_parse_source_init routines arg_list_p source_p context0) with
  | parser_result.returned compiled_code => .ok (some compiled_code, error_location1)
  | parser_result.raised context =>
    .ok (none,
      error_location1.map (fun _ =>
        { error := context.error, line := context.token_line,
          column := context.token_column }))
  | parser_result.aborted fault => .error fault


/-! ## Example: the source `var x = 1;` -/

/-- The literal pool for the source `var x = 1;`: the local variable `x` (bytes 120) and the
number constant `1` (bytes 49). -/
def var_x_pool : List lexer_literal_t :=
  [ { value := some [120], length := 1, type := LEXER_IDENT_LITERAL,
      status_flags := { var := true } },
    { value := some [49], length := 1, type := LEXER_NUMBER_LITERAL } ]

/-- A stream for the source `var x = 1;` over `example_tables`: one instruction with two
literal arguments (opcode `9`), the constant (literal 1) and the variable (literal 0), each
index in two bytes. -/
def var_x_stream : parser_mem_data_t :=
  { pages := [ { bytes := [9, 1, 0, 0, 0, 0, 0, 0] } ], first_p := some 0,
    last_p := some 0, last_position := 5 }

/-- Modelled from the spec: the routines of the lexer and of the statement parser, which
are not in the sources at hand, as far as the source `var x = 1;` goes: the stack holds the
one byte pushed, the tokens are consumed, and the statements leave `var_x_pool` and
`var_x_stream` in the context. -/
def var_x_routines : parser_routines where
  PARSER_CBC_UNAVAILABLE := 0
  parser_cbc_stream_init := {}
  parser_list_init := []
  parser_stack_init := {}
  parser_stack_push_uint8 := fun context value =>
    .ok { context with
      stack := { pages := [ { bytes := [value] } ], first_p := some 0, last_p := none,
                 last_position := 1 }
      stack_top_uint8 := value }
  lexer_next_token := fun context => .ok context
  parser_parse_function_arguments := fun context => .ok context
  parser_parse_statements := fun context =>
    .ok { context with
      context := { context.context with
        literal_count := 2
        literal_pool := var_x_pool
        byte_code := var_x_stream } }

/-- The four ends of the header of a compiled code: `argument_end`, `register_end`,
`ident_end`, `const_literal_end`. -/
def header_ends (compiled_code : cbc_compiled_code_t) : Nat × Nat × Nat × Nat :=
  (compiled_code.argument_end, compiled_code.register_end, compiled_code.ident_end,
    compiled_code.const_literal_end)


/-! ## Functions whose only bindings are their arguments -/

/-- A record of the finished function after `parser_copy_identifiers` is the record before
the call; only `LEXER_FLAG_SOURCE_PTR` may differ. -/
def source_marked (a b : lexer_literal_t) : Prop :=
  b = { a with status_flags :=
          { a.status_flags with source_ptr := b.status_flags.source_ptr } }

/-- Every identifier of the pool that is in use and is a local binding is an initialized
argument without `LEXER_FLAG_NO_REG_STORE`. -/
def arguments_only (pool : List lexer_literal_t) : Prop :=
  ∀ x ∈ pool, x.type = LEXER_IDENT_LITERAL → x.status_flags.unused_ident = false →
    x.status_flags.var = true →
    x.status_flags.initialized = true ∧ x.status_flags.function_argument = true
      ∧ x.status_flags.no_reg_store = false

/-- Example: the function `function f(a,b){return a+b}` over `example_tables`; the stream
is one instruction with two literal arguments (opcode `9`, the literals 0 and 1, two bytes
each) and the return (opcode `12`). -/
def arguments_only_example : parser_context_t :=
  { status_flags := { is_function := true }
    argument_count := 2
    register_count := 2
    literal_count := 2
    literal_pool :=
      [ { value := some [97], length := 1, type := LEXER_IDENT_LITERAL,
          status_flags := { var := true, initialized := true, function_argument := true } },
        { value := some [98], length := 1, type := LEXER_IDENT_LITERAL,
          status_flags := { var := true, initialized := true, function_argument := true } } ]
    byte_code := { pages := [ { bytes := [9, 0, 0, 1, 0, 12, 0, 0] } ], first_p := some 0,
                   last_p := some 0, last_position := 6 } }

/-- Example: the function `function f(a,...b){return a+b}`, which is
`arguments_only_example` with `PARSER_FUNCTION_HAS_REST_PARAM` set. -/
def rest_parameter_example : parser_context_t :=
  { arguments_only_example with
    status_flags := { is_function := true, function_has_rest_param := true } }


/-- Example: the non-strict function `function f(a,...b)` with the `arguments` object in
use, which is `arguments_only_example` with `PARSER_ARGUMENTS_NEEDED` and
`PARSER_FUNCTION_HAS_REST_PARAM` set. -/
def rest_arguments_example : parser_context_t :=
  { arguments_only_example with
    status_flags := { is_function := true, arguments_needed := true,
                      function_has_rest_param := true } }

/-- Example: the non-strict function `function f(a,b)` with the `arguments` object in
use, which is `arguments_only_example` with `PARSER_ARGUMENTS_NEEDED` set. -/
def arguments_object_example : parser_context_t :=
  { arguments_only_example with
    status_flags := { is_function := true, arguments_needed := true } }

/-- The sizes in a compiled code that its total size is made of: `total_size`,
`argument_end`, `register_end`, `literal_end` and the length of the byte code, then the
header variant and the length of the table of argument names. -/
def size_parts (compiled_code : cbc_compiled_code_t) : List Nat × Bool × Option Nat :=
  ([compiled_code.total_size, compiled_code.argument_end, compiled_code.register_end,
      compiled_code.literal_end, compiled_code.byte_code.length],
    compiled_code.status_flags.uint16_arguments,
    compiled_code.argument_names.map List.length)

/-! ## The bytes of the initializers -/

/-- The number of bytes `parser_encode_literal` writes for a literal index. -/
def encoded_length (literal_index literal_one_byte_limit : Nat) : Nat :=
  if literal_index ≤ literal_one_byte_limit then 1 else 2

/-- The number of arguments up to and including a record, given the number before it. -/
def next_position (position : Nat) (x : lexer_literal_t) : Nat :=
  if x.status_flags.function_argument then position + 1 else position

/-- The index (`prop.index`) of the first record of a list, 0 for the empty list. -/
def next_index : List lexer_literal_t → Nat
  | [] => 0
  | f :: _ => f.index

/-- The bytes that the second loop of `parser_compute_indicies` counts for a record of
the final pool, `position` arguments before it and `following` the index of the record
that follows: for an identifier in use that is an initialized variable,
`initializer_length` with the position (a mirrored argument) or with the index of the
record that follows (any other variable). -/
def counted_record (has_initialized_vars : Bool) (literal_one_byte_limit position : Nat)
    (x : lexer_literal_t) (following : Nat) : Nat :=
  if decide (x.type = LEXER_IDENT_LITERAL) && !x.status_flags.unused_ident
      && x.status_flags.var && x.status_flags.initialized then
    if x.status_flags.function_argument then
      if x.status_flags.no_reg_store then
        initializer_length has_initialized_vars literal_one_byte_limit x position 0
      else 0
    else initializer_length has_initialized_vars literal_one_byte_limit x following 0
  else 0

/-- The bytes that the second loop of `parser_compute_indicies` counts for the records of
the final pool from a record on, `position` arguments before it. -/
def counted_initializers (has_initialized_vars : Bool) (literal_one_byte_limit : Nat) :
    Nat → List lexer_literal_t → Nat
  | _, [] => 0
  | position, x :: rest =>
    counted_record has_initialized_vars literal_one_byte_limit position x (next_index rest)
    + counted_initializers has_initialized_vars literal_one_byte_limit
        (next_position position x) rest

/-- The bytes that the loop of `CBC_INITIALIZE_VARS` writes for a record: one encoded index
for an identifier flagged `LEXER_FLAG_VAR`, `LEXER_FLAG_NO_REG_STORE` and
`LEXER_FLAG_INITIALIZED`, the position of an argument or the index of the record that
follows. -/
def initialize_vars_record (literal_one_byte_limit position : Nat) (x : lexer_literal_t)
    (following : Nat) : Nat :=
  if decide (x.type = LEXER_IDENT_LITERAL) && x.status_flags.var
      && x.status_flags.no_reg_store && x.status_flags.initialized then
    if x.status_flags.function_argument then encoded_length position literal_one_byte_limit
    else encoded_length following literal_one_byte_limit
  else 0

/-- The bytes that the loop of `CBC_INITIALIZE_VARS` writes for the records from a record
on, `position` arguments before it. -/
def initialize_vars_bytes (literal_one_byte_limit : Nat) : Nat → List lexer_literal_t → Nat
  | _, [] => 0
  | position, x :: rest =>
    initialize_vars_record literal_one_byte_limit position x (next_index rest)
    + initialize_vars_bytes literal_one_byte_limit (next_position position x) rest

/-- A record as the loop of `CBC_INITIALIZE_VARS` leaves it: `LEXER_FLAG_INITIALIZED` is
cleared on an identifier that the loop has initialized. -/
def initialize_vars_cleared (x : lexer_literal_t) : lexer_literal_t :=
  if decide (x.type = LEXER_IDENT_LITERAL) && x.status_flags.var
      && x.status_flags.no_reg_store && x.status_flags.initialized then
    { x with status_flags := { x.status_flags with initialized := false } }
  else x

/-- The bytes that the last loop of `parser_generate_initializers` writes for a record: a
`CBC_INITIALIZE_VAR` with two encoded indices for an identifier flagged `LEXER_FLAG_VAR`
and `LEXER_FLAG_INITIALIZED`, except for an argument that is at its position. -/
def initialize_var_record (literal_one_byte_limit position : Nat) (x : lexer_literal_t)
    (following : Nat) : Nat :=
  if decide (x.type = LEXER_IDENT_LITERAL) && x.status_flags.var
      && x.status_flags.initialized then
    if x.status_flags.function_argument then
      if position = x.index then 0
      else 1 + encoded_length x.index literal_one_byte_limit
        + encoded_length position literal_one_byte_limit
    else 1 + encoded_length x.index literal_one_byte_limit
      + encoded_length following literal_one_byte_limit
  else 0

/-- The bytes that the last loop of `parser_generate_initializers` writes for the records
from a record on, `position` arguments before it. -/
def initialize_var_bytes (literal_one_byte_limit : Nat) : Nat → List lexer_literal_t → Nat
  | _, [] => 0
  | position, x :: rest =>
    initialize_var_record literal_one_byte_limit position x (next_index rest)
    + initialize_var_bytes literal_one_byte_limit (next_position position x) rest

/-- The arguments among the records from a record on carry the indices the classification
gives them, `position` arguments before the record: an argument without
`LEXER_FLAG_NO_REG_STORE` has its position as index, a mirrored argument has another
index. -/
def arguments_indexed : Nat → List lexer_literal_t → Prop
  | _, [] => True
  | position, x :: rest =>
    (x.type = LEXER_IDENT_LITERAL → x.status_flags.var = true →
      x.status_flags.initialized = true → x.status_flags.function_argument = true →
      (x.status_flags.no_reg_store = false → x.index = position)
        ∧ (x.status_flags.no_reg_store = true → x.index ≠ position))
    ∧ arguments_indexed (next_position position x) rest


/-- Example for the initializers: a non-strict function with the arguments `a` and `b` that
uses the `arguments` object (both arguments are mirrored), the local `c` initialized with a
function and captured, the free identifier `d`, the string `s` and the captured local
`e`. -/
def initializers_example : parser_context_t :=
  { status_flags := { is_function := true, arguments_needed := true }
    argument_count := 2
    register_count := 2
    literal_count := 7
    literal_pool :=
      [ { value := some [97], length := 1, type := LEXER_IDENT_LITERAL,
          status_flags := { var := true, initialized := true, function_argument := true } },
        { value := some [98], length := 1, type := LEXER_IDENT_LITERAL,
          status_flags := { var := true, initialized := true, function_argument := true } },
        { value := some [99], length := 1, type := LEXER_IDENT_LITERAL,
          status_flags := { var := true, initialized := true, no_reg_store := true } },
        { type := LEXER_FUNCTION_LITERAL },
        { value := some [100], length := 1, type := LEXER_IDENT_LITERAL },
        { value := some [115], length := 1, type := LEXER_STRING_LITERAL },
        { value := some [101], length := 1, type := LEXER_IDENT_LITERAL,
          status_flags := { var := true, no_reg_store := true } } ] }


/-! ## The bytes of the stream that the copy pass retains -/

/-- The bytes of the literal argument at position `q` of the stream read by `read` that are
retained in the final code, as the copy pass is specified: the first byte, and the second
byte when the first is above the one byte limit. One flag for each of the two bytes. -/
def retained_literal (literal_one_byte_limit : Nat) (read : Nat → Option Nat) (q : Nat) :
    Option (List Bool) :=
  match read q with
  | none => none
  | some first_byte => some [true, decide (first_byte > literal_one_byte_limit)]

/-- The retained bytes of the literal arguments, from position `q` on, of an instruction with
the given flags; `fuel` bounds the number of arguments. Returns the flags on leaving the
loop as well. -/
def retained_literals (literal_one_byte_limit : Nat) (read : Nat → Option Nat) :
    Nat → cbc_flags_t → Nat → Option (cbc_flags_t × List Bool)
  | 0, flags, _ =>
    if flags.has_literal_arg || flags.has_literal_arg2 then none else some (flags, [])
  | fuel + 1, flags, q =>
    if flags.has_literal_arg || flags.has_literal_arg2 then
      match retained_literal literal_one_byte_limit read q with
      | none => none
      | some kept =>
        match next_literal_flags flags with
        | none => some (flags, kept)
        | some flags1 =>
          match retained_literals literal_one_byte_limit read fuel flags1 (q + kept.length) with
          | none => none
          | some (flags2, kept1) => some (flags2, kept ++ kept1)
    else some (flags, [])

/-- The retained bytes among the leading `count` bytes of a branch argument from position
`q` on, as the copy pass is specified: a zero byte is dropped as long as only zero bytes
came before. -/
def retained_branch_bytes (read : Nat → Option Nat) : Nat → Bool → Nat → Option (List Bool)
  | 0, _, _ => some []
  | count + 1, prefix_zero, q =>
    match read q with
    | none => none
    | some byte =>
      if byte > 0 ∨ prefix_zero = false then
        match retained_branch_bytes read count false (q + 1) with
        | none => none
        | some kept => some (true :: kept)
      else
        match retained_branch_bytes read count prefix_zero (q + 1) with
        | none => none
        | some kept => some (false :: kept)

/-- The retained bytes of the arguments of an instruction, from position `q` on: the literal
arguments, the byte argument, and the branch argument, whose last byte is always
retained. -/
def retained_arguments (literal_one_byte_limit : Nat) (flags : cbc_flags_t)
    (branch_offset_length : Nat) (read : Nat → Option Nat) (q : Nat) : Option (List Bool) :=
  match retained_literals literal_one_byte_limit read 3 flags q with
  | none => none
  | some (flags1, kept1) =>
    if flags1.has_branch_arg then
      if 0 < branch_offset_length ∧ branch_offset_length ≤ 3 then
        match retained_branch_bytes read (branch_offset_length - 1) true
            (q + (kept1 ++ if flags1.has_byte_arg then [true] else []).length) with
        | none => none
        | some kept3 =>
          some ((kept1 ++ if flags1.has_byte_arg then [true] else []) ++ (kept3 ++ [true]))
      else none
    else some (kept1 ++ if flags1.has_byte_arg then [true] else [])

/-- The retained bytes of the instruction at position `q` of the stream read by `read`, as
the copy pass is specified: none of the bytes of a jump that the first pass has marked as
deleted (opcode `CBC_JUMP_FORWARD`, three or four bytes), else the opcode (after
`CBC_EXT_OPCODE` the extended opcode as well) and the retained bytes of the arguments.
One flag for each byte of the instruction. -/
def retained_instruction (t : cbc_tables) (literal_one_byte_limit : Nat)
    (read : Nat → Option Nat) (q : Nat) : Option (List Bool) :=
  match read q with
  | none => none
  | some opcode =>
    if opcode = t.CBC_JUMP_FORWARD then
      some (List.replicate (if t.PARSER_MAXIMUM_CODE_SIZE ≤ 65535 then 3 else 4) false)
    else if opcode = t.CBC_EXT_OPCODE then
      match read (q + 1) with
      | none => none
      | some ext_opcode =>
        match retained_arguments literal_one_byte_limit (t.cbc_ext_flags ext_opcode)
            (t.CBC_BRANCH_OFFSET_LENGTH ext_opcode) read (q + 2) with
        | none => none
        | some kept => some (true :: true :: kept)
    else
      match retained_arguments literal_one_byte_limit (t.cbc_flags opcode)
          (t.CBC_BRANCH_OFFSET_LENGTH opcode) read (q + 1) with
      | none => none
      | some kept => some (true :: kept)

/-- The retained bytes of the instructions from position `q` up to position `size`, the end
of the stream; `fuel` bounds the number of instructions. One flag for each byte. -/
def retained_stream (t : cbc_tables) (literal_one_byte_limit : Nat)
    (read : Nat → Option Nat) (size : Nat) : Nat → Nat → Option (List Bool)
  | 0, q => if q < size then none else some []
  | fuel + 1, q =>
    if q < size then
      match retained_instruction t literal_one_byte_limit read q with
      | none => none
      | some kept =>
        match retained_stream t literal_one_byte_limit read size fuel (q + kept.length) with
        | none => none
        | some kept1 => some (kept ++ kept1)
    else some []

/-- The number of retained bytes among the flags. -/
def retained_count (kept : List Bool) : Nat := kept.count true

/-- The counter that `PARSER_NEXT_BYTE_UPDATE` stores in the cells from position `q` on,
where the counter is `counter` before the cell at `q` and `kept` says which of the bytes
are retained: the counter goes up with every retained byte and starts from zero at the
start of a page of `page_size` bytes. -/
def cell_counters (page_size : Nat) : Nat → Nat → List Bool → List Nat
  | _, _, [] => []
  | q, counter, k :: kept =>
    (counter + k.toNat)
      :: cell_counters page_size (q + 1)
          (if (q + 1) % page_size = 0 then 0 else counter + k.toNat) kept

/-- The counter after the cells from position `q` on, see `cell_counters`. -/
def counter_after (page_size : Nat) : Nat → Nat → List Bool → Nat
  | _, counter, [] => counter
  | q, counter, k :: kept =>
    counter_after page_size (q + 1)
      (if (q + 1) % page_size = 0 then 0 else counter + k.toNat) kept

/-- The stream read by `read1` holds the same bytes as the stream read by `read` at the `n`
positions from `q` on. -/
def agree_on (read1 read : Nat → Option Nat) (q n : Nat) : Prop :=
  ∀ r, q ≤ r → r < q + n → read1 r = read r

/-- The cells from position `q` on hold the counters of `cell_counters` in their low seven
bits. -/
def counters_stored (t : cbc_tables) (chain : List Nat) (q counter : Nat) (kept : List Bool)
    (pages : List parser_mem_page_t) : Prop :=
  ∀ j, j < kept.length →
    ∃ c, stream_read t pages chain (q + j) = some c
      ∧ some (c &&& CBC_LOWER_SEVEN_BIT_MASK)
        = (cell_counters t.PARSER_CBC_STREAM_PAGE_SIZE q counter kept)[j]?

/-- The copy pass went through the cells from position `q` on, one for each flag of
`kept`, from state `st` to state `st1`: it stands behind them, it wrote one byte to the
final code for each retained byte, it left the other cells alone, and (for pages of at
most 127 bytes, the counter of `st` being at most the offset of `q` in its page) the low
seven bits of the cells are the counters of `cell_counters`. -/
def kept_run (t : cbc_tables) (chain : List Nat) (q : Nat) (st : copy_state)
    (kept : List Bool) (st1 : copy_state) : Prop :=
  copy_at t chain (q + kept.length) st1
    ∧ st1.dst.length = st.dst.length + retained_count kept
    ∧ (∀ r, r < q ∨ q + kept.length ≤ r →
        stream_read t st1.pages chain r = stream_read t st.pages chain r)
    ∧ (t.PARSER_CBC_STREAM_PAGE_SIZE ≤ 127 →
        st.real_offset ≤ q % t.PARSER_CBC_STREAM_PAGE_SIZE →
        st1.real_offset
            = counter_after t.PARSER_CBC_STREAM_PAGE_SIZE q st.real_offset kept
          ∧ counters_stored t chain q st.real_offset kept st1.pages)


/-! ## The bytes that the first pass counts -/

/-- Whether none of the instructions that the first loop of `parser_post_processing`
reaches, running as `first_pass_loop` does, has the opcode `CBC_JUMP_FORWARD`: that form
marks the deleted jumps, post processing writes it and the emitter never does. -/
def no_marker_emitted (lim : parser_limits) (t : cbc_tables) (pool : List lexer_literal_t)
    (literal_count literal_one_byte_limit : Nat) (last : Option Nat × Nat) :
    Nat → first_pass_state → Bool
  | 0, _ => true
  | fuel + 1, st =>
    if st.page_p ≠ last.1 ∨ st.offset < last.2 then
      match page_read st.pages st.page_p st.offset with
      | .error _ => true
      | .ok opcode =>
        if opcode = t.CBC_JUMP_FORWARD then false
        else
          match first_pass_instruction lim t pool literal_count literal_one_byte_limit st with
          | .error _ => true
          | .ok st1 =>
            no_marker_emitted lim t pool literal_count literal_one_byte_limit last fuel st1
    else true

/-- The first pass went through the cells from position `q` on, one for each flag of
`kept`, from state `st` to state `st1`: it stands behind them, it left the other cells
alone and kept `last_opcode`. -/
def first_kept (t : cbc_tables) (chain : List Nat) (q : Nat) (st : first_pass_state)
    (kept : List Bool) (st1 : first_pass_state) : Prop :=
  first_at t chain (q + kept.length) st1
    ∧ (∀ r, r < q ∨ q + kept.length ≤ r →
        stream_read t st1.pages chain r = stream_read t st.pages chain r)
    ∧ st1.last_opcode = st.last_opcode


/-- Example context: a function with the free identifier `d` and a stream of two pages:
`8, 0, 0` (one literal argument, the two byte placeholder of literal 0), `2, 0, 3` (the
jump `CBC_JUMP_FORWARD_2` to the next instruction), `11, 7` (one byte argument),
`0, 2, 0, 5` (after `CBC_EXT_OPCODE` the extended forward branch with two offset bytes),
`4` and `12`. -/
def final_size_example : parser_context_t :=
  { status_flags := { is_function := true }
    literal_count := 1
    literal_pool := [ { value := some [100], length := 1, type := LEXER_IDENT_LITERAL } ]
    byte_code := { pages := [ { next_p := some 1, bytes := [8, 0, 0, 2, 0, 3, 11, 7] },
                              { bytes := [0, 2, 0, 5, 4, 12, 0, 0] } ],
                   first_p := some 0, last_p := some 1, last_position := 6 } }

/-- Example for the short cut of `parser_copy_identifiers`: the inner function of
`hoist_example` with `PARSER_NO_REG_STORE` set. -/
def no_reg_store_example : parser_context_t :=
  { hoist_example with status_flags := { no_reg_store := true } }

/-- Example for the records flagged `LEXER_FLAG_UNUSED_IDENT`: a function with the argument
`a`, the record of the identifier `u` that `parser_copy_identifiers` appended for an inner
function (flagged `LEXER_FLAG_UNUSED_IDENT` and `LEXER_FLAG_NO_REG_STORE`), and the string
`s`. -/
def unused_ident_example : parser_context_t :=
  { status_flags := { is_function := true }
    argument_count := 1
    register_count := 1
    literal_count := 3
    literal_pool :=
      [ { value := some [97], length := 1, type := LEXER_IDENT_LITERAL,
          status_flags := { var := true, initialized := true, function_argument := true } },
        { value := some [117], length := 1, type := LEXER_IDENT_LITERAL,
          status_flags := { no_reg_store := true, unused_ident := true } },
        { value := some [115], length := 1, type := LEXER_STRING_LITERAL } ] }

/-- Example for the stack limit: a function without arguments whose stack limit is
`PARSER_MAXIMUM_STACK_LIMIT` of `example_tables` and which has the local variable `x`
(not captured: it can live in a register); the stream holds the single one byte
instruction `4`. -/
def stack_limit_example : parser_context_t :=
  { status_flags := { is_function := true }
    stack_limit := 1024
    literal_count := 1
    literal_pool :=
      [ { value := some [120], length := 1, type := LEXER_IDENT_LITERAL,
          status_flags := { var := true } } ]
    byte_code := { pages := [ { bytes := [4, 0, 0, 0, 0, 0, 0, 0] } ], first_p := some 0,
                   last_p := some 0, last_position := 1 } }

/-- Example for the initializers of a function with a rest parameter: the function
`function f(a, ...b)` whose arguments and whose local `c`, initialized with a function, are
captured by an inner function (three initialized variables that are no registers); the
stream holds the single one byte instruction `4`. -/
def rest_initialized_example : parser_context_t :=
  { status_flags := { is_function := true, function_has_rest_param := true }
    argument_count := 2
    register_count := 2
    literal_count := 4
    literal_pool :=
      [ { value := some [97], length := 1, type := LEXER_IDENT_LITERAL,
          status_flags := { var := true, initialized := true, function_argument := true,
                            no_reg_store := true } },
        { value := some [98], length := 1, type := LEXER_IDENT_LITERAL,
          status_flags := { var := true, initialized := true, function_argument := true,
                            no_reg_store := true } },
        { value := some [99], length := 1, type := LEXER_IDENT_LITERAL,
          status_flags := { var := true, initialized := true, no_reg_store := true } },
        { type := LEXER_FUNCTION_LITERAL } ]
    byte_code := { pages := [ { bytes := [4, 0, 0, 0, 0, 0, 0, 0] } ], first_p := some 0,
                   last_p := some 0, last_position := 1 } }

/-- The entry of the table of argument names that the last loop of `parser_post_processing`
writes for the argument record `literal`: `NULL` for a tombstone (type Unused) without a
value; otherwise the entry of the literal table for the index of `target`, which is the
record itself or, for a tombstone, the record that its `prop.index` names. -/
def argument_entry (pool : List lexer_literal_t) (literal_table : List literal_value_t)
    (register_count : Nat) (literal : lexer_literal_t) (value : literal_value_t) : Prop :=
  (literal.type = LEXER_UNUSED_LITERAL ∧ literal.value = none ∧ value = none) ∨
  (¬ (literal.type = LEXER_UNUSED_LITERAL ∧ literal.value = none) ∧
    ∃ target,
      (if literal.type = LEXER_UNUSED_LITERAL then pool[literal.index]? else some literal)
        = some target
      ∧ target.type = LEXER_IDENT_LITERAL ∧ target.status_flags.var = true
      ∧ register_count ≤ target.index
      ∧ literal_table[target.index - register_count]? = some value)

/-- The name of an argument as the table of argument names is specified: the value of the
argument record; for a tombstone (type Unused) `NULL` when it has no value, and else the
value of the record that its `prop.index` names in the pool. -/
def argument_name (pool : List lexer_literal_t) (literal : lexer_literal_t) :
    literal_value_t :=
  if literal.type = LEXER_UNUSED_LITERAL then
    if literal.value = none then none
    else
      match pool[literal.index]? with
      | some target => target.value
      | none => none
  else literal.value

/-- Example for the table of argument names: the non-strict function
`function f(a, a, b) { function b(){} ... arguments ... }`. Record 0 is the tombstone of the
first `a` (no value), record 1 the argument `a`, record 2 the tombstone of the argument `b`,
which names record 3, the binding `b` that the function declaration made (captured by an
inner function), and record 4 the function literal. The stream holds the single one byte
instruction `4`. -/
def argument_names_example : parser_context_t :=
  { status_flags := { is_function := true, arguments_needed := true }
    argument_count := 3
    register_count := 3
    literal_count := 5
    literal_pool :=
      [ { type := LEXER_UNUSED_LITERAL, status_flags := { function_argument := true } },
        { value := some [97], length := 1, type := LEXER_IDENT_LITERAL,
          status_flags := { var := true, initialized := true, function_argument := true } },
        { value := some [98], length := 1, index := 3, type := LEXER_UNUSED_LITERAL,
          status_flags := { function_argument := true } },
        { value := some [98], length := 1, type := LEXER_IDENT_LITERAL,
          status_flags := { var := true, initialized := true, no_reg_store := true } },
        { type := LEXER_FUNCTION_LITERAL } ]
    byte_code := { pages := [ { bytes := [4, 0, 0, 0, 0, 0, 0, 0] } ], first_p := some 0,
                   last_p := some 0, last_position := 1 } }

/-- Whether the instruction at position `q` of the stream read by `read` is the jump that
the first pass of `parser_post_processing` removes: the opcode is `jump_forward` (the
unconditional forward jump with the widest offset), the offset bytes before the last are
zero, and the last offset byte is the offset width plus one (the jump targets the next
instruction). -/
def degenerate_jump (t : cbc_tables) (read : Nat → Option Nat) (q : Nat) : Bool :=
  decide (read q = some t.jump_forward)
    && (List.range (t.CBC_BRANCH_OFFSET_LENGTH t.jump_forward - 1)).all
        (fun i => decide (read (q + 1 + i) = some 0))
    && decide (read (q + t.CBC_BRANCH_OFFSET_LENGTH t.jump_forward)
        = some (t.CBC_BRANCH_OFFSET_LENGTH t.jump_forward + 1))

/-- The header of the branch instruction at position `bytes_p` of the final byte code as
`update_branch` (the body of `parse_update_branches` for a branch) reads it: the number of
opcode bytes (two after `CBC_EXT_OPCODE`) and `branch_argument_length`, which is
`CBC_BRANCH_OFFSET_LENGTH` of the opcode; `none` when the instruction is no branch. -/
def final_branch_header (t : cbc_tables) (code : List Nat) (bytes_p : Nat) :
    Option (Nat × Nat) :=
  match code[bytes_p]? with
  | none => none
  | some first =>
    if first = t.CBC_EXT_OPCODE then
      match code[bytes_p + 1]? with
      | none => none
      | some ext_opcode =>
        if (t.cbc_ext_flags ext_opcode).has_branch_arg then
          some (2, t.CBC_BRANCH_OFFSET_LENGTH ext_opcode)
        else none
    else if (t.cbc_flags first).has_branch_arg then
      some (1, t.CBC_BRANCH_OFFSET_LENGTH first)
    else none

/-! ## The page list after `parse_update_branches` -/

/-- The pages met when the `next_p` pointers are followed from `page_p` to `NULL`, in the
order of the walk; `none` when a pointer names no page or the walk does not reach `NULL`
within `fuel` pages. -/
def follow_next (pages : List parser_mem_page_t) : Nat → Option Nat → Option (List Nat)
  | _, none => some []
  | 0, some _ => none
  | fuel + 1, some p =>
    match pages[p]? with
    | none => none
    | some page => (follow_next pages fuel page.next_p).map (fun walk => p :: walk)

/-- Example stream: three pages of eight bytes without a branch, stored as pages 0, 2 and 1
in the order of the stream; `last_position` is the write cursor in the last page (8 for a
full last page). -/
def reversal_example (last_position : Nat) : parser_mem_data_t :=
  { pages := [ { next_p := some 2, bytes := [4, 4, 4, 4, 4, 4, 4, 4] },
               { next_p := none, bytes := [4, 4, 4, 12, 0, 0, 0, 0] },
               { next_p := some 1, bytes := [11, 7, 4, 4, 4, 4, 4, 4] } ],
    first_p := some 0, last_p := some 1, last_position := last_position }

/-- Example stream: no page was allocated, the write cursor stands at the page size. -/
def empty_stream_example : parser_mem_data_t :=
  { pages := [], first_p := none, last_p := none, last_position := 8 }

/-! ## The bytes that the copy pass emits for the literal arguments -/

/-- The number of literal arguments that the loop
`while (flags & (CBC_HAS_LITERAL_ARG | CBC_HAS_LITERAL_ARG2))` of the copy pass goes through
for an instruction with the given flags: one for `CBC_HAS_LITERAL_ARG` alone, two for both
flags, three for `CBC_HAS_LITERAL_ARG2` alone. -/
def literal_argument_count (flags : cbc_flags_t) : Nat :=
  if flags.has_literal_arg2 then (if flags.has_literal_arg then 2 else 3)
  else if flags.has_literal_arg then 1 else 0

/-- The flags with which that loop is left: it assigns `CBC_HAS_LITERAL_ARG` alone to
`flags` on the way when `CBC_HAS_LITERAL_ARG2` is set. -/
def flags_after_literals (flags : cbc_flags_t) : cbc_flags_t :=
  if flags.has_literal_arg2 then { has_literal_arg := true } else flags

/-- The bytes emitted for `n` literal arguments of two stream bytes each from position `q`
of the stream read by `read`: of each argument the first byte, and the second byte as well
when the first is above the one byte limit. -/
def emitted_literals (literal_one_byte_limit : Nat) (read : Nat → Option Nat) :
    Nat → Nat → List Nat
  | 0, _ => []
  | n + 1, q =>
    (match read q with
      | none => []
      | some first_byte =>
        if first_byte > literal_one_byte_limit then first_byte :: (read (q + 1)).toList
        else [first_byte])
      ++ emitted_literals literal_one_byte_limit read n (q + 2)

/-- Example state of the copy pass: `copy_example_state` after its instruction (opcode 9
with the literal arguments `1, 0` and `255, 45`) was copied with the one byte limit 254. -/
def copy_example_result : copy_state :=
  { pages := [ { bytes := [1, 2, 2, 3, 4, 4, 4, 4] } ], page_p := some 0, offset := 5,
    real_offset := 4, dst := [9, 1, 255, 45] }

/-- Example state of the copy pass: the cursor is on the forward jump `2, 0, 11` of two
distance bytes, the first of them zero. -/
def copy_branch_example_state : copy_state :=
  { pages := [ { next_p := some 1, bytes := [2, 0, 11, 4, 4, 4, 4, 4] },
               { bytes := [5, 8, 4, 12, 0, 0, 0, 0] } ],
    page_p := some 0, offset := 0, real_offset := 0, dst := [] }

/-- Example state of the copy pass: `copy_branch_example_state` after the jump was copied:
the opcode is marked in the stream, and the final byte code holds the opcode decreased by
one and the distance byte 11. -/
def copy_branch_example_result : copy_state :=
  { pages := [ { next_p := some 1, bytes := [129, 1, 2, 4, 4, 4, 4, 4] },
               { bytes := [5, 8, 4, 12, 0, 0, 0, 0] } ],
    page_p := some 0, offset := 3, real_offset := 2, dst := [1, 11] }

/-! ## The operands that `parser_generate_initializers` writes -/

/-- The bytes of the operands `ops`, each as `parser_encode_literal` writes it with the
given one byte limit. -/
def encoded_operands (literal_one_byte_limit : Nat) (ops : List Nat) : List Nat :=
  (ops.map (fun v => parser_encode_literal [] v literal_one_byte_limit)).flatten

/-- The bytes of a sequence of `CBC_INITIALIZE_VAR` instructions, each given by the index it
initializes and the index it initializes from. -/
def initialize_var_instructions (t : cbc_tables) (literal_one_byte_limit : Nat)
    (instructions : List (Nat × Nat)) : List Nat :=
  (instructions.map (fun p =>
    [t.CBC_INITIALIZE_VAR] ++ parser_encode_literal [] p.1 literal_one_byte_limit
      ++ parser_encode_literal [] p.2 literal_one_byte_limit)).flatten

/-- The bytes of `CBC_DEFINE_VARS` that `parser_generate_initializers` writes first, when
there are uninitialized variables that are no registers. -/
def define_vars_bytes (t : cbc_tables) (register_count uninitialized_var_end
    literal_one_byte_limit : Nat) : List Nat :=
  if uninitialized_var_end > register_count then
    [t.CBC_DEFINE_VARS]
      ++ parser_encode_literal [] (u16 (uninitialized_var_end + 65535)) literal_one_byte_limit
  else []

/-! ## `parser_copy_identifiers` with the allocation of `parser_list_append` -/

/-- The outer `while` loop of `parser_copy_identifiers` as `copy_identifiers_loop`, with the
call of `parser_list_append`, which `js-parser.c` does not define, as a parameter:
`parser_list_append pool` is the fault with which the call that is to append a record to
`pool` leaves (it raises when no memory is left), `none` when it returns the new record. -/
def copy_identifiers_loop_alloc (parser_list_append : List lexer_literal_t → Option Fault) :
    List lexer_literal_t → List lexer_literal_t → List lexer_literal_t → Nat →
    Except Fault (List lexer_literal_t × List lexer_literal_t × Nat)
  | [], done, parent_pool, parent_count => .ok (done, parent_pool, parent_count)
  | literal :: rest, done, parent_pool, parent_count =>
    if literal.type ≠ LEXER_IDENT_LITERAL ∨ literal.status_flags.var = true then
      copy_identifiers_loop_alloc parser_list_append rest (done ++ [literal]) parent_pool
        parent_count
    else
      let char_p := literal.value
      let length := literal.length
      let r := mark_parent_literal char_p length parent_pool
      if r.2 then
        copy_identifiers_loop_alloc parser_list_append rest (done ++ [literal]) r.1
          parent_count
      else if parent_count ≥ PARSER_MAXIMUM_NUMBER_OF_LITERALS then
        .error (Fault.raised parser_error_t.PARSER_ERR_LITERAL_LIMIT_REACHED)
      else
        match parser_list_append r.1 with
        | some fault => .error fault
        | none =>
          let parent_literal : lexer_literal_t :=
            { value := char_p
              length := u16 length
              index := 0
              type := LEXER_IDENT_LITERAL
              status_flags :=
                { source_ptr := literal.status_flags.source_ptr
                  no_reg_store := true
                  unused_ident := true } }
          let literal1 :=
            { literal with status_flags := { literal.status_flags with source_ptr := true } }
          copy_identifiers_loop_alloc parser_list_append rest (done ++ [literal1])
            (r.1 ++ [parent_literal]) (u16 (parent_count + 1))

/-- Embedding of `parser_copy_identifiers` with the call of `parser_list_append` as a
parameter, see `copy_identifiers_loop_alloc`; `parser_copy_identifiers` is the case in which
every call of `parser_list_append` returns. -/
def parser_copy_identifiers_alloc (parser_list_append : List lexer_literal_t → Option Fault)
    (context : parser_context_t) : Except Fault parser_context_t :=
  match context.last_context_p with
  | none => .ok context
  | some parent =>
    if !parent.status_flags.is_function then
      .ok context
    else if context.status_flags.no_reg_store then
      .ok { context with
        last_context_p :=
          some { parent with status_flags := { parent.status_flags with no_reg_store := true } } }
    else
      match copy_identifiers_loop_alloc parser_list_append context.literal_pool []
          parent.literal_pool_data parent.literal_count with
      | .error e => .error e
      | .ok (pool, parent_pool, parent_count) =>
        .ok { context with
          literal_pool := pool
          last_context_p :=
            some { parent with literal_pool_data := parent_pool, literal_count := parent_count } }

/-- Example for `parser_copy_identifiers`: as `full_parent_example`, without
`PARSER_NO_REG_STORE` in the finished function, so that the walk is made. -/
def full_parent_walk_example : parser_context_t :=
  { full_parent_example with status_flags := {} }

/-! ## `parser_parse_source`: the calls of the `PARSER_TRY` block that raise -/

/-- The four assertions of `parser_parse_source` behind the call of
`parser_parse_statements`: only the dummy byte is left on the stack, no statement is open,
no opcode is pending and no buffer is allocated. -/
def parser_source_settled (routines : parser_routines) (context : parser_source_context_t) :
    Prop :=
  context.stack_top_uint8 = CBC_MAXIMUM_BYTE_VALUE
    ∧ context.stack.last_position = 1
    ∧ (context.stack.first_p.bind (fun first_p => context.stack.pages[first_p]?)).map
        (fun (page : parser_mem_page_t) => page.next_p) = some none
    ∧ context.stack.last_p = none
    ∧ context.last_statement_current_p = none
    ∧ context.last_cbc_opcode = routines.PARSER_CBC_UNAVAILABLE
    ∧ context.allocated_buffer_p = none

/-- The `PARSER_TRY` block of `parser_parse_source`, entered with `context`, comes to the
call of `parser_parse_statements` with the context `context4`: the calls before it return,
for a script the push of the dummy byte and `lexer_next_token`, for a function body also
`parser_parse_function_arguments` and, on the source of the body, `lexer_next_token`. -/
inductive parser_source_reaches (routines : parser_routines)
    (arg_list_p : Option (List Nat)) (source_p : List Nat)
    (context : parser_source_context_t) : parser_source_context_t → Prop
  | script (context1 context2 : parser_source_context_t) (ha : arg_list_p = none)
      (h1 : routines.parser_stack_push_uint8 context CBC_MAXIMUM_BYTE_VALUE = .ok context1)
      (h2 : routines.lexer_next_token context1 = .ok context2) :
      parser_source_reaches routines arg_list_p source_p context context2
  | function_body (arg_list : List Nat)
      (context1 context2 context3 context4 : parser_source_context_t)
      (ha : arg_list_p = some arg_list)
      (h1 : routines.parser_stack_push_uint8 context CBC_MAXIMUM_BYTE_VALUE = .ok context1)
      (h2 : routines.lexer_next_token context1 = .ok context2)
      (h3 : routines.parser_parse_function_arguments context2 = .ok context3)
      (h4 : routines.lexer_next_token
        { context3 with source_p := source_p, line := 1, column := 1 } = .ok context4) :
      parser_source_reaches routines arg_list_p source_p context context4

/-- An error is raised during the parse: in the `PARSER_TRY` block of `parser_parse_source`,
entered with `context`, the calls return up to one that ends with `parser_raise_error`
for `error` in the context `raised`. The call that raises is, in the order of the block, the
push of the dummy byte, `lexer_next_token`, `parser_parse_function_arguments` or the second
`lexer_next_token` (function body only), `parser_parse_statements`, or
`parser_post_processing` behind the assertions. -/
inductive parser_source_raises (lim : parser_limits) (t : cbc_tables)
    (routines : parser_routines) (arg_list_p : Option (List Nat)) (source_p : List Nat)
    (context : parser_source_context_t) :
    parser_source_context_t → parser_error_t → Prop
  | stack_push (raised : parser_source_context_t) (error : parser_error_t)
      (h1 : routines.parser_stack_push_uint8 context CBC_MAXIMUM_BYTE_VALUE
        = .error (Sum.inl (raised, error))) :
      parser_source_raises lim t routines arg_list_p source_p context raised error
  | first_token (context1 raised : parser_source_context_t) (error : parser_error_t)
      (h1 : routines.parser_stack_push_uint8 context CBC_MAXIMUM_BYTE_VALUE = .ok context1)
      (h2 : routines.lexer_next_token context1 = .error (Sum.inl (raised, error))) :
      parser_source_raises lim t routines arg_list_p source_p context raised error
  | function_arguments (arg_list : List Nat)
      (context1 context2 raised : parser_source_context_t) (error : parser_error_t)
      (ha : arg_list_p = some arg_list)
      (h1 : routines.parser_stack_push_uint8 context CBC_MAXIMUM_BYTE_VALUE = .ok context1)
      (h2 : routines.lexer_next_token context1 = .ok context2)
      (h3 : routines.parser_parse_function_arguments context2
        = .error (Sum.inl (raised, error))) :
      parser_source_raises lim t routines arg_list_p source_p context raised error
  | body_token (arg_list : List Nat)
      (context1 context2 context3 raised : parser_source_context_t) (error : parser_error_t)
      (ha : arg_list_p = some arg_list)
      (h1 : routines.parser_stack_push_uint8 context CBC_MAXIMUM_BYTE_VALUE = .ok context1)
      (h2 : routines.lexer_next_token context1 = .ok context2)
      (h3 : routines.parser_parse_function_arguments context2 = .ok context3)
      (h4 : routines.lexer_next_token
        { context3 with source_p := source_p, line := 1, column := 1 }
          = .error (Sum.inl (raised, error))) :
      parser_source_raises lim t routines arg_list_p source_p context raised error
  | statements (context4 raised : parser_source_context_t) (error : parser_error_t)
      (hr : parser_source_reaches routines arg_list_p source_p context context4)
      (h5 : routines.parser_parse_statements context4 = .error (Sum.inl (raised, error))) :
      parser_source_raises lim t routines arg_list_p source_p context raised error
  | post_processing (context4 raised : parser_source_context_t) (error : parser_error_t)
      (hr : parser_source_reaches routines arg_list_p source_p context context4)
      (h5 : routines.parser_parse_statements context4 = .ok raised)
      (hs : parser_source_settled routines raised)
      (h6 : parser_post_processing lim t raised.context = .error (Fault.raised error)) :
      parser_source_raises lim t routines arg_list_p source_p context raised error

/-- Modelled from the spec: the routines of the lexer and of the statement parser for a
source with more literals than a function may have: they are `var_x_routines`, but
`parser_parse_statements` raises `PARSER_ERR_LITERAL_LIMIT_REACHED` at the token in line 3,
column 7. -/
def literal_limit_routines : parser_routines :=
  { var_x_routines with
    parser_parse_statements := fun context =>
      .error (Sum.inl ({ context with token_line := 3, token_column := 7 },
        parser_error_t.PARSER_ERR_LITERAL_LIMIT_REACHED)) }

/-! # Theorems -/

/-! ### Arithmetic of the two encodings -/

theorem or_highest_bit (h : Nat) (hh : h < 128) : h ||| 128 = h + 128 := by
  interval_cases h <;> rfl

theorem shl8_or (a b : Nat) (hb : b < 256) : (a <<< 8) ||| b = a * 256 + b := by
  have h := Nat.mul_add_lt_is_or (i := 8) (b := b) (by simpa using hb) a
  rw [Nat.shiftLeft_eq, Nat.mul_comm a (2 ^ 8), ← h]

theorem and_255 (n : Nat) : n &&& 255 = n % 256 := by
  exact Nat.and_pow_two_sub_one_eq_mod n 8

theorem shr8 (n : Nat) : n >>> 8 = n / 256 := by
  rw [Nat.shiftRight_eq_div_pow]

theorem parser_encode_literal_one (dst : List Nat) (index limit : Nat)
    (h : index ≤ limit) (hl : limit ≤ 254) :
    parser_encode_literal dst index limit = dst ++ [index] := by
  have h1 : index % 256 = index := Nat.mod_eq_of_lt (by omega)
  simp [parser_encode_literal, h, u8, h1]

theorem parser_encode_literal_small (dst : List Nat) (index : Nat)
    (h : 254 < index) (hi : index ≤ 510) :
    parser_encode_literal dst index 254 = dst ++ [255, index - 255] := by
  have h4 : ¬ index ≤ 254 := by omega
  have h5 : (index - 255) % 256 = index - 255 := Nat.mod_eq_of_lt (by omega)
  simp [parser_encode_literal, h4, u8, CBC_MAXIMUM_BYTE_VALUE, h5]

theorem parser_encode_literal_full (dst : List Nat) (index limit : Nat)
    (h : limit < index) (hl : limit ≠ 254) (hi : index ≤ 32767) :
    parser_encode_literal dst index limit = dst ++ [index / 256 + 128, index % 256] := by
  have h4 : ¬ index ≤ limit := by omega
  have hhi : index / 256 < 128 := by omega
  have e1 : (index >>> 8) % 256 = index >>> 8 := by
    rw [shr8]; exact Nat.mod_eq_of_lt (by omega)
  have e2 : (index >>> 8) ||| 128 = index / 256 + 128 := by
    rw [shr8]; exact or_highest_bit _ hhi
  have e3 : (index / 256 + 128) % 256 = index / 256 + 128 := Nat.mod_eq_of_lt (by omega)
  have e4 : (index &&& 255) % 256 = index % 256 := by
    rw [and_255]; exact Nat.mod_mod _ _
  simp [parser_encode_literal, h4, hl, u8, CBC_MAXIMUM_BYTE_VALUE, CBC_HIGHEST_BIT_MASK,
    e1, e2, e3, e4]

/-- C5: `parser_encode_literal` writes the single byte `index` when the index is at most the
one byte limit; otherwise with limit 254 it writes 255 followed by `index - 255` (exact for
every index up to 510), and with any other limit it writes `(index >> 8) | 0x80` followed
by `index & 0xFF` (for every index up to 32767); the returned position is the destination
advanced by the number of bytes written. -/
theorem C5_parser_encode_literal_bytes (dst : List Nat) (index limit : Nat)
    (hlimit : limit ≤ 254) (hindex : index ≤ 32767) :
    (index ≤ limit →
        parser_encode_literal dst index limit = dst ++ [index] ∧
        (parser_encode_literal dst index limit).length = dst.length + 1) ∧
    (limit < index → limit = 254 → index ≤ 510 →
        parser_encode_literal dst index limit = dst ++ [255, index - 255] ∧
        index - 255 < 256 ∧
        (parser_encode_literal dst index limit).length = dst.length + 2) ∧
    (limit < index → limit ≠ 254 →
        parser_encode_literal dst index limit
          = dst ++ [(index >>> 8) ||| 0x80, index &&& 0xFF] ∧
        ((index >>> 8) ||| 0x80) < 256 ∧ (index &&& 0xFF) < 256 ∧
        (parser_encode_literal dst index limit).length = dst.length + 2) := by
  refine ⟨?_, ?_, ?_⟩
  · intro h
    rw [parser_encode_literal_one dst index limit h hlimit]
    simp
  · intro h1 h2 h3
    subst h2
    rw [parser_encode_literal_small dst index h1 h3]
    refine ⟨rfl, by omega, by simp⟩
  · intro h1 h2
    rw [parser_encode_literal_full dst index limit h1 h2 hindex]
    have e2 : (index >>> 8) ||| 128 = index / 256 + 128 := by
      rw [shr8]; exact or_highest_bit _ (by omega)
    rw [e2, and_255]
    refine ⟨rfl, by omega, Nat.mod_lt _ (by decide), by simp⟩

/-- Witness of C5: index 300, one byte limit 254, after two bytes already written. -/
theorem C5_parser_encode_literal_bytes_witness :
    parser_encode_literal [7, 9] 300 254 = [7, 9] ++ [255, 300 - 255] ∧
    parser_encode_literal [7, 9] 300 127 = [7, 9] ++ [(300 >>> 8) ||| 0x80, 300 &&& 0xFF] ∧
    parser_encode_literal [7, 9] 100 127 = [7, 9] ++ [100] :=
  ⟨((C5_parser_encode_literal_bytes [7, 9] 300 254 (by decide) (by decide)).2.1
      (by decide) rfl (by decide)).1,
   ((C5_parser_encode_literal_bytes [7, 9] 300 127 (by decide) (by decide)).2.2
      (by decide) (by decide)).1,
   ((C5_parser_encode_literal_bytes [7, 9] 100 127 (by decide) (by decide)).1
      (by decide)).1⟩

/-- C6: decoding what `parser_encode_literal` wrote with `PARSER_READ_IDENTIFIER_INDEX`
(limit 255 and delta 0xFE01 for the small encoding, limit 128 and delta 0x8000 for the full
encoding) gives back the index and leaves exactly the bytes that follow the encoding, for
every index up to 510 in small mode and up to 32767 in full mode. -/
theorem C6_read_encode_roundtrip (index : Nat) (rest : List Nat) :
    (index ≤ 510 →
      PARSER_READ_IDENTIFIER_INDEX 255 0xfe01 (parser_encode_literal [] index 254 ++ rest)
        = some (index, rest)) ∧
    (index ≤ 32767 →
      PARSER_READ_IDENTIFIER_INDEX 128 0x8000 (parser_encode_literal [] index 127 ++ rest)
        = some (index, rest)) := by
  constructor
  · intro h
    by_cases h1 : index ≤ 254
    · have h2 : ¬ 255 ≤ index := by omega
      rw [parser_encode_literal_one [] index 254 h1 (le_refl _)]
      simp [PARSER_READ_IDENTIFIER_INDEX, h2]
    · rw [parser_encode_literal_small [] index (by omega) h]
      simp only [List.nil_append, List.cons_append, PARSER_READ_IDENTIFIER_INDEX]
      rw [shl8_or 255 (index - 255) (by omega)]
      simp only [ge_iff_le, le_refl, if_true, Option.some.injEq, Prod.mk.injEq, and_true]
      omega
  · intro h
    by_cases h1 : index ≤ 127
    · have h2 : ¬ 128 ≤ index := by omega
      rw [parser_encode_literal_one [] index 127 h1 (by decide)]
      simp [PARSER_READ_IDENTIFIER_INDEX, h2]
    · rw [parser_encode_literal_full [] index 127 (by omega) (by decide) h]
      simp only [List.nil_append, List.cons_append, PARSER_READ_IDENTIFIER_INDEX]
      rw [shl8_or _ (index % 256) (Nat.mod_lt _ (by decide))]
      have h4 : index / 256 + 128 ≥ 128 := by omega
      simp only [h4, if_true, Option.some.injEq, Prod.mk.injEq, and_true]
      omega

/-- Witness of C6: index 510 in small mode and index 32767 in full mode, followed by one
further byte. -/
theorem C6_read_encode_roundtrip_witness :
    PARSER_READ_IDENTIFIER_INDEX 255 0xfe01 (parser_encode_literal [] 510 254 ++ [42])
      = some (510, [42]) ∧
    PARSER_READ_IDENTIFIER_INDEX 128 0x8000 (parser_encode_literal [] 32767 127 ++ [42])
      = some (32767, [42]) :=
  ⟨(C6_read_encode_roundtrip 510 [42]).1 (by decide),
   (C6_read_encode_roundtrip 32767 [42]).2 (by decide)⟩

/-! ## Hoisting of free identifiers: `parser_copy_identifiers` -/

theorem marked_from_refl (q : lexer_literal_t) : marked_from q q := Or.inl rfl

theorem set_no_reg_store_idem (q : lexer_literal_t) :
    q.set_no_reg_store.set_no_reg_store = q.set_no_reg_store := rfl

theorem marked_from_trans {a b c : lexer_literal_t} (h1 : marked_from a b)
    (h2 : marked_from b c) : marked_from a c := by
  rcases h1 with rfl | rfl
  · exact h2
  · rcases h2 with rfl | rfl
    · exact Or.inr rfl
    · exact Or.inr rfl

theorem covers_of_marked_from {c p q : lexer_literal_t} (h : covers c p)
    (hm : marked_from p q) : covers c q := by
  rcases hm with rfl | rfl
  · exact h
  · exact ⟨h.1, h.2.1, rfl⟩

theorem forall₂_marked_refl (l : List lexer_literal_t) : List.Forall₂ marked_from l l := by
  induction l with
  | nil => exact List.Forall₂.nil
  | cons a l ih => exact List.Forall₂.cons (marked_from_refl a) ih

theorem forall₂_marked_trans {l1 l2 l3 : List lexer_literal_t}
    (h1 : List.Forall₂ marked_from l1 l2) (h2 : List.Forall₂ marked_from l2 l3) :
    List.Forall₂ marked_from l1 l3 := by
  induction h1 generalizing l3 with
  | nil => cases h2; exact List.Forall₂.nil
  | cons hab _ ih =>
    cases h2 with
    | cons hbc htl => exact List.Forall₂.cons (marked_from_trans hab hbc) (ih htl)

theorem exists_covers_of_forall₂ {c : lexer_literal_t} {l1 l2 : List lexer_literal_t}
    (h : List.Forall₂ marked_from l1 l2) (hc : ∃ p ∈ l1, covers c p) :
    ∃ p ∈ l2, covers c p := by
  induction h with
  | nil => simp at hc
  | cons hab _ ih =>
    rcases hc with ⟨p, hp, hcov⟩
    rcases List.mem_cons.1 hp with rfl | hp
    · exact ⟨_, List.mem_cons_self _ _, covers_of_marked_from hcov hab⟩
    · rcases ih ⟨p, hp, hcov⟩ with ⟨q, hq, hq2⟩
      exact ⟨q, List.mem_cons_of_mem _ hq, hq2⟩

theorem forall₂_append_split {R : lexer_literal_t → lexer_literal_t → Prop} :
    ∀ (l1 l2 l : List lexer_literal_t), List.Forall₂ R (l1 ++ l2) l →
      ∃ m1 m2, l = m1 ++ m2 ∧ List.Forall₂ R l1 m1 ∧ List.Forall₂ R l2 m2 := by
  intro l1
  induction l1 with
  | nil => intro l2 l h; exact ⟨[], l, rfl, List.Forall₂.nil, h⟩
  | cons a l1 ih =>
    intro l2 l h
    cases h with
    | cons hab htl =>
      rcases ih _ _ htl with ⟨m1, m2, rfl, h1, h2⟩
      exact ⟨_ :: m1, m2, rfl, List.Forall₂.cons hab h1, h2⟩

theorem mark_parent_literal_forall₂ (char_p : literal_value_t) (length : Nat)
    (pool : List lexer_literal_t) :
    List.Forall₂ marked_from pool (mark_parent_literal char_p length pool).1 := by
  induction pool with
  | nil => exact List.Forall₂.nil
  | cons a l ih =>
    unfold mark_parent_literal
    split
    · exact List.Forall₂.cons (Or.inr rfl) (forall₂_marked_refl l)
    · exact List.Forall₂.cons (Or.inl rfl) ih

theorem mark_parent_literal_found (c : lexer_literal_t) (pool : List lexer_literal_t)
    (h : (mark_parent_literal c.value c.length pool).2 = true) :
    ∃ p ∈ (mark_parent_literal c.value c.length pool).1, covers c p := by
  induction pool with
  | nil => simp [mark_parent_literal] at h
  | cons a l ih =>
    unfold mark_parent_literal at h ⊢
    split
    · rename_i hcond
      refine ⟨a.set_no_reg_store, List.mem_cons_self _ _, hcond.1, ⟨hcond.2.1, ?_⟩, rfl⟩
      have hm := hcond.2.2
      show a.value.map (List.take a.length) = c.value.map (List.take c.length)
      unfold memcmp_eq at hm
      rw [hcond.2.1]
      cases hav : a.value with
      | none => simp [hav] at hm
      | some x =>
        cases hcv : c.value with
        | none => simp [hav, hcv] at hm
        | some y =>
          simp only [hav, hcv, beq_iff_eq] at hm
          simp [hm]
    · rename_i hcond
      simp only [if_neg hcond] at h
      rcases ih h with ⟨p, hp, hcov⟩
      exact ⟨p, List.mem_cons_of_mem _ hp, hcov⟩

/-- Loop invariant of `parser_copy_identifiers`: the parent pool on return is the pool at
loop entry with some records marked, followed by appended records that carry
`LEXER_FLAG_NO_REG_STORE` and `LEXER_FLAG_UNUSED_IDENT`, and it covers every free identifier
the loop went through; the child records keep type, `var` flag, length and value. -/
theorem copy_identifiers_loop_spec (rest : List lexer_literal_t) :
    ∀ (done pool : List lexer_literal_t) (count : Nat)
      (child parent_pool : List lexer_literal_t) (parent_count : Nat),
      (∀ c ∈ rest, c.length < 65536) →
      copy_identifiers_loop rest done pool count = .ok (child, parent_pool, parent_count) →
      ∃ M A done1, parent_pool = M ++ A ∧ List.Forall₂ marked_from pool M ∧
        (∀ a ∈ A, a.status_flags.unused_ident = true ∧ a.status_flags.no_reg_store = true) ∧
        child = done ++ done1 ∧
        ∀ c ∈ done1, c.type = LEXER_IDENT_LITERAL → c.status_flags.var = false →
          ∃ p ∈ parent_pool, covers c p := by
  induction rest with
  | nil =>
    intro done pool count child parent_pool parent_count _ h
    simp only [copy_identifiers_loop, Except.ok.injEq, Prod.mk.injEq] at h
    obtain ⟨rfl, rfl, rfl⟩ := h
    exact ⟨pool, [], [], by simp, forall₂_marked_refl _, by simp, by simp, by simp⟩
  | cons lit rest ih =>
    intro done pool count child parent_pool parent_count hlen h
    have hlen1 : ∀ c ∈ rest, c.length < 65536 := fun c hc => hlen c (List.mem_cons_of_mem _ hc)
    unfold copy_identifiers_loop at h
    split at h
    · rename_i hskip
      rcases ih _ _ _ _ _ _ hlen1 h with ⟨M, A, done1, e1, hM, hA, e2, hcov⟩
      refine ⟨M, A, lit :: done1, e1, hM, hA, by simp [e2], ?_⟩
      intro c hc ht hv
      rcases List.mem_cons.1 hc with rfl | hc
      · rcases hskip with h1 | h1
        · exact absurd ht h1
        · rw [hv] at h1; exact absurd h1 (by decide)
      · exact hcov c hc ht hv
    · rename_i hskip
      simp only at h
      split at h
      · rename_i hfound
        rcases ih _ _ _ _ _ _ hlen1 h with ⟨M, A, done1, e1, hM, hA, e2, hcov⟩
        refine ⟨M, A, lit :: done1, e1,
          forall₂_marked_trans (mark_parent_literal_forall₂ _ _ _) hM, hA, by simp [e2], ?_⟩
        intro c hc ht hv
        rcases List.mem_cons.1 hc with rfl | hc
        · have h1 := mark_parent_literal_found c pool hfound
          rcases exists_covers_of_forall₂ hM h1 with ⟨p, hp, hp2⟩
          exact ⟨p, by rw [e1]; exact List.mem_append_left _ hp, hp2⟩
        · exact hcov c hc ht hv
      · split at h
        · exact absurd h (by simp)
        · rcases ih _ _ _ _ _ _ hlen1 h with ⟨M, A, done1, e1, hM, hA, e2, hcov⟩
          rcases forall₂_append_split _ _ _ hM with ⟨M1, A1, rfl, hM1, hA1⟩
          refine ⟨M1, A1 ++ A,
            { lit with status_flags := { lit.status_flags with source_ptr := true } } :: done1,
            by rw [e1, List.append_assoc],
            forall₂_marked_trans (mark_parent_literal_forall₂ _ _ _) hM1, ?_, by simp [e2], ?_⟩
          · intro a ha
            rcases List.mem_append.1 ha with ha | ha
            · cases hA1 with
              | cons hab htl =>
                cases htl
                rw [List.mem_singleton] at ha
                subst ha
                rcases hab with rfl | rfl <;> exact ⟨rfl, rfl⟩
            · exact hA a ha
          · intro c hc ht hv
            rcases List.mem_cons.1 hc with rfl | hc
            · have hl : lit.length < 65536 := hlen lit (List.mem_cons_self _ _)
              have h1 := exists_covers_of_forall₂ hM
                (c := { lit with status_flags :=
                    { lit.status_flags with source_ptr := true } })
                ⟨_, List.mem_append_right _ (List.mem_singleton_self _), rfl,
                  ⟨Nat.mod_eq_of_lt hl, by
                    show lit.value.map (List.take (u16 lit.length))
                      = lit.value.map (List.take lit.length)
                    rw [show u16 lit.length = lit.length from Nat.mod_eq_of_lt hl]⟩, rfl⟩
              rcases h1 with ⟨p, hp, hp2⟩
              exact ⟨p, by rw [e1]; exact List.mem_append_left _ hp, hp2⟩
            · exact hcov c hc ht hv

/-- C7: after `parser_copy_identifiers` returns for a nested function (the parent context is
a function, the own context lacks `PARSER_NO_REG_STORE`), the parent pool consists of the
records it had, some of them marked `LEXER_FLAG_NO_REG_STORE`, followed by appended records
flagged `LEXER_FLAG_NO_REG_STORE` and `LEXER_FLAG_UNUSED_IDENT`; and every child record of type
`LEXER_IDENT_LITERAL` without `LEXER_FLAG_VAR` has a record of type `LEXER_IDENT_LITERAL` with
the same length and the same bytes and with `LEXER_FLAG_NO_REG_STORE` set, either among the
former or among the latter. -/
theorem C7_copy_identifiers_hoists_free_identifiers
    (context context1 : parser_context_t) (parent : parser_saved_context_t)
    (hparent : context.last_context_p = some parent)
    (hfun : parent.status_flags.is_function = true)
    (hnrs : context.status_flags.no_reg_store = false)
    (hlen : ∀ c ∈ context.literal_pool, c.length < 65536)
    (h : parser_copy_identifiers context = .ok context1) :
    ∃ parent1 M A, context1.last_context_p = some parent1 ∧
      parent1.literal_pool_data = M ++ A ∧
      List.Forall₂ marked_from parent.literal_pool_data M ∧
      (∀ a ∈ A, a.status_flags.unused_ident = true ∧ a.status_flags.no_reg_store = true) ∧
      ∀ c ∈ context1.literal_pool, c.type = LEXER_IDENT_LITERAL → c.status_flags.var = false →
        (∃ p ∈ M, covers c p) ∨ (∃ p ∈ A, covers c p) := by
  unfold parser_copy_identifiers at h
  rw [hparent] at h
  simp only [hfun, hnrs, Bool.not_true, Bool.false_eq_true, if_false] at h
  split at h
  · exact absurd h (by simp)
  · rename_i pool parent_pool parent_count hloop
    rcases copy_identifiers_loop_spec _ _ _ _ _ _ _ hlen hloop with ⟨M, A, done1, e1, hM, hA, e2, hcov⟩
    simp only [Except.ok.injEq] at h
    subst h
    refine ⟨_, M, A, rfl, e1, hM, hA, ?_⟩
    intro c hc ht hv
    have hc1 : c ∈ done1 := by
      have : c ∈ pool := hc
      rw [e2] at this
      simpa using this
    rcases hcov c hc1 ht hv with ⟨p, hp, hp2⟩
    rw [e1] at hp
    rcases List.mem_append.1 hp with hp | hp
    · exact Or.inl ⟨p, hp, hp2⟩
    · exact Or.inr ⟨p, hp, hp2⟩

/-- Witness of C7: for `hoist_example` the call returns, the parent record `a` is marked and a
record for `b` is appended. -/
theorem C7_copy_identifiers_hoists_free_identifiers_witness :
    (parser_copy_identifiers hoist_example).map
        (fun c => c.last_context_p.map (fun q => q.literal_pool_data.map
          (fun l => (l.value, l.status_flags.no_reg_store, l.status_flags.unused_ident))))
      = .ok (some [(some [97, 61], true, false), (some [98], true, true)]) ∧
    ∃ context1 parent1 M A, parser_copy_identifiers hoist_example = .ok context1 ∧
      context1.last_context_p = some parent1 ∧
      parent1.literal_pool_data = M ++ A ∧
      List.Forall₂ marked_from hoist_example_parent.literal_pool_data M ∧
      (∀ a ∈ A, a.status_flags.unused_ident = true ∧ a.status_flags.no_reg_store = true) ∧
      ∀ c ∈ context1.literal_pool, c.type = LEXER_IDENT_LITERAL → c.status_flags.var = false →
        (∃ p ∈ M, covers c p) ∨ (∃ p ∈ A, covers c p) := by
  refine ⟨rfl, ?_⟩
  have hok : (parser_copy_identifiers hoist_example).toBool = true := rfl
  cases hrun : parser_copy_identifiers hoist_example with
  | error e => rw [hrun] at hok; exact absurd hok (by simp [Except.toBool])
  | ok context1 =>
    obtain ⟨parent1, M, A, h1, h2, h3, h4, h5⟩ :=
      C7_copy_identifiers_hoists_free_identifiers hoist_example context1 hoist_example_parent
        rfl rfl rfl (by decide) hrun
    exact ⟨context1, parent1, M, A, rfl, h1, h2, h3, h4, h5⟩

/-! ## Index assignment: `parser_compute_indicies` -/

theorem seq_ok_nil (K : lexer_literal_t → Bool) (s : Nat) : seq_ok K s s [] [] := by
  constructor
  · intro h; simp; omega
  · intro _; simp [class_indices]

theorem seq_ok_cons {K : lexer_literal_t → Bool} {s s1 e : Nat} {x x2 : lexer_literal_t}
    {l l2 : List lexer_literal_t} (hstep : step_ok K s s1 x x2)
    (h : seq_ok K s1 e l l2) : seq_ok K s e (x :: l) (x2 :: l2) := by
  rcases hstep with ⟨h1, h2, rfl⟩ | ⟨h1, h2, h3, rfl⟩
  · unfold seq_ok class_indices at *
    simp only [List.filter_cons, h1, h2, Bool.false_eq_true, if_false]
    exact h
  · unfold seq_ok class_indices u16 at *
    simp only [List.filter_cons, h1, h2, if_true, List.length_cons, List.map_cons, h3]
    constructor
    · intro hs
      rw [h.1 (Nat.mod_lt _ (by decide))]
      omega
    · intro hs
      have e1 : (s + 1) % 65536 = s + 1 := Nat.mod_eq_of_lt (by omega)
      rw [e1] at h
      rw [List.range'_succ, h.2 (by omega)]

theorem arg_ok_nil (s : Nat) : arg_ok s s [] [] := by
  constructor
  · intro h; simp; omega
  · intro _; simp [class_indices]

theorem arg_ok_cons {s s1 e : Nat} {x x2 : lexer_literal_t}
    {l l2 : List lexer_literal_t} (hstep : arg_step s s1 x x2)
    (h : arg_ok s1 e l l2) : arg_ok s e (x :: l) (x2 :: l2) := by
  rcases hstep with ⟨h1, h2, rfl⟩ | ⟨h1, h2, rfl⟩ | ⟨h1, h2, h3, rfl⟩
  · unfold arg_ok class_indices at *
    simp only [List.filter_cons, h1, h2, Bool.false_eq_true, if_false]
    exact h
  · unfold arg_ok class_indices u16 at *
    simp only [List.filter_cons, h1, h2, if_true, List.length_cons, Bool.false_eq_true, if_false]
    constructor
    · intro hs
      rw [h.1 (Nat.mod_lt _ (by decide))]
      omega
    · intro hs
      have e1 : (s + 1) % 65536 = s + 1 := Nat.mod_eq_of_lt (by omega)
      rw [e1] at h
      rw [List.range'_succ]
      exact List.Sublist.cons _ (h.2 (by omega))
  · unfold arg_ok class_indices u16 at *
    simp only [List.filter_cons, h1, h2, if_true, List.length_cons, List.map_cons, h3]
    constructor
    · intro hs
      rw [h.1 (Nat.mod_lt _ (by decide))]
      omega
    · intro hs
      have e1 : (s + 1) % 65536 = s + 1 := Nat.mod_eq_of_lt (by omega)
      rw [e1] at h
      rw [List.range'_succ]
      exact List.Sublist.cons₂ _ (h.2 (by omega))

set_option maxHeartbeats 4000000 in
/-- What the body of the second loop does to one record, class by class. -/
theorem assign_index_spec (lim : parser_limits) (hiv : Bool) (limit rc : Nat)
    (st st1 : index_state) (x x2 : lexer_literal_t) (next fo : Option lexer_literal_t)
    (h : assign_index lim hiv limit rc st x next = .ok (x2, st1, fo)) :
    same_but_index x x2 ∧
    arg_step st.argument_count st1.argument_count x x2 ∧
    step_ok is_register st.register_index st1.register_index x x2 ∧
    step_ok is_uninitialized_var st.uninitialized_var_index st1.uninitialized_var_index x x2 ∧
    step_ok is_initialized_var st.initialized_var_index st1.initialized_var_index x x2 ∧
    step_ok is_ident st.ident_index st1.ident_index x x2 ∧
    step_ok is_const_literal st.const_literal_index st1.const_literal_index x x2 ∧
    ((fo = none ∧ step_ok is_function_type st.literal_index st1.literal_index x x2) ∨
     (is_function_type x = false ∧ is_function_type x2 = false ∧
      ∃ f, next = some f ∧ f.type = LEXER_FUNCTION_LITERAL ∧
        fo = some { f with index := st.literal_index } ∧
        st1.literal_index = u16 (st.literal_index + 1))) := by
  rcases x with ⟨v, len, idx, t, ⟨f1, f2, f3, f4, f5, f6⟩⟩
  unfold assign_index at h
  cases next <;>
  split_ifs at h <;>
  (try dsimp only at h) <;>
  (try split_ifs at h) <;>
  first
    | (cases h; done)
    | (simp only [Except.ok.injEq, Prod.mk.injEq] at h
       obtain ⟨rfl, rfl, rfl⟩ := h
       refine ⟨rfl, ?_, ?_, ?_, ?_, ?_, ?_, ?_⟩ <;>
       cases t <;>
       simp_all [arg_step, step_ok, is_counted_argument, is_argument,
         is_register, is_uninitialized_var, is_initialized_var, is_ident, is_const_literal,
         is_function_type])

/-- A function record is in none of the classes of identifiers and constants. -/
theorem function_record_classes (f : lexer_literal_t) (hf : f.type = LEXER_FUNCTION_LITERAL) :
    is_counted_argument f = false ∧ is_argument f = false ∧ is_register f = false ∧
    is_uninitialized_var f = false ∧ is_initialized_var f = false ∧ is_ident f = false ∧
    is_const_literal f = false ∧ is_function_type f = true := by
  simp [is_counted_argument, is_argument, is_register, is_uninitialized_var,
    is_initialized_var, is_ident, is_const_literal, is_function_type, hf]

/-- The second loop of `parser_compute_indicies`, class by class: only `prop.index` changes,
every counter advances by the number of records of its class, and without wrap-around the
records of each class carry consecutive indices in pool order. -/
theorem assign_indices_spec (lim : parser_limits) (hiv : Bool) (limit rc : Nat) :
    ∀ (n : Nat) (l : List lexer_literal_t), l.length ≤ n →
    ∀ (st : index_state) (l2 : List lexer_literal_t) (i : index_state),
    assign_indices lim hiv limit rc st l = .ok (l2, i) →
    List.Forall₂ same_but_index l l2 ∧
    arg_ok st.argument_count i.argument_count l l2 ∧
    seq_ok is_register st.register_index i.register_index l l2 ∧
    seq_ok is_uninitialized_var st.uninitialized_var_index i.uninitialized_var_index l l2 ∧
    seq_ok is_initialized_var st.initialized_var_index i.initialized_var_index l l2 ∧
    seq_ok is_ident st.ident_index i.ident_index l l2 ∧
    seq_ok is_const_literal st.const_literal_index i.const_literal_index l l2 ∧
    seq_ok is_function_type st.literal_index i.literal_index l l2 := by
  intro n
  induction n with
  | zero =>
    intro l hl st l2 i h
    have : l = [] := List.length_eq_zero.1 (Nat.le_zero.1 hl)
    subst this
    rw [assign_indices] at h
    simp only [Except.ok.injEq, Prod.mk.injEq] at h
    obtain ⟨rfl, rfl⟩ := h
    exact ⟨List.Forall₂.nil, arg_ok_nil _, seq_ok_nil _ _, seq_ok_nil _ _, seq_ok_nil _ _,
      seq_ok_nil _ _, seq_ok_nil _ _, seq_ok_nil _ _⟩
  | succ n ih =>
    intro l hl st l2 i h
    match l, hl, h with
    | [], _, h =>
      rw [assign_indices] at h
      simp only [Except.ok.injEq, Prod.mk.injEq] at h
      obtain ⟨rfl, rfl⟩ := h
      exact ⟨List.Forall₂.nil, arg_ok_nil _, seq_ok_nil _ _, seq_ok_nil _ _, seq_ok_nil _ _,
        seq_ok_nil _ _, seq_ok_nil _ _, seq_ok_nil _ _⟩
    | [x], _, h =>
      rw [assign_indices] at h
      split at h
      · exact absurd h (by simp)
      · rename_i x2 st1 fo hbody
        simp only [Except.ok.injEq, Prod.mk.injEq] at h
        obtain ⟨rfl, rfl⟩ := h
        obtain ⟨h0, h1, h2, h3, h4, h5, h6, h7⟩ :=
          assign_index_spec lim hiv limit rc st st1 x x2 none fo hbody
        have h7a : step_ok is_function_type st.literal_index st1.literal_index x x2 := by
          rcases h7 with ⟨_, h7⟩ | ⟨_, _, f, hf, _⟩
          · exact h7
          · exact absurd hf (by simp)
        exact ⟨List.Forall₂.cons h0 List.Forall₂.nil, arg_ok_cons h1 (arg_ok_nil _),
          seq_ok_cons h2 (seq_ok_nil _ _), seq_ok_cons h3 (seq_ok_nil _ _),
          seq_ok_cons h4 (seq_ok_nil _ _), seq_ok_cons h5 (seq_ok_nil _ _),
          seq_ok_cons h6 (seq_ok_nil _ _), seq_ok_cons h7a (seq_ok_nil _ _)⟩
    | x :: y :: rest, hl, h =>
      have hl1 : (y :: rest).length ≤ n := by simp at hl ⊢; omega
      have hl2 : rest.length ≤ n := by simp at hl; omega
      rw [assign_indices] at h
      split at h
      · exact absurd h (by simp)
      · rename_i x2 st1 hbody
        split at h
        · exact absurd h (by simp)
        · rename_i rest1 st2 hrec
          simp only [Except.ok.injEq, Prod.mk.injEq] at h
          obtain ⟨rfl, rfl⟩ := h
          obtain ⟨h0, h1, h2, h3, h4, h5, h6, h7⟩ :=
            assign_index_spec lim hiv limit rc st st1 x x2 (some y) none hbody
          obtain ⟨r0, r1, r2, r3, r4, r5, r6, r7⟩ := ih _ hl1 _ _ _ hrec
          have h7a : step_ok is_function_type st.literal_index st1.literal_index x x2 := by
            rcases h7 with ⟨_, h7⟩ | ⟨_, _, f, _, _, hf, _⟩
            · exact h7
            · exact absurd hf (by simp)
          exact ⟨List.Forall₂.cons h0 r0, arg_ok_cons h1 r1, seq_ok_cons h2 r2,
            seq_ok_cons h3 r3, seq_ok_cons h4 r4, seq_ok_cons h5 r5, seq_ok_cons h6 r6,
            seq_ok_cons h7a r7⟩
      · rename_i x2 st1 y2 hbody
        split at h
        · exact absurd h (by simp)
        · rename_i rest1 st2 hrec
          simp only [Except.ok.injEq, Prod.mk.injEq] at h
          obtain ⟨rfl, rfl⟩ := h
          obtain ⟨h0, h1, h2, h3, h4, h5, h6, h7⟩ :=
            assign_index_spec lim hiv limit rc st st1 x x2 (some y) (some y2) hbody
          obtain ⟨r0, r1, r2, r3, r4, r5, r6, r7⟩ := ih _ hl2 _ _ _ hrec
          rcases h7 with ⟨hf, _⟩ | ⟨hx, hx2, f, hf, hft, hfo, hli⟩
          · exact absurd hf (by simp)
          · simp only [Option.some.injEq] at hf hfo
            subst hf
            subst hfo
            obtain ⟨c1, c2, c3, c4, c5, c6, c7, c8⟩ := function_record_classes y hft
            obtain ⟨d1, d2, d3, d4, d5, d6, d7, d8⟩ :=
              function_record_classes { y with index := st.literal_index } hft
            refine ⟨List.Forall₂.cons h0 (List.Forall₂.cons rfl r0),
              arg_ok_cons h1 (arg_ok_cons (Or.inl ⟨c1, d2, rfl⟩) r1),
              seq_ok_cons h2 (seq_ok_cons (Or.inl ⟨c3, d3, rfl⟩) r2),
              seq_ok_cons h3 (seq_ok_cons (Or.inl ⟨c4, d4, rfl⟩) r3),
              seq_ok_cons h4 (seq_ok_cons (Or.inl ⟨c5, d5, rfl⟩) r4),
              seq_ok_cons h5 (seq_ok_cons (Or.inl ⟨c6, d6, rfl⟩) r5),
              seq_ok_cons h6 (seq_ok_cons (Or.inl ⟨c7, d7, rfl⟩) r6),
              seq_ok_cons (Or.inl ⟨hx, hx2, rfl⟩)
                (seq_ok_cons (Or.inr ⟨c8, d8, rfl, hli⟩) r7)⟩

theorem length_filter_cons (K : lexer_literal_t → Bool) (x : lexer_literal_t)
    (l : List lexer_literal_t) :
    ((x :: l).filter K).length = (l.filter K).length + (K x).toNat := by
  cases h : K x <;> simp [List.filter_cons, h]

/-- Every record is dropped or belongs to exactly one class, the mirrored arguments being
both counted arguments and initialized variables. -/
theorem class_partition_pointwise (x : lexer_literal_t) :
    (is_counted_argument x).toNat + (is_register x).toNat + (is_uninitialized_var x).toNat
      + (is_initialized_var x).toNat + (is_ident x).toNat + (is_const_literal x).toNat
      + (is_function_literal x).toNat + (is_dropped x).toNat
      = 1 + (is_mirrored_argument x).toNat := by
  rcases x with ⟨v, len, idx, t, ⟨f1, f2, f3, f4, f5, f6⟩⟩
  cases t <;> cases f1 <;> cases f2 <;> cases f3 <;> cases f4 <;> cases f5 <;> rfl

theorem function_type_pointwise (x : lexer_literal_t) :
    (is_function_type x).toNat
      = (is_function_literal x).toNat
        + (is_function_type x && x.status_flags.unused_ident).toNat ∧
    (is_function_type x && x.status_flags.unused_ident).toNat ≤ (is_dropped x).toNat ∧
    (is_mirrored_argument x).toNat ≤ (is_counted_argument x).toNat := by
  rcases x with ⟨v, len, idx, t, ⟨f1, f2, f3, f4, f5, f6⟩⟩
  cases t <;> cases f1 <;> cases f2 <;> cases f3 <;> cases f4 <;> cases f5 <;>
    exact ⟨rfl, Nat.le_of_ble_eq_true rfl, Nat.le_of_ble_eq_true rfl⟩

/-- The classes partition the pool (counting version of `class_partition_pointwise`). -/
theorem class_partition (l : List lexer_literal_t) :
    (l.filter is_counted_argument).length + (l.filter is_register).length
      + (l.filter is_uninitialized_var).length + (l.filter is_initialized_var).length
      + (l.filter is_ident).length + (l.filter is_const_literal).length
      + (l.filter is_function_literal).length + (l.filter is_dropped).length
      = l.length + (l.filter is_mirrored_argument).length ∧
    (l.filter is_function_type).length
      = (l.filter is_function_literal).length
        + (l.filter (fun x => is_function_type x && x.status_flags.unused_ident)).length ∧
    (l.filter (fun x => is_function_type x && x.status_flags.unused_ident)).length
      ≤ (l.filter is_dropped).length ∧
    (l.filter is_mirrored_argument).length ≤ (l.filter is_counted_argument).length ∧
    (l.filter is_counted_argument).length ≤ l.length := by
  induction l with
  | nil => simp
  | cons x l ih =>
    simp only [length_filter_cons, List.length_cons]
    have h1 := class_partition_pointwise x
    have h2 := function_type_pointwise x
    have h3 : (is_counted_argument x).toNat ≤ 1 := Bool.toNat_le _
    omega


set_option maxHeartbeats 4000000 in
/-- What the body of the first loop does to one record: it may set `LEXER_FLAG_NO_REG_STORE`,
and `literal_count` goes down by one for a dropped record and up by one for a mirrored
argument (as a `uint16_t`). -/
theorem count_literal_spec (lim : parser_limits) (st st1 : count_state)
    (x x1 : lexer_literal_t) (h : count_literal lim st x = .ok (x1, st1)) :
    marked_from x x1 ∧
    (st1.literal_count + (is_dropped x1).toNat) % 65536
      = (st.literal_count + (is_mirrored_argument x1).toNat) % 65536 := by
  rcases x with ⟨v, len, idx, t, ⟨f1, f2, f3, f4, f5, f6⟩⟩
  unfold count_literal at h
  generalize st.status_flags.no_reg_store = a at h
  generalize (st.status_flags.arguments_needed && !st.status_flags.is_strict) = b at h
  generalize decide (st.register_count < lim.PARSER_MAXIMUM_NUMBER_OF_REGISTERS) = c at h
  cases f5
  · cases t
    · cases f1
      · simp only [Bool.false_eq_true, if_false, Except.ok.injEq, Prod.mk.injEq] at h
        obtain ⟨rfl, rfl⟩ := h
        exact ⟨Or.inl rfl, rfl⟩
      · cases f2 <;> cases f3 <;> cases f4 <;> cases a <;> cases b <;> cases c <;>
        simp only [lexer_literal_t.set_no_reg_store, Bool.false_eq_true, if_false, if_true,
          Bool.not_false, Bool.not_true, Bool.and_self, Bool.and_true, Bool.and_false,
          Bool.true_and, Bool.false_and] at h <;>
        (try split_ifs at h) <;>
        first
          | (cases h; done)
          | (simp only [Except.ok.injEq, Prod.mk.injEq] at h
             obtain ⟨rfl, rfl⟩ := h
             refine ⟨?_, ?_⟩
             · first
               | exact Or.inl rfl
               | exact Or.inr rfl
             · simp [is_dropped, is_mirrored_argument, is_initialized_var, u16])
    all_goals
      cases f4 <;>
      simp only [Bool.false_eq_true, if_false, if_true, Bool.not_false, Bool.not_true,
        Except.ok.injEq, Prod.mk.injEq] at h <;>
      obtain ⟨rfl, rfl⟩ := h <;>
      refine ⟨Or.inl rfl, ?_⟩ <;>
      simp [is_dropped, is_mirrored_argument, is_initialized_var, u16] <;> omega
  · simp only [if_true, Except.ok.injEq, Prod.mk.injEq] at h
    obtain ⟨rfl, rfl⟩ := h
    refine ⟨Or.inl rfl, ?_⟩
    simp [is_dropped, is_mirrored_argument, is_initialized_var, u16]
    omega

/-- The first loop of `parser_compute_indicies`: the records keep everything but
`LEXER_FLAG_NO_REG_STORE`, and `literal_count` changes by the number of mirrored arguments
minus the number of dropped records (as a `uint16_t`). -/
theorem count_literals_spec (lim : parser_limits) (l : List lexer_literal_t) :
    ∀ (st c : count_state) (l1 : List lexer_literal_t),
    count_literals lim st l = .ok (l1, c) →
    List.Forall₂ marked_from l l1 ∧
    (c.literal_count + (l1.filter is_dropped).length) % 65536
      = (st.literal_count + (l1.filter is_mirrored_argument).length) % 65536 := by
  induction l with
  | nil =>
    intro st c l1 h
    rw [count_literals] at h
    simp only [Except.ok.injEq, Prod.mk.injEq] at h
    obtain ⟨rfl, rfl⟩ := h
    exact ⟨List.Forall₂.nil, rfl⟩
  | cons x l ih =>
    intro st c l1 h
    rw [count_literals] at h
    split at h
    · exact absurd h (by simp)
    · rename_i x1 st1 hbody
      split at h
      · exact absurd h (by simp)
      · rename_i rest1 st2 hrec
        simp only [Except.ok.injEq, Prod.mk.injEq] at h
        obtain ⟨rfl, rfl⟩ := h
        obtain ⟨h1, h2⟩ := count_literal_spec lim st st1 x x1 hbody
        obtain ⟨r1, r2⟩ := ih _ _ _ hrec
        refine ⟨List.Forall₂.cons h1 r1, ?_⟩
        simp only [length_filter_cons]
        omega


theorem compute_indicies_unfold (lim : parser_limits) (context : parser_context_t)
    (r : compute_indicies_result) (h : parser_compute_indicies lim context = .ok r) :
    ∃ (c : count_state) (pool1 pool2 : List lexer_literal_t) (i : index_state)
      (hiv : Bool) (limit len : Nat) (st0 : count_state),
      st0.literal_count = context.literal_count ∧
      st0.register_count = context.register_count ∧
      count_literals lim st0 context.literal_pool = .ok (pool1, c) ∧
      assign_indices lim hiv limit c.register_count
        { argument_count := 0
          register_index := context.register_count
          uninitialized_var_index := c.register_count
          initialized_var_index := u16 (c.register_count + c.uninitialized_var_count)
          ident_index :=
            u16 (u16 (c.register_count + c.uninitialized_var_count) + c.initialized_var_count)
          const_literal_index :=
            u16 (u16 (u16 (c.register_count + c.uninitialized_var_count)
              + c.initialized_var_count) + c.ident_count)
          literal_index :=
            u16 (u16 (u16 (u16 (c.register_count + c.uninitialized_var_count)
              + c.initialized_var_count) + c.ident_count) + c.const_literal_count)
          length := len } pool1 = .ok (pool2, i) ∧
      i.argument_count = context.argument_count ∧
      i.register_index = c.register_count ∧
      i.uninitialized_var_index = c.register_count + c.uninitialized_var_count ∧
      i.initialized_var_index = i.uninitialized_var_index + c.initialized_var_count ∧
      i.ident_index = i.initialized_var_index + c.ident_count ∧
      i.const_literal_index = i.ident_index + c.const_literal_count ∧
      i.literal_index = c.literal_count ∧
      r.context.argument_count = context.argument_count ∧
      r.context.register_count = i.register_index ∧
      r.context.literal_count = c.literal_count ∧
      r.context.literal_pool = pool2 ∧
      r.ident_end = i.ident_index ∧
      r.uninitialized_var_end = i.uninitialized_var_index ∧
      r.initialized_var_end = i.initialized_var_index ∧
      r.const_literal_end = i.const_literal_index := by
  unfold parser_compute_indicies at h
  dsimp only at h
  split at h
  · exact absurd h (by simp)
  · rename_i pool1 c hcount
    split at h
    · exact absurd h (by simp)
    · rename_i pool2 i hassign
      split_ifs at h <;>
      first
        | (cases h; done)
        | (simp only [Except.ok.injEq] at h
           subst h
           obtain ⟨a0, a1, a2, a3, a4, a5, a6⟩ :=
             ‹i.argument_count = context.argument_count ∧ _›
           exact ⟨c, pool1, pool2, i, _, _, _, _, rfl, rfl, hcount, hassign,
             a0, a1, a2, a3, a4, a5, a6, rfl, rfl, rfl, rfl, rfl, rfl, rfl, rfl⟩)


theorem forall₂_mem_right {R : lexer_literal_t → lexer_literal_t → Prop}
    {l l2 : List lexer_literal_t} (h : List.Forall₂ R l l2) :
    ∀ y ∈ l2, ∃ x ∈ l, R x y := by
  induction h with
  | nil => intro y hy; simp at hy
  | cons hab _ ih =>
    intro y hy
    rcases List.mem_cons.1 hy with rfl | hy
    · exact ⟨_, List.mem_cons_self _ _, hab⟩
    · rcases ih y hy with ⟨x, hx, hR⟩
      exact ⟨x, List.mem_cons_of_mem _ hx, hR⟩

theorem filter_length_zero_iff (K : lexer_literal_t → Bool) (l : List lexer_literal_t)
    (h : (l.filter K).length = 0) : ∀ x ∈ l, K x = false := by
  intro x hx
  by_contra hK
  have : x ∈ l.filter K := List.mem_filter.2 ⟨hx, by simpa using hK⟩
  rw [List.length_eq_zero.1 h] at this
  simp at this

/-- The arithmetic of the final assertions of `parser_compute_indicies`: when the counters of
the second phase (taken modulo 65536) agree with the sums of the first phase, nothing wrapped
around and every counter is the sum of the class sizes before it. -/
theorem index_chain_arith {N A cr cu civ cid ccc iA iR iU iIV iI iC iL : Nat}
    {ka kr ku kiv ki kc kft km : Nat}
    (hN : N ≤ 32767) (hpart : ka + kr + ku + kiv + ki + kc + kft ≤ N + km)
    (hkm : km ≤ ka) (hka : ka ≤ N)
    (a0 : iA = A) (a1 : iR = cr) (a2 : iU = cr + cu) (a3 : iIV = iU + civ)
    (a4 : iI = iIV + cid) (a5 : iC = iI + ccc)
    (sa : 0 < 65536 → iA = (0 + ka) % 65536)
    (sr : A < 65536 → iR = (A + kr) % 65536)
    (su : cr < 65536 → iU = (cr + ku) % 65536)
    (siv : u16 (cr + cu) < 65536 → iIV = (u16 (cr + cu) + kiv) % 65536)
    (si : u16 (u16 (cr + cu) + civ) < 65536 → iI = (u16 (u16 (cr + cu) + civ) + ki) % 65536)
    (sc : u16 (u16 (u16 (cr + cu) + civ) + cid) < 65536 →
      iC = (u16 (u16 (u16 (cr + cu) + civ) + cid) + kc) % 65536)
    (sf : u16 (u16 (u16 (u16 (cr + cu) + civ) + cid) + ccc) < 65536 →
      iL = (u16 (u16 (u16 (u16 (cr + cu) + civ) + cid) + ccc) + kft) % 65536) :
    A = ka ∧ iR = ka + kr ∧ iU = ka + kr + ku ∧ iIV = ka + kr + ku + kiv ∧
    iI = ka + kr + ku + kiv + ki ∧ iC = ka + kr + ku + kiv + ki + kc ∧
    iL = ka + kr + ku + kiv + ki + kc + kft ∧
    ka + kr + ku + kiv + ki + kc + kft ≤ 65534 ∧
    u16 (cr + cu) = iU ∧ u16 (u16 (cr + cu) + civ) = iIV ∧
    u16 (u16 (u16 (cr + cu) + civ) + cid) = iI ∧
    u16 (u16 (u16 (u16 (cr + cu) + civ) + cid) + ccc) = iC := by
  have hT : ka + kr + ku + kiv + ki + kc + kft ≤ 65534 := by omega
  have b0 : A = ka := by have := sa (by decide); omega
  have b1 : iR = ka + kr := by have := sr (by omega); omega
  have b2 : iU = ka + kr + ku := by have := su (by omega); omega
  have s2 : u16 (cr + cu) = iU := by unfold u16; omega
  rw [s2] at siv si sc sf
  clear sa sr su s2
  have b3 : iIV = ka + kr + ku + kiv := by have := siv (by omega); omega
  have s3 : u16 (iU + civ) = iIV := by unfold u16; omega
  rw [s3] at si sc sf
  clear siv
  have b4 : iI = ka + kr + ku + kiv + ki := by have := si (by omega); omega
  have s4 : u16 (iIV + cid) = iI := by unfold u16; omega
  rw [s4] at sc sf
  clear si
  have b5 : iC = ka + kr + ku + kiv + ki + kc := by have := sc (by omega); omega
  have s5 : u16 (iI + ccc) = iC := by unfold u16; omega
  rw [s5] at sf
  clear sc
  have b6 : iL = ka + kr + ku + kiv + ki + kc + kft := by have := sf (by omega); omega
  refine ⟨b0, b1, b2, b3, b4, b5, b6, hT, ?_, ?_, ?_, ?_⟩
  · unfold u16; omega
  · rw [show u16 (cr + cu) = iU by unfold u16; omega]; exact s3
  · rw [show u16 (cr + cu) = iU by unfold u16; omega, s3]; exact s4
  · rw [show u16 (cr + cu) = iU by unfold u16; omega, s3, s4]; exact s5

/-- One group of the layout: without wrap-around the records of the class carry the
indices from the end of the previous group to the end of the group. -/
theorem seq_ok_range {K : lexer_literal_t → Bool} {s e k : Nat} {l l2 : List lexer_literal_t}
    (h : seq_ok K s e l l2) (hk : (l.filter K).length = k) (he : e = s + k)
    (hlt : s + k < 65536) :
    s ≤ e ∧ class_indices K l2 = List.range' s (e - s) := by
  subst hk
  refine ⟨by omega, ?_⟩
  rw [h.2 hlt, he]
  congr 1
  omega

/-- Layout of the indices after the two phases, from the facts the phases and the final
assertions provide. -/
theorem layout_core {pool1 pool2 : List lexer_literal_t} {c : count_state} {i : index_state}
    {A rc : Nat} (hrc : rc = A) (hN : pool1.length ≤ 32767)
    (a0 : i.argument_count = A) (a1 : i.register_index = c.register_count)
    (a2 : i.uninitialized_var_index = c.register_count + c.uninitialized_var_count)
    (a3 : i.initialized_var_index = i.uninitialized_var_index + c.initialized_var_count)
    (a4 : i.ident_index = i.initialized_var_index + c.ident_count)
    (a5 : i.const_literal_index = i.ident_index + c.const_literal_count)
    (sa : arg_ok 0 i.argument_count pool1 pool2)
    (sr : seq_ok is_register rc i.register_index pool1 pool2)
    (su : seq_ok is_uninitialized_var c.register_count i.uninitialized_var_index pool1 pool2)
    (siv : seq_ok is_initialized_var (u16 (c.register_count + c.uninitialized_var_count))
      i.initialized_var_index pool1 pool2)
    (si : seq_ok is_ident
      (u16 (u16 (c.register_count + c.uninitialized_var_count) + c.initialized_var_count))
      i.ident_index pool1 pool2)
    (sc : seq_ok is_const_literal
      (u16 (u16 (u16 (c.register_count + c.uninitialized_var_count) + c.initialized_var_count)
        + c.ident_count)) i.const_literal_index pool1 pool2)
    (sf : seq_ok is_function_type
      (u16 (u16 (u16 (u16 (c.register_count + c.uninitialized_var_count)
        + c.initialized_var_count) + c.ident_count) + c.const_literal_count))
      i.literal_index pool1 pool2) :
    (class_indices is_argument pool2).Sublist (List.range' 0 A) ∧
    (A ≤ i.register_index ∧
      class_indices is_register pool2 = List.range' A (i.register_index - A)) ∧
    (i.register_index ≤ i.uninitialized_var_index ∧
      class_indices is_uninitialized_var pool2
        = List.range' i.register_index (i.uninitialized_var_index - i.register_index)) ∧
    (i.uninitialized_var_index ≤ i.initialized_var_index ∧
      class_indices is_initialized_var pool2
        = List.range' i.uninitialized_var_index
            (i.initialized_var_index - i.uninitialized_var_index)) ∧
    (i.initialized_var_index ≤ i.ident_index ∧
      class_indices is_ident pool2
        = List.range' i.initialized_var_index (i.ident_index - i.initialized_var_index)) ∧
    (i.ident_index ≤ i.const_literal_index ∧
      class_indices is_const_literal pool2
        = List.range' i.ident_index (i.const_literal_index - i.ident_index)) ∧
    (i.const_literal_index ≤ i.literal_index ∧
      class_indices is_function_type pool2
        = List.range' i.const_literal_index (i.literal_index - i.const_literal_index)) ∧
    i.literal_index = (pool1.filter is_counted_argument).length
      + (pool1.filter is_register).length + (pool1.filter is_uninitialized_var).length
      + (pool1.filter is_initialized_var).length + (pool1.filter is_ident).length
      + (pool1.filter is_const_literal).length + (pool1.filter is_function_type).length := by
  obtain ⟨p1, p2, p3, p4, p5⟩ := class_partition pool1
  obtain ⟨b0, b1, b2, b3, b4, b5, b6, hT, s2, s3, s4, s5⟩ :=
    index_chain_arith hN (by omega) p4 p5 (a0.trans hrc.symm) a1 a2 a3 a4 a5
      sa.1 sr.1 su.1 siv.1 si.1 sc.1 sf.1
  rw [s2] at siv
  rw [s3] at si
  rw [s4] at sc
  rw [s5] at sf
  rw [← a1] at su
  subst hrc
  clear p1 p2 p3 p4 p5 a1 a2 a3 a4 a5 s2 s3 s4 s5
  refine ⟨?_, seq_ok_range sr rfl (by omega) (by omega),
    seq_ok_range su rfl (by omega) (by omega), seq_ok_range siv rfl (by omega) (by omega),
    seq_ok_range si rfl (by omega) (by omega), seq_ok_range sc rfl (by omega) (by omega),
    seq_ok_range sf rfl (by omega) (by omega), by omega⟩
  have := sa.2 (by omega)
  rw [b0]
  exact this

/-- Layout of the indices after `parser_compute_indicies`: the ends of the groups are
ordered, and the records of each class carry the consecutive indices of their range in pool
order. -/
theorem compute_indicies_layout (lim : parser_limits) (context : parser_context_t)
    (r : compute_indicies_result) (h : parser_compute_indicies lim context = .ok r)
    (hrc : context.register_count = context.argument_count)
    (hN : context.literal_pool.length ≤ 32767) :
    r.context.argument_count = context.argument_count ∧
    (class_indices is_argument r.context.literal_pool).Sublist
      (List.range' 0 r.context.argument_count) ∧
    (r.context.argument_count ≤ r.context.register_count ∧
      class_indices is_register r.context.literal_pool
        = List.range' r.context.argument_count
            (r.context.register_count - r.context.argument_count)) ∧
    (r.context.register_count ≤ r.uninitialized_var_end ∧
      class_indices is_uninitialized_var r.context.literal_pool
        = List.range' r.context.register_count
            (r.uninitialized_var_end - r.context.register_count)) ∧
    (r.uninitialized_var_end ≤ r.initialized_var_end ∧
      class_indices is_initialized_var r.context.literal_pool
        = List.range' r.uninitialized_var_end
            (r.initialized_var_end - r.uninitialized_var_end)) ∧
    (r.initialized_var_end ≤ r.ident_end ∧
      class_indices is_ident r.context.literal_pool
        = List.range' r.initialized_var_end (r.ident_end - r.initialized_var_end)) ∧
    (r.ident_end ≤ r.const_literal_end ∧
      class_indices is_const_literal r.context.literal_pool
        = List.range' r.ident_end (r.const_literal_end - r.ident_end)) ∧
    (r.const_literal_end ≤ r.context.literal_count ∧
      class_indices is_function_type r.context.literal_pool
        = List.range' r.const_literal_end
            (r.context.literal_count - r.const_literal_end)) ∧
    (context.literal_count = context.literal_pool.length →
      ∀ x ∈ r.context.literal_pool, is_function_type x = true →
        x.status_flags.unused_ident = false) := by
  obtain ⟨c, pool1, pool2, i, hiv, limit, len, st0, hst1, hst2, hcount, hassign,
    a0, a1, a2, a3, a4, a5, a6, e0, e1, e2, e3, e4, e5, e6, e7⟩ :=
    compute_indicies_unfold lim context r h
  have hcl := count_literals_spec lim _ _ _ _ hcount
  obtain ⟨hsame, sa, sr, su, siv, si, sc, sf⟩ :=
    assign_indices_spec lim hiv limit c.register_count pool1.length pool1 (le_refl _) _ _ _ hassign
  clear h hcount hassign
  have hlen : pool1.length = context.literal_pool.length :=
    (List.Forall₂.length_eq hcl.1).symm
  obtain ⟨q0, q1, q2, q3, q4, q5, q6, q7⟩ :=
    layout_core hrc (hlen.trans_le hN) a0 a1 a2 a3 a4 a5 sa sr su siv si sc sf
  rw [e0, e1, e2, e3, e4, e5, e6, e7, ← a6]
  refine ⟨rfl, q0, q1, q2, q3, q4, q5, q6, ?_⟩
  intro hlc0 x hx hft
  have hlc := hcl.2
  rw [hst1, hlc0, ← a6, q7, ← hlen] at hlc
  obtain ⟨p1, p2, p3, p4, p5⟩ := class_partition pool1
  have hzero : (pool1.filter
      (fun x => is_function_type x && x.status_flags.unused_ident)).length = 0 := by
    clear q0 q1 q2 q3 q4 q5 q6 q7 a0 a1 a2 a3 a4 a5 a6 sa sr su siv si sc sf
    omega
  rcases forall₂_mem_right hsame x hx with ⟨y, hy, hxy⟩
  have := filter_length_zero_iff _ pool1 hzero y hy
  rw [hxy] at hft ⊢
  have hft1 : is_function_type y = true := hft
  simp only [hft1, Bool.true_and] at this
  exact this


/-- C2: after `parser_compute_indicies` succeeds on a pool consistent with the context
counters, `argument_end ≤ register_end ≤ uninitialized_var_end ≤ initialized_var_end ≤
ident_end ≤ const_literal_end ≤ literal_end`, where `argument_end`, `register_end` and
`literal_end` are the `argument_count`, `register_count` and `literal_count` of the context on
return. -/
theorem C2_compute_indicies_dense_ranges (lim : parser_limits) (context : parser_context_t)
    (r : compute_indicies_result) (hc : pool_consistent context)
    (h : parser_compute_indicies lim context = .ok r) :
    r.context.argument_count ≤ r.context.register_count ∧
    r.context.register_count ≤ r.uninitialized_var_end ∧
    r.uninitialized_var_end ≤ r.initialized_var_end ∧
    r.initialized_var_end ≤ r.ident_end ∧
    r.ident_end ≤ r.const_literal_end ∧
    r.const_literal_end ≤ r.context.literal_count := by
  obtain ⟨_, _, q1, q2, q3, q4, q5, q6, _⟩ := compute_indicies_layout lim context r h hc.1 hc.2.2.2.1
  exact ⟨q1.1, q2.1, q3.1, q4.1, q5.1, q6.1⟩

/-- Witness of C2: `compute_example` is consistent, the call returns and the group ends are
2, 3, 4, 5, 6, 7 and 8. -/
theorem C2_compute_indicies_dense_ranges_witness :
    pool_consistent compute_example ∧
    ∃ r, parser_compute_indicies example_limits compute_example = .ok r ∧
      (r.context.argument_count, r.context.register_count, r.uninitialized_var_end,
        r.initialized_var_end, r.ident_end, r.const_literal_end, r.context.literal_count)
        = (2, 3, 4, 5, 6, 7, 8) ∧
      r.context.argument_count ≤ r.context.register_count ∧
      r.context.register_count ≤ r.uninitialized_var_end ∧
      r.uninitialized_var_end ≤ r.initialized_var_end ∧
      r.initialized_var_end ≤ r.ident_end ∧
      r.ident_end ≤ r.const_literal_end ∧
      r.const_literal_end ≤ r.context.literal_count := by
  refine ⟨by decide, ?_⟩
  have hok : (parser_compute_indicies example_limits compute_example).toBool = true := rfl
  have hval : (parser_compute_indicies example_limits compute_example).map
      (fun r => (r.context.argument_count, r.context.register_count, r.uninitialized_var_end,
        r.initialized_var_end, r.ident_end, r.const_literal_end, r.context.literal_count))
      = .ok (2, 3, 4, 5, 6, 7, 8) := rfl
  cases hrun : parser_compute_indicies example_limits compute_example with
  | error e => rw [hrun] at hok; exact absurd hok (by simp [Except.toBool])
  | ok r =>
    rw [hrun] at hval
    simp only [Except.map, Except.ok.injEq] at hval
    exact ⟨r, rfl, hval,
      C2_compute_indicies_dense_ranges example_limits compute_example r (by decide) hrun⟩


/-- A record in use belongs to exactly one of the seven classes; a record not in use to
none. -/
theorem in_use_pointwise (x : lexer_literal_t) :
    (in_use x).toNat
      = (is_argument x).toNat + (is_register x).toNat + (is_uninitialized_var x).toNat
        + (is_initialized_var x).toNat + (is_ident x).toNat + (is_const_literal x).toNat
        + (is_function_literal x).toNat := by
  rcases x with ⟨v, len, idx, t, ⟨f1, f2, f3, f4, f5, f6⟩⟩
  cases t <;> cases f1 <;> cases f2 <;> cases f3 <;> cases f4 <;> cases f5 <;> rfl

theorem count_class_indices_cons (K : lexer_literal_t → Bool) (x : lexer_literal_t)
    (l : List lexer_literal_t) (j : Nat) :
    (class_indices K (x :: l)).count j
      = (class_indices K l).count j + (K x).toNat * (if x.index = j then 1 else 0) := by
  unfold class_indices
  cases h : K x
  · simp [List.filter_cons, h]
  · by_cases hj : x.index = j
    · simp [List.filter_cons, h, hj]
    · simp [List.filter_cons, h, hj, List.count_cons]

/-- The indices of the records in use are the indices of the seven classes taken together. -/
theorem count_in_use_indices (l : List lexer_literal_t) (j : Nat) :
    (class_indices in_use l).count j
      = (class_indices is_argument l).count j + (class_indices is_register l).count j
        + (class_indices is_uninitialized_var l).count j
        + (class_indices is_initialized_var l).count j
        + (class_indices is_ident l).count j + (class_indices is_const_literal l).count j
        + (class_indices is_function_literal l).count j := by
  induction l with
  | nil => simp [class_indices]
  | cons x l ih =>
    simp only [count_class_indices_cons]
    have h := in_use_pointwise x
    rw [ih, h]
    ring

theorem count_range' (s n j : Nat) :
    (List.range' s n).count j = if s ≤ j ∧ j < s + n then 1 else 0 := by
  split
  · rename_i h
    exact List.count_eq_one_of_mem (List.nodup_range' s n) (List.mem_range'_1.2 h)
  · rename_i h
    exact List.count_eq_zero_of_not_mem (fun hm => h (List.mem_range'_1.1 hm))

theorem mem_class_indices {K : lexer_literal_t → Bool} {l : List lexer_literal_t}
    {x : lexer_literal_t} (hx : x ∈ l) (hK : K x = true) : x.index ∈ class_indices K l :=
  List.mem_map.2 ⟨x, List.mem_filter.2 ⟨hx, hK⟩, rfl⟩


theorem indicator_add (a b c j : Nat) (h1 : a ≤ b) (h2 : b ≤ c) :
    (if a ≤ j ∧ j < b then 1 else 0) + (if b ≤ j ∧ j < c then 1 else 0)
      = if a ≤ j ∧ j < c then 1 else 0 := by
  split_ifs <;> omega

theorem indicator_chain (A R U IV I C L j : Nat) (h1 : A ≤ R) (h2 : R ≤ U) (h3 : U ≤ IV)
    (h4 : IV ≤ I) (h5 : I ≤ C) (h6 : C ≤ L) :
    ((if A ≤ j ∧ j < R then 1 else 0)
        + (if R ≤ j ∧ j < U then 1 else 0)
        + (if U ≤ j ∧ j < IV then 1 else 0)
        + (if IV ≤ j ∧ j < I then 1 else 0)
        + (if I ≤ j ∧ j < C then 1 else 0)
        + (if C ≤ j ∧ j < L then 1 else 0)) = if A ≤ j ∧ j < L then 1 else 0 := by
  rw [indicator_add A R U j h1 h2, indicator_add A U IV j (by omega) h3,
    indicator_add A IV I j (by omega) h4, indicator_add A I C j (by omega) h5,
    indicator_add A C L j (by omega) h6]

theorem mem_range'_of_class {K : lexer_literal_t → Bool} {l : List lexer_literal_t}
    {s e : Nat} (hle : s ≤ e) (h : class_indices K l = List.range' s (e - s))
    {x : lexer_literal_t} (hx : x ∈ l) (hK : K x = true) : s ≤ x.index ∧ x.index < e := by
  have hm := mem_class_indices hx hK
  rw [h] at hm
  have := List.mem_range'_1.1 hm
  omega

/-- After `parser_compute_indicies` the function and regexp records are in use, so that the
class of the function literals is the whole last group. -/
theorem function_literal_indices (lim : parser_limits) (context : parser_context_t)
    (r : compute_indicies_result) (hc : pool_consistent context)
    (h : parser_compute_indicies lim context = .ok r) :
    class_indices is_function_literal r.context.literal_pool
      = class_indices is_function_type r.context.literal_pool := by
  have hu := (compute_indicies_layout lim context r h hc.1 hc.2.2.2.1).2.2.2.2.2.2.2.2
    hc.2.2.1
  unfold class_indices
  congr 1
  apply List.filter_congr
  intro x hx
  unfold is_function_literal
  cases hft : is_function_type x
  · rfl
  · simp [hu x hx hft]

/-- C3: after `parser_compute_indicies`, every pool record in use (neither of type
`LEXER_UNUSED_LITERAL` nor flagged `LEXER_FLAG_UNUSED_IDENT`) belongs to one of the seven
classes and has `prop.index` inside the range of its class: unmirrored arguments in
`[0, argument_end)`, register locals in `[argument_end, register_end)`, uninitialized
variables without register in `[register_end, uninitialized_var_end)`, initialized variables
without register (mirrored arguments included) in
`[uninitialized_var_end, initialized_var_end)`, identifiers that are not local bindings in
`[initialized_var_end, ident_end)`, strings and numbers in `[ident_end, const_literal_end)`,
functions and regexps in `[const_literal_end, literal_end)`. -/
theorem C3_compute_indicies_index_in_class_range (lim : parser_limits)
    (context : parser_context_t) (r : compute_indicies_result) (hc : pool_consistent context)
    (h : parser_compute_indicies lim context = .ok r) :
    ∀ x ∈ r.context.literal_pool, in_use x = true →
      (is_argument x = true ∨ is_register x = true ∨ is_uninitialized_var x = true ∨
        is_initialized_var x = true ∨ is_ident x = true ∨ is_const_literal x = true ∨
        is_function_literal x = true) ∧
      (is_argument x = true → x.index < r.context.argument_count) ∧
      (is_register x = true →
        r.context.argument_count ≤ x.index ∧ x.index < r.context.register_count) ∧
      (is_uninitialized_var x = true →
        r.context.register_count ≤ x.index ∧ x.index < r.uninitialized_var_end) ∧
      (is_initialized_var x = true →
        r.uninitialized_var_end ≤ x.index ∧ x.index < r.initialized_var_end) ∧
      (is_ident x = true → r.initialized_var_end ≤ x.index ∧ x.index < r.ident_end) ∧
      (is_const_literal x = true → r.ident_end ≤ x.index ∧ x.index < r.const_literal_end) ∧
      (is_function_literal x = true →
        r.const_literal_end ≤ x.index ∧ x.index < r.context.literal_count) := by
  obtain ⟨_, q0, q1, q2, q3, q4, q5, q6, _⟩ :=
    compute_indicies_layout lim context r h hc.1 hc.2.2.2.1
  have hf := function_literal_indices lim context r hc h
  intro x hx hu
  refine ⟨?_, ?_, fun hK => mem_range'_of_class q1.1 q1.2 hx hK,
    fun hK => mem_range'_of_class q2.1 q2.2 hx hK,
    fun hK => mem_range'_of_class q3.1 q3.2 hx hK,
    fun hK => mem_range'_of_class q4.1 q4.2 hx hK,
    fun hK => mem_range'_of_class q5.1 q5.2 hx hK,
    fun hK => mem_range'_of_class q6.1 (hf.trans q6.2) hx hK⟩
  · have hp := in_use_pointwise x
    rw [hu] at hp
    by_contra hcon
    simp only [not_or, Bool.not_eq_true] at hcon
    obtain ⟨c1, c2, c3, c4, c5, c6, c7⟩ := hcon
    rw [c1, c2, c3, c4, c5, c6, c7] at hp
    exact absurd hp (by decide)
  · intro hK
    have hm := mem_class_indices hx hK
    have := List.mem_range'_1.1 (q0.subset hm)
    omega

/-- Witness of C3: on `compute_example` the call returns and the indices of the seven pool
records are 0, 4, 2, 7, 5, 6 and 3. -/
theorem C3_compute_indicies_index_in_class_range_witness :
    ∃ r, parser_compute_indicies example_limits compute_example = .ok r ∧
      r.context.literal_pool.map (fun x => x.index) = [0, 4, 2, 7, 5, 6, 3] ∧
      ∀ x ∈ r.context.literal_pool, in_use x = true →
        (is_argument x = true ∨ is_register x = true ∨ is_uninitialized_var x = true ∨
          is_initialized_var x = true ∨ is_ident x = true ∨ is_const_literal x = true ∨
          is_function_literal x = true) ∧
        (is_argument x = true → x.index < r.context.argument_count) ∧
        (is_register x = true →
          r.context.argument_count ≤ x.index ∧ x.index < r.context.register_count) ∧
        (is_uninitialized_var x = true →
          r.context.register_count ≤ x.index ∧ x.index < r.uninitialized_var_end) ∧
        (is_initialized_var x = true →
          r.uninitialized_var_end ≤ x.index ∧ x.index < r.initialized_var_end) ∧
        (is_ident x = true → r.initialized_var_end ≤ x.index ∧ x.index < r.ident_end) ∧
        (is_const_literal x = true →
          r.ident_end ≤ x.index ∧ x.index < r.const_literal_end) ∧
        (is_function_literal x = true →
          r.const_literal_end ≤ x.index ∧ x.index < r.context.literal_count) := by
  have hok : (parser_compute_indicies example_limits compute_example).toBool = true := rfl
  have hval : (parser_compute_indicies example_limits compute_example).map
      (fun r => r.context.literal_pool.map (fun x => x.index))
      = .ok [0, 4, 2, 7, 5, 6, 3] := rfl
  cases hrun : parser_compute_indicies example_limits compute_example with
  | error e => rw [hrun] at hok; exact absurd hok (by simp [Except.toBool])
  | ok r =>
    rw [hrun] at hval
    simp only [Except.map, Except.ok.injEq] at hval
    exact ⟨r, rfl, hval,
      C3_compute_indicies_index_in_class_range example_limits compute_example r
        (by decide) hrun⟩

/-- C4: within each class `parser_compute_indicies` assigns the indices consecutively in pool
order from the start of the range of the class (the unmirrored arguments get increasing
positions below `argument_end`); hence no two records in use have the same index, and every
index in `[argument_end, literal_end)` is the index of exactly one record in use. -/
theorem C4_compute_indicies_consecutive_indices (lim : parser_limits)
    (context : parser_context_t) (r : compute_indicies_result) (hc : pool_consistent context)
    (h : parser_compute_indicies lim context = .ok r) :
    (class_indices is_argument r.context.literal_pool).Sublist
      (List.range' 0 r.context.argument_count) ∧
    class_indices is_register r.context.literal_pool
      = List.range' r.context.argument_count
          (r.context.register_count - r.context.argument_count) ∧
    class_indices is_uninitialized_var r.context.literal_pool
      = List.range' r.context.register_count
          (r.uninitialized_var_end - r.context.register_count) ∧
    class_indices is_initialized_var r.context.literal_pool
      = List.range' r.uninitialized_var_end
          (r.initialized_var_end - r.uninitialized_var_end) ∧
    class_indices is_ident r.context.literal_pool
      = List.range' r.initialized_var_end (r.ident_end - r.initialized_var_end) ∧
    class_indices is_const_literal r.context.literal_pool
      = List.range' r.ident_end (r.const_literal_end - r.ident_end) ∧
    class_indices is_function_literal r.context.literal_pool
      = List.range' r.const_literal_end (r.context.literal_count - r.const_literal_end) ∧
    (class_indices in_use r.context.literal_pool).Nodup ∧
    ∀ j, r.context.argument_count ≤ j → j < r.context.literal_count →
      (class_indices in_use r.context.literal_pool).count j = 1 := by
  obtain ⟨_, q0, q1, q2, q3, q4, q5, q6, _⟩ :=
    compute_indicies_layout lim context r h hc.1 hc.2.2.2.1
  have hf := function_literal_indices lim context r hc h
  have q7 := hf.trans q6.2
  have hcount : ∀ j, (class_indices in_use r.context.literal_pool).count j
      = (class_indices is_argument r.context.literal_pool).count j
        + (if r.context.argument_count ≤ j ∧ j < r.context.literal_count then 1 else 0) := by
    intro j
    rw [count_in_use_indices, q1.2, q2.2, q3.2, q4.2, q5.2, q7]
    simp only [count_range']
    rw [Nat.add_sub_cancel' q1.1, Nat.add_sub_cancel' q2.1, Nat.add_sub_cancel' q3.1,
      Nat.add_sub_cancel' q4.1, Nat.add_sub_cancel' q5.1, Nat.add_sub_cancel' q6.1,
      ← indicator_chain _ _ _ _ _ _ _ j q1.1 q2.1 q3.1 q4.1 q5.1 q6.1]
    ring
  have harg : ∀ j, (class_indices is_argument r.context.literal_pool).count j
      ≤ if j < r.context.argument_count then 1 else 0 := by
    intro j
    have h1 := q0.count_le j
    rw [count_range'] at h1
    simpa using h1
  refine ⟨q0, q1.2, q2.2, q3.2, q4.2, q5.2, q7, ?_, ?_⟩
  · rw [List.nodup_iff_count_le_one]
    intro j
    rw [hcount j]
    have := harg j
    split_ifs at * <;> omega
  · intro j hj1 hj2
    rw [hcount j]
    have := harg j
    split_ifs at * <;> omega

/-- Witness of C4: on `compute_example` the call returns, the indices of the records in use
are 0, 4, 2, 7, 5, 6, 3, and every index from `argument_end = 2` to `literal_end = 8` occurs
once. -/
theorem C4_compute_indicies_consecutive_indices_witness :
    ∃ r, parser_compute_indicies example_limits compute_example = .ok r ∧
      class_indices in_use r.context.literal_pool = [0, 4, 2, 7, 5, 6, 3] ∧
      (class_indices in_use r.context.literal_pool).Nodup ∧
      ∀ j, r.context.argument_count ≤ j → j < r.context.literal_count →
        (class_indices in_use r.context.literal_pool).count j = 1 := by
  have hok : (parser_compute_indicies example_limits compute_example).toBool = true := rfl
  have hval : (parser_compute_indicies example_limits compute_example).map
      (fun r => class_indices in_use r.context.literal_pool)
      = .ok [0, 4, 2, 7, 5, 6, 3] := rfl
  cases hrun : parser_compute_indicies example_limits compute_example with
  | error e => rw [hrun] at hok; exact absurd hok (by simp [Except.toBool])
  | ok r =>
    rw [hrun] at hval
    simp only [Except.map, Except.ok.injEq] at hval
    have h4 := C4_compute_indicies_consecutive_indices example_limits compute_example r
      (by decide) hrun
    exact ⟨r, rfl, hval, h4.2.2.2.2.2.2.2.1, h4.2.2.2.2.2.2.2.2⟩

/-! ## Reading and writing the pages of the stream -/

theorem page_read_write_same {pages pages1 : List parser_mem_page_t} {page_p : Option Nat}
    {offset b : Nat} (h : page_write pages page_p offset b = .ok pages1) :
    page_read pages1 page_p offset = .ok b := by
  unfold page_write at h
  cases page_p with
  | none => cases h
  | some p =>
    dsimp only at h
    cases hp : pages[p]? with
    | none => rw [hp] at h; cases h
    | some page =>
      rw [hp] at h
      dsimp only at h
      split_ifs at h with ho
      cases h
      have hlt : p < pages.length := (List.getElem?_eq_some_iff.mp hp).1
      simp [page_read, page_get, hlt, ho]

theorem page_read_write_other {pages pages1 : List parser_mem_page_t} {page_p : Option Nat}
    {offset b : Nat} (h : page_write pages page_p offset b = .ok pages1)
    (page_q : Option Nat) (offset_q : Nat) (hne : (page_p, offset) ≠ (page_q, offset_q)) :
    page_read pages1 page_q offset_q = page_read pages page_q offset_q := by
  unfold page_write at h
  cases page_p with
  | none => cases h
  | some p =>
    dsimp only at h
    cases hp : pages[p]? with
    | none => rw [hp] at h; cases h
    | some page =>
      rw [hp] at h
      dsimp only at h
      split_ifs at h with ho
      cases h
      have hlt : p < pages.length := (List.getElem?_eq_some_iff.mp hp).1
      cases page_q with
      | none => simp [page_read, page_get]
      | some q =>
        by_cases hpq : p = q
        · subst hpq
          have hoff : offset ≠ offset_q := fun e => hne (by rw [e])
          simp [page_read, page_get, hlt, hp, List.getElem?_set_ne hoff]
        · simp [page_read, page_get, List.getElem?_set_ne hpq]

/-- C8: when the two byte placeholder of a literal operand names a record of type Unused, a
successful first pass step follows the redirect once: the record at position `prop.index` of
the pool exists, is not of type Unused, and the operand bytes left in the stream are the
encoding (`parser_encode_literal`) of the index of that record. -/
theorem C8_first_pass_follows_one_redirect (lim : parser_limits) (t : cbc_tables)
    (pool : List lexer_literal_t) (literal_count : Nat) (st st1 : first_pass_state)
    (first second : Nat) (page1 : Option Nat) (offset1 : Nat) (literal0 : lexer_literal_t)
    (hfirst : page_read st.pages st.page_p st.offset = .ok first)
    (hnext : PARSER_NEXT_BYTE t st.pages st.page_p st.offset = .ok (page1, offset1))
    (hsecond : page_read st.pages page1 offset1 = .ok second)
    (hrecord : pool[first ||| (second <<< 8)]? = some literal0)
    (hunused : literal0.type = LEXER_UNUSED_LITERAL)
    (hdistinct : (st.page_p, st.offset) ≠ (page1, offset1))
    (hrun : first_pass_literal lim t pool literal_count
      (if literal_count ≤ lim.CBC_MAXIMUM_SMALL_VALUE then CBC_MAXIMUM_BYTE_VALUE - 1
        else CBC_LOWER_SEVEN_BIT_MASK) st = .ok st1) :
    ∃ literal1, pool[literal0.index]? = some literal1
      ∧ literal1.type ≠ LEXER_UNUSED_LITERAL
      ∧ (page_read st1.pages st.page_p st.offset).toOption
          = (parser_encode_literal [] literal1.index
              (if literal_count ≤ lim.CBC_MAXIMUM_SMALL_VALUE then CBC_MAXIMUM_BYTE_VALUE - 1
                else CBC_LOWER_SEVEN_BIT_MASK))[0]?
      ∧ (page_read st1.pages page1 offset1).toOption
          = if literal1.index ≤ (if literal_count ≤ lim.CBC_MAXIMUM_SMALL_VALUE then
                CBC_MAXIMUM_BYTE_VALUE - 1 else CBC_LOWER_SEVEN_BIT_MASK) then some second
            else (parser_encode_literal [] literal1.index
              (if literal_count ≤ lim.CBC_MAXIMUM_SMALL_VALUE then CBC_MAXIMUM_BYTE_VALUE - 1
                else CBC_LOWER_SEVEN_BIT_MASK))[1]? := by
  unfold first_pass_literal at hrun
  rw [hfirst] at hrun
  dsimp only at hrun
  rw [hnext] at hrun
  dsimp only at hrun
  rw [hsecond] at hrun
  dsimp only at hrun
  unfold PARSER_GET_LITERAL at hrun
  rw [hrecord] at hrun
  dsimp only at hrun
  rw [if_pos hunused] at hrun
  cases h1 : pool[literal0.index]? with
  | none => rw [h1] at hrun; cases hrun
  | some literal1 =>
    rw [h1] at hrun
    dsimp only at hrun
    by_cases hty : literal1.type = LEXER_UNUSED_LITERAL
    · simp only [hty, ne_eq, not_true_eq_false, if_false] at hrun
      cases hrun
    · refine ⟨literal1, rfl, hty, ?_⟩
      simp only [ne_eq, hty, not_false_eq_true, if_true] at hrun
      by_cases hsmall : literal_count ≤ lim.CBC_MAXIMUM_SMALL_VALUE
      · simp only [hsmall, if_true] at hrun ⊢
        by_cases hone : literal1.index ≤ CBC_MAXIMUM_BYTE_VALUE - 1
        · simp only [hone, if_true] at hrun ⊢
          cases hw : page_write st.pages st.page_p st.offset (u8 literal1.index) with
          | error e => rw [hw] at hrun; cases hrun
          | ok pages1 =>
            rw [hw] at hrun
            dsimp only at hrun
            cases hn : PARSER_NEXT_BYTE t pages1 page1 offset1 with
            | error e => rw [hn] at hrun; cases hrun
            | ok r =>
              rw [hn] at hrun
              cases hrun
              dsimp only
              rw [page_read_write_same hw, page_read_write_other hw _ _ hdistinct, hsecond]
              simp [parser_encode_literal, hone, Except.toOption]
        · simp only [hone, if_false] at hrun ⊢
          split_ifs at hrun with hidx
          · cases hw : page_write st.pages st.page_p st.offset CBC_MAXIMUM_BYTE_VALUE with
            | error e => rw [hw] at hrun; cases hrun
            | ok pages1 =>
              rw [hw] at hrun
              dsimp only at hrun
              cases hw2 : page_write pages1 page1 offset1
                  (u8 (literal1.index - CBC_MAXIMUM_BYTE_VALUE)) with
              | error e => rw [hw2] at hrun; cases hrun
              | ok pages2 =>
                rw [hw2] at hrun
                dsimp only at hrun
                cases hn : PARSER_NEXT_BYTE t pages2 page1 offset1 with
                | error e => rw [hn] at hrun; cases hrun
                | ok r =>
                  rw [hn] at hrun
                  cases hrun
                  dsimp only
                  rw [page_read_write_same hw2,
                    page_read_write_other hw2 _ _ (Ne.symm hdistinct),
                    page_read_write_same hw]
                  have e : parser_encode_literal [] literal1.index (CBC_MAXIMUM_BYTE_VALUE - 1)
                      = [u8 CBC_MAXIMUM_BYTE_VALUE,
                          u8 (literal1.index - CBC_MAXIMUM_BYTE_VALUE)] := by
                    unfold parser_encode_literal
                    rw [if_neg hone, if_pos rfl]
                    rfl
                  rw [e]
                  simp [Except.toOption, u8, CBC_MAXIMUM_BYTE_VALUE]
      · have hlim : CBC_LOWER_SEVEN_BIT_MASK ≠ CBC_MAXIMUM_BYTE_VALUE - 1 := by decide
        simp only [hsmall, if_false] at hrun ⊢
        by_cases hone : literal1.index ≤ CBC_LOWER_SEVEN_BIT_MASK
        · simp only [hone, if_true] at hrun ⊢
          cases hw : page_write st.pages st.page_p st.offset (u8 literal1.index) with
          | error e => rw [hw] at hrun; cases hrun
          | ok pages1 =>
            rw [hw] at hrun
            dsimp only at hrun
            cases hn : PARSER_NEXT_BYTE t pages1 page1 offset1 with
            | error e => rw [hn] at hrun; cases hrun
            | ok r =>
              rw [hn] at hrun
              cases hrun
              dsimp only
              rw [page_read_write_same hw, page_read_write_other hw _ _ hdistinct, hsecond]
              simp [parser_encode_literal, hone, Except.toOption]
        · simp only [hone, if_false] at hrun ⊢
          split_ifs at hrun with hidx
          · cases hw : page_write st.pages st.page_p st.offset
                (u8 (u8 (literal1.index >>> 8) ||| CBC_HIGHEST_BIT_MASK)) with
            | error e => rw [hw] at hrun; cases hrun
            | ok pages1 =>
              rw [hw] at hrun
              dsimp only at hrun
              cases hw2 : page_write pages1 page1 offset1 (u8 (literal1.index &&& 0xff)) with
              | error e => rw [hw2] at hrun; cases hrun
              | ok pages2 =>
                rw [hw2] at hrun
                dsimp only at hrun
                cases hn : PARSER_NEXT_BYTE t pages2 page1 offset1 with
                | error e => rw [hn] at hrun; cases hrun
                | ok r =>
                  rw [hn] at hrun
                  cases hrun
                  dsimp only
                  rw [page_read_write_same hw2,
                    page_read_write_other hw2 _ _ (Ne.symm hdistinct),
                    page_read_write_same hw]
                  have e : parser_encode_literal [] literal1.index CBC_LOWER_SEVEN_BIT_MASK
                      = [u8 (u8 (literal1.index >>> 8) ||| CBC_HIGHEST_BIT_MASK),
                          u8 (literal1.index &&& CBC_MAXIMUM_BYTE_VALUE)] := by
                    unfold parser_encode_literal
                    rw [if_neg hone, if_neg hlim]
                    rfl
                  rw [e]
                  simp [Except.toOption, CBC_MAXIMUM_BYTE_VALUE]

theorem C8_first_pass_follows_one_redirect_witness :
    ∃ literal1, redirect_example_pool[1]? = some literal1
      ∧ literal1.type ≠ LEXER_UNUSED_LITERAL
      ∧ (page_read [ { bytes := [8, 255, 45, 4, 4, 4, 4, 4] } ] (some 0) 1).toOption
          = (parser_encode_literal [] literal1.index 254)[0]?
      ∧ (page_read [ { bytes := [8, 255, 45, 4, 4, 4, 4, 4] } ] (some 0) 2).toOption
          = if literal1.index ≤ 254 then some 0
            else (parser_encode_literal [] literal1.index 254)[1]? :=
  C8_first_pass_follows_one_redirect example_limits example_tables redirect_example_pool 400
    redirect_example_state
    { pages := [ { bytes := [8, 255, 45, 4, 4, 4, 4, 4] } ], page_p := some 0, offset := 3,
      length := 3, last_opcode := 8 }
    0 0 (some 0) 2 { type := LEXER_UNUSED_LITERAL, index := 1 }
    rfl rfl rfl rfl rfl (by decide) rfl

/-! ## Flat positions: cursor arithmetic and page access -/

theorem succ_div_mod (n q : Nat) (hn : 0 < n) :
    (q % n + 1 < n → (q + 1) / n = q / n ∧ (q + 1) % n = q % n + 1)
    ∧ (¬ q % n + 1 < n → (q + 1) / n = q / n + 1 ∧ (q + 1) % n = 0) := by
  have h1 := Nat.div_add_mod q n
  have h2 : q % n < n := Nat.mod_lt q hn
  constructor
  · intro h
    have e : q + 1 = q % n + 1 + n * (q / n) := by omega
    rw [e, Nat.add_mul_div_left _ _ hn, Nat.add_mul_mod_self_left,
      Nat.div_eq_of_lt h, Nat.mod_eq_of_lt h]
    omega
  · intro h
    have e : q + 1 = 0 + n * (q / n + 1) := by rw [Nat.mul_add]; omega
    rw [e, Nat.add_mul_div_left _ _ hn, Nat.add_mul_mod_self_left]
    simp

theorem div_lt_of_lt_mul' {n q l : Nat} (h : q < l * n) : q / n < l :=
  Nat.div_lt_of_lt_mul (by rw [Nat.mul_comm]; exact h)

theorem lt_mul_of_div_lt' {n q l : Nat} (hn : 0 < n) (h : q / n < l) : q < l * n := by
  have h1 := Nat.div_add_mod q n
  have h2 : q % n < n := Nat.mod_lt q hn
  have h3 : (q / n + 1) * n ≤ l * n := Nat.mul_le_mul_right n h
  rw [Nat.add_mul, Nat.mul_comm (q / n) n] at h3
  omega

theorem page_at_some {t : cbc_tables} {pages : List parser_mem_page_t} {chain : List Nat}
    (hp : pages_ok t pages chain) {i : Nat} (hi : i < chain.length) :
    ∃ p page, chain[i]? = some p ∧ pages[p]? = some page ∧ page_at pages chain i = some page
      ∧ page.bytes.length = t.PARSER_CBC_STREAM_PAGE_SIZE := by
  have h := hp.2 i hi
  unfold page_at at h ⊢
  rw [List.getElem?_eq_getElem hi] at h ⊢
  simp only [Option.some_bind] at h ⊢
  cases hpg : pages[chain[i]]? with
  | none => rw [hpg] at h; simp at h
  | some page =>
    rw [hpg] at h
    simp only [Option.map_some', Option.some.injEq] at h
    exact ⟨chain[i], page, rfl, hpg, rfl, h⟩

theorem page_at_none {pages : List parser_mem_page_t} {chain : List Nat} {i : Nat}
    (hi : chain.length ≤ i) : page_at pages chain i = none := by
  unfold page_at
  rw [List.getElem?_eq_none hi]
  rfl

theorem page_read_cursor (t : cbc_tables) (pages : List parser_mem_page_t) (chain : List Nat)
    (q : Nat) :
    (page_read pages (cursor t chain q).1 (cursor t chain q).2).toOption
      = stream_read t pages chain q := by
  unfold page_read page_get cursor stream_read page_at
  dsimp only
  cases chain[q / t.PARSER_CBC_STREAM_PAGE_SIZE]? with
  | none => rfl
  | some p =>
    dsimp only [Option.some_bind]
    cases pages[p]? with
    | none => rfl
    | some page =>
      dsimp only [Option.some_bind]
      cases page.bytes[q % t.PARSER_CBC_STREAM_PAGE_SIZE]? <;> rfl

theorem page_read_ok_iff (t : cbc_tables) (pages : List parser_mem_page_t) (chain : List Nat)
    (q b : Nat) :
    page_read pages (cursor t chain q).1 (cursor t chain q).2 = .ok b
      ↔ stream_read t pages chain q = some b := by
  rw [← page_read_cursor]
  cases page_read pages (cursor t chain q).1 (cursor t chain q).2 <;>
    simp [Except.toOption]

theorem stream_read_lt {t : cbc_tables} {pages : List parser_mem_page_t} {chain : List Nat}
    {q b : Nat} (hn : 0 < t.PARSER_CBC_STREAM_PAGE_SIZE)
    (h : stream_read t pages chain q = some b) :
    q < chain.length * t.PARSER_CBC_STREAM_PAGE_SIZE := by
  by_contra hq
  have : chain.length ≤ q / t.PARSER_CBC_STREAM_PAGE_SIZE := by
    by_contra hlt
    exact hq (lt_mul_of_div_lt' hn (by omega))
  unfold stream_read at h
  rw [page_at_none this] at h
  cases h

theorem stream_read_some {t : cbc_tables} {pages : List parser_mem_page_t} {chain : List Nat}
    (hp : pages_ok t pages chain) {q : Nat}
    (hq : q < chain.length * t.PARSER_CBC_STREAM_PAGE_SIZE) :
    ∃ b, stream_read t pages chain q = some b := by
  have hn : 0 < t.PARSER_CBC_STREAM_PAGE_SIZE := by
    rcases Nat.eq_zero_or_pos t.PARSER_CBC_STREAM_PAGE_SIZE with h | h
    · rw [h] at hq; simp at hq
    · exact h
  obtain ⟨p, page, _, _, hpa, hlen⟩ := page_at_some hp (div_lt_of_lt_mul' hq)
  unfold stream_read
  rw [hpa]
  have : q % t.PARSER_CBC_STREAM_PAGE_SIZE < page.bytes.length := by
    rw [hlen]; exact Nat.mod_lt _ hn
  exact ⟨page.bytes[q % t.PARSER_CBC_STREAM_PAGE_SIZE], by
    simp [List.getElem?_eq_getElem this]⟩

theorem page_at_set {pages : List parser_mem_page_t} {chain : List Nat} (hnd : chain.Nodup)
    {i p : Nat} {page : parser_mem_page_t} (hi : chain[i]? = some p)
    (hpg : pages[p]? = some page) (np : parser_mem_page_t) (j : Nat) :
    page_at (pages.set p np) chain j = if j = i then some np else page_at pages chain j := by
  have hil : i < chain.length := (List.getElem?_eq_some_iff.mp hi).1
  have hpl : p < pages.length := (List.getElem?_eq_some_iff.mp hpg).1
  by_cases hj : j = i
  · subst hj
    unfold page_at
    rw [hi, if_pos rfl]
    simp [hpl]
  · rw [if_neg hj]
    unfold page_at
    cases hc : chain[j]? with
    | none => rfl
    | some p1 =>
      have hne : p ≠ p1 := by
        intro e
        apply hj
        have : chain[i]? = chain[j]? := by rw [hi, hc, e]
        exact (List.getElem?_inj hil hnd this).symm
      simp [List.getElem?_set_ne hne]

theorem page_write_cursor {t : cbc_tables} {pages pages1 : List parser_mem_page_t}
    {chain : List Nat} (hp : pages_ok t pages chain) {q b : Nat}
    (hn : 0 < t.PARSER_CBC_STREAM_PAGE_SIZE)
    (h : page_write pages (cursor t chain q).1 (cursor t chain q).2 b = .ok pages1) :
    q < chain.length * t.PARSER_CBC_STREAM_PAGE_SIZE
      ∧ pages_ok t pages1 chain
      ∧ (∀ c, linked pages chain c → linked pages1 chain c)
      ∧ stream_read t pages1 chain q = some b
      ∧ ∀ r, r ≠ q → stream_read t pages1 chain r = stream_read t pages chain r := by
  unfold page_write cursor at h
  dsimp only at h
  cases hc : chain[q / t.PARSER_CBC_STREAM_PAGE_SIZE]? with
  | none => rw [hc] at h; cases h
  | some p =>
    rw [hc] at h
    dsimp only at h
    cases hpg : pages[p]? with
    | none => rw [hpg] at h; cases h
    | some page =>
      rw [hpg] at h
      dsimp only at h
      split_ifs at h with ho
      cases h
      have hil : q / t.PARSER_CBC_STREAM_PAGE_SIZE < chain.length :=
        (List.getElem?_eq_some_iff.mp hc).1
      have hset := page_at_set hp.1 hc hpg
        { page with bytes := page.bytes.set (q % t.PARSER_CBC_STREAM_PAGE_SIZE) b }
      have hold : page_at pages chain (q / t.PARSER_CBC_STREAM_PAGE_SIZE) = some page := by
        unfold page_at; rw [hc]; exact hpg
      refine ⟨lt_mul_of_div_lt' hn hil, ⟨hp.1, ?_⟩, ?_, ?_, ?_⟩
      · intro i hi
        rw [hset]
        split_ifs with hie
        · have := hp.2 _ hil
          rw [hold] at this
          simpa using this
        · exact hp.2 i hi
      · intro c hl i hi
        rw [hset]
        by_cases hie : i = q / t.PARSER_CBC_STREAM_PAGE_SIZE
        · rw [if_pos hie]
          have := hl _ hil
          rw [hold] at this
          rw [hie]
          exact this
        · rw [if_neg hie]
          exact hl i hi
      · unfold stream_read
        rw [hset, if_pos rfl]
        simp [ho]
      · intro r hr
        unfold stream_read
        rw [hset]
        split_ifs with hie
        · rw [hie, hold]
          have hmod : q % t.PARSER_CBC_STREAM_PAGE_SIZE ≠ r % t.PARSER_CBC_STREAM_PAGE_SIZE := by
            intro e
            apply hr
            have h1 := Nat.div_add_mod q t.PARSER_CBC_STREAM_PAGE_SIZE
            have h2 := Nat.div_add_mod r t.PARSER_CBC_STREAM_PAGE_SIZE
            rw [hie] at h2
            omega
          simp [List.getElem?_set_ne hmod]
        · rfl

theorem next_byte_cursor {t : cbc_tables} {pages : List parser_mem_page_t}
    {chain : List Nat} (hp : pages_ok t pages chain) (hl : linked pages chain 0) {q : Nat}
    (hn : 0 < t.PARSER_CBC_STREAM_PAGE_SIZE)
    (hq : q < chain.length * t.PARSER_CBC_STREAM_PAGE_SIZE) :
    PARSER_NEXT_BYTE t pages (cursor t chain q).1 (cursor t chain q).2
      = .ok (cursor t chain (q + 1)) := by
  have hil := div_lt_of_lt_mul' hq
  obtain ⟨p, page, hc, hpg, hpa, hlen⟩ := page_at_some hp hil
  have hnext := hl _ hil
  rw [hpa] at hnext
  simp only [Option.map_some', Nat.not_lt_zero, if_false, Option.some.injEq] at hnext
  have hsd := succ_div_mod t.PARSER_CBC_STREAM_PAGE_SIZE q hn
  unfold PARSER_NEXT_BYTE cursor page_get
  dsimp only
  by_cases hlt : q % t.PARSER_CBC_STREAM_PAGE_SIZE + 1 < t.PARSER_CBC_STREAM_PAGE_SIZE
  · have hnot : ¬ q % t.PARSER_CBC_STREAM_PAGE_SIZE + 1 ≥ t.PARSER_CBC_STREAM_PAGE_SIZE := by
      omega
    rw [if_neg hnot, (hsd.1 hlt).1, (hsd.1 hlt).2]
  · have hge : q % t.PARSER_CBC_STREAM_PAGE_SIZE + 1 ≥ t.PARSER_CBC_STREAM_PAGE_SIZE := by
      omega
    rw [if_pos hge, hc]
    dsimp only
    rw [hpg]
    dsimp only
    rw [(hsd.2 hlt).1, (hsd.2 hlt).2, hnext]

/-! ## The copy pass, byte by byte -/

theorem and_127_of_lt {c : Nat} (h : c < 128) : c &&& CBC_LOWER_SEVEN_BIT_MASK = c := by
  have := Nat.and_pow_two_sub_one_eq_mod c 7
  simp only [CBC_LOWER_SEVEN_BIT_MASK]
  norm_num at this
  rw [this]
  exact Nat.mod_eq_of_lt h

theorem counter_at_congr {t : cbc_tables} {pages pages1 : List parser_mem_page_t}
    {chain : List Nat} {q : Nat}
    (h : ∀ r, r < q → (stream_read t pages1 chain r).getD 0 &&& CBC_LOWER_SEVEN_BIT_MASK
      = (stream_read t pages chain r).getD 0 &&& CBC_LOWER_SEVEN_BIT_MASK) :
    counter_at t pages1 chain q = counter_at t pages chain q := by
  unfold counter_at
  split_ifs with h0
  · rfl
  · have : 0 < q := by
      rcases Nat.eq_zero_or_pos q with e | e
      · rw [e] at h0; simp at h0
      · exact e
    exact h (q - 1) (by omega)

theorem pages_total_congr {t : cbc_tables} {pages pages1 : List parser_mem_page_t}
    {chain : List Nat} {q : Nat}
    (h : ∀ r, r < q → (stream_read t pages1 chain r).getD 0 &&& CBC_LOWER_SEVEN_BIT_MASK
      = (stream_read t pages chain r).getD 0 &&& CBC_LOWER_SEVEN_BIT_MASK)
    (hn : 0 < t.PARSER_CBC_STREAM_PAGE_SIZE) (i : Nat)
    (hi : i * t.PARSER_CBC_STREAM_PAGE_SIZE ≤ q) :
    pages_total t pages1 chain i = pages_total t pages chain i := by
  unfold pages_total
  congr 1
  apply List.map_congr_left
  intro j hj
  rw [List.mem_range] at hj
  unfold page_total
  apply h
  have : (j + 1) * t.PARSER_CBC_STREAM_PAGE_SIZE ≤ i * t.PARSER_CBC_STREAM_PAGE_SIZE :=
    Nat.mul_le_mul_right _ hj
  rw [Nat.add_mul] at this
  omega

theorem copied_before_congr {t : cbc_tables} {pages pages1 : List parser_mem_page_t}
    {chain : List Nat} {q : Nat}
    (h : ∀ r, r < q → (stream_read t pages1 chain r).getD 0 &&& CBC_LOWER_SEVEN_BIT_MASK
      = (stream_read t pages chain r).getD 0 &&& CBC_LOWER_SEVEN_BIT_MASK)
    (hn : 0 < t.PARSER_CBC_STREAM_PAGE_SIZE) :
    copied_before t pages1 chain q = copied_before t pages chain q := by
  unfold copied_before
  rw [counter_at_congr h, pages_total_congr h hn]
  rw [Nat.mul_comm]
  exact Nat.mul_div_le q _

theorem pages_total_succ (t : cbc_tables) (pages : List parser_mem_page_t)
    (chain : List Nat) (i : Nat) :
    pages_total t pages chain (i + 1)
      = pages_total t pages chain i + page_total t pages chain i := by
  unfold pages_total
  rw [List.range_succ, List.map_append, List.sum_append]
  simp

theorem next_byte_update_spec {t : cbc_tables} {chain : List Nat} {q : Nat}
    {st st1 : copy_state} (hat : copy_at t chain q st)
    (hn : 0 < t.PARSER_CBC_STREAM_PAGE_SIZE)
    (h : PARSER_NEXT_BYTE_UPDATE t st = .ok st1) :
    q < chain.length * t.PARSER_CBC_STREAM_PAGE_SIZE
      ∧ copy_at t chain (q + 1) st1 ∧ st1.dst = st.dst
      ∧ stream_read t st1.pages chain q = some st.real_offset
      ∧ (∀ r, r ≠ q → stream_read t st1.pages chain r = stream_read t st.pages chain r)
      ∧ st1.real_offset
          = if (q + 1) % t.PARSER_CBC_STREAM_PAGE_SIZE = 0 then 0 else st.real_offset := by
  obtain ⟨hp, hl, hc⟩ := hat
  have hpp : st.page_p = (cursor t chain q).1 := congrArg Prod.fst hc
  have hoo : st.offset = (cursor t chain q).2 := congrArg Prod.snd hc
  unfold PARSER_NEXT_BYTE_UPDATE at h
  rw [hpp, hoo] at h
  cases hw : page_write st.pages (cursor t chain q).1 (cursor t chain q).2 st.real_offset with
  | error e => rw [hw] at h; cases h
  | ok pages1 =>
    rw [hw] at h
    dsimp only at h
    obtain ⟨hq, hp1, hl1, hr1, hf1⟩ := page_write_cursor hp hn hw
    have hnx := next_byte_cursor hp1 (hl1 0 hl) hn hq
    have hsd := succ_div_mod t.PARSER_CBC_STREAM_PAGE_SIZE q hn
    unfold PARSER_NEXT_BYTE at hnx
    have hc2 : (cursor t chain q).2 = q % t.PARSER_CBC_STREAM_PAGE_SIZE := rfl
    by_cases hge : (cursor t chain q).2 + 1 ≥ t.PARSER_CBC_STREAM_PAGE_SIZE
    · rw [if_pos hge] at h hnx
      cases hg : page_get pages1 (cursor t chain q).1 with
      | error e => rw [hg] at h; cases h
      | ok page =>
        rw [hg] at h hnx
        dsimp only at h hnx
        cases h
        have hz : (q + 1) % t.PARSER_CBC_STREAM_PAGE_SIZE = 0 :=
          (hsd.2 (by rw [hc2] at hge; omega)).2
        refine ⟨hq, ⟨hp1, hl1 0 hl, ?_⟩, rfl, hr1, hf1, ?_⟩
        · exact Except.ok.inj hnx
        · dsimp only
          rw [if_pos hz]
    · rw [if_neg hge] at h hnx
      cases h
      have hz : (q + 1) % t.PARSER_CBC_STREAM_PAGE_SIZE ≠ 0 := by
        rw [(hsd.1 (by rw [hc2] at hge; omega)).2]; omega
      refine ⟨hq, ⟨hp1, hl1 0 hl, ?_⟩, rfl, hr1, hf1, ?_⟩
      · exact Except.ok.inj hnx
      · dsimp only
        rw [if_neg hz]

theorem byte_step_run {t : cbc_tables} {chain : List Nat} (pfx : Nat) {q : Nat}
    {st st1 : copy_state} (hat : copy_at t chain q st)
    (hn : 0 < t.PARSER_CBC_STREAM_PAGE_SIZE) (dst1 : List Nat) (ro1 e : Nat) (he : e ≤ 1)
    (hlen : dst1.length = st.dst.length + e)
    (hpfx : ∀ x, x < pfx → dst1[x]? = st.dst[x]?)
    (hro : t.PARSER_CBC_STREAM_PAGE_SIZE ≤ 127 →
      st.real_offset ≤ q % t.PARSER_CBC_STREAM_PAGE_SIZE → ro1 = st.real_offset + e)
    (h : PARSER_NEXT_BYTE_UPDATE t { st with dst := dst1, real_offset := ro1 } = .ok st1) :
    copy_run t chain pfx q st (q + 1) st1 ∧ st1.dst = dst1
      ∧ q < chain.length * t.PARSER_CBC_STREAM_PAGE_SIZE := by
  have hat1 : copy_at t chain q { st with dst := dst1, real_offset := ro1 } := hat
  obtain ⟨hq, hat2, hdst, hrd, hfr, hreal⟩ := next_byte_update_spec hat1 hn h
  dsimp only at hdst hrd hfr hreal
  refine ⟨⟨by omega, hat2, by rw [hdst]; omega, by rw [hdst]; omega, ?_, ?_, ?_⟩, hdst, hq⟩
  · intro x hx
    rw [hdst]
    exact hpfx x hx
  · intro r hr
    exact hfr r (by omega)
  · intro base hps hc
    obtain ⟨hc1, hc2, hc3⟩ := hc
    have hro1 := hro hps hc2
    have hmod : q % t.PARSER_CBC_STREAM_PAGE_SIZE < t.PARSER_CBC_STREAM_PAGE_SIZE :=
      Nat.mod_lt _ hn
    have hlt : ro1 < 128 := by omega
    have hmask : (stream_read t st1.pages chain q).getD 0 &&& CBC_LOWER_SEVEN_BIT_MASK
        = ro1 := by
      rw [hrd]
      exact and_127_of_lt hlt
    have hcong : ∀ r, r < q →
        (stream_read t st1.pages chain r).getD 0 &&& CBC_LOWER_SEVEN_BIT_MASK
          = (stream_read t st.pages chain r).getD 0 &&& CBC_LOWER_SEVEN_BIT_MASK := by
      intro r hr
      rw [hfr r (by omega)]
    have hpt : pages_total t st1.pages chain (q / t.PARSER_CBC_STREAM_PAGE_SIZE)
        = pages_total t st.pages chain (q / t.PARSER_CBC_STREAM_PAGE_SIZE) :=
      pages_total_congr hcong hn _ (by rw [Nat.mul_comm]; exact Nat.mul_div_le q _)
    have hsd := succ_div_mod t.PARSER_CBC_STREAM_PAGE_SIZE q hn
    have hcb : copied_before t st.pages chain q
        = pages_total t st.pages chain (q / t.PARSER_CBC_STREAM_PAGE_SIZE)
          + st.real_offset := by
      unfold copied_before
      rw [← hc1]
    refine ⟨?_, ?_⟩
    · by_cases hz : q % t.PARSER_CBC_STREAM_PAGE_SIZE + 1 < t.PARSER_CBC_STREAM_PAGE_SIZE
      · obtain ⟨hd, hm⟩ := hsd.1 hz
        have hnz : (q + 1) % t.PARSER_CBC_STREAM_PAGE_SIZE ≠ 0 := by omega
        have hcnt : counter_at t st1.pages chain (q + 1) = ro1 := by
          unfold counter_at
          rw [if_neg hnz]
          exact hmask
        refine ⟨?_, ?_, ?_⟩
        · rw [hreal, if_neg hnz, hcnt]
        · rw [hreal, if_neg hnz]; omega
        · unfold copied_before
          rw [hd, hpt, hcnt, hdst, hlen, hc3, hcb]
          omega
      · obtain ⟨hd, hm⟩ := hsd.2 hz
        have hcnt : counter_at t st1.pages chain (q + 1) = 0 := by
          unfold counter_at
          rw [if_pos hm]
        have hlast : q / t.PARSER_CBC_STREAM_PAGE_SIZE * t.PARSER_CBC_STREAM_PAGE_SIZE
            + (t.PARSER_CBC_STREAM_PAGE_SIZE - 1) = q := by
          have := Nat.div_add_mod q t.PARSER_CBC_STREAM_PAGE_SIZE
          rw [Nat.mul_comm] at this
          omega
        have hpg : page_total t st1.pages chain (q / t.PARSER_CBC_STREAM_PAGE_SIZE)
            = ro1 := by
          unfold page_total
          rw [hlast]
          exact hmask
        refine ⟨?_, ?_, ?_⟩
        · rw [hreal, if_pos hm, hcnt]
        · rw [hreal, if_pos hm]; omega
        · unfold copied_before
          rw [hd, pages_total_succ, hpt, hpg, hcnt, hdst, hlen, hc3, hcb]
          omega
    · intro r hr1 hr2
      have : r = q := by omega
      subst this
      exact ⟨ro1, hrd, hlt⟩

/-! ## Bit masks of the counters and the branch mark -/

theorem testBit_128 (i : Nat) : Nat.testBit 128 i = decide (i = 7) := by
  have : (128 : Nat) = 2 ^ 7 := by norm_num
  rw [this, Nat.testBit_two_pow]
  by_cases h : i = 7 <;> simp [h, eq_comm]

theorem testBit_127 (i : Nat) : Nat.testBit 127 i = decide (i < 7) := by
  have : (127 : Nat) = 2 ^ 7 - 1 := by norm_num
  rw [this, Nat.testBit_two_pow_sub_one]

theorem mark_and_127 (c : Nat) :
    (c ||| CBC_HIGHEST_BIT_MASK) &&& CBC_LOWER_SEVEN_BIT_MASK
      = c &&& CBC_LOWER_SEVEN_BIT_MASK := by
  unfold CBC_HIGHEST_BIT_MASK CBC_LOWER_SEVEN_BIT_MASK
  apply Nat.eq_of_testBit_eq
  intro i
  simp only [Nat.testBit_and, Nat.testBit_or]
  rw [show (0x80 : Nat) = 128 from rfl, show (0x7f : Nat) = 127 from rfl, testBit_128,
    testBit_127]
  by_cases h : i < 7
  · have : i ≠ 7 := by omega
    simp [h, this]
  · simp [h]

theorem mark_and_128 (c : Nat) : (c ||| CBC_HIGHEST_BIT_MASK) &&& CBC_HIGHEST_BIT_MASK ≠ 0 := by
  unfold CBC_HIGHEST_BIT_MASK
  intro h
  have := congrArg (fun x => Nat.testBit x 7) h
  rw [show (0x80 : Nat) = 128 from rfl] at this
  simp [Nat.testBit_and, Nat.testBit_or, testBit_128] at this

theorem and_128_of_lt {c : Nat} (h : c < 128) : c &&& CBC_HIGHEST_BIT_MASK = 0 := by
  unfold CBC_HIGHEST_BIT_MASK
  apply Nat.eq_of_testBit_eq
  intro i
  rw [show (0x80 : Nat) = 128 from rfl]
  simp only [Nat.testBit_and, testBit_128, Nat.zero_testBit]
  by_cases hi : i = 7
  · subst hi
    rw [Nat.testBit_lt_two_pow (by norm_num; exact h)]
    rfl
  · simp [hi]

theorem copy_run_trans {t : cbc_tables} {chain : List Nat} {pfx q q1 q2 : Nat}
    {st st1 st2 : copy_state} (h1 : copy_run t chain pfx q st q1 st1)
    (h2 : copy_run t chain pfx q1 st1 q2 st2) : copy_run t chain pfx q st q2 st2 := by
  obtain ⟨a1, a2, a3, a4, a5, a6, a7⟩ := h1
  obtain ⟨b1, b2, b3, b4, b5, b6, b7⟩ := h2
  refine ⟨by omega, b2, by omega, by omega, ?_, ?_, ?_⟩
  · intro x hx
    rw [b5 x hx, a5 x hx]
  · intro r hr
    rw [b6 r (by omega), a6 r (by omega)]
  · intro base hps hc
    obtain ⟨c1, c2⟩ := a7 base hps hc
    obtain ⟨d1, d2⟩ := b7 base hps c1
    refine ⟨d1, ?_⟩
    intro r hr1 hr2
    by_cases hr : r < q1
    · obtain ⟨c, hc, hlt⟩ := c2 r hr1 hr
      exact ⟨c, by rw [b6 r (Or.inl hr)]; exact hc, hlt⟩
    · exact d2 r (by omega) hr2

theorem copy_run_refl {t : cbc_tables} {chain : List Nat} {pfx q : Nat}
    {st : copy_state} (hat : copy_at t chain q st) : copy_run t chain pfx q st q st := by
  refine ⟨le_refl _, hat, le_refl _, le_refl _, fun _ _ => rfl, fun _ _ => rfl, ?_⟩
  intro base _ hc
  exact ⟨hc, fun r h1 h2 => absurd h2 (by omega)⟩

theorem skip_run {t : cbc_tables} {chain : List Nat} (pfx : Nat) {q : Nat}
    {st st1 : copy_state} (hat : copy_at t chain q st)
    (hn : 0 < t.PARSER_CBC_STREAM_PAGE_SIZE)
    (h : PARSER_NEXT_BYTE_UPDATE t st = .ok st1) :
    copy_run t chain pfx q st (q + 1) st1 ∧ st1.dst = st.dst
      ∧ q < chain.length * t.PARSER_CBC_STREAM_PAGE_SIZE :=
  byte_step_run pfx hat hn st.dst st.real_offset 0 (by omega) rfl (fun _ _ => rfl)
    (fun _ _ => rfl) h

theorem u8_succ_of_le {ro m n : Nat} (h : ro ≤ m) (hm : m < n) (hn : n ≤ 127) :
    u8 (ro + 1) = ro + 1 := by
  unfold u8
  exact Nat.mod_eq_of_lt (by omega)

theorem copy_byte_run {t : cbc_tables} {chain : List Nat} (pfx : Nat) {q : Nat}
    {st st1 : copy_state} (hat : copy_at t chain q st)
    (hn : 0 < t.PARSER_CBC_STREAM_PAGE_SIZE) (hpfx : pfx ≤ st.dst.length)
    (h : copy_byte t st = .ok st1) :
    ∃ b, stream_read t st.pages chain q = some b ∧ st1.dst = st.dst ++ [b]
      ∧ copy_run t chain pfx q st (q + 1) st1 := by
  have hpp : st.page_p = (cursor t chain q).1 := congrArg Prod.fst hat.2.2
  have hoo : st.offset = (cursor t chain q).2 := congrArg Prod.snd hat.2.2
  unfold copy_byte at h
  cases hr : page_read st.pages st.page_p st.offset with
  | error e => rw [hr] at h; cases h
  | ok b =>
    rw [hr] at h
    dsimp only at h
    rw [hpp, hoo] at hr
    have hb := (page_read_ok_iff t st.pages chain q b).mp hr
    have := byte_step_run pfx hat hn (st.dst ++ [b]) (u8 (st.real_offset + 1)) 1
      (le_refl _) (by simp)
      (fun x hx => List.getElem?_append_left (by omega))
      (fun hps hle => u8_succ_of_le hle (Nat.mod_lt _ hn) hps) h
    exact ⟨b, hb, this.2.1, this.1⟩

theorem skip_bytes_run {t : cbc_tables} {chain : List Nat} (pfx : Nat)
    (hn : 0 < t.PARSER_CBC_STREAM_PAGE_SIZE) (n : Nat) :
    ∀ (q : Nat) (st st1 : copy_state), copy_at t chain q st →
      skip_bytes t n st = .ok st1 →
      copy_run t chain pfx q st (q + n) st1 ∧ st1.dst = st.dst := by
  induction n with
  | zero =>
    intro q st st1 hat h
    unfold skip_bytes at h
    cases h
    exact ⟨copy_run_refl hat, rfl⟩
  | succ n ih =>
    intro q st st1 hat h
    unfold skip_bytes at h
    cases hs : PARSER_NEXT_BYTE_UPDATE t st with
    | error e => rw [hs] at h; cases h
    | ok st2 =>
      rw [hs] at h
      dsimp only at h
      obtain ⟨r1, d1, _⟩ := skip_run pfx hat hn hs
      obtain ⟨r2, d2⟩ := ih (q + 1) st2 st1 r1.2.1 h
      have e : q + (n + 1) = q + 1 + n := by omega
      rw [e]
      exact ⟨copy_run_trans r1 r2, by rw [d2, d1]⟩

theorem copy_literal_run {t : cbc_tables} {chain : List Nat} (pfx : Nat) {q limit : Nat}
    {st st1 : copy_state} (hat : copy_at t chain q st)
    (hn : 0 < t.PARSER_CBC_STREAM_PAGE_SIZE) (hpfx : pfx ≤ st.dst.length)
    (h : copy_literal t limit st = .ok st1) :
    copy_run t chain pfx q st (q + 2) st1
      ∧ (st1.dst.length = st.dst.length + 1 ∨ st1.dst.length = st.dst.length + 2) := by
  unfold copy_literal at h
  cases hr : page_read st.pages st.page_p st.offset with
  | error e => rw [hr] at h; cases h
  | ok first_byte =>
    rw [hr] at h
    dsimp only at h
    cases hc : copy_byte t st with
    | error e => rw [hc] at h; cases h
    | ok st2 =>
      rw [hc] at h
      dsimp only at h
      obtain ⟨b, _, hd, r1⟩ := copy_byte_run pfx hat hn hpfx hc
      have hl2 : st2.dst.length = st.dst.length + 1 := by rw [hd]; simp
      split_ifs at h
      · obtain ⟨b2, _, hd2, r2⟩ := copy_byte_run pfx r1.2.1 hn (by omega) h
        exact ⟨copy_run_trans r1 r2, Or.inr (by rw [hd2]; simp; omega)⟩
      · obtain ⟨r2, hd2, _⟩ := skip_run pfx r1.2.1 hn h
        exact ⟨copy_run_trans r1 r2, Or.inl (by rw [hd2]; omega)⟩

theorem copy_literals_run {t : cbc_tables} {chain : List Nat} (pfx : Nat) {limit : Nat}
    (hn : 0 < t.PARSER_CBC_STREAM_PAGE_SIZE) (fuel : Nat) :
    ∀ (flags flags1 : cbc_flags_t) (q : Nat) (st st1 : copy_state), copy_at t chain q st →
      pfx ≤ st.dst.length →
      copy_literals t limit fuel flags st = .ok (flags1, st1) →
      ∃ k, copy_run t chain pfx q st (q + 2 * k) st1
        ∧ st.dst.length + k ≤ st1.dst.length ∧ st1.dst.length ≤ st.dst.length + 2 * k
        ∧ (k = 0 → flags1 = flags)
        ∧ (0 < k → flags.has_literal_arg = true ∨ flags.has_literal_arg2 = true) := by
  induction fuel with
  | zero =>
    intro flags flags1 q st st1 hat hpfx h
    unfold copy_literals at h
    split_ifs at h
    cases h
    exact ⟨0, copy_run_refl hat, by omega, by omega, fun _ => rfl, fun h => absurd h (by omega)⟩
  | succ fuel ih =>
    intro flags flags1 q st st1 hat hpfx h
    unfold copy_literals at h
    split_ifs at h with hf
    · cases hl : copy_literal t limit st with
      | error e => rw [hl] at h; cases h
      | ok st2 =>
        rw [hl] at h
        dsimp only at h
        obtain ⟨r1, hlen⟩ := copy_literal_run pfx hat hn hpfx hl
        have hf2 : flags.has_literal_arg = true ∨ flags.has_literal_arg2 = true := by
          simpa using hf
        cases hnf : next_literal_flags flags with
        | none =>
          rw [hnf] at h
          dsimp only at h
          cases h
          exact ⟨1, r1, by omega, by omega, fun h => absurd h (by omega), fun _ => hf2⟩
        | some flags2 =>
          rw [hnf] at h
          dsimp only at h
          obtain ⟨k, r2, l1, l2, _, _⟩ := ih flags2 flags1 (q + 2) st2 st1 r1.2.1
            (by omega) h
          have e : q + 2 + 2 * k = q + 2 * (k + 1) := by omega
          rw [e] at r2
          exact ⟨k + 1, copy_run_trans r1 r2, by omega, by omega,
            fun h => absurd h (by omega), fun _ => hf2⟩
    · cases h
      exact ⟨0, copy_run_refl hat, by omega, by omega, fun _ => rfl,
        fun h => absurd h (by omega)⟩

theorem copy_branch_bytes_run {t : cbc_tables} {chain : List Nat} (pfx : Nat)
    (hn : 0 < t.PARSER_CBC_STREAM_PAGE_SIZE) (opcode_p : Nat) (count : Nat) :
    ∀ (prefix_zero : Bool) (q : Nat) (st st1 : copy_state), copy_at t chain q st →
      pfx ≤ opcode_p → opcode_p < st.dst.length →
      copy_branch_bytes t opcode_p count prefix_zero st = .ok st1 →
      ∃ z, z ≤ count ∧ (prefix_zero = false → z = 0)
        ∧ copy_run t chain pfx q st (q + count) st1
        ∧ st1.dst.length = st.dst.length + (count - z)
        ∧ (∀ i, i < z → stream_read t st.pages chain (q + i) = some 0)
        ∧ (∀ i, i < count - z →
            st1.dst[st.dst.length + i]? = stream_read t st.pages chain (q + z + i))
        ∧ (∀ x, x < st.dst.length → x ≠ opcode_p → st1.dst[x]? = st.dst[x]?)
        ∧ st1.dst[opcode_p]? = (st.dst[opcode_p]?).map (fun x => u8 (x + 255))^[z] := by
  induction count with
  | zero =>
    intro prefix_zero q st st1 hat hpfx hop h
    unfold copy_branch_bytes at h
    cases h
    exact ⟨0, le_refl _, fun _ => rfl, copy_run_refl hat, rfl,
      fun i hi => absurd hi (by omega), fun i hi => absurd hi (by omega),
      fun _ _ _ => rfl, by simp⟩
  | succ count ih =>
    intro prefix_zero q st st1 hat hpfx hop h
    have hpp : st.page_p = (cursor t chain q).1 := congrArg Prod.fst hat.2.2
    have hoo : st.offset = (cursor t chain q).2 := congrArg Prod.snd hat.2.2
    unfold copy_branch_bytes at h
    cases hr : page_read st.pages st.page_p st.offset with
    | error e => rw [hr] at h; cases h
    | ok b =>
      rw [hr] at h
      dsimp only at h
      rw [hpp, hoo] at hr
      have hb := (page_read_ok_iff t st.pages chain q b).mp hr
      by_cases hcond : b > 0 ∨ prefix_zero = false
      · rw [if_pos hcond] at h
        cases hs : PARSER_NEXT_BYTE_UPDATE t
            { st with dst := st.dst ++ [b], real_offset := u8 (st.real_offset + 1) } with
        | error e => rw [hs] at h; cases h
        | ok st2 =>
          rw [hs] at h
          dsimp only at h
          obtain ⟨r1, hd, _⟩ := byte_step_run pfx hat hn (st.dst ++ [b])
            (u8 (st.real_offset + 1)) 1 (le_refl _) (by simp)
            (fun x hx => List.getElem?_append_left (by omega))
            (fun hps hle => u8_succ_of_le hle (Nat.mod_lt _ hn) hps) hs
          have hl2 : st2.dst.length = st.dst.length + 1 := by rw [hd]; simp
          obtain ⟨z, hz, hz0, r2, hlen, hzero, hrd, hfr, hopc⟩ :=
            ih false (q + 1) st2 st1 r1.2.1 hpfx (by omega) h
          have hz00 : z = 0 := hz0 rfl
          subst hz00
          have e : q + 1 + count = q + (count + 1) := by omega
          rw [e] at r2
          refine ⟨0, by omega, fun _ => rfl, copy_run_trans r1 r2, by omega,
            fun i hi => absurd hi (by omega), ?_, ?_, ?_⟩
          · intro i hi
            cases i with
            | zero =>
              rw [hfr _ (by omega) (by omega), hd]
              simp [hb]
            | succ i =>
              have := hrd i (by omega)
              rw [hl2] at this
              have e2 : st.dst.length + (i + 1) = st.dst.length + 1 + i := by omega
              rw [e2, this, r1.2.2.2.2.2.1 _ (Or.inr (by omega))]
              congr 1
              omega
          · intro x hx hxo
            rw [hfr x (by omega) hxo, hd]
            exact List.getElem?_append_left hx
          · rw [hopc, hd, List.getElem?_append_left hop]
      · rw [if_neg hcond] at h
        have hb0 : b = 0 := by omega
        have hpz : prefix_zero = true := by
          cases prefix_zero
          · exact absurd (Or.inr rfl) hcond
          · rfl
        cases hdec : decrement_opcode st.dst opcode_p with
        | error e => rw [hdec] at h; cases h
        | ok dst1 =>
          rw [hdec] at h
          dsimp only at h
          cases hs : PARSER_NEXT_BYTE_UPDATE t { st with dst := dst1 } with
          | error e => rw [hs] at h; cases h
          | ok st2 =>
            rw [hs] at h
            dsimp only at h
            unfold decrement_opcode at hdec
            rw [List.getElem?_eq_getElem hop] at hdec
            dsimp only at hdec
            cases hdec
            obtain ⟨r1, hd, _⟩ := byte_step_run pfx hat hn
              (st.dst.set opcode_p (u8 (st.dst[opcode_p] + 255))) st.real_offset 0
              (by omega) (by simp)
              (fun x hx => List.getElem?_set_ne (by omega))
              (fun _ _ => rfl) hs
            have hl2 : st2.dst.length = st.dst.length := by rw [hd]; simp
            obtain ⟨z, hz, hz0, r2, hlen, hzero, hrd, hfr, hopc⟩ :=
              ih prefix_zero (q + 1) st2 st1 r1.2.1 hpfx (by omega) h
            have e : q + 1 + count = q + (count + 1) := by omega
            rw [e] at r2
            refine ⟨z + 1, by omega, fun hf => absurd hpz (by rw [hf]; decide),
              copy_run_trans r1 r2, by omega, ?_, ?_, ?_, ?_⟩
            · intro i hi
              cases i with
              | zero => rw [Nat.add_zero, hb, hb0]
              | succ i =>
                have := hzero i (by omega)
                rw [r1.2.2.2.2.2.1 _ (Or.inr (by omega))] at this
                rw [← this]
                congr 1
                omega
            · intro i hi
              have := hrd i (by omega)
              rw [hl2] at this
              rw [this, r1.2.2.2.2.2.1 _ (Or.inr (by omega))]
              congr 1
              omega
            · intro x hx hxo
              rw [hfr x (by omega) hxo, hd]
              exact List.getElem?_set_ne (Ne.symm hxo)
            · rw [hopc, hd, List.getElem?_set_self hop, List.getElem?_eq_getElem hop]
              simp only [Option.map_some', Function.iterate_succ, Function.comp_apply]

theorem set_branch_mark_spec {t : cbc_tables} {pages pages1 : List parser_mem_page_t}
    {chain : List Nat} (hp : pages_ok t pages chain) {q : Nat}
    (hn : 0 < t.PARSER_CBC_STREAM_PAGE_SIZE)
    (h : set_branch_mark pages (cursor t chain q).1 (cursor t chain q).2 = .ok pages1) :
    pages_ok t pages1 chain
      ∧ (∀ c, linked pages chain c → linked pages1 chain c)
      ∧ (∃ c, stream_read t pages chain q = some c
          ∧ stream_read t pages1 chain q = some (c ||| CBC_HIGHEST_BIT_MASK))
      ∧ ∀ r, r ≠ q → stream_read t pages1 chain r = stream_read t pages chain r := by
  unfold set_branch_mark at h
  cases hr : page_read pages (cursor t chain q).1 (cursor t chain q).2 with
  | error e => rw [hr] at h; cases h
  | ok b =>
    rw [hr] at h
    dsimp only at h
    obtain ⟨_, hp1, hl1, hr1, hf1⟩ := page_write_cursor hp hn h
    exact ⟨hp1, hl1, ⟨b, (page_read_ok_iff t pages chain q b).mp hr, hr1⟩, hf1⟩

theorem counters_ok_congr {t : cbc_tables} {chain : List Nat} {base q : Nat}
    {st st1 : copy_state} (hn : 0 < t.PARSER_CBC_STREAM_PAGE_SIZE)
    (h : counters_ok t chain base q st) (hro : st1.real_offset = st.real_offset)
    (hdst : st1.dst.length = st.dst.length)
    (hrd : ∀ r, r < q →
      (stream_read t st1.pages chain r).getD 0 &&& CBC_LOWER_SEVEN_BIT_MASK
        = (stream_read t st.pages chain r).getD 0 &&& CBC_LOWER_SEVEN_BIT_MASK) :
    counters_ok t chain base q st1 := by
  obtain ⟨h1, h2, h3⟩ := h
  refine ⟨?_, by rw [hro]; exact h2, ?_⟩
  · rw [hro, h1, counter_at_congr hrd]
  · rw [hdst, h3, copied_before_congr hrd hn]

theorem instr_run_unmarked {t : cbc_tables} {chain : List Nat} {q q1 : Nat}
    {st st1 : copy_state} (h : copy_run t chain st.dst.length q st q1 st1) (hq : q < q1) :
    instr_run t chain false q st q1 st1 := by
  obtain ⟨a1, a2, a3, a4, a5, a6, a7⟩ := h
  refine ⟨hq, a2, a3, a4, a5, a6, ?_⟩
  intro base hps hc
  obtain ⟨c1, c2⟩ := a7 base hps hc
  refine ⟨c1, ?_⟩
  intro r hr1 hr2
  obtain ⟨c, hc, hlt⟩ := c2 r hr1 hr2
  refine ⟨c, hc, ?_⟩
  rw [and_128_of_lt hlt]
  simp

theorem instr_run_marked {t : cbc_tables} {chain : List Nat} {q q2 q1 : Nat}
    {st st2 st1 : copy_state} {pages1 : List parser_mem_page_t}
    (hn : 0 < t.PARSER_CBC_STREAM_PAGE_SIZE)
    (h1 : copy_run t chain st.dst.length q st q2 st2) (hq : q < q2)
    (hm : set_branch_mark st2.pages (cursor t chain q).1 (cursor t chain q).2 = .ok pages1)
    (h2 : copy_run t chain st.dst.length q2 { st2 with pages := pages1 } q1 st1) :
    instr_run t chain true q st q1 st1 := by
  obtain ⟨a1, a2, a3, a4, a5, a6, a7⟩ := h1
  obtain ⟨b1, b2, b3, b4, b5, b6, b7⟩ := h2
  obtain ⟨m1, m2, ⟨c0, m3, m4⟩, m5⟩ := set_branch_mark_spec a2.1 hn hm
  dsimp only at b3 b4 b5 b6 b7
  refine ⟨by omega, b2, by omega, by omega, ?_, ?_, ?_⟩
  · intro x hx
    rw [b5 x hx, a5 x hx]
  · intro r hr
    rw [b6 r (by omega), m5 r (by omega), a6 r (by omega)]
  · intro base hps hc
    obtain ⟨c1, c2⟩ := a7 base hps hc
    have c3 : counters_ok t chain base q2 { st2 with pages := pages1 } := by
      refine counters_ok_congr hn c1 rfl rfl ?_
      intro r _
      dsimp only
      by_cases hr : r = q
      · subst hr
        rw [m4, m3]
        exact mark_and_127 c0
      · rw [m5 r hr]
    obtain ⟨d1, d2⟩ := b7 base hps c3
    refine ⟨d1, ?_⟩
    intro r hr1 hr2
    by_cases hr : r < q2
    · rw [b6 r (Or.inl hr)]
      by_cases hrq : r = q
      · subst hrq
        refine ⟨_, m4, ?_⟩
        simp only [true_and, iff_true]
        exact mark_and_128 c0
      · rw [m5 r hrq]
        obtain ⟨c, hc, hlt⟩ := c2 r hr1 hr
        refine ⟨c, hc, ?_⟩
        rw [and_128_of_lt hlt]
        simp [hrq]
    · obtain ⟨c, hc, hlt⟩ := d2 r (by omega) hr2
      refine ⟨c, hc, ?_⟩
      rw [and_128_of_lt hlt]
      have : r ≠ q := by omega
      simp [this]

theorem copy_arguments_run {t : cbc_tables} {chain : List Nat} (pfx : Nat)
    {limit branch_offset_length opcode_p q : Nat} {flags : cbc_flags_t}
    {st st1 : copy_state} (hn : 0 < t.PARSER_CBC_STREAM_PAGE_SIZE)
    (hat : copy_at t chain q st) (hpfx : pfx ≤ opcode_p) (hop : opcode_p < st.dst.length)
    (h : copy_arguments t limit flags branch_offset_length opcode_p st = .ok st1) :
    ∃ q1 nlit elit nbyte w ebr, copy_run t chain pfx q st q1 st1
      ∧ q1 = q + 2 * nlit + nbyte + w
      ∧ st1.dst.length = st.dst.length + elit + nbyte + ebr
      ∧ nlit ≤ elit ∧ elit ≤ 2 * nlit ∧ nbyte ≤ 1 ∧ ebr ≤ w ∧ w ≤ 3 := by
  unfold copy_arguments at h
  cases hl : copy_literals t limit 3 flags st with
  | error e => rw [hl] at h; cases h
  | ok r =>
    obtain ⟨flags1, st4⟩ := r
    rw [hl] at h
    dsimp only at h
    obtain ⟨k, r1, l1, l1b, _, _⟩ := copy_literals_run pfx hn 3 flags flags1 q st st4 hat
      (by omega) hl
    have hbyte : ∃ nbyte st5, (if flags1.has_byte_arg then copy_byte t st4
        else .ok st4 : Except Fault copy_state) = .ok st5
        ∧ copy_run t chain pfx q st (q + 2 * k + nbyte) st5
        ∧ st5.dst.length = st4.dst.length + nbyte ∧ nbyte ≤ 1 := by
      by_cases hb : flags1.has_byte_arg = true
      · rw [if_pos hb] at h ⊢
        cases hc : copy_byte t st4 with
        | error e => rw [hc] at h; cases h
        | ok st5 =>
          obtain ⟨b, _, hd, r2⟩ := copy_byte_run pfx r1.2.1 hn (by omega) hc
          exact ⟨1, st5, rfl, copy_run_trans r1 r2, by rw [hd]; simp, le_refl _⟩
      · rw [if_neg hb]
        exact ⟨0, st4, rfl, r1, rfl, by omega⟩
    obtain ⟨nbyte, st5, e5, r5, l5, hnb⟩ := hbyte
    rw [e5] at h
    dsimp only at h
    by_cases hbr : flags1.has_branch_arg = true
    · rw [if_pos hbr] at h
      split_ifs at h with hlen
      cases hcb : copy_branch_bytes t opcode_p (branch_offset_length - 1) true st5 with
      | error e => rw [hcb] at h; cases h
      | ok st6 =>
        rw [hcb] at h
        dsimp only at h
        obtain ⟨z, hz, _, r6, l6, _⟩ := copy_branch_bytes_run pfx hn opcode_p
          (branch_offset_length - 1) true _ st5 st6 r5.2.1 hpfx (by omega) hcb
        obtain ⟨b, _, hd7, r7⟩ := copy_byte_run pfx r6.2.1 hn (by omega) h
        have l7 : st1.dst.length = st6.dst.length + 1 := by rw [hd7]; simp
        refine ⟨_, k, st4.dst.length - st.dst.length, nbyte, branch_offset_length,
          branch_offset_length - z, copy_run_trans r5 (copy_run_trans r6 r7), by omega,
          by omega, by omega, by omega, hnb, by omega, hlen.2⟩
    · rw [if_neg hbr] at h
      cases h
      exact ⟨_, k, st4.dst.length - st.dst.length, nbyte, 0, 0, r5, by omega, by omega,
        by omega, by omega, hnb, le_refl _, by omega⟩

theorem copy_opcode_run {t : cbc_tables} {chain : List Nat} {q opcode bol opcode_p1 : Nat}
    {flags : cbc_flags_t} {st st3 : copy_state} (hn : 0 < t.PARSER_CBC_STREAM_PAGE_SIZE)
    (hat : copy_at t chain q st) (hb : stream_read t st.pages chain q = some opcode)
    (hjf : opcode ≠ t.CBC_JUMP_FORWARD)
    (h : copy_opcode t opcode st = .ok (flags, bol, opcode_p1, st3)) :
    ∃ q3, copy_run t chain st.dst.length q st q3 st3 ∧ q < q3
      ∧ st.dst.length ≤ opcode_p1 ∧ opcode_p1 < st3.dst.length
      ∧ branch_marked t (stream_read t st.pages chain) q = flags.has_branch_arg
      ∧ ((opcode ≠ t.CBC_EXT_OPCODE ∧ q3 = q + 1 ∧ opcode_p1 = st.dst.length
            ∧ st3.dst = st.dst ++ [opcode] ∧ flags = t.cbc_flags opcode
            ∧ bol = t.CBC_BRANCH_OFFSET_LENGTH opcode)
        ∨ (opcode = t.CBC_EXT_OPCODE ∧ q3 = q + 2 ∧ opcode_p1 = st.dst.length + 1
            ∧ ∃ ext_opcode, stream_read t st.pages chain (q + 1) = some ext_opcode
              ∧ st3.dst = st.dst ++ [opcode, ext_opcode]
              ∧ flags = t.cbc_ext_flags ext_opcode
              ∧ bol = t.CBC_BRANCH_OFFSET_LENGTH ext_opcode)) := by
  unfold copy_opcode at h
  dsimp only at h
  cases hc : copy_byte t st with
  | error e => rw [hc] at h; cases h
  | ok st2 =>
    rw [hc] at h
    dsimp only at h
    obtain ⟨b, hb1, hd, r1⟩ := copy_byte_run st.dst.length hat hn (le_refl _) hc
    have hbo : b = opcode := by rw [hb] at hb1; exact (Option.some.inj hb1).symm
    subst hbo
    have hl2 : st2.dst.length = st.dst.length + 1 := by rw [hd]; simp
    by_cases hext : b = t.CBC_EXT_OPCODE
    · rw [if_pos hext] at h
      cases hr2 : page_read st2.pages st2.page_p st2.offset with
      | error e => rw [hr2] at h; cases h
      | ok ext_opcode =>
        rw [hr2] at h
        dsimp only at h
        cases hc2 : copy_byte t st2 with
        | error e => rw [hc2] at h; cases h
        | ok st4 =>
          rw [hc2] at h
          dsimp only at h
          cases h
          obtain ⟨b2, hb21, hd2, r2⟩ := copy_byte_run st.dst.length r1.2.1 hn (by omega) hc2
          have hpp2 : st2.page_p = (cursor t chain (q + 1)).1 :=
            congrArg Prod.fst r1.2.1.2.2
          have hoo2 : st2.offset = (cursor t chain (q + 1)).2 :=
            congrArg Prod.snd r1.2.1.2.2
          rw [hpp2, hoo2] at hr2
          have hb2 := (page_read_ok_iff t st2.pages chain (q + 1) ext_opcode).mp hr2
          have hbe : b2 = ext_opcode := by
            rw [hb2] at hb21; exact (Option.some.inj hb21).symm
          subst hbe
          rw [r1.2.2.2.2.2.1 (q + 1) (Or.inr (le_refl _))] at hb2
          refine ⟨q + 1 + 1, copy_run_trans r1 r2, by omega, by omega,
            by rw [hd2]; simp; omega, ?_, Or.inr ⟨hext, rfl, rfl, b2, hb2, ?_, rfl, rfl⟩⟩
          · unfold branch_marked
            rw [hb]
            dsimp only
            rw [if_neg hjf, if_pos hext, hb2]
          · rw [hd2, hd]
            simp
    · rw [if_neg hext] at h
      cases h
      refine ⟨q + 1, r1, by omega, le_refl _, by omega, ?_,
        Or.inl ⟨hext, rfl, rfl, hd, rfl, rfl⟩⟩
      unfold branch_marked
      rw [hb]
      dsimp only
      rw [if_neg hjf, if_neg hext]

theorem copy_instruction_run {t : cbc_tables} {chain : List Nat} {limit q : Nat}
    {st st1 : copy_state} (hn : 0 < t.PARSER_CBC_STREAM_PAGE_SIZE)
    (hat : copy_at t chain q st) (h : copy_instruction t limit st = .ok st1) :
    ∃ q1, instr_run t chain (branch_marked t (stream_read t st.pages chain) q) q st q1 st1
      ∧ ((stream_read t st.pages chain q = some t.CBC_JUMP_FORWARD ∧ st1.dst = st.dst
            ∧ q1 = q + if t.PARSER_MAXIMUM_CODE_SIZE ≤ 65535 then 3 else 4)
        ∨ ∃ nop nlit elit nbyte w ebr, q1 = q + nop + 2 * nlit + nbyte + w
            ∧ st1.dst.length = st.dst.length + nop + elit + nbyte + ebr
            ∧ 1 ≤ nop ∧ nop ≤ 2 ∧ nlit ≤ elit ∧ elit ≤ 2 * nlit ∧ nbyte ≤ 1
            ∧ ebr ≤ w ∧ w ≤ 3) := by
  have hpp : st.page_p = (cursor t chain q).1 := congrArg Prod.fst hat.2.2
  have hoo : st.offset = (cursor t chain q).2 := congrArg Prod.snd hat.2.2
  unfold copy_instruction at h
  dsimp only at h
  cases hr : page_read st.pages st.page_p st.offset with
  | error e => rw [hr] at h; cases h
  | ok opcode =>
    rw [hr] at h
    dsimp only at h
    have hb : stream_read t st.pages chain q = some opcode := by
      rw [hpp, hoo] at hr
      exact (page_read_ok_iff t st.pages chain q opcode).mp hr
    by_cases hjf : opcode = t.CBC_JUMP_FORWARD
    · rw [if_pos hjf] at h
      have hm : branch_marked t (stream_read t st.pages chain) q = false := by
        unfold branch_marked
        rw [hb]
        simp [hjf]
      rw [hm]
      obtain ⟨r1, hd1⟩ := skip_bytes_run st.dst.length hn _ q st st1 hat h
      refine ⟨_, instr_run_unmarked r1 ?_, Or.inl ⟨by rw [hb, hjf], hd1, rfl⟩⟩
      split_ifs <;> omega
    · rw [if_neg hjf] at h
      cases hc : copy_opcode t opcode st with
      | error e => rw [hc] at h; cases h
      | ok r =>
        obtain ⟨flags, bol, opcode_p1, st3⟩ := r
        rw [hc] at h
        dsimp only at h
        obtain ⟨q3, r3, hq3, ho1, ho2, hmk, hhdr⟩ := copy_opcode_run hn hat hb hjf hc
        have hsz : ∃ nop, q3 = q + nop ∧ st3.dst.length = st.dst.length + nop ∧ 1 ≤ nop
            ∧ nop ≤ 2 := by
          rcases hhdr with ⟨_, e1, _, e2, _⟩ | ⟨_, e1, _, _, _, e2, _⟩
          · exact ⟨1, e1, by rw [e2]; simp, le_refl _, by omega⟩
          · exact ⟨2, e1, by rw [e2]; simp, by omega, le_refl _⟩
        obtain ⟨nop, hs1, hs2, hs3, hs4⟩ := hsz
        rw [hmk]
        by_cases hbr : flags.has_branch_arg = true
        · rw [if_pos hbr] at h
          rw [hpp, hoo] at h
          cases hsm : set_branch_mark st3.pages (cursor t chain q).1 (cursor t chain q).2 with
          | error e => rw [hsm] at h; cases h
          | ok pages1 =>
            rw [hsm] at h
            dsimp only at h
            split_ifs at h
            obtain ⟨m1, m2, _, _⟩ := set_branch_mark_spec r3.2.1.1 hn hsm
            have hat3 : copy_at t chain q3 { st3 with pages := pages1 } :=
              ⟨m1, m2 0 r3.2.1.2.1, r3.2.1.2.2⟩
            obtain ⟨q1, nlit, elit, nbyte, w, ebr, r4, s1, s2, s3, s4, s5, s6, s7⟩ :=
              copy_arguments_run st.dst.length hn hat3 ho1 ho2 h
            dsimp only at s2
            rw [hbr]
            exact ⟨q1, instr_run_marked hn r3 hq3 hsm r4,
              Or.inr ⟨nop, nlit, elit, nbyte, w, ebr, by omega, by omega, hs3, hs4, s3, s4,
                s5, s6, s7⟩⟩
        · rw [if_neg hbr] at h
          dsimp only at h
          split_ifs at h
          obtain ⟨q1, nlit, elit, nbyte, w, ebr, r4, s1, s2, s3, s4, s5, s6, s7⟩ :=
            copy_arguments_run st.dst.length hn r3.2.1 ho1 ho2 h
          have hbf : flags.has_branch_arg = false := by
            cases hx : flags.has_branch_arg
            · rfl
            · exact absurd hx hbr
          rw [hbf]
          exact ⟨q1, instr_run_unmarked (copy_run_trans r3 r4) (by
            have := r4.1; omega),
            Or.inr ⟨nop, nlit, elit, nbyte, w, ebr, by omega, by omega, hs3, hs4, s3, s4,
              s5, s6, s7⟩⟩

/-! ## The first pass counts no more bytes than it consumes -/

theorem next_byte_cursor_le {t : cbc_tables} {pages : List parser_mem_page_t}
    {chain : List Nat} (hp : pages_ok t pages chain) (hl : linked pages chain 0) {q : Nat}
    (hn : 0 < t.PARSER_CBC_STREAM_PAGE_SIZE)
    (hq : q / t.PARSER_CBC_STREAM_PAGE_SIZE ≤ chain.length) {r : Option Nat × Nat}
    (h : PARSER_NEXT_BYTE t pages (cursor t chain q).1 (cursor t chain q).2 = .ok r) :
    r = cursor t chain (q + 1) ∧ (q + 1) / t.PARSER_CBC_STREAM_PAGE_SIZE ≤ chain.length := by
  have hsd := succ_div_mod t.PARSER_CBC_STREAM_PAGE_SIZE q hn
  by_cases hlt : q % t.PARSER_CBC_STREAM_PAGE_SIZE + 1 < t.PARSER_CBC_STREAM_PAGE_SIZE
  · obtain ⟨hd, hm⟩ := hsd.1 hlt
    unfold PARSER_NEXT_BYTE cursor at h
    dsimp only at h
    rw [if_neg (by omega)] at h
    cases h
    refine ⟨?_, by rw [hd]; exact hq⟩
    unfold cursor
    rw [hd, hm]
  · obtain ⟨hd, hm⟩ := hsd.2 hlt
    have hq2 : q / t.PARSER_CBC_STREAM_PAGE_SIZE < chain.length := by
      by_contra hge
      have hnone : chain[q / t.PARSER_CBC_STREAM_PAGE_SIZE]? = none :=
        List.getElem?_eq_none (by omega)
      unfold PARSER_NEXT_BYTE cursor page_get at h
      dsimp only at h
      rw [if_pos (by omega), hnone] at h
      cases h
    have := next_byte_cursor hp hl hn (lt_mul_of_div_lt' hn hq2)
    rw [this] at h
    cases h
    exact ⟨rfl, by rw [hd]; omega⟩

theorem first_at_next {t : cbc_tables} {chain : List Nat} {q : Nat} {st : first_pass_state}
    (hn : 0 < t.PARSER_CBC_STREAM_PAGE_SIZE) (hat : first_at t chain q st)
    {r : Option Nat × Nat}
    (h : PARSER_NEXT_BYTE t st.pages st.page_p st.offset = .ok r) :
    r = cursor t chain (q + 1) ∧ (q + 1) / t.PARSER_CBC_STREAM_PAGE_SIZE ≤ chain.length := by
  obtain ⟨hp, hl, hc, hq⟩ := hat
  have hpp : st.page_p = (cursor t chain q).1 := congrArg Prod.fst hc
  have hoo : st.offset = (cursor t chain q).2 := congrArg Prod.snd hc
  rw [hpp, hoo] at h
  exact next_byte_cursor_le hp hl hn hq h

theorem first_run_trans {t : cbc_tables} {chain : List Nat} {q q1 q2 : Nat}
    {st st1 st2 : first_pass_state} (h1 : first_run t chain q st q1 st1)
    (h2 : first_run t chain q1 st1 q2 st2) : first_run t chain q st q2 st2 := by
  obtain ⟨a1, _, a3⟩ := h1
  obtain ⟨b1, b2, b3⟩ := h2
  exact ⟨by omega, b2, by omega⟩

theorem first_run_refl {t : cbc_tables} {chain : List Nat} {q : Nat}
    {st : first_pass_state} (hat : first_at t chain q st) : first_run t chain q st q st :=
  ⟨le_refl _, hat, le_refl _⟩

theorem first_pass_literal_run {lim : parser_limits} {t : cbc_tables}
    {pool : List lexer_literal_t} {literal_count limit : Nat} {chain : List Nat} {q : Nat}
    {st st1 : first_pass_state} (hn : 0 < t.PARSER_CBC_STREAM_PAGE_SIZE)
    (hat : first_at t chain q st)
    (h : first_pass_literal lim t pool literal_count limit st = .ok st1) :
    first_run t chain q st (q + 2) st1 ∧ st1.last_opcode = st.last_opcode := by
  have hpp : st.page_p = (cursor t chain q).1 := congrArg Prod.fst hat.2.2.1
  have hoo : st.offset = (cursor t chain q).2 := congrArg Prod.snd hat.2.2.1
  unfold first_pass_literal at h
  cases h1 : page_read st.pages st.page_p st.offset with
  | error e => rw [h1] at h; cases h
  | ok first =>
    rw [h1] at h
    dsimp only at h
    cases h2 : PARSER_NEXT_BYTE t st.pages st.page_p st.offset with
    | error e => rw [h2] at h; cases h
    | ok r =>
      obtain ⟨page1, offset1⟩ := r
      rw [h2] at h
      dsimp only at h
      obtain ⟨hc1, hq1⟩ := first_at_next hn hat h2
      have hp1 : page1 = (cursor t chain (q + 1)).1 := congrArg Prod.fst hc1
      have ho1 : offset1 = (cursor t chain (q + 1)).2 := congrArg Prod.snd hc1
      cases h3 : page_read st.pages page1 offset1 with
      | error e => rw [h3] at h; cases h
      | ok second =>
        rw [h3] at h
        dsimp only at h
        cases h4 : PARSER_GET_LITERAL pool (first ||| second <<< 8) with
        | error e => rw [h4] at h; cases h
        | ok literal0 =>
          rw [h4] at h
          dsimp only at h
          split at h
          · cases h
          · rename_i literal _
            split at h
            · cases h
            · rename_i pages2 length2 hw0
              have key : pages_ok t pages2 chain ∧ linked pages2 chain 0
                  ∧ length2 ≤ st.length + 2 := by
                split_ifs at hw0
                · cases hw : page_write st.pages st.page_p st.offset (u8 literal.index) with
                  | error e => rw [hw] at hw0; cases hw0
                  | ok pages1 =>
                    rw [hw] at hw0
                    cases hw0
                    rw [hpp, hoo] at hw
                    obtain ⟨_, a1, a2, _, _⟩ := page_write_cursor hat.1 hn hw
                    exact ⟨a1, a2 0 hat.2.1, by omega⟩
                · cases hw : page_write st.pages st.page_p st.offset
                      CBC_MAXIMUM_BYTE_VALUE with
                  | error e => rw [hw] at hw0; cases hw0
                  | ok pages1 =>
                    rw [hw] at hw0
                    dsimp only at hw0
                    rw [hpp, hoo] at hw
                    obtain ⟨_, a1, a2, _, _⟩ := page_write_cursor hat.1 hn hw
                    cases hw2 : page_write pages1 page1 offset1
                        (u8 (literal.index - CBC_MAXIMUM_BYTE_VALUE)) with
                    | error e => rw [hw2] at hw0; cases hw0
                    | ok pages3 =>
                      rw [hw2] at hw0
                      cases hw0
                      rw [hp1, ho1] at hw2
                      obtain ⟨_, b1, b2, _, _⟩ := page_write_cursor a1 hn hw2
                      exact ⟨b1, b2 0 (a2 0 hat.2.1), by omega⟩
                · cases hw : page_write st.pages st.page_p st.offset
                      (u8 (u8 (literal.index >>> 8) ||| CBC_HIGHEST_BIT_MASK)) with
                  | error e => rw [hw] at hw0; cases hw0
                  | ok pages1 =>
                    rw [hw] at hw0
                    dsimp only at hw0
                    rw [hpp, hoo] at hw
                    obtain ⟨_, a1, a2, _, _⟩ := page_write_cursor hat.1 hn hw
                    cases hw2 : page_write pages1 page1 offset1
                        (u8 (literal.index &&& 0xff)) with
                    | error e => rw [hw2] at hw0; cases hw0
                    | ok pages3 =>
                      rw [hw2] at hw0
                      cases hw0
                      rw [hp1, ho1] at hw2
                      obtain ⟨_, b1, b2, _, _⟩ := page_write_cursor a1 hn hw2
                      exact ⟨b1, b2 0 (a2 0 hat.2.1), by omega⟩
              obtain ⟨hp2, hl2, hlen⟩ := key
              cases h5 : PARSER_NEXT_BYTE t pages2 page1 offset1 with
              | error e => rw [h5] at h; cases h
              | ok r2 =>
                obtain ⟨page2, offset2⟩ := r2
                rw [h5] at h
                dsimp only at h
                cases h
                rw [hp1, ho1] at h5
                obtain ⟨hc2, hq2⟩ := next_byte_cursor_le hp2 hl2 hn hq1 h5
                exact ⟨⟨by omega, ⟨hp2, hl2, hc2, hq2⟩, by dsimp only; omega⟩, rfl⟩

theorem first_pass_literals_run {lim : parser_limits} {t : cbc_tables}
    {pool : List lexer_literal_t} {literal_count limit : Nat} {chain : List Nat}
    (hn : 0 < t.PARSER_CBC_STREAM_PAGE_SIZE) (fuel : Nat) :
    ∀ (flags flags1 : cbc_flags_t) (q : Nat) (st st1 : first_pass_state),
      first_at t chain q st →
      first_pass_literals lim t pool literal_count limit fuel flags st = .ok (flags1, st1) →
      ∃ q1, first_run t chain q st q1 st1 ∧ st1.last_opcode = st.last_opcode := by
  induction fuel with
  | zero =>
    intro flags flags1 q st st1 hat h
    unfold first_pass_literals at h
    split_ifs at h
    cases h
    exact ⟨q, first_run_refl hat, rfl⟩
  | succ fuel ih =>
    intro flags flags1 q st st1 hat h
    unfold first_pass_literals at h
    split_ifs at h
    · cases hl : first_pass_literal lim t pool literal_count limit st with
      | error e => rw [hl] at h; cases h
      | ok st2 =>
        rw [hl] at h
        dsimp only at h
        obtain ⟨r1, ho1⟩ := first_pass_literal_run hn hat hl
        cases hnf : next_literal_flags flags with
        | none =>
          rw [hnf] at h
          dsimp only at h
          cases h
          exact ⟨_, r1, ho1⟩
        | some flags2 =>
          rw [hnf] at h
          dsimp only at h
          obtain ⟨q1, r2, ho2⟩ := ih flags2 flags1 (q + 2) st2 st1 r1.2.1 h
          exact ⟨q1, first_run_trans r1 r2, by rw [ho2, ho1]⟩
    · cases h
      exact ⟨q, first_run_refl hat, rfl⟩

theorem first_pass_branch_bytes_run {t : cbc_tables} {chain : List Nat} {flags : cbc_flags_t}
    (hn : 0 < t.PARSER_CBC_STREAM_PAGE_SIZE) (count : Nat) :
    ∀ (prefix_zero prefix_zero1 : Bool) (q : Nat) (st st1 : first_pass_state),
      first_at t chain q st →
      first_pass_branch_bytes t flags count prefix_zero st = .ok (prefix_zero1, st1) →
      first_run t chain q st (q + count) st1 ∧ st1.last_opcode = st.last_opcode
        ∧ st1.pages = st.pages ∧ st.length ≤ st1.length := by
  induction count with
  | zero =>
    intro prefix_zero prefix_zero1 q st st1 hat h
    unfold first_pass_branch_bytes at h
    cases h
    exact ⟨first_run_refl hat, rfl, rfl, le_refl _⟩
  | succ count ih =>
    intro prefix_zero prefix_zero1 q st st1 hat h
    unfold first_pass_branch_bytes at h
    cases hr : page_read st.pages st.page_p st.offset with
    | error e => rw [hr] at h; cases h
    | ok byte =>
      rw [hr] at h
      dsimp only at h
      split at h
      · cases h
      · rename_i pz1 length1 hc
        have hlen : st.length ≤ length1 ∧ length1 ≤ st.length + 1 := by
          split_ifs at hc <;> cases hc <;> omega
        cases hnx : PARSER_NEXT_BYTE t st.pages st.page_p st.offset with
        | error e => rw [hnx] at h; cases h
        | ok r =>
          obtain ⟨page1, offset1⟩ := r
          rw [hnx] at h
          dsimp only at h
          obtain ⟨hc1, hq1⟩ := first_at_next hn hat hnx
          have hat2 : first_at t chain (q + 1)
              { st with page_p := page1, offset := offset1, length := length1 } :=
            ⟨hat.1, hat.2.1, hc1, hq1⟩
          obtain ⟨r2, ho2, hp2, hl2⟩ := ih pz1 prefix_zero1 (q + 1) _ st1 hat2 h
          dsimp only at ho2 hp2 hl2
          obtain ⟨b1, b2, b3⟩ := r2
          dsimp only at b3
          exact ⟨⟨by omega, by
            have e : q + 1 + count = q + (count + 1) := by omega
            rw [e] at b2
            exact b2, by omega⟩, ho2, hp2, by omega⟩

theorem first_pass_branch_run {t : cbc_tables} {chain : List Nat} {flags : cbc_flags_t}
    {branch_offset_length q0 q : Nat} {st st1 : first_pass_state}
    (hn : 0 < t.PARSER_CBC_STREAM_PAGE_SIZE) (hat : first_at t chain q st)
    (h : first_pass_branch t flags branch_offset_length (cursor t chain q0).1
      (cursor t chain q0).2 st = .ok st1) :
    ∃ q1, q < q1 ∧ first_run t chain q st q1 st1 ∧ st1.last_opcode = st.last_opcode := by
  unfold first_pass_branch at h
  split_ifs at h with hb
  cases hbb : first_pass_branch_bytes t flags (branch_offset_length - 1) true st with
  | error e => rw [hbb] at h; cases h
  | ok r =>
    obtain ⟨prefix_zero, st2⟩ := r
    rw [hbb] at h
    dsimp only at h
    obtain ⟨r1, ho1, hp1, hl1⟩ := first_pass_branch_bytes_run hn _ true prefix_zero q st st2
      hat hbb
    split at h
    · cases h
    · rename_i pages2 length2 hc
      have key : pages_ok t pages2 chain ∧ linked pages2 chain 0
          ∧ length2 ≤ st2.length + 1 := by
        split_ifs at hc
        · cases hr : page_read st2.pages st2.page_p st2.offset with
          | error e => rw [hr] at hc; cases hc
          | ok last =>
            rw [hr] at hc
            dsimp only at hc
            split_ifs at hc
            · cases hw : page_write st2.pages (cursor t chain q0).1 (cursor t chain q0).2
                  t.CBC_JUMP_FORWARD with
              | error e => rw [hw] at hc; cases hc
              | ok pages3 =>
                rw [hw] at hc
                cases hc
                obtain ⟨_, a1, a2, _, _⟩ := page_write_cursor r1.2.1.1 hn hw
                exact ⟨a1, a2 0 r1.2.1.2.1, by omega⟩
            · cases hc
              exact ⟨r1.2.1.1, r1.2.1.2.1, le_refl _⟩
        · cases hc
          exact ⟨r1.2.1.1, r1.2.1.2.1, le_refl _⟩
      obtain ⟨hp2, hl2, hlen2⟩ := key
      cases hnx : PARSER_NEXT_BYTE t pages2 st2.page_p st2.offset with
      | error e => rw [hnx] at h; cases h
      | ok r2 =>
        obtain ⟨page2, offset2⟩ := r2
        rw [hnx] at h
        dsimp only at h
        cases h
        have hpp : st2.page_p = (cursor t chain (q + (branch_offset_length - 1))).1 :=
          congrArg Prod.fst r1.2.1.2.2.1
        have hoo : st2.offset = (cursor t chain (q + (branch_offset_length - 1))).2 :=
          congrArg Prod.snd r1.2.1.2.2.1
        rw [hpp, hoo] at hnx
        obtain ⟨hc2, hq2⟩ := next_byte_cursor_le hp2 hl2 hn r1.2.1.2.2.2 hnx
        have := r1.2.2
        exact ⟨q + (branch_offset_length - 1) + 1, by omega,
          ⟨by omega, ⟨hp2, hl2, hc2, hq2⟩, by dsimp only; omega⟩, ho1⟩

theorem first_pass_instruction_run {lim : parser_limits} {t : cbc_tables}
    {pool : List lexer_literal_t} {literal_count limit : Nat} {chain : List Nat} {q : Nat}
    {st st1 : first_pass_state} (hn : 0 < t.PARSER_CBC_STREAM_PAGE_SIZE)
    (hat : first_at t chain q st)
    (h : first_pass_instruction lim t pool literal_count limit st = .ok st1) :
    ∃ q1, q < q1 ∧ first_run t chain q st q1 st1 := by
  have hpp : st.page_p = (cursor t chain q).1 := congrArg Prod.fst hat.2.2.1
  have hoo : st.offset = (cursor t chain q).2 := congrArg Prod.snd hat.2.2.1
  unfold first_pass_instruction at h
  dsimp only at h
  cases hr : page_read st.pages st.page_p st.offset with
  | error e => rw [hr] at h; cases h
  | ok last_opcode =>
    rw [hr] at h
    dsimp only at h
    cases hnx : PARSER_NEXT_BYTE t st.pages st.page_p st.offset with
    | error e => rw [hnx] at h; cases h
    | ok r =>
      obtain ⟨page1, offset1⟩ := r
      rw [hnx] at h
      dsimp only at h
      obtain ⟨hc1, hq1⟩ := first_at_next hn hat hnx
      split at h
      · cases h
      · rename_i branch_offset_length flags st2 hhdr
        have key : ∃ q2, q < q2 ∧ first_run t chain q st q2 st2 := by
          split_ifs at hhdr
          · cases hr2 : page_read st.pages page1 offset1 with
            | error e => rw [hr2] at hhdr; cases hhdr
            | ok ext_opcode =>
              rw [hr2] at hhdr
              dsimp only at hhdr
              cases hnx2 : PARSER_NEXT_BYTE t st.pages page1 offset1 with
              | error e => rw [hnx2] at hhdr; cases hhdr
              | ok r2 =>
                obtain ⟨page2, offset2⟩ := r2
                rw [hnx2] at hhdr
                dsimp only at hhdr
                cases hhdr
                have hp1 : page1 = (cursor t chain (q + 1)).1 := congrArg Prod.fst hc1
                have ho1 : offset1 = (cursor t chain (q + 1)).2 := congrArg Prod.snd hc1
                rw [hp1, ho1] at hnx2
                obtain ⟨hc2, hq2⟩ := next_byte_cursor_le hat.1 hat.2.1 hn hq1 hnx2
                exact ⟨q + 1 + 1, by omega, by omega, ⟨hat.1, hat.2.1, hc2, hq2⟩, by
                  dsimp only; omega⟩
          · cases hhdr
            exact ⟨q + 1, by omega, by omega, ⟨hat.1, hat.2.1, hc1, hq1⟩, by
              dsimp only; omega⟩
        obtain ⟨q2, hq2, r2⟩ := key
        cases hl : first_pass_literals lim t pool literal_count limit 3 flags st2 with
        | error e => rw [hl] at h; cases h
        | ok rl =>
          obtain ⟨flags1, st3⟩ := rl
          rw [hl] at h
          dsimp only at h
          obtain ⟨q3, r3, _⟩ := first_pass_literals_run hn 3 flags flags1 q2 st2 st3 r2.2.1 hl
          split at h
          · cases h
          · rename_i st4 hbyte
            have key2 : ∃ q4, first_run t chain q3 st3 q4 st4 := by
              split_ifs at hbyte
              · cases hnx3 : PARSER_NEXT_BYTE t st3.pages st3.page_p st3.offset with
                | error e => rw [hnx3] at hbyte; cases hbyte
                | ok r4 =>
                  obtain ⟨page3, offset3⟩ := r4
                  rw [hnx3] at hbyte
                  dsimp only at hbyte
                  cases hbyte
                  obtain ⟨hc3, hq3⟩ := first_at_next hn r3.2.1 hnx3
                  exact ⟨q3 + 1, by omega, ⟨r3.2.1.1, r3.2.1.2.1, hc3, hq3⟩, by
                    dsimp only; omega⟩
              · cases hbyte
                exact ⟨q3, first_run_refl r3.2.1⟩
            obtain ⟨q4, r4⟩ := key2
            have r24 := first_run_trans r2 (first_run_trans r3 r4)
            split_ifs at h
            · rw [hpp, hoo] at h
              obtain ⟨q5, _, r5, _⟩ := first_pass_branch_run hn r4.2.1 h
              exact ⟨q5, by have := r3.1; have := r4.1; have := r5.1; omega,
                first_run_trans r24 r5⟩
            · cases h
              exact ⟨q4, by have := r3.1; have := r4.1; omega, r24⟩

theorem first_pass_loop_run {lim : parser_limits} {t : cbc_tables}
    {pool : List lexer_literal_t} {literal_count limit : Nat} {chain : List Nat}
    {last : Option Nat × Nat} (hn : 0 < t.PARSER_CBC_STREAM_PAGE_SIZE) (fuel : Nat) :
    ∀ (q : Nat) (st st1 : first_pass_state), first_at t chain q st →
      first_pass_loop lim t pool literal_count limit last fuel st = .ok st1 →
      ∃ q1, first_run t chain q st q1 st1
        ∧ ¬ (st1.page_p ≠ last.1 ∨ st1.offset < last.2) := by
  induction fuel with
  | zero =>
    intro q st st1 hat h
    unfold first_pass_loop at h
    split_ifs at h with hc
    cases h
    exact ⟨q, first_run_refl hat, hc⟩
  | succ fuel ih =>
    intro q st st1 hat h
    unfold first_pass_loop at h
    split_ifs at h with hc
    · cases hi : first_pass_instruction lim t pool literal_count limit st with
      | error e => rw [hi] at h; cases h
      | ok st2 =>
        rw [hi] at h
        dsimp only at h
        obtain ⟨q2, _, r2⟩ := first_pass_instruction_run hn hat hi
        obtain ⟨q1, r1, hend⟩ := ih q2 st2 st1 r2.2.1 h
        exact ⟨q1, first_run_trans r2 r1, hend⟩
    · cases h
      exact ⟨q, first_run_refl hat, hc⟩

theorem end_position {t : cbc_tables} {byte_code : parser_mem_data_t} {chain : List Nat}
    (hs : stream_ok t byte_code chain) {q : Nat}
    (hq : q / t.PARSER_CBC_STREAM_PAGE_SIZE ≤ chain.length)
    (hc : cursor t chain q = stream_end t byte_code) :
    q = stream_size t byte_code chain := by
  obtain ⟨hn, hp, _, _, hlast, hle, hempty⟩ := hs
  have hdm := Nat.div_add_mod q t.PARSER_CBC_STREAM_PAGE_SIZE
  unfold stream_end at hc
  unfold stream_size
  unfold cursor at hc
  split_ifs at hc with hge
  · have h1 : chain[q / t.PARSER_CBC_STREAM_PAGE_SIZE]? = none := congrArg Prod.fst hc
    have h2 : q % t.PARSER_CBC_STREAM_PAGE_SIZE = 0 := congrArg Prod.snd hc
    have h3 : chain.length ≤ q / t.PARSER_CBC_STREAM_PAGE_SIZE :=
      List.getElem?_eq_none_iff.mp h1
    have h4 : q / t.PARSER_CBC_STREAM_PAGE_SIZE = chain.length := by omega
    rw [h4, h2, Nat.mul_comm] at hdm
    omega
  · have h1 : chain[q / t.PARSER_CBC_STREAM_PAGE_SIZE]? = byte_code.last_p :=
      congrArg Prod.fst hc
    have h2 : q % t.PARSER_CBC_STREAM_PAGE_SIZE = byte_code.last_position :=
      congrArg Prod.snd hc
    have hne : chain ≠ [] := by
      intro e
      have := hempty e
      omega
    have hlen : 0 < chain.length := List.length_pos.mpr hne
    rw [hlast, List.getLast?_eq_getElem?] at h1
    have h4 : chain.length - 1 = q / t.PARSER_CBC_STREAM_PAGE_SIZE :=
      List.getElem?_inj (by omega) hp.1 h1.symm
    rw [← h4, h2, Nat.mul_comm] at hdm
    have h5 : (chain.length - 1 + 1) * t.PARSER_CBC_STREAM_PAGE_SIZE
        = chain.length * t.PARSER_CBC_STREAM_PAGE_SIZE := by
      congr 1
      omega
    rw [Nat.add_mul] at h5
    omega

theorem encode_target_length (length : Nat) :
    ∀ (bytes_p target_distance : Nat) (code code1 : List Nat),
      encode_target length bytes_p target_distance code = .ok code1 →
      code1.length = code.length := by
  induction length with
  | zero =>
    intro bytes_p target_distance code code1 h
    unfold encode_target at h
    cases h
    rfl
  | succ length ih =>
    intro bytes_p target_distance code code1 h
    unfold encode_target at h
    split_ifs at h
    rw [ih _ _ _ _ h]
    simp

theorem update_branch_length {t : cbc_tables} {base : Nat} {st : update_state}
    {code1 : List Nat} (h : update_branch t base st = .ok code1) :
    code1.length = st.code.length := by
  unfold update_branch at h
  split at h
  · cases h
  · dsimp only at h
    split at h
    · cases h
    · split at h
      · cases h
      · split at h
        · split at h
          · cases h
          · split at h
            · cases h
            · split at h
              · cases h
              · exact encode_target_length _ _ _ _ _ h
        · cases h

theorem update_step_length {t : cbc_tables} {base : Nat} {st st1 : update_state}
    (h : update_step t base st = .ok st1) : st1.code.length = st.code.length := by
  unfold update_step at h
  split at h
  · cases h
  · split at h
    · cases h
    · rename_i code1 hc
      have hl : code1.length = st.code.length := by
        split_ifs at hc
        · exact update_branch_length hc
        · cases hc; rfl
      split_ifs at h
      · split at h
        · cases h
        · split at h
          · cases h
          · dsimp only at h
            split at h
            · cases h
            · cases h
              exact hl
      · cases h
        exact hl

theorem update_loop_length {t : cbc_tables} {base : Nat} {last : Option Nat × Nat}
    (fuel : Nat) :
    ∀ (st st1 : update_state), update_loop t base last fuel st = .ok st1 →
      st1.code.length = st.code.length := by
  induction fuel with
  | zero =>
    intro st st1 h
    unfold update_loop at h
    split_ifs at h
    cases h
    rfl
  | succ fuel ih =>
    intro st st1 h
    unfold update_loop at h
    split_ifs at h
    · cases hs : update_step t base st with
      | error e => rw [hs] at h; cases h
      | ok st2 =>
        rw [hs] at h
        dsimp only at h
        rw [ih st2 st1 h, update_step_length hs]
    · cases h
      rfl

theorem parse_update_branches_length {t : cbc_tables} {byte_code byte_code1 : parser_mem_data_t}
    {code code1 : List Nat} {base : Nat}
    (h : parse_update_branches t byte_code code base = .ok (byte_code1, code1)) :
    code1.length = code.length := by
  unfold parse_update_branches at h
  dsimp only at h
  cases hl : update_loop t base (stream_end t byte_code) (stream_fuel byte_code)
      { pages := byte_code.pages, page_p := byte_code.first_p, prev_page_p := none,
        offset := 0, bytes_copied := 0, code := code } with
  | error e => rw [hl] at h; cases h
  | ok st =>
    rw [hl] at h
    dsimp only at h
    have := update_loop_length _ _ _ hl
    dsimp only at this
    split at h
    · split_ifs at h
      split at h
      · cases h
      · cases h
        exact this
    · cases h
      exact this

/-! ## The length computed by `parser_post_processing` -/

theorem parser_copy_identifiers_byte_code {context context1 : parser_context_t}
    (h : parser_copy_identifiers context = .ok context1) :
    context1.byte_code = context.byte_code := by
  unfold parser_copy_identifiers at h
  split at h
  · cases h; rfl
  · split at h
    · cases h; rfl
    · split at h
      · cases h; rfl
      · split at h
        · cases h
        · cases h; rfl

theorem parser_compute_indicies_byte_code {lim : parser_limits} {context : parser_context_t}
    {r : compute_indicies_result} (h : parser_compute_indicies lim context = .ok r) :
    r.context.byte_code = context.byte_code := by
  unfold parser_compute_indicies at h
  dsimp only at h
  split at h
  · cases h
  · split at h
    · cases h
    · split at h
      · cases h; rfl
      · cases h

theorem post_processing_first_pass_run {lim : parser_limits} {t : cbc_tables}
    {context : parser_context_t} {chain : List Nat} {r : compute_indicies_result}
    {first : first_pass_state} (hs : stream_ok t context.byte_code chain)
    (h : post_processing_first_pass lim t context = .ok (r, first)) :
    r.context.byte_code = context.byte_code
      ∧ ∃ q1, first_at t chain q1 first ∧ first.length ≤ r.length + q1 := by
  unfold post_processing_first_pass at h
  split at h
  · cases h
  · split at h
    · cases h
    · split at h
      · cases h
      · rename_i context1 h1
        split at h
        · cases h
        · rename_i r1 h2
          dsimp only at h
          split at h
          · cases h
          · rename_i first1 h3
            cases h
            have hbc : r.context.byte_code = context.byte_code := by
              rw [parser_compute_indicies_byte_code h2, parser_copy_identifiers_byte_code h1]
            refine ⟨hbc, ?_⟩
            rw [hbc] at h3
            obtain ⟨hn, hp, hl, hfp, _, _, _⟩ := hs
            have hat : first_at t chain 0
                { pages := context.byte_code.pages, page_p := context.byte_code.first_p,
                  offset := 0, length := r.length, last_opcode := t.CBC_EXT_OPCODE } := by
              refine ⟨hp, hl, ?_, by simp⟩
              unfold cursor
              rw [hfp]
              simp [List.head?_eq_getElem?]
            obtain ⟨q1, r1, _⟩ := first_pass_loop_run hn _ 0 _ first hat h3
            exact ⟨q1, r1.2.1, by have := r1.2.2; dsimp only at this; omega⟩

theorem post_processing_copy_pass_length {t : cbc_tables} {context5 context6 : parser_context_t}
    {r : compute_indicies_result} {first : first_pass_state} {length limit : Nat}
    {literal_table literal_table1 : List literal_value_t} {copied : copy_state}
    {dst1 : List Nat}
    (h : post_processing_copy_pass t context5 r first length limit literal_table
      = .ok (context6, copied, dst1, literal_table1)) :
    dst1.length = length := by
  unfold post_processing_copy_pass at h
  split at h
  · cases h
  · rename_i c6 d0 lt1 _
    split at h
    · split at h
      · cases h
      · rename_i cp _
        dsimp only at h
        by_cases hlen : (if (!c6.status_flags.no_end_label) = true then
            cp.dst ++ [t.CBC_RETURN_WITH_BLOCK] else cp.dst).length = length
        · rw [if_pos hlen] at h
          cases h
          exact hlen
        · rw [if_neg hlen] at h
          cases h
    · cases h

theorem post_processing_end_label_length (t : cbc_tables) (context : parser_context_t)
    (first : first_pass_state) :
    (post_processing_end_label t context first).1 ≤ first.length + 1 := by
  unfold post_processing_end_label
  split_ifs
  · exact le_refl _
  · exact Nat.le_succ _

theorem post_processing_code_length {lim : parser_limits} {t : cbc_tables}
    {context context1 : parser_context_t} {r : compute_indicies_result}
    {first : first_pass_state} {cc : cbc_compiled_code_t}
    (hfirst : post_processing_first_pass lim t context = .ok (r, first))
    (h : parser_post_processing lim t context = .ok (cc, context1)) :
    cc.byte_code.length ≤ first.length + 1 := by
  unfold parser_post_processing at h
  rw [hfirst] at h
  dsimp only at h
  split at h
  · cases h
  · split at h
    · cases h
    · rename_i hcopy
      split at h
      · cases h
      · rename_i hupd
        split at h
        · cases h
        · cases h
          dsimp only
          rw [parse_update_branches_length hupd, post_processing_copy_pass_length hcopy]
          exact post_processing_end_label_length t r.context first

/-- C9 (amended): when the first pass stops exactly at the end of the stream, as it does for
a stream made of whole instructions, the length of the final byte code is at most the length
of the initializers plus the number of bytes the stream holds plus one (the appended
`CBC_RETURN_WITH_BLOCK`). -/
theorem C9_final_length_bound (lim : parser_limits) (t : cbc_tables)
    (context context1 : parser_context_t) (chain : List Nat) (r : compute_indicies_result)
    (first : first_pass_state) (cc : cbc_compiled_code_t)
    (hs : stream_ok t context.byte_code chain)
    (hfirst : post_processing_first_pass lim t context = .ok (r, first))
    (hwhole : (first.page_p, first.offset) = stream_end t context.byte_code)
    (h : parser_post_processing lim t context = .ok (cc, context1)) :
    cc.byte_code.length ≤ r.length + stream_size t context.byte_code chain + 1 := by
  have h1 := post_processing_code_length hfirst h
  obtain ⟨_, q1, hat, hlen⟩ := post_processing_first_pass_run hs hfirst
  have hq : q1 = stream_size t context.byte_code chain :=
    end_position hs hat.2.2.2 (by rw [← hat.2.2.1]; exact hwhole)
  omega

theorem C9_final_length_bound_witness :
    ([4, 13] : List Nat).length ≤ 0 + stream_size example_tables pop_example.byte_code [0] + 1 :=
  C9_final_length_bound example_limits example_tables pop_example
    { status_flags := { is_function := true }
      byte_code := { pages := [ { bytes := [1, 0, 0, 0, 0, 0, 0, 0] } ], first_p := some 0,
                     last_p := some 0, last_position := 1 } }
    [0]
    { context := pop_example, ident_end := 0, uninitialized_var_end := 0,
      initialized_var_end := 0, const_literal_end := 0, length := 0 }
    { pages := [ { bytes := [4, 0, 0, 0, 0, 0, 0, 0] } ], page_p := some 0, offset := 1,
      length := 1, last_opcode := 4 }
    { status_flags := { function := true, lexical_env_not_needed := true }
      stack_limit := 0, argument_end := 0, register_end := 0, ident_end := 0,
      const_literal_end := 0, literal_end := 0, literal_table := [], byte_code := [4, 13],
      argument_names := none, total_size := 10 }
    (by decide) rfl rfl rfl

/-- C9 (counterexample): for the stream that holds the single byte `4` the final byte code
`4, CBC_RETURN_WITH_BLOCK` is longer than the stream. -/
theorem C9_final_length_can_exceed_stream :
    ∃ cc context1, parser_post_processing example_limits example_tables pop_example
        = .ok (cc, context1)
      ∧ stream_ok example_tables pop_example.byte_code [0]
      ∧ stream_size example_tables pop_example.byte_code [0] < cc.byte_code.length :=
  ⟨{ status_flags := { function := true, lexical_env_not_needed := true }
     stack_limit := 0, argument_end := 0, register_end := 0, ident_end := 0,
     const_literal_end := 0, literal_end := 0, literal_table := [], byte_code := [4, 13],
     argument_names := none, total_size := 10 },
   { status_flags := { is_function := true }
     byte_code := { pages := [ { bytes := [1, 0, 0, 0, 0, 0, 0, 0] } ], first_p := some 0,
                    last_p := some 0, last_position := 1 } },
   rfl, by decide, by decide⟩

/-! ## Big-endian distances -/

theorem big_endian_congr {read1 read2 : Nat → Option Nat} (w : Nat) :
    ∀ (p1 p2 acc : Nat), (∀ i, i < w → read1 (p1 + i) = read2 (p2 + i)) →
      big_endian read1 w p1 acc = big_endian read2 w p2 acc := by
  induction w with
  | zero => intro p1 p2 acc _; rfl
  | succ w ih =>
    intro p1 p2 acc h
    unfold big_endian
    have h0 := h 0 (by omega)
    simp only [Nat.add_zero] at h0
    rw [h0]
    cases read2 p2 with
    | none => rfl
    | some b =>
      dsimp only
      apply ih
      intro i hi
      have := h (i + 1) (by omega)
      rw [show p1 + 1 + i = p1 + (i + 1) by omega, show p2 + 1 + i = p2 + (i + 1) by omega]
      exact this

theorem big_endian_zeros {read : Nat → Option Nat} (z : Nat) :
    ∀ (w p : Nat), (∀ i, i < z → read (p + i) = some 0) →
      big_endian read (z + w) p 0 = big_endian read w (p + z) 0 := by
  induction z with
  | zero => intro w p _; simp
  | succ z ih =>
    intro w p h
    have h0 := h 0 (by omega)
    simp only [Nat.add_zero] at h0
    have e : (0 <<< 8 ||| 0 : Nat) = 0 := by decide
    have step : big_endian read (z + w + 1) p 0 = big_endian read (z + w) (p + 1) 0 := by
      conv_lhs => unfold big_endian
      rw [h0]
      dsimp only
      rw [e]
    rw [show z + 1 + w = (z + w) + 1 by omega, step, ih w (p + 1) (fun i hi => by
      rw [show p + 1 + i = p + (i + 1) by omega]; exact h (i + 1) (by omega))]
    rw [show p + 1 + z = p + (z + 1) by omega]

theorem big_endian_lt {read : Nat → Option Nat} (hb : ∀ p b, read p = some b → b < 256)
    (w : Nat) :
    ∀ (p acc d : Nat), big_endian read w p acc = some d → d < (acc + 1) * 256 ^ w := by
  induction w with
  | zero =>
    intro p acc d h
    unfold big_endian at h
    cases h
    simp
  | succ w ih =>
    intro p acc d h
    unfold big_endian at h
    cases hr : read p with
    | none => rw [hr] at h; cases h
    | some b =>
      rw [hr] at h
      dsimp only at h
      have hlt := hb p b hr
      have := ih _ _ _ h
      rw [shl8_or acc b hlt] at this
      calc d < (acc * 256 + b + 1) * 256 ^ w := this
        _ ≤ ((acc + 1) * 256) * 256 ^ w := Nat.mul_le_mul_right _ (by omega)
        _ = (acc + 1) * 256 ^ (w + 1) := by rw [Nat.pow_succ]; ring

theorem decode_target_eq (code : List Nat) (w : Nat) :
    ∀ (p acc : Nat), (decode_target code w p acc).toOption
      = big_endian (fun n => code[n]?) w p acc := by
  induction w with
  | zero => intro p acc; rfl
  | succ w ih =>
    intro p acc
    unfold decode_target big_endian code_read
    cases code[p]? with
    | none => rfl
    | some b =>
      dsimp only
      exact ih _ _

theorem example_tables_ok : tables_ok example_tables := by
  refine ⟨?_, ?_, by decide⟩
  · intro opcode _ h
    simp only [example_tables] at h ⊢
    split_ifs at h with h1 h2 h3 h4 h5 h6 <;> simp at h
    · rcases h1 with h1 | h1 | h1 | h1 | h1 | h1 <;> subst h1 <;> decide
    · rcases h2 with h2 | h2 | h2 <;> subst h2 <;> decide
  · intro opcode _ h
    simp only [example_tables] at h ⊢
    split_ifs at h with h1 h2 h3 <;> simp at h
    · rcases h1 with h1 | h1 | h1 <;> subst h1 <;> decide
    · rcases h2 with h2 | h2 | h2 <;> subst h2 <;> decide

/-! ## What the copy pass emits for a branch instruction -/

theorem stream_byte_lt {t : cbc_tables} {pages : List parser_mem_page_t} {chain : List Nat}
    (h : stream_bytes_ok pages chain) {r b : Nat}
    (hr : stream_read t pages chain r = some b) : b < 256 := by
  unfold stream_read at hr
  cases hp : page_at pages chain (r / t.PARSER_CBC_STREAM_PAGE_SIZE) with
  | none => rw [hp] at hr; cases hr
  | some page =>
    rw [hp] at hr
    have hi : r / t.PARSER_CBC_STREAM_PAGE_SIZE < chain.length := by
      by_contra hge
      rw [page_at_none (by omega)] at hp
      cases hp
    have := h _ hi
    rw [hp] at this
    simp only [Option.map_some', Option.some.injEq, List.all_eq_true,
      decide_eq_true_eq] at this
    exact this b (List.getElem?_mem hr)

theorem big_endian_some (read : Nat → Option Nat) (w : Nat) :
    ∀ (p acc : Nat), (∀ i, i < w → ∃ b, read (p + i) = some b) →
      ∃ d, big_endian read w p acc = some d := by
  induction w with
  | zero => intro p acc _; exact ⟨acc, rfl⟩
  | succ w ih =>
    intro p acc h
    obtain ⟨b, hb⟩ := h 0 (by omega)
    simp only [Nat.add_zero] at hb
    unfold big_endian
    rw [hb]
    dsimp only
    apply ih
    intro i hi
    rw [show p + 1 + i = p + (i + 1) by omega]
    exact h (i + 1) (by omega)

theorem decrement_iterate (t : cbc_tables) (fl : Nat → cbc_flags_t)
    (htab : ∀ opcode, opcode < 256 → (fl opcode).has_branch_arg = true →
      2 ≤ t.CBC_BRANCH_OFFSET_LENGTH opcode →
        1 ≤ opcode ∧ fl (opcode - 1) = fl opcode
          ∧ t.CBC_BRANCH_OFFSET_LENGTH (opcode - 1) = t.CBC_BRANCH_OFFSET_LENGTH opcode - 1)
    (z : Nat) :
    ∀ opcode, opcode < 256 → (fl opcode).has_branch_arg = true →
      z + 1 ≤ t.CBC_BRANCH_OFFSET_LENGTH opcode →
      (fun x => u8 (x + 255))^[z] opcode = opcode - z ∧ fl (opcode - z) = fl opcode
        ∧ t.CBC_BRANCH_OFFSET_LENGTH (opcode - z) = t.CBC_BRANCH_OFFSET_LENGTH opcode - z
        ∧ z ≤ opcode := by
  induction z with
  | zero => intro opcode _ _ _; simp
  | succ z ih =>
    intro opcode hlt hbr hlen
    obtain ⟨h1, h2, h3⟩ := htab opcode hlt hbr (by omega)
    have hdec : u8 (opcode + 255) = opcode - 1 := by
      unfold u8
      omega
    obtain ⟨a1, a2, a3, a4⟩ := ih (opcode - 1) (by omega) (by rw [h2]; exact hbr)
      (by rw [h3]; omega)
    rw [Function.iterate_succ_apply, hdec, a1]
    rw [show opcode - (z + 1) = opcode - 1 - z by omega, a2, a3, h2, h3]
    exact ⟨rfl, rfl, by omega, by omega⟩

theorem copy_literals_none {t : cbc_tables} {limit : Nat} (fuel : Nat) (flags : cbc_flags_t)
    (st : copy_state) (h1 : flags.has_literal_arg = false)
    (h2 : flags.has_literal_arg2 = false) :
    copy_literals t limit fuel flags st = .ok (flags, st) := by
  cases fuel <;> unfold copy_literals <;> simp [h1, h2]

theorem copy_branch_bytes_leading {t : cbc_tables} {chain : List Nat}
    (hn : 0 < t.PARSER_CBC_STREAM_PAGE_SIZE) (opcode_p : Nat) (count : Nat) :
    ∀ (q : Nat) (st st1 : copy_state), copy_at t chain q st → opcode_p < st.dst.length →
      copy_branch_bytes t opcode_p count true st = .ok st1 →
      st.dst.length < st1.dst.length →
      ∃ b, st1.dst[st.dst.length]? = some b ∧ 0 < b := by
  induction count with
  | zero =>
    intro q st st1 hat hop h hl
    unfold copy_branch_bytes at h
    cases h
    exact absurd hl (lt_irrefl _)
  | succ count ih =>
    intro q st st1 hat hop h hl
    unfold copy_branch_bytes at h
    cases hr : page_read st.pages st.page_p st.offset with
    | error e => rw [hr] at h; cases h
    | ok b =>
      rw [hr] at h
      dsimp only at h
      by_cases hcond : b > 0 ∨ true = false
      · rw [if_pos hcond] at h
        have hb0 : 0 < b := by
          rcases hcond with hc | hc
          · exact hc
          · cases hc
        cases hs : PARSER_NEXT_BYTE_UPDATE t
            { st with dst := st.dst ++ [b], real_offset := u8 (st.real_offset + 1) } with
        | error e => rw [hs] at h; cases h
        | ok st2 =>
          rw [hs] at h
          dsimp only at h
          obtain ⟨r1, hd, _⟩ := byte_step_run 0 hat hn (st.dst ++ [b])
            (u8 (st.real_offset + 1)) 1 (le_refl _) (by simp)
            (fun x hx => absurd hx (by omega))
            (fun hps hle => u8_succ_of_le hle (Nat.mod_lt _ hn) hps) hs
          have hl2 : st2.dst.length = st.dst.length + 1 := by rw [hd]; simp
          obtain ⟨z, _, _, _, _, _, _, hfr, _⟩ := copy_branch_bytes_run 0 hn opcode_p count
            false (q + 1) st2 st1 r1.2.1 (Nat.zero_le _) (by omega) h
          refine ⟨b, ?_, hb0⟩
          rw [hfr _ (by omega) (by omega), hd]
          simp
      · rw [if_neg hcond] at h
        cases hdec : decrement_opcode st.dst opcode_p with
        | error e => rw [hdec] at h; cases h
        | ok dst1 =>
          rw [hdec] at h
          dsimp only at h
          cases hs : PARSER_NEXT_BYTE_UPDATE t { st with dst := dst1 } with
          | error e => rw [hs] at h; cases h
          | ok st2 =>
            rw [hs] at h
            dsimp only at h
            unfold decrement_opcode at hdec
            rw [List.getElem?_eq_getElem hop] at hdec
            dsimp only at hdec
            cases hdec
            obtain ⟨r1, hd, _⟩ := byte_step_run 0 hat hn
              (st.dst.set opcode_p (u8 (st.dst[opcode_p] + 255))) st.real_offset 0
              (by omega) (by simp) (fun x hx => absurd hx (by omega))
              (fun _ _ => rfl) hs
            have hl2 : st2.dst.length = st.dst.length := by rw [hd]; simp
            have := ih (q + 1) st2 st1 r1.2.1 (by omega) h (by omega)
            rw [hl2] at this
            exact this

theorem copy_arguments_branch {t : cbc_tables} {chain : List Nat} (pfx : Nat)
    {limit branch_offset_length opcode_p q : Nat} {flags : cbc_flags_t}
    {st st1 : copy_state} (hn : 0 < t.PARSER_CBC_STREAM_PAGE_SIZE)
    (hat : copy_at t chain q st) (hpfx : pfx ≤ opcode_p) (hop : opcode_p < st.dst.length)
    (hf1 : flags.has_literal_arg = false) (hf2 : flags.has_literal_arg2 = false)
    (hf3 : flags.has_byte_arg = false) (hf4 : flags.has_branch_arg = true)
    (h : copy_arguments t limit flags branch_offset_length opcode_p st = .ok st1) :
    ∃ z, z + 1 ≤ branch_offset_length ∧ branch_offset_length ≤ 3
      ∧ st1.dst.length = st.dst.length + (branch_offset_length - z)
      ∧ (∀ i, i < z → stream_read t st.pages chain (q + i) = some 0)
      ∧ (∀ i, i < branch_offset_length - z →
          st1.dst[st.dst.length + i]? = stream_read t st.pages chain (q + z + i))
      ∧ (∀ x, x < st.dst.length → x ≠ opcode_p → st1.dst[x]? = st.dst[x]?)
      ∧ st1.dst[opcode_p]? = (st.dst[opcode_p]?).map (fun x => u8 (x + 255))^[z]
      ∧ (z + 1 < branch_offset_length → nonzero_at st1.dst st.dst.length) := by
  unfold copy_arguments at h
  rw [copy_literals_none 3 flags st hf1 hf2] at h
  dsimp only at h
  rw [hf3, hf4] at h
  simp only [Bool.false_eq_true, if_false, if_true] at h
  split_ifs at h with hlen
  cases hcb : copy_branch_bytes t opcode_p (branch_offset_length - 1) true st with
  | error e => rw [hcb] at h; cases h
  | ok st6 =>
    rw [hcb] at h
    dsimp only at h
    obtain ⟨z, hz, _, r6, l6, hzero, hrd, hfr, hopc⟩ := copy_branch_bytes_run pfx hn opcode_p
      (branch_offset_length - 1) true q st st6 hat hpfx hop hcb
    obtain ⟨b, hb, hd7, r7⟩ := copy_byte_run pfx r6.2.1 hn (by omega) h
    have hb2 : stream_read t st.pages chain (q + (branch_offset_length - 1)) = some b := by
      rw [← r6.2.2.2.2.2.1 _ (Or.inr (le_refl _))]
      exact hb
    refine ⟨z, by omega, hlen.2, by rw [hd7]; simp; omega, hzero, ?_, ?_, ?_, ?_⟩
    · intro i hi
      by_cases hlast : i < branch_offset_length - 1 - z
      · rw [hd7, List.getElem?_append_left (by omega)]
        exact hrd i hlast
      · have hi2 : i = branch_offset_length - 1 - z := by omega
        rw [hd7, show st.dst.length + i = st6.dst.length by omega]
        simp only [List.getElem?_concat_length]
        rw [← hb2]
        congr 1
        omega
    · intro x hx hxo
      rw [hd7, List.getElem?_append_left (by omega)]
      exact hfr x hx hxo
    · rw [hd7, List.getElem?_append_left (by omega)]
      exact hopc
    · intro hz1
      obtain ⟨b, hb1, hb0⟩ := copy_branch_bytes_leading hn opcode_p (branch_offset_length - 1)
        q st st6 hat hop hcb (by omega)
      exact ⟨b, by rw [hd7, List.getElem?_append_left (by omega)]; exact hb1, hb0⟩
theorem getElem?_append_pair_left (l : List Nat) (a b : Nat) :
    (l ++ [a, b])[l.length]? = some a := by
  rw [List.getElem?_append_right (le_refl _)]
  simp

theorem getElem?_append_pair_right (l : List Nat) (a b : Nat) :
    (l ++ [a, b])[l.length + 1]? = some b := by
  rw [List.getElem?_append_right (by omega)]
  simp

theorem copy_instruction_branch_bound {t : cbc_tables} {chain : List Nat} {limit q : Nat}
    {st st1 : copy_state} (hn : 0 < t.PARSER_CBC_STREAM_PAGE_SIZE) (htab : tables_ok t)
    (hbytes : ∀ r b, q ≤ r → stream_read t st.pages chain r = some b → b < 256)
    (hat : copy_at t chain q st) (h : copy_instruction t limit st = .ok st1)
    (hm : branch_marked t (stream_read t st.pages chain) q = true) :
    ∃ hdr w fwd d, code_branch t st1.dst st.dst.length hdr w fwd
      ∧ st1.dst.length = st.dst.length + hdr + w
      ∧ decode_branch t (stream_read t st.pages chain) q = some (fwd, d)
      ∧ big_endian (fun n => st1.dst[n]?) w (st.dst.length + hdr) 0 = some d
      ∧ (1 < w → nonzero_at st1.dst (st.dst.length + hdr))
      ∧ d < 256 ^ w := by
  have hpp : st.page_p = (cursor t chain q).1 := congrArg Prod.fst hat.2.2
  have hoo : st.offset = (cursor t chain q).2 := congrArg Prod.snd hat.2.2
  unfold copy_instruction at h
  dsimp only at h
  cases hr : page_read st.pages st.page_p st.offset with
  | error e => rw [hr] at h; cases h
  | ok opcode =>
    rw [hr] at h
    dsimp only at h
    have hb : stream_read t st.pages chain q = some opcode := by
      rw [hpp, hoo] at hr
      exact (page_read_ok_iff t st.pages chain q opcode).mp hr
    have hjf : opcode ≠ t.CBC_JUMP_FORWARD := by
      intro e
      unfold branch_marked at hm
      rw [hb] at hm
      dsimp only at hm
      rw [if_pos e] at hm
      cases hm
    rw [if_neg hjf] at h
    cases hc : copy_opcode t opcode st with
    | error e => rw [hc] at h; cases h
    | ok r =>
      obtain ⟨flags, bol, opcode_p1, st3⟩ := r
      rw [hc] at h
      dsimp only at h
      obtain ⟨q3, r3, hq3, ho1, ho2, hmk, hhdr⟩ := copy_opcode_run hn hat hb hjf hc
      have hbr : flags.has_branch_arg = true := by rw [← hmk]; exact hm
      rw [if_pos hbr, hpp, hoo] at h
      cases hsm : set_branch_mark st3.pages (cursor t chain q).1 (cursor t chain q).2 with
      | error e => rw [hsm] at h; cases h
      | ok pages1 =>
        rw [hsm] at h
        dsimp only at h
        split_ifs at h
        obtain ⟨m1, m2, _, m4⟩ := set_branch_mark_spec r3.2.1.1 hn hsm
        have hat3 : copy_at t chain q3 { st3 with pages := pages1 } :=
          ⟨m1, m2 0 r3.2.1.2.1, r3.2.1.2.2⟩
        have hread : ∀ r, q3 ≤ r → stream_read t pages1 chain r
            = stream_read t st.pages chain r := by
          intro r hr3
          rw [m4 r (by omega), r3.2.2.2.2.2.1 r (Or.inr hr3)]
        have hlt : opcode < 256 := hbytes q opcode (le_refl _) hb
        rcases hhdr with ⟨hne, e1, e2, e3, e4, e5⟩ | ⟨hext, e1, e2, ext_opcode, hb2, e3, e4, e5⟩
        · -- one opcode byte
          subst e1 e2 e4 e5
          obtain ⟨t1, t2, t3, t4, _⟩ := htab.1 opcode hlt hbr
          obtain ⟨z, hz, hz3, l1, hzero, hrd, hfr, hopc, hlead⟩ := copy_arguments_branch
            st.dst.length hn hat3 (le_refl _) ho2 t1 t2 t3 hbr h
          dsimp only at l1 hzero hrd hfr hopc
          obtain ⟨d1, d2, d3, d4⟩ := decrement_iterate t t.cbc_flags
            (fun op h1 h2 h3 => (htab.1 op h1 h2).2.2.2.2 h3) z opcode hlt hbr hz
          have hl3 : st3.dst.length = st.dst.length + 1 := by rw [e3]; simp
          have hop : st1.dst[st.dst.length]? = some (opcode - z) := by
            rw [hopc, e3]
            simp [d1]
          have hagree : ∀ i, i < t.CBC_BRANCH_OFFSET_LENGTH opcode - z →
              st1.dst[st.dst.length + 1 + i]?
                = stream_read t st.pages chain (q + 1 + z + i) := by
            intro i hi
            rw [← hl3, hrd i hi, hread _ (by omega)]
          obtain ⟨d, hd⟩ := big_endian_some (fun n => st1.dst[n]?)
            (t.CBC_BRANCH_OFFSET_LENGTH opcode - z) (st.dst.length + 1) 0 (by
              intro i hi
              have hlen : st.dst.length + 1 + i < st1.dst.length := by omega
              exact ⟨st1.dst[st.dst.length + 1 + i], List.getElem?_eq_getElem hlen⟩)
          have hdlt : d < 256 ^ (t.CBC_BRANCH_OFFSET_LENGTH opcode - z) := by
            have g1 : big_endian
                (fun r => if q ≤ r then stream_read t st.pages chain r else none)
                (t.CBC_BRANCH_OFFSET_LENGTH opcode - z) (q + 1 + z) 0 = some d := by
              rw [← hd]
              exact (big_endian_congr _ (st.dst.length + 1) (q + 1 + z) 0 (fun i hi => by
                rw [hagree i hi, if_pos (by omega)])).symm
            have g2 := big_endian_lt (fun p b hp => by
              split_ifs at hp with hq
              exact hbytes p b hq hp) _ _ 0 d g1
            simpa using g2
          have hfirst : 1 < t.CBC_BRANCH_OFFSET_LENGTH opcode - z →
              nonzero_at st1.dst (st.dst.length + 1) := by
            intro hw
            rw [← hl3]
            exact hlead (by omega)
          refine ⟨1, t.CBC_BRANCH_OFFSET_LENGTH opcode - z,
            (t.cbc_flags opcode).forward_branch_arg, d, ?_, by omega, ?_, hd, hfirst, hdlt⟩
          · refine ⟨Or.inl ⟨rfl, opcode - z, hop, ?_, by rw [d2]; exact hbr, by rw [d2], d3⟩,
              by omega, by omega, by omega⟩
            exact (htab.1 (opcode - z) (by omega) (by rw [d2]; exact hbr)).2.2.2.1
          · unfold decode_branch
            rw [hb]
            dsimp only
            rw [if_neg hne, if_pos hbr]
            have e : t.CBC_BRANCH_OFFSET_LENGTH opcode
                = z + (t.CBC_BRANCH_OFFSET_LENGTH opcode - z) := by omega
            rw [e, big_endian_zeros z _ _ (fun i hi => by
              rw [← hread _ (by omega)]; exact hzero i hi)]
            rw [← big_endian_congr _ (st.dst.length + 1) (q + 1 + z) 0 hagree, hd]
            rfl
        · -- two opcode bytes
          subst e1 e2 e4 e5
          have hlt2 : ext_opcode < 256 := hbytes (q + 1) ext_opcode (by omega) hb2
          obtain ⟨t1, t2, t3, _⟩ := htab.2.1 ext_opcode hlt2 hbr
          obtain ⟨z, hz, hz3, l1, hzero, hrd, hfr, hopc, hlead⟩ := copy_arguments_branch
            st.dst.length hn hat3 (by omega) ho2 t1 t2 t3 hbr h
          dsimp only at l1 hzero hrd hfr hopc
          obtain ⟨d1, d2, d3, d4⟩ := decrement_iterate t t.cbc_ext_flags
            (fun op h1 h2 h3 => (htab.2.1 op h1 h2).2.2.2 h3) z ext_opcode hlt2 hbr hz
          have hl3 : st3.dst.length = st.dst.length + 2 := by rw [e3]; simp
          have hop0 : st1.dst[st.dst.length]? = some t.CBC_EXT_OPCODE := by
            rw [hfr _ (by omega) (by omega), e3, hext]
            exact getElem?_append_pair_left _ _ _
          have hop : st1.dst[st.dst.length + 1]? = some (ext_opcode - z) := by
            rw [hopc, e3, getElem?_append_pair_right, Option.map_some', d1]
          have hagree : ∀ i, i < t.CBC_BRANCH_OFFSET_LENGTH ext_opcode - z →
              st1.dst[st.dst.length + 2 + i]?
                = stream_read t st.pages chain (q + 2 + z + i) := by
            intro i hi
            rw [← hl3, hrd i hi, hread _ (by omega)]
          obtain ⟨d, hd⟩ := big_endian_some (fun n => st1.dst[n]?)
            (t.CBC_BRANCH_OFFSET_LENGTH ext_opcode - z) (st.dst.length + 2) 0 (by
              intro i hi
              have hlen : st.dst.length + 2 + i < st1.dst.length := by omega
              exact ⟨st1.dst[st.dst.length + 2 + i], List.getElem?_eq_getElem hlen⟩)
          have hdlt : d < 256 ^ (t.CBC_BRANCH_OFFSET_LENGTH ext_opcode - z) := by
            have g1 : big_endian
                (fun r => if q ≤ r then stream_read t st.pages chain r else none)
                (t.CBC_BRANCH_OFFSET_LENGTH ext_opcode - z) (q + 2 + z) 0 = some d := by
              rw [← hd]
              exact (big_endian_congr _ (st.dst.length + 2) (q + 2 + z) 0 (fun i hi => by
                rw [hagree i hi, if_pos (by omega)])).symm
            have g2 := big_endian_lt (fun p b hp => by
              split_ifs at hp with hq
              exact hbytes p b hq hp) _ _ 0 d g1
            simpa using g2
          have hfirst : 1 < t.CBC_BRANCH_OFFSET_LENGTH ext_opcode - z →
              nonzero_at st1.dst (st.dst.length + 2) := by
            intro hw
            rw [← hl3]
            exact hlead (by omega)
          refine ⟨2, t.CBC_BRANCH_OFFSET_LENGTH ext_opcode - z,
            (t.cbc_ext_flags ext_opcode).forward_branch_arg, d, ?_, by omega, ?_, hd, hfirst, hdlt⟩
          · exact ⟨Or.inr ⟨rfl, hop0, ext_opcode - z, hop, by rw [d2]; exact hbr, by rw [d2],
              d3⟩, by omega, by omega, by omega⟩
          · unfold decode_branch
            rw [hb]
            dsimp only
            rw [if_pos hext, hb2]
            dsimp only
            rw [if_pos hbr]
            have e : t.CBC_BRANCH_OFFSET_LENGTH ext_opcode
                = z + (t.CBC_BRANCH_OFFSET_LENGTH ext_opcode - z) := by omega
            rw [e, big_endian_zeros z _ _ (fun i hi => by
              rw [← hread _ (by omega)]; exact hzero i hi)]
            rw [← big_endian_congr _ (st.dst.length + 2) (q + 2 + z) 0 hagree, hd]
            rfl

theorem copy_instruction_branch {t : cbc_tables} {chain : List Nat} {limit q : Nat}
    {st st1 : copy_state} (hn : 0 < t.PARSER_CBC_STREAM_PAGE_SIZE) (htab : tables_ok t)
    (hbytes : ∀ r b, q ≤ r → stream_read t st.pages chain r = some b → b < 256)
    (hat : copy_at t chain q st) (h : copy_instruction t limit st = .ok st1)
    (hm : branch_marked t (stream_read t st.pages chain) q = true) :
    ∃ hdr w fwd d, code_branch t st1.dst st.dst.length hdr w fwd
      ∧ st1.dst.length = st.dst.length + hdr + w
      ∧ decode_branch t (stream_read t st.pages chain) q = some (fwd, d)
      ∧ big_endian (fun n => st1.dst[n]?) w (st.dst.length + hdr) 0 = some d
      ∧ (1 < w → nonzero_at st1.dst (st.dst.length + hdr)) := by
  obtain ⟨hdr, w, fwd, d, h1, h2, h3, h4, h5, _⟩ :=
    copy_instruction_branch_bound hn htab hbytes hat h hm
  exact ⟨hdr, w, fwd, d, h1, h2, h3, h4, h5⟩

/-! ## The copy pass as a sequence of instructions -/

theorem pass_run_refl {t : cbc_tables} {chain : List Nat} {q : Nat} {st : copy_state}
    (hat : copy_at t chain q st) : pass_run t chain q st q st :=
  ⟨le_refl _, hat, le_refl _, le_refl _, fun _ _ => rfl, fun _ _ => rfl, fun _ _ h => h⟩

theorem pass_run_of_instr {t : cbc_tables} {chain : List Nat} {q q1 : Nat} {m : Bool}
    {st st1 : copy_state} (h : instr_run t chain m q st q1 st1) :
    pass_run t chain q st q1 st1 :=
  ⟨le_of_lt h.1, h.2.1, h.2.2.1, h.2.2.2.1, h.2.2.2.2.1, h.2.2.2.2.2.1,
    fun base hps hc => (h.2.2.2.2.2.2 base hps hc).1⟩

theorem pass_run_trans {t : cbc_tables} {chain : List Nat} {q q1 q2 : Nat}
    {st st1 st2 : copy_state} (h1 : pass_run t chain q st q1 st1)
    (h2 : pass_run t chain q1 st1 q2 st2) : pass_run t chain q st q2 st2 := by
  obtain ⟨a1, a2, a3, a4, a5, a6, a7⟩ := h1
  obtain ⟨b1, b2, b3, b4, b5, b6, b7⟩ := h2
  refine ⟨by omega, b2, by omega, by omega, ?_, ?_, ?_⟩
  · intro x hx
    rw [b5 x (by omega), a5 x hx]
  · intro r hr
    rw [b6 r (by omega), a6 r (by omega)]
  · intro base hps hc
    exact b7 base hps (a7 base hps hc)

theorem copy_steps_run {t : cbc_tables} {chain : List Nat} {limit : Nat}
    {last : Option Nat × Nat} (hn : 0 < t.PARSER_CBC_STREAM_PAGE_SIZE) (k : Nat) :
    ∀ (q : Nat) (st sk : copy_state), copy_at t chain q st →
      copy_steps t limit last k st = .ok sk → ∃ qk, pass_run t chain q st qk sk := by
  induction k with
  | zero =>
    intro q st sk hat h
    unfold copy_steps at h
    cases h
    exact ⟨q, pass_run_refl hat⟩
  | succ k ih =>
    intro q st sk hat h
    unfold copy_steps at h
    split_ifs at h
    · cases hi : copy_instruction t limit st with
      | error e => rw [hi] at h; cases h
      | ok st1 =>
        rw [hi] at h
        dsimp only at h
        obtain ⟨q1, r1, _⟩ := copy_instruction_run hn hat hi
        obtain ⟨qk, r2⟩ := ih q1 st1 sk r1.2.1 h
        exact ⟨qk, pass_run_trans (pass_run_of_instr r1) r2⟩
    · cases h
      exact ⟨q, pass_run_refl hat⟩

theorem copy_loop_run {t : cbc_tables} {chain : List Nat} {limit : Nat}
    {last : Option Nat × Nat} (hn : 0 < t.PARSER_CBC_STREAM_PAGE_SIZE) (fuel : Nat) :
    ∀ (q : Nat) (st copied : copy_state), copy_at t chain q st →
      copy_loop t limit last fuel st = .ok copied →
      ∃ qe, pass_run t chain q st qe copied := by
  induction fuel with
  | zero =>
    intro q st copied hat h
    unfold copy_loop at h
    split_ifs at h
    cases h
    exact ⟨q, pass_run_refl hat⟩
  | succ fuel ih =>
    intro q st copied hat h
    unfold copy_loop at h
    split_ifs at h
    · cases hi : copy_instruction t limit st with
      | error e => rw [hi] at h; cases h
      | ok st1 =>
        rw [hi] at h
        dsimp only at h
        obtain ⟨q1, r1, _⟩ := copy_instruction_run hn hat hi
        obtain ⟨qe, r2⟩ := ih q1 st1 copied r1.2.1 h
        exact ⟨qe, pass_run_trans (pass_run_of_instr r1) r2⟩
    · cases h
      exact ⟨q, pass_run_refl hat⟩

theorem copy_loop_of_steps {t : cbc_tables} {limit : Nat} {last : Option Nat × Nat}
    (k : Nat) :
    ∀ (fuel : Nat) (st sk copied : copy_state),
      copy_loop t limit last fuel st = .ok copied →
      copy_steps t limit last k st = .ok sk →
      ∃ fuel1, copy_loop t limit last fuel1 sk = .ok copied := by
  induction k with
  | zero =>
    intro fuel st sk copied h hk
    unfold copy_steps at hk
    cases hk
    exact ⟨fuel, h⟩
  | succ k ih =>
    intro fuel st sk copied h hk
    unfold copy_steps at hk
    split_ifs at hk with hc
    · cases hi : copy_instruction t limit st with
      | error e => rw [hi] at hk; cases hk
      | ok st1 =>
        rw [hi] at hk
        dsimp only at hk
        cases fuel with
        | zero =>
          unfold copy_loop at h
          rw [if_pos hc] at h
          cases h
        | succ fuel =>
          unfold copy_loop at h
          rw [if_pos hc, hi] at h
          dsimp only at h
          exact ih fuel st1 sk copied h hk
    · cases hk
      exact ⟨fuel, h⟩

/-! ## Leading bytes of the branch arguments -/

/-- C11 (amended): for every branch instruction the copy pass emits the distance of the
stream big-endian in the width `w` declared by the emitted opcode (the stream opcode
decreased once per dropped leading zero byte), and when `w` is greater than one the most
significant emitted byte is not zero. (The later update of the distances keeps the width.) -/
theorem C11_copy_pass_branch_no_leading_zero (t : cbc_tables) (chain : List Nat)
    (limit q : Nat) (st st1 : copy_state) (hn : 0 < t.PARSER_CBC_STREAM_PAGE_SIZE)
    (htab : tables_ok t)
    (hbytes : ∀ r b, q ≤ r → stream_read t st.pages chain r = some b → b < 256)
    (hat : copy_at t chain q st) (h : copy_instruction t limit st = .ok st1)
    (hm : branch_marked t (stream_read t st.pages chain) q = true) :
    ∃ hdr w fwd d, code_branch t st1.dst st.dst.length hdr w fwd
      ∧ st1.dst.length = st.dst.length + hdr + w
      ∧ decode_branch t (stream_read t st.pages chain) q = some (fwd, d)
      ∧ big_endian (fun n => st1.dst[n]?) w (st.dst.length + hdr) 0 = some d
      ∧ (1 < w → ∃ b, st1.dst[st.dst.length + hdr]? = some b ∧ 0 < b) := by
  obtain ⟨hdr, w, fwd, d, h1, h2, h3, h4, h5⟩ := copy_instruction_branch hn htab hbytes hat h hm
  exact ⟨hdr, w, fwd, d, h1, h2, h3, h4, h5⟩

theorem C11_copy_pass_branch_no_leading_zero_witness :
    ∃ hdr w fwd d, code_branch example_tables [9, 2, 1, 5] 1 hdr w fwd
      ∧ ([9, 2, 1, 5] : List Nat).length = 1 + hdr + w
      ∧ decode_branch example_tables
          (stream_read example_tables [ { bytes := [3, 0, 1, 5, 4, 0, 0, 0] } ] [0]) 0
          = some (fwd, d)
      ∧ big_endian (fun n => ([9, 2, 1, 5] : List Nat)[n]?) w (1 + hdr) 0 = some d
      ∧ (1 < w → ∃ b, ([9, 2, 1, 5] : List Nat)[1 + hdr]? = some b ∧ 0 < b) :=
  C11_copy_pass_branch_no_leading_zero example_tables [0] 254 0
    { pages := [ { bytes := [3, 0, 1, 5, 4, 0, 0, 0] } ], page_p := some 0, offset := 0,
      real_offset := 0, dst := [9] }
    { pages := [ { bytes := [129, 1, 2, 3, 4, 0, 0, 0] } ], page_p := some 0,
      offset := 4, real_offset := 3, dst := [9, 2, 1, 5] }
    (by decide) example_tables_ok
    (fun _ _ _ hr => stream_byte_lt (by decide) hr)
    (by decide) rfl rfl

set_option maxRecDepth 100000 in
theorem long_jump_example_code :
    (parser_post_processing example_limits example_tables long_jump_example).toOption.map
      (fun r => r.1.byte_code) = some [2, 0, 4, 4, 12, 13] := by
  decide

/-- C11 (counterexample): the jump of `long_jump_example` keeps its two distance bytes in
the copy pass (stream distance 256), the update computes the distance 4 of the final byte
code, and the final branch argument `0, 4` starts with a zero byte. -/
theorem C11_final_branch_can_have_leading_zero :
    ∃ cc context1, parser_post_processing example_limits example_tables long_jump_example
        = .ok (cc, context1)
      ∧ cc.byte_code = [2, 0, 4, 4, 12, 13]
      ∧ code_branch example_tables cc.byte_code 0 1 2 true
      ∧ cc.byte_code[1]? = some 0 := by
  have h := long_jump_example_code
  cases hp : parser_post_processing example_limits example_tables long_jump_example with
  | error e =>
    rw [hp] at h
    cases h
  | ok r =>
    obtain ⟨cc, context1⟩ := r
    rw [hp] at h
    have hcode : cc.byte_code = [2, 0, 4, 4, 12, 13] := Option.some.inj h
    refine ⟨cc, context1, rfl, hcode, ?_, ?_⟩
    · rw [hcode]
      exact ⟨Or.inl ⟨rfl, 2, rfl, by decide, rfl, rfl, rfl⟩, by decide, by decide, by decide⟩
    · rw [hcode]
      rfl
/-! ## Jumps to the next instruction -/

theorem first_pass_branch_bytes_zeros {t : cbc_tables} {chain : List Nat} {flags : cbc_flags_t}
    (hn : 0 < t.PARSER_CBC_STREAM_PAGE_SIZE) (hfw : flags.forward_branch_arg = true)
    (count : Nat) :
    ∀ (prefix_zero1 : Bool) (q : Nat) (st st1 : first_pass_state),
      first_at t chain q st →
      (∀ i, i < count → stream_read t st.pages chain (q + i) = some 0) →
      first_pass_branch_bytes t flags count true st = .ok (prefix_zero1, st1) →
      prefix_zero1 = true ∧ st1.length = st.length := by
  induction count with
  | zero =>
    intro prefix_zero1 q st st1 hat hz h
    unfold first_pass_branch_bytes at h
    cases h
    exact ⟨rfl, rfl⟩
  | succ count ih =>
    intro prefix_zero1 q st st1 hat hz h
    have hpp : st.page_p = (cursor t chain q).1 := congrArg Prod.fst hat.2.2.1
    have hoo : st.offset = (cursor t chain q).2 := congrArg Prod.snd hat.2.2.1
    have h0 : page_read st.pages st.page_p st.offset = .ok 0 := by
      rw [hpp, hoo]
      exact (page_read_ok_iff t st.pages chain q 0).mpr (hz 0 (by omega))
    unfold first_pass_branch_bytes at h
    rw [h0] at h
    dsimp only at h
    rw [if_neg (by simp), if_pos hfw] at h
    dsimp only at h
    cases hnx : PARSER_NEXT_BYTE t st.pages st.page_p st.offset with
    | error e => rw [hnx] at h; cases h
    | ok r =>
      obtain ⟨page1, offset1⟩ := r
      rw [hnx] at h
      dsimp only at h
      obtain ⟨hc1, hq1⟩ := first_at_next hn hat hnx
      have hat2 : first_at t chain (q + 1)
          { st with page_p := page1, offset := offset1, length := st.length } :=
        ⟨hat.1, hat.2.1, hc1, hq1⟩
      exact ih prefix_zero1 (q + 1)
        { st with page_p := page1, offset := offset1, length := st.length } st1 hat2
        (fun i hi => by
        have := hz (i + 1) (by omega)
        rw [show q + 1 + i = q + (i + 1) by omega]
        exact this) h

theorem first_pass_branch_degenerate {t : cbc_tables} {chain : List Nat} {flags : cbc_flags_t}
    {q0 q : Nat} {st st1 : first_pass_state}
    (hn : 0 < t.PARSER_CBC_STREAM_PAGE_SIZE) (hfw : flags.forward_branch_arg = true)
    (hat : first_at t chain q st) (hop : st.last_opcode = t.jump_forward)
    (hzero : ∀ i, i + 1 < t.CBC_BRANCH_OFFSET_LENGTH t.jump_forward →
      stream_read t st.pages chain (q + i) = some 0)
    (hlast : stream_read t st.pages chain
        (q + (t.CBC_BRANCH_OFFSET_LENGTH t.jump_forward - 1))
      = some (t.CBC_BRANCH_OFFSET_LENGTH t.jump_forward + 1))
    (h : first_pass_branch t flags (t.CBC_BRANCH_OFFSET_LENGTH t.jump_forward)
      (cursor t chain q0).1 (cursor t chain q0).2 st = .ok st1) :
    st1.length = st.length - 1
      ∧ first_at t chain (q + t.CBC_BRANCH_OFFSET_LENGTH t.jump_forward) st1
      ∧ stream_read t st1.pages chain q0 = some t.CBC_JUMP_FORWARD
      ∧ (∀ r, r ≠ q0 → stream_read t st1.pages chain r = stream_read t st.pages chain r)
      ∧ st1.last_opcode = st.last_opcode := by
  unfold first_pass_branch at h
  split_ifs at h with hb
  cases hbb : first_pass_branch_bytes t flags
      (t.CBC_BRANCH_OFFSET_LENGTH t.jump_forward - 1) true st with
  | error e => rw [hbb] at h; cases h
  | ok r =>
    obtain ⟨prefix_zero, st2⟩ := r
    rw [hbb] at h
    dsimp only at h
    obtain ⟨r1, ho1, hp1, _⟩ := first_pass_branch_bytes_run hn _ true prefix_zero q st st2
      hat hbb
    obtain ⟨hpz, hlen⟩ := first_pass_branch_bytes_zeros hn hfw _ prefix_zero q st st2 hat
      (fun i hi => hzero i (by omega)) hbb
    have hpp : st2.page_p
        = (cursor t chain (q + (t.CBC_BRANCH_OFFSET_LENGTH t.jump_forward - 1))).1 :=
      congrArg Prod.fst r1.2.1.2.2.1
    have hoo : st2.offset
        = (cursor t chain (q + (t.CBC_BRANCH_OFFSET_LENGTH t.jump_forward - 1))).2 :=
      congrArg Prod.snd r1.2.1.2.2.1
    have hrd : page_read st2.pages st2.page_p st2.offset
        = .ok (t.CBC_BRANCH_OFFSET_LENGTH t.jump_forward + 1) := by
      rw [hpp, hoo, hp1]
      exact (page_read_ok_iff t st.pages chain _ _).mpr hlast
    rw [if_pos ⟨by rw [ho1]; exact hop, hpz⟩, hrd] at h
    dsimp only at h
    rw [if_pos rfl] at h
    cases hw : page_write st2.pages (cursor t chain q0).1 (cursor t chain q0).2
        t.CBC_JUMP_FORWARD with
    | error e => rw [hw] at h; cases h
    | ok pages3 =>
      rw [hw] at h
      dsimp only at h
      obtain ⟨_, a1, a2, a3, a4⟩ := page_write_cursor r1.2.1.1 hn hw
      cases hnx : PARSER_NEXT_BYTE t pages3 st2.page_p st2.offset with
      | error e => rw [hnx] at h; cases h
      | ok r2 =>
        obtain ⟨page2, offset2⟩ := r2
        rw [hnx] at h
        dsimp only at h
        cases h
        rw [hpp, hoo] at hnx
        obtain ⟨hc2, hq2⟩ := next_byte_cursor_le a1 (a2 0 r1.2.1.2.1) hn r1.2.1.2.2.2 hnx
        have e : q + (t.CBC_BRANCH_OFFSET_LENGTH t.jump_forward - 1) + 1
            = q + t.CBC_BRANCH_OFFSET_LENGTH t.jump_forward := by omega
        rw [e] at hc2 hq2
        refine ⟨by dsimp only; omega, ⟨a1, a2 0 r1.2.1.2.1, hc2, hq2⟩, a3, ?_, ho1⟩
        intro r hr
        dsimp only
        rw [a4 r hr, hp1]

theorem first_pass_literals_none {lim : parser_limits} {t : cbc_tables}
    {pool : List lexer_literal_t} {literal_count limit : Nat} (fuel : Nat)
    (flags : cbc_flags_t) (st : first_pass_state) (h1 : flags.has_literal_arg = false)
    (h2 : flags.has_literal_arg2 = false) :
    first_pass_literals lim t pool literal_count limit fuel flags st = .ok (flags, st) := by
  cases fuel <;> simp [first_pass_literals, h1, h2]

theorem first_pass_instruction_degenerate {lim : parser_limits} {t : cbc_tables}
    {pool : List lexer_literal_t} {literal_count limit : Nat} {chain : List Nat} {q : Nat}
    {st st1 : first_pass_state} (hn : 0 < t.PARSER_CBC_STREAM_PAGE_SIZE)
    (hat : first_at t chain q st)
    (hop : stream_read t st.pages chain q = some t.jump_forward)
    (hext : t.jump_forward ≠ t.CBC_EXT_OPCODE)
    (hf1 : (t.cbc_flags t.jump_forward).has_literal_arg = false)
    (hf2 : (t.cbc_flags t.jump_forward).has_literal_arg2 = false)
    (hf3 : (t.cbc_flags t.jump_forward).has_byte_arg = false)
    (hf4 : (t.cbc_flags t.jump_forward).has_branch_arg = true)
    (hf5 : (t.cbc_flags t.jump_forward).forward_branch_arg = true)
    (hzero : ∀ i, 1 ≤ i → i < t.CBC_BRANCH_OFFSET_LENGTH t.jump_forward →
      stream_read t st.pages chain (q + i) = some 0)
    (hlast : stream_read t st.pages chain (q + t.CBC_BRANCH_OFFSET_LENGTH t.jump_forward)
      = some (t.CBC_BRANCH_OFFSET_LENGTH t.jump_forward + 1))
    (h : first_pass_instruction lim t pool literal_count limit st = .ok st1) :
    st1.length = st.length
      ∧ first_at t chain (q + t.CBC_BRANCH_OFFSET_LENGTH t.jump_forward + 1) st1
      ∧ stream_read t st1.pages chain q = some t.CBC_JUMP_FORWARD
      ∧ (∀ r, r ≠ q → stream_read t st1.pages chain r = stream_read t st.pages chain r) := by
  have hpp : st.page_p = (cursor t chain q).1 := congrArg Prod.fst hat.2.2.1
  have hoo : st.offset = (cursor t chain q).2 := congrArg Prod.snd hat.2.2.1
  have hr : page_read st.pages st.page_p st.offset = .ok t.jump_forward := by
    rw [hpp, hoo]
    exact (page_read_ok_iff t st.pages chain q _).mpr hop
  unfold first_pass_instruction at h
  dsimp only at h
  rw [hr] at h
  dsimp only at h
  cases hnx : PARSER_NEXT_BYTE t st.pages st.page_p st.offset with
  | error e => rw [hnx] at h; cases h
  | ok r =>
    obtain ⟨page1, offset1⟩ := r
    rw [hnx] at h
    dsimp only at h
    obtain ⟨hc1, hq1⟩ := first_at_next hn hat hnx
    rw [if_neg hext] at h
    dsimp only at h
    rw [first_pass_literals_none 3 _ _ hf1 hf2] at h
    dsimp only at h
    rw [hf3] at h
    simp only [Bool.false_eq_true, if_false] at h
    rw [if_pos hf4, hpp, hoo] at h
    have hat2 : first_at t chain (q + 1)
        { st with page_p := page1, offset := offset1, length := st.length + 1,
                  last_opcode := t.jump_forward } :=
      ⟨hat.1, hat.2.1, hc1, hq1⟩
    have hw : 0 < t.CBC_BRANCH_OFFSET_LENGTH t.jump_forward := by
      unfold first_pass_branch at h
      split_ifs at h with hb
      exact hb.1
    obtain ⟨b1, b2, b3, b4, _⟩ := first_pass_branch_degenerate hn hf5 hat2 rfl
      (fun i hi => by
        have := hzero (i + 1) (by omega) (by omega)
        rw [show q + 1 + i = q + (i + 1) by omega]
        exact this)
      (by
        rw [show q + 1 + (t.CBC_BRANCH_OFFSET_LENGTH t.jump_forward - 1)
          = q + t.CBC_BRANCH_OFFSET_LENGTH t.jump_forward by omega]
        exact hlast) h
    dsimp only at b1 b4
    refine ⟨by omega, ?_, b3, b4⟩
    rw [show q + t.CBC_BRANCH_OFFSET_LENGTH t.jump_forward + 1
      = q + 1 + t.CBC_BRANCH_OFFSET_LENGTH t.jump_forward by omega]
    exact b2

theorem copy_instruction_deleted {t : cbc_tables} {chain : List Nat} {limit q : Nat}
    {st st1 : copy_state} (hn : 0 < t.PARSER_CBC_STREAM_PAGE_SIZE)
    (hat : copy_at t chain q st)
    (hop : stream_read t st.pages chain q = some t.CBC_JUMP_FORWARD)
    (h : copy_instruction t limit st = .ok st1) :
    st1.dst = st.dst
      ∧ copy_at t chain (q + (if t.PARSER_MAXIMUM_CODE_SIZE ≤ 65535 then 3 else 4)) st1 := by
  have hpp : st.page_p = (cursor t chain q).1 := congrArg Prod.fst hat.2.2
  have hoo : st.offset = (cursor t chain q).2 := congrArg Prod.snd hat.2.2
  have hr : page_read st.pages st.page_p st.offset = .ok t.CBC_JUMP_FORWARD := by
    rw [hpp, hoo]
    exact (page_read_ok_iff t st.pages chain q _).mpr hop
  unfold copy_instruction at h
  dsimp only at h
  rw [hr] at h
  dsimp only at h
  rw [if_pos rfl] at h
  obtain ⟨r1, hd⟩ := skip_bytes_run 0 hn _ q st st1 hat h
  exact ⟨hd, r1.2.1⟩

/-- C12 (amended): an unconditional forward jump of the widest form (`CBC_JUMP_FORWARD_2`, or
`CBC_JUMP_FORWARD_3` for code above 65535 bytes) that in the paged stream targets the
instruction right behind it (leading distance bytes zero, last distance byte the offset
width plus one) is elided: the first pass turns its opcode into the `CBC_JUMP_FORWARD`
marker and counts no byte for it, and the copy pass emits no byte for the marked
instruction and continues behind it. The test is made on the distance in the stream, so a
jump that targets the next instruction only after compaction is kept. -/
theorem C12_stream_degenerate_jump_elided (lim : parser_limits) (t : cbc_tables)
    (pool : List lexer_literal_t) (literal_count limit : Nat) (chain : List Nat) (q : Nat)
    (st st1 : first_pass_state) (hn : 0 < t.PARSER_CBC_STREAM_PAGE_SIZE)
    (hat : first_at t chain q st)
    (hop : stream_read t st.pages chain q = some t.jump_forward)
    (hext : t.jump_forward ≠ t.CBC_EXT_OPCODE)
    (hflags : t.cbc_flags t.jump_forward
      = { has_branch_arg := true, forward_branch_arg := true })
    (hwidth : t.CBC_BRANCH_OFFSET_LENGTH t.jump_forward + 1
      = if t.PARSER_MAXIMUM_CODE_SIZE ≤ 65535 then 3 else 4)
    (hzero : ∀ i, 1 ≤ i → i < t.CBC_BRANCH_OFFSET_LENGTH t.jump_forward →
      stream_read t st.pages chain (q + i) = some 0)
    (hlast : stream_read t st.pages chain (q + t.CBC_BRANCH_OFFSET_LENGTH t.jump_forward)
      = some (t.CBC_BRANCH_OFFSET_LENGTH t.jump_forward + 1))
    (h : first_pass_instruction lim t pool literal_count limit st = .ok st1) :
    st1.length = st.length
      ∧ first_at t chain (q + t.CBC_BRANCH_OFFSET_LENGTH t.jump_forward + 1) st1
      ∧ stream_read t st1.pages chain q = some t.CBC_JUMP_FORWARD
      ∧ ∀ (copy copy1 : copy_state), copy_at t chain q copy →
          stream_read t copy.pages chain q = some t.CBC_JUMP_FORWARD →
          copy_instruction t limit copy = .ok copy1 →
          copy1.dst = copy.dst
            ∧ copy_at t chain (q + t.CBC_BRANCH_OFFSET_LENGTH t.jump_forward + 1) copy1 := by
  obtain ⟨a1, a2, a3, _⟩ := first_pass_instruction_degenerate hn hat hop hext
    (by rw [hflags]) (by rw [hflags]) (by rw [hflags]) (by rw [hflags]) (by rw [hflags])
    hzero hlast h
  refine ⟨a1, a2, a3, ?_⟩
  intro copy copy1 hc hs hi
  obtain ⟨c1, c2⟩ := copy_instruction_deleted hn hc hs hi
  rw [← hwidth] at c2
  exact ⟨c1, c2⟩

theorem C12_stream_degenerate_jump_elided_witness :
    (3 : Nat) = 3
      ∧ first_at example_tables [0]
          (3 + example_tables.CBC_BRANCH_OFFSET_LENGTH example_tables.jump_forward + 1)
          { pages := [ { bytes := [2, 0, 6, 1, 0, 3, 4, 0] } ], page_p := some 0, offset := 6,
            length := 3, last_opcode := 2 }
      ∧ stream_read example_tables [ { bytes := [2, 0, 6, 1, 0, 3, 4, 0] } ] [0] 3
          = some example_tables.CBC_JUMP_FORWARD
      ∧ ∀ (copy copy1 : copy_state), copy_at example_tables [0] 3 copy →
          stream_read example_tables copy.pages [0] 3 = some example_tables.CBC_JUMP_FORWARD →
          copy_instruction example_tables 254 copy = .ok copy1 →
          copy1.dst = copy.dst
            ∧ copy_at example_tables [0]
                (3 + example_tables.CBC_BRANCH_OFFSET_LENGTH example_tables.jump_forward + 1)
                copy1 :=
  C12_stream_degenerate_jump_elided example_limits example_tables [] 0 254 [0] 3
    { pages := [ { bytes := [2, 0, 6, 2, 0, 3, 4, 0] } ], page_p := some 0, offset := 3,
      length := 3, last_opcode := 2 }
    { pages := [ { bytes := [2, 0, 6, 1, 0, 3, 4, 0] } ], page_p := some 0, offset := 6,
      length := 3, last_opcode := 2 }
    (by decide) ⟨by decide, by decide, rfl, by decide⟩ rfl (by decide) rfl rfl
    (fun i h1 h2 => by
      have h3 : i < 2 := h2
      have h4 : i = 1 := by omega
      subst h4
      rfl)
    rfl rfl

/-- C12 (counterexample): in `short_jump_example` the first jump targets the instruction
`4` behind the removed jump; the final byte code `1, 2, 4, 13` starts with the forward jump
`CBC_JUMP_FORWARD` of distance 2, its own length, so it targets the instruction immediately
following it. -/
theorem C12_degenerate_jump_after_compaction :
    ∃ cc context1, parser_post_processing example_limits example_tables short_jump_example
        = .ok (cc, context1)
      ∧ cc.byte_code = [1, 2, 4, 13]
      ∧ code_branch example_tables cc.byte_code 0 1 1 true
      ∧ cc.byte_code[0]? = some example_tables.CBC_JUMP_FORWARD
      ∧ decode_branch example_tables (fun n => cc.byte_code[n]?) 0 = some (true, 1 + 1) := by
  have h : (parser_post_processing example_limits example_tables
      short_jump_example).toOption.map (fun r => r.1.byte_code) = some [1, 2, 4, 13] := by
    decide
  cases hp : parser_post_processing example_limits example_tables short_jump_example with
  | error e =>
    rw [hp] at h
    cases h
  | ok r =>
    obtain ⟨cc, context1⟩ := r
    rw [hp] at h
    have hcode : cc.byte_code = [1, 2, 4, 13] := Option.some.inj h
    refine ⟨cc, context1, rfl, hcode, ?_, ?_, ?_⟩
    · rw [hcode]
      exact ⟨Or.inl ⟨rfl, 1, rfl, by decide, rfl, rfl, rfl⟩, by decide, by decide, by decide⟩
    · rw [hcode]
      rfl
    · rw [hcode]
      rfl
/-! ## The final `CBC_RETURN_WITH_BLOCK` -/

theorem post_processing_end_label_flag (t : cbc_tables) (context : parser_context_t)
    (first : first_pass_state) :
    (post_processing_end_label t context first).2.status_flags.no_end_label
      = (context.status_flags.no_end_label && t.PARSER_OPCODE_IS_RETURN first.last_opcode) := by
  unfold post_processing_end_label
  cases h1 : context.status_flags.no_end_label <;>
    cases h2 : t.PARSER_OPCODE_IS_RETURN first.last_opcode <;> simp [h1]

theorem post_processing_header_flag {lim : parser_limits} {t : cbc_tables}
    {context3 context5 : parser_context_t} {r : compute_indicies_result} {length : Nat}
    {cc : cbc_compiled_code_t}
    (h : post_processing_header lim t context3 r length = .ok (cc, context5)) :
    context5.status_flags.no_end_label = context3.status_flags.no_end_label := by
  unfold post_processing_header at h
  dsimp only at h
  split at h
  · cases h
  · rename_i context4 h4
    have e4 : context4.status_flags = context3.status_flags := by
      split_ifs at h4
      · cases h4; rfl
      · cases h4; rfl
    injection h with h
    have e5 := congrArg Prod.snd h
    dsimp only at e5
    rw [← e5]
    split_ifs
    · dsimp only; rw [e4]
    · rw [e4]

theorem parser_generate_initializers_flag {t : cbc_tables} {context context1 : parser_context_t}
    {dst dst1 : List Nat} {literal_table literal_table1 : List literal_value_t}
    {uninitialized_var_end initialized_var_end limit : Nat}
    (h : parser_generate_initializers t context dst literal_table uninitialized_var_end
      initialized_var_end limit = .ok (context1, dst1, literal_table1)) :
    context1.status_flags.no_end_label = context.status_flags.no_end_label := by
  unfold parser_generate_initializers at h
  dsimp only at h
  split at h
  · cases h
  · rename_i c1 d3 h1
    have e1 : c1.status_flags.no_end_label = context.status_flags.no_end_label := by
      split at h1
      · split at h1
        · cases h1
        · split_ifs at h1
          cases h1
          rfl
      · cases h1
        rfl
    split at h
    · cases h
    · split_ifs at h <;> cases h <;> exact e1

theorem post_processing_copy_pass_code {t : cbc_tables} {context5 context6 : parser_context_t}
    {r : compute_indicies_result} {first : first_pass_state} {length limit : Nat}
    {literal_table literal_table1 : List literal_value_t} {copied : copy_state}
    {dst1 : List Nat}
    (h : post_processing_copy_pass t context5 r first length limit literal_table
      = .ok (context6, copied, dst1, literal_table1)) :
    dst1 = (if context5.status_flags.no_end_label then copied.dst
      else copied.dst ++ [t.CBC_RETURN_WITH_BLOCK]) := by
  unfold post_processing_copy_pass at h
  split at h
  · cases h
  · rename_i c6 d0 lt1 hgen
    have hflag := parser_generate_initializers_flag hgen
    split at h
    · split at h
      · cases h
      · rename_i cp _
        dsimp only at h
        by_cases hlen : (if (!c6.status_flags.no_end_label) = true then
            cp.dst ++ [t.CBC_RETURN_WITH_BLOCK] else cp.dst).length = length
        · rw [if_pos hlen] at h
          cases h
          rw [← hflag]
          cases context6.status_flags.no_end_label <;> simp
        · rw [if_neg hlen] at h
          cases h
    · cases h

/-- C13 (amended): the byte code that `parser_post_processing` hands to
`parse_update_branches` (which keeps its length) is the output of the copy pass, followed by
an appended `CBC_RETURN_WITH_BLOCK` exactly when `PARSER_NO_END_LABEL` is clear in the
context or the last opcode of the stream is not a return opcode; nothing is appended when
the flag is set and the stream ends with a return. -/
theorem C13_return_with_block_appended (lim : parser_limits) (t : cbc_tables)
    (context context1 : parser_context_t) (r : compute_indicies_result)
    (first : first_pass_state) (cc : cbc_compiled_code_t)
    (hfirst : post_processing_first_pass lim t context = .ok (r, first))
    (h : parser_post_processing lim t context = .ok (cc, context1)) :
    ∃ compiled_code context5 context6 copied dst1 literal_table,
      post_processing_header lim t (post_processing_end_label t r.context first).2 r
          (post_processing_end_label t r.context first).1 = .ok (compiled_code, context5)
      ∧ post_processing_copy_pass t context5 r first
          (post_processing_end_label t r.context first).1
          (if r.context.literal_count ≤ lim.CBC_MAXIMUM_SMALL_VALUE then
            CBC_MAXIMUM_BYTE_VALUE - 1 else CBC_LOWER_SEVEN_BIT_MASK)
          compiled_code.literal_table = .ok (context6, copied, dst1, literal_table)
      ∧ parse_update_branches t { context6.byte_code with pages := copied.pages } dst1
          r.length = .ok (context1.byte_code, cc.byte_code)
      ∧ cc.byte_code.length = dst1.length
      ∧ dst1 = (if r.context.status_flags.no_end_label
            && t.PARSER_OPCODE_IS_RETURN first.last_opcode then copied.dst
          else copied.dst ++ [t.CBC_RETURN_WITH_BLOCK]) := by
  unfold parser_post_processing at h
  rw [hfirst] at h
  dsimp only at h
  split at h
  · cases h
  · rename_i compiled_code context5 hhdr
    split at h
    · cases h
    · rename_i context6 copied dst1 literal_table hcopy
      split at h
      · cases h
      · rename_i byte_code code hupd
        split at h
        · cases h
        · cases h
          refine ⟨compiled_code, context5, context6, copied, dst1, literal_table, hhdr, hcopy,
            hupd, parse_update_branches_length hupd, ?_⟩
          rw [post_processing_copy_pass_code hcopy, post_processing_header_flag hhdr,
            post_processing_end_label_flag]

theorem C13_return_with_block_appended_witness :
    ∃ compiled_code context5 context6 copied dst1 literal_table,
      post_processing_header example_limits example_tables
          (post_processing_end_label example_tables return_example_no_end_label
            { pages := [ { bytes := [12, 0, 0, 0, 0, 0, 0, 0] } ], page_p := some 0,
              offset := 1, length := 1, last_opcode := 12 }).2
          { context := return_example_no_end_label, ident_end := 0,
            uninitialized_var_end := 0, initialized_var_end := 0, const_literal_end := 0,
            length := 0 }
          (post_processing_end_label example_tables return_example_no_end_label
            { pages := [ { bytes := [12, 0, 0, 0, 0, 0, 0, 0] } ], page_p := some 0,
              offset := 1, length := 1, last_opcode := 12 }).1
        = .ok (compiled_code, context5)
      ∧ post_processing_copy_pass example_tables context5
          { context := return_example_no_end_label, ident_end := 0,
            uninitialized_var_end := 0, initialized_var_end := 0, const_literal_end := 0,
            length := 0 }
          { pages := [ { bytes := [12, 0, 0, 0, 0, 0, 0, 0] } ], page_p := some 0,
            offset := 1, length := 1, last_opcode := 12 }
          (post_processing_end_label example_tables return_example_no_end_label
            { pages := [ { bytes := [12, 0, 0, 0, 0, 0, 0, 0] } ], page_p := some 0,
              offset := 1, length := 1, last_opcode := 12 }).1
          (if return_example_no_end_label.literal_count
              ≤ example_limits.CBC_MAXIMUM_SMALL_VALUE then
            CBC_MAXIMUM_BYTE_VALUE - 1 else CBC_LOWER_SEVEN_BIT_MASK)
          compiled_code.literal_table = .ok (context6, copied, dst1, literal_table)
      ∧ parse_update_branches example_tables
          { context6.byte_code with pages := copied.pages } dst1 0
          = .ok ({ pages := [ { bytes := [1, 0, 0, 0, 0, 0, 0, 0] } ], first_p := some 0,
                   last_p := some 0, last_position := 1 }, [12])
      ∧ ([12] : List Nat).length = dst1.length
      ∧ dst1 = (if return_example_no_end_label.status_flags.no_end_label
            && example_tables.PARSER_OPCODE_IS_RETURN 12 then copied.dst
          else copied.dst ++ [example_tables.CBC_RETURN_WITH_BLOCK]) :=
  C13_return_with_block_appended example_limits example_tables return_example_no_end_label
    { status_flags := { is_function := true, no_end_label := true }
      byte_code := { pages := [ { bytes := [1, 0, 0, 0, 0, 0, 0, 0] } ], first_p := some 0,
                     last_p := some 0, last_position := 1 } }
    { context := return_example_no_end_label, ident_end := 0, uninitialized_var_end := 0,
      initialized_var_end := 0, const_literal_end := 0, length := 0 }
    { pages := [ { bytes := [12, 0, 0, 0, 0, 0, 0, 0] } ], page_p := some 0, offset := 1,
      length := 1, last_opcode := 12 }
    { status_flags := { function := true, lexical_env_not_needed := true }
      stack_limit := 0, argument_end := 0, register_end := 0, ident_end := 0,
      const_literal_end := 0, literal_end := 0, literal_table := [], byte_code := [12],
      argument_names := none, total_size := 9 }
    rfl rfl

/-- C13 (counterexample): the stream of `return_example` ends with the return opcode `12`,
`PARSER_NO_END_LABEL` is clear, and `CBC_RETURN_WITH_BLOCK` (`13`) is appended all the
same. -/
theorem C13_return_appended_after_return :
    ∃ cc context1, parser_post_processing example_limits example_tables return_example
        = .ok (cc, context1)
      ∧ stream_ok example_tables return_example.byte_code [0]
      ∧ stream_size example_tables return_example.byte_code [0] = 1
      ∧ stream_read example_tables return_example.byte_code.pages [0] 0 = some 12
      ∧ example_tables.PARSER_OPCODE_IS_RETURN 12 = true
      ∧ cc.byte_code = [12, example_tables.CBC_RETURN_WITH_BLOCK] :=
  ⟨{ status_flags := { function := true, lexical_env_not_needed := true }
     stack_limit := 0, argument_end := 0, register_end := 0, ident_end := 0,
     const_literal_end := 0, literal_end := 0, literal_table := [], byte_code := [12, 13],
     argument_names := none, total_size := 10 },
   { status_flags := { is_function := true }
     byte_code := { pages := [ { bytes := [1, 0, 0, 0, 0, 0, 0, 0] } ], first_p := some 0,
                    last_p := some 0, last_position := 1 } },
   rfl, by decide, by decide, by decide, rfl, rfl⟩

/-! ## The first phase of `parser_compute_indicies`, record by record -/

theorem count_literals_split (lim : parser_limits) (pre : List lexer_literal_t) :
    ∀ (st c : count_state) (x : lexer_literal_t) (post l1 : List lexer_literal_t),
    count_literals lim st (pre ++ x :: post) = .ok (l1, c) →
    ∃ pre1 c1 x1 c2 post1, count_literals lim st pre = .ok (pre1, c1)
      ∧ count_literal lim c1 x = .ok (x1, c2)
      ∧ count_literals lim c2 post = .ok (post1, c)
      ∧ l1 = pre1 ++ x1 :: post1 ∧ pre1.length = pre.length := by
  induction pre with
  | nil =>
    intro st c x post l1 h
    rw [List.nil_append, count_literals] at h
    split at h
    · exact absurd h (by simp)
    · rename_i x1 st1 hbody
      split at h
      · exact absurd h (by simp)
      · rename_i rest1 st2 hrec
        simp only [Except.ok.injEq, Prod.mk.injEq] at h
        obtain ⟨rfl, rfl⟩ := h
        exact ⟨[], st, x1, st1, rest1, by rw [count_literals], hbody, hrec, rfl, rfl⟩
  | cons a pre ih =>
    intro st c x post l1 h
    rw [List.cons_append, count_literals] at h
    split at h
    · exact absurd h (by simp)
    · rename_i a1 st1 hbody
      split at h
      · exact absurd h (by simp)
      · rename_i rest1 st2 hrec
        simp only [Except.ok.injEq, Prod.mk.injEq] at h
        obtain ⟨rfl, rfl⟩ := h
        obtain ⟨pre1, c1, x1, c2, post1, e1, e2, e3, e4, e5⟩ := ih _ _ _ _ _ hrec
        refine ⟨a1 :: pre1, c1, x1, c2, post1, ?_, e2, e3, by rw [e4]; rfl, by simp [e5]⟩
        rw [count_literals, hbody]
        dsimp only
        rw [e1]

/-- The first loop leaves the flags of the context alone, apart from setting
`PARSER_LEXICAL_ENV_NEEDED`. -/
theorem count_literal_flags (lim : parser_limits) (st st1 : count_state)
    (x x1 : lexer_literal_t) (h : count_literal lim st x = .ok (x1, st1)) :
    st1.status_flags = st.status_flags
      ∨ st1.status_flags = { st.status_flags with lexical_env_needed := true } := by
  rcases x with ⟨v, len, idx, t, ⟨f1, f2, f3, f4, f5, f6⟩⟩
  unfold count_literal at h
  generalize st.status_flags.no_reg_store = a at h
  generalize (st.status_flags.arguments_needed && !st.status_flags.is_strict) = b at h
  generalize decide (st.register_count < lim.PARSER_MAXIMUM_NUMBER_OF_REGISTERS) = c at h
  cases f5
  · cases t
    · cases f1
      · simp only [Bool.false_eq_true, if_false, Except.ok.injEq, Prod.mk.injEq] at h
        obtain ⟨rfl, rfl⟩ := h
        exact Or.inl rfl
      · cases f2 <;> cases f3 <;> cases f4 <;> cases a <;> cases b <;> cases c <;>
        simp only [lexer_literal_t.set_no_reg_store, Bool.false_eq_true, if_false, if_true,
          Bool.not_false, Bool.not_true, Bool.and_self, Bool.and_true, Bool.and_false,
          Bool.true_and, Bool.false_and] at h <;>
        (try split_ifs at h) <;>
        first
          | (cases h; done)
          | (simp only [Except.ok.injEq, Prod.mk.injEq] at h
             obtain ⟨rfl, rfl⟩ := h
             first
               | exact Or.inl rfl
               | exact Or.inr rfl)
    all_goals
      cases f4 <;>
      simp only [Bool.false_eq_true, if_false, if_true, Bool.not_false, Bool.not_true,
        Except.ok.injEq, Prod.mk.injEq] at h <;>
      obtain ⟨rfl, rfl⟩ := h <;>
      exact Or.inl rfl
  · simp only [if_true, Except.ok.injEq, Prod.mk.injEq] at h
    obtain ⟨rfl, rfl⟩ := h
    exact Or.inl rfl

theorem count_literals_flags (lim : parser_limits) (l : List lexer_literal_t) :
    ∀ (st c : count_state) (l1 : List lexer_literal_t),
    count_literals lim st l = .ok (l1, c) →
    c.status_flags = st.status_flags
      ∨ c.status_flags = { st.status_flags with lexical_env_needed := true } := by
  induction l with
  | nil =>
    intro st c l1 h
    rw [count_literals] at h
    simp only [Except.ok.injEq, Prod.mk.injEq] at h
    obtain ⟨rfl, rfl⟩ := h
    exact Or.inl rfl
  | cons x l ih =>
    intro st c l1 h
    rw [count_literals] at h
    split at h
    · exact absurd h (by simp)
    · rename_i x1 st1 hbody
      split at h
      · exact absurd h (by simp)
      · rename_i rest1 st2 hrec
        simp only [Except.ok.injEq, Prod.mk.injEq] at h
        obtain ⟨rfl, rfl⟩ := h
        rcases count_literal_flags lim st st1 x x1 hbody with e1 | e1 <;>
          rcases ih _ _ _ hrec with e2 | e2 <;> rw [e2, e1]
        · exact Or.inl rfl
        · exact Or.inr rfl
        · exact Or.inr rfl
        · exact Or.inr rfl

/-- What the body of the first loop does to an argument binding: `LEXER_FLAG_NO_REG_STORE`
is set when the context has `PARSER_NO_REG_STORE` or needs the `arguments` object in
non-strict code. -/
theorem count_literal_argument (lim : parser_limits) (st st1 : count_state)
    (x x1 : lexer_literal_t) (h : count_literal lim st x = .ok (x1, st1))
    (ht : x.type = LEXER_IDENT_LITERAL) (hu : x.status_flags.unused_ident = false)
    (hv : x.status_flags.var = true) (hi : x.status_flags.initialized = true)
    (hf : x.status_flags.function_argument = true) :
    x1 = { x with status_flags := { x.status_flags with
            no_reg_store := x.status_flags.no_reg_store || st.status_flags.no_reg_store
              || (st.status_flags.arguments_needed && !st.status_flags.is_strict) } } := by
  rcases x with ⟨v, len, idx, t, ⟨f1, f2, f3, f4, f5, f6⟩⟩
  dsimp only at ht hu hv hi hf
  subst ht hu hv hi hf
  unfold count_literal at h
  generalize st.status_flags.no_reg_store = a at h ⊢
  generalize (st.status_flags.arguments_needed && !st.status_flags.is_strict) = b at h ⊢
  cases f2 <;> cases a <;> cases b <;>
    simp only [lexer_literal_t.set_no_reg_store, Bool.false_eq_true, if_false, if_true,
      Bool.not_false, Bool.not_true, Bool.and_self, Bool.and_true, Bool.and_false,
      Bool.true_and, Bool.false_and] at h <;>
    (try split_ifs at h) <;>
    first
      | (cases h; done)
      | (simp only [Except.ok.injEq, Prod.mk.injEq] at h
         obtain ⟨rfl, rfl⟩ := h
         rfl)

/-- What the body of the first loop does to a local binding that is no argument: it stays
without `LEXER_FLAG_NO_REG_STORE` exactly when it had none, the context has no
`PARSER_NO_REG_STORE` and the register count is below the maximum; otherwise the flag is set
and so is `PARSER_LEXICAL_ENV_NEEDED`. -/
theorem count_literal_local (lim : parser_limits) (st st1 : count_state)
    (x x1 : lexer_literal_t) (h : count_literal lim st x = .ok (x1, st1))
    (ht : x.type = LEXER_IDENT_LITERAL) (hu : x.status_flags.unused_ident = false)
    (hv : x.status_flags.var = true)
    (hna : (x.status_flags.initialized && x.status_flags.function_argument) = false) :
    x1 = { x with status_flags := { x.status_flags with
            no_reg_store := !(!x.status_flags.no_reg_store && !st.status_flags.no_reg_store
              && decide (st.register_count < lim.PARSER_MAXIMUM_NUMBER_OF_REGISTERS)) } }
      ∧ (x1.status_flags.no_reg_store = true → st1.status_flags.lexical_env_needed = true) := by
  rcases x with ⟨v, len, idx, t, ⟨f1, f2, f3, f4, f5, f6⟩⟩
  dsimp only at ht hu hv hna
  subst ht hu hv
  unfold count_literal at h
  generalize st.status_flags.no_reg_store = a at h ⊢
  generalize (st.status_flags.arguments_needed && !st.status_flags.is_strict) = b at h ⊢
  generalize decide (st.register_count < lim.PARSER_MAXIMUM_NUMBER_OF_REGISTERS) = c at h ⊢
  cases f2 <;> cases f3 <;> cases f4 <;> cases a <;> cases b <;> cases c <;>
    simp only [lexer_literal_t.set_no_reg_store, Bool.false_eq_true, if_false, if_true,
      Bool.not_false, Bool.not_true, Bool.and_self, Bool.and_true, Bool.and_false,
      Bool.true_and, Bool.false_and] at h hna <;>
    (try split_ifs at h) <;>
    first
      | (cases h; done)
      | (cases hna; done)
      | (simp only [Except.ok.injEq, Prod.mk.injEq] at h
         obtain ⟨rfl, rfl⟩ := h
         exact ⟨rfl, by simp⟩)

/-! ## The position of an argument -/

/-- The second loop gives an unmirrored argument the number of counted arguments before it
in the pool (on top of the start value of the counter). -/
theorem assign_indices_argument_position (lim : parser_limits) (hiv : Bool) (limit rc : Nat) :
    ∀ (n : Nat) (l : List lexer_literal_t), l.length ≤ n →
    ∀ (st : index_state) (l2 : List lexer_literal_t) (i : index_state),
    assign_indices lim hiv limit rc st l = .ok (l2, i) → st.argument_count < 65536 →
    ∀ (k : Nat) (y : lexer_literal_t), l2[k]? = some y → is_argument y = true →
      y.index = (st.argument_count + ((l.take k).filter is_counted_argument).length)
        % 65536 := by
  intro n
  induction n with
  | zero =>
    intro l hl st l2 i h _ k y hk _
    have : l = [] := List.length_eq_zero.1 (Nat.le_zero.1 hl)
    subst this
    rw [assign_indices] at h
    simp only [Except.ok.injEq, Prod.mk.injEq] at h
    obtain ⟨rfl, rfl⟩ := h
    simp at hk
  | succ n ih =>
    intro l hl st l2 i h hs k y hk hy
    have step : ∀ (x x2 : lexer_literal_t) (st1 : index_state),
        arg_step st.argument_count st1.argument_count x x2 →
        st1.argument_count < 65536
          ∧ st1.argument_count
            = (st.argument_count + (is_counted_argument x).toNat) % 65536
          ∧ (is_argument x2 = true → x2.index = st.argument_count) := by
      intro x x2 st1 h1
      rcases h1 with ⟨a, b, c⟩ | ⟨a, b, c⟩ | ⟨a, b, c, d⟩
      · rw [c, a]
        exact ⟨hs, by simp [Nat.mod_eq_of_lt hs], fun hb => by rw [b] at hb; cases hb⟩
      · rw [c, a]
        exact ⟨Nat.mod_lt _ (by norm_num), rfl, fun hb => by rw [b] at hb; cases hb⟩
      · rw [d, a]
        exact ⟨Nat.mod_lt _ (by norm_num), rfl, fun _ => c⟩
    match l, hl, h with
    | [], _, h =>
      rw [assign_indices] at h
      simp only [Except.ok.injEq, Prod.mk.injEq] at h
      obtain ⟨rfl, rfl⟩ := h
      simp at hk
    | [x], _, h =>
      rw [assign_indices] at h
      split at h
      · exact absurd h (by simp)
      · rename_i x2 st1 fo hbody
        simp only [Except.ok.injEq, Prod.mk.injEq] at h
        obtain ⟨rfl, rfl⟩ := h
        obtain ⟨_, h1, _⟩ := assign_index_spec lim hiv limit rc st st1 x x2 none fo hbody
        obtain ⟨_, _, s3⟩ := step x x2 st1 h1
        cases k with
        | zero =>
          simp only [List.getElem?_cons_zero, Option.some.injEq] at hk
          subst hk
          rw [s3 hy]
          simp [Nat.mod_eq_of_lt hs]
        | succ k => simp at hk
    | x :: z :: rest, hl, h =>
      have hl1 : (z :: rest).length ≤ n := by simp at hl ⊢; omega
      have hl2 : rest.length ≤ n := by simp at hl; omega
      rw [assign_indices] at h
      split at h
      · exact absurd h (by simp)
      · rename_i x2 st1 hbody
        split at h
        · exact absurd h (by simp)
        · rename_i rest1 st2 hrec
          simp only [Except.ok.injEq, Prod.mk.injEq] at h
          obtain ⟨rfl, rfl⟩ := h
          obtain ⟨_, h1, _⟩ :=
            assign_index_spec lim hiv limit rc st st1 x x2 (some z) none hbody
          obtain ⟨s1, s2, s3⟩ := step x x2 st1 h1
          cases k with
          | zero =>
            simp only [List.getElem?_cons_zero, Option.some.injEq] at hk
            subst hk
            rw [s3 hy]
            simp [Nat.mod_eq_of_lt hs]
          | succ k =>
            simp only [List.getElem?_cons_succ] at hk
            rw [ih _ hl1 _ _ _ hrec s1 k y hk hy, s2, List.take_succ_cons,
              length_filter_cons]
            omega
      · rename_i x2 st1 z2 hbody
        split at h
        · exact absurd h (by simp)
        · rename_i rest1 st2 hrec
          simp only [Except.ok.injEq, Prod.mk.injEq] at h
          obtain ⟨rfl, rfl⟩ := h
          obtain ⟨_, h1, _, _, _, _, _, h7⟩ :=
            assign_index_spec lim hiv limit rc st st1 x x2 (some z) (some z2) hbody
          obtain ⟨s1, s2, s3⟩ := step x x2 st1 h1
          rcases h7 with ⟨hf, _⟩ | ⟨_, _, f, hf, hft, hfo, _⟩
          · exact absurd hf (by simp)
          · simp only [Option.some.injEq] at hf hfo
            subst hf
            subst hfo
            obtain ⟨c1, _⟩ := function_record_classes z hft
            obtain ⟨_, d2, _⟩ :=
              function_record_classes { z with index := st.literal_index } hft
            cases k with
            | zero =>
              simp only [List.getElem?_cons_zero, Option.some.injEq] at hk
              subst hk
              rw [s3 hy]
              simp [Nat.mod_eq_of_lt hs]
            | succ k =>
              cases k with
              | zero =>
                simp only [List.getElem?_cons_succ, List.getElem?_cons_zero,
                  Option.some.injEq] at hk
                subst hk
                rw [d2] at hy
                cases hy
              | succ k =>
                simp only [List.getElem?_cons_succ] at hk
                rw [ih _ hl2 _ _ _ hrec s1 k y hk hy, s2, List.take_succ_cons,
                  List.take_succ_cons, length_filter_cons, length_filter_cons, c1]
                simp only [Bool.toNat_false, Nat.add_zero]
                omega

theorem forall₂_getElem? {α β : Type} {R : α → β → Prop} {l : List α} {l2 : List β}
    (h : List.Forall₂ R l l2) :
    ∀ (k : Nat) (y : β), l2[k]? = some y → ∃ x, l[k]? = some x ∧ R x y := by
  induction h with
  | nil => intro k y hk; simp at hk
  | cons hab _ ih =>
    intro k y hk
    cases k with
    | zero =>
      simp only [List.getElem?_cons_zero, Option.some.injEq] at hk
      subst hk
      exact ⟨_, by simp, hab⟩
    | succ k =>
      simp only [List.getElem?_cons_succ] at hk
      simpa using ih k y hk

theorem forall₂_getElem?_left {α β : Type} {R : α → β → Prop} {l : List α} {l2 : List β}
    (h : List.Forall₂ R l l2) :
    ∀ (k : Nat) (x : α), l[k]? = some x → ∃ y, l2[k]? = some y ∧ R x y := by
  induction h with
  | nil => intro k y hk; simp at hk
  | cons hab _ ih =>
    intro k y hk
    cases k with
    | zero =>
      simp only [List.getElem?_cons_zero, Option.some.injEq] at hk
      subst hk
      exact ⟨_, by simp, hab⟩
    | succ k =>
      simp only [List.getElem?_cons_succ] at hk
      simpa using ih k y hk

/-- When as many records are counted as arguments as carry `LEXER_FLAG_FUNCTION_ARGUMENT`,
the two notions agree on every record, hence on every prefix. -/
theorem counted_eq_flagged (l : List lexer_literal_t)
    (h : (l.filter is_counted_argument).length
      = (l.filter (fun x => x.status_flags.function_argument)).length) :
    ∀ k, ((l.take k).filter is_counted_argument).length
      = ((l.take k).filter (fun x => x.status_flags.function_argument)).length := by
  have himp : ∀ x : lexer_literal_t, is_counted_argument x = true →
      x.status_flags.function_argument = true := by
    intro x hx
    unfold is_counted_argument at hx
    simp only [Bool.and_eq_true] at hx
    exact hx.1.2
  have hle : ∀ m : List lexer_literal_t, (m.filter is_counted_argument).length
      ≤ (m.filter (fun x => x.status_flags.function_argument)).length := by
    intro m
    induction m with
    | nil => simp
    | cons a m ihm =>
      rw [length_filter_cons, length_filter_cons]
      have := himp a
      cases h1 : is_counted_argument a <;> cases h2 : a.status_flags.function_argument <;>
        simp_all
      omega
  intro k
  have h1 := hle (l.take k)
  have h2 := hle (l.drop k)
  have e : l = l.take k ++ l.drop k := (List.take_append_drop k l).symm
  rw [e, List.filter_append, List.filter_append, List.length_append, List.length_append] at h
  omega

/-- The marks of the first loop and the indices of the second loop change neither the type
nor a flag other than `LEXER_FLAG_NO_REG_STORE`. -/
theorem counted_of_marked {x x1 y : lexer_literal_t} (h1 : marked_from x x1)
    (h2 : same_but_index x1 y) :
    y.type = x.type ∧ y.status_flags.var = x.status_flags.var
      ∧ y.status_flags.initialized = x.status_flags.initialized
      ∧ y.status_flags.function_argument = x.status_flags.function_argument
      ∧ y.status_flags.unused_ident = x.status_flags.unused_ident
      ∧ y.status_flags.no_reg_store = x1.status_flags.no_reg_store
      ∧ is_counted_argument x1 = is_counted_argument x := by
  unfold same_but_index at h2
  rw [h2]
  rcases h1 with rfl | rfl
  · exact ⟨rfl, rfl, rfl, rfl, rfl, rfl, rfl⟩
  · exact ⟨rfl, rfl, rfl, rfl, rfl, rfl, rfl⟩

/-- The two phases of `parser_compute_indicies` with the flags they start from and leave. -/
theorem compute_indicies_phases (lim : parser_limits) (context : parser_context_t)
    (r : compute_indicies_result) (h : parser_compute_indicies lim context = .ok r) :
    ∃ (c : count_state) (pool1 : List lexer_literal_t) (i st : index_state)
      (hiv : Bool) (limit : Nat),
      count_literals lim (count_start context) context.literal_pool = .ok (pool1, c) ∧
      st.argument_count = 0 ∧
      assign_indices lim hiv limit c.register_count st pool1
        = .ok (r.context.literal_pool, i) ∧
      i.argument_count = context.argument_count ∧
      r.context.status_flags.lexical_env_needed = c.status_flags.lexical_env_needed ∧
      r.context.status_flags.has_initialized_vars
        = (c.status_flags.has_initialized_vars || decide (c.initialized_var_count > 2)) := by
  unfold parser_compute_indicies at h
  dsimp only at h
  split at h
  · exact absurd h (by simp)
  · rename_i pool1 c hcount
    split at h
    · exact absurd h (by simp)
    · rename_i pool2 i hassign
      split_ifs at h <;>
      first
        | (cases h; done)
        | (simp only [Except.ok.injEq] at h
           subst h
           obtain ⟨a0, _⟩ := ‹i.argument_count = context.argument_count ∧ _›
           refine ⟨c, pool1, i, _, _, _, hcount, ?_, hassign, a0, ?_, ?_⟩
           · rfl
           · simp_all
           · simp_all)

theorem count_start_flags (context : parser_context_t) :
    (count_start context).status_flags.no_reg_store = context.status_flags.no_reg_store
      ∧ (count_start context).status_flags.is_strict = context.status_flags.is_strict
      ∧ (count_start context).status_flags.arguments_needed
        = (context.status_flags.arguments_needed && !context.status_flags.arguments_not_needed)
      ∧ (count_start context).register_count = context.register_count := by
  unfold count_start
  cases h : context.status_flags.arguments_not_needed <;> simp

/-! ## The initializers of the arguments -/

theorem parser_encode_literal_append (dst : List Nat) (index limit : Nat) :
    parser_encode_literal dst index limit = dst ++ parser_encode_literal [] index limit := by
  unfold parser_encode_literal
  split_ifs <;> simp

theorem initialize_var_literal_spec {t : cbc_tables} {limit rc : Nat}
    {st st1 : initializers_state} {x : lexer_literal_t} {next : Option lexer_literal_t}
    {consumed : Bool}
    (h : initialize_var_literal t limit rc st x next = .ok (st1, consumed)) :
    st1.argument_count
        = (if x.status_flags.function_argument then u16 (st.argument_count + 1)
          else st.argument_count)
      ∧ (consumed = true → ∃ f, next = some f ∧ f.type = LEXER_FUNCTION_LITERAL)
      ∧ ∃ b, st1.dst = st.dst ++ b := by
  unfold initialize_var_literal at h
  split at h
  · cases h
  · rename_i table1 _
    dsimp only at h
    revert h
    cases hfa : x.status_flags.function_argument <;> intro h <;>
      simp only [Bool.false_eq_true, if_false, if_true] at h ⊢
    · by_cases hvi : (x.status_flags.var && x.status_flags.initialized) = true
      · rw [if_pos hvi] at h
        by_cases hty : x.type = LEXER_IDENT_LITERAL
        · rw [if_pos hty] at h
          cases next with
          | none => cases h
          | some f =>
            dsimp only at h
            by_cases hft : f.type = LEXER_FUNCTION_LITERAL
            · rw [if_pos hft] at h
              by_cases hge : f.index ≥ rc
              · rw [if_pos hge] at h
                cases h
                refine ⟨rfl, fun _ => ⟨f, rfl, hft⟩, ?_⟩
                dsimp only
                rw [parser_encode_literal_append, parser_encode_literal_append]
                exact ⟨_, by rw [List.append_assoc, List.append_assoc]⟩
              · rw [if_neg hge] at h
                cases h
            · rw [if_neg hft] at h
              cases h
        · rw [if_neg hty] at h
          cases h
      · rw [if_neg hvi] at h
        cases h
        exact ⟨rfl, (fun hc => by cases hc), ⟨[], by simp⟩⟩
    · by_cases hvi : (x.status_flags.var && x.status_flags.initialized) = true
      · rw [if_pos hvi] at h
        by_cases hty : x.type = LEXER_IDENT_LITERAL
        · rw [if_pos hty] at h
          by_cases hidx : u16 (u16 (st.argument_count + 1) + 65535) = x.index
          · rw [if_pos hidx] at h
            cases h
            exact ⟨rfl, (fun hc => by cases hc), ⟨[], by simp⟩⟩
          · rw [if_neg hidx] at h
            simp only [Except.ok.injEq, Prod.mk.injEq] at h
            obtain ⟨rfl, rfl⟩ := h
            refine ⟨rfl, (fun hc => by cases hc), ?_⟩
            dsimp only
            rw [parser_encode_literal_append, parser_encode_literal_append]
            exact ⟨_, by rw [List.append_assoc, List.append_assoc]⟩
        · rw [if_neg hty] at h
          cases h
      · rw [if_neg hvi] at h
        cases h
        exact ⟨rfl, (fun hc => by cases hc), ⟨[], by simp⟩⟩

theorem initialize_var_loop_dst (t : cbc_tables) (limit rc : Nat) :
    ∀ (n : Nat) (l : List lexer_literal_t), l.length ≤ n →
    ∀ (st st1 : initializers_state), initialize_var_loop t limit rc st l = .ok st1 →
    ∃ b, st1.dst = st.dst ++ b := by
  intro n
  induction n with
  | zero =>
    intro l hl st st1 h
    have : l = [] := List.length_eq_zero.1 (Nat.le_zero.1 hl)
    subst this
    rw [initialize_var_loop] at h
    cases h
    exact ⟨[], by simp⟩
  | succ n ih =>
    intro l hl st st1 h
    match l, hl, h with
    | [], _, h =>
      rw [initialize_var_loop] at h
      cases h
      exact ⟨[], by simp⟩
    | [x], _, h =>
      rw [initialize_var_loop] at h
      split at h
      · cases h
      · rename_i s1 c hbody
        cases h
        exact (initialize_var_literal_spec hbody).2.2
    | x :: z :: rest, hl, h =>
      have hl1 : (z :: rest).length ≤ n := by simp at hl ⊢; omega
      have hl2 : rest.length ≤ n := by simp at hl; omega
      rw [initialize_var_loop] at h
      split at h
      · cases h
      · rename_i s1 hbody
        obtain ⟨b1, e1⟩ := (initialize_var_literal_spec hbody).2.2
        obtain ⟨b2, e2⟩ := ih _ hl1 _ _ h
        exact ⟨b1 ++ b2, by rw [e2, e1, List.append_assoc]⟩
      · rename_i s1 hbody
        obtain ⟨b1, e1⟩ := (initialize_var_literal_spec hbody).2.2
        obtain ⟨b2, e2⟩ := ih _ hl2 _ _ h
        exact ⟨b1 ++ b2, by rw [e2, e1, List.append_assoc]⟩

theorem argument_position_cons (x : lexer_literal_t) (l : List lexer_literal_t) :
    argument_position (x :: l)
      = argument_position l + (x.status_flags.function_argument).toNat := by
  unfold argument_position
  exact length_filter_cons _ x l

/-- The last loop of `parser_generate_initializers` reaches a record that is no function
literal with the number of arguments before it in its counter. -/
theorem initialize_var_loop_prefix (t : cbc_tables) (limit rc : Nat) :
    ∀ (n : Nat) (pre : List lexer_literal_t), pre.length ≤ n →
    ∀ (st st1 : initializers_state) (y : lexer_literal_t) (post : List lexer_literal_t),
    (∀ z ∈ pre, z.type = LEXER_FUNCTION_LITERAL → z.status_flags.function_argument = false) →
    y.type ≠ LEXER_FUNCTION_LITERAL → st.argument_count < 65536 →
    initialize_var_loop t limit rc st (pre ++ y :: post) = .ok st1 →
    ∃ st2, st2.argument_count = (st.argument_count + argument_position pre) % 65536
      ∧ (∃ b, st2.dst = st.dst ++ b)
      ∧ initialize_var_loop t limit rc st2 (y :: post) = .ok st1 := by
  intro n
  induction n with
  | zero =>
    intro pre hl st st1 y post _ _ hs h
    have : pre = [] := List.length_eq_zero.1 (Nat.le_zero.1 hl)
    subst this
    exact ⟨st, by simp [argument_position, Nat.mod_eq_of_lt hs], ⟨[], by simp⟩, h⟩
  | succ n ih =>
    intro pre hl st st1 y post hfun hy hs h
    match pre, hl, hfun, h with
    | [], _, _, h =>
      exact ⟨st, by simp [argument_position, Nat.mod_eq_of_lt hs], ⟨[], by simp⟩, h⟩
    | [x], _, hfun, h =>
      rw [List.singleton_append, initialize_var_loop] at h
      split at h
      · cases h
      · rename_i s1 hbody
        obtain ⟨e1, _, b1, e3⟩ := initialize_var_literal_spec hbody
        refine ⟨s1, ?_, ⟨b1, e3⟩, h⟩
        rw [e1, argument_position_cons]
        cases x.status_flags.function_argument <;>
          simp [argument_position, u16, Nat.mod_eq_of_lt hs]
      · rename_i s1 hbody
        obtain ⟨_, e2, _⟩ := initialize_var_literal_spec hbody
        obtain ⟨f, hf, hft⟩ := e2 rfl
        simp only [Option.some.injEq] at hf
        subst hf
        exact absurd hft hy
    | x :: z :: rest, hl, hfun, h =>
      have hl1 : (z :: rest).length ≤ n := by simp at hl ⊢; omega
      have hl2 : rest.length ≤ n := by simp at hl; omega
      rw [List.cons_append, List.cons_append, initialize_var_loop] at h
      split at h
      · cases h
      · rename_i s1 hbody
        obtain ⟨e1, _, b1, e3⟩ := initialize_var_literal_spec hbody
        have hs1 : s1.argument_count < 65536 := by
          rw [e1]
          split_ifs
          · exact Nat.mod_lt _ (by norm_num)
          · exact hs
        obtain ⟨st2, a1, ⟨b2, a2⟩, a3⟩ := ih _ hl1 s1 st1 y post
          (fun w hw => hfun w (List.mem_cons_of_mem _ hw)) hy hs1
          (by rw [List.cons_append]; exact h)
        refine ⟨st2, ?_, ⟨b1 ++ b2, by rw [a2, e3, List.append_assoc]⟩, a3⟩
        rw [a1, e1, argument_position_cons x]
        cases x.status_flags.function_argument <;> simp [u16]
        omega
      · rename_i s1 hbody
        obtain ⟨e1, e2, b1, e3⟩ := initialize_var_literal_spec hbody
        obtain ⟨f, hf, hft⟩ := e2 rfl
        simp only [Option.some.injEq] at hf
        subst hf
        have hzf := hfun z (by simp) hft
        have hs1 : s1.argument_count < 65536 := by
          rw [e1]
          split_ifs
          · exact Nat.mod_lt _ (by norm_num)
          · exact hs
        obtain ⟨st2, a1, ⟨b2, a2⟩, a3⟩ := ih _ hl2 s1 st1 y post
          (fun w hw => hfun w (List.mem_cons_of_mem _ (List.mem_cons_of_mem _ hw))) hy hs1 h
        refine ⟨st2, ?_, ⟨b1 ++ b2, by rw [a2, e3, List.append_assoc]⟩, a3⟩
        rw [a1, e1, argument_position_cons x, argument_position_cons z, hzf]
        cases x.status_flags.function_argument <;> simp [u16]
        omega

/-- The last loop of `parser_generate_initializers` at an argument binding whose index is
not its position: `CBC_INITIALIZE_VAR` with the index and the position is written. -/
theorem initialize_var_loop_argument {t : cbc_tables} {limit rc : Nat}
    {st st1 : initializers_state} {y : lexer_literal_t} {post : List lexer_literal_t}
    (ht : y.type = LEXER_IDENT_LITERAL) (hv : y.status_flags.var = true)
    (hi : y.status_flags.initialized = true) (hf : y.status_flags.function_argument = true)
    (hp : st.argument_count + 1 < 65536) (hne : st.argument_count ≠ y.index)
    (h : initialize_var_loop t limit rc st (y :: post) = .ok st1) :
    ∃ b, st1.dst = st.dst ++ ([t.CBC_INITIALIZE_VAR] ++ parser_encode_literal [] y.index limit
      ++ parser_encode_literal [] st.argument_count limit) ++ b := by
  have body : ∀ next s1 c, initialize_var_literal t limit rc st y next = .ok (s1, c) →
      c = false ∧ s1.dst = st.dst ++ ([t.CBC_INITIALIZE_VAR]
        ++ parser_encode_literal [] y.index limit
        ++ parser_encode_literal [] st.argument_count limit) := by
    intro next s1 c hb
    unfold initialize_var_literal at hb
    split at hb
    · cases hb
    · dsimp only at hb
      have e : u16 (u16 (st.argument_count + 1) + 65535) = st.argument_count := by
        unfold u16
        omega
      rw [hv, hi, hf] at hb
      simp only [Bool.and_self, if_true, ht, e, if_neg hne] at hb
      cases hb
      refine ⟨rfl, ?_⟩
      dsimp only
      rw [parser_encode_literal_append, parser_encode_literal_append (st.dst ++ _)]
      simp [List.append_assoc]
  match post, h with
  | [], h =>
    rw [initialize_var_loop] at h
    split at h
    · cases h
    · rename_i s1 c hbody
      cases h
      exact ⟨[], by rw [(body _ _ _ hbody).2]; simp⟩
  | z :: rest, h =>
    rw [initialize_var_loop] at h
    split at h
    · cases h
    · rename_i s1 hbody
      obtain ⟨b, hb⟩ := initialize_var_loop_dst t limit rc _ _ (le_refl _) _ _ h
      exact ⟨b, by rw [hb, (body _ _ _ hbody).2]⟩
    · rename_i s1 hbody
      exact absurd (body _ _ _ hbody).1 (by simp)

theorem initialize_vars_literal_spec {limit : Nat}
    {st st1 : initializers_state} {x x1 : lexer_literal_t} {next : Option lexer_literal_t}
    {consumed : Bool}
    (h : initialize_vars_literal limit st x next = .ok (x1, st1, consumed)) :
    st1.argument_count
        = (if x.status_flags.function_argument then u16 (st.argument_count + 1)
          else st.argument_count)
      ∧ (consumed = true → ∃ f, next = some f ∧ f.type = LEXER_FUNCTION_LITERAL)
      ∧ ∃ b, st1.dst = st.dst ++ b := by
  unfold initialize_vars_literal at h
  dsimp only at h
  revert h
  cases hfa : x.status_flags.function_argument <;> intro h <;>
    simp only [Bool.false_eq_true, if_false, if_true] at h ⊢
  · by_cases hvi : (x.status_flags.var && x.status_flags.no_reg_store
        && x.status_flags.initialized) = true
    · rw [if_pos hvi] at h
      by_cases hty : x.type = LEXER_IDENT_LITERAL ∧ x.index = st.next_index
      · rw [if_pos hty] at h
        cases next with
        | none => cases h
        | some f =>
          dsimp only at h
          by_cases hft : f.type = LEXER_FUNCTION_LITERAL
          · rw [if_pos hft] at h
            simp only [Except.ok.injEq, Prod.mk.injEq] at h
            obtain ⟨_, rfl, rfl⟩ := h
            refine ⟨rfl, fun _ => ⟨f, rfl, hft⟩, ?_⟩
            dsimp only
            rw [parser_encode_literal_append]
            exact ⟨_, rfl⟩
          · rw [if_neg hft] at h
            cases h
      · rw [if_neg hty] at h
        cases h
    · rw [if_neg hvi] at h
      simp only [Except.ok.injEq, Prod.mk.injEq] at h
      obtain ⟨_, rfl, rfl⟩ := h
      exact ⟨rfl, (fun hc => by cases hc), ⟨[], by simp⟩⟩
  · by_cases hvi : (x.status_flags.var && x.status_flags.no_reg_store
        && x.status_flags.initialized) = true
    · rw [if_pos hvi] at h
      by_cases hty : x.type = LEXER_IDENT_LITERAL ∧ x.index = st.next_index
      · rw [if_pos hty] at h
        simp only [Except.ok.injEq, Prod.mk.injEq] at h
        obtain ⟨_, rfl, rfl⟩ := h
        refine ⟨rfl, (fun hc => by cases hc), ?_⟩
        dsimp only
        rw [parser_encode_literal_append]
        exact ⟨_, rfl⟩
      · rw [if_neg hty] at h
        cases h
    · rw [if_neg hvi] at h
      simp only [Except.ok.injEq, Prod.mk.injEq] at h
      obtain ⟨_, rfl, rfl⟩ := h
      exact ⟨rfl, (fun hc => by cases hc), ⟨[], by simp⟩⟩

theorem initialize_vars_loop_dst (limit : Nat) :
    ∀ (n : Nat) (l : List lexer_literal_t), l.length ≤ n →
    ∀ (st st1 : initializers_state) (l1 : List lexer_literal_t),
    initialize_vars_loop limit st l = .ok (l1, st1) →
    ∃ b, st1.dst = st.dst ++ b := by
  intro n
  induction n with
  | zero =>
    intro l hl st st1 l1 h
    have : l = [] := List.length_eq_zero.1 (Nat.le_zero.1 hl)
    subst this
    rw [initialize_vars_loop] at h
    simp only [Except.ok.injEq, Prod.mk.injEq] at h
    obtain ⟨_, rfl⟩ := h
    exact ⟨[], by simp⟩
  | succ n ih =>
    intro l hl st st1 l1 h
    match l, hl, h with
    | [], _, h =>
      rw [initialize_vars_loop] at h
      simp only [Except.ok.injEq, Prod.mk.injEq] at h
      obtain ⟨_, rfl⟩ := h
      exact ⟨[], by simp⟩
    | [x], _, h =>
      rw [initialize_vars_loop] at h
      split at h
      · cases h
      · rename_i x1 s1 c hbody
        simp only [Except.ok.injEq, Prod.mk.injEq] at h
        obtain ⟨_, rfl⟩ := h
        exact (initialize_vars_literal_spec hbody).2.2
    | x :: z :: rest, hl, h =>
      have hl1 : (z :: rest).length ≤ n := by simp at hl ⊢; omega
      have hl2 : rest.length ≤ n := by simp at hl; omega
      rw [initialize_vars_loop] at h
      split at h
      · cases h
      · rename_i x1 s1 hbody
        obtain ⟨b1, e1⟩ := (initialize_vars_literal_spec hbody).2.2
        split at h
        · cases h
        · rename_i rest1 s2 hrec
          simp only [Except.ok.injEq, Prod.mk.injEq] at h
          obtain ⟨_, rfl⟩ := h
          obtain ⟨b2, e2⟩ := ih _ hl1 _ _ _ hrec
          exact ⟨b1 ++ b2, by rw [e2, e1, List.append_assoc]⟩
      · rename_i x1 s1 hbody
        obtain ⟨b1, e1⟩ := (initialize_vars_literal_spec hbody).2.2
        split at h
        · cases h
        · rename_i rest1 s2 hrec
          simp only [Except.ok.injEq, Prod.mk.injEq] at h
          obtain ⟨_, rfl⟩ := h
          obtain ⟨b2, e2⟩ := ih _ hl2 _ _ _ hrec
          exact ⟨b1 ++ b2, by rw [e2, e1, List.append_assoc]⟩

/-- The loop of `CBC_INITIALIZE_VARS` reaches a record that is no function literal with the
number of arguments before it in its counter. -/
theorem initialize_vars_loop_prefix (limit : Nat) :
    ∀ (n : Nat) (pre : List lexer_literal_t), pre.length ≤ n →
    ∀ (st st1 : initializers_state) (y : lexer_literal_t) (post l1 : List lexer_literal_t),
    (∀ z ∈ pre, z.type = LEXER_FUNCTION_LITERAL → z.status_flags.function_argument = false) →
    y.type ≠ LEXER_FUNCTION_LITERAL → st.argument_count < 65536 →
    initialize_vars_loop limit st (pre ++ y :: post) = .ok (l1, st1) →
    ∃ st2 l2, st2.argument_count = (st.argument_count + argument_position pre) % 65536
      ∧ (∃ b, st2.dst = st.dst ++ b)
      ∧ initialize_vars_loop limit st2 (y :: post) = .ok (l2, st1) := by
  intro n
  induction n with
  | zero =>
    intro pre hl st st1 y post l1 _ _ hs h
    have : pre = [] := List.length_eq_zero.1 (Nat.le_zero.1 hl)
    subst this
    exact ⟨st, l1, by simp [argument_position, Nat.mod_eq_of_lt hs], ⟨[], by simp⟩, h⟩
  | succ n ih =>
    intro pre hl st st1 y post l1 hfun hy hs h
    match pre, hl, hfun, h with
    | [], _, _, h =>
      exact ⟨st, l1, by simp [argument_position, Nat.mod_eq_of_lt hs], ⟨[], by simp⟩, h⟩
    | [x], _, hfun, h =>
      rw [List.singleton_append, initialize_vars_loop] at h
      split at h
      · cases h
      · rename_i x1 s1 hbody
        obtain ⟨e1, _, b1, e3⟩ := initialize_vars_literal_spec hbody
        split at h
        · cases h
        · rename_i rest1 s2 hrec
          simp only [Except.ok.injEq, Prod.mk.injEq] at h
          obtain ⟨_, rfl⟩ := h
          refine ⟨s1, rest1, ?_, ⟨b1, e3⟩, hrec⟩
          rw [e1, argument_position_cons]
          cases x.status_flags.function_argument <;>
            simp [argument_position, u16, Nat.mod_eq_of_lt hs]
      · rename_i x1 s1 hbody
        obtain ⟨_, e2, _⟩ := initialize_vars_literal_spec hbody
        obtain ⟨f, hf, hft⟩ := e2 rfl
        simp only [Option.some.injEq] at hf
        subst hf
        exact absurd hft hy
    | x :: z :: rest, hl, hfun, h =>
      have hl1 : (z :: rest).length ≤ n := by simp at hl ⊢; omega
      have hl2 : rest.length ≤ n := by simp at hl; omega
      rw [List.cons_append, List.cons_append, initialize_vars_loop] at h
      split at h
      · cases h
      · rename_i x1 s1 hbody
        obtain ⟨e1, _, b1, e3⟩ := initialize_vars_literal_spec hbody
        have hs1 : s1.argument_count < 65536 := by
          rw [e1]
          split_ifs
          · exact Nat.mod_lt _ (by norm_num)
          · exact hs
        split at h
        · cases h
        · rename_i rest1 s2 hrec
          simp only [Except.ok.injEq, Prod.mk.injEq] at h
          obtain ⟨_, rfl⟩ := h
          obtain ⟨st2, l2, a1, ⟨b2, a2⟩, a3⟩ := ih _ hl1 s1 s2 y post rest1
            (fun w hw => hfun w (List.mem_cons_of_mem _ hw)) hy hs1
            (by rw [List.cons_append]; exact hrec)
          refine ⟨st2, l2, ?_, ⟨b1 ++ b2, by rw [a2, e3, List.append_assoc]⟩, a3⟩
          rw [a1, e1, argument_position_cons x]
          cases x.status_flags.function_argument <;> simp [u16]
          omega
      · rename_i x1 s1 hbody
        obtain ⟨e1, e2, b1, e3⟩ := initialize_vars_literal_spec hbody
        obtain ⟨f, hf, hft⟩ := e2 rfl
        simp only [Option.some.injEq] at hf
        subst hf
        have hzf := hfun z (by simp) hft
        have hs1 : s1.argument_count < 65536 := by
          rw [e1]
          split_ifs
          · exact Nat.mod_lt _ (by norm_num)
          · exact hs
        split at h
        · cases h
        · rename_i rest1 s2 hrec
          simp only [Except.ok.injEq, Prod.mk.injEq] at h
          obtain ⟨_, rfl⟩ := h
          obtain ⟨st2, l2, a1, ⟨b2, a2⟩, a3⟩ := ih _ hl2 s1 s2 y post rest1
            (fun w hw => hfun w (List.mem_cons_of_mem _ (List.mem_cons_of_mem _ hw))) hy hs1
            hrec
          refine ⟨st2, l2, ?_, ⟨b1 ++ b2, by rw [a2, e3, List.append_assoc]⟩, a3⟩
          rw [a1, e1, argument_position_cons x, argument_position_cons z, hzf]
          cases x.status_flags.function_argument <;> simp [u16]
          omega

/-- The loop of `CBC_INITIALIZE_VARS` at an argument binding without register: its index is
the next index of the instruction, and the position of the argument is written as the
operand. -/
theorem initialize_vars_loop_argument {limit : Nat}
    {st st1 : initializers_state} {y : lexer_literal_t} {post l1 : List lexer_literal_t}
    (hv : y.status_flags.var = true) (hn : y.status_flags.no_reg_store = true)
    (hi : y.status_flags.initialized = true) (hf : y.status_flags.function_argument = true)
    (hp : st.argument_count + 1 < 65536)
    (h : initialize_vars_loop limit st (y :: post) = .ok (l1, st1)) :
    y.index = st.next_index
      ∧ ∃ b, st1.dst = st.dst ++ parser_encode_literal [] st.argument_count limit ++ b := by
  have body : ∀ next y1 s1 c, initialize_vars_literal limit st y next = .ok (y1, s1, c) →
      c = false ∧ y.index = st.next_index
        ∧ s1.dst = st.dst ++ parser_encode_literal [] st.argument_count limit := by
    intro next y1 s1 c hb
    unfold initialize_vars_literal at hb
    dsimp only at hb
    have e : u16 (u16 (st.argument_count + 1) + 65535) = st.argument_count := by
      unfold u16
      omega
    rw [hv, hn, hi, hf] at hb
    simp only [Bool.and_self, if_true, e] at hb
    split_ifs at hb with hty
    simp only [Except.ok.injEq, Prod.mk.injEq] at hb
    obtain ⟨_, rfl, rfl⟩ := hb
    refine ⟨rfl, hty.2, ?_⟩
    dsimp only
    rw [parser_encode_literal_append]
  match post, h with
  | [], h =>
    rw [initialize_vars_loop] at h
    split at h
    · cases h
    · rename_i y1 s1 c hbody
      simp only [Except.ok.injEq, Prod.mk.injEq] at h
      obtain ⟨_, rfl⟩ := h
      obtain ⟨_, b2, b3⟩ := body _ _ _ _ hbody
      exact ⟨b2, [], by rw [b3]; simp⟩
  | z :: rest, h =>
    rw [initialize_vars_loop] at h
    split at h
    · cases h
    · rename_i y1 s1 hbody
      split at h
      · cases h
      · rename_i rest1 s2 hrec
        simp only [Except.ok.injEq, Prod.mk.injEq] at h
        obtain ⟨_, rfl⟩ := h
        obtain ⟨_, b2, b3⟩ := body _ _ _ _ hbody
        obtain ⟨b, hb⟩ := initialize_vars_loop_dst limit _ _ (le_refl _) _ _ _ hrec
        exact ⟨b2, b, by rw [hb, b3]⟩
    · rename_i y1 s1 hbody
      exact absurd (body _ _ _ _ hbody).1 (by simp)

/-- The bytes `parser_generate_initializers` writes for an argument binding without
register, the record behind `pre` in the pool: with `PARSER_HAS_INITIALIZED_VARS` the
position of the argument as an operand of `CBC_INITIALIZE_VARS`, otherwise the instruction
`CBC_INITIALIZE_VAR` with the index of the record and the position of the argument. -/
theorem generate_initializers_argument (pre post : List lexer_literal_t)
    (y : lexer_literal_t) {t : cbc_tables} {context context6 : parser_context_t}
    {dst dst1 : List Nat} {literal_table literal_table1 : List literal_value_t}
    {uninitialized_var_end initialized_var_end limit : Nat}
    (hpool : context.literal_pool = pre ++ y :: post)
    (hfun : ∀ z ∈ pre, z.type = LEXER_FUNCTION_LITERAL →
      z.status_flags.function_argument = false)
    (ht : y.type = LEXER_IDENT_LITERAL) (hv : y.status_flags.var = true)
    (hn : y.status_flags.no_reg_store = true) (hi : y.status_flags.initialized = true)
    (hf : y.status_flags.function_argument = true)
    (hp : argument_position pre + 1 < 65536) (hne : argument_position pre ≠ y.index)
    (h : parser_generate_initializers t context dst literal_table uninitialized_var_end
      initialized_var_end limit = .ok (context6, dst1, literal_table1)) :
    ∃ a b, dst1 = a ++ (if context.status_flags.has_initialized_vars then
          parser_encode_literal [] (argument_position pre) limit
        else [t.CBC_INITIALIZE_VAR] ++ parser_encode_literal [] y.index limit
          ++ parser_encode_literal [] (argument_position pre) limit) ++ b := by
  have hyf : y.type ≠ LEXER_FUNCTION_LITERAL := by rw [ht]; decide
  unfold parser_generate_initializers at h
  dsimp only at h
  split at h
  · cases h
  · rename_i context1 dst3 hfirst
    have key : ∃ a b1, (context.status_flags.has_initialized_vars = true →
          dst3 = a ++ parser_encode_literal [] (argument_position pre) limit ++ b1)
        ∧ (context.status_flags.has_initialized_vars = false →
          context1.literal_pool = pre ++ y :: post) := by
      cases hiv : context.status_flags.has_initialized_vars
      · rw [hiv] at hfirst
        simp only [Bool.false_eq_true, if_false, Except.ok.injEq, Prod.mk.injEq] at hfirst
        obtain ⟨rfl, _⟩ := hfirst
        exact ⟨[], [], (fun hc => by cases hc), fun _ => hpool⟩
      · rw [hiv] at hfirst
        simp only [if_true] at hfirst
        split at hfirst
        · cases hfirst
        · rename_i pool1 st1 hloop
          split_ifs at hfirst
          simp only [Except.ok.injEq, Prod.mk.injEq] at hfirst
          obtain ⟨_, rfl⟩ := hfirst
          rw [hpool] at hloop
          obtain ⟨st2, l2, a1, _, a3⟩ := initialize_vars_loop_prefix limit _ pre (le_refl _)
            _ st1 y post pool1 hfun hyf (by norm_num) hloop
          have e2 : st2.argument_count = argument_position pre := by
            rw [a1]
            simp only [Nat.zero_add]
            exact Nat.mod_eq_of_lt (by omega)
          obtain ⟨_, b, hb⟩ := initialize_vars_loop_argument hv hn hi hf (by omega) a3
          rw [e2] at hb
          exact ⟨st2.dst, b, (fun _ => hb), (fun hc => by cases hc)⟩
    obtain ⟨a, b1, k1, k2⟩ := key
    split at h
    · cases h
    · rename_i st3 hsecond
      have hd : dst1 = st3.dst := by
        split_ifs at h <;>
          first
            | (cases h; done)
            | (simp only [Except.ok.injEq, Prod.mk.injEq] at h
               exact h.2.1.symm)
      rw [hd]
      cases hiv : context.status_flags.has_initialized_vars
      · rw [k2 hiv] at hsecond
        obtain ⟨st2, a1, _, a3⟩ := initialize_var_loop_prefix t limit _ _ pre (le_refl _)
          _ st3 y post hfun hyf (by norm_num) hsecond
        have e2 : st2.argument_count = argument_position pre := by
          rw [a1]
          simp only [Nat.zero_add]
          exact Nat.mod_eq_of_lt (by omega)
        obtain ⟨b, hb⟩ := initialize_var_loop_argument ht hv hi hf (by omega)
          (by rw [e2]; exact hne) a3
        rw [e2] at hb
        exact ⟨st2.dst, b, by simpa using hb⟩
      · obtain ⟨b2, hb2⟩ := initialize_var_loop_dst t limit _ _ _ (le_refl _) _ _ hsecond
        dsimp only at hb2
        rw [hb2, k1 hiv]
        exact ⟨a, b1 ++ b2, by simp [List.append_assoc]⟩

theorem assign_index_unused (lim : parser_limits) (hiv : Bool) (limit rc : Nat)
    (st st1 : index_state) (x x2 : lexer_literal_t) (next fo : Option lexer_literal_t)
    (h : assign_index lim hiv limit rc st x next = .ok (x2, st1, fo))
    (ht : x.type = LEXER_UNUSED_LITERAL) : x.status_flags.var = false := by
  unfold assign_index at h
  rw [ht] at h
  simp only [ne_eq, reduceCtorEq, not_false_eq_true, if_true, or_self, if_false,
    not_true_eq_false] at h
  split_ifs at h with hfl
  · rw [hfl]
  · rw [hfl]

/-- The second loop succeeds only when no tombstone carries `LEXER_FLAG_VAR`. -/
theorem assign_indices_unused (lim : parser_limits) (hiv : Bool) (limit rc : Nat) :
    ∀ (n : Nat) (l : List lexer_literal_t), l.length ≤ n →
    ∀ (st : index_state) (l2 : List lexer_literal_t) (i : index_state),
    assign_indices lim hiv limit rc st l = .ok (l2, i) →
    ∀ x ∈ l, x.type = LEXER_UNUSED_LITERAL → x.status_flags.var = false := by
  intro n
  induction n with
  | zero =>
    intro l hl st l2 i h x hx
    have : l = [] := List.length_eq_zero.1 (Nat.le_zero.1 hl)
    subst this
    simp at hx
  | succ n ih =>
    intro l hl st l2 i h w hw hwt
    match l, hl, h, hw with
    | [], _, _, hw => simp at hw
    | [x], _, h, hw =>
      rw [assign_indices] at h
      split at h
      · exact absurd h (by simp)
      · rename_i x2 st1 fo hbody
        simp only [List.mem_singleton] at hw
        subst hw
        exact assign_index_unused lim hiv limit rc st st1 w x2 none fo hbody hwt
    | x :: z :: rest, hl, h, hw =>
      have hl1 : (z :: rest).length ≤ n := by simp at hl ⊢; omega
      have hl2 : rest.length ≤ n := by simp at hl; omega
      rw [assign_indices] at h
      split at h
      · exact absurd h (by simp)
      · rename_i x2 st1 hbody
        split at h
        · exact absurd h (by simp)
        · rename_i rest1 st2 hrec
          rcases List.mem_cons.1 hw with rfl | hw
          · exact assign_index_unused lim hiv limit rc st st1 w x2 (some z) none hbody hwt
          · exact ih _ hl1 _ _ _ hrec w hw hwt
      · rename_i x2 st1 z2 hbody
        split at h
        · exact absurd h (by simp)
        · rename_i rest1 st2 hrec
          rcases List.mem_cons.1 hw with rfl | hw
          · exact assign_index_unused lim hiv limit rc st st1 w x2 (some z) (some z2) hbody hwt
          · rcases List.mem_cons.1 hw with rfl | hw
            · obtain ⟨_, _, _, _, _, _, _, h7⟩ :=
                assign_index_spec lim hiv limit rc st st1 x x2 (some w) (some z2) hbody
              rcases h7 with ⟨hf, _⟩ | ⟨_, _, f, hf, hft, _⟩
              · exact absurd hf (by simp)
              · simp only [Option.some.injEq] at hf
                subst hf
                rw [hwt] at hft
                cases hft
            · exact ih _ hl2 _ _ _ hrec w hw hwt

/-! ## One record through both phases -/

theorem argument_position_marked {l l1 : List lexer_literal_t}
    (h : List.Forall₂ marked_from l l1) : argument_position l1 = argument_position l := by
  induction h with
  | nil => rfl
  | cons hab _ ih =>
    rw [argument_position_cons, argument_position_cons, ih]
    rcases hab with rfl | rfl <;> rfl

theorem argument_position_indexed {l l2 : List lexer_literal_t}
    (h : List.Forall₂ same_but_index l l2) : argument_position l2 = argument_position l := by
  induction h with
  | nil => rfl
  | cons hab _ ih =>
    rw [argument_position_cons, argument_position_cons, ih]
    unfold same_but_index at hab
    rw [hab]

theorem flagged_counted (l : List lexer_literal_t)
    (h : (l.filter is_counted_argument).length = argument_position l) :
    ∀ x ∈ l, x.status_flags.function_argument = true → is_counted_argument x = true := by
  have himp : ∀ x : lexer_literal_t, is_counted_argument x = true →
      x.status_flags.function_argument = true := by
    intro x hx
    unfold is_counted_argument at hx
    simp only [Bool.and_eq_true] at hx
    exact hx.1.2
  have hle : ∀ m : List lexer_literal_t, (m.filter is_counted_argument).length
      ≤ argument_position m := by
    intro m
    induction m with
    | nil => simp [argument_position]
    | cons a m ihm =>
      rw [length_filter_cons, argument_position_cons]
      have := himp a
      cases h1 : is_counted_argument a <;> cases h2 : a.status_flags.function_argument <;>
        simp_all
      omega
  induction l with
  | nil => intro x hx; simp at hx
  | cons a l ih =>
    intro x hx hfl
    rw [length_filter_cons, argument_position_cons] at h
    have h1 := hle l
    have hb1 : (is_counted_argument a).toNat ≤ 1 := by cases is_counted_argument a <;> simp
    have hb2 : (a.status_flags.function_argument).toNat ≤ 1 := by
      cases a.status_flags.function_argument <;> simp
    have h2 : (is_counted_argument a).toNat ≤ (a.status_flags.function_argument).toNat := by
      have := himp a
      cases h3 : is_counted_argument a <;> cases h4 : a.status_flags.function_argument <;>
        simp_all
    rcases List.mem_cons.1 hx with rfl | hx
    · rw [hfl] at h
      cases h3 : is_counted_argument x
      · rw [h3] at h
        simp at h
        omega
      · rfl
    · exact ih (by omega) x hx hfl

/-- A record of the pool through both phases of `parser_compute_indicies`: the state in
which the first loop reaches it, the record the first loop makes of it, and the record of
the final pool at the same place, which differs by `prop.index` only. -/
theorem compute_indicies_record (lim : parser_limits) (context : parser_context_t)
    (r : compute_indicies_result) (pre post : List lexer_literal_t) (x : lexer_literal_t)
    (hc : pool_consistent context) (h : parser_compute_indicies lim context = .ok r)
    (hpool : context.literal_pool = pre ++ x :: post) :
    ∃ pre1 c1 x1 c2 y,
      count_literals lim (count_start context) pre = .ok (pre1, c1)
      ∧ count_literal lim c1 x = .ok (x1, c2)
      ∧ c1.status_flags.no_reg_store = context.status_flags.no_reg_store
      ∧ c1.status_flags.is_strict = context.status_flags.is_strict
      ∧ c1.status_flags.arguments_needed
        = (context.status_flags.arguments_needed && !context.status_flags.arguments_not_needed)
      ∧ (c2.status_flags.lexical_env_needed = true →
          r.context.status_flags.lexical_env_needed = true)
      ∧ r.context.literal_pool[pre.length]? = some y ∧ same_but_index x1 y
      ∧ y ∈ r.context.literal_pool
      ∧ (is_argument y = true → y.index = argument_position pre)
      ∧ r.context.literal_pool
        = r.context.literal_pool.take pre.length
          ++ y :: r.context.literal_pool.drop (pre.length + 1)
      ∧ argument_position (r.context.literal_pool.take pre.length) = argument_position pre
      ∧ (∀ z ∈ r.context.literal_pool, z.type = LEXER_FUNCTION_LITERAL →
          z.status_flags.function_argument = false)
      ∧ argument_position pre + (x.status_flags.function_argument).toNat
        ≤ r.context.argument_count
      ∧ pre.length < 32767
      ∧ (x.status_flags.function_argument = true → x.status_flags.var = true →
          x.type = LEXER_IDENT_LITERAL ∧ x.status_flags.unused_ident = false) := by
  obtain ⟨c, pool1, i, st, hiv, limit, hcount, hst, hassign, harg, hlex, _⟩ :=
    compute_indicies_phases lim context r h
  obtain ⟨hrc, hac, _, hN, _⟩ := hc
  rw [hpool] at hcount
  obtain ⟨pre1, c1, x1, c2, post1, e1, e2, e3, e4, e5⟩ :=
    count_literals_split lim pre _ _ _ _ _ hcount
  have hm1 := (count_literals_spec lim _ _ _ _ e1).1
  have hm := (count_literals_spec lim _ _ _ _ hcount).1
  obtain ⟨hsame, sa, _⟩ :=
    assign_indices_spec lim hiv limit c.register_count pool1.length pool1 (le_refl _) _ _ _
      hassign
  have hlen1 : pool1.length = (pre ++ x :: post).length := (List.Forall₂.length_eq hm).symm
  have hlen2 : r.context.literal_pool.length = pool1.length :=
    (List.Forall₂.length_eq hsame).symm
  have hplen : (pre ++ x :: post).length = pre.length + 1 + post.length := by simp; omega
  rw [hpool, hplen] at hN
  -- flags of the state that reaches the record
  obtain ⟨f1, f2, f3, _⟩ := count_start_flags context
  have hfl1 : c1.status_flags.no_reg_store = context.status_flags.no_reg_store
      ∧ c1.status_flags.is_strict = context.status_flags.is_strict
      ∧ c1.status_flags.arguments_needed
        = (context.status_flags.arguments_needed
            && !context.status_flags.arguments_not_needed) := by
    rcases count_literals_flags lim _ _ _ _ e1 with e | e <;> rw [e] <;>
      exact ⟨f1, f2, f3⟩
  have hlex2 : c2.status_flags.lexical_env_needed = true →
      r.context.status_flags.lexical_env_needed = true := by
    intro hl
    rw [hlex]
    rcases count_literals_flags lim _ _ _ _ e3 with e | e <;> rw [e]
    exact hl
  -- the record of the final pool
  have hx1 : pool1[pre.length]? = some x1 := by
    rw [e4, ← e5, List.getElem?_append_right (le_refl _)]
    simp
  obtain ⟨y, hy, hxy⟩ := forall₂_getElem?_left hsame _ _ hx1
  have hymem : y ∈ r.context.literal_pool := List.getElem?_mem hy
  have hklt : pre.length < r.context.literal_pool.length := by
    rw [hlen2, hlen1, hplen]
    omega
  have hyget : r.context.literal_pool[pre.length] = y := by
    have := List.getElem?_eq_getElem hklt
    rw [hy] at this
    exact (Option.some.inj this).symm
  have hsplit : r.context.literal_pool
      = r.context.literal_pool.take pre.length
        ++ y :: r.context.literal_pool.drop (pre.length + 1) := by
    rw [← hyget, ← List.drop_eq_getElem_cons hklt, List.take_append_drop]
  -- counted and flagged records
  have htake1 : pool1.take pre.length = pre1 := by
    rw [e4, ← e5]
    simp
  have hpos1 : argument_position pre1 = argument_position pre := argument_position_marked hm1
  have hposall : argument_position pool1 = argument_position (pre ++ x :: post) :=
    argument_position_marked hm
  have hcnt : (pool1.filter is_counted_argument).length = argument_position pool1 := by
    have hle := (class_partition pool1).2.2.2.2
    have hs := sa.1 (by rw [hst]; norm_num)
    rw [hst, Nat.zero_add, Nat.mod_eq_of_lt (by omega)] at hs
    rw [← hs, harg, hac, hposall, hpool]
    rfl
  have hpt := flagged_counted pool1 hcnt
  have hpre : ((pool1.take pre.length).filter is_counted_argument).length
      = argument_position pre := by
    have := counted_eq_flagged pool1 hcnt pre.length
    rw [this, htake1]
    exact hpos1
  have hargpos : is_argument y = true → y.index = argument_position pre := by
    intro hya
    have := assign_indices_argument_position lim hiv limit c.register_count _ pool1
      (le_refl _) _ _ _ hassign (by rw [hst]; norm_num) pre.length y hy hya
    rw [this, hst, Nat.zero_add, hpre]
    have hle : argument_position pre ≤ pre.length := by
      unfold argument_position
      exact List.length_filter_le _ _
    exact Nat.mod_eq_of_lt (by omega)
  have hpos2 : argument_position (r.context.literal_pool.take pre.length)
      = argument_position pre := by
    rw [argument_position_indexed (List.forall₂_take pre.length hsame), htake1]
    exact hpos1
  have hfun : ∀ z ∈ r.context.literal_pool, z.type = LEXER_FUNCTION_LITERAL →
      z.status_flags.function_argument = false := by
    intro z hz hzt
    obtain ⟨z1, hz1, hzz⟩ := forall₂_mem_right hsame z hz
    unfold same_but_index at hzz
    cases hfa : z.status_flags.function_argument
    · rfl
    · have h1 : z1.status_flags.function_argument = true := by
        rw [hzz] at hfa
        exact hfa
      have h2 := hpt z1 hz1 h1
      have h3 : z1.type = LEXER_FUNCTION_LITERAL := by
        rw [hzz] at hzt
        exact hzt
      unfold is_counted_argument at h2
      rw [h3] at h2
      simp at h2
  have hcountle : argument_position pre + (x.status_flags.function_argument).toNat
      ≤ r.context.argument_count := by
    have hra : r.context.argument_count = context.argument_count := by
      obtain ⟨_, _, _, _, _, _, _, _, _, _, _, _, _, _, _, _, _, _, _, q, _⟩ :=
        compute_indicies_unfold lim context r h
      exact q
    rw [hra, hac, hpool]
    show _ ≤ argument_position (pre ++ x :: post)
    unfold argument_position
    rw [List.filter_append, List.length_append, length_filter_cons]
    omega
  have hident : x.status_flags.function_argument = true → x.status_flags.var = true →
      x.type = LEXER_IDENT_LITERAL ∧ x.status_flags.unused_ident = false := by
    intro hfa hva
    obtain ⟨m1, _⟩ := count_literal_spec lim c1 c2 x x1 e2
    have hx1mem : x1 ∈ pool1 := List.getElem?_mem hx1
    have hx1f : x1.status_flags.function_argument = true := by
      rcases m1 with rfl | rfl
      · exact hfa
      · exact hfa
    have hx1v : x1.status_flags.var = true := by
      rcases m1 with rfl | rfl
      · exact hva
      · exact hva
    have hx1t : x1.type = x.type := by
      rcases m1 with rfl | rfl <;> rfl
    have hx1u : x1.status_flags.unused_ident = x.status_flags.unused_ident := by
      rcases m1 with rfl | rfl <;> rfl
    have hcx := hpt x1 hx1mem hx1f
    have hnu : x1.type ≠ LEXER_UNUSED_LITERAL := by
      intro hut
      have := assign_indices_unused lim hiv limit c.register_count _ pool1 (le_refl _) _ _ _
        hassign x1 hx1mem hut
      rw [hx1v] at this
      cases this
    unfold is_counted_argument at hcx
    simp only [Bool.and_eq_true, Bool.or_eq_true, decide_eq_true_eq, Bool.not_eq_true'] at hcx
    rw [← hx1t, ← hx1u]
    rcases hcx.2 with hut | hid
    · exact absurd hut hnu
    · exact ⟨hid.1.1, hcx.1.1⟩
  exact ⟨pre1, c1, x1, c2, y, e1, e2, hfl1.1, hfl1.2.1, hfl1.2.2, hlex2, hy, hxy, hymem,
    hargpos, hsplit, hpos2, hfun, hcountle, by omega, hident⟩

/-! ## Names in the parent pool stay unique -/

theorem mark_parent_literal_not_found (char_p : literal_value_t) (length : Nat)
    (pool : List lexer_literal_t)
    (h : (mark_parent_literal char_p length pool).2 = false) :
    (mark_parent_literal char_p length pool).1 = pool
      ∧ ∀ p ∈ pool, ¬ (p.type = LEXER_IDENT_LITERAL ∧ p.length = length
          ∧ memcmp_eq p.value char_p length = true) := by
  induction pool with
  | nil => exact ⟨rfl, fun p hp => by simp at hp⟩
  | cons a l ih =>
    unfold mark_parent_literal at h ⊢
    by_cases hcond : a.type = LEXER_IDENT_LITERAL ∧ a.length = length
        ∧ memcmp_eq a.value char_p length = true
    · rw [if_pos hcond] at h
      cases h
    · rw [if_neg hcond] at h ⊢
      dsimp only at h ⊢
      obtain ⟨e1, e2⟩ := ih h
      refine ⟨by rw [e1], ?_⟩
      intro p hp
      rcases List.mem_cons.1 hp with rfl | hp
      · exact hcond
      · exact e2 p hp

theorem names_unique_marked {l l1 : List lexer_literal_t}
    (h : List.Forall₂ marked_from l l1) (hu : names_unique l) : names_unique l1 := by
  unfold names_unique at hu ⊢
  induction h with
  | nil => exact List.Pairwise.nil
  | cons hab htl ih =>
    rename_i a b l l1
    rw [List.pairwise_cons] at hu ⊢
    refine ⟨?_, ih hu.2⟩
    intro q hq hcon
    obtain ⟨p, hp, hpq⟩ := forall₂_mem_right htl q hq
    apply hu.1 p hp
    have ea : b.type = a.type ∧ b.length = a.length ∧ b.value = a.value := by
      rcases hab with rfl | rfl <;> exact ⟨rfl, rfl, rfl⟩
    have eq : q.type = p.type ∧ q.length = p.length ∧ q.value = p.value := by
      rcases hpq with rfl | rfl <;> exact ⟨rfl, rfl, rfl⟩
    unfold same_bytes at hcon ⊢
    rw [ea.1, ea.2.1, ea.2.2, eq.1, eq.2.1, eq.2.2] at hcon
    exact hcon

/-- The outer loop of `parser_copy_identifiers` keeps the names of the parent pool
unique. -/
theorem copy_identifiers_loop_unique (rest : List lexer_literal_t) :
    ∀ (done pool : List lexer_literal_t) (count : Nat)
      (child parent_pool : List lexer_literal_t) (parent_count : Nat),
      (∀ c ∈ rest, c.length < 65536) → names_unique pool →
      copy_identifiers_loop rest done pool count = .ok (child, parent_pool, parent_count) →
      names_unique parent_pool := by
  induction rest with
  | nil =>
    intro done pool count child parent_pool parent_count _ hu h
    simp only [copy_identifiers_loop, Except.ok.injEq, Prod.mk.injEq] at h
    obtain ⟨_, rfl, _⟩ := h
    exact hu
  | cons lit rest ih =>
    intro done pool count child parent_pool parent_count hlen hu h
    have hlen1 : ∀ c ∈ rest, c.length < 65536 :=
      fun c hc => hlen c (List.mem_cons_of_mem _ hc)
    unfold copy_identifiers_loop at h
    split at h
    · exact ih _ _ _ _ _ _ hlen1 hu h
    · rename_i hfree
      dsimp only at h
      split at h
      · exact ih _ _ _ _ _ _ hlen1
          (names_unique_marked (mark_parent_literal_forall₂ _ _ _) hu) h
      · rename_i hnf
        split at h
        · cases h
        · refine ih _ _ _ _ _ _ hlen1 ?_ h
          have hnf2 : (mark_parent_literal lit.value lit.length pool).2 = false := by
            cases hb : (mark_parent_literal lit.value lit.length pool).2
            · rfl
            · exact absurd hb hnf
          obtain ⟨e1, e2⟩ := mark_parent_literal_not_found _ _ _ hnf2
          rw [e1]
          unfold names_unique at hu ⊢
          rw [List.pairwise_append]
          refine ⟨hu, List.pairwise_singleton _ _, ?_⟩
          intro p hp q hq hcon
          simp only [List.mem_singleton] at hq
          subst hq
          apply e2 p hp
          obtain ⟨c1, _, c3, c4⟩ := hcon
          dsimp only at c3 c4
          have hl : u16 lit.length = lit.length :=
            Nat.mod_eq_of_lt (hlen lit (List.mem_cons_self _ _))
          rw [hl] at c3
          rw [c3] at c4
          exact ⟨c1, c3, c4⟩

/-- C16: `parser_copy_identifiers` preserves the uniqueness of the names of the parent pool:
when no two records of type identifier in the parent pool carry the same name (length and
bytes, compared as the function does), the same holds for the parent pool on return. -/
theorem C16_copy_identifiers_names_unique (context context1 : parser_context_t)
    (parent parent1 : parser_saved_context_t)
    (hparent : context.last_context_p = some parent)
    (hlen : ∀ c ∈ context.literal_pool, c.length < 65536)
    (hu : names_unique parent.literal_pool_data)
    (h : parser_copy_identifiers context = .ok context1)
    (hparent1 : context1.last_context_p = some parent1) :
    names_unique parent1.literal_pool_data := by
  unfold parser_copy_identifiers at h
  rw [hparent] at h
  dsimp only at h
  split_ifs at h
  · cases h
    rw [hparent] at hparent1
    cases hparent1
    exact hu
  · cases h
    cases hparent1
    exact hu
  · split at h
    · cases h
    · rename_i pool parent_pool parent_count hloop
      cases h
      cases hparent1
      exact copy_identifiers_loop_unique _ _ _ _ _ _ _ hlen hu hloop

/-- Witness of C16: the parent pool of `hoist_example` holds `a`; on return it holds `a`
(marked) and `b`, and the names are unique. -/
theorem C16_copy_identifiers_names_unique_witness :
    ∃ context1 parent1, parser_copy_identifiers hoist_example = .ok context1
      ∧ context1.last_context_p = some parent1
      ∧ parent1.literal_pool_data.map (fun l => l.value) = [some [97, 61], some [98]]
      ∧ names_unique parent1.literal_pool_data :=
  ⟨_, _, rfl, rfl, rfl,
    C16_copy_identifiers_names_unique hoist_example _ hoist_example_parent _ rfl (by decide)
      (by decide) rfl rfl⟩

/-! ## The literal limit of the parent pool -/

/-- C17 (counterexample): in `full_parent_example` the free identifier `a` of the finished
function is not known to the parent pool and the parent `literal_count` is 32767, yet the
call returns without raising, because the context has `PARSER_NO_REG_STORE`. -/
theorem C17_no_raise_with_no_reg_store :
    ∃ parent context1, full_parent_example.last_context_p = some parent
      ∧ parent.status_flags.is_function = true
      ∧ parent.literal_count ≥ PARSER_MAXIMUM_NUMBER_OF_LITERALS
      ∧ parent.literal_pool_data.length = 32767
      ∧ (∃ c ∈ full_parent_example.literal_pool, c.type = LEXER_IDENT_LITERAL
          ∧ c.status_flags.var = false
          ∧ ∀ p ∈ parent.literal_pool_data, ¬ same_bytes p c)
      ∧ parser_copy_identifiers full_parent_example = .ok context1 := by
  refine ⟨_, _, rfl, rfl, by decide, List.length_replicate _ _, ?_, rfl⟩
  refine ⟨_, List.mem_singleton.2 rfl, rfl, rfl, ?_⟩
  intro p hp
  rw [List.eq_of_mem_replicate hp]
  decide

/-! ## Built-in objects: internal properties and the registry -/

theorem lookup_map_set {α β : Type} [DecidableEq α] (l : List (α × β)) (id id1 : α) (v : β) :
    (l.map (fun p => if p.1 = id then (id, v) else p)).lookup id1
      = if id1 = id then (l.lookup id).map (fun _ => v) else l.lookup id1 := by
  induction l with
  | nil => simp
  | cons p l ih =>
    obtain ⟨k, w⟩ := p
    have e : ∀ a b : α, a ≠ b → (a == b) = false := fun a b h => by simpa using h
    by_cases hk : k = id
    · subst hk
      by_cases h1 : id1 = k
      · subst h1
        simp [List.lookup_cons]
      · simp [List.lookup_cons, e _ _ h1, h1, ih]
    · by_cases h1 : id1 = id
      · subst h1
        have h3 : id1 ≠ k := fun h => hk h.symm
        simp [List.lookup_cons, e _ _ h3, hk, ih]
      · by_cases h3 : id1 = k
        · subst h3
          simp [List.lookup_cons, hk, h1]
        · simp [List.lookup_cons, e _ _ h3, hk, h1, ih]

theorem find_set_same (object : ecma_object_t) (id : ecma_internal_property_id_t)
    (v : ecma_internal_value_t) :
    ecma_find_internal_property (ecma_set_internal_property_value object id v) id
      = (ecma_find_internal_property object id).map (fun _ => v) := by
  simp [ecma_find_internal_property, ecma_set_internal_property_value, lookup_map_set]

theorem find_set_other (object : ecma_object_t) {id id1 : ecma_internal_property_id_t}
    (v : ecma_internal_value_t) (h : id1 ≠ id) :
    ecma_find_internal_property (ecma_set_internal_property_value object id v) id1
      = ecma_find_internal_property object id1 := by
  simp [ecma_find_internal_property, ecma_set_internal_property_value, lookup_map_set, h]

theorem find_create_same (object : ecma_object_t) (id : ecma_internal_property_id_t) :
    ecma_find_internal_property (ecma_create_internal_property object id) id
      = some (ecma_internal_value_t.uint32 0) := by
  simp [ecma_find_internal_property, ecma_create_internal_property, List.lookup]

theorem find_create_other (object : ecma_object_t) {id id1 : ecma_internal_property_id_t}
    (h : id1 ≠ id) :
    ecma_find_internal_property (ecma_create_internal_property object id) id1
      = ecma_find_internal_property object id1 := by
  have h2 : (id1 == id) = false := by simpa using h
  simp [ecma_find_internal_property, ecma_create_internal_property, List.lookup, h2]

/-- The heap after `ecma_builtin_init_object`: one object more, the registry untouched. -/
theorem ecma_builtin_init_object_heap (t : ecma_builtin_tables) (heap : ecma_heap_t)
    (id : Nat) (proto : Option Nat) (ty : Nat) (ext : Bool) :
    ∃ object, (ecma_builtin_init_object t heap id proto ty ext).1.objects
        = heap.objects ++ [object]
      ∧ (ecma_builtin_init_object t heap id proto ty ext).1.ecma_builtin_objects
        = heap.ecma_builtin_objects
      ∧ (ecma_builtin_init_object t heap id proto ty ext).2 = heap.objects.length :=
  ⟨_, rfl, rfl, rfl⟩

/-- What `ecma_instantiate_builtin` does to the heap when it returns: the objects are
extended, the registry keeps its length and every filled slot, and the slot of the built-in
is filled. -/
theorem ecma_instantiate_builtin_heap (t : ecma_builtin_tables) :
    ∀ (fuel : Nat) (heap heap1 : ecma_heap_t) (id : Nat),
      ecma_instantiate_builtin t fuel heap id = .ok heap1 →
      heap.objects <+: heap1.objects
        ∧ heap1.ecma_builtin_objects.length = heap.ecma_builtin_objects.length
        ∧ (∀ (j p : Nat), heap.ecma_builtin_objects[j]? = some (some p) →
            heap1.ecma_builtin_objects[j]? = some (some p))
        ∧ ∃ p, heap1.ecma_builtin_objects[id]? = some (some p) := by
  intro fuel
  induction fuel with
  | zero => intro heap heap1 id h; simp [ecma_instantiate_builtin] at h
  | succ fuel ih =>
    intro heap heap1 id h
    rw [ecma_instantiate_builtin] at h
    split at h
    · cases h
    rename_i builtin hb
    by_cases hslot : heap.ecma_builtin_objects[id]? = some none
    swap
    · rw [if_neg hslot] at h; cases h
    rw [if_pos hslot] at h
    have hidlt : id < heap.ecma_builtin_objects.length := by
      rcases Nat.lt_or_ge id heap.ecma_builtin_objects.length with h1 | h1
      · exact h1
      · rw [List.getElem?_eq_none h1] at hslot; cases hslot
    have key : ∀ (heap2 : ecma_heap_t) (proto : Option Nat),
        heap.objects <+: heap2.objects →
        heap2.ecma_builtin_objects.length = heap.ecma_builtin_objects.length →
        (∀ (j p : Nat), heap.ecma_builtin_objects[j]? = some (some p) →
            heap2.ecma_builtin_objects[j]? = some (some p)) →
        heap1 = { (ecma_builtin_init_object t heap2 id proto builtin.object_type
              builtin.is_extensible).1 with
            ecma_builtin_objects :=
              (ecma_builtin_init_object t heap2 id proto builtin.object_type
                builtin.is_extensible).1.ecma_builtin_objects.set id
                (some (ecma_builtin_init_object t heap2 id proto builtin.object_type
                  builtin.is_extensible).2) } →
        heap.objects <+: heap1.objects
          ∧ heap1.ecma_builtin_objects.length = heap.ecma_builtin_objects.length
          ∧ (∀ (j p : Nat), heap.ecma_builtin_objects[j]? = some (some p) →
              heap1.ecma_builtin_objects[j]? = some (some p))
          ∧ ∃ p, heap1.ecma_builtin_objects[id]? = some (some p) := by
      intro heap2 proto hpre hlen hkeep h1
      obtain ⟨object, ho, hr, hp⟩ :=
        ecma_builtin_init_object_heap t heap2 id proto builtin.object_type
          builtin.is_extensible
      subst h1
      refine ⟨?_, ?_, ?_, ?_⟩
      · show heap.objects <+: (ecma_builtin_init_object t heap2 id proto builtin.object_type
              builtin.is_extensible).1.objects
        rw [ho]
        exact hpre.trans (List.prefix_append _ _)
      · show ((ecma_builtin_init_object t heap2 id proto builtin.object_type
              builtin.is_extensible).1.ecma_builtin_objects.set id _).length = _
        rw [List.length_set, hr, hlen]
      · intro j p hj
        show ((ecma_builtin_init_object t heap2 id proto builtin.object_type
              builtin.is_extensible).1.ecma_builtin_objects.set id _)[j]? = _
        have hne : id ≠ j := by
          intro hij
          subst hij
          rw [hslot] at hj
          cases hj
        rw [List.getElem?_set_ne hne, hr]
        exact hkeep j p hj
      · refine ⟨heap2.objects.length, ?_⟩
        show ((ecma_builtin_init_object t heap2 id proto builtin.object_type
              builtin.is_extensible).1.ecma_builtin_objects.set id _)[id]? = _
        rw [List.getElem?_set_self (by rw [hr, hlen]; exact hidlt), hp]
    by_cases hc : builtin.object_prototype_builtin_id = t.ECMA_BUILTIN_ID__COUNT
    · rw [if_pos hc] at h
      simp only [Except.ok.injEq] at h
      exact key heap none (List.prefix_refl _) rfl (fun _ _ hj => hj) h.symm
    · rw [if_neg hc] at h
      by_cases hps : heap.ecma_builtin_objects[builtin.object_prototype_builtin_id]?
          = some none
      · rw [if_pos hps] at h
        cases hrec : ecma_instantiate_builtin t fuel heap builtin.object_prototype_builtin_id with
        | error e => rw [hrec] at h; cases h
        | ok heapp =>
          rw [hrec] at h
          obtain ⟨hpre, hlen, hkeep, p, hp⟩ := ih heap heapp _ hrec
          simp only [hp, Except.ok.injEq] at h
          exact key heapp (some p) hpre hlen hkeep h.symm
      · rw [if_neg hps] at h
        rcases hq : heap.ecma_builtin_objects[builtin.object_prototype_builtin_id]? with
          _ | _ | p
        · simp [hq] at h
        · exact absurd hq hps
        · simp only [hq, Except.ok.injEq] at h
          exact key heap (some p) (List.prefix_refl _) rfl (fun _ _ hj => hj) h.symm

/-! ## Built-in objects: `ecma_builtin_get` and the value of a property -/

/-- What `ecma_builtin_get` does to the heap when it returns: the objects are extended, the
registry keeps its length and every filled slot, and the slot of the built-in holds the
returned pointer. -/
theorem ecma_builtin_get_heap (t : ecma_builtin_tables) (heap heap1 : ecma_heap_t)
    (id p : Nat) (h : ecma_builtin_get t heap id = .ok (p, heap1)) :
    heap.objects <+: heap1.objects
      ∧ heap1.ecma_builtin_objects.length = heap.ecma_builtin_objects.length
      ∧ (∀ (j q : Nat), heap.ecma_builtin_objects[j]? = some (some q) →
          heap1.ecma_builtin_objects[j]? = some (some q))
      ∧ heap1.ecma_builtin_objects[id]? = some (some p) := by
  rw [ecma_builtin_get] at h
  by_cases hlt : id < t.ECMA_BUILTIN_ID__COUNT
  swap
  · rw [if_neg hlt] at h; cases h
  rw [if_pos hlt] at h
  by_cases hs : heap.ecma_builtin_objects[id]? = some none
  · rw [if_pos hs] at h
    cases hi : ecma_instantiate_builtin t (t.ECMA_BUILTIN_ID__COUNT + 1) heap id with
    | error e => rw [hi] at h; cases h
    | ok heapi =>
      rw [hi] at h
      obtain ⟨hpre, hlen, hkeep, q, hq⟩ := ecma_instantiate_builtin_heap t _ heap heapi id hi
      simp only [hq, Except.ok.injEq, Prod.mk.injEq] at h
      obtain ⟨rfl, rfl⟩ := h
      exact ⟨hpre, hlen, hkeep, hq⟩
  · rw [if_neg hs] at h
    rcases hq : heap.ecma_builtin_objects[id]? with _ | _ | q
    · simp [hq] at h
    · exact absurd hq hs
    · simp only [hq, Except.ok.injEq, Prod.mk.injEq] at h
      obtain ⟨rfl, rfl⟩ := h
      exact ⟨List.prefix_refl _, rfl, fun _ _ hj => hj, hq⟩

/-- A built-in whose prototypes end within the fuel is instantiated: with a registry of
`ECMA_BUILTIN_ID__COUNT` slots and an empty slot for the built-in,
`ecma_instantiate_builtin` returns. -/
theorem ecma_instantiate_builtin_total (t : ecma_builtin_tables) :
    ∀ (fuel : Nat) (heap : ecma_heap_t) (id : Nat),
      heap.ecma_builtin_objects.length = t.ECMA_BUILTIN_ID__COUNT →
      prototype_chain_ends t fuel id = true →
      heap.ecma_builtin_objects[id]? = some none →
      ∃ heap1, ecma_instantiate_builtin t fuel heap id = .ok heap1 := by
  intro fuel
  induction fuel with
  | zero => intro heap id _ h; simp [prototype_chain_ends] at h
  | succ fuel ih =>
    intro heap id hlen hch hslot
    rw [prototype_chain_ends] at hch
    rw [ecma_instantiate_builtin]
    cases hb : t.builtins[id]? with
    | none => rw [hb] at hch; cases hch
    | some builtin =>
      rw [hb] at hch
      simp only [Bool.or_eq_true, decide_eq_true_eq] at hch
      simp only [if_pos hslot]
      by_cases hc : builtin.object_prototype_builtin_id = t.ECMA_BUILTIN_ID__COUNT
      · rw [if_pos hc]
        exact ⟨_, rfl⟩
      · rw [if_neg hc]
        have hch1 : prototype_chain_ends t fuel builtin.object_prototype_builtin_id = true := by
          rcases hch with h1 | h1
          · exact absurd h1 hc
          · exact h1
        have hplt : builtin.object_prototype_builtin_id < heap.ecma_builtin_objects.length := by
          rw [hlen]
          cases fuel with
          | zero => simp [prototype_chain_ends] at hch1
          | succ f =>
            rw [prototype_chain_ends] at hch1
            rcases Nat.lt_or_ge builtin.object_prototype_builtin_id t.builtins.length with
              h2 | h2
            · exact h2
            · rw [List.getElem?_eq_none h2] at hch1; cases hch1
        by_cases hps : heap.ecma_builtin_objects[builtin.object_prototype_builtin_id]?
            = some none
        · rw [if_pos hps]
          obtain ⟨heapp, hrec⟩ := ih heap _ hlen hch1 hps
          obtain ⟨_, _, _, q, hq⟩ := ecma_instantiate_builtin_heap t _ heap heapp _ hrec
          rw [hrec]
          simp only [hq]
          exact ⟨_, rfl⟩
        · rw [if_neg hps]
          rcases hq : heap.ecma_builtin_objects[builtin.object_prototype_builtin_id]? with
            _ | _ | q
          · rw [List.getElem?_eq_none_iff] at hq
            omega
          · exact absurd hq hps
          · simp only [hq]
            exact ⟨_, rfl⟩

/-- With a registry of `ECMA_BUILTIN_ID__COUNT` slots, `ecma_builtin_get` returns for a
built-in whose prototypes end. -/
theorem ecma_builtin_get_total (t : ecma_builtin_tables) (heap : ecma_heap_t) (id : Nat)
    (hlen : heap.ecma_builtin_objects.length = t.ECMA_BUILTIN_ID__COUNT)
    (hch : prototype_chain_ends t (t.ECMA_BUILTIN_ID__COUNT + 1) id = true) :
    ∃ p heap1, ecma_builtin_get t heap id = .ok (p, heap1) := by
  have hlt : id < t.ECMA_BUILTIN_ID__COUNT := by
    rw [prototype_chain_ends] at hch
    rcases Nat.lt_or_ge id t.builtins.length with h2 | h2
    · exact h2
    · rw [List.getElem?_eq_none h2] at hch; cases hch
  rw [ecma_builtin_get, if_pos hlt]
  by_cases hs : heap.ecma_builtin_objects[id]? = some none
  · rw [if_pos hs]
    obtain ⟨heapi, hi⟩ := ecma_instantiate_builtin_total t _ heap id hlen hch hs
    obtain ⟨_, _, _, q, hq⟩ := ecma_instantiate_builtin_heap t _ heap heapi id hi
    rw [hi]
    simp only [hq]
    exact ⟨_, _, rfl⟩
  · rw [if_neg hs]
    rcases hq : heap.ecma_builtin_objects[id]? with _ | _ | q
    · rw [List.getElem?_eq_none_iff] at hq
      omega
    · exact absurd hq hs
    · simp only [hq]
      exact ⟨_, _, rfl⟩

/-- What `ecma_builtin_make_function_object_for_routine` does to the heap when it returns. -/
theorem ecma_builtin_make_function_object_for_routine_heap (t : ecma_builtin_tables)
    (heap heap1 : ecma_heap_t) (builtin_id routine_id length_prop_value p : Nat)
    (h : ecma_builtin_make_function_object_for_routine t heap builtin_id routine_id
      length_prop_value = .ok (p, heap1)) :
    heap.objects <+: heap1.objects
      ∧ heap1.ecma_builtin_objects.length = heap.ecma_builtin_objects.length
      ∧ (∀ (j q : Nat), heap.ecma_builtin_objects[j]? = some (some q) →
          heap1.ecma_builtin_objects[j]? = some (some q)) := by
  rw [ecma_builtin_make_function_object_for_routine] at h
  cases hg : ecma_builtin_get t heap t.ECMA_BUILTIN_ID_FUNCTION_PROTOTYPE with
  | error e => rw [hg] at h; cases h
  | ok r =>
    obtain ⟨q, heapg⟩ := r
    rw [hg] at h
    obtain ⟨hpre, hlen, hkeep, _⟩ := ecma_builtin_get_heap t heap heapg _ q hg
    simp only at h
    split at h
    · simp only [Except.ok.injEq, Prod.mk.injEq] at h
      obtain ⟨rfl, rfl⟩ := h
      exact ⟨hpre.trans (List.prefix_append _ _), hlen, hkeep⟩
    · cases h

/-- What the materialization of a property value does to the heap when it returns: the
objects are extended, the registry keeps its length and every filled slot. -/
theorem ecma_builtin_property_value_heap (t : ecma_builtin_tables) (heap heap1 : ecma_heap_t)
    (builtin_id magic_string_id : Nat) (curr_property : ecma_builtin_property_descriptor_t)
    (value : ecma_value_t)
    (h : ecma_builtin_property_value t heap builtin_id magic_string_id curr_property
      = .ok (value, heap1)) :
    heap.objects <+: heap1.objects
      ∧ heap1.ecma_builtin_objects.length = heap.ecma_builtin_objects.length
      ∧ (∀ (j q : Nat), heap.ecma_builtin_objects[j]? = some (some q) →
          heap1.ecma_builtin_objects[j]? = some (some q)) := by
  have same : ∀ {v : ecma_value_t},
      (Except.ok (v, heap) : Except Fault (ecma_value_t × ecma_heap_t)) = .ok (value, heap1) →
      heap.objects <+: heap1.objects
        ∧ heap1.ecma_builtin_objects.length = heap.ecma_builtin_objects.length
        ∧ (∀ (j q : Nat), heap.ecma_builtin_objects[j]? = some (some q) →
            heap1.ecma_builtin_objects[j]? = some (some q)) := by
    intro v hv
    simp only [Except.ok.injEq, Prod.mk.injEq] at hv
    obtain ⟨_, rfl⟩ := hv
    exact ⟨List.prefix_refl _, rfl, fun _ _ hj => hj⟩
  rw [ecma_builtin_property_value] at h
  split at h
  · exact same h
  · split_ifs at h
    · exact same h
    · split at h
      · cases h
      · exact same h
    · exact same h
    · exact same h
    · exact same h
  · exact same h
  · cases hg : ecma_builtin_get t heap curr_property.value with
    | error e => rw [hg] at h; cases h
    | ok r =>
      obtain ⟨q, heapg⟩ := r
      rw [hg] at h
      simp only [Except.ok.injEq, Prod.mk.injEq] at h
      obtain ⟨_, rfl⟩ := h
      obtain ⟨hpre, hlen, hkeep, _⟩ := ecma_builtin_get_heap t heap heapg _ q hg
      exact ⟨hpre, hlen, hkeep⟩
  · cases hg : ecma_builtin_make_function_object_for_routine t heap builtin_id magic_string_id
        (u8 curr_property.value) with
    | error e => rw [hg] at h; cases h
    | ok r =>
      obtain ⟨q, heapg⟩ := r
      rw [hg] at h
      simp only [Except.ok.injEq, Prod.mk.injEq] at h
      obtain ⟨_, rfl⟩ := h
      exact ecma_builtin_make_function_object_for_routine_heap t heap heapg _ _ _ q hg
  · cases h

/-- The materialization of a property value returns when the descriptor holds what its type
needs and the registry has `ECMA_BUILTIN_ID__COUNT` slots. -/
theorem ecma_builtin_property_value_total (t : ecma_builtin_tables) (heap : ecma_heap_t)
    (builtin_id magic_string_id : Nat) (curr_property : ecma_builtin_property_descriptor_t)
    (hlen : heap.ecma_builtin_objects.length = t.ECMA_BUILTIN_ID__COUNT)
    (hok : ecma_builtin_value_ok t builtin_id magic_string_id curr_property) :
    ∃ value heap1, ecma_builtin_property_value t heap builtin_id magic_string_id curr_property
      = .ok (value, heap1) := by
  rw [ecma_builtin_value_ok] at hok
  rw [ecma_builtin_property_value]
  split at hok
  · exact ⟨_, _, rfl⟩
  · by_cases h1 : curr_property.value < t.ECMA_BUILTIN_NUMBER_MAX
    · rw [if_pos h1]; exact ⟨_, _, rfl⟩
    rw [if_neg h1]
    by_cases h2 : curr_property.value < t.ECMA_BUILTIN_NUMBER_NAN
    · rw [if_pos h2]
      have h3 : curr_property.value - t.ECMA_BUILTIN_NUMBER_MAX < builtin_number_list.length := by
        rcases hok with h | h | h
        · exact absurd h h1
        · exact h.2
        · omega
      rcases hq : builtin_number_list[curr_property.value - t.ECMA_BUILTIN_NUMBER_MAX]?
        with _ | q
      · rw [List.getElem?_eq_none_iff] at hq; omega
      · exact ⟨_, _, rfl⟩
    rw [if_neg h2]
    by_cases h3 : curr_property.value = t.ECMA_BUILTIN_NUMBER_NAN
    · rw [if_pos h3]; exact ⟨_, _, rfl⟩
    rw [if_neg h3]
    by_cases h4 : curr_property.value = t.ECMA_BUILTIN_NUMBER_POSITIVE_INFINITY
    · rw [if_pos h4]; exact ⟨_, _, rfl⟩
    rw [if_neg h4]
    by_cases h5 : curr_property.value = t.ECMA_BUILTIN_NUMBER_NEGATIVE_INFINITY
    · rw [if_pos h5]; exact ⟨_, _, rfl⟩
    exfalso
    rcases hok with h | h | ⟨_, h | h | h⟩
    · exact h1 h
    · exact h2 h.1
    · exact h3 h
    · exact h4 h
    · exact h5 h
  · exact ⟨_, _, rfl⟩
  · obtain ⟨p, heap1, hg⟩ := ecma_builtin_get_total t heap curr_property.value hlen hok
    rw [hg]
    exact ⟨_, _, rfl⟩
  · obtain ⟨p, heapg, hg⟩ :=
      ecma_builtin_get_total t heap t.ECMA_BUILTIN_ID_FUNCTION_PROTOTYPE hlen hok.1
    rw [ecma_builtin_make_function_object_for_routine, hg]
    simp only [if_pos hok.2]
    exact ⟨_, _, rfl⟩
  · exact hok.elim

/-! ## Built-in objects: the instantiation bit -/

theorem bit_for_index_eq (index : Nat) (hi : index < 64) :
    (if index < 32 then (1 <<< index) % 2 ^ 32 else (1 <<< (index - 32)) % 2 ^ 32)
      = 2 ^ (index % 32) := by
  by_cases h : index < 32
  · rw [if_pos h, Nat.one_shiftLeft, Nat.mod_eq_of_lt h, Nat.mod_eq_of_lt]
    exact Nat.pow_lt_pow_right (by norm_num) h
  · rw [if_neg h, Nat.one_shiftLeft]
    have h1 : index % 32 = index - 32 := by omega
    rw [h1, Nat.mod_eq_of_lt]
    exact Nat.pow_lt_pow_right (by norm_num) (by omega)

theorem and_bit_ne_zero (v j : Nat) : (v &&& 2 ^ j ≠ 0) ↔ v.testBit j = true := by
  rw [Nat.and_two_pow]
  cases v.testBit j <;> simp

theorem mask_prop_id_eq (index : Nat) :
    (if index < 32 then
        ecma_internal_property_id_t.ECMA_INTERNAL_PROPERTY_NON_INSTANTIATED_BUILT_IN_MASK_0_31
      else
        ecma_internal_property_id_t.ECMA_INTERNAL_PROPERTY_NON_INSTANTIATED_BUILT_IN_MASK_32_63)
      = ecma_builtin_mask_prop_id index := rfl

/-- The loop over the descriptors stops at the first descriptor with the requested
identifier when no descriptor before it has that identifier or ends the list. -/
theorem ecma_builtin_find_descriptor_at (t : ecma_builtin_tables) (magic_string_id : Nat) :
    ∀ (l : List ecma_builtin_property_descriptor_t) (start index : Nat)
      (curr_property : ecma_builtin_property_descriptor_t),
      l[index]? = some curr_property →
      curr_property.magic_string_id = magic_string_id →
      (∀ (j : Nat) (d : ecma_builtin_property_descriptor_t), j < index → l[j]? = some d →
        d.magic_string_id ≠ magic_string_id
          ∧ d.magic_string_id ≠ t.LIT_MAGIC_STRING__COUNT) →
      ecma_builtin_find_descriptor t magic_string_id l start
        = .ok (some (start + index, curr_property)) := by
  intro l
  induction l with
  | nil => intro start index cur h; simp at h
  | cons d l ih =>
    intro start index cur h hm hf
    cases index with
    | zero =>
      simp only [List.getElem?_cons_zero, Option.some.injEq] at h
      subst h
      simp [ecma_builtin_find_descriptor, hm]
    | succ index =>
      have h0 := hf 0 d (Nat.succ_pos _) (by simp)
      rw [ecma_builtin_find_descriptor, if_pos h0.1, if_neg h0.2,
        ih (start + 1) index cur (by simpa using h) hm
          (fun j e hj he => hf (j + 1) e (by omega) (by simpa using he))]
      have h1 : start + 1 + index = start + (index + 1) := by omega
      rw [h1]

/-- The loop over the descriptors finds nothing when no descriptor before the one with
`LIT_MAGIC_STRING__COUNT` has the requested identifier. -/
theorem ecma_builtin_find_descriptor_absent (t : ecma_builtin_tables) (magic_string_id : Nat)
    (hid : magic_string_id ≠ t.LIT_MAGIC_STRING__COUNT) :
    ∀ (pre : List ecma_builtin_property_descriptor_t)
      (s : ecma_builtin_property_descriptor_t)
      (post : List ecma_builtin_property_descriptor_t) (start : Nat),
      (∀ d ∈ pre, d.magic_string_id ≠ magic_string_id) →
      s.magic_string_id = t.LIT_MAGIC_STRING__COUNT →
      ecma_builtin_find_descriptor t magic_string_id (pre ++ s :: post) start = .ok none := by
  intro pre
  induction pre with
  | nil =>
    intro s post start _ hs
    have h1 : s.magic_string_id ≠ magic_string_id := by rw [hs]; exact fun h => hid h.symm
    simp only [List.nil_append]
    rw [ecma_builtin_find_descriptor, if_pos h1, if_pos hs]
  | cons d pre ih =>
    intro s post start hpre hs
    have h1 : d.magic_string_id ≠ magic_string_id := hpre d (List.mem_cons_self _ _)
    simp only [List.cons_append]
    rw [ecma_builtin_find_descriptor, if_pos h1]
    by_cases h2 : d.magic_string_id = t.LIT_MAGIC_STRING__COUNT
    · rw [if_pos h2]
    · rw [if_neg h2]
      exact ih s post (start + 1) (fun e he => hpre e (List.mem_cons_of_mem _ he)) hs

/-- The test of the instantiation bit with a set bit: `none`. -/
theorem ecma_builtin_test_instantiated_set (object : ecma_object_t)
    (mask_prop_id : ecma_internal_property_id_t) (j v : Nat)
    (hmask : ecma_find_internal_property object mask_prop_id
      = some (ecma_internal_value_t.uint32 v))
    (hbit : v.testBit j = true) :
    ecma_builtin_test_instantiated object mask_prop_id (2 ^ j) = .ok none := by
  rw [ecma_builtin_test_instantiated, hmask]
  simp only
  rw [if_pos ((and_bit_ne_zero v j).2 hbit)]

/-- The test of the instantiation bit when it lets the instantiation go on: the bit set read
is the one of the object, its bit is clear, and the object it hands on holds that bit set in
the mask property and is otherwise the object. -/
theorem ecma_builtin_test_instantiated_some (object object1 : ecma_object_t)
    (mask_prop_id : ecma_internal_property_id_t) (j bitset : Nat)
    (h : ecma_builtin_test_instantiated object mask_prop_id (2 ^ j)
      = .ok (some (object1, bitset))) :
    bitset = ecma_builtin_instantiated_bitset object mask_prop_id
      ∧ bitset.testBit j = false
      ∧ ecma_find_internal_property object1 mask_prop_id
          = some (ecma_internal_value_t.uint32 bitset)
      ∧ (∀ id, id ≠ mask_prop_id →
          ecma_find_internal_property object1 id = ecma_find_internal_property object id)
      ∧ object1.named_properties = object.named_properties
      ∧ object1.is_builtin = object.is_builtin
      ∧ object1.type = object.type := by
  rw [ecma_builtin_test_instantiated] at h
  rcases hf : ecma_find_internal_property object mask_prop_id with _ | v
  · rw [hf] at h
    simp only [Except.ok.injEq, Option.some.injEq, Prod.mk.injEq] at h
    obtain ⟨rfl, rfl⟩ := h
    refine ⟨?_, by simp, find_create_same _ _, fun id hne => find_create_other _ hne,
      rfl, rfl, rfl⟩
    simp [ecma_builtin_instantiated_bitset, hf]
  · rw [hf] at h
    cases v with
    | uint32 w =>
      simp only at h
      by_cases hb : w &&& 2 ^ j ≠ 0
      · rw [if_pos hb] at h
        simp at h
      · rw [if_neg hb] at h
        simp only [Except.ok.injEq, Option.some.injEq, Prod.mk.injEq] at h
        obtain ⟨rfl, rfl⟩ := h
        refine ⟨?_, ?_, hf, fun _ _ => rfl, rfl, rfl, rfl⟩
        · simp [ecma_builtin_instantiated_bitset, hf]
        · rw [and_bit_ne_zero] at hb
          simpa using hb
    | ecma_value _ => simp at h
    | number_p _ => simp at h
    | null_pointer => simp at h

/-- The test of the instantiation bit with a clear bit hands on an object and a bit set. -/
theorem ecma_builtin_test_instantiated_clear (object : ecma_object_t)
    (mask_prop_id : ecma_internal_property_id_t) (j : Nat)
    (hmask : ecma_find_internal_property object mask_prop_id = none
      ∨ ∃ v, ecma_find_internal_property object mask_prop_id
            = some (ecma_internal_value_t.uint32 v) ∧ v.testBit j = false) :
    ∃ object1 bitset, ecma_builtin_test_instantiated object mask_prop_id (2 ^ j)
      = .ok (some (object1, bitset)) := by
  rw [ecma_builtin_test_instantiated]
  rcases hmask with hf | ⟨v, hf, hb⟩
  · rw [hf]
    exact ⟨_, _, rfl⟩
  · rw [hf]
    have hb1 : ¬ (v &&& 2 ^ j ≠ 0) := by
      rw [and_bit_ne_zero, hb]
      simp
    simp only
    rw [if_neg hb1]
    exact ⟨_, _, rfl⟩

/-- An object behind a valid pointer stays where it is when the heap is extended. -/
theorem extended_getElem? {α : Type} {l1 l2 : List α} (h : l1 <+: l2) {i : Nat} {a : α}
    (hi : l1[i]? = some a) : l2[i]? = some a := by
  obtain ⟨r, rfl⟩ := h
  have hlt : i < l1.length := by
    rcases Nat.lt_or_ge i l1.length with h1 | h1
    · exact h1
    · rw [List.getElem?_eq_none h1] at hi; cases hi
  rw [List.getElem?_append_left hlt]
  exact hi

/-- The instantiation of a descriptor whose bit is set: `NULL`, and the heap is the one
before. -/
theorem ecma_builtin_instantiate_descriptor_set (t : ecma_builtin_tables) (heap : ecma_heap_t)
    (object_p : Nat) (object : ecma_object_t) (string_p : ecma_string_t)
    (builtin_id magic_string_id index : Nat)
    (curr_property : ecma_builtin_property_descriptor_t) (v : Nat)
    (hi : index < 64)
    (hmask : ecma_find_internal_property object (ecma_builtin_mask_prop_id index)
      = some (ecma_internal_value_t.uint32 v))
    (hbit : v.testBit (index % 32) = true) :
    ecma_builtin_instantiate_descriptor t heap object_p object string_p builtin_id
      magic_string_id index curr_property = .ok (none, heap) := by
  rw [ecma_builtin_instantiate_descriptor, if_pos hi]
  simp only [bit_for_index_eq index hi, mask_prop_id_eq,
    ecma_builtin_test_instantiated_set object _ _ v hmask hbit]

/-- The instantiation of a descriptor when it returns a property: the object behind the
pointer is the former object with the bit of the descriptor set in the mask property and
the new named data property in front, the property returned has the name, the attributes of
the descriptor and the value materialized in the heap that holds the updated mask. -/
theorem ecma_builtin_instantiate_descriptor_some (t : ecma_builtin_tables)
    (heap heap1 : ecma_heap_t) (object_p : Nat) (object : ecma_object_t)
    (string_p : ecma_string_t) (builtin_id magic_string_id index : Nat)
    (curr_property : ecma_builtin_property_descriptor_t) (prop : ecma_property_t)
    (hobj : heap.objects[object_p]? = some object)
    (h : ecma_builtin_instantiate_descriptor t heap object_p object string_p builtin_id
      magic_string_id index curr_property = .ok (some prop, heap1)) :
    ∃ object2 value heap3,
      index < 64
      ∧ (ecma_builtin_instantiated_bitset object (ecma_builtin_mask_prop_id index)).testBit
          (index % 32) = false
      ∧ ecma_find_internal_property object2 (ecma_builtin_mask_prop_id index)
          = some (ecma_internal_value_t.uint32
              (ecma_builtin_instantiated_bitset object (ecma_builtin_mask_prop_id index)
                ||| 2 ^ (index % 32)))
      ∧ (∀ id, id ≠ ecma_builtin_mask_prop_id index →
          ecma_find_internal_property object2 id = ecma_find_internal_property object id)
      ∧ object2.named_properties = object.named_properties
      ∧ object2.is_builtin = object.is_builtin
      ∧ object2.type = object.type
      ∧ ecma_builtin_property_value t (heap.store object_p object2) builtin_id
          magic_string_id curr_property = .ok (value, heap3)
      ∧ heap3.objects[object_p]? = some object2
      ∧ prop = { name := string_p, attributes := curr_property.attributes,
                 value := some value }
      ∧ heap1 = heap3.store object_p
          (ecma_create_named_data_property object2 string_p curr_property.attributes
            value) := by
  rw [ecma_builtin_instantiate_descriptor] at h
  by_cases hi : index < 64
  swap
  · rw [if_neg hi] at h; cases h
  rw [if_pos hi] at h
  simp only [bit_for_index_eq index hi, mask_prop_id_eq] at h
  rcases ht : ecma_builtin_test_instantiated object (ecma_builtin_mask_prop_id index)
      (2 ^ (index % 32)) with e | r
  · rw [ht] at h; cases h
  rw [ht] at h
  rcases r with _ | ⟨object1, bitset⟩
  · simp at h
  simp only at h
  obtain ⟨hbs, hclear, hf1, hother, hnamed, hbuiltin, htype⟩ :=
    ecma_builtin_test_instantiated_some object object1 _ _ bitset ht
  rcases hv : ecma_builtin_property_value t
      (heap.store object_p
        (ecma_set_internal_property_value object1 (ecma_builtin_mask_prop_id index)
          (ecma_internal_value_t.uint32 (bitset ||| 2 ^ (index % 32)))))
      builtin_id magic_string_id curr_property with e | r
  · rw [hv] at h; cases h
  obtain ⟨value, heap3⟩ := r
  rw [hv] at h
  simp only at h
  obtain ⟨hpre, _, _⟩ := ecma_builtin_property_value_heap t _ heap3 _ _ _ value hv
  have hlt : object_p < heap.objects.length := by
    rcases Nat.lt_or_ge object_p heap.objects.length with h1 | h1
    · exact h1
    · rw [List.getElem?_eq_none h1] at hobj; cases hobj
  have h2 : (heap.store object_p
      (ecma_set_internal_property_value object1 (ecma_builtin_mask_prop_id index)
        (ecma_internal_value_t.uint32 (bitset ||| 2 ^ (index % 32))))).objects[object_p]?
      = some (ecma_set_internal_property_value object1 (ecma_builtin_mask_prop_id index)
        (ecma_internal_value_t.uint32 (bitset ||| 2 ^ (index % 32)))) := by
    show (heap.objects.set object_p _)[object_p]? = _
    rw [List.getElem?_set_self hlt]
  have h3 := extended_getElem? hpre h2
  rw [h3] at h
  simp only [Except.ok.injEq, Prod.mk.injEq, Option.some.injEq] at h
  obtain ⟨hprop, hheap⟩ := h
  subst hbs
  refine ⟨ecma_set_internal_property_value object1 (ecma_builtin_mask_prop_id index)
      (ecma_internal_value_t.uint32
        (ecma_builtin_instantiated_bitset object (ecma_builtin_mask_prop_id index)
          ||| 2 ^ (index % 32))),
    value, heap3, hi, hclear, ?_, ?_, hnamed, hbuiltin, htype, hv, h3,
    hprop.symm, hheap.symm⟩
  · rw [find_set_same, hf1]
    rfl
  · intro id hne
    rw [find_set_other _ _ hne]
    exact hother id hne

/-! ## Built-in objects: `ecma_builtin_try_to_instantiate_property` -/

/-- For a non-function built-in and a magic string the function is the loop over the
descriptors followed by the instantiation of the descriptor found. -/
theorem try_to_instantiate_magic (t : ecma_builtin_tables) (heap : ecma_heap_t)
    (object_p : Nat) (object : ecma_object_t) (magic_string_id builtin_id : Nat)
    (builtin : ecma_builtin_description_t)
    (hobj : heap.objects[object_p]? = some object)
    (hb : object.is_builtin = true)
    (hty : object.type ≠ t.ECMA_OBJECT_TYPE_BUILT_IN_FUNCTION)
    (hid : ecma_find_internal_property object
        ecma_internal_property_id_t.ECMA_INTERNAL_PROPERTY_BUILT_IN_ID
      = some (ecma_internal_value_t.uint32 builtin_id))
    (hreg : heap.ecma_builtin_objects[builtin_id]? = some (some object_p))
    (hbi : t.builtins[builtin_id]? = some builtin) :
    ecma_builtin_try_to_instantiate_property t heap object_p
        (ecma_string_t.magic magic_string_id)
      = match ecma_builtin_find_descriptor t magic_string_id
            builtin.property_descriptor_list 0 with
        | .error e => .error e
        | .ok none => .ok (none, heap)
        | .ok (some (index, curr_property)) =>
          ecma_builtin_instantiate_descriptor t heap object_p object
            (ecma_string_t.magic magic_string_id) builtin_id magic_string_id index
            curr_property := by
  have hlt : object_p < heap.objects.length := by
    rcases Nat.lt_or_ge object_p heap.objects.length with h1 | h1
    · exact h1
    · rw [List.getElem?_eq_none h1] at hobj; cases hobj
  have hblt : builtin_id < t.ECMA_BUILTIN_ID__COUNT := by
    rcases Nat.lt_or_ge builtin_id t.builtins.length with h1 | h1
    · exact h1
    · rw [List.getElem?_eq_none h1] at hbi; cases hbi
  have his : (ecma_builtin_is t heap object_p builtin_id).toOption = some true := by
    rw [ecma_builtin_is, if_pos ⟨hlt, hblt⟩, hreg]
    simp [Except.toOption]
  rw [ecma_builtin_try_to_instantiate_property, hobj]
  simp only [hb, if_true, if_neg hty, hid]
  rw [if_pos ⟨hblt, his⟩]
  simp only [hbi]

/-- When the function returns a property for a non-function built-in, the name is a magic
string, the object holds the identifier of a built-in of the table whose slot is the
object, and the descriptor found for the name was instantiated. -/
theorem try_to_instantiate_some (t : ecma_builtin_tables) (heap heap1 : ecma_heap_t)
    (object_p : Nat) (object : ecma_object_t) (string_p : ecma_string_t)
    (prop : ecma_property_t)
    (hobj : heap.objects[object_p]? = some object)
    (hty : object.type ≠ t.ECMA_OBJECT_TYPE_BUILT_IN_FUNCTION)
    (h : ecma_builtin_try_to_instantiate_property t heap object_p string_p
      = .ok (some prop, heap1)) :
    ∃ magic_string_id builtin_id builtin index curr_property,
      string_p = ecma_string_t.magic magic_string_id
      ∧ object.is_builtin = true
      ∧ ecma_find_internal_property object
          ecma_internal_property_id_t.ECMA_INTERNAL_PROPERTY_BUILT_IN_ID
        = some (ecma_internal_value_t.uint32 builtin_id)
      ∧ heap.ecma_builtin_objects[builtin_id]? = some (some object_p)
      ∧ t.builtins[builtin_id]? = some builtin
      ∧ ecma_builtin_find_descriptor t magic_string_id builtin.property_descriptor_list 0
        = .ok (some (index, curr_property))
      ∧ ecma_builtin_instantiate_descriptor t heap object_p object string_p builtin_id
          magic_string_id index curr_property = .ok (some prop, heap1) := by
  rw [ecma_builtin_try_to_instantiate_property, hobj] at h
  simp only at h
  cases hb : object.is_builtin with
  | false => rw [hb] at h; simp at h
  | true =>
    rw [hb] at h
    simp only [if_true, if_neg hty] at h
    cases string_p with
    | chars bytes => simp at h
    | magic magic_string_id =>
      simp only at h
      rcases hid : ecma_find_internal_property object
          ecma_internal_property_id_t.ECMA_INTERNAL_PROPERTY_BUILT_IN_ID with _ | v
      · rw [hid] at h; simp at h
      rw [hid] at h
      cases v with
      | uint32 builtin_id =>
        simp only at h
        by_cases hc : builtin_id < t.ECMA_BUILTIN_ID__COUNT
            ∧ (ecma_builtin_is t heap object_p builtin_id).toOption = some true
        swap
        · rw [if_neg hc] at h; cases h
        rw [if_pos hc] at h
        have hreg : heap.ecma_builtin_objects[builtin_id]? = some (some object_p) := by
          have h2 := hc.2
          rw [ecma_builtin_is] at h2
          split_ifs at h2
          · rcases hq : heap.ecma_builtin_objects[builtin_id]? with _ | _ | q
            · simp [hq, Except.toOption] at h2
            · simp [hq, Except.toOption] at h2
            · simp [hq, Except.toOption] at h2
              rw [h2]
          · simp [Except.toOption] at h2
        rcases hbi : t.builtins[builtin_id]? with _ | builtin
        · rw [hbi] at h; cases h
        rw [hbi] at h
        simp only at h
        rcases hfd : ecma_builtin_find_descriptor t magic_string_id
            builtin.property_descriptor_list 0 with e | r
        · rw [hfd] at h; cases h
        rw [hfd] at h
        rcases r with _ | ⟨index, curr_property⟩
        · simp at h
        simp only at h
        exact ⟨magic_string_id, builtin_id, builtin, index, curr_property, rfl, rfl, rfl,
          hreg, hbi, hfd, h⟩
      | ecma_value _ => simp at h
      | number_p _ => simp at h
      | null_pointer => simp at h

/-- The instantiation of a descriptor whose bit is clear returns a property when the
descriptor holds what its type needs. -/
theorem ecma_builtin_instantiate_descriptor_clear (t : ecma_builtin_tables)
    (heap : ecma_heap_t) (object_p : Nat) (object : ecma_object_t)
    (string_p : ecma_string_t) (builtin_id magic_string_id index : Nat)
    (curr_property : ecma_builtin_property_descriptor_t)
    (hobj : heap.objects[object_p]? = some object)
    (hlen : heap.ecma_builtin_objects.length = t.ECMA_BUILTIN_ID__COUNT)
    (hi : index < 64)
    (hmask : ecma_find_internal_property object (ecma_builtin_mask_prop_id index) = none
      ∨ ∃ v, ecma_find_internal_property object (ecma_builtin_mask_prop_id index)
            = some (ecma_internal_value_t.uint32 v) ∧ v.testBit (index % 32) = false)
    (hok : ecma_builtin_value_ok t builtin_id magic_string_id curr_property) :
    ∃ prop heap1, ecma_builtin_instantiate_descriptor t heap object_p object string_p
      builtin_id magic_string_id index curr_property = .ok (some prop, heap1) := by
  rw [ecma_builtin_instantiate_descriptor, if_pos hi]
  simp only [bit_for_index_eq index hi, mask_prop_id_eq]
  obtain ⟨object1, bitset, ht⟩ := ecma_builtin_test_instantiated_clear object _ _ hmask
  rw [ht]
  simp only
  obtain ⟨value, heap3, hv⟩ := ecma_builtin_property_value_total t
    (heap.store object_p
      (ecma_set_internal_property_value object1 (ecma_builtin_mask_prop_id index)
        (ecma_internal_value_t.uint32 (bitset ||| 2 ^ (index % 32)))))
    builtin_id magic_string_id curr_property hlen hok
  rw [hv]
  simp only
  obtain ⟨hpre, _, _⟩ := ecma_builtin_property_value_heap t _ heap3 _ _ _ value hv
  have hlt : object_p < heap.objects.length := by
    rcases Nat.lt_or_ge object_p heap.objects.length with h1 | h1
    · exact h1
    · rw [List.getElem?_eq_none h1] at hobj; cases hobj
  have h2 : (heap.store object_p
      (ecma_set_internal_property_value object1 (ecma_builtin_mask_prop_id index)
        (ecma_internal_value_t.uint32 (bitset ||| 2 ^ (index % 32))))).objects[object_p]?
      = some (ecma_set_internal_property_value object1 (ecma_builtin_mask_prop_id index)
        (ecma_internal_value_t.uint32 (bitset ||| 2 ^ (index % 32)))) := by
    show (heap.objects.set object_p _)[object_p]? = _
    rw [List.getElem?_set_self hlt]
  rw [extended_getElem? hpre h2]
  exact ⟨_, _, rfl⟩

/-- The bits of a bit set with one more bit. -/
theorem testBit_or_two_pow (v j k : Nat) :
    (v ||| 2 ^ j).testBit k = (decide (k = j) || v.testBit k) := by
  rw [Nat.testBit_or, Nat.testBit_two_pow, Bool.or_comm]
  congr 1
  by_cases h : k = j
  · subst h; simp
  · have h1 : ¬ j = k := fun e => h e.symm
    simp [h, h1]

/-! ## Lazy instantiation of the properties of a built-in -/

/-- C19: for a non-function built-in, when the instantiation bit of the descriptor that
matches the name is set, `ecma_builtin_try_to_instantiate_property` returns `NULL` and the
heap is the one before (no property is created, the masks are unchanged), whatever named
properties the object has; hence after a call that instantiated a property, a further call
for the same name returns `NULL` again, also when the named properties of the object were
replaced in between (the property deleted). -/
theorem C19_instantiated_property_not_recreated (t : ecma_builtin_tables)
    (heap : ecma_heap_t) (object_p : Nat) (object : ecma_object_t)
    (hobj : heap.objects[object_p]? = some object)
    (hty : object.type ≠ t.ECMA_OBJECT_TYPE_BUILT_IN_FUNCTION) :
    (∀ (magic_string_id builtin_id : Nat) (builtin : ecma_builtin_description_t)
        (index : Nat) (curr_property : ecma_builtin_property_descriptor_t) (v : Nat),
      object.is_builtin = true →
      ecma_find_internal_property object
          ecma_internal_property_id_t.ECMA_INTERNAL_PROPERTY_BUILT_IN_ID
        = some (ecma_internal_value_t.uint32 builtin_id) →
      heap.ecma_builtin_objects[builtin_id]? = some (some object_p) →
      t.builtins[builtin_id]? = some builtin →
      builtin.property_descriptor_list[index]? = some curr_property →
      curr_property.magic_string_id = magic_string_id →
      (∀ (j : Nat) (d : ecma_builtin_property_descriptor_t), j < index →
        builtin.property_descriptor_list[j]? = some d →
        d.magic_string_id ≠ magic_string_id
          ∧ d.magic_string_id ≠ t.LIT_MAGIC_STRING__COUNT) →
      index < 64 →
      ecma_find_internal_property object (ecma_builtin_mask_prop_id index)
        = some (ecma_internal_value_t.uint32 v) →
      v.testBit (index % 32) = true →
      ecma_builtin_try_to_instantiate_property t heap object_p
          (ecma_string_t.magic magic_string_id) = .ok (none, heap))
    ∧ (∀ (string_p : ecma_string_t) (prop : ecma_property_t) (heap1 : ecma_heap_t)
        (object1 : ecma_object_t) (props : List ecma_property_t),
      ecma_builtin_try_to_instantiate_property t heap object_p string_p
        = .ok (some prop, heap1) →
      heap1.objects[object_p]? = some object1 →
      ecma_builtin_try_to_instantiate_property t
          (heap1.store object_p { object1 with named_properties := props }) object_p string_p
        = .ok (none, heap1.store object_p { object1 with named_properties := props })) := by
  constructor
  · intro magic_string_id builtin_id builtin index curr_property v hb hid hreg hbi hcur hname
      hfirst hi hmask hbit
    have hfd := ecma_builtin_find_descriptor_at t magic_string_id
      builtin.property_descriptor_list 0 index curr_property hcur hname hfirst
    rw [Nat.zero_add] at hfd
    rw [try_to_instantiate_magic t heap object_p object magic_string_id builtin_id
      builtin hobj hb hty hid hreg hbi, hfd]
    exact ecma_builtin_instantiate_descriptor_set t heap object_p object _ builtin_id
      magic_string_id index curr_property v hi hmask hbit
  · intro string_p prop heap1 object1 props h h1
    obtain ⟨magic_string_id, builtin_id, builtin, index, curr_property, rfl, hb, hid, hreg,
      hbi, hfd, hd⟩ := try_to_instantiate_some t heap heap1 object_p object string_p prop
        hobj hty h
    obtain ⟨object2, value, heap3, hi, _, hf2, hother, _, hbuiltin, htype, hv, h3, _,
      hheap⟩ := ecma_builtin_instantiate_descriptor_some t heap heap1 object_p object _
        builtin_id magic_string_id index curr_property prop hobj hd
    subst hheap
    have hlt3 : object_p < heap3.objects.length := by
      rcases Nat.lt_or_ge object_p heap3.objects.length with h4 | h4
      · exact h4
      · rw [List.getElem?_eq_none h4] at h3; cases h3
    have h5 : object1 = ecma_create_named_data_property object2
        (ecma_string_t.magic magic_string_id) curr_property.attributes value := by
      have h6 : (heap3.objects.set object_p
          (ecma_create_named_data_property object2 (ecma_string_t.magic magic_string_id)
            curr_property.attributes value))[object_p]? = some object1 := h1
      rw [List.getElem?_set_self hlt3] at h6
      cases h6
      rfl
    subst h5
    obtain ⟨_, _, hkeep⟩ := ecma_builtin_property_value_heap t _ heap3 _ _ _ value hv
    have hne : ecma_internal_property_id_t.ECMA_INTERNAL_PROPERTY_BUILT_IN_ID
        ≠ ecma_builtin_mask_prop_id index := by
      unfold ecma_builtin_mask_prop_id
      split_ifs <;> exact fun e => by cases e
    rw [try_to_instantiate_magic t
      ((heap3.store object_p
        (ecma_create_named_data_property object2 (ecma_string_t.magic magic_string_id)
          curr_property.attributes value)).store object_p
        { ecma_create_named_data_property object2 (ecma_string_t.magic magic_string_id)
            curr_property.attributes value with named_properties := props })
      object_p
      { ecma_create_named_data_property object2 (ecma_string_t.magic magic_string_id)
          curr_property.attributes value with named_properties := props }
      magic_string_id builtin_id builtin
      (by
        show ((heap3.objects.set object_p _).set object_p _)[object_p]? = _
        rw [List.getElem?_set_self (by rw [List.length_set]; exact hlt3)])
      (hbuiltin.trans hb)
      (by
        show object2.type ≠ _
        rw [htype]
        exact hty)
      ((hother _ hne).trans hid)
      (hkeep builtin_id object_p hreg) hbi, hfd]
    exact ecma_builtin_instantiate_descriptor_set t _ object_p _ _ builtin_id
      magic_string_id index curr_property _ hi hf2
      (by rw [testBit_or_two_pow]; simp)

/-- Witness of C19: in `builtin_example_heap` the call for the name 7 instantiates the
property; with the property deleted from the object the next call for the name 7 returns
`NULL` and changes nothing. -/
theorem C19_instantiated_property_not_recreated_witness :
    ∃ prop heap1 object1,
      ecma_builtin_try_to_instantiate_property builtin_example_tables builtin_example_heap 0
          (ecma_string_t.magic 7) = .ok (some prop, heap1)
      ∧ heap1.objects[0]? = some object1
      ∧ object1.named_properties = [prop]
      ∧ ecma_builtin_try_to_instantiate_property builtin_example_tables
          (heap1.store 0 { object1 with named_properties := [] }) 0 (ecma_string_t.magic 7)
        = .ok (none, heap1.store 0 { object1 with named_properties := [] }) :=
  ⟨_, _, _, rfl, rfl, rfl,
    (C19_instantiated_property_not_recreated builtin_example_tables builtin_example_heap 0
      builtin_example_object rfl (by decide)).2 _ _ _ _ [] rfl rfl⟩

/-- C20: for a non-function built-in, `ecma_builtin_try_to_instantiate_property` returns
`NULL` and leaves the heap as it is (the properties of the object and both instantiation
masks among it) when the name is not a magic string, and when the name is a magic string
(its identifier is not `LIT_MAGIC_STRING__COUNT`) that no descriptor of the built-in has
before the descriptor with `LIT_MAGIC_STRING__COUNT`. -/
theorem C20_absent_name_not_instantiated (t : ecma_builtin_tables) (heap : ecma_heap_t)
    (object_p : Nat) (object : ecma_object_t)
    (hobj : heap.objects[object_p]? = some object)
    (hb : object.is_builtin = true)
    (hty : object.type ≠ t.ECMA_OBJECT_TYPE_BUILT_IN_FUNCTION) :
    (∀ bytes : List Nat,
      ecma_builtin_try_to_instantiate_property t heap object_p (ecma_string_t.chars bytes)
        = .ok (none, heap))
    ∧ (∀ (magic_string_id builtin_id : Nat) (builtin : ecma_builtin_description_t)
        (pre : List ecma_builtin_property_descriptor_t)
        (s : ecma_builtin_property_descriptor_t)
        (post : List ecma_builtin_property_descriptor_t),
      ecma_find_internal_property object
          ecma_internal_property_id_t.ECMA_INTERNAL_PROPERTY_BUILT_IN_ID
        = some (ecma_internal_value_t.uint32 builtin_id) →
      heap.ecma_builtin_objects[builtin_id]? = some (some object_p) →
      t.builtins[builtin_id]? = some builtin →
      builtin.property_descriptor_list = pre ++ s :: post →
      s.magic_string_id = t.LIT_MAGIC_STRING__COUNT →
      (∀ d ∈ pre, d.magic_string_id ≠ magic_string_id) →
      magic_string_id ≠ t.LIT_MAGIC_STRING__COUNT →
      ecma_builtin_try_to_instantiate_property t heap object_p
          (ecma_string_t.magic magic_string_id) = .ok (none, heap)) := by
  constructor
  · intro bytes
    rw [ecma_builtin_try_to_instantiate_property, hobj]
    simp only [hb, if_true, if_neg hty]
  · intro magic_string_id builtin_id builtin pre s post hid hreg hbi hlist hs hpre hne
    rw [try_to_instantiate_magic t heap object_p object magic_string_id builtin_id
      builtin hobj hb hty hid hreg hbi, hlist,
      ecma_builtin_find_descriptor_absent t magic_string_id hne pre s post 0 hpre hs]

/-- Witness of C20: in `builtin_example_heap` neither the string with the bytes 120 nor the
magic string 8, which built-in 0 does not have, is instantiated. -/
theorem C20_absent_name_not_instantiated_witness :
    ecma_builtin_try_to_instantiate_property builtin_example_tables builtin_example_heap 0
        (ecma_string_t.chars [120]) = .ok (none, builtin_example_heap)
      ∧ ecma_builtin_try_to_instantiate_property builtin_example_tables builtin_example_heap 0
        (ecma_string_t.magic 8) = .ok (none, builtin_example_heap) :=
  ⟨(C20_absent_name_not_instantiated builtin_example_tables builtin_example_heap 0
      builtin_example_object rfl rfl (by decide)).1 [120],
    (C20_absent_name_not_instantiated builtin_example_tables builtin_example_heap 0
      builtin_example_object rfl rfl (by decide)).2 8 0 _ builtin_example_descriptors
      builtin_example_sentinel [] rfl rfl rfl rfl rfl (by decide) (by decide)⟩

/-! ## The branch update, byte by byte -/

theorem page_read_count_cursor {t : cbc_tables} {pages : List parser_mem_page_t}
    {chain : List Nat} {x c : Nat}
    (h : page_read_count pages (cursor t chain x).1 (cursor t chain x).2 = .ok c) :
    ∃ b, stream_read t pages chain x = some b ∧ c = b &&& CBC_LOWER_SEVEN_BIT_MASK := by
  unfold page_read_count at h
  cases hr : page_read pages (cursor t chain x).1 (cursor t chain x).2 with
  | error e => rw [hr] at h; cases h
  | ok b =>
    rw [hr] at h
    cases h
    exact ⟨b, (page_read_ok_iff t pages chain x b).mp hr, rfl⟩

theorem update_step_spec {t : cbc_tables} {chain : List Nat}
    {final : List parser_mem_page_t} {base r : Nat} {st st1 : update_state}
    (hn : 0 < t.PARSER_CBC_STREAM_PAGE_SIZE) (hat : upd_at t chain final r st)
    (h : update_step t base st = .ok st1) :
    ∃ b, stream_read t final chain r = some b ∧ upd_at t chain final (r + 1) st1
      ∧ (b &&& CBC_HIGHEST_BIT_MASK = 0 → st1.code = st.code)
      ∧ (b &&& CBC_HIGHEST_BIT_MASK ≠ 0 → update_branch t base st = .ok st1.code) := by
  obtain ⟨hp, hl, hbytes, hc, hprev, hcopied⟩ := hat
  have hpp : st.page_p = (cursor t chain r).1 := congrArg Prod.fst hc
  have hoo : st.offset = (cursor t chain r).2 := congrArg Prod.snd hc
  have hsd := succ_div_mod t.PARSER_CBC_STREAM_PAGE_SIZE r hn
  unfold update_step at h
  cases hr : page_read st.pages st.page_p st.offset with
  | error e => rw [hr] at h; cases h
  | ok b =>
    rw [hr] at h
    dsimp only at h
    have hb : stream_read t final chain r = some b := by
      rw [hpp, hoo] at hr
      rw [← hbytes]
      exact (page_read_ok_iff t st.pages chain r b).mp hr
    have hrlt : r / t.PARSER_CBC_STREAM_PAGE_SIZE < chain.length := by
      have := stream_read_lt hn (by rw [hbytes]; exact hb : stream_read t st.pages chain r = some b)
      exact div_lt_of_lt_mul' this
    split at h
    · cases h
    · rename_i code1 hcode
      have hcode1 : (b &&& CBC_HIGHEST_BIT_MASK = 0 → code1 = st.code)
          ∧ (b &&& CBC_HIGHEST_BIT_MASK ≠ 0 → update_branch t base st = .ok code1) := by
        by_cases hbit : b &&& CBC_HIGHEST_BIT_MASK ≠ 0
        · rw [if_pos hbit] at hcode
          exact ⟨fun h0 => absurd h0 hbit, fun _ => hcode⟩
        · rw [if_neg hbit] at hcode
          cases hcode
          exact ⟨fun _ => rfl, fun h0 => absurd h0 hbit⟩
      refine ⟨b, hb, ?_⟩
      by_cases hge : st.offset + 1 ≥ t.PARSER_CBC_STREAM_PAGE_SIZE
      · rw [if_pos hge] at h
        obtain ⟨hd, hm⟩ := hsd.2 (by
          rw [hoo] at hge
          have : (cursor t chain r).2 = r % t.PARSER_CBC_STREAM_PAGE_SIZE := rfl
          omega)
        obtain ⟨p, page, hcp, hpg, hpa, hlen⟩ := page_at_some hp hrlt
        have hpp2 : st.page_p = some p := by rw [hpp]; exact hcp
        rw [hpp2] at h
        dsimp only at h
        rw [hpg] at h
        dsimp only at h
        have hset := page_at_set hp.1 hcp hpg { page with next_p := st.prev_page_p }
        have hnext : page.next_p = chain[r / t.PARSER_CBC_STREAM_PAGE_SIZE + 1]? := by
          have := hl _ hrlt
          rw [hpa] at this
          simpa using this
        have hp1 : pages_ok t (st.pages.set p { page with next_p := st.prev_page_p }) chain := by
          refine ⟨hp.1, ?_⟩
          intro i hi
          rw [hset]
          by_cases hie : i = r / t.PARSER_CBC_STREAM_PAGE_SIZE
          · rw [if_pos hie]
            simpa using hlen
          · rw [if_neg hie]
            exact hp.2 i hi
        have hbytes1 : ∀ x, stream_read t (st.pages.set p { page with next_p := st.prev_page_p })
            chain x = stream_read t final chain x := by
          intro x
          rw [← hbytes x]
          unfold stream_read
          rw [hset]
          by_cases hie : x / t.PARSER_CBC_STREAM_PAGE_SIZE = r / t.PARSER_CBC_STREAM_PAGE_SIZE
          · rw [if_pos hie, hie, hpa]
            rfl
          · rw [if_neg hie]
        cases hcnt : page_read_count (st.pages.set p { page with next_p := st.prev_page_p })
            (some p) (t.PARSER_CBC_STREAM_PAGE_SIZE - 1) with
        | error e => rw [hcnt] at h; cases h
        | ok count =>
          rw [hcnt] at h
          dsimp only at h
          cases h
          have hlast : r / t.PARSER_CBC_STREAM_PAGE_SIZE * t.PARSER_CBC_STREAM_PAGE_SIZE
              + (t.PARSER_CBC_STREAM_PAGE_SIZE - 1) = r := by
            have h1 := Nat.div_add_mod r t.PARSER_CBC_STREAM_PAGE_SIZE
            have h2 : (r + 1) % t.PARSER_CBC_STREAM_PAGE_SIZE = 0 := hm
            have h3 : r % t.PARSER_CBC_STREAM_PAGE_SIZE + 1 = t.PARSER_CBC_STREAM_PAGE_SIZE := by
              rw [hoo] at hge
              have h4 : (cursor t chain r).2 = r % t.PARSER_CBC_STREAM_PAGE_SIZE := rfl
              have h5 := Nat.mod_lt r hn
              omega
            rw [Nat.mul_comm] at h1
            omega
          have hcount : count = page_total t final chain (r / t.PARSER_CBC_STREAM_PAGE_SIZE) := by
            have hcur : (some p, t.PARSER_CBC_STREAM_PAGE_SIZE - 1) = cursor t chain r := by
              unfold cursor
              rw [hcp]
              congr 1
              have h1 := Nat.div_add_mod r t.PARSER_CBC_STREAM_PAGE_SIZE
              rw [Nat.mul_comm] at h1
              omega
            have e1 : (some p : Option Nat) = (cursor t chain r).1 := congrArg Prod.fst hcur
            have e2 : t.PARSER_CBC_STREAM_PAGE_SIZE - 1 = (cursor t chain r).2 :=
              congrArg Prod.snd hcur
            rw [e1, e2] at hcnt
            obtain ⟨b2, hb2, hc2⟩ := page_read_count_cursor hcnt
            rw [hbytes1] at hb2
            unfold page_total
            rw [hlast, hb2, hc2]
            rfl
          refine ⟨⟨hp1, ?_, hbytes1, ?_, ?_, ?_⟩, hcode1⟩
          · intro i hi
            rw [hset, hd]
            by_cases hie : i = r / t.PARSER_CBC_STREAM_PAGE_SIZE
            · have hlt1 : i < r / t.PARSER_CBC_STREAM_PAGE_SIZE + 1 := by omega
              rw [if_pos hie]
              simp only [Option.map_some', hlt1, if_true]
              rw [hprev, hie]
            · rw [if_neg hie]
              have := hl i hi
              rw [this]
              congr 1
              by_cases hlt : i < r / t.PARSER_CBC_STREAM_PAGE_SIZE
              · have hlt1 : i < r / t.PARSER_CBC_STREAM_PAGE_SIZE + 1 := by omega
                simp only [hlt, hlt1, if_true]
              · have hlt1 : ¬ i < r / t.PARSER_CBC_STREAM_PAGE_SIZE + 1 := by omega
                simp only [hlt, hlt1, if_false]
          · dsimp only
            unfold cursor
            rw [hd, hm, hnext]
          · dsimp only
            rw [hd]
            simp only [Nat.add_one_ne_zero, if_false, Nat.add_sub_cancel]
            exact hcp.symm
          · dsimp only
            rw [hd, pages_total_succ, hcopied, hcount]
      · rw [if_neg hge] at h
        cases h
        obtain ⟨hd, hm⟩ := hsd.1 (by
          rw [hoo] at hge
          have : (cursor t chain r).2 = r % t.PARSER_CBC_STREAM_PAGE_SIZE := rfl
          omega)
        refine ⟨⟨hp, by rw [hd]; exact hl, hbytes, ?_, by rw [hd]; exact hprev,
          by rw [hd]; exact hcopied⟩, hcode1⟩
        dsimp only
        unfold cursor
        rw [hd, hm, hpp, hoo]
        rfl

/-! ## The distance computations of the branch update -/

theorem cursor_mk (t : cbc_tables) (chain : List Nat) (i o : Nat)
    (ho : o < t.PARSER_CBC_STREAM_PAGE_SIZE) :
    cursor t chain (i * t.PARSER_CBC_STREAM_PAGE_SIZE + o) = (chain[i]?, o) := by
  unfold cursor
  have hn : 0 < t.PARSER_CBC_STREAM_PAGE_SIZE := by omega
  rw [Nat.add_comm, Nat.add_mul_div_right _ _ hn, Nat.add_mul_mod_self_right,
    Nat.div_eq_of_lt ho, Nat.mod_eq_of_lt ho, Nat.zero_add]

theorem div_mod_mk (n i o : Nat) (ho : o < n) : (i * n + o) / n = i ∧ (i * n + o) % n = o := by
  have hn : 0 < n := by omega
  rw [Nat.add_comm, Nat.add_mul_div_right _ _ hn, Nat.add_mul_mod_self_right,
    Nat.div_eq_of_lt ho, Nat.mod_eq_of_lt ho, Nat.zero_add]
  exact ⟨rfl, rfl⟩

theorem and_127_lt (b : Nat) : b &&& CBC_LOWER_SEVEN_BIT_MASK < 128 := by
  unfold CBC_LOWER_SEVEN_BIT_MASK
  have : b &&& 0x7f ≤ 0x7f := Nat.and_le_right
  omega

theorem size_sub_eq {a b : Nat} (h : b ≤ a) (hd : a - b < 2 ^ 64) (hb : b < 2 ^ 64) :
    size_sub a b = a - b := by
  unfold size_sub
  rw [Nat.mod_eq_of_lt hb]
  have e : a + 2 ^ 64 - b = (a - b) + 2 ^ 64 := by omega
  rw [e, Nat.add_mod_right, Nat.mod_eq_of_lt hd]

theorem page_total_read {t : cbc_tables} {pages final : List parser_mem_page_t}
    {chain : List Nat} (hbytes : ∀ x, stream_read t pages chain x = stream_read t final chain x)
    (hn : 0 < t.PARSER_CBC_STREAM_PAGE_SIZE) {i count : Nat}
    (h : page_read_count pages chain[i]? (t.PARSER_CBC_STREAM_PAGE_SIZE - 1) = .ok count) :
    count = page_total t final chain i := by
  have hc := cursor_mk t chain i (t.PARSER_CBC_STREAM_PAGE_SIZE - 1) (by omega)
  have e1 : chain[i]? = (cursor t chain (i * t.PARSER_CBC_STREAM_PAGE_SIZE
      + (t.PARSER_CBC_STREAM_PAGE_SIZE - 1))).1 := by rw [hc]
  have e2 : t.PARSER_CBC_STREAM_PAGE_SIZE - 1 = (cursor t chain
      (i * t.PARSER_CBC_STREAM_PAGE_SIZE + (t.PARSER_CBC_STREAM_PAGE_SIZE - 1))).2 := by
    rw [hc]
  rw [e1] at h
  nth_rewrite 2 [e2] at h
  obtain ⟨b, hb, hcnt⟩ := page_read_count_cursor h
  unfold page_total
  rw [← hbytes, hb, hcnt]
  rfl

theorem update_forward_loop_spec {t : cbc_tables} {pages final : List parser_mem_page_t}
    {chain : List Nat} {c : Nat} (hp : pages_ok t pages chain) (hl : linked pages chain c)
    (hbytes : ∀ x, stream_read t pages chain x = stream_read t final chain x)
    (hn : 0 < t.PARSER_CBC_STREAM_PAGE_SIZE) (fuel : Nat) :
    ∀ (i fd acc : Nat) (p1 : Option Nat) (fd1 acc1 : Nat), c ≤ i →
      update_forward_loop t pages fuel chain[i]? fd acc = .ok (p1, fd1, acc1) →
      ∃ j, p1 = chain[i + j]? ∧ fd = fd1 + j * t.PARSER_CBC_STREAM_PAGE_SIZE
        ∧ fd1 ≤ t.PARSER_CBC_STREAM_PAGE_SIZE ∧ (0 < fd → 0 < fd1)
        ∧ acc1 + pages_total t final chain i = acc + pages_total t final chain (i + j) := by
  induction fuel with
  | zero =>
    intro i fd acc p1 fd1 acc1 _ h
    unfold update_forward_loop at h
    split_ifs at h with hgt
    cases h
    exact ⟨0, rfl, by omega, by omega, fun h => h, rfl⟩
  | succ fuel ih =>
    intro i fd acc p1 fd1 acc1 hci h
    unfold update_forward_loop at h
    split_ifs at h with hgt
    · cases hcnt : page_read_count pages chain[i]? (t.PARSER_CBC_STREAM_PAGE_SIZE - 1) with
      | error e => rw [hcnt] at h; cases h
      | ok count =>
        rw [hcnt] at h
        dsimp only at h
        cases hg : page_get pages chain[i]? with
        | error e => rw [hg] at h; cases h
        | ok page =>
          rw [hg] at h
          dsimp only at h
          have hil : i < chain.length := by
            by_contra hge
            unfold page_get at hg
            rw [List.getElem?_eq_none (by omega)] at hg
            cases hg
          obtain ⟨p, page2, hcp, hpg, hpa, _⟩ := page_at_some hp hil
          have hpage : page2 = page := by
            unfold page_get at hg
            rw [hcp] at hg
            dsimp only at hg
            rw [hpg] at hg
            cases hg
            rfl
          subst hpage
          have hnext : page2.next_p = chain[i + 1]? := by
            have := hl i hil
            rw [hpa, if_neg (by omega)] at this
            simpa using this
          rw [hnext] at h
          obtain ⟨j, e1, e2, e3, e4, e5⟩ := ih (i + 1) _ _ p1 fd1 acc1 (by omega) h
          have hc := page_total_read hbytes hn hcnt
          refine ⟨j + 1, by rw [e1]; congr 1; omega, ?_, e3, fun _ => e4 (by omega), ?_⟩
          · rw [Nat.add_mul]; omega
          · rw [pages_total_succ] at e5
            rw [show i + (j + 1) = i + 1 + j by omega]
            omega
    · cases h
      exact ⟨0, rfl, by omega, by omega, fun h => h, rfl⟩

theorem update_backward_loop_spec {t : cbc_tables} {pages final : List parser_mem_page_t}
    {chain : List Nat} {c : Nat} (hp : pages_ok t pages chain) (hl : linked pages chain c)
    (hbytes : ∀ x, stream_read t pages chain x = stream_read t final chain x)
    (hn : 0 < t.PARSER_CBC_STREAM_PAGE_SIZE) (fuel : Nat) :
    ∀ (k fd acc : Nat) (page_p p1 : Option Nat) (fd1 acc1 : Nat), k ≤ c →
      k ≤ chain.length → page_p = (if k = 0 then none else chain[k - 1]?) →
      update_backward_loop t pages fuel page_p fd acc = .ok (p1, fd1, acc1) →
      ∃ j, j ≤ k ∧ p1 = (if k - j = 0 then none else chain[k - j - 1]?)
        ∧ fd = fd1 + j * t.PARSER_CBC_STREAM_PAGE_SIZE
        ∧ fd1 < t.PARSER_CBC_STREAM_PAGE_SIZE
        ∧ acc1 + pages_total t final chain (k - j) = acc + pages_total t final chain k := by
  induction fuel with
  | zero =>
    intro k fd acc page_p p1 fd1 acc1 _ _ hpg h
    unfold update_backward_loop at h
    split_ifs at h with hge
    cases h
    exact ⟨0, by omega, hpg, by omega, by omega, rfl⟩
  | succ fuel ih =>
    intro k fd acc page_p p1 fd1 acc1 hkc hkl hpg h
    unfold update_backward_loop at h
    split_ifs at h with hge hnone
    · have hk : k ≠ 0 := by
        intro e
        rw [if_pos e] at hpg
        exact hnone hpg
      rw [if_neg hk] at hpg
      subst hpg
      cases hcnt : page_read_count pages chain[k - 1]? (t.PARSER_CBC_STREAM_PAGE_SIZE - 1) with
      | error e => rw [hcnt] at h; cases h
      | ok count =>
        rw [hcnt] at h
        dsimp only at h
        cases hg : page_get pages chain[k - 1]? with
        | error e => rw [hg] at h; cases h
        | ok page =>
          rw [hg] at h
          dsimp only at h
          have hil : k - 1 < chain.length := by omega
          obtain ⟨p, page2, hcp, hpg2, hpa, _⟩ := page_at_some hp hil
          have hpage : page2 = page := by
            unfold page_get at hg
            rw [hcp] at hg
            dsimp only at hg
            rw [hpg2] at hg
            cases hg
            rfl
          subst hpage
          have hnext : page2.next_p = (if k - 1 = 0 then none else chain[k - 1 - 1]?) := by
            have := hl (k - 1) hil
            rw [hpa, if_pos (by omega)] at this
            simpa using this
          obtain ⟨j, e0, e1, e2, e3, e5⟩ := ih (k - 1) _ _ _ p1 fd1 acc1 (by omega) (by omega)
            hnext h
          have hc := page_total_read hbytes hn hcnt
          refine ⟨j + 1, by omega, ?_, ?_, e3, ?_⟩
          · rw [e1, show k - (j + 1) = k - 1 - j by omega]
          · rw [Nat.add_mul]; omega
          · have hs := pages_total_succ t final chain (k - 1)
            rw [show k - 1 + 1 = k by omega] at hs
            rw [show k - (j + 1) = k - 1 - j by omega]
            omega
    · cases h
      exact ⟨0, by omega, hpg, by omega, by omega, rfl⟩

theorem read_count_at {t : cbc_tables} {pages final : List parser_mem_page_t}
    {chain : List Nat} (hbytes : ∀ x, stream_read t pages chain x = stream_read t final chain x)
    {i o count : Nat} (ho : o < t.PARSER_CBC_STREAM_PAGE_SIZE)
    (h : page_read_count pages chain[i]? o = .ok count) :
    count = (stream_read t final chain (i * t.PARSER_CBC_STREAM_PAGE_SIZE + o)).getD 0
      &&& CBC_LOWER_SEVEN_BIT_MASK := by
  have hc := cursor_mk t chain i o ho
  have e1 : chain[i]? = (cursor t chain (i * t.PARSER_CBC_STREAM_PAGE_SIZE + o)).1 := by
    rw [hc]
  have e2 : o = (cursor t chain (i * t.PARSER_CBC_STREAM_PAGE_SIZE + o)).2 := by rw [hc]
  rw [e1] at h
  have h2 : page_read_count pages (cursor t chain (i * t.PARSER_CBC_STREAM_PAGE_SIZE + o)).1
      (cursor t chain (i * t.PARSER_CBC_STREAM_PAGE_SIZE + o)).2 = .ok count := by
    rw [← e2]; exact h
  obtain ⟨b, hb, hcnt⟩ := page_read_count_cursor h2
  rw [← hbytes, hb, hcnt]
  rfl

theorem forward_branch_spec {t : cbc_tables} {pages final : List parser_mem_page_t}
    {chain : List Nat} {r d before v : Nat} (hp : pages_ok t pages chain)
    (hl : linked pages chain (r / t.PARSER_CBC_STREAM_PAGE_SIZE))
    (hbytes : ∀ x, stream_read t pages chain x = stream_read t final chain x)
    (hn : 0 < t.PARSER_CBC_STREAM_PAGE_SIZE) (hd : 0 < d)
    (h : parser_update_forward_branch t pages chain[r / t.PARSER_CBC_STREAM_PAGE_SIZE]?
      (r % t.PARSER_CBC_STREAM_PAGE_SIZE + d) before = .ok v) :
    ∃ X, v = size_sub X before
      ∧ X + pages_total t final chain (r / t.PARSER_CBC_STREAM_PAGE_SIZE)
          = copied_before t final chain (r + d) := by
  unfold parser_update_forward_branch at h
  split at h
  · cases h
  · rename_i p1 fd1 acc1 hloop
    obtain ⟨j, e1, e2, e3, e4, e5⟩ := update_forward_loop_spec hp hl hbytes hn _ _ _ _ p1 fd1
      acc1 (le_refl _) hloop
    have hfd1 := e4 (by omega)
    rw [e1] at h
    cases hcnt : page_read_count pages chain[r / t.PARSER_CBC_STREAM_PAGE_SIZE + j]?
        (fd1 - 1) with
    | error e => rw [hcnt] at h; cases h
    | ok count =>
      rw [hcnt] at h
      cases h
      have hc := read_count_at hbytes (by omega) hcnt
      have hT : r + d = (r / t.PARSER_CBC_STREAM_PAGE_SIZE + j) * t.PARSER_CBC_STREAM_PAGE_SIZE
          + fd1 := by
        have := Nat.div_add_mod r t.PARSER_CBC_STREAM_PAGE_SIZE
        rw [Nat.add_mul, Nat.mul_comm (r / t.PARSER_CBC_STREAM_PAGE_SIZE)]
        omega
      refine ⟨acc1 + count, rfl, ?_⟩
      unfold copied_before counter_at
      by_cases hlt : fd1 < t.PARSER_CBC_STREAM_PAGE_SIZE
      · obtain ⟨d1, d2⟩ := div_mod_mk t.PARSER_CBC_STREAM_PAGE_SIZE
          (r / t.PARSER_CBC_STREAM_PAGE_SIZE + j) fd1 hlt
        rw [hT, d1, d2, if_neg (by omega)]
        rw [show (r / t.PARSER_CBC_STREAM_PAGE_SIZE + j) * t.PARSER_CBC_STREAM_PAGE_SIZE + fd1 - 1
          = (r / t.PARSER_CBC_STREAM_PAGE_SIZE + j) * t.PARSER_CBC_STREAM_PAGE_SIZE + (fd1 - 1)
          by omega, ← hc]
        omega
      · have hfe : fd1 = t.PARSER_CBC_STREAM_PAGE_SIZE := by omega
        have hT2 : r + d = (r / t.PARSER_CBC_STREAM_PAGE_SIZE + j + 1)
            * t.PARSER_CBC_STREAM_PAGE_SIZE + 0 := by
          rw [hT, hfe, Nat.add_mul (r / t.PARSER_CBC_STREAM_PAGE_SIZE + j) 1]
          omega
        obtain ⟨d1, d2⟩ := div_mod_mk t.PARSER_CBC_STREAM_PAGE_SIZE
          (r / t.PARSER_CBC_STREAM_PAGE_SIZE + j + 1) 0 hn
        rw [hT2, d1, d2, if_pos rfl, pages_total_succ]
        have hpt : page_total t final chain (r / t.PARSER_CBC_STREAM_PAGE_SIZE + j) = count := by
          unfold page_total
          rw [hc, hfe]
        rw [hpt]
        omega

theorem backward_branch_spec {t : cbc_tables} {pages final : List parser_mem_page_t}
    {chain : List Nat} {r d before v : Nat} {prev : Option Nat} (hp : pages_ok t pages chain)
    (hl : linked pages chain (r / t.PARSER_CBC_STREAM_PAGE_SIZE))
    (hbytes : ∀ x, stream_read t pages chain x = stream_read t final chain x)
    (hn : 0 < t.PARSER_CBC_STREAM_PAGE_SIZE)
    (hr : r / t.PARSER_CBC_STREAM_PAGE_SIZE ≤ chain.length)
    (hprev : prev = (if r / t.PARSER_CBC_STREAM_PAGE_SIZE = 0 then none
      else chain[r / t.PARSER_CBC_STREAM_PAGE_SIZE - 1]?))
    (hd : r % t.PARSER_CBC_STREAM_PAGE_SIZE < d)
    (h : parser_update_backward_branch t pages prev
      (d - r % t.PARSER_CBC_STREAM_PAGE_SIZE) before = .ok v) :
    ∃ A bt Pt T, (v = size_sub A bt ∨ (v = A ∧ bt = 0)) ∧ bt < 128 ∧ T + d = r
      ∧ A + Pt = before + pages_total t final chain (r / t.PARSER_CBC_STREAM_PAGE_SIZE)
      ∧ bt + Pt = copied_before t final chain T := by
  have hdm := Nat.div_add_mod r t.PARSER_CBC_STREAM_PAGE_SIZE
  unfold parser_update_backward_branch at h
  split at h
  · cases h
  · rename_i p1 fd1 acc1 hloop
    obtain ⟨j, e0, e1, e2, e3, e5⟩ := update_backward_loop_spec hp hl hbytes hn _ _ _ _ _ p1
      fd1 acc1 (le_refl _) hr hprev hloop
    have hjm : j * t.PARSER_CBC_STREAM_PAGE_SIZE
        + (r / t.PARSER_CBC_STREAM_PAGE_SIZE - j) * t.PARSER_CBC_STREAM_PAGE_SIZE
        = t.PARSER_CBC_STREAM_PAGE_SIZE * (r / t.PARSER_CBC_STREAM_PAGE_SIZE) := by
      rw [← Nat.add_mul, Nat.mul_comm]
      congr 1
      omega
    by_cases hpos : fd1 > 0
    · rw [if_pos hpos] at h
      dsimp only at h
      split_ifs at h with hnone
      have hk : r / t.PARSER_CBC_STREAM_PAGE_SIZE - j ≠ 0 := by
        intro e
        rw [if_pos e] at e1
        exact hnone e1
      rw [if_neg hk] at e1
      subst e1
      cases hc1 : page_read_count pages chain[r / t.PARSER_CBC_STREAM_PAGE_SIZE - j - 1]?
          (t.PARSER_CBC_STREAM_PAGE_SIZE - 1) with
      | error e => rw [hc1] at h; cases h
      | ok total =>
        rw [hc1] at h
        dsimp only at h
        cases hc2 : page_read_count pages chain[r / t.PARSER_CBC_STREAM_PAGE_SIZE - j - 1]?
            (t.PARSER_CBC_STREAM_PAGE_SIZE - fd1 - 1) with
        | error e => rw [hc2] at h; cases h
        | ok bt =>
          rw [hc2] at h
          cases h
          have ht := page_total_read hbytes hn hc1
          have hb := read_count_at hbytes (by omega) hc2
          have hs := pages_total_succ t final chain
            (r / t.PARSER_CBC_STREAM_PAGE_SIZE - j - 1)
          rw [show r / t.PARSER_CBC_STREAM_PAGE_SIZE - j - 1 + 1
            = r / t.PARSER_CBC_STREAM_PAGE_SIZE - j by omega] at hs
          have hkm : (r / t.PARSER_CBC_STREAM_PAGE_SIZE - j - 1) * t.PARSER_CBC_STREAM_PAGE_SIZE
              + t.PARSER_CBC_STREAM_PAGE_SIZE
              = (r / t.PARSER_CBC_STREAM_PAGE_SIZE - j) * t.PARSER_CBC_STREAM_PAGE_SIZE := by
            rw [← Nat.succ_mul]
            congr 1
            omega
          refine ⟨acc1 + total, bt,
            pages_total t final chain (r / t.PARSER_CBC_STREAM_PAGE_SIZE - j - 1),
            (r / t.PARSER_CBC_STREAM_PAGE_SIZE - j - 1) * t.PARSER_CBC_STREAM_PAGE_SIZE
              + (t.PARSER_CBC_STREAM_PAGE_SIZE - fd1), Or.inl rfl, ?_, by omega, by omega, ?_⟩
          · rw [hb]; exact and_127_lt _
          · obtain ⟨d1, d2⟩ := div_mod_mk t.PARSER_CBC_STREAM_PAGE_SIZE
              (r / t.PARSER_CBC_STREAM_PAGE_SIZE - j - 1) (t.PARSER_CBC_STREAM_PAGE_SIZE - fd1)
              (by omega)
            unfold copied_before counter_at
            rw [d1, d2, if_neg (by omega)]
            rw [show (r / t.PARSER_CBC_STREAM_PAGE_SIZE - j - 1) * t.PARSER_CBC_STREAM_PAGE_SIZE
                + (t.PARSER_CBC_STREAM_PAGE_SIZE - fd1) - 1
              = (r / t.PARSER_CBC_STREAM_PAGE_SIZE - j - 1) * t.PARSER_CBC_STREAM_PAGE_SIZE
                + (t.PARSER_CBC_STREAM_PAGE_SIZE - fd1 - 1) by omega, ← hb]
            omega
    · rw [if_neg hpos] at h
      cases h
      have hfd0 : fd1 = 0 := by omega
      refine ⟨v, 0, pages_total t final chain (r / t.PARSER_CBC_STREAM_PAGE_SIZE - j),
        (r / t.PARSER_CBC_STREAM_PAGE_SIZE - j) * t.PARSER_CBC_STREAM_PAGE_SIZE + 0,
        Or.inr ⟨rfl, rfl⟩, by omega, by omega, by omega, ?_⟩
      obtain ⟨d1, d2⟩ := div_mod_mk t.PARSER_CBC_STREAM_PAGE_SIZE
        (r / t.PARSER_CBC_STREAM_PAGE_SIZE - j) 0 hn
      unfold copied_before counter_at
      rw [d1, d2, if_pos rfl]
      omega

/-! ## Writing a distance back -/

theorem big_endian_snoc (read : Nat → Option Nat) (w : Nat) :
    ∀ (p acc : Nat), big_endian read (w + 1) p acc
      = (big_endian read w p acc).bind
          (fun v => (read (p + w)).map (fun b => (v <<< 8) ||| b)) := by
  induction w with
  | zero =>
    intro p acc
    unfold big_endian
    cases hr : read p with
    | none => simp [big_endian, hr]
    | some b => simp [big_endian, hr]
  | succ w ih =>
    intro p acc
    conv_lhs => unfold big_endian
    conv_rhs => unfold big_endian
    cases read p with
    | none => rfl
    | some b =>
      dsimp only
      rw [ih]
      rw [show p + 1 + w = p + (w + 1) by omega]

theorem encode_target_spec (w : Nat) :
    ∀ (p D : Nat) (code code1 : List Nat), encode_target w (p + w) D code = .ok code1 →
      (∀ x, x < p ∨ p + w ≤ x → code1[x]? = code[x]?)
        ∧ (D < 256 ^ w → ∀ acc, big_endian (fun n => code1[n]?) w p acc
            = some (acc * 256 ^ w + D)) := by
  induction w with
  | zero =>
    intro p D code code1 h
    unfold encode_target at h
    cases h
    refine ⟨fun _ _ => rfl, ?_⟩
    intro hD acc
    unfold big_endian
    simp at hD
    simp [hD]
  | succ w ih =>
    intro p D code code1 h
    unfold encode_target at h
    split_ifs at h with hc
    rw [show p + (w + 1) - 1 = p + w by omega] at h hc
    obtain ⟨a1, a2⟩ := ih p (D >>> 8) _ code1 h
    refine ⟨?_, ?_⟩
    · intro x hx
      rw [a1 x (by omega), List.getElem?_set_ne (by omega)]
    · intro hD acc
      have hD8 : D >>> 8 < 256 ^ w := by
        rw [shr8]
        rw [Nat.pow_succ] at hD
        exact Nat.div_lt_of_lt_mul (by rw [Nat.mul_comm]; exact hD)
      rw [big_endian_snoc, a2 hD8 acc]
      dsimp only [Option.some_bind]
      rw [a1 (p + w) (Or.inr (le_refl _)), List.getElem?_set_self hc.2]
      dsimp only [Option.map_some']
      rw [and_255, shl8_or _ _ (Nat.mod_lt _ (by omega)), shr8, Nat.pow_succ]
      congr 1
      have := Nat.div_add_mod D 256
      rw [Nat.add_mul, Nat.mul_assoc]
      omega

theorem counter_at_lt (t : cbc_tables) (pages : List parser_mem_page_t) (chain : List Nat)
    (q : Nat) : counter_at t pages chain q < 128 := by
  unfold counter_at
  split_ifs
  · omega
  · exact and_127_lt _

theorem update_branch_before {t : cbc_tables} {chain : List Nat}
    {final : List parser_mem_page_t} {r before : Nat} {st : update_state}
    (hn : 0 < t.PARSER_CBC_STREAM_PAGE_SIZE) (hat : upd_at t chain final r st)
    (h : (if st.offset > 0 then page_read_count st.pages st.page_p (st.offset - 1)
      else .ok 0 : Except Fault Nat) = .ok before) :
    before = counter_at t final chain r := by
  obtain ⟨hp, hl, hbytes, hc, hprev, hcopied⟩ := hat
  have hpp : st.page_p = chain[r / t.PARSER_CBC_STREAM_PAGE_SIZE]? := congrArg Prod.fst hc
  have hoo : st.offset = r % t.PARSER_CBC_STREAM_PAGE_SIZE := congrArg Prod.snd hc
  have hdm := Nat.div_add_mod r t.PARSER_CBC_STREAM_PAGE_SIZE
  have hml := Nat.mod_lt r hn
  unfold counter_at
  by_cases ho : st.offset > 0
  · rw [if_pos ho, hpp, hoo] at h
    have := read_count_at hbytes (by omega) h
    rw [if_neg (by omega), this]
    congr 3
    rw [Nat.mul_comm]
    omega
  · rw [if_neg ho] at h
    cases h
    rw [if_pos (by omega)]

theorem update_branch_spec {t : cbc_tables} {chain : List Nat}
    {final : List parser_mem_page_t} {base r n hdr w d : Nat} {fwd : Bool}
    {st : update_state} {code1 : List Nat}
    (hn : 0 < t.PARSER_CBC_STREAM_PAGE_SIZE) (hat : upd_at t chain final r st)
    (hrl : r / t.PARSER_CBC_STREAM_PAGE_SIZE < chain.length)
    (hbase : base + copied_before t final chain r = n)
    (hcb : code_branch t st.code n hdr w fwd)
    (hd : big_endian (fun x => st.code[x]?) w (n + hdr) 0 = some d)
    (h : update_branch t base st = .ok code1) :
    ∃ A bt v, bt < 128 ∧ (v = size_sub A bt ∨ (v = A ∧ bt = 0))
      ∧ (fwd = true → 0 < d
          ∧ A + copied_before t final chain r = bt + copied_before t final chain (r + d))
      ∧ (fwd = false → d ≤ r
          ∧ A + copied_before t final chain (r - d) = bt + copied_before t final chain r)
      ∧ encode_target w (n + hdr + w) v st.code = .ok code1 := by
  have hat0 := hat
  obtain ⟨hp, hl, hbytes, hc, hprev, hcopied⟩ := hat
  have hpp : st.page_p = chain[r / t.PARSER_CBC_STREAM_PAGE_SIZE]? := congrArg Prod.fst hc
  have hoo : st.offset = r % t.PARSER_CBC_STREAM_PAGE_SIZE := congrArg Prod.snd hc
  have hdm := Nat.div_add_mod r t.PARSER_CBC_STREAM_PAGE_SIZE
  have hml := Nat.mod_lt r hn
  unfold update_branch at h
  split at h
  · cases h
  · rename_i before hbefore
    have hbf := update_branch_before hn hat0 hbefore
    have hbp : base + st.bytes_copied + before = n := by
      rw [hcopied, hbf, ← hbase]
      unfold copied_before
      omega
    have hcbr : copied_before t final chain r
        = pages_total t final chain (r / t.PARSER_CBC_STREAM_PAGE_SIZE) + before := by
      rw [hbf]; rfl
    have hblt : before < 128 := by rw [hbf]; exact counter_at_lt _ _ _ _
    dsimp only at h
    rw [hbp] at h
    obtain ⟨hhdr, hw1, hw3, hlen⟩ := hcb
    have hdec : decode_target st.code w (n + hdr) 0 = .ok d := by
      have := decode_target_eq st.code w (n + hdr) 0
      rw [hd] at this
      cases hx : decode_target st.code w (n + hdr) 0 with
      | error e => rw [hx] at this; cases this
      | ok v =>
        rw [hx] at this
        simp only [Except.toOption, Option.some.injEq] at this
        rw [this]
    have tail : ∀ (flags : cbc_flags_t) (b1 opcode : Nat), flags.has_branch_arg = true →
        flags.forward_branch_arg = fwd → t.CBC_BRANCH_OFFSET_LENGTH opcode = w →
        b1 + 1 = n + hdr →
        (if flags.has_branch_arg then
          let branch_argument_length := t.CBC_BRANCH_OFFSET_LENGTH opcode
          if branch_argument_length = 0 then .error Fault.invalid_pointer
          else
            match decode_target st.code branch_argument_length (b1 + 1) 0 with
            | .error e => .error e
            | .ok target_distance =>
              match (if flags.forward_branch_arg then
                    if target_distance > 0 then
                      parser_update_forward_branch t st.pages st.page_p
                        (st.offset + target_distance) before
                    else .error Fault.assertion
                  else if target_distance < st.offset then
                    match page_read_count st.pages st.page_p
                        (st.offset - target_distance - 1) with
                    | .error e => .error e
                    | .ok bytes_copied_before_target =>
                      .ok (size_sub before bytes_copied_before_target)
                  else if target_distance = st.offset then .ok before
                  else
                    parser_update_backward_branch t st.pages st.prev_page_p
                      (target_distance - st.offset) before :
                    Except Fault Nat) with
              | .error e => .error e
              | .ok new_distance =>
                encode_target branch_argument_length
                  (b1 + 1 + branch_argument_length) new_distance st.code
        else .error Fault.assertion : Except Fault (List Nat)) = .ok code1 →
        ∃ A bt v, bt < 128 ∧ (v = size_sub A bt ∨ (v = A ∧ bt = 0))
          ∧ (fwd = true → 0 < d
              ∧ A + copied_before t final chain r = bt + copied_before t final chain (r + d))
          ∧ (fwd = false → d ≤ r
              ∧ A + copied_before t final chain (r - d) = bt + copied_before t final chain r)
          ∧ encode_target w (n + hdr + w) v st.code = .ok code1 := by
      intro flags b1 opcode hf1 hf2 hf3 hb1 h
      rw [if_pos hf1] at h
      dsimp only at h
      rw [hf3, if_neg (by omega), hb1, hdec] at h
      dsimp only at h
      split at h
      · cases h
      · rename_i v hv
        cases hfw : fwd with
        | true =>
          rw [hf2, hfw] at hv
          simp only [if_true] at hv
          split_ifs at hv with hdpos
          rw [hpp, hoo] at hv
          obtain ⟨X, hX, hXe⟩ := forward_branch_spec hp hl hbytes hn hdpos hv
          exact ⟨X, before, v, hblt, Or.inl hX, fun _ => ⟨hdpos, by omega⟩,
            (fun hf => by cases hf), h⟩
        | false =>
          rw [hf2, hfw] at hv
          simp only [Bool.false_eq_true, if_false] at hv
          by_cases hlt : d < st.offset
          · rw [if_pos hlt] at hv
            cases hcnt : page_read_count st.pages st.page_p (st.offset - d - 1) with
            | error e => rw [hcnt] at hv; cases hv
            | ok bct =>
              rw [hcnt] at hv
              dsimp only at hv
              cases hv
              rw [hpp, hoo] at hcnt
              rw [hoo] at hlt
              have hb := read_count_at hbytes (by omega) hcnt
              refine ⟨before, bct, _, by rw [hb]; exact and_127_lt _, Or.inl rfl,
                (fun hf => by cases hf), fun _ => ⟨by omega, ?_⟩, h⟩
              have hT : r - d = r / t.PARSER_CBC_STREAM_PAGE_SIZE
                  * t.PARSER_CBC_STREAM_PAGE_SIZE
                  + (r % t.PARSER_CBC_STREAM_PAGE_SIZE - d) := by
                rw [Nat.mul_comm]; omega
              obtain ⟨d1, d2⟩ := div_mod_mk t.PARSER_CBC_STREAM_PAGE_SIZE
                (r / t.PARSER_CBC_STREAM_PAGE_SIZE) (r % t.PARSER_CBC_STREAM_PAGE_SIZE - d)
                (by omega)
              have hcT : copied_before t final chain (r - d)
                  = pages_total t final chain (r / t.PARSER_CBC_STREAM_PAGE_SIZE) + bct := by
                unfold copied_before counter_at
                rw [hT, d1, d2, if_neg (by omega), hb]
                congr 4
                omega
              rw [hcT, hcbr]
              omega
          · rw [if_neg hlt] at hv
            by_cases heq : d = st.offset
            · rw [if_pos heq] at hv
              cases hv
              refine ⟨before, 0, _, by omega, Or.inr ⟨rfl, rfl⟩,
                (fun hf => by cases hf), fun _ => ⟨by omega, ?_⟩, h⟩
              have hT : r - d = r / t.PARSER_CBC_STREAM_PAGE_SIZE
                  * t.PARSER_CBC_STREAM_PAGE_SIZE + 0 := by
                rw [Nat.mul_comm]; omega
              obtain ⟨d1, d2⟩ := div_mod_mk t.PARSER_CBC_STREAM_PAGE_SIZE
                (r / t.PARSER_CBC_STREAM_PAGE_SIZE) 0 hn
              have hcT : copied_before t final chain (r - d)
                  = pages_total t final chain (r / t.PARSER_CBC_STREAM_PAGE_SIZE) := by
                unfold copied_before counter_at
                rw [hT, d1, d2, if_pos rfl]
                rfl
              rw [hcT, hcbr]
              omega
            · rw [if_neg heq, hoo] at hv
              obtain ⟨A, bt, Pt, T, hv1, hv2, hv3, hv4, hv5⟩ := backward_branch_spec hp hl
                hbytes hn (le_of_lt hrl) hprev (by omega) hv
              have hT : r - d = T := by omega
              refine ⟨A, bt, _, hv2, hv1, (fun hf => by cases hf),
                fun _ => ⟨by omega, ?_⟩, h⟩
              rw [hT, hcbr]
              omega
    rcases hhdr with ⟨e1, opcode, h1, h2, h3, h4, h5⟩ | ⟨e1, h0, opcode, h1, h3, h4, h5⟩
    · simp only [code_read, h1, if_neg h2] at h
      exact tail _ n opcode h3 h4 h5 (by omega) h
    · simp only [code_read, h0, if_true, h1] at h
      exact tail _ (n + 1) opcode h3 h4 h5 (by omega) h

/-! ## The loop of `parse_update_branches` over the whole stream -/

theorem nodup_getElem?_inj {l : List Nat} (h : l.Nodup) {i j a : Nat}
    (hi : l[i]? = some a) (hj : l[j]? = some a) : i = j := by
  obtain ⟨hi1, hi2⟩ := List.getElem?_eq_some.mp hi
  obtain ⟨hj1, hj2⟩ := List.getElem?_eq_some.mp hj
  exact (List.Nodup.getElem_inj_iff h).mp (hi2.trans hj2.symm)

/-- The condition of the loops over the stream holds exactly before the end of the
stream. -/
theorem loop_cond_iff {t : cbc_tables} {byte_code : parser_mem_data_t} {chain : List Nat}
    (hs : stream_ok t byte_code chain) {r : Nat} (hr : r ≤ stream_size t byte_code chain) :
    ((cursor t chain r).1 ≠ (stream_end t byte_code).1
        ∨ (cursor t chain r).2 < (stream_end t byte_code).2)
      ↔ r < stream_size t byte_code chain := by
  obtain ⟨hn, hp, _, _, hlast, hle, hempty⟩ := hs
  have hdm := Nat.div_add_mod r t.PARSER_CBC_STREAM_PAGE_SIZE
  have hml := Nat.mod_lt r hn
  unfold stream_size at hr ⊢
  unfold stream_end cursor
  by_cases hfull : byte_code.last_position ≥ t.PARSER_CBC_STREAM_PAGE_SIZE
  · rw [if_pos hfull]
    have hlp : byte_code.last_position = t.PARSER_CBC_STREAM_PAGE_SIZE := by omega
    rw [hlp] at hr ⊢
    simp only [Nat.add_sub_cancel, Nat.not_lt_zero, or_false, ne_eq] at hr ⊢
    constructor
    · intro h1
      by_contra h2
      have h3 : chain.length ≤ r / t.PARSER_CBC_STREAM_PAGE_SIZE := by
        rw [Nat.le_div_iff_mul_le hn]
        omega
      exact h1 (List.getElem?_eq_none h3)
    · intro h1 h2
      rw [List.getElem?_eq_none_iff] at h2
      have h3 := (Nat.le_div_iff_mul_le hn).mp h2
      omega
  · rw [if_neg hfull]
    have hne : chain ≠ [] := fun e => hfull (by rw [hempty e])
    have hlen : 0 < chain.length := List.length_pos.mpr hne
    have hq : r / t.PARSER_CBC_STREAM_PAGE_SIZE ≤ chain.length - 1 := by
      rw [Nat.div_le_iff_le_mul_add_pred hn]
      have h4 : chain.length * t.PARSER_CBC_STREAM_PAGE_SIZE
          = (chain.length - 1) * t.PARSER_CBC_STREAM_PAGE_SIZE
            + t.PARSER_CBC_STREAM_PAGE_SIZE := by
        rw [Nat.sub_mul, Nat.one_mul, Nat.sub_add_cancel]
        exact Nat.le_mul_of_pos_left _ hlen
      rw [Nat.mul_comm]
      omega
    have hsz : chain.length * t.PARSER_CBC_STREAM_PAGE_SIZE + byte_code.last_position
        - t.PARSER_CBC_STREAM_PAGE_SIZE
        = (chain.length - 1) * t.PARSER_CBC_STREAM_PAGE_SIZE + byte_code.last_position := by
      have h4 : chain.length * t.PARSER_CBC_STREAM_PAGE_SIZE
          = (chain.length - 1) * t.PARSER_CBC_STREAM_PAGE_SIZE
            + t.PARSER_CBC_STREAM_PAGE_SIZE := by
        rw [Nat.sub_mul, Nat.one_mul, Nat.sub_add_cancel]
        exact Nat.le_mul_of_pos_left _ hlen
      omega
    rw [hsz] at hr ⊢
    rw [hlast, List.getLast?_eq_getElem?]
    dsimp only
    obtain ⟨a, ha⟩ : ∃ a, chain[chain.length - 1]? = some a :=
      ⟨chain[chain.length - 1], List.getElem?_eq_getElem (by omega)⟩
    rcases Nat.lt_or_ge (r / t.PARSER_CBC_STREAM_PAGE_SIZE) (chain.length - 1) with h5 | h5
    · have h6 : r < (chain.length - 1) * t.PARSER_CBC_STREAM_PAGE_SIZE := by
        rw [← Nat.div_lt_iff_lt_mul hn]
        exact h5
      constructor
      · intro _; omega
      · intro _
        left
        intro h7
        rw [ha] at h7
        have := nodup_getElem?_inj hp.1 h7 ha
        omega
    · have h6 : r / t.PARSER_CBC_STREAM_PAGE_SIZE = chain.length - 1 := by omega
      rw [h6]
      have h7 : r = (chain.length - 1) * t.PARSER_CBC_STREAM_PAGE_SIZE
          + r % t.PARSER_CBC_STREAM_PAGE_SIZE := by
        rw [← h6, Nat.mul_comm]
        omega
      constructor
      · intro h8
        rcases h8 with h8 | h8
        · exact absurd rfl h8
        · omega
      · intro h8
        right
        omega

theorem code_branch_congr {t : cbc_tables} {code code1 : List Nat} {n hdr w : Nat}
    {fwd : Bool} (h : code_branch t code n hdr w fwd) (hlen : code1.length = code.length)
    (hx : ∀ x, n ≤ x → x < n + hdr → code1[x]? = code[x]?) :
    code_branch t code1 n hdr w fwd := by
  obtain ⟨hh, h1, h2, h3⟩ := h
  refine ⟨?_, h1, h2, by rw [hlen]; exact h3⟩
  rcases hh with ⟨e, opcode, a1, a2⟩ | ⟨e, a0, opcode, a1, a2⟩
  · exact Or.inl ⟨e, opcode, by rw [hx n (le_refl _) (by omega)]; exact a1, a2⟩
  · exact Or.inr ⟨e, by rw [hx n (le_refl _) (by omega)]; exact a0, opcode,
      by rw [hx (n + 1) (by omega) (by omega)]; exact a1, a2⟩

/-- One iteration of the loop of `parse_update_branches` keeps `update_inv`. -/
theorem update_step_inv {t : cbc_tables} {chain : List Nat} {final : List parser_mem_page_t}
    {base qe : Nat} {code0 : List Nat} {site : Nat → Nat → Nat → Bool → Nat → Prop}
    (hn : 0 < t.PARSER_CBC_STREAM_PAGE_SIZE)
    (hcov : ∀ r, r < qe → r / t.PARSER_CBC_STREAM_PAGE_SIZE < chain.length)
    (hmark : ∀ r b, r < qe → stream_read t final chain r = some b →
      b &&& CBC_HIGHEST_BIT_MASK ≠ 0 → ∃ hdr w fwd d, site r hdr w fwd d)
    (hset : ∀ r hdr w fwd d b, site r hdr w fwd d → stream_read t final chain r = some b →
      b &&& CBC_HIGHEST_BIT_MASK ≠ 0)
    (hsite : ∀ r hdr w fwd d, site r hdr w fwd d →
      code_branch t code0 (base + copied_before t final chain r) hdr w fwd
        ∧ big_endian (fun x => code0[x]?) w (base + copied_before t final chain r + hdr) 0
          = some d)
    (hord : ∀ r hdr w fwd d r1 hdr1 w1 fwd1 d1, site r hdr w fwd d →
      site r1 hdr1 w1 fwd1 d1 → r < r1 →
      base + copied_before t final chain r + hdr + w ≤ base + copied_before t final chain r1)
    {r : Nat} {st st1 : update_state} (hat : upd_at t chain final r st) (hr : r < qe)
    (hinv : update_inv t chain final base code0 site r st.code)
    (h : update_step t base st = .ok st1) :
    upd_at t chain final (r + 1) st1
      ∧ update_inv t chain final base code0 site (r + 1) st1.code := by
  obtain ⟨b, hb, hat1, hsame, hupd⟩ := update_step_spec hn hat h
  refine ⟨hat1, ?_⟩
  obtain ⟨ilen, inext, idone⟩ := hinv
  by_cases hm : b &&& CBC_HIGHEST_BIT_MASK = 0
  · have hcode := hsame hm
    rw [hcode]
    refine ⟨ilen, fun r1 hdr w fwd d hs hle => inext r1 hdr w fwd d hs (by omega), ?_⟩
    intro r1 hdr w fwd d hs hlt
    rcases Nat.lt_or_ge r1 r with h1 | h1
    · exact idone r1 hdr w fwd d hs h1
    · have e : r1 = r := by omega
      subst e
      exact absurd hm (hset r1 hdr w fwd d b hs hb)
  · have hub := hupd hm
    -- what the update does for any description of the branch at `r`
    have each : ∀ hdr w fwd d, site r hdr w fwd d →
        ∃ v, updated_distance t chain final r fwd d v
          ∧ (∀ x, x < base + copied_before t final chain r + hdr
              ∨ base + copied_before t final chain r + hdr + w ≤ x →
              st1.code[x]? = st.code[x]?)
          ∧ (v < 256 ^ w → big_endian (fun x => st1.code[x]?) w
              (base + copied_before t final chain r + hdr) 0 = some v) := by
      intro hdr w fwd d hs
      obtain ⟨hcb0, hd0⟩ := hsite r hdr w fwd d hs
      have hagree := inext r hdr w fwd d hs (le_refl _)
      have hcb : code_branch t st.code (base + copied_before t final chain r) hdr w fwd :=
        code_branch_congr hcb0 ilen (fun x h1 _ => hagree x h1)
      have hd : big_endian (fun x => st.code[x]?) w
          (base + copied_before t final chain r + hdr) 0 = some d := by
        rw [← hd0]
        exact big_endian_congr w _ _ 0 (fun i _ => hagree _ (by omega))
      obtain ⟨A, bt, v, h1, h2, h3, h4, henc⟩ :=
        update_branch_spec hn hat (hcov r hr) rfl hcb hd hub
      obtain ⟨hframe, hval⟩ := encode_target_spec w _ v st.code st1.code henc
      refine ⟨v, ⟨A, bt, h1, h2, h3, h4⟩, hframe, fun hv => ?_⟩
      have := hval hv 0
      simpa using this
    obtain ⟨hdr0, w0, fwd0, d0, hs0⟩ := hmark r b hr hb hm
    obtain ⟨v0, _, hframe0, _⟩ := each hdr0 w0 fwd0 d0 hs0
    refine ⟨(update_step_length h).trans ilen, ?_, ?_⟩
    · intro r1 hdr w fwd d hs hle x hx
      have ho := hord r hdr0 w0 fwd0 d0 r1 hdr w fwd d hs0 hs (by omega)
      rw [hframe0 x (Or.inr (by omega))]
      exact inext r1 hdr w fwd d hs (by omega) x hx
    · intro r1 hdr w fwd d hs hlt
      rcases Nat.lt_or_ge r1 r with h1 | h1
      · obtain ⟨hhead, v, hv1, hv2⟩ := idone r1 hdr w fwd d hs h1
        have ho := hord r1 hdr w fwd d r hdr0 w0 fwd0 d0 hs hs0 h1
        refine ⟨fun x hx1 hx2 => ?_, v, hv1, fun hv => ?_⟩
        · rw [hframe0 x (Or.inl (by omega))]
          exact hhead x hx1 hx2
        · rw [← hv2 hv]
          exact big_endian_congr w _ _ 0 (fun i hi => hframe0 _ (Or.inl (by omega)))
      · have e : r1 = r := by omega
        subst e
        obtain ⟨v, hv1, hframe, hv2⟩ := each hdr w fwd d hs
        refine ⟨fun x hx1 hx2 => ?_, v, hv1, hv2⟩
        rw [hframe x (Or.inl hx2)]
        exact inext r1 hdr w fwd d hs (le_refl _) x hx1

/-- The loop of `parse_update_branches` from position `r` to the end of the stream. -/
theorem update_loop_inv {t : cbc_tables} {chain : List Nat} {final : List parser_mem_page_t}
    {base qe : Nat} {last : Option Nat × Nat} {code0 : List Nat}
    {site : Nat → Nat → Nat → Bool → Nat → Prop}
    (hn : 0 < t.PARSER_CBC_STREAM_PAGE_SIZE)
    (hcov : ∀ r, r < qe → r / t.PARSER_CBC_STREAM_PAGE_SIZE < chain.length)
    (hcond : ∀ r, r ≤ qe →
      (((cursor t chain r).1 ≠ last.1 ∨ (cursor t chain r).2 < last.2) ↔ r < qe))
    (hmark : ∀ r b, r < qe → stream_read t final chain r = some b →
      b &&& CBC_HIGHEST_BIT_MASK ≠ 0 → ∃ hdr w fwd d, site r hdr w fwd d)
    (hset : ∀ r hdr w fwd d b, site r hdr w fwd d → stream_read t final chain r = some b →
      b &&& CBC_HIGHEST_BIT_MASK ≠ 0)
    (hsite : ∀ r hdr w fwd d, site r hdr w fwd d →
      code_branch t code0 (base + copied_before t final chain r) hdr w fwd
        ∧ big_endian (fun x => code0[x]?) w (base + copied_before t final chain r + hdr) 0
          = some d)
    (hord : ∀ r hdr w fwd d r1 hdr1 w1 fwd1 d1, site r hdr w fwd d →
      site r1 hdr1 w1 fwd1 d1 → r < r1 →
      base + copied_before t final chain r + hdr + w ≤ base + copied_before t final chain r1)
    (fuel : Nat) :
    ∀ (r : Nat) (st stE : update_state), upd_at t chain final r st → r ≤ qe →
      update_inv t chain final base code0 site r st.code →
      update_loop t base last fuel st = .ok stE →
      upd_at t chain final qe stE ∧ update_inv t chain final base code0 site qe stE.code := by
  induction fuel with
  | zero =>
    intro r st stE hat hr hinv h
    have hc := hat.2.2.2.1
    have hpp : st.page_p = (cursor t chain r).1 := congrArg Prod.fst hc
    have hoo : st.offset = (cursor t chain r).2 := congrArg Prod.snd hc
    unfold update_loop at h
    split_ifs at h with hc1
    cases h
    rw [hpp, hoo] at hc1
    have hnot : ¬ r < qe := fun hlt => hc1 ((hcond r hr).mpr hlt)
    have e : r = qe := by omega
    subst e
    exact ⟨hat, hinv⟩
  | succ fuel ih =>
    intro r st stE hat hr hinv h
    have hc := hat.2.2.2.1
    have hpp : st.page_p = (cursor t chain r).1 := congrArg Prod.fst hc
    have hoo : st.offset = (cursor t chain r).2 := congrArg Prod.snd hc
    unfold update_loop at h
    by_cases hc1 : st.page_p ≠ last.1 ∨ st.offset < last.2
    · rw [if_pos hc1] at h
      rw [hpp, hoo] at hc1
      have hlt : r < qe := (hcond r hr).mp hc1
      cases hst : update_step t base st with
      | error e => rw [hst] at h; cases h
      | ok st1 =>
        rw [hst] at h
        obtain ⟨hat1, hinv1⟩ := update_step_inv hn hcov hmark hset hsite hord hat hlt hinv hst
        exact ih (r + 1) st1 stE hat1 hlt hinv1 h
    · rw [if_neg hc1] at h
      cases h
      rw [hpp, hoo] at hc1
      have hnot : ¬ r < qe := fun hlt => hc1 ((hcond r hr).mpr hlt)
      have e : r = qe := by omega
      subst e
      exact ⟨hat, hinv⟩

/-! ## The positions of the copy pass -/

/-- The position of a state of the copy pass is the flat index its cursor stands for. -/
theorem copy_pos_eq {t : cbc_tables} {chain : List Nat} {q : Nat} {st : copy_state}
    (hn : 0 < t.PARSER_CBC_STREAM_PAGE_SIZE) (hat : copy_at t chain q st)
    (hq : q ≤ chain.length * t.PARSER_CBC_STREAM_PAGE_SIZE) : copy_pos t chain st = q := by
  obtain ⟨hp, _, hc⟩ := hat
  have hpp : st.page_p = chain[q / t.PARSER_CBC_STREAM_PAGE_SIZE]? := congrArg Prod.fst hc
  have hoo : st.offset = q % t.PARSER_CBC_STREAM_PAGE_SIZE := congrArg Prod.snd hc
  have hdm := Nat.div_add_mod q t.PARSER_CBC_STREAM_PAGE_SIZE
  unfold copy_pos
  rcases Nat.lt_or_ge (q / t.PARSER_CBC_STREAM_PAGE_SIZE) chain.length with h1 | h1
  · rw [hpp, List.getElem?_eq_getElem h1]
    dsimp only
    rw [List.indexOf_getElem hp.1 _ h1, hoo, Nat.mul_comm]
    exact hdm
  · rw [hpp, List.getElem?_eq_none h1]
    dsimp only
    have h2 := (Nat.le_div_iff_mul_le hn).mp h1
    have h3 : q = chain.length * t.PARSER_CBC_STREAM_PAGE_SIZE := by omega
    rw [hoo, h3, Nat.mul_mod_left]
    rfl

theorem copy_steps_succ_of_cond {t : cbc_tables} {limit : Nat} {last : Option Nat × Nat}
    (k : Nat) {st : copy_state} (hc : st.page_p ≠ last.1 ∨ st.offset < last.2) :
    copy_steps t limit last (k + 1) st
      = match copy_instruction t limit st with
        | .error e => .error e
        | .ok st1 => copy_steps t limit last k st1 := by
  simp only [copy_steps, if_pos hc]
  all_goals (cases copy_instruction t limit st <;> rfl)

theorem copy_steps_of_not_cond {t : cbc_tables} {limit : Nat} {last : Option Nat × Nat}
    (k : Nat) {st : copy_state} (hc : ¬ (st.page_p ≠ last.1 ∨ st.offset < last.2)) :
    copy_steps t limit last k st = .ok st := by
  cases k with
  | zero => rfl
  | succ k => simp only [copy_steps, if_neg hc]

theorem copy_steps_add {t : cbc_tables} {limit : Nat} {last : Option Nat × Nat} (a b : Nat) :
    ∀ (st : copy_state), copy_steps t limit last (a + b) st
      = match copy_steps t limit last a st with
        | .error e => .error e
        | .ok s => copy_steps t limit last b s := by
  induction a with
  | zero =>
    intro st
    rw [Nat.zero_add]
    rfl
  | succ a ih =>
    intro st
    rw [show a + 1 + b = (a + b) + 1 by omega]
    by_cases hc : st.page_p ≠ last.1 ∨ st.offset < last.2
    · rw [copy_steps_succ_of_cond _ hc, copy_steps_succ_of_cond _ hc]
      cases hi : copy_instruction t limit st with
      | error e => rfl
      | ok st1 => exact ih st1
    · rw [copy_steps_of_not_cond _ hc, copy_steps_of_not_cond _ hc]
      exact (copy_steps_of_not_cond b hc).symm

/-- After any number of instructions the copy pass stands inside the stream or at its end,
and the counters are right. -/
theorem copy_steps_pos {t : cbc_tables} {chain : List Nat} {limit base : Nat}
    {last : Option Nat × Nat} (hn : 0 < t.PARSER_CBC_STREAM_PAGE_SIZE)
    (h127 : t.PARSER_CBC_STREAM_PAGE_SIZE ≤ 127) (k : Nat) :
    ∀ (q : Nat) (st s : copy_state), copy_at t chain q st →
      q ≤ chain.length * t.PARSER_CBC_STREAM_PAGE_SIZE → counters_ok t chain base q st →
      copy_steps t limit last k st = .ok s →
      ∃ r, pass_run t chain q st r s ∧ r ≤ chain.length * t.PARSER_CBC_STREAM_PAGE_SIZE
        ∧ counters_ok t chain base r s ∧ copy_pos t chain s = r := by
  induction k with
  | zero =>
    intro q st s hat hq hco h
    unfold copy_steps at h
    cases h
    exact ⟨q, pass_run_refl hat, hq, hco, copy_pos_eq hn hat hq⟩
  | succ k ih =>
    intro q st s hat hq hco h
    unfold copy_steps at h
    split_ifs at h
    · cases hi : copy_instruction t limit st with
      | error e => rw [hi] at h; cases h
      | ok st1 =>
        rw [hi] at h
        dsimp only at h
        obtain ⟨q1, r1, _⟩ := copy_instruction_run hn hat hi
        obtain ⟨hco1, hcells⟩ := r1.2.2.2.2.2.2 base h127 hco
        have hq1 : q1 ≤ chain.length * t.PARSER_CBC_STREAM_PAGE_SIZE := by
          obtain ⟨c, hc, _⟩ := hcells (q1 - 1) (by have := r1.1; omega) (by have := r1.1; omega)
          have := stream_read_lt hn hc
          omega
        obtain ⟨r, r2, hr, hco2, hpos⟩ := ih q1 st1 s r1.2.1 hq1 hco1 h
        exact ⟨r, pass_run_trans (pass_run_of_instr r1) r2, hr, hco2, hpos⟩
    · cases h
      exact ⟨q, pass_run_refl hat, hq, hco, copy_pos_eq hn hat hq⟩

/-- The copy pass over the rest of the stream: it ends inside the stream or at its end, and
a cell that carries the branch mark afterwards is the first cell of an instruction for
which the copy pass wrote a branch. -/
theorem copy_loop_marks {t : cbc_tables} {chain : List Nat} {limit base : Nat}
    {last : Option Nat × Nat} (hn : 0 < t.PARSER_CBC_STREAM_PAGE_SIZE) (htab : tables_ok t)
    (fuel : Nat) :
    ∀ (q : Nat) (st copied : copy_state), copy_at t chain q st →
      q ≤ chain.length * t.PARSER_CBC_STREAM_PAGE_SIZE → counters_ok t chain base q st →
      (∀ r b, q ≤ r → stream_read t st.pages chain r = some b → b < 256) →
      copy_loop t limit last fuel st = .ok copied →
      ∃ qe, pass_run t chain q st qe copied
        ∧ qe ≤ chain.length * t.PARSER_CBC_STREAM_PAGE_SIZE
        ∧ ¬ (copied.page_p ≠ last.1 ∨ copied.offset < last.2)
        ∧ ∀ r, q ≤ r → r < qe → ∃ b, stream_read t copied.pages chain r = some b
            ∧ (b &&& CBC_HIGHEST_BIT_MASK ≠ 0 →
                ∃ n hdr w fwd d, copy_site t limit last chain st r n hdr w fwd d) := by
  induction fuel with
  | zero =>
    intro q st copied hat hq hco hbytes h
    unfold copy_loop at h
    split_ifs at h with hc
    cases h
    exact ⟨q, pass_run_refl hat, hq, hc, fun r h1 h2 => by omega⟩
  | succ fuel ih =>
    intro q st copied hat hq hco hbytes h
    unfold copy_loop at h
    by_cases hc : st.page_p ≠ last.1 ∨ st.offset < last.2
    · rw [if_pos hc] at h
      cases hi : copy_instruction t limit st with
      | error e => rw [hi] at h; cases h
      | ok st1 =>
        rw [hi] at h
        dsimp only at h
        obtain ⟨q1, r1, _⟩ := copy_instruction_run hn hat hi
        obtain ⟨hco1, hcells⟩ := r1.2.2.2.2.2.2 base htab.2.2 hco
        have hq1 : q1 ≤ chain.length * t.PARSER_CBC_STREAM_PAGE_SIZE := by
          obtain ⟨c, hc1, _⟩ := hcells (q1 - 1) (by have := r1.1; omega)
            (by have := r1.1; omega)
          have := stream_read_lt hn hc1
          omega
        have hbytes1 : ∀ r b, q1 ≤ r → stream_read t st1.pages chain r = some b → b < 256 := by
          intro r b hr hb
          rw [r1.2.2.2.2.2.1 r (Or.inr hr)] at hb
          exact hbytes r b (by have := r1.1; omega) hb
        obtain ⟨qe, r2, hqe, hnc, hm⟩ := ih q1 st1 copied r1.2.1 hq1 hco1 hbytes1 h
        refine ⟨qe, pass_run_trans (pass_run_of_instr r1) r2, hqe, hnc, ?_⟩
        intro r hr1 hr2
        by_cases hlt : r < q1
        · obtain ⟨c, hc1, hiff⟩ := hcells r hr1 hlt
          refine ⟨c, by rw [r2.2.2.2.2.2.1 r (Or.inl hlt)]; exact hc1, fun hbit => ?_⟩
          obtain ⟨e, hmk⟩ := hiff.mp hbit
          subst e
          obtain ⟨hdr, w, fwd, d, c1, c2, c3, c4, _, c6⟩ :=
            copy_instruction_branch_bound hn htab hbytes hat hi hmk
          exact ⟨st.dst.length, hdr, w, fwd, d, 0, st, st1, rfl, copy_pos_eq hn hat hq, hc, hi,
            hmk, rfl, c1, c2, c3, c4, c6⟩
        · obtain ⟨b, hb, hs⟩ := hm r (by omega) hr2
          refine ⟨b, hb, fun hbit => ?_⟩
          obtain ⟨n, hdr, w, fwd, d, k, s, s1, hk, rest⟩ := hs hbit
          refine ⟨n, hdr, w, fwd, d, k + 1, s, s1, ?_, rest⟩
          rw [copy_steps_succ_of_cond k hc, hi]
          exact hk
    · rw [if_neg hc] at h
      cases h
      exact ⟨q, pass_run_refl hat, hq, hc, fun r h1 h2 => by omega⟩

/-- A state of the copy pass on the way to its last state `copied`: its position, and the
number of bytes written as the counters of the pages of `copied` record it. -/
theorem copy_reach_final {t : cbc_tables} {chain : List Nat} {limit base q0 fuel k : Nat}
    {last : Option Nat × Nat} {st0 copied s : copy_state}
    (hn : 0 < t.PARSER_CBC_STREAM_PAGE_SIZE) (h127 : t.PARSER_CBC_STREAM_PAGE_SIZE ≤ 127)
    (hat0 : copy_at t chain q0 st0)
    (hq0 : q0 ≤ chain.length * t.PARSER_CBC_STREAM_PAGE_SIZE)
    (hco : counters_ok t chain base q0 st0)
    (hloop : copy_loop t limit last fuel st0 = .ok copied)
    (hk : copy_steps t limit last k st0 = .ok s) :
    ∃ r qe, copy_pos t chain s = r ∧ pass_run t chain q0 st0 r s
      ∧ r ≤ chain.length * t.PARSER_CBC_STREAM_PAGE_SIZE
      ∧ counters_ok t chain base r s
      ∧ s.dst.length = base + copied_before t copied.pages chain r
      ∧ pass_run t chain r s qe copied := by
  obtain ⟨r, r1, hr, hco1, hpos⟩ := copy_steps_pos hn h127 k q0 st0 s hat0 hq0 hco hk
  obtain ⟨fuel1, hl1⟩ := copy_loop_of_steps k fuel st0 s copied hloop hk
  obtain ⟨qe, r2⟩ := copy_loop_run hn fuel1 r s copied r1.2.1 hl1
  refine ⟨r, qe, hpos, r1, hr, hco1, ?_, r2⟩
  rw [hco1.2.2]
  congr 1
  exact (copied_before_congr (fun x hx => by rw [r2.2.2.2.2.2.1 x (Or.inl hx)]) hn).symm

/-- The branch that the copy pass wrote for an instruction, as the last state of the copy
pass holds it: the cell of the instruction carries the branch mark, the position in the
final byte code is what the counters record, and the bytes written are still there. -/
theorem copy_site_final {t : cbc_tables} {chain : List Nat} {limit base q0 fuel : Nat}
    {last : Option Nat × Nat} {st0 copied : copy_state} {r n hdr w d : Nat} {fwd : Bool}
    (hn : 0 < t.PARSER_CBC_STREAM_PAGE_SIZE) (h127 : t.PARSER_CBC_STREAM_PAGE_SIZE ≤ 127)
    (hat0 : copy_at t chain q0 st0)
    (hq0 : q0 ≤ chain.length * t.PARSER_CBC_STREAM_PAGE_SIZE)
    (hco : counters_ok t chain base q0 st0)
    (hloop : copy_loop t limit last fuel st0 = .ok copied)
    (hs : copy_site t limit last chain st0 r n hdr w fwd d) :
    n = base + copied_before t copied.pages chain r
      ∧ (∀ b, stream_read t copied.pages chain r = some b → b &&& CBC_HIGHEST_BIT_MASK ≠ 0)
      ∧ code_branch t copied.dst n hdr w fwd
      ∧ big_endian (fun x => copied.dst[x]?) w (n + hdr) 0 = some d
      ∧ n + hdr + w ≤ copied.dst.length
      ∧ r < chain.length * t.PARSER_CBC_STREAM_PAGE_SIZE := by
  obtain ⟨k, s, s1, hk, hpos, hc, hi, hmk, hnn, c1, c2, c3, c4, c6⟩ := hs
  obtain ⟨r0, _, hpos0, r1, hr0, hco1, hlen, _⟩ :=
    copy_reach_final hn h127 hat0 hq0 hco hloop hk
  have e : r0 = r := hpos0.symm.trans hpos
  subst e
  have hk1 : copy_steps t limit last (k + 1) st0 = .ok s1 := by
    rw [copy_steps_add k 1, hk]
    dsimp only
    rw [copy_steps_succ_of_cond 0 hc, hi]
    rfl
  obtain ⟨q1, i1, _⟩ := copy_instruction_run hn r1.2.1 hi
  obtain ⟨hco2, hcells⟩ := i1.2.2.2.2.2.2 base h127 hco1
  obtain ⟨fuel1, hl1⟩ := copy_loop_of_steps (k + 1) fuel st0 s1 copied hloop hk1
  obtain ⟨qe, r2⟩ := copy_loop_run hn fuel1 q1 s1 copied i1.2.1 hl1
  have hdst : ∀ x, x < s1.dst.length → copied.dst[x]? = s1.dst[x]? := r2.2.2.2.2.1
  have hlen1 : s1.dst.length ≤ copied.dst.length := r2.2.2.1
  obtain ⟨c, hc1, hiff⟩ := hcells r0 (le_refl _) i1.1
  have hcell : stream_read t copied.pages chain r0 = some c := by
    rw [r2.2.2.2.2.2.1 r0 (Or.inl i1.1)]
    exact hc1
  refine ⟨by rw [hnn]; exact hlen, ?_, ?_, ?_, by omega, stream_read_lt hn hcell⟩
  · intro b hb
    rw [hcell] at hb
    cases hb
    rw [hmk] at hiff
    exact hiff.mpr ⟨rfl, rfl⟩
  · obtain ⟨hh, h1, h2, h3⟩ := c1
    refine ⟨?_, h1, h2, by omega⟩
    rcases hh with ⟨e, opcode, a1, a2⟩ | ⟨e, a0, opcode, a1, a2⟩
    · exact Or.inl ⟨e, opcode, by rw [hdst n (by omega)]; exact a1, a2⟩
    · exact Or.inr ⟨e, by rw [hdst n (by omega)]; exact a0, opcode,
        by rw [hdst (n + 1) (by omega)]; exact a1, a2⟩
  · rw [← c4]
    exact big_endian_congr w _ _ 0 (fun i hi => hdst _ (by omega))

/-- A state of the copy pass behind the instruction of a branch: the branch lies before
the bytes written from then on, and the copy pass wrote at most as many bytes as it
consumed in between. -/
theorem copy_site_order {t : cbc_tables} {chain : List Nat} {limit base q0 k1 : Nat}
    {last : Option Nat × Nat} {st0 s1 : copy_state} {r n hdr w d : Nat} {fwd : Bool}
    (hn : 0 < t.PARSER_CBC_STREAM_PAGE_SIZE) (h127 : t.PARSER_CBC_STREAM_PAGE_SIZE ≤ 127)
    (hat0 : copy_at t chain q0 st0)
    (hq0 : q0 ≤ chain.length * t.PARSER_CBC_STREAM_PAGE_SIZE)
    (hco : counters_ok t chain base q0 st0)
    (hs : copy_site t limit last chain st0 r n hdr w fwd d)
    (hk1 : copy_steps t limit last k1 st0 = .ok s1) (hlt : r < copy_pos t chain s1) :
    n + hdr + w ≤ s1.dst.length ∧ s1.dst.length + r ≤ n + copy_pos t chain s1 := by
  obtain ⟨k, s, sn, hk, hpos, hc, hi, hmk, hnn, c1, c2, c3, c4, c6⟩ := hs
  obtain ⟨r0, ra, hr0, hcoa, hposa⟩ := copy_steps_pos hn h127 k q0 st0 s hat0 hq0 hco hk
  have e : r0 = r := hposa.symm.trans hpos
  subst e
  rcases Nat.lt_or_ge k k1 with h1 | h1
  · obtain ⟨m, hm⟩ : ∃ m, k1 = (k + 1) + m := ⟨k1 - (k + 1), by omega⟩
    have hkn : copy_steps t limit last (k + 1) st0 = .ok sn := by
      rw [copy_steps_add k 1, hk]
      dsimp only
      rw [copy_steps_succ_of_cond 0 hc, hi]
      rfl
    rw [hm, copy_steps_add (k + 1) m, hkn] at hk1
    dsimp only at hk1
    obtain ⟨q1, i1, _⟩ := copy_instruction_run hn ra.2.1 hi
    obtain ⟨hco2, hcells⟩ := i1.2.2.2.2.2.2 base h127 hcoa
    have hq1 : q1 ≤ chain.length * t.PARSER_CBC_STREAM_PAGE_SIZE := by
      obtain ⟨c, hc1, _⟩ := hcells (q1 - 1) (by have := i1.1; omega) (by have := i1.1; omega)
      have := stream_read_lt hn hc1
      omega
    obtain ⟨x, rx, _, _, hposx⟩ := copy_steps_pos hn h127 m q1 sn s1 i1.2.1 hq1 hco2 hk1
    have g1 := rx.2.2.1
    have g2 := rx.2.2.2.1
    have g3 := i1.2.2.2.1
    rw [hposx]
    omega
  · exfalso
    obtain ⟨m, hm⟩ : ∃ m, k = k1 + m := ⟨k - k1, by omega⟩
    obtain ⟨r1, rb, hr1, hcob, hposb⟩ := copy_steps_pos hn h127 k1 q0 st0 s1 hat0 hq0 hco hk1
    rw [hm, copy_steps_add k1 m, hk1] at hk
    dsimp only at hk
    obtain ⟨r2, rc, _, _, hposc⟩ := copy_steps_pos hn h127 m r1 s1 s rb.2.1 hr1 hcob hk
    have e2 : r2 = r0 := hposc.symm.trans hposa
    have := rc.1
    rw [hposb] at hlt
    omega

/-- A state of the copy pass at or before the instruction of a branch: its bytes lie before
the branch, and the copy pass wrote at most as many bytes as it consumed in between. -/
theorem copy_site_after {t : cbc_tables} {chain : List Nat} {limit base q0 k1 : Nat}
    {last : Option Nat × Nat} {st0 s1 : copy_state} {r n hdr w d : Nat} {fwd : Bool}
    (hn : 0 < t.PARSER_CBC_STREAM_PAGE_SIZE) (h127 : t.PARSER_CBC_STREAM_PAGE_SIZE ≤ 127)
    (hat0 : copy_at t chain q0 st0)
    (hq0 : q0 ≤ chain.length * t.PARSER_CBC_STREAM_PAGE_SIZE)
    (hco : counters_ok t chain base q0 st0)
    (hs : copy_site t limit last chain st0 r n hdr w fwd d)
    (hk1 : copy_steps t limit last k1 st0 = .ok s1) (hle : copy_pos t chain s1 ≤ r) :
    s1.dst.length ≤ n ∧ n + copy_pos t chain s1 ≤ s1.dst.length + r := by
  obtain ⟨k, s, sn, hk, hpos, hc, hi, hmk, hnn, c1, c2, c3, c4, c6⟩ := hs
  obtain ⟨r0, ra, hr0, hcoa, hposa⟩ := copy_steps_pos hn h127 k q0 st0 s hat0 hq0 hco hk
  have e : r0 = r := hposa.symm.trans hpos
  subst e
  rcases Nat.lt_or_ge k k1 with h1 | h1
  · exfalso
    obtain ⟨m, hm⟩ : ∃ m, k1 = (k + 1) + m := ⟨k1 - (k + 1), by omega⟩
    have hkn : copy_steps t limit last (k + 1) st0 = .ok sn := by
      rw [copy_steps_add k 1, hk]
      dsimp only
      rw [copy_steps_succ_of_cond 0 hc, hi]
      rfl
    rw [hm, copy_steps_add (k + 1) m, hkn] at hk1
    dsimp only at hk1
    obtain ⟨q1, i1, _⟩ := copy_instruction_run hn ra.2.1 hi
    obtain ⟨hco2, hcells⟩ := i1.2.2.2.2.2.2 base h127 hcoa
    have hq1 : q1 ≤ chain.length * t.PARSER_CBC_STREAM_PAGE_SIZE := by
      obtain ⟨c, hc1, _⟩ := hcells (q1 - 1) (by have := i1.1; omega) (by have := i1.1; omega)
      have := stream_read_lt hn hc1
      omega
    obtain ⟨x, rx, _, _, hposx⟩ := copy_steps_pos hn h127 m q1 sn s1 i1.2.1 hq1 hco2 hk1
    have g1 := rx.1
    have g2 := i1.1
    rw [hposx] at hle
    omega
  · obtain ⟨m, hm⟩ : ∃ m, k = k1 + m := ⟨k - k1, by omega⟩
    obtain ⟨r1, rb, hr1, hcob, hposb⟩ := copy_steps_pos hn h127 k1 q0 st0 s1 hat0 hq0 hco hk1
    rw [hm, copy_steps_add k1 m, hk1] at hk
    dsimp only at hk
    obtain ⟨r2, rc, _, _, hposc⟩ := copy_steps_pos hn h127 m r1 s1 s rb.2.1 hr1 hcob hk
    have e2 : r2 = r0 := hposc.symm.trans hposa
    subst e2
    have g1 := rc.2.2.1
    have g2 := rc.2.2.2.1
    rw [hposb, hnn]
    omega

/-! ## The branch update after the copy pass -/

/-- Inside the pages, the condition of the loops over the stream holds only before the end
of the stream. -/
theorem loop_cond_lt {t : cbc_tables} {byte_code : parser_mem_data_t} {chain : List Nat}
    (hs : stream_ok t byte_code chain) {r : Nat}
    (hr : r < chain.length * t.PARSER_CBC_STREAM_PAGE_SIZE)
    (hc : (cursor t chain r).1 ≠ (stream_end t byte_code).1
        ∨ (cursor t chain r).2 < (stream_end t byte_code).2) :
    r < stream_size t byte_code chain := by
  rcases Nat.lt_or_ge (stream_size t byte_code chain) r with h1 | h1
  swap
  · exact (loop_cond_iff hs h1).mp hc
  exfalso
  obtain ⟨hn, hp, _, _, hlast, hle, hempty⟩ := hs
  have hdm := Nat.div_add_mod r t.PARSER_CBC_STREAM_PAGE_SIZE
  have hml := Nat.mod_lt r hn
  unfold stream_size at h1
  unfold stream_end cursor at hc
  have hlen : 0 < chain.length := by
    rcases Nat.eq_zero_or_pos chain.length with h2 | h2
    · rw [h2] at hr; omega
    · exact h2
  have h4 : chain.length * t.PARSER_CBC_STREAM_PAGE_SIZE
      = (chain.length - 1) * t.PARSER_CBC_STREAM_PAGE_SIZE
        + t.PARSER_CBC_STREAM_PAGE_SIZE := by
    rw [Nat.sub_mul, Nat.one_mul, Nat.sub_add_cancel]
    exact Nat.le_mul_of_pos_left _ hlen
  by_cases hfull : byte_code.last_position ≥ t.PARSER_CBC_STREAM_PAGE_SIZE
  · omega
  · rw [if_neg hfull] at hc
    dsimp only at hc
    have hq : r / t.PARSER_CBC_STREAM_PAGE_SIZE = chain.length - 1 := by
      have g1 : r / t.PARSER_CBC_STREAM_PAGE_SIZE < chain.length :=
        (Nat.div_lt_iff_lt_mul hn).mpr hr
      have g2 : chain.length - 1 ≤ r / t.PARSER_CBC_STREAM_PAGE_SIZE := by
        rw [Nat.le_div_iff_mul_le hn]
        omega
      omega
    rw [hq, hlast, List.getLast?_eq_getElem?] at hc
    have h7 : r = (chain.length - 1) * t.PARSER_CBC_STREAM_PAGE_SIZE
        + r % t.PARSER_CBC_STREAM_PAGE_SIZE := by
      rw [← hq, Nat.mul_comm]
      omega
    rcases hc with h8 | h8
    · exact h8 rfl
    · omega

theorem code_branch_mono {t : cbc_tables} {code code1 : List Nat} {n hdr w : Nat}
    {fwd : Bool} (h : code_branch t code n hdr w fwd)
    (hx : ∀ x, x < code.length → code1[x]? = code[x]?) (hlen : code.length ≤ code1.length) :
    code_branch t code1 n hdr w fwd := by
  obtain ⟨hh, h1, h2, h3⟩ := h
  refine ⟨?_, h1, h2, by omega⟩
  rcases hh with ⟨e, opcode, a1, a2⟩ | ⟨e, a0, opcode, a1, a2⟩
  · exact Or.inl ⟨e, opcode, by rw [hx n (by omega)]; exact a1, a2⟩
  · exact Or.inr ⟨e, by rw [hx n (by omega)]; exact a0, opcode,
      by rw [hx (n + 1) (by omega)]; exact a1, a2⟩

/-- The distance that the branch update computes, in terms of the positions in the final
byte code: the difference of the position of the target and the position of the branch. -/
theorem updated_distance_exact {t : cbc_tables} {chain : List Nat}
    {final : List parser_mem_page_t} {base r n nx d v : Nat} {fwd : Bool}
    (h : updated_distance t chain final r fwd d v)
    (hr : n = base + copied_before t final chain r)
    (hx : nx = base + copied_before t final chain (if fwd = true then r + d else r - d))
    (hf : fwd = true → n ≤ nx ∧ nx - n ≤ d) (hb : fwd = false → nx ≤ n ∧ n - nx ≤ d)
    (hd : d < 2 ^ 64) :
    v = if fwd = true then nx - n else n - nx := by
  obtain ⟨A, bt, h1, h2, h3, h4⟩ := h
  cases fwd with
  | true =>
    simp only [if_true] at hx ⊢
    obtain ⟨_, h5⟩ := h3 rfl
    obtain ⟨h6, h7⟩ := hf rfl
    rcases h2 with h2 | ⟨h2, h8⟩
    · rw [h2, size_sub_eq (by omega) (by omega) (by omega)]
      omega
    · omega
  | false =>
    simp only [Bool.false_eq_true, if_false] at hx ⊢
    obtain ⟨_, h5⟩ := h4 rfl
    obtain ⟨h6, h7⟩ := hb rfl
    rcases h2 with h2 | ⟨h2, h8⟩
    · rw [h2, size_sub_eq (by omega) (by omega) (by omega)]
      omega
    · omega

/-- The copy pass followed by `parse_update_branches`: a branch that the copy pass wrote at
position `n` of the final byte code for the instruction at position `r` of the stream keeps
its opcode bytes, and its distance bytes hold the difference of `n` and the position in the
final byte code that the copy pass had reached at the target of the branch in the stream. -/
theorem update_after_copy {t : cbc_tables} {chain : List Nat} {limit fuel base : Nat}
    {bc bc1 : parser_mem_data_t} {pages0 : List parser_mem_page_t}
    {dst0 suffix code : List Nat} {copied : copy_state}
    (htab : tables_ok t) (hs : stream_ok t bc chain) (hp0 : pages_ok t pages0 chain)
    (hl0 : linked pages0 chain 0) (hb : stream_bytes_ok pages0 chain)
    (hbase : base = dst0.length)
    (hloop : copy_loop t limit (stream_end t bc) fuel
      { pages := pages0, page_p := bc.first_p, offset := 0, real_offset := 0, dst := dst0 }
      = .ok copied)
    (hupd : parse_update_branches t { bc with pages := copied.pages } (copied.dst ++ suffix)
      base = .ok (bc1, code))
    {r n hdr w d kx : Nat} {fwd : Bool} {sx : copy_state}
    (hsite : copy_site t limit (stream_end t bc) chain
      { pages := pages0, page_p := bc.first_p, offset := 0, real_offset := 0, dst := dst0 }
      r n hdr w fwd d)
    (hkx : copy_steps t limit (stream_end t bc) kx
      { pages := pages0, page_p := bc.first_p, offset := 0, real_offset := 0, dst := dst0 }
      = .ok sx)
    (hx : copy_pos t chain sx = if fwd = true then r + d else r - d)
    (hback : fwd = false → d ≤ r) :
    code.length = copied.dst.length + suffix.length
      ∧ code_branch t code n hdr w fwd
      ∧ big_endian (fun x => code[x]?) w (n + hdr) 0
        = some (if fwd = true then sx.dst.length - n else n - sx.dst.length) := by
  have hn := hs.1
  have h127 := htab.2.2
  have hL : stream_size t bc chain ≤ chain.length * t.PARSER_CBC_STREAM_PAGE_SIZE := by
    have := hs.2.2.2.2.2.1
    unfold stream_size
    omega
  have hat0 : copy_at t chain 0
      { pages := pages0, page_p := bc.first_p, offset := 0, real_offset := 0, dst := dst0 } := by
    refine ⟨hp0, hl0, ?_⟩
    unfold cursor
    rw [Nat.zero_div, Nat.zero_mod, ← List.head?_eq_getElem?, ← hs.2.2.2.1]
  have hco0 : counters_ok t chain base 0
      { pages := pages0, page_p := bc.first_p, offset := 0, real_offset := 0, dst := dst0 } := by
    unfold counters_ok copied_before counter_at pages_total
    simp [hbase]
  have hbytes0 : ∀ r b, 0 ≤ r → stream_read t pages0 chain r = some b → b < 256 :=
    fun _ _ _ hr => stream_byte_lt hb hr
  obtain ⟨qe, rrun, hqe, hnc, hmarks⟩ := copy_loop_marks hn htab fuel 0 _ copied hat0
    (Nat.zero_le _) hco0 hbytes0 hloop
  have hsize : stream_size t bc chain ≤ qe := by
    by_contra hlt
    have hc := (loop_cond_iff hs (by omega : qe ≤ stream_size t bc chain)).mpr (by omega)
    have hcur := rrun.2.1.2.2
    have hpp : copied.page_p = (cursor t chain qe).1 := congrArg Prod.fst hcur
    have hoo : copied.offset = (cursor t chain qe).2 := congrArg Prod.snd hcur
    rw [← hpp, ← hoo] at hc
    exact hnc hc
  -- the loop of the branch update
  unfold parse_update_branches at hupd
  dsimp only at hupd
  have hlast : stream_end t { bc with pages := copied.pages } = stream_end t bc := rfl
  rw [hlast] at hupd
  cases hul : update_loop t base (stream_end t bc)
      (stream_fuel { bc with pages := copied.pages })
      { pages := copied.pages, page_p := bc.first_p, prev_page_p := none, offset := 0,
        bytes_copied := 0, code := copied.dst ++ suffix } with
  | error e => rw [hul] at hupd; cases hupd
  | ok stE =>
    rw [hul] at hupd
    dsimp only at hupd
    have hcode : code = stE.code := by
      split at hupd
      · split_ifs at hupd
        split at hupd
        · cases hupd
        · cases hupd; rfl
      · cases hupd; rfl
    subst hcode
    have hatu : upd_at t chain copied.pages 0
        { pages := copied.pages, page_p := bc.first_p, prev_page_p := none, offset := 0,
          bytes_copied := 0, code := copied.dst ++ suffix } := by
      refine ⟨rrun.2.1.1, ?_, fun _ => rfl, ?_, ?_, ?_⟩
      · rw [Nat.zero_div]; exact rrun.2.1.2.1
      · unfold cursor
        rw [Nat.zero_div, Nat.zero_mod, ← List.head?_eq_getElem?, ← hs.2.2.2.1]
      · rw [Nat.zero_div]; rfl
      · rw [Nat.zero_div]; rfl
    have hfin := fun {r1 n1 hdr1 w1 d1 : Nat} {fwd1 : Bool}
        (h1 : copy_site t limit (stream_end t bc) chain
          { pages := pages0, page_p := bc.first_p, offset := 0, real_offset := 0, dst := dst0 }
          r1 n1 hdr1 w1 fwd1 d1) =>
      copy_site_final hn h127 hat0 (Nat.zero_le _) hco0 hloop h1
    have hdst : ∀ x, x < copied.dst.length → (copied.dst ++ suffix)[x]? = copied.dst[x]? :=
      fun x hx => List.getElem?_append_left hx
    obtain ⟨hatE, ilen, _, idone⟩ := @update_loop_inv t chain copied.pages base
      (stream_size t bc chain) (stream_end t bc) (copied.dst ++ suffix)
      (fun r1 hdr1 w1 fwd1 d1 => ∃ n1, copy_site t limit (stream_end t bc) chain
        { pages := pages0, page_p := bc.first_p, offset := 0, real_offset := 0, dst := dst0 }
        r1 n1 hdr1 w1 fwd1 d1) hn
      (fun r1 hr1 => (Nat.div_lt_iff_lt_mul hn).mpr (by omega))
      (fun r1 hr1 => loop_cond_iff hs hr1)
      (fun r1 b hr1 hb1 hbit => by
        obtain ⟨b2, hb2, hs2⟩ := hmarks r1 (Nat.zero_le _) (by omega)
        rw [hb1] at hb2
        cases hb2
        obtain ⟨n1, hdr1, w1, fwd1, d1, h1⟩ := hs2 hbit
        exact ⟨hdr1, w1, fwd1, d1, n1, h1⟩)
      (fun r1 hdr1 w1 fwd1 d1 b ⟨n1, h1⟩ hb1 => (hfin h1).2.1 b hb1)
      (fun r1 hdr1 w1 fwd1 d1 ⟨n1, h1⟩ => by
        obtain ⟨e1, _, e3, e4, e5, _⟩ := hfin h1
        rw [← e1]
        refine ⟨code_branch_mono e3 hdst (by simp), ?_⟩
        rw [← e4]
        exact big_endian_congr w1 _ _ 0 (fun i hi => hdst _ (by omega)))
      (fun r1 hdr1 w1 fwd1 d1 r2 hdr2 w2 fwd2 d2 ⟨n1, h1⟩ ⟨n2, h2⟩ hlt => by
        obtain ⟨e1, _⟩ := hfin h1
        obtain ⟨e2, _⟩ := hfin h2
        rw [← e1, ← e2]
        obtain ⟨k2, s2, _, hk2, hpos2, _, _, _, hn2, _⟩ := h2
        have := (copy_site_order hn h127 hat0 (Nat.zero_le _) hco0 h1 hk2
          (by rw [hpos2]; exact hlt)).1
        rw [hn2]
        exact this)
      (stream_fuel { bc with pages := copied.pages }) 0 _ stE hatu (Nat.zero_le _)
      ⟨rfl, fun _ _ _ _ _ _ _ _ _ => rfl, fun _ _ _ _ _ _ h0 => absurd h0 (Nat.not_lt_zero _)⟩
      hul
    -- the branch
    obtain ⟨e1, _, e3, e4, e5, e6⟩ := hfin hsite
    have hrlt : r < stream_size t bc chain := by
      obtain ⟨k, s, _, hk, hpos, hc, _⟩ := hsite
      obtain ⟨r0, ra, _, _, hposa⟩ := copy_steps_pos hn h127 k 0 _ s hat0 (Nat.zero_le _) hco0 hk
      have e : r0 = r := hposa.symm.trans hpos
      subst e
      have hcur := ra.2.1.2.2
      have hpp : s.page_p = (cursor t chain r0).1 := congrArg Prod.fst hcur
      have hoo : s.offset = (cursor t chain r0).2 := congrArg Prod.snd hcur
      rw [hpp, hoo] at hc
      exact loop_cond_lt hs e6 hc
    obtain ⟨hhead, v, hv1, hv2⟩ := idone r hdr w fwd d ⟨n, hsite⟩ hrlt
    rw [← e1] at hhead hv2
    obtain ⟨x, _, hposx, _, _, _, hlenx, _⟩ :=
      copy_reach_final hn h127 hat0 (Nat.zero_le _) hco0 hloop hkx
    have ex : x = if fwd = true then r + d else r - d := hposx.symm.trans hx
    have hw3 : w ≤ 3 := e3.2.2.1
    have hdw : d < 256 ^ w := by
      obtain ⟨_, _, _, _, _, _, _, _, _, _, _, _, _, c6⟩ := hsite
      exact c6
    have hd64 : d < 2 ^ 64 := by
      have : (256 : Nat) ^ w ≤ 256 ^ 3 := Nat.pow_le_pow_right (by norm_num) hw3
      have : (256 : Nat) ^ 3 < 2 ^ 64 := by norm_num
      omega
    have hfw : fwd = true → n ≤ sx.dst.length ∧ sx.dst.length - n ≤ d := by
      intro hf
      obtain ⟨A, bt, _, _, h3, _⟩ := hv1
      obtain ⟨hdpos, _⟩ := h3 hf
      have := copy_site_order hn h127 hat0 (Nat.zero_le _) hco0 hsite hkx
        (by rw [hx, if_pos hf]; omega)
      rw [hx, if_pos hf] at this
      omega
    have hbw : fwd = false → sx.dst.length ≤ n ∧ n - sx.dst.length ≤ d := by
      intro hf
      have hdr := hback hf
      have := copy_site_after hn h127 hat0 (Nat.zero_le _) hco0 hsite hkx
        (by rw [hx, if_neg (by rw [hf]; simp)]; omega)
      rw [hx, if_neg (by rw [hf]; simp)] at this
      omega
    have hv := updated_distance_exact hv1 e1 (by rw [hlenx, ex]) hfw hbw hd64
    have hvlt : v < 256 ^ w := by
      rw [hv]
      split_ifs with hf
      · have := (hfw hf).2; omega
      · have := (hbw (by simpa using hf)).2; omega
    refine ⟨by rw [ilen]; simp, ?_, ?_⟩
    · exact code_branch_congr (code_branch_mono e3 hdst (by simp)) ilen
        (fun x h1 h2 => hhead x h1 h2)
    · rw [hv2 hvlt, hv]

/-! ## Branch preservation in `parser_post_processing` -/

theorem post_processing_end_label_byte_code (t : cbc_tables) (context : parser_context_t)
    (first : first_pass_state) :
    (post_processing_end_label t context first).2.byte_code = context.byte_code := by
  unfold post_processing_end_label
  split_ifs <;> rfl

theorem post_processing_header_byte_code {lim : parser_limits} {t : cbc_tables}
    {context3 context5 : parser_context_t} {r : compute_indicies_result} {length : Nat}
    {cc : cbc_compiled_code_t}
    (h : post_processing_header lim t context3 r length = .ok (cc, context5)) :
    context5.byte_code = context3.byte_code := by
  unfold post_processing_header at h
  dsimp only at h
  split at h
  · cases h
  · rename_i context4 h4
    have e4 : context4.byte_code = context3.byte_code := by
      split_ifs at h4
      · cases h4; rfl
      · cases h4; rfl
    injection h with h
    have e5 := congrArg Prod.snd h
    dsimp only at e5
    rw [← e5]
    split_ifs
    · exact e4
    · exact e4

theorem parser_generate_initializers_byte_code {t : cbc_tables}
    {context context1 : parser_context_t} {dst dst1 : List Nat}
    {literal_table literal_table1 : List literal_value_t}
    {uninitialized_var_end initialized_var_end limit : Nat}
    (h : parser_generate_initializers t context dst literal_table uninitialized_var_end
      initialized_var_end limit = .ok (context1, dst1, literal_table1)) :
    context1.byte_code = context.byte_code := by
  unfold parser_generate_initializers at h
  dsimp only at h
  split at h
  · cases h
  · rename_i c1 d3 h1
    have e1 : c1.byte_code = context.byte_code := by
      split at h1
      · split at h1
        · cases h1
        · split_ifs at h1
          cases h1
          rfl
      · cases h1
        rfl
    split at h
    · cases h
    · split_ifs at h <;> cases h <;> exact e1

/-- The parts of `post_processing_copy_pass`: the initializers, the copy pass started behind
them, and the byte code handed on, which is the output of the copy pass with at most the
final `CBC_RETURN_WITH_BLOCK` appended. -/
theorem post_processing_copy_pass_loop {t : cbc_tables} {context5 context6 : parser_context_t}
    {r : compute_indicies_result} {first : first_pass_state} {length limit : Nat}
    {literal_table literal_table1 : List literal_value_t} {copied : copy_state}
    {dst1 : List Nat}
    (h : post_processing_copy_pass t context5 r first length limit literal_table
      = .ok (context6, copied, dst1, literal_table1)) :
    ∃ dst0 suffix, parser_generate_initializers t context5 [] literal_table
          r.uninitialized_var_end r.initialized_var_end limit
        = .ok (context6, dst0, literal_table1)
      ∧ dst0.length = r.length
      ∧ copy_loop t limit (stream_end t context6.byte_code) (stream_fuel context6.byte_code)
          { pages := first.pages, page_p := context6.byte_code.first_p, offset := 0,
            real_offset := 0, dst := dst0 } = .ok copied
      ∧ dst1 = copied.dst ++ suffix := by
  unfold post_processing_copy_pass at h
  split at h
  · cases h
  · rename_i c6 d0 lt1 hgen
    by_cases hl : d0.length = r.length
    · rw [if_pos hl] at h
      split at h
      · cases h
      · rename_i cp hcp
        dsimp only at h
        split_ifs at h with h1 h2
        · cases h
          exact ⟨d0, [t.CBC_RETURN_WITH_BLOCK], hgen, hl, hcp, rfl⟩
        · cases h
          exact ⟨d0, [], hgen, hl, hcp, by simp⟩
    · rw [if_neg hl] at h
      cases h

/-- The passes of `parser_post_processing` when it returns. -/
theorem post_processing_passes {lim : parser_limits} {t : cbc_tables}
    {context0 context7 : parser_context_t} {r : compute_indicies_result}
    {first : first_pass_state} {cc : cbc_compiled_code_t}
    (hfirst : post_processing_first_pass lim t context0 = .ok (r, first))
    (h : parser_post_processing lim t context0 = .ok (cc, context7)) :
    ∃ compiled_code context5 context6 copied dst1 literal_table byte_code,
      post_processing_header lim t (post_processing_end_label t r.context first).2 r
          (post_processing_end_label t r.context first).1 = .ok (compiled_code, context5)
      ∧ post_processing_copy_pass t context5 r first
          (post_processing_end_label t r.context first).1
          (if r.context.literal_count ≤ lim.CBC_MAXIMUM_SMALL_VALUE then
            CBC_MAXIMUM_BYTE_VALUE - 1 else CBC_LOWER_SEVEN_BIT_MASK)
          compiled_code.literal_table = .ok (context6, copied, dst1, literal_table)
      ∧ parse_update_branches t { context6.byte_code with pages := copied.pages } dst1
          r.length = .ok (byte_code, cc.byte_code) := by
  unfold parser_post_processing at h
  rw [hfirst] at h
  dsimp only at h
  split at h
  · cases h
  · rename_i compiled_code context5 hhdr
    split at h
    · cases h
    · rename_i context6 copied dst1 literal_table hcopy
      split at h
      · cases h
      · rename_i byte_code code hupd
        split at h
        · cases h
        · cases h
          exact ⟨compiled_code, context5, context6, copied, dst1, literal_table, byte_code,
            hhdr, hcopy, hupd⟩

/-- C1: for a well-formed paged stream that `parser_post_processing` processes with success,
a branch instruction that the copy pass wrote at position `n` of the final byte code (for
the instruction at position `q` of the stream, with the distance `d`, forward or backward)
is in the final byte code a branch with the same opcode bytes and width whose distance is
the number of bytes retained between the branch and its target: the difference between `n`
and the number of bytes of final byte code that the copy pass had written when it stood at
the target `q + d` (forward) or `q - d` (backward) of the stream, whatever pages the two
positions lie in. The target is the first byte of an instruction or the end of the stream
(a position where the copy pass stands after a number of instructions). -/
theorem C1_branch_distance_preserved (lim : parser_limits) (t : cbc_tables)
    (context0 context7 : parser_context_t) (chain : List Nat) (r : compute_indicies_result)
    (first : first_pass_state) (compiled_code cc : cbc_compiled_code_t)
    (context5 context6 : parser_context_t) (dst0 : List Nat)
    (literal_table : List literal_value_t) (q n hdr w d kx : Nat) (fwd : Bool)
    (sx : copy_state)
    (htab : tables_ok t) (hs : stream_ok t context0.byte_code chain)
    (hfirst : post_processing_first_pass lim t context0 = .ok (r, first))
    (hb : stream_bytes_ok first.pages chain)
    (hhdr : post_processing_header lim t (post_processing_end_label t r.context first).2 r
      (post_processing_end_label t r.context first).1 = .ok (compiled_code, context5))
    (hinit : parser_generate_initializers t context5 [] compiled_code.literal_table
      r.uninitialized_var_end r.initialized_var_end
      (if r.context.literal_count ≤ lim.CBC_MAXIMUM_SMALL_VALUE then
        CBC_MAXIMUM_BYTE_VALUE - 1 else CBC_LOWER_SEVEN_BIT_MASK)
      = .ok (context6, dst0, literal_table))
    (h : parser_post_processing lim t context0 = .ok (cc, context7))
    (hsite : copy_site t
      (if r.context.literal_count ≤ lim.CBC_MAXIMUM_SMALL_VALUE then
        CBC_MAXIMUM_BYTE_VALUE - 1 else CBC_LOWER_SEVEN_BIT_MASK)
      (stream_end t context0.byte_code) chain
      { pages := first.pages, page_p := context0.byte_code.first_p, offset := 0,
        real_offset := 0, dst := dst0 } q n hdr w fwd d)
    (hkx : copy_steps t
      (if r.context.literal_count ≤ lim.CBC_MAXIMUM_SMALL_VALUE then
        CBC_MAXIMUM_BYTE_VALUE - 1 else CBC_LOWER_SEVEN_BIT_MASK)
      (stream_end t context0.byte_code) kx
      { pages := first.pages, page_p := context0.byte_code.first_p, offset := 0,
        real_offset := 0, dst := dst0 } = .ok sx)
    (hx : copy_pos t chain sx = if fwd = true then q + d else q - d)
    (hback : fwd = false → d ≤ q) :
    code_branch t cc.byte_code n hdr w fwd
      ∧ big_endian (fun x => cc.byte_code[x]?) w (n + hdr) 0
        = some (if fwd = true then sx.dst.length - n else n - sx.dst.length) := by
  obtain ⟨compiled_code1, context51, context61, copied, dst1, literal_table1, byte_code,
    hhdr1, hcopy, hupd⟩ := post_processing_passes hfirst h
  rw [hhdr] at hhdr1
  simp only [Except.ok.injEq, Prod.mk.injEq] at hhdr1
  obtain ⟨rfl, rfl⟩ := hhdr1
  obtain ⟨dst01, suffix, hgen, hl, hcp, hdst1⟩ := post_processing_copy_pass_loop hcopy
  rw [hinit] at hgen
  simp only [Except.ok.injEq, Prod.mk.injEq] at hgen
  obtain ⟨rfl, rfl, rfl⟩ := hgen
  obtain ⟨e1, q1, hf1, _⟩ := post_processing_first_pass_run hs hfirst
  have ebc : context6.byte_code = context0.byte_code := by
    rw [parser_generate_initializers_byte_code hinit, post_processing_header_byte_code hhdr,
      post_processing_end_label_byte_code, e1]
  rw [← ebc] at hs hsite hkx
  rw [hdst1] at hupd
  exact (update_after_copy htab hs hf1.1 hf1.2.1 hb hl.symm hcp hupd hsite hkx hx hback).2

/-- Witness of C1: in `branch_example` the forward jump at position 0 of the stream, whose
target at position 11 lies in the second page, is written at position 0 of the final byte
code; the copy pass stands at the target after eight instructions with ten bytes written,
and the final byte code `1, 10, 4, 4, 4, 4, 4, 5, 7, 4, 12, 13` holds the distance 10. -/
theorem C1_branch_distance_preserved_witness :
    ∃ cc context7, parser_post_processing example_limits example_tables branch_example
        = .ok (cc, context7)
      ∧ code_branch example_tables cc.byte_code 0 1 1 true
      ∧ big_endian (fun x => cc.byte_code[x]?) 1 (0 + 1) 0 = some 10 := by
  have hok : (parser_post_processing example_limits example_tables branch_example).toBool
      = true := by decide
  cases hp : parser_post_processing example_limits example_tables branch_example with
  | error e => rw [hp] at hok; cases hok
  | ok res =>
    obtain ⟨cc, context7⟩ := res
    exact ⟨cc, context7, rfl,
      C1_branch_distance_preserved example_limits example_tables branch_example context7
        [0, 1] _ _ _ cc _ _ [] _ 0 0 1 1 11 8 true
        { pages := [ { next_p := some 1, bytes := [129, 1, 2, 3, 4, 5, 6, 7] },
                     { bytes := [129, 2, 3, 12, 0, 0, 0, 0] } ],
          page_p := some 1, offset := 3, real_offset := 3,
          dst := [1, 11, 4, 4, 4, 4, 4, 5, 8, 4] }
        example_tables_ok (by decide) rfl (by decide) rfl rfl hp
        ⟨0, _, { pages := [ { next_p := some 1, bytes := [129, 1, 2, 4, 4, 4, 4, 4] },
                            { bytes := [5, 8, 4, 12, 0, 0, 0, 0] } ],
                 page_p := some 0, offset := 3, real_offset := 2, dst := [1, 11] },
          rfl, rfl, Or.inl (by decide), rfl, rfl, rfl,
          ⟨Or.inl ⟨rfl, 1, rfl, by decide, rfl, rfl, rfl⟩, by decide, by decide, by decide⟩,
          rfl, rfl, rfl, by decide⟩
        rfl rfl (fun hf => by cases hf)⟩

/-! ## Built-in objects: the packed routine descriptor -/

/-- The bits of a container after `JRT_SET_BIT_FIELD_VALUE`: the bits of the field are those
of the new value, the others those of the container. -/
theorem testBit_set_bit_field (c v lsb w i : Nat) (hc : c < 2 ^ 64) (hv : v < 2 ^ w)
    (hw : lsb + w ≤ 64) :
    (JRT_SET_BIT_FIELD_VALUE c v lsb w).testBit i
      = if lsb ≤ i ∧ i < lsb + w then v.testBit (i - lsb) else c.testBit i := by
  have hm : ((2 ^ w - 1) <<< lsb) % 2 ^ 64 < 2 ^ 64 := Nat.mod_lt _ (by positivity)
  have h1 : 2 ^ 64 - 1 - ((2 ^ w - 1) <<< lsb) % 2 ^ 64
      = 2 ^ 64 - (((2 ^ w - 1) <<< lsb) % 2 ^ 64 + 1) := by omega
  have hc64 : ∀ j, 64 ≤ j → c.testBit j = false := fun j hj =>
    Nat.testBit_eq_false_of_lt (lt_of_lt_of_le hc (Nat.pow_le_pow_right (by norm_num) hj))
  have hvw : ∀ j, w ≤ j → v.testBit j = false := fun j hj =>
    Nat.testBit_eq_false_of_lt (lt_of_lt_of_le hv (Nat.pow_le_pow_right (by norm_num) hj))
  unfold JRT_SET_BIT_FIELD_VALUE
  rw [h1]
  simp only [Nat.testBit_mod_two_pow, Nat.testBit_or, Nat.testBit_and,
    Nat.testBit_two_pow_sub_succ hm, Nat.testBit_shiftLeft, Nat.testBit_two_pow_sub_one]
  by_cases hi : i < 64
  · by_cases h2 : lsb ≤ i
    · by_cases h3 : i < lsb + w
      · have h4 : i - lsb < w := by omega
        simp [hi, h2, h3, h4]
      · have h4 : ¬ i - lsb < w := by omega
        simp [hi, h2, h3, h4, hvw (i - lsb) (by omega)]
    · have h3 : ¬ (lsb ≤ i ∧ i < lsb + w) := fun h => h2 h.1
      simp [hi, h2]
  · have h3 : ¬ (lsb ≤ i ∧ i < lsb + w) := fun h => hi (by omega)
    simp [hi, h3, hc64 i (by omega)]

/-- The container stays below `2 ^ n` when the field lies below bit `n`. -/
theorem set_bit_field_lt (c v lsb w n : Nat) (hc : c < 2 ^ n) (hv : v < 2 ^ w)
    (hw : lsb + w ≤ n) (hn : n ≤ 64) : JRT_SET_BIT_FIELD_VALUE c v lsb w < 2 ^ n := by
  have hc64 : c < 2 ^ 64 := lt_of_lt_of_le hc (Nat.pow_le_pow_right (by norm_num) hn)
  apply Nat.lt_pow_two_of_testBit
  intro i hi
  rw [testBit_set_bit_field c v lsb w i hc64 hv (by omega), if_neg (by omega)]
  exact Nat.testBit_eq_false_of_lt (lt_of_lt_of_le hc (Nat.pow_le_pow_right (by norm_num) hi))

/-- `JRT_EXTRACT_BIT_FIELD` gives back the value that `JRT_SET_BIT_FIELD_VALUE` wrote into
the field. -/
theorem extract_set_bit_field (c v lsb w : Nat) (hc : c < 2 ^ 64) (hv : v < 2 ^ w)
    (hw : lsb + w ≤ 64) :
    JRT_EXTRACT_BIT_FIELD (JRT_SET_BIT_FIELD_VALUE c v lsb w) lsb w = v := by
  apply Nat.eq_of_testBit_eq
  intro i
  unfold JRT_EXTRACT_BIT_FIELD
  rw [Nat.testBit_and, Nat.testBit_shiftRight, Nat.testBit_two_pow_sub_one,
    testBit_set_bit_field c v lsb w (lsb + i) hc hv hw]
  by_cases h : i < w
  · rw [if_pos ⟨by omega, by omega⟩]
    have h1 : lsb + i - lsb = i := by omega
    simp [h, h1]
  · simp only [h, decide_False, Bool.and_false]
    exact (Nat.testBit_eq_false_of_lt
      (lt_of_lt_of_le hv (Nat.pow_le_pow_right (by norm_num) (by omega)))).symm

/-- `JRT_SET_BIT_FIELD_VALUE` leaves a field alone that does not overlap the one written. -/
theorem extract_set_bit_field_other (c v lsb w lsb1 w1 : Nat) (hc : c < 2 ^ 64)
    (hv : v < 2 ^ w) (hw : lsb + w ≤ 64) (hd : lsb1 + w1 ≤ lsb ∨ lsb + w ≤ lsb1) :
    JRT_EXTRACT_BIT_FIELD (JRT_SET_BIT_FIELD_VALUE c v lsb w) lsb1 w1
      = JRT_EXTRACT_BIT_FIELD c lsb1 w1 := by
  apply Nat.eq_of_testBit_eq
  intro i
  unfold JRT_EXTRACT_BIT_FIELD
  rw [Nat.testBit_and, Nat.testBit_and, Nat.testBit_shiftRight, Nat.testBit_shiftRight,
    Nat.testBit_two_pow_sub_one, testBit_set_bit_field c v lsb w (lsb1 + i) hc hv hw]
  by_cases h : i < w1
  · rw [if_neg (by omega)]
  · simp [h]

/-- The three fields of the packed routine descriptor, read back, and its 32 bits. -/
theorem routine_packed_value_fields (t : ecma_builtin_tables)
    (builtin_id routine_id length_prop_value : Nat)
    (h1 : t.ECMA_BUILTIN_ROUTINE_ID_BUILT_IN_OBJECT_ID_POS
        + t.ECMA_BUILTIN_ROUTINE_ID_BUILT_IN_OBJECT_ID_WIDTH
      ≤ t.ECMA_BUILTIN_ROUTINE_ID_BUILT_IN_ROUTINE_ID_POS)
    (h2 : t.ECMA_BUILTIN_ROUTINE_ID_BUILT_IN_ROUTINE_ID_POS
        + t.ECMA_BUILTIN_ROUTINE_ID_BUILT_IN_ROUTINE_ID_WIDTH
      ≤ t.ECMA_BUILTIN_ROUTINE_ID_LENGTH_VALUE_POS)
    (h3 : t.ECMA_BUILTIN_ROUTINE_ID_LENGTH_VALUE_POS
        + t.ECMA_BUILTIN_ROUTINE_ID_LENGTH_VALUE_WIDTH ≤ 32)
    (hb : builtin_id < 2 ^ t.ECMA_BUILTIN_ROUTINE_ID_BUILT_IN_OBJECT_ID_WIDTH)
    (hr : routine_id < 2 ^ t.ECMA_BUILTIN_ROUTINE_ID_BUILT_IN_ROUTINE_ID_WIDTH)
    (hl : length_prop_value < 2 ^ t.ECMA_BUILTIN_ROUTINE_ID_LENGTH_VALUE_WIDTH) :
    ecma_builtin_routine_packed_value t builtin_id routine_id length_prop_value < 2 ^ 32
      ∧ JRT_EXTRACT_BIT_FIELD
          (ecma_builtin_routine_packed_value t builtin_id routine_id length_prop_value)
          t.ECMA_BUILTIN_ROUTINE_ID_BUILT_IN_OBJECT_ID_POS
          t.ECMA_BUILTIN_ROUTINE_ID_BUILT_IN_OBJECT_ID_WIDTH = builtin_id
      ∧ JRT_EXTRACT_BIT_FIELD
          (ecma_builtin_routine_packed_value t builtin_id routine_id length_prop_value)
          t.ECMA_BUILTIN_ROUTINE_ID_BUILT_IN_ROUTINE_ID_POS
          t.ECMA_BUILTIN_ROUTINE_ID_BUILT_IN_ROUTINE_ID_WIDTH = routine_id
      ∧ JRT_EXTRACT_BIT_FIELD
          (ecma_builtin_routine_packed_value t builtin_id routine_id length_prop_value)
          t.ECMA_BUILTIN_ROUTINE_ID_LENGTH_VALUE_POS
          t.ECMA_BUILTIN_ROUTINE_ID_LENGTH_VALUE_WIDTH = length_prop_value := by
  have a0 : (0 : Nat) < 2 ^ 32 := by norm_num
  have a1 := set_bit_field_lt 0 builtin_id t.ECMA_BUILTIN_ROUTINE_ID_BUILT_IN_OBJECT_ID_POS
    t.ECMA_BUILTIN_ROUTINE_ID_BUILT_IN_OBJECT_ID_WIDTH 32 a0 hb (by omega) (by norm_num)
  have a2 := set_bit_field_lt _ routine_id t.ECMA_BUILTIN_ROUTINE_ID_BUILT_IN_ROUTINE_ID_POS
    t.ECMA_BUILTIN_ROUTINE_ID_BUILT_IN_ROUTINE_ID_WIDTH 32 a1 hr (by omega) (by norm_num)
  have a3 := set_bit_field_lt _ length_prop_value t.ECMA_BUILTIN_ROUTINE_ID_LENGTH_VALUE_POS
    t.ECMA_BUILTIN_ROUTINE_ID_LENGTH_VALUE_WIDTH 32 a2 hl h3 (by norm_num)
  have b0 : (0 : Nat) < 2 ^ 64 := by norm_num
  have b1 : JRT_SET_BIT_FIELD_VALUE 0 builtin_id
      t.ECMA_BUILTIN_ROUTINE_ID_BUILT_IN_OBJECT_ID_POS
      t.ECMA_BUILTIN_ROUTINE_ID_BUILT_IN_OBJECT_ID_WIDTH < 2 ^ 64 :=
    lt_trans a1 (by norm_num)
  have b2 : JRT_SET_BIT_FIELD_VALUE (JRT_SET_BIT_FIELD_VALUE 0 builtin_id
      t.ECMA_BUILTIN_ROUTINE_ID_BUILT_IN_OBJECT_ID_POS
      t.ECMA_BUILTIN_ROUTINE_ID_BUILT_IN_OBJECT_ID_WIDTH) routine_id
      t.ECMA_BUILTIN_ROUTINE_ID_BUILT_IN_ROUTINE_ID_POS
      t.ECMA_BUILTIN_ROUTINE_ID_BUILT_IN_ROUTINE_ID_WIDTH < 2 ^ 64 :=
    lt_trans a2 (by norm_num)
  unfold ecma_builtin_routine_packed_value
  refine ⟨a3, ?_, ?_, ?_⟩
  · rw [extract_set_bit_field_other _ _ _ _ _ _ b2 hl (by omega) (Or.inl (by omega)),
      extract_set_bit_field_other _ _ _ _ _ _ b1 hr (by omega) (Or.inl h1),
      extract_set_bit_field 0 builtin_id _ _ b0 hb (by omega)]
  · rw [extract_set_bit_field_other _ _ _ _ _ _ b2 hl (by omega) (Or.inl h2),
      extract_set_bit_field _ routine_id _ _ b1 hr (by omega)]
  · exact extract_set_bit_field _ length_prop_value _ _ b2 hl (by omega)


/-- C22: with the three fields of the routine descriptor one after the other within 32 bits
(the routine field at most 16 bits wide, the length field 8 bits, as the source asserts) and
each value within its field, `ecma_builtin_make_function_object_for_routine` returns a
function object whose stored routine descriptor gives back `builtin_id`, `routine_id` and
`length_prop_value` in its three bit fields; the lazily instantiated `length` property of
that object has the value `length_prop_value`, and `ecma_builtin_dispatch_call` calls the
dispatcher with `builtin_id` and `routine_id`. -/
theorem C22_routine_descriptor_roundtrip (t : ecma_builtin_tables) (heap : ecma_heap_t)
    (builtin_id routine_id length_prop_value : Nat)
    (h1 : t.ECMA_BUILTIN_ROUTINE_ID_BUILT_IN_OBJECT_ID_POS
        + t.ECMA_BUILTIN_ROUTINE_ID_BUILT_IN_OBJECT_ID_WIDTH
      ≤ t.ECMA_BUILTIN_ROUTINE_ID_BUILT_IN_ROUTINE_ID_POS)
    (h2 : t.ECMA_BUILTIN_ROUTINE_ID_BUILT_IN_ROUTINE_ID_POS
        + t.ECMA_BUILTIN_ROUTINE_ID_BUILT_IN_ROUTINE_ID_WIDTH
      ≤ t.ECMA_BUILTIN_ROUTINE_ID_LENGTH_VALUE_POS)
    (h3 : t.ECMA_BUILTIN_ROUTINE_ID_LENGTH_VALUE_POS
        + t.ECMA_BUILTIN_ROUTINE_ID_LENGTH_VALUE_WIDTH ≤ 32)
    (h16 : t.ECMA_BUILTIN_ROUTINE_ID_BUILT_IN_ROUTINE_ID_WIDTH ≤ 16)
    (h8 : t.ECMA_BUILTIN_ROUTINE_ID_LENGTH_VALUE_WIDTH = 8)
    (hb : builtin_id < 2 ^ t.ECMA_BUILTIN_ROUTINE_ID_BUILT_IN_OBJECT_ID_WIDTH)
    (hr : routine_id < 2 ^ t.ECMA_BUILTIN_ROUTINE_ID_BUILT_IN_ROUTINE_ID_WIDTH)
    (hl : length_prop_value < 2 ^ t.ECMA_BUILTIN_ROUTINE_ID_LENGTH_VALUE_WIDTH)
    (hcount : builtin_id < t.ECMA_BUILTIN_ID__COUNT)
    (hlen : heap.ecma_builtin_objects.length = t.ECMA_BUILTIN_ID__COUNT)
    (hch : prototype_chain_ends t (t.ECMA_BUILTIN_ID__COUNT + 1)
        t.ECMA_BUILTIN_ID_FUNCTION_PROTOTYPE = true)
    (hfixed : t.ecma_is_property_configurable t.ECMA_PROPERTY_FIXED = false) :
    ∃ func_obj_p heap1 func_obj builtin_routine_desc,
      ecma_builtin_make_function_object_for_routine t heap builtin_id routine_id
          length_prop_value = .ok (func_obj_p, heap1)
      ∧ heap1.objects[func_obj_p]? = some func_obj
      ∧ ecma_find_internal_property func_obj
          ecma_internal_property_id_t.ECMA_INTERNAL_PROPERTY_BUILT_IN_ROUTINE_DESC
        = some (ecma_internal_value_t.uint32 builtin_routine_desc)
      ∧ builtin_routine_desc < 2 ^ 32
      ∧ JRT_EXTRACT_BIT_FIELD builtin_routine_desc
          t.ECMA_BUILTIN_ROUTINE_ID_BUILT_IN_OBJECT_ID_POS
          t.ECMA_BUILTIN_ROUTINE_ID_BUILT_IN_OBJECT_ID_WIDTH = builtin_id
      ∧ JRT_EXTRACT_BIT_FIELD builtin_routine_desc
          t.ECMA_BUILTIN_ROUTINE_ID_BUILT_IN_ROUTINE_ID_POS
          t.ECMA_BUILTIN_ROUTINE_ID_BUILT_IN_ROUTINE_ID_WIDTH = routine_id
      ∧ JRT_EXTRACT_BIT_FIELD builtin_routine_desc
          t.ECMA_BUILTIN_ROUTINE_ID_LENGTH_VALUE_POS
          t.ECMA_BUILTIN_ROUTINE_ID_LENGTH_VALUE_WIDTH = length_prop_value
      ∧ ecma_builtin_try_to_instantiate_property t heap1 func_obj_p
          (ecma_string_t.magic t.LIT_MAGIC_STRING_LENGTH)
        = .ok (some { name := ecma_string_t.magic t.LIT_MAGIC_STRING_LENGTH,
                      attributes := t.ECMA_PROPERTY_FIXED,
                      value := some (ecma_value_t.integer length_prop_value) },
            heap1.store func_obj_p
              (ecma_create_named_data_property func_obj
                (ecma_string_t.magic t.LIT_MAGIC_STRING_LENGTH) t.ECMA_PROPERTY_FIXED
                (ecma_value_t.integer length_prop_value)))
      ∧ ∀ dispatch_routine dispatch_call this_arg_value arguments_list,
          ecma_builtin_dispatch_call t dispatch_routine dispatch_call heap1 func_obj_p
              this_arg_value arguments_list
            = ecma_builtin_dispatch_return t
                (dispatch_routine builtin_id routine_id this_arg_value arguments_list
                  heap1) := by
  have hr16 : u16 routine_id = routine_id :=
    Nat.mod_eq_of_lt (lt_of_lt_of_le hr (Nat.pow_le_pow_right (by norm_num) h16))
  have hl8 : u8 length_prop_value = length_prop_value := by
    rw [h8] at hl
    exact Nat.mod_eq_of_lt hl
  obtain ⟨f0, f1, f2, f3⟩ :=
    routine_packed_value_fields t builtin_id routine_id length_prop_value h1 h2 h3 hb hr hl
  obtain ⟨q, heapg, hg⟩ := ecma_builtin_get_total t heap _ hlen hch
  have hmake : ecma_builtin_make_function_object_for_routine t heap builtin_id routine_id
      length_prop_value
      = .ok (heapg.objects.length,
          { heapg with objects := heapg.objects ++
            [ecma_set_internal_property_value
              (ecma_create_internal_property
                { prototype_p := some q, is_extensible := true,
                  type := t.ECMA_OBJECT_TYPE_BUILT_IN_FUNCTION, is_builtin := true }
                ecma_internal_property_id_t.ECMA_INTERNAL_PROPERTY_BUILT_IN_ROUTINE_DESC)
              ecma_internal_property_id_t.ECMA_INTERNAL_PROPERTY_BUILT_IN_ROUTINE_DESC
              (ecma_internal_value_t.uint32
                (ecma_builtin_routine_packed_value t builtin_id routine_id
                  length_prop_value))] }) := by
    rw [ecma_builtin_make_function_object_for_routine, hg]
    simp only [hr16, hl8]
    rw [if_pos (by omega), Nat.mod_eq_of_lt f0]
  have hobj : ({ heapg with objects := heapg.objects ++
        [ecma_set_internal_property_value
          (ecma_create_internal_property
            { prototype_p := some q, is_extensible := true,
              type := t.ECMA_OBJECT_TYPE_BUILT_IN_FUNCTION, is_builtin := true }
            ecma_internal_property_id_t.ECMA_INTERNAL_PROPERTY_BUILT_IN_ROUTINE_DESC)
          ecma_internal_property_id_t.ECMA_INTERNAL_PROPERTY_BUILT_IN_ROUTINE_DESC
          (ecma_internal_value_t.uint32
            (ecma_builtin_routine_packed_value t builtin_id routine_id
              length_prop_value))] } : ecma_heap_t).objects[heapg.objects.length]?
      = some (ecma_set_internal_property_value
          (ecma_create_internal_property
            { prototype_p := some q, is_extensible := true,
              type := t.ECMA_OBJECT_TYPE_BUILT_IN_FUNCTION, is_builtin := true }
            ecma_internal_property_id_t.ECMA_INTERNAL_PROPERTY_BUILT_IN_ROUTINE_DESC)
          ecma_internal_property_id_t.ECMA_INTERNAL_PROPERTY_BUILT_IN_ROUTINE_DESC
          (ecma_internal_value_t.uint32
            (ecma_builtin_routine_packed_value t builtin_id routine_id
              length_prop_value))) := by
    simp
  have hfind : ecma_find_internal_property
      (ecma_set_internal_property_value
        (ecma_create_internal_property
          { prototype_p := some q, is_extensible := true,
            type := t.ECMA_OBJECT_TYPE_BUILT_IN_FUNCTION, is_builtin := true }
          ecma_internal_property_id_t.ECMA_INTERNAL_PROPERTY_BUILT_IN_ROUTINE_DESC)
        ecma_internal_property_id_t.ECMA_INTERNAL_PROPERTY_BUILT_IN_ROUTINE_DESC
        (ecma_internal_value_t.uint32
          (ecma_builtin_routine_packed_value t builtin_id routine_id length_prop_value)))
      ecma_internal_property_id_t.ECMA_INTERNAL_PROPERTY_BUILT_IN_ROUTINE_DESC
      = some (ecma_internal_value_t.uint32
          (ecma_builtin_routine_packed_value t builtin_id routine_id length_prop_value)) :=
    rfl
  refine ⟨_, _, _, _, hmake, hobj, hfind, f0, f1, f2, f3, ?_, ?_⟩
  · rw [ecma_builtin_try_to_instantiate_property, hobj]
    simp only [ecma_set_internal_property_value, ecma_create_internal_property, if_true,
      ecma_find_internal_property, List.map_cons, List.map_nil, List.lookup_cons, beq_self_eq_true]
    simp only [f3, hl8, hfixed, Bool.false_eq_true, if_false]
  · intro dispatch_routine dispatch_call this_arg_value arguments_list
    rw [ecma_builtin_dispatch_call, hobj]
    simp only [ecma_set_internal_property_value, ecma_create_internal_property, if_true,
      ecma_find_internal_property, List.map_cons, List.map_nil, List.lookup_cons, beq_self_eq_true]
    simp only [f1, f2, hr16, ecma_builtin_dispatch_routine]
    rw [if_pos hcount, if_pos (by
      have := lt_of_lt_of_le hr (Nat.pow_le_pow_right (by norm_num : 0 < 2) h16)
      omega), if_pos hcount]

/-- Witness of C22: in `builtin_example_tables` (fields of 8, 16 and 8 bits) the routine 11
of built-in 0 with the length 2 is packed into the descriptor `2 * 2 ^ 24 + 11 * 2 ^ 8`. -/
theorem C22_routine_descriptor_roundtrip_witness :
    ∃ func_obj_p heap1 func_obj builtin_routine_desc,
      ecma_builtin_make_function_object_for_routine builtin_example_tables
          builtin_example_heap 0 11 2 = .ok (func_obj_p, heap1)
      ∧ heap1.objects[func_obj_p]? = some func_obj
      ∧ ecma_find_internal_property func_obj
          ecma_internal_property_id_t.ECMA_INTERNAL_PROPERTY_BUILT_IN_ROUTINE_DESC
        = some (ecma_internal_value_t.uint32 builtin_routine_desc)
      ∧ builtin_routine_desc < 2 ^ 32
      ∧ JRT_EXTRACT_BIT_FIELD builtin_routine_desc 0 8 = 0
      ∧ JRT_EXTRACT_BIT_FIELD builtin_routine_desc 8 16 = 11
      ∧ JRT_EXTRACT_BIT_FIELD builtin_routine_desc 24 8 = 2
      ∧ ecma_builtin_try_to_instantiate_property builtin_example_tables heap1 func_obj_p
          (ecma_string_t.magic 5)
        = .ok (some { name := ecma_string_t.magic 5, attributes := 0,
                      value := some (ecma_value_t.integer 2) },
            heap1.store func_obj_p
              (ecma_create_named_data_property func_obj (ecma_string_t.magic 5) 0
                (ecma_value_t.integer 2)))
      ∧ ∀ dispatch_routine dispatch_call this_arg_value arguments_list,
          ecma_builtin_dispatch_call builtin_example_tables dispatch_routine dispatch_call
              heap1 func_obj_p this_arg_value arguments_list
            = ecma_builtin_dispatch_return builtin_example_tables
                (dispatch_routine 0 11 this_arg_value arguments_list heap1) :=
  C22_routine_descriptor_roundtrip builtin_example_tables builtin_example_heap 0 11 2
    (by decide) (by decide) (by decide) (by decide) rfl (by decide) (by decide) (by decide)
    (by decide) rfl (by decide) rfl


/-! ## Built-in objects: the registry -/

/-- The object that `ecma_instantiate_builtin` puts into the slot of the built-in is a new
object of the heap. -/
theorem ecma_instantiate_builtin_fresh (t : ecma_builtin_tables) (fuel : Nat)
    (heap heap1 : ecma_heap_t) (id : Nat)
    (h : ecma_instantiate_builtin t fuel heap id = .ok heap1) :
    ∃ p, heap1.ecma_builtin_objects[id]? = some (some p)
      ∧ heap.objects.length ≤ p ∧ p < heap1.objects.length := by
  cases fuel with
  | zero => simp [ecma_instantiate_builtin] at h
  | succ fuel =>
    rw [ecma_instantiate_builtin] at h
    split at h
    · cases h
    rename_i builtin hb
    by_cases hslot : heap.ecma_builtin_objects[id]? = some none
    swap
    · rw [if_neg hslot] at h; cases h
    rw [if_pos hslot] at h
    have hidlt : id < heap.ecma_builtin_objects.length := by
      rcases Nat.lt_or_ge id heap.ecma_builtin_objects.length with h1 | h1
      · exact h1
      · rw [List.getElem?_eq_none h1] at hslot; cases hslot
    have key : ∀ (heap2 : ecma_heap_t) (proto : Option Nat),
        heap.objects <+: heap2.objects →
        heap2.ecma_builtin_objects.length = heap.ecma_builtin_objects.length →
        heap1 = { (ecma_builtin_init_object t heap2 id proto builtin.object_type
              builtin.is_extensible).1 with
            ecma_builtin_objects :=
              (ecma_builtin_init_object t heap2 id proto builtin.object_type
                builtin.is_extensible).1.ecma_builtin_objects.set id
                (some (ecma_builtin_init_object t heap2 id proto builtin.object_type
                  builtin.is_extensible).2) } →
        ∃ p, heap1.ecma_builtin_objects[id]? = some (some p)
          ∧ heap.objects.length ≤ p ∧ p < heap1.objects.length := by
      intro heap2 proto hpre hlen h1
      obtain ⟨object, ho, hr, hp⟩ :=
        ecma_builtin_init_object_heap t heap2 id proto builtin.object_type
          builtin.is_extensible
      subst h1
      refine ⟨heap2.objects.length, ?_, hpre.length_le, ?_⟩
      · show ((ecma_builtin_init_object t heap2 id proto builtin.object_type
              builtin.is_extensible).1.ecma_builtin_objects.set id _)[id]? = _
        rw [List.getElem?_set_self (by rw [hr, hlen]; exact hidlt), hp]
      · show heap2.objects.length < (ecma_builtin_init_object t heap2 id proto
            builtin.object_type builtin.is_extensible).1.objects.length
        rw [ho, List.length_append, List.length_singleton]
        omega
    by_cases hc : builtin.object_prototype_builtin_id = t.ECMA_BUILTIN_ID__COUNT
    · rw [if_pos hc] at h
      simp only [Except.ok.injEq] at h
      exact key heap none (List.prefix_refl _) rfl h.symm
    · rw [if_neg hc] at h
      by_cases hps : heap.ecma_builtin_objects[builtin.object_prototype_builtin_id]?
          = some none
      · rw [if_pos hps] at h
        cases hrec : ecma_instantiate_builtin t fuel heap builtin.object_prototype_builtin_id with
        | error e => rw [hrec] at h; cases h
        | ok heapp =>
          rw [hrec] at h
          obtain ⟨hpre, hlen, _, p, hp⟩ := ecma_instantiate_builtin_heap t fuel heap heapp _ hrec
          simp only [hp, Except.ok.injEq] at h
          exact key heapp (some p) hpre hlen h.symm
      · rw [if_neg hps] at h
        rcases hq : heap.ecma_builtin_objects[builtin.object_prototype_builtin_id]? with
          _ | _ | p
        · simp [hq] at h
        · exact absurd hq hps
        · simp only [hq, Except.ok.injEq] at h
          exact key heap (some p) (List.prefix_refl _) rfl h.symm

/-- With the slot of the built-in filled, `ecma_builtin_get` returns the object of the slot
and leaves the heap as it is. -/
theorem ecma_builtin_get_filled (t : ecma_builtin_tables) (heap : ecma_heap_t) (id q : Nat)
    (hlt : id < t.ECMA_BUILTIN_ID__COUNT)
    (hq : heap.ecma_builtin_objects[id]? = some (some q)) :
    ecma_builtin_get t heap id = .ok (q, heap) := by
  rw [ecma_builtin_get, if_pos hlt, if_neg (by rw [hq]; simp)]
  simp only [hq]

/-- C24: `ecma_init_builtins` empties every slot. In a state between `ecma_init_builtins`
and `ecma_finalize_builtins` (the registry has its `ECMA_BUILTIN_ID__COUNT` slots), while
the slot of `id` is empty `ecma_builtin_is` is false for every object; `ecma_builtin_get`
returns an object: the object of the slot, with the heap unchanged, when the slot is filled,
and otherwise a new object that it puts into the slot; the filled slots stay as they are, so
a further call for `id`, directly or after a call for another built-in, returns the same
object and leaves the heap unchanged; and `ecma_builtin_is` is then true exactly for that
object. -/
theorem C24_builtin_registry (t : ecma_builtin_tables) (heap0 heap : ecma_heap_t) (id : Nat)
    (hlen : heap.ecma_builtin_objects.length = t.ECMA_BUILTIN_ID__COUNT)
    (hch : prototype_chain_ends t (t.ECMA_BUILTIN_ID__COUNT + 1) id = true) :
    (ecma_init_builtins t heap0).ecma_builtin_objects.length = t.ECMA_BUILTIN_ID__COUNT
      ∧ (∀ j, j < t.ECMA_BUILTIN_ID__COUNT →
          (ecma_init_builtins t heap0).ecma_builtin_objects[j]? = some none)
      ∧ (heap.ecma_builtin_objects[id]? = some none →
          ∀ obj_p, obj_p < heap.objects.length → ecma_builtin_is t heap obj_p id = .ok false)
      ∧ ∃ p heap1, ecma_builtin_get t heap id = .ok (p, heap1)
          ∧ (∀ q, heap.ecma_builtin_objects[id]? = some (some q) → p = q ∧ heap1 = heap)
          ∧ (heap.ecma_builtin_objects[id]? = some none →
              heap.objects.length ≤ p ∧ p < heap1.objects.length)
          ∧ heap1.ecma_builtin_objects.length = t.ECMA_BUILTIN_ID__COUNT
          ∧ heap1.ecma_builtin_objects[id]? = some (some p)
          ∧ (∀ (j q : Nat), heap.ecma_builtin_objects[j]? = some (some q) →
              heap1.ecma_builtin_objects[j]? = some (some q))
          ∧ ecma_builtin_get t heap1 id = .ok (p, heap1)
          ∧ (∀ (id2 p2 : Nat) (heap2 : ecma_heap_t),
              ecma_builtin_get t heap1 id2 = .ok (p2, heap2) →
              ecma_builtin_get t heap2 id = .ok (p, heap2))
          ∧ (∀ obj_p, obj_p < heap1.objects.length →
              ecma_builtin_is t heap1 obj_p id = .ok (decide (obj_p = p))) := by
  have hlt : id < t.ECMA_BUILTIN_ID__COUNT := by
    rw [prototype_chain_ends] at hch
    rcases Nat.lt_or_ge id t.builtins.length with h2 | h2
    · exact h2
    · rw [List.getElem?_eq_none h2] at hch; cases hch
  refine ⟨by simp [ecma_init_builtins], ?_, ?_, ?_⟩
  · intro j hj
    simp only [ecma_init_builtins]
    rw [List.getElem?_replicate, if_pos hj]
  · intro hs obj_p ho
    rw [ecma_builtin_is, if_pos ⟨ho, hlt⟩, hs]
  · obtain ⟨p, heap1, hg⟩ := ecma_builtin_get_total t heap id hlen hch
    obtain ⟨hpre, hlen1, hkeep, hp⟩ := ecma_builtin_get_heap t heap heap1 id p hg
    refine ⟨p, heap1, hg, ?_, ?_, by rw [hlen1, hlen], hp, hkeep,
      ecma_builtin_get_filled t heap1 id p hlt hp, ?_, ?_⟩
    · intro q hq
      rw [ecma_builtin_get_filled t heap id q hlt hq] at hg
      simp only [Except.ok.injEq, Prod.mk.injEq] at hg
      exact ⟨hg.1.symm, hg.2.symm⟩
    · intro hs
      rw [ecma_builtin_get, if_pos hlt, if_pos hs] at hg
      cases hi : ecma_instantiate_builtin t (t.ECMA_BUILTIN_ID__COUNT + 1) heap id with
      | error e => rw [hi] at hg; cases hg
      | ok heapi =>
        rw [hi] at hg
        obtain ⟨q, hq, hq1, hq2⟩ := ecma_instantiate_builtin_fresh t _ heap heapi id hi
        simp only [hq, Except.ok.injEq, Prod.mk.injEq] at hg
        obtain ⟨rfl, rfl⟩ := hg
        exact ⟨hq1, hq2⟩
    · intro id2 p2 heap2 hg2
      obtain ⟨_, _, hkeep2, _⟩ := ecma_builtin_get_heap t heap1 heap2 id2 p2 hg2
      exact ecma_builtin_get_filled t heap2 id p hlt (hkeep2 id p hp)
    · intro obj_p ho
      rw [ecma_builtin_is, if_pos ⟨ho, hlt⟩, hp]

/-- Witness of C24: in `builtin_example_heap`, whose slot of built-in 1 is empty,
`ecma_builtin_get` creates the object 1 for built-in 1; the next call returns it again. -/
theorem C24_builtin_registry_witness :
    (ecma_init_builtins builtin_example_tables {}).ecma_builtin_objects.length
        = builtin_example_tables.ECMA_BUILTIN_ID__COUNT
      ∧ (∀ j, j < builtin_example_tables.ECMA_BUILTIN_ID__COUNT →
          (ecma_init_builtins builtin_example_tables {}).ecma_builtin_objects[j]? = some none)
      ∧ (builtin_example_heap.ecma_builtin_objects[1]? = some none →
          ∀ obj_p, obj_p < builtin_example_heap.objects.length →
            ecma_builtin_is builtin_example_tables builtin_example_heap obj_p 1 = .ok false)
      ∧ ∃ p heap1, ecma_builtin_get builtin_example_tables builtin_example_heap 1
            = .ok (p, heap1)
          ∧ (∀ q, builtin_example_heap.ecma_builtin_objects[1]? = some (some q) →
              p = q ∧ heap1 = builtin_example_heap)
          ∧ (builtin_example_heap.ecma_builtin_objects[1]? = some none →
              builtin_example_heap.objects.length ≤ p ∧ p < heap1.objects.length)
          ∧ heap1.ecma_builtin_objects.length = builtin_example_tables.ECMA_BUILTIN_ID__COUNT
          ∧ heap1.ecma_builtin_objects[1]? = some (some p)
          ∧ (∀ (j q : Nat), builtin_example_heap.ecma_builtin_objects[j]? = some (some q) →
              heap1.ecma_builtin_objects[j]? = some (some q))
          ∧ ecma_builtin_get builtin_example_tables heap1 1 = .ok (p, heap1)
          ∧ (∀ (id2 p2 : Nat) (heap2 : ecma_heap_t),
              ecma_builtin_get builtin_example_tables heap1 id2 = .ok (p2, heap2) →
              ecma_builtin_get builtin_example_tables heap2 1 = .ok (p, heap2))
          ∧ (∀ obj_p, obj_p < heap1.objects.length →
              ecma_builtin_is builtin_example_tables heap1 obj_p 1
                = .ok (decide (obj_p = p))) :=
  C24_builtin_registry builtin_example_tables {} builtin_example_heap 1 rfl (by decide)


/-! ## The header of the compiled code -/

/-- The fields of the context that `parser_generate_initializers` leaves alone. -/
theorem parser_generate_initializers_context {t : cbc_tables}
    {context context1 : parser_context_t}
    {dst dst1 : List Nat} {literal_table literal_table1 : List literal_value_t}
    {uninitialized_var_end initialized_var_end limit : Nat}
    (h : parser_generate_initializers t context dst literal_table uninitialized_var_end
      initialized_var_end limit = .ok (context1, dst1, literal_table1)) :
    context1.argument_count = context.argument_count
      ∧ context1.register_count = context.register_count
      ∧ context1.status_flags.arguments_needed = context.status_flags.arguments_needed
      ∧ context1.status_flags.is_strict = context.status_flags.is_strict := by
  unfold parser_generate_initializers at h
  dsimp only at h
  split at h
  · cases h
  · rename_i c1 d3 h1
    have e1 : c1.argument_count = context.argument_count
        ∧ c1.register_count = context.register_count
        ∧ c1.status_flags.arguments_needed = context.status_flags.arguments_needed
        ∧ c1.status_flags.is_strict = context.status_flags.is_strict := by
      split at h1
      · split at h1
        · cases h1
        · split_ifs at h1
          cases h1
          exact ⟨rfl, rfl, rfl, rfl⟩
      · cases h1
        exact ⟨rfl, rfl, rfl, rfl⟩
    split at h
    · cases h
    · split_ifs at h <;> cases h <;> exact e1

/-- The context that the copy pass hands on is the context of
`parser_generate_initializers`. -/
theorem post_processing_copy_pass_context {t : cbc_tables}
    {context5 context6 : parser_context_t}
    {r : compute_indicies_result} {first : first_pass_state} {length limit : Nat}
    {literal_table literal_table1 : List literal_value_t} {copied : copy_state}
    {dst1 : List Nat}
    (h : post_processing_copy_pass t context5 r first length limit literal_table
      = .ok (context6, copied, dst1, literal_table1)) :
    context6.argument_count = context5.argument_count
      ∧ context6.register_count = context5.register_count
      ∧ context6.status_flags.arguments_needed = context5.status_flags.arguments_needed
      ∧ context6.status_flags.is_strict = context5.status_flags.is_strict := by
  unfold post_processing_copy_pass at h
  split at h
  · cases h
  · rename_i c6 d0 lt1 hgen
    split at h
    · split at h
      · cases h
      · rename_i cp _
        dsimp only at h
        by_cases hlen : (if (!c6.status_flags.no_end_label) = true then
            cp.dst ++ [t.CBC_RETURN_WITH_BLOCK] else cp.dst).length = length
        · rw [if_pos hlen] at h
          cases h
          exact parser_generate_initializers_context hgen
        · rw [if_neg hlen] at h
          cases h
    · cases h

/-- The parts of `parser_post_processing` when it returns: the calls up to the header, the
header fields of the result, which are those `post_processing_header` fills, the length of
the byte code and the table of argument names. -/
theorem post_processing_unfold {lim : parser_limits} {t : cbc_tables}
    {context0 context7 : parser_context_t} {cc : cbc_compiled_code_t}
    (h : parser_post_processing lim t context0 = .ok (cc, context7)) :
    ∃ context1 r first compiled_code context5,
      parser_copy_identifiers context0 = .ok context1
      ∧ parser_compute_indicies lim context1 = .ok r
      ∧ post_processing_first_pass lim t context0 = .ok (r, first)
      ∧ post_processing_header lim t (post_processing_end_label t r.context first).2 r
          (post_processing_end_label t r.context first).1 = .ok (compiled_code, context5)
      ∧ cc = { compiled_code with literal_table := cc.literal_table
                                  byte_code := cc.byte_code
                                  argument_names := cc.argument_names }
      ∧ cc.byte_code.length = (post_processing_end_label t r.context first).1
      ∧ context7.argument_count = context5.argument_count
      ∧ context7.register_count = context5.register_count
      ∧ context7.status_flags.arguments_needed = context5.status_flags.arguments_needed
      ∧ context7.status_flags.is_strict = context5.status_flags.is_strict
      ∧ post_processing_argument_names context7 cc.literal_table = .ok cc.argument_names := by
  cases hfirst : post_processing_first_pass lim t context0 with
  | error e =>
    unfold parser_post_processing at h
    rw [hfirst] at h
    cases h
  | ok rf =>
    obtain ⟨r, first⟩ := rf
    have hf := hfirst
    unfold post_processing_first_pass at hf
    split at hf
    · cases hf
    split at hf
    · cases hf
    split at hf
    · cases hf
    rename_i context1 h1
    split at hf
    · cases hf
    rename_i r1 h2
    dsimp only at hf
    split at hf
    · cases hf
    rename_i first1 h3
    simp only [Except.ok.injEq, Prod.mk.injEq] at hf
    obtain ⟨rfl, rfl⟩ := hf
    unfold parser_post_processing at h
    rw [hfirst] at h
    dsimp only at h
    split at h
    · cases h
    rename_i compiled_code context5 hhdr
    split at h
    · cases h
    rename_i context6 copied dst1 literal_table hcopy
    split at h
    · cases h
    rename_i byte_code code hupd
    split at h
    · cases h
    rename_i argument_names hnames
    simp only [Except.ok.injEq, Prod.mk.injEq] at h
    obtain ⟨rfl, rfl⟩ := h
    obtain ⟨g1, g2, g3, g4⟩ := post_processing_copy_pass_context hcopy
    refine ⟨context1, r1, first1, compiled_code, context5, h1, h2, rfl, hhdr, rfl, ?_,
      g1, g2, g3, g4, hnames⟩
    dsimp only
    rw [parse_update_branches_length hupd, post_processing_copy_pass_length hcopy]

/-- The header that `post_processing_header` fills: the fields of the context, narrowed to
a byte in the 8 bit variant; `argument_end` is the argument count less the rest parameter;
the size counts the argument count as it is on entry. -/
theorem post_processing_header_fields {lim : parser_limits} {t : cbc_tables}
    {context3 context5 : parser_context_t} {r : compute_indicies_result} {length : Nat}
    {compiled_code : cbc_compiled_code_t}
    (h : post_processing_header lim t context3 r length = .ok (compiled_code, context5)) :
    compiled_code.status_flags.uint16_arguments
        = (decide (context3.stack_limit > CBC_MAXIMUM_BYTE_VALUE)
          || decide (context3.register_count > CBC_MAXIMUM_BYTE_VALUE)
          || decide (context3.literal_count > CBC_MAXIMUM_BYTE_VALUE))
      ∧ compiled_code.argument_end
        = (if compiled_code.status_flags.uint16_arguments = true then context5.argument_count
            else u8 context5.argument_count)
      ∧ compiled_code.register_end
        = (if compiled_code.status_flags.uint16_arguments = true then context3.register_count
            else u8 context3.register_count)
      ∧ compiled_code.ident_end
        = (if compiled_code.status_flags.uint16_arguments = true then r.ident_end
            else u8 r.ident_end)
      ∧ compiled_code.const_literal_end
        = (if compiled_code.status_flags.uint16_arguments = true then r.const_literal_end
            else u8 r.const_literal_end)
      ∧ compiled_code.literal_end
        = (if compiled_code.status_flags.uint16_arguments = true then context3.literal_count
            else u8 context3.literal_count)
      ∧ compiled_code.status_flags.lexical_env_not_needed
        = (!(context3.status_flags.lexical_env_needed
            || context3.status_flags.arguments_needed))
      ∧ compiled_code.status_flags.rest_parameter
        = context3.status_flags.function_has_rest_param
      ∧ compiled_code.status_flags.arguments_needed = context3.status_flags.arguments_needed
      ∧ compiled_code.status_flags.strict_mode = context3.status_flags.is_strict
      ∧ context5.argument_count
        = (if context3.status_flags.function_has_rest_param = true then
            u16 (context3.argument_count + 65535) else context3.argument_count)
      ∧ (context3.status_flags.function_has_rest_param = true → 0 < context3.argument_count)
      ∧ context5.register_count = context3.register_count
      ∧ context5.literal_count = context3.literal_count
      ∧ context5.literal_pool = context3.literal_pool
      ∧ context5.status_flags.arguments_needed = context3.status_flags.arguments_needed
      ∧ context5.status_flags.is_strict = context3.status_flags.is_strict
      ∧ context5.status_flags.has_initialized_vars
        = context3.status_flags.has_initialized_vars
      ∧ context5.status_flags.function_has_rest_param
        = context3.status_flags.function_has_rest_param
      ∧ compiled_code.total_size
        = (if compiled_code.status_flags.uint16_arguments = true then
            t.sizeof_cbc_uint16_arguments_t else t.sizeof_cbc_uint8_arguments_t)
          + size_sub context3.literal_count context3.register_count * t.sizeof_literal_value_t
          + length
          + (if (context3.status_flags.arguments_needed
                && !context3.status_flags.is_strict) = true then
              context3.argument_count * t.sizeof_literal_value_t else 0) := by
  unfold post_processing_header at h
  dsimp only at h
  by_cases hrest : context3.status_flags.function_has_rest_param = true
  · rw [if_pos hrest] at h
    by_cases hpos : context3.argument_count > 0
    · rw [if_pos hpos] at h
      cases hA : context3.status_flags.arguments_needed <;>
        simp only [hA, Bool.false_eq_true, if_false, if_true, Except.ok.injEq,
          Prod.mk.injEq] at h <;>
        obtain ⟨rfl, rfl⟩ := h <;>
        simp only [hrest, hA, if_true, Bool.false_eq_true, if_false, Bool.or_false,
          Bool.or_true, Bool.not_true, Bool.not_false, Bool.true_and, Bool.false_and,
          true_and, and_true, implies_true, and_self] <;>
        exact fun _ => hpos
    · rw [if_neg hpos] at h
      cases h
  · rw [if_neg hrest] at h
    cases hA : context3.status_flags.arguments_needed <;>
      simp only [hA, Bool.false_eq_true, if_false, if_true, Except.ok.injEq,
        Prod.mk.injEq] at h <;>
      obtain ⟨rfl, rfl⟩ := h <;>
      simp only [hrest, hA, if_true, Bool.false_eq_true, if_false, Bool.or_false,
        Bool.or_true, Bool.not_true, Bool.not_false, Bool.true_and, Bool.false_and,
        true_and, and_true, implies_true, and_self, false_implies]


/-! ## `parser_compute_indicies`: the result in terms of the two loops -/

/-- The result of `parser_compute_indicies` in terms of the counters `c` of the first loop,
started from `count_start`, and of the state `i` of the second loop. -/
theorem compute_indicies_full (lim : parser_limits) (context : parser_context_t)
    (r : compute_indicies_result) (h : parser_compute_indicies lim context = .ok r) :
    ∃ (c : count_state) (pool1 : List lexer_literal_t) (i : index_state),
      count_literals lim (count_start context) context.literal_pool = .ok (pool1, c)
      ∧ assign_indices lim
          (c.status_flags.has_initialized_vars || decide (c.initialized_var_count > 2))
          (if c.literal_count ≤ lim.CBC_MAXIMUM_SMALL_VALUE then CBC_MAXIMUM_BYTE_VALUE - 1
            else CBC_LOWER_SEVEN_BIT_MASK)
          c.register_count
          { argument_count := 0
            register_index := context.register_count
            uninitialized_var_index := c.register_count
            initialized_var_index := u16 (c.register_count + c.uninitialized_var_count)
            ident_index :=
              u16 (u16 (c.register_count + c.uninitialized_var_count)
                + c.initialized_var_count)
            const_literal_index :=
              u16 (u16 (u16 (c.register_count + c.uninitialized_var_count)
                + c.initialized_var_count) + c.ident_count)
            literal_index :=
              u16 (u16 (u16 (u16 (c.register_count + c.uninitialized_var_count)
                + c.initialized_var_count) + c.ident_count) + c.const_literal_count)
            length :=
              (if c.uninitialized_var_count > 0 then
                2 + (if c.register_count + c.uninitialized_var_count - 1
                      > (if c.literal_count ≤ lim.CBC_MAXIMUM_SMALL_VALUE then
                          CBC_MAXIMUM_BYTE_VALUE - 1 else CBC_LOWER_SEVEN_BIT_MASK)
                    then 1 else 0)
              else 0)
              + (if c.initialized_var_count > 2 then
                  3 + (if u16 (c.register_count + c.uninitialized_var_count)
                        > (if c.literal_count ≤ lim.CBC_MAXIMUM_SMALL_VALUE then
                            CBC_MAXIMUM_BYTE_VALUE - 1 else CBC_LOWER_SEVEN_BIT_MASK)
                      then 1 else 0)
                    + (if u16 (u16 (c.register_count + c.uninitialized_var_count)
                          + c.initialized_var_count) - 1
                        > (if c.literal_count ≤ lim.CBC_MAXIMUM_SMALL_VALUE then
                            CBC_MAXIMUM_BYTE_VALUE - 1 else CBC_LOWER_SEVEN_BIT_MASK)
                      then 1 else 0)
                else 0) } pool1 = .ok (r.context.literal_pool, i)
      ∧ i.argument_count = context.argument_count
      ∧ i.register_index = c.register_count
      ∧ i.uninitialized_var_index = c.register_count + c.uninitialized_var_count
      ∧ i.initialized_var_index = i.uninitialized_var_index + c.initialized_var_count
      ∧ i.ident_index = i.initialized_var_index + c.ident_count
      ∧ i.const_literal_index = i.ident_index + c.const_literal_count
      ∧ i.literal_index = c.literal_count
      ∧ r.context.status_flags
        = (if c.initialized_var_count > 2 then
            { c.status_flags with has_initialized_vars := true } else c.status_flags)
      ∧ r.context.argument_count = context.argument_count
      ∧ r.context.register_count = c.register_count
      ∧ r.context.literal_count = c.literal_count
      ∧ r.context.stack_limit = context.stack_limit
      ∧ r.context.byte_code = context.byte_code
      ∧ r.context.last_context_p = context.last_context_p
      ∧ r.uninitialized_var_end = i.uninitialized_var_index
      ∧ r.initialized_var_end = i.initialized_var_index
      ∧ r.ident_end = i.ident_index
      ∧ r.const_literal_end = i.const_literal_index
      ∧ r.length = i.length := by
  unfold parser_compute_indicies at h
  dsimp only at h
  split at h
  · exact absurd h (by simp)
  · rename_i pool1 c hcount
    split at h
    · exact absurd h (by simp)
    · rename_i pool2 i hassign
      by_cases hass : i.argument_count = context.argument_count
          ∧ i.register_index = c.register_count
          ∧ i.uninitialized_var_index = c.register_count + c.uninitialized_var_count
          ∧ i.initialized_var_index = i.uninitialized_var_index + c.initialized_var_count
          ∧ i.ident_index = i.initialized_var_index + c.ident_count
          ∧ i.const_literal_index = i.ident_index + c.const_literal_count
          ∧ i.literal_index = c.literal_count
      · rw [if_pos hass] at h
        simp only [Except.ok.injEq] at h
        subst h
        obtain ⟨a0, a1, a2, a3, a4, a5, a6⟩ := hass
        refine ⟨c, pool1, i, hcount, ?_, a0, a1, a2, a3, a4, a5, a6, ?_, rfl, a1, rfl, rfl,
          rfl, rfl, rfl, rfl, rfl, rfl, rfl⟩
        · rw [← hassign]
          by_cases h2 : c.initialized_var_count > 2
          · simp only [h2, decide_True, if_true, Bool.or_true, if_true]
            congr 2
            omega
          · simp only [h2, decide_False, if_false, Bool.or_false, Nat.add_zero,
              Bool.false_eq_true]
        · by_cases h2 : c.initialized_var_count > 2
          · simp only [h2, decide_True, if_true]
          · simp only [h2, decide_False, if_false, Bool.false_eq_true]
      · rw [if_neg hass] at h
        cases h


/-! ## The header for `var x = 1;` -/

/-- The context after the decision on the end label: only `PARSER_NO_END_LABEL` may have
changed. -/
theorem post_processing_end_label_context (t : cbc_tables) (context : parser_context_t)
    (first : first_pass_state) :
    (post_processing_end_label t context first).2.argument_count = context.argument_count
      ∧ (post_processing_end_label t context first).2.register_count = context.register_count
      ∧ (post_processing_end_label t context first).2.literal_count = context.literal_count
      ∧ (post_processing_end_label t context first).2.stack_limit = context.stack_limit
      ∧ (post_processing_end_label t context first).2.literal_pool = context.literal_pool
      ∧ (post_processing_end_label t context first).2.status_flags.function_has_rest_param
        = context.status_flags.function_has_rest_param
      ∧ (post_processing_end_label t context first).2.status_flags.arguments_needed
        = context.status_flags.arguments_needed
      ∧ (post_processing_end_label t context first).2.status_flags.is_strict
        = context.status_flags.is_strict
      ∧ (post_processing_end_label t context first).2.status_flags.lexical_env_needed
        = context.status_flags.lexical_env_needed
      ∧ (post_processing_end_label t context first).2.status_flags.has_initialized_vars
        = context.status_flags.has_initialized_vars := by
  unfold post_processing_end_label
  split <;> exact ⟨rfl, rfl, rfl, rfl, rfl, rfl, rfl, rfl, rfl, rfl⟩

/-- The first loop of `parser_compute_indicies` on a pool with one local variable and one
number constant: the variable takes a register unless `PARSER_NO_REG_STORE` is set or no
register is left, the constant is counted. -/
theorem count_literals_var_constant (lim : parser_limits) (st c1 : count_state)
    (x c : lexer_literal_t) (pool1 : List lexer_literal_t)
    (hx : x.type = LEXER_IDENT_LITERAL) (hxf : x.status_flags = { var := true })
    (hc : c.type = LEXER_NUMBER_LITERAL) (hcf : c.status_flags.unused_ident = false)
    (hreg : st.register_count = 0) (hun : st.uninitialized_var_count = 0)
    (hin : st.initialized_var_count = 0) (hid : st.ident_count = 0)
    (hco : st.const_literal_count = 0)
    (h : count_literals lim st [x, c] = .ok (pool1, c1)) :
    c1.register_count
        = (if st.status_flags.no_reg_store = false
            ∧ 0 < lim.PARSER_MAXIMUM_NUMBER_OF_REGISTERS then 1 else 0)
      ∧ c1.uninitialized_var_count
        = (if st.status_flags.no_reg_store = false
            ∧ 0 < lim.PARSER_MAXIMUM_NUMBER_OF_REGISTERS then 0 else 1)
      ∧ c1.initialized_var_count = 0
      ∧ c1.ident_count = 0
      ∧ c1.const_literal_count = 1
      ∧ c1.literal_count = st.literal_count := by
  obtain ⟨xv, xl, xi, xt, xf⟩ := x
  obtain ⟨cv, cl, ci, ct, cf⟩ := c
  dsimp only at hx hxf hc hcf
  subst hx hxf hc
  cases hn : st.status_flags.no_reg_store <;>
    by_cases hm : 0 < lim.PARSER_MAXIMUM_NUMBER_OF_REGISTERS <;>
    simp [count_literals, count_literal, lexer_literal_t.set_no_reg_store, hcf, hn, hm, hreg,
      hun, hin, hid, hco, u16] at h <;>
    obtain ⟨-, rfl⟩ := h <;>
    simp [hn, hm]


/-- C25 (amended): for a pool with one local variable `x` and one number constant, no
arguments and no enclosing function, the header that `parser_post_processing` returns has
`argument_end == 0`, `ident_end == 1` and `const_literal_end == 2`, so
`const_literal_end - ident_end == 1`; `register_end` is `argument_end + 1` when
`PARSER_NO_REG_STORE` is clear, as it is for a function body compiled by
`parser_parse_source`, and is `argument_end` when the flag is set, as it is for a script
compiled by `parser_parse_source`. -/
theorem C25_var_header (lim : parser_limits) (t : cbc_tables) (routines : parser_routines)
    (context0 context7 : parser_context_t) (cc : cbc_compiled_code_t)
    (x c : lexer_literal_t)
    (hpool : context0.literal_pool = [x, c])
    (hx : x.type = LEXER_IDENT_LITERAL) (hxf : x.status_flags = { var := true })
    (hc : c.type = LEXER_NUMBER_LITERAL) (hcf : c.status_flags.unused_ident = false)
    (hcount : context0.literal_count = 2) (harg : context0.argument_count = 0)
    (hreg : context0.register_count = 0) (hlast : context0.last_context_p = none)
    (hmax : 0 < lim.PARSER_MAXIMUM_NUMBER_OF_REGISTERS)
    (h : parser_post_processing lim t context0 = .ok (cc, context7)) :
    cc.argument_end = 0
      ∧ cc.register_end = (if context0.status_flags.no_reg_store = true then 0 else 1)
      ∧ cc.ident_end = 1
      ∧ cc.const_literal_end = 2
      ∧ (∀ source_p source_context,
          (parser_parse_source_init routines none source_p
            source_context).context.status_flags.no_reg_store = true)
      ∧ (∀ arg_list source_p source_context,
          (parser_parse_source_init routines (some arg_list) source_p
            source_context).context.status_flags.no_reg_store = false) := by
  obtain ⟨context1, r, first, compiled_code, context5, h1, h2, -, hhdr, hcc, -, -, -, -, -, -⟩
    := post_processing_unfold h
  have e1 : context1 = context0 := by
    unfold parser_copy_identifiers at h1
    rw [hlast] at h1
    simp only [Except.ok.injEq] at h1
    exact h1.symm
  subst e1
  obtain ⟨cs, pool1, i, hcl, -, -, a1, a2, a3, a4, a5, -, -, r1, r2, -, -, -, -, r3, r4, r5,
    r6, -⟩ := compute_indicies_full lim context1 r h2
  rw [hpool] at hcl
  obtain ⟨c1, c2, c3, c4, c5, -⟩ := count_literals_var_constant lim (count_start context1) cs
    x c pool1 hx hxf hc hcf hreg rfl rfl rfl rfl hcl
  have hnrs : (count_start context1).status_flags.no_reg_store
      = context1.status_flags.no_reg_store := by
    unfold count_start
    split <;> rfl
  rw [hnrs] at c1 c2
  obtain ⟨l1, l2, -, -, -, -, -, -, -, -⟩ :=
    post_processing_end_label_context t r.context first
  obtain ⟨-, f2, f3, f4, f5, -, -, -, -, -, f6, f7, -, -, -, -, -, -, -, -⟩
    := post_processing_header_fields hhdr
  have g1 : cc.argument_end = compiled_code.argument_end := by rw [hcc]
  have g2 : cc.register_end = compiled_code.register_end := by rw [hcc]
  have g3 : cc.ident_end = compiled_code.ident_end := by rw [hcc]
  have g4 : cc.const_literal_end = compiled_code.const_literal_end := by rw [hcc]
  have hrc : r.context.register_count
      = (if context1.status_flags.no_reg_store = true then 0 else 1) := by
    rw [r2, c1]
    cases context1.status_flags.no_reg_store <;> simp [hmax]
  have hie : r.ident_end = 1 := by
    rw [r5, a4, a3, a2, c1, c2, c3, c4]
    split <;> rfl
  have hce : r.const_literal_end = 2 := by
    rw [r6, a5, ← r5, hie, c5]
  have hac : context5.argument_count = 0 := by
    rw [l1, r1, harg] at f7
    rw [f6, l1, r1, harg]
    split
    · rename_i hrest
      exact absurd (f7 hrest) (by decide)
    · rfl
  refine ⟨?_, ?_, ?_, ?_, fun _ _ => rfl, fun _ _ _ => rfl⟩
  · rw [g1, f2, hac]
    split <;> rfl
  · rw [g2, f3, l2, hrc]
    cases context1.status_flags.no_reg_store <;> simp [u8]
  · rw [g3, f4, hie]
    split <;> rfl
  · rw [g4, f5, hce]
    split <;> rfl

/-- Witness for `C25_var_header`: the source `var x = 1;` compiled as a function body
returns compiled code; the variable is in register 0, so `register_end` is 1. -/
theorem C25_var_header_witness :
    ∃ cc context7,
      parser_post_processing example_limits example_tables
          { status_flags := { is_function := true }, literal_count := 2,
            literal_pool := var_x_pool, byte_code := var_x_stream } = .ok (cc, context7)
      ∧ cc.argument_end = 0
      ∧ cc.register_end = 1
      ∧ cc.ident_end = 1
      ∧ cc.const_literal_end = 2
      ∧ (∀ source_p source_context,
          (parser_parse_source_init var_x_routines none source_p
            source_context).context.status_flags.no_reg_store = true)
      ∧ (∀ arg_list source_p source_context,
          (parser_parse_source_init var_x_routines (some arg_list) source_p
            source_context).context.status_flags.no_reg_store = false) := by
  have hok : (parser_post_processing example_limits example_tables
      { status_flags := { is_function := true }, literal_count := 2,
        literal_pool := var_x_pool, byte_code := var_x_stream }).toBool = true := by decide
  cases hp : parser_post_processing example_limits example_tables
      { status_flags := { is_function := true }, literal_count := 2,
        literal_pool := var_x_pool, byte_code := var_x_stream } with
  | error e => rw [hp] at hok; cases hok
  | ok res =>
    obtain ⟨cc, context7⟩ := res
    exact ⟨cc, context7, rfl,
      C25_var_header example_limits example_tables var_x_routines
        { status_flags := { is_function := true }, literal_count := 2,
          literal_pool := var_x_pool, byte_code := var_x_stream } context7 cc _ _ rfl rfl rfl
        rfl rfl rfl rfl rfl rfl (by decide) hp⟩

/-- Counterexample to C25 as stated: `parser_parse_source` compiles the script `var x = 1;`
(no argument list) with `PARSER_NO_REG_STORE` set, and the header has
`register_end == argument_end == 0`, not `argument_end + 1`; compiled as a function body
the same source has `register_end == 1`. -/
theorem C25_script_var_not_in_register :
    (parser_parse_source example_limits example_tables var_x_routines none
        [118, 97, 114, 32, 120, 32, 61, 32, 49, 59] none {}).toOption.map
        (fun result => result.1.map header_ends) = some (some (0, 0, 1, 2))
      ∧ (parser_parse_source example_limits example_tables var_x_routines (some [])
        [118, 97, 114, 32, 120, 32, 61, 32, 49, 59] none {}).toOption.map
        (fun result => result.1.map header_ends) = some (some (0, 1, 1, 2)) := by
  decide


/-! ## Functions whose only bindings are their arguments -/

/-- The body of the first loop of `parser_compute_indicies` on a record that is no local
binding other than an unmirrored argument, when neither `PARSER_NO_REG_STORE` nor
`PARSER_ARGUMENTS_NEEDED` is set: the record, the flags and the register count stay. -/
theorem count_literal_arguments_only (lim : parser_limits) (st st1 : count_state)
    (x x1 : lexer_literal_t)
    (hx : x.type = LEXER_IDENT_LITERAL → x.status_flags.unused_ident = false →
      x.status_flags.var = true →
      x.status_flags.initialized = true ∧ x.status_flags.function_argument = true
        ∧ x.status_flags.no_reg_store = false)
    (hn : st.status_flags.no_reg_store = false)
    (ha : st.status_flags.arguments_needed = false)
    (h : count_literal lim st x = .ok (x1, st1)) :
    x1 = x ∧ st1.status_flags = st.status_flags ∧ st1.register_count = st.register_count
      ∧ st1.uninitialized_var_count = st.uninitialized_var_count
      ∧ st1.initialized_var_count = st.initialized_var_count := by
  rcases x with ⟨v, len, idx, t, ⟨f1, f2, f3, f4, f5, f6⟩⟩
  dsimp only at hx
  unfold count_literal at h
  cases f5
  · cases t
    · cases f1
      · simp only [Bool.false_eq_true, if_false, Except.ok.injEq, Prod.mk.injEq] at h
        obtain ⟨rfl, rfl⟩ := h
        exact ⟨rfl, rfl, rfl, rfl, rfl⟩
      · obtain ⟨rfl, rfl, rfl⟩ := hx rfl rfl rfl
        simp only [hn, ha, lexer_literal_t.set_no_reg_store, Bool.false_eq_true, if_false,
          if_true, Bool.false_and] at h
        split_ifs at h
        simp only [Except.ok.injEq, Prod.mk.injEq] at h
        obtain ⟨rfl, rfl⟩ := h
        exact ⟨rfl, rfl, rfl, rfl, rfl⟩
    all_goals
      simp only [Bool.false_eq_true, if_false] at h
      try split_ifs at h
      all_goals
        simp only [Except.ok.injEq, Prod.mk.injEq] at h
        obtain ⟨rfl, rfl⟩ := h
        exact ⟨rfl, rfl, rfl, rfl, rfl⟩
  · simp only [if_true, Except.ok.injEq, Prod.mk.injEq] at h
    obtain ⟨rfl, rfl⟩ := h
    exact ⟨rfl, rfl, rfl, rfl, rfl⟩

/-- The first loop of `parser_compute_indicies` on a pool whose only local bindings are
unmirrored arguments: the pool, the flags and the register count stay, and no variable is
counted. -/
theorem count_literals_arguments_only (lim : parser_limits) :
    ∀ (pool pool1 : List lexer_literal_t) (st c : count_state),
      arguments_only pool →
      st.status_flags.no_reg_store = false →
      st.status_flags.arguments_needed = false →
      count_literals lim st pool = .ok (pool1, c) →
      pool1 = pool ∧ c.status_flags = st.status_flags
        ∧ c.register_count = st.register_count
        ∧ c.uninitialized_var_count = st.uninitialized_var_count
        ∧ c.initialized_var_count = st.initialized_var_count := by
  intro pool
  induction pool with
  | nil =>
    intro pool1 st c _ _ _ h
    simp only [count_literals, Except.ok.injEq, Prod.mk.injEq] at h
    obtain ⟨rfl, rfl⟩ := h
    exact ⟨rfl, rfl, rfl, rfl, rfl⟩
  | cons x rest ih =>
    intro pool1 st c hb hn ha h
    unfold count_literals at h
    split at h
    · cases h
    · rename_i x1 st1 h1
      split at h
      · cases h
      · rename_i rest1 st2 h2
        simp only [Except.ok.injEq, Prod.mk.injEq] at h
        obtain ⟨rfl, rfl⟩ := h
        obtain ⟨rfl, e2, e3, e4, e5⟩ := count_literal_arguments_only lim st st1 x x1
          (hb x (List.mem_cons_self _ _)) hn ha h1
        obtain ⟨rfl, g2, g3, g4, g5⟩ := ih rest1 st1 st2
          (fun y hy => hb y (List.mem_cons_of_mem _ hy)) (by rw [e2]; exact hn)
          (by rw [e2]; exact ha) h2
        exact ⟨rfl, g2.trans e2, g3.trans e3, g4.trans e4, g5.trans e5⟩


/-- The records of the finished function through the loop of `parser_copy_identifiers`:
the visited records keep everything but `LEXER_FLAG_SOURCE_PTR`, and a local binding keeps
that flag too. -/
theorem copy_identifiers_loop_child (rest : List lexer_literal_t) :
    ∀ (done pool : List lexer_literal_t) (count : Nat)
      (child parent_pool : List lexer_literal_t) (parent_count : Nat),
      copy_identifiers_loop rest done pool count = .ok (child, parent_pool, parent_count) →
      ∃ rest1, child = done ++ rest1
        ∧ List.Forall₂ (fun a b => source_marked a b ∧ (a.status_flags.var = true → b = a))
            rest rest1 := by
  induction rest with
  | nil =>
    intro done pool count child parent_pool parent_count h
    simp only [copy_identifiers_loop, Except.ok.injEq, Prod.mk.injEq] at h
    obtain ⟨rfl, rfl, rfl⟩ := h
    exact ⟨[], by simp, List.Forall₂.nil⟩
  | cons lit rest ih =>
    intro done pool count child parent_pool parent_count h
    unfold copy_identifiers_loop at h
    split at h
    · obtain ⟨rest1, e1, e2⟩ := ih _ _ _ _ _ _ h
      exact ⟨lit :: rest1, by rw [e1]; simp, List.Forall₂.cons ⟨rfl, fun _ => rfl⟩ e2⟩
    · rename_i hskip
      simp only at h
      split at h
      · obtain ⟨rest1, e1, e2⟩ := ih _ _ _ _ _ _ h
        exact ⟨lit :: rest1, by rw [e1]; simp, List.Forall₂.cons ⟨rfl, fun _ => rfl⟩ e2⟩
      · split at h
        · exact absurd h (by simp)
        · obtain ⟨rest1, e1, e2⟩ := ih _ _ _ _ _ _ h
          refine ⟨{ lit with status_flags := { lit.status_flags with source_ptr := true } }
            :: rest1, by rw [e1]; simp, List.Forall₂.cons ⟨?_, ?_⟩ e2⟩
          · unfold source_marked
            rfl
          · intro hv
            exact absurd (Or.inr hv) hskip

/-- The context of the finished function after `parser_copy_identifiers`: the flags and
the counters stay, the records keep everything but `LEXER_FLAG_SOURCE_PTR`, and a local
binding keeps that flag too. -/
theorem parser_copy_identifiers_child {context context1 : parser_context_t}
    (h : parser_copy_identifiers context = .ok context1) :
    context1.status_flags = context.status_flags
      ∧ context1.argument_count = context.argument_count
      ∧ context1.register_count = context.register_count
      ∧ context1.literal_count = context.literal_count
      ∧ context1.stack_limit = context.stack_limit
      ∧ List.Forall₂ (fun a b => source_marked a b ∧ (a.status_flags.var = true → b = a))
          context.literal_pool context1.literal_pool := by
  have hrefl : ∀ l : List lexer_literal_t,
      List.Forall₂ (fun a b => source_marked a b ∧ (a.status_flags.var = true → b = a))
        l l := by
    intro l
    induction l with
    | nil => exact List.Forall₂.nil
    | cons a l ih => exact List.Forall₂.cons ⟨rfl, fun _ => rfl⟩ ih
  unfold parser_copy_identifiers at h
  split at h
  · cases h
    exact ⟨rfl, rfl, rfl, rfl, rfl, hrefl _⟩
  · split at h
    · cases h
      exact ⟨rfl, rfl, rfl, rfl, rfl, hrefl _⟩
    · split at h
      · cases h
        exact ⟨rfl, rfl, rfl, rfl, rfl, hrefl _⟩
      · split at h
        · cases h
        · rename_i pool parent_pool parent_count hloop
          cases h
          obtain ⟨rest1, e1, e2⟩ := copy_identifiers_loop_child _ _ _ _ _ _ _ hloop
          rw [List.nil_append] at e1
          subst e1
          exact ⟨rfl, rfl, rfl, rfl, rfl, e2⟩

/-- What `initialized_vars_followed` looks at does not depend on
`LEXER_FLAG_SOURCE_PTR`. -/
theorem initialized_vars_followed_source_marked :
    ∀ (l l1 : List lexer_literal_t), List.Forall₂ source_marked l l1 →
      initialized_vars_followed l1 = initialized_vars_followed l := by
  intro l l1 h
  induction h with
  | nil => rfl
  | cons hab htl ih =>
    rename_i a b l l1
    have e1 : b.type = a.type := by rw [hab]
    have e2 : b.status_flags.unused_ident = a.status_flags.unused_ident := by rw [hab]
    have e3 : b.status_flags.var = a.status_flags.var := by rw [hab]
    have e4 : b.status_flags.initialized = a.status_flags.initialized := by rw [hab]
    have e5 : b.status_flags.function_argument = a.status_flags.function_argument := by
      rw [hab]
    unfold initialized_vars_followed
    rw [ih, e1, e2, e3, e4, e5]
    cases htl with
    | nil => rfl
    | cons hcd _ =>
      rename_i c d _ _ _
      have e6 : d.type = c.type := by rw [hcd]
      simp only [e6]

/-- The number of records flagged `LEXER_FLAG_FUNCTION_ARGUMENT` does not depend on
`LEXER_FLAG_SOURCE_PTR`. -/
theorem argument_position_source_marked :
    ∀ (l l1 : List lexer_literal_t), List.Forall₂ source_marked l l1 →
      argument_position l1 = argument_position l := by
  intro l l1 h
  induction h with
  | nil => rfl
  | cons hab htl ih =>
    rename_i a b l l1
    have e5 : b.status_flags.function_argument = a.status_flags.function_argument := by
      rw [hab]
    unfold argument_position at ih ⊢
    simp only [List.filter_cons, e5]
    split <;> simp only [List.length_cons, ih]

/-- A pool that is consistent with the counters stays so through
`parser_copy_identifiers`. -/
theorem pool_consistent_copy_identifiers {context context1 : parser_context_t}
    (hc : pool_consistent context) (h : parser_copy_identifiers context = .ok context1) :
    pool_consistent context1 := by
  obtain ⟨e1, e2, e3, e4, -, e6⟩ := parser_copy_identifiers_child h
  have hm : List.Forall₂ source_marked context.literal_pool context1.literal_pool :=
    e6.imp (fun _ _ hab => hab.1)
  obtain ⟨c1, c2, c3, c4, c5⟩ := hc
  have hl := List.Forall₂.length_eq hm
  have ha := argument_position_source_marked _ _ hm
  unfold argument_position at ha
  refine ⟨?_, ?_, ?_, ?_, ?_⟩
  · rw [e3, e2]; exact c1
  · rw [e2, ha]; exact c2
  · rw [e4, ← hl]; exact c3
  · rw [← hl]; exact c4
  · rw [initialized_vars_followed_source_marked _ _ hm]; exact c5


/-- A pool whose only local bindings are unmirrored arguments stays so through
`parser_copy_identifiers`. -/
theorem arguments_only_copy_identifiers {context context1 : parser_context_t}
    (hb : arguments_only context.literal_pool)
    (h : parser_copy_identifiers context = .ok context1) :
    arguments_only context1.literal_pool := by
  obtain ⟨-, -, -, -, -, e6⟩ := parser_copy_identifiers_child h
  intro y hy ht hu hv
  obtain ⟨a, ha, hm, -⟩ := forall₂_mem_right e6 y hy
  unfold source_marked at hm
  have k1 : y.type = a.type := by rw [hm]
  have k2 : y.status_flags.unused_ident = a.status_flags.unused_ident := by rw [hm]
  have k3 : y.status_flags.var = a.status_flags.var := by rw [hm]
  have k4 : y.status_flags.initialized = a.status_flags.initialized := by rw [hm]
  have k5 : y.status_flags.function_argument = a.status_flags.function_argument := by rw [hm]
  have k6 : y.status_flags.no_reg_store = a.status_flags.no_reg_store := by rw [hm]
  rw [k1] at ht
  rw [k2] at hu
  rw [k3] at hv
  rw [k4, k5, k6]
  exact hb a ha ht hu hv

/-- The flags of the state in which the first loop of `parser_compute_indicies` starts
that `count_start_flags` does not list. -/
theorem count_start_lexical_env (context : parser_context_t) :
    (count_start context).status_flags.lexical_env_needed
        = context.status_flags.lexical_env_needed
      ∧ (count_start context).status_flags.function_has_rest_param
        = context.status_flags.function_has_rest_param
      ∧ (count_start context).status_flags.has_initialized_vars
        = context.status_flags.has_initialized_vars
      ∧ (count_start context).uninitialized_var_count = 0
      ∧ (count_start context).initialized_var_count = 0
      ∧ (count_start context).literal_count = context.literal_count := by
  unfold count_start
  split <;> exact ⟨rfl, rfl, rfl, rfl, rfl, rfl⟩


/-- C26 (amended): for a function whose only local bindings are its arguments, none of
them `LEXER_FLAG_NO_REG_STORE`, compiled without `PARSER_NO_REG_STORE`, without the
`arguments` object and without `PARSER_LEXICAL_ENV_NEEDED`, when `parser_post_processing`
returns: `parser_compute_indicies` leaves each argument at its positional index, the header
carries the flag that no lexical environment is needed, and `register_end == argument_end`
when the function has no rest parameter; with a rest parameter the header does not count it
as an argument and `register_end == argument_end + 1`. -/
theorem C26_arguments_only_header (lim : parser_limits) (t : cbc_tables)
    (context0 context7 : parser_context_t) (cc : cbc_compiled_code_t)
    (hcons : pool_consistent context0)
    (hbind : arguments_only context0.literal_pool)
    (hnrs : context0.status_flags.no_reg_store = false)
    (hargs : (context0.status_flags.arguments_needed
      && !context0.status_flags.arguments_not_needed) = false)
    (hlex : context0.status_flags.lexical_env_needed = false)
    (h : parser_post_processing lim t context0 = .ok (cc, context7)) :
    ∃ context1 r,
      parser_copy_identifiers context0 = .ok context1
      ∧ parser_compute_indicies lim context1 = .ok r
      ∧ (∀ pre x post, context0.literal_pool = pre ++ x :: post →
          x.status_flags.function_argument = true → x.status_flags.var = true →
          r.context.literal_pool[pre.length]? = some { x with index := argument_position pre })
      ∧ cc.register_end
        = cc.argument_end
          + (if context0.status_flags.function_has_rest_param = true then 1 else 0)
      ∧ cc.status_flags.lexical_env_not_needed = true := by
  obtain ⟨context1, r, first, compiled_code, context5, h1, h2, -, hhdr, hcc, -, -, -, -, -, -⟩
    := post_processing_unfold h
  obtain ⟨s1, s2, s3, s4, -, s6⟩ := parser_copy_identifiers_child h1
  have hc1 := pool_consistent_copy_identifiers hcons h1
  have hb1 := arguments_only_copy_identifiers hbind h1
  obtain ⟨cs, pool1, i, hcl, -, -, -, -, -, -, -, -, r0, r1, r2, r3, -, -, -, -, -, -, -, -⟩
    := compute_indicies_full lim context1 r h2
  obtain ⟨q1, q2, q3, q4⟩ := count_start_flags context1
  obtain ⟨q5, q6, q7, q8, q9, q10⟩ := count_start_lexical_env context1
  have hn1 : (count_start context1).status_flags.no_reg_store = false := by
    rw [q1, s1]; exact hnrs
  have ha1 : (count_start context1).status_flags.arguments_needed = false := by
    rw [q3, s1]; exact hargs
  obtain ⟨-, t2, t3, -, t5⟩ := count_literals_arguments_only lim _ _ _ _ hb1 hn1 ha1 hcl
  have hflags : r.context.status_flags = (count_start context1).status_flags := by
    rw [r0, t5, q9, t2]
    rfl
  obtain ⟨l1, l2, -, -, -, l6, l7, -, l9, -⟩ :=
    post_processing_end_label_context t r.context first
  obtain ⟨f1, f2, f3, -, -, -, f7, -, -, -, f11, f12, -, -, -, -, -, -, -, -⟩
    := post_processing_header_fields hhdr
  have g1 : cc.argument_end = compiled_code.argument_end := by rw [hcc]
  have g2 : cc.register_end = compiled_code.register_end := by rw [hcc]
  have g3 : cc.status_flags = compiled_code.status_flags := by rw [hcc]
  refine ⟨context1, r, h1, h2, ?_, ?_, ?_⟩
  · intro pre x post hpool hf hv
    rw [hpool] at s6
    obtain ⟨pre1, tail1, hp1, hpre, htail⟩ := forall₂_append_split _ _ _ s6
    cases htail with
    | cons hx hpost =>
      rename_i x1 post1
      have hx1 : x1 = x := hx.2 hv
      subst hx1
      have hlen : pre1.length = pre.length := (List.Forall₂.length_eq hpre).symm
      have hpos : argument_position pre1 = argument_position pre :=
        argument_position_source_marked _ _ (hpre.imp (fun _ _ hab => hab.1))
      obtain ⟨pre2, c1, x2, c2, y, -, e2, e3, -, e5, -, e7, e8, -, e10, -, -, -, -, -, e16⟩ :=
        compute_indicies_record lim context1 r pre1 post1 x1 hc1 h2 hp1
      obtain ⟨ht, hu⟩ := e16 hf hv
      obtain ⟨hi, -, hn⟩ := hb1 x1 (by rw [hp1]; simp) ht hu hv
      have hx2 := count_literal_argument lim c1 c2 x1 x2 e2 ht hu hv hi hf
      rw [e3, e5, s1, hnrs, hargs, hn] at hx2
      have hx3 : x2 = x1 := by
        rw [hx2]
        rcases x1 with ⟨v, len, idx, ty, ⟨f1, f2, f3, f4, f5, f6⟩⟩
        dsimp only at hn
        subst hn
        rfl
      subst hx3
      unfold same_but_index at e8
      have hyarg : is_argument y = true := by
        rw [e8]
        unfold is_argument
        simp only [ht, hu, hv, hi, hf, hn, decide_True, Bool.not_false, Bool.and_self]
      have hidx := e10 hyarg
      rw [← hlen, e7, e8, hidx, hpos]
  · have hrest : (post_processing_end_label t r.context first).2.status_flags.function_has_rest_param
        = context0.status_flags.function_has_rest_param := by
      rw [l6, hflags, q6, s1]
    have hle : context0.argument_count ≤ 32767 := by
      rw [hcons.2.1]
      exact le_trans (List.length_filter_le _ _) hcons.2.2.2.1
    have hreg : (post_processing_end_label t r.context first).2.register_count
        = context0.argument_count := by
      rw [l2, r2, t3, q4, s3, hcons.1]
    have harg : (post_processing_end_label t r.context first).2.argument_count
        = context0.argument_count := by
      rw [l1, r1, s2]
    rw [hrest, harg] at f11 f12
    rw [hreg] at f3
    have h8 : compiled_code.status_flags.uint16_arguments = false →
        context0.argument_count ≤ 255 := by
      intro hw
      rw [f1, hreg] at hw
      simp only [Bool.or_eq_false_iff, decide_eq_false_iff_not, not_lt] at hw
      exact hw.1.2
    rw [g1, g2, f2, f3, f11]
    cases hr : context0.status_flags.function_has_rest_param
    · simp only [Bool.false_eq_true, if_false, Nat.add_zero]
    · have hp := f12 hr
      have hu : u16 (context0.argument_count + 65535) = context0.argument_count - 1 := by
        unfold u16
        omega
      simp only [if_true, hu]
      cases hw : compiled_code.status_flags.uint16_arguments
      · have := h8 hw
        simp only [Bool.false_eq_true, if_false]
        unfold u8
        omega
      · simp only [if_true]
        omega
  · rw [g3, f7, l9, l7]
    simp only [hflags, q5, q3, s1, hlex, hargs, Bool.or_false, Bool.not_false]


/-- Witness for `C26_arguments_only_header`: `function f(a,b){return a+b}` is compiled,
and the conclusion holds for it. -/
theorem C26_arguments_only_header_witness :
    ∃ cc context7,
      parser_post_processing example_limits example_tables arguments_only_example
        = .ok (cc, context7)
      ∧ header_ends cc = (2, 2, 2, 2)
      ∧ ∃ context1 r,
        parser_copy_identifiers arguments_only_example = .ok context1
        ∧ parser_compute_indicies example_limits context1 = .ok r
        ∧ (∀ pre x post, arguments_only_example.literal_pool = pre ++ x :: post →
            x.status_flags.function_argument = true → x.status_flags.var = true →
            r.context.literal_pool[pre.length]?
              = some { x with index := argument_position pre })
        ∧ cc.register_end
          = cc.argument_end
            + (if arguments_only_example.status_flags.function_has_rest_param = true then 1
                else 0)
        ∧ cc.status_flags.lexical_env_not_needed = true := by
  have hok : (parser_post_processing example_limits example_tables
      arguments_only_example).toOption.map (fun result => header_ends result.1)
      = some (2, 2, 2, 2) := by decide
  cases hp : parser_post_processing example_limits example_tables arguments_only_example with
  | error e => rw [hp] at hok; cases hok
  | ok res =>
    obtain ⟨cc, context7⟩ := res
    rw [hp] at hok
    exact ⟨cc, context7, rfl, Option.some.inj hok,
      C26_arguments_only_header example_limits example_tables arguments_only_example
        context7 cc (by decide) (by unfold arguments_only; decide) rfl rfl rfl hp⟩

/-- Counterexample to C26 as stated: in `function f(a,...b){return a+b}` the only bindings
are the two arguments, neither is `LEXER_FLAG_NO_REG_STORE` and the `arguments` object is
not used, and the header has `argument_end == 1` and `register_end == 2`. -/
theorem C26_rest_parameter_is_not_counted :
    (parser_post_processing example_limits example_tables rest_parameter_example).toOption.map
        (fun result => header_ends result.1) = some (1, 2, 2, 2)
      ∧ pool_consistent rest_parameter_example
      ∧ rest_parameter_example.status_flags.arguments_needed = false
      ∧ rest_parameter_example.literal_pool.map
          (fun x => (x.status_flags.var, x.status_flags.initialized,
            x.status_flags.function_argument, x.status_flags.no_reg_store))
        = [(true, true, true, false), (true, true, true, false)] := by
  decide


/-! ## The size of the compiled code with a table of argument names -/

/-- C27 (the code at the failing input): for `function f(a,...b)` with the `arguments`
object in non-strict mode the size passed to `parser_malloc` is 51, computed from the
argument count 2 before the rest parameter is taken off, while the header has
`argument_end == 1`, the table of argument names has one entry, and the header (8 bytes in
`example_tables`), the `literal_end - register_end == 2` literal entries of 8 bytes, the 11
bytes of byte code and one name entry make 43 bytes: one entry of the block is not part of
the table. Without the rest parameter the same function has `argument_end == 2`, two names
and the size 51. -/
theorem C27_rest_parameter_size :
    (parser_post_processing example_limits example_tables rest_arguments_example).toOption.map
        (fun result => size_parts result.1) = some ([51, 1, 2, 4, 11], false, some 1)
      ∧ example_tables.sizeof_cbc_uint8_arguments_t
          + (4 - 2) * example_tables.sizeof_literal_value_t + 11
          + 1 * example_tables.sizeof_literal_value_t = 43
      ∧ (parser_post_processing example_limits example_tables
          arguments_object_example).toOption.map
        (fun result => size_parts result.1) = some ([51, 2, 2, 4, 11], false, some 2) :=
  ⟨by decide, by decide, by decide⟩

/-! ## The bytes of the initializers -/

theorem parser_encode_literal_length (dst : List Nat) (index limit : Nat) :
    (parser_encode_literal dst index limit).length = dst.length + encoded_length index limit := by
  unfold parser_encode_literal encoded_length
  split
  · simp
  · split <;> simp

theorem initializer_length_add (hiv : Bool) (limit : Nat) (x : lexer_literal_t)
    (init_index length : Nat) :
    initializer_length hiv limit x init_index length
      = length + initializer_length hiv limit x init_index 0 := by
  unfold initializer_length
  dsimp only
  split <;> omega

theorem initializer_length_zero (hiv : Bool) (limit : Nat) (x : lexer_literal_t)
    (init_index : Nat) :
    initializer_length hiv limit x init_index 0
      = (if (!hiv || !x.status_flags.no_reg_store) = true then
          1 + encoded_length x.index limit else 0)
        + encoded_length init_index limit := by
  unfold initializer_length encoded_length
  dsimp only
  split_ifs <;> omega


/-- The body of the last loop of `parser_generate_initializers` for one record: the
counter of the arguments, the number of bytes written and whether the record that follows
has been consumed. -/
theorem initialize_var_literal_length {t : cbc_tables} {limit rc : Nat}
    {st st1 : initializers_state} {x : lexer_literal_t} {next : Option lexer_literal_t}
    {consumed : Bool}
    (hlt : x.status_flags.function_argument = true → st.argument_count < 65535)
    (h : initialize_var_literal t limit rc st x next = .ok (st1, consumed)) :
    st1.argument_count = next_position st.argument_count x
      ∧ consumed = (decide (x.type = LEXER_IDENT_LITERAL) && x.status_flags.var
          && x.status_flags.initialized && !x.status_flags.function_argument)
      ∧ (consumed = true → ∃ f, next = some f ∧ f.type = LEXER_FUNCTION_LITERAL)
      ∧ st1.dst.length = st.dst.length
        + initialize_var_record limit st.argument_count x (next_index next.toList) := by
  unfold initialize_var_record
  have hu1 : x.status_flags.function_argument = true →
      u16 (st.argument_count + 1) = st.argument_count + 1 := by
    intro hf
    have := hlt hf
    unfold u16; omega
  have hu2 : x.status_flags.function_argument = true →
      u16 (st.argument_count + 1 + 65535) = st.argument_count := by
    intro hf
    have := hlt hf
    unfold u16; omega
  unfold initialize_var_literal at h
  split at h
  · cases h
  · rename_i table1 _
    dsimp only at h
    unfold next_position
    revert h
    cases hfa : x.status_flags.function_argument <;> intro h <;>
      simp only [Bool.false_eq_true, if_false, if_true, Bool.not_false, Bool.not_true,
        Bool.and_true, Bool.and_false] at h ⊢
    · by_cases hvi : (x.status_flags.var && x.status_flags.initialized) = true
      · rw [if_pos hvi] at h
        by_cases hty : x.type = LEXER_IDENT_LITERAL
        · rw [if_pos hty] at h
          cases next with
          | none => cases h
          | some f =>
            dsimp only at h
            by_cases hft : f.type = LEXER_FUNCTION_LITERAL
            · rw [if_pos hft] at h
              by_cases hge : f.index ≥ rc
              · rw [if_pos hge] at h
                simp only [Except.ok.injEq, Prod.mk.injEq] at h
                obtain ⟨rfl, rfl⟩ := h
                simp only [Bool.and_eq_true] at hvi
                refine ⟨rfl, ?_, fun _ => ⟨f, rfl, hft⟩, ?_⟩
                · simp only [hty, hvi.1, hvi.2, decide_True, Bool.and_self]
                · simp only [hty, hvi.1, hvi.2, decide_True, Bool.and_self, if_true,
                    parser_encode_literal_length, List.length_append, List.length_singleton,
                    Option.toList, next_index]
                  omega
              · rw [if_neg hge] at h
                cases h
            · rw [if_neg hft] at h
              cases h
        · rw [if_neg hty] at h
          cases h
      · rw [if_neg hvi] at h
        simp only [Except.ok.injEq, Prod.mk.injEq] at h
        obtain ⟨rfl, rfl⟩ := h
        have hvi2 : (decide (x.type = LEXER_IDENT_LITERAL) && x.status_flags.var
            && x.status_flags.initialized) = false := by
          rw [Bool.and_assoc]
          simp only [Bool.not_eq_true] at hvi
          rw [hvi, Bool.and_false]
        refine ⟨rfl, hvi2.symm, (fun hc => by cases hc), ?_⟩
        simp only [hvi2, Bool.false_eq_true, if_false, Nat.add_zero]
    · by_cases hvi : (x.status_flags.var && x.status_flags.initialized) = true
      · rw [if_pos hvi] at h
        by_cases hty : x.type = LEXER_IDENT_LITERAL
        · rw [if_pos hty] at h
          rw [hu1 hfa, hu2 hfa] at h
          simp only [Bool.and_eq_true] at hvi
          by_cases hidx : st.argument_count = x.index
          · rw [if_pos hidx] at h
            simp only [Except.ok.injEq, Prod.mk.injEq] at h
            obtain ⟨rfl, rfl⟩ := h
            refine ⟨rfl, rfl, (fun hc => by cases hc), ?_⟩
            simp only [hty, hvi.1, hvi.2, decide_True, Bool.and_self, if_true, hidx,
              Nat.add_zero]
          · rw [if_neg hidx] at h
            simp only [Except.ok.injEq, Prod.mk.injEq] at h
            obtain ⟨rfl, rfl⟩ := h
            refine ⟨rfl, rfl, (fun hc => by cases hc), ?_⟩
            simp only [hty, hvi.1, hvi.2, decide_True, Bool.and_self, if_true, hidx,
              if_false, parser_encode_literal_length, List.length_append,
              List.length_singleton]
            omega
        · rw [if_neg hty] at h
          cases h
      · rw [if_neg hvi] at h
        simp only [Except.ok.injEq, Prod.mk.injEq] at h
        obtain ⟨rfl, rfl⟩ := h
        have hvi2 : (decide (x.type = LEXER_IDENT_LITERAL) && x.status_flags.var
            && x.status_flags.initialized) = false := by
          rw [Bool.and_assoc]
          simp only [Bool.not_eq_true] at hvi
          rw [hvi, Bool.and_false]
        refine ⟨hu1 hfa, rfl, (fun hc => by cases hc), ?_⟩
        simp only [hvi2, Bool.false_eq_true, if_false, Nat.add_zero]


theorem next_position_le (position : Nat) (x : lexer_literal_t) :
    next_position position x = position + (x.status_flags.function_argument).toNat := by
  unfold next_position
  cases x.status_flags.function_argument <;> rfl

theorem initialize_var_bytes_cons (limit position : Nat) (x : lexer_literal_t)
    (rest : List lexer_literal_t) :
    initialize_var_bytes limit position (x :: rest)
      = initialize_var_record limit position x (next_index rest)
        + initialize_var_bytes limit (next_position position x) rest := by
  rw [initialize_var_bytes]

theorem initialize_var_record_function {limit position following : Nat}
    {z : lexer_literal_t} (h : z.type = LEXER_FUNCTION_LITERAL) :
    initialize_var_record limit position z following = 0 := by
  unfold initialize_var_record
  rw [h]
  rfl

/-- The last loop of `parser_generate_initializers`: it writes `initialize_var_bytes` bytes
and counts the arguments. -/
theorem initialize_var_loop_length (t : cbc_tables) (limit rc : Nat) :
    ∀ (n : Nat) (l : List lexer_literal_t), l.length ≤ n →
    ∀ (st st1 : initializers_state), initialize_var_loop t limit rc st l = .ok st1 →
    (∀ z ∈ l, z.type = LEXER_FUNCTION_LITERAL → z.status_flags.function_argument = false) →
    st.argument_count + argument_position l < 65536 →
    st1.dst.length = st.dst.length + initialize_var_bytes limit st.argument_count l
      ∧ st1.argument_count = st.argument_count + argument_position l := by
  intro n
  induction n with
  | zero =>
    intro l hl st st1 h _ _
    have : l = [] := List.length_eq_zero.1 (Nat.le_zero.1 hl)
    subst this
    rw [initialize_var_loop] at h
    cases h
    exact ⟨rfl, rfl⟩
  | succ n ih =>
    intro l hl st st1 h hfun hlt
    match l, hl, h, hfun, hlt with
    | [], _, h, _, _ =>
      rw [initialize_var_loop] at h
      cases h
      exact ⟨rfl, rfl⟩
    | [x], _, h, _, hlt =>
      rw [initialize_var_loop] at h
      split at h
      · cases h
      · rename_i s1 c hbody
        cases h
        rw [argument_position_cons] at hlt ⊢
        have hb : x.status_flags.function_argument = true → st.argument_count < 65535 := by
          intro hf
          rw [hf] at hlt
          simp only [Bool.toNat_true] at hlt
          omega
        obtain ⟨e1, -, -, e4⟩ := initialize_var_literal_length hb hbody
        rw [e4, e1, next_position_le]
        simp only [initialize_var_bytes, Option.toList, next_index, argument_position,
          List.filter_nil, List.length_nil, Nat.add_zero, Nat.zero_add, and_self]
    | x :: z :: rest, hl, h, hfun, hlt =>
      have hl1 : (z :: rest).length ≤ n := by simp at hl ⊢; omega
      have hl2 : rest.length ≤ n := by simp at hl; omega
      rw [argument_position_cons] at hlt
      have hb : x.status_flags.function_argument = true → st.argument_count < 65535 := by
        intro hf
        rw [hf] at hlt
        simp only [Bool.toNat_true] at hlt
        omega
      rw [initialize_var_loop] at h
      split at h
      · cases h
      · rename_i s1 hbody
        obtain ⟨e1, e2, -, e4⟩ := initialize_var_literal_length hb hbody
        rw [next_position_le] at e1
        obtain ⟨g1, g2⟩ := ih _ hl1 _ _ h
          (fun w hw => hfun w (List.mem_cons_of_mem _ hw)) (by rw [e1]; omega)
        rw [e1] at g1 g2
        rw [g1, g2, e4, argument_position_cons x]
        refine ⟨?_, by omega⟩
        rw [initialize_var_bytes_cons limit st.argument_count x, next_position_le]
        simp only [Option.toList, next_index]
        omega
      · rename_i s1 hbody
        obtain ⟨e1, e2, e3, e4⟩ := initialize_var_literal_length hb hbody
        obtain ⟨f, hf1, hf2⟩ := e3 rfl
        simp only [Option.some.injEq] at hf1
        subst hf1
        have hzf := hfun z (List.mem_cons_of_mem _ (List.mem_cons_self _ _)) hf2
        rw [next_position_le] at e1
        rw [argument_position_cons z, hzf] at hlt
        simp only [Bool.toNat_false, Nat.add_zero] at hlt
        obtain ⟨g1, g2⟩ := ih _ hl2 _ _ h
          (fun w hw => hfun w (List.mem_cons_of_mem _ (List.mem_cons_of_mem _ hw)))
          (by rw [e1]; omega)
        rw [e1] at g1 g2
        rw [g1, g2, e4, argument_position_cons x, argument_position_cons z, hzf]
        refine ⟨?_, by simp only [Bool.toNat_false, Nat.add_zero]; omega⟩
        rw [initialize_var_bytes_cons limit st.argument_count x,
          initialize_var_bytes_cons limit _ z, next_position_le,
          next_position_le, hzf, initialize_var_record_function hf2]
        simp only [Option.toList, next_index, Bool.toNat_false, Nat.add_zero, Nat.zero_add]
        omega


/-- The body of the loop of `CBC_INITIALIZE_VARS` for one record: the counter of the
arguments, the record as it is left, the number of bytes written and whether the record
that follows has been consumed. -/
theorem initialize_vars_literal_length {limit : Nat}
    {st st1 : initializers_state} {x x1 : lexer_literal_t} {next : Option lexer_literal_t}
    {consumed : Bool}
    (hlt : x.status_flags.function_argument = true → st.argument_count < 65535)
    (h : initialize_vars_literal limit st x next = .ok (x1, st1, consumed)) :
    st1.argument_count = next_position st.argument_count x
      ∧ (consumed = true → ∃ f, next = some f ∧ f.type = LEXER_FUNCTION_LITERAL)
      ∧ x1 = initialize_vars_cleared x
      ∧ st1.dst.length = st.dst.length
        + initialize_vars_record limit st.argument_count x (next_index next.toList) := by
  unfold initialize_vars_record initialize_vars_cleared
  have hu1 : x.status_flags.function_argument = true →
      u16 (st.argument_count + 1) = st.argument_count + 1 := by
    intro hf
    have := hlt hf
    unfold u16; omega
  have hu2 : x.status_flags.function_argument = true →
      u16 (st.argument_count + 1 + 65535) = st.argument_count := by
    intro hf
    have := hlt hf
    unfold u16; omega
  unfold initialize_vars_literal at h
  dsimp only at h
  unfold next_position
  by_cases hvi : (x.status_flags.var && x.status_flags.no_reg_store
      && x.status_flags.initialized) = true
  · rw [if_pos hvi] at h
    by_cases hty : x.type = LEXER_IDENT_LITERAL ∧ x.index = st.next_index
    · rw [if_pos hty] at h
      have hc : (decide (x.type = LEXER_IDENT_LITERAL) && x.status_flags.var
          && x.status_flags.no_reg_store && x.status_flags.initialized) = true := by
        rw [Bool.and_assoc, Bool.and_assoc, ← Bool.and_assoc x.status_flags.var, hvi, hty.1]
        rfl
      rw [if_pos hc, if_pos hc]
      cases hfa : x.status_flags.function_argument
      · simp only [hfa, Bool.false_eq_true, if_false] at h ⊢
        cases next with
        | none => cases h
        | some f =>
          dsimp only at h
          by_cases hft : f.type = LEXER_FUNCTION_LITERAL
          · rw [if_pos hft] at h
            simp only [Except.ok.injEq, Prod.mk.injEq] at h
            obtain ⟨rfl, rfl, rfl⟩ := h
            refine ⟨rfl, fun _ => ⟨f, rfl, hft⟩, rfl, ?_⟩
            simp only [parser_encode_literal_length, Option.toList, next_index]
          · rw [if_neg hft] at h
            cases h
      · simp only [hfa, if_true] at h ⊢
        rw [hu1 hfa, hu2 hfa] at h
        simp only [Except.ok.injEq, Prod.mk.injEq] at h
        obtain ⟨rfl, rfl, rfl⟩ := h
        refine ⟨rfl, (fun hc => by cases hc), rfl, ?_⟩
        simp only [parser_encode_literal_length]
    · rw [if_neg hty] at h
      cases h
  · rw [if_neg hvi] at h
    simp only [Except.ok.injEq, Prod.mk.injEq] at h
    obtain ⟨rfl, rfl, rfl⟩ := h
    have hc : (decide (x.type = LEXER_IDENT_LITERAL) && x.status_flags.var
        && x.status_flags.no_reg_store && x.status_flags.initialized) = false := by
      rw [Bool.and_assoc, Bool.and_assoc, ← Bool.and_assoc x.status_flags.var]
      simp only [Bool.not_eq_true] at hvi
      rw [hvi, Bool.and_false]
    rw [hc]
    simp only [Bool.false_eq_true, if_false, Nat.add_zero]
    refine ⟨?_, (fun hc => by cases hc), trivial, trivial⟩
    cases hfa : x.status_flags.function_argument
    · simp only [Bool.false_eq_true, if_false]
    · simp only [if_true]
      exact hu1 hfa

theorem initialize_vars_bytes_cons (limit position : Nat) (x : lexer_literal_t)
    (rest : List lexer_literal_t) :
    initialize_vars_bytes limit position (x :: rest)
      = initialize_vars_record limit position x (next_index rest)
        + initialize_vars_bytes limit (next_position position x) rest := by
  rw [initialize_vars_bytes]

theorem initialize_vars_record_function {limit position following : Nat}
    {z : lexer_literal_t} (h : z.type = LEXER_FUNCTION_LITERAL) :
    initialize_vars_record limit position z following = 0
      ∧ initialize_vars_cleared z = z := by
  unfold initialize_vars_record initialize_vars_cleared
  rw [h]
  exact ⟨rfl, rfl⟩

/-- The loop of `CBC_INITIALIZE_VARS`: it writes `initialize_vars_bytes` bytes, counts the
arguments and clears `LEXER_FLAG_INITIALIZED` on the identifiers it has initialized. -/
theorem initialize_vars_loop_length (limit : Nat) :
    ∀ (n : Nat) (l : List lexer_literal_t), l.length ≤ n →
    ∀ (st st1 : initializers_state) (l1 : List lexer_literal_t),
    initialize_vars_loop limit st l = .ok (l1, st1) →
    (∀ z ∈ l, z.type = LEXER_FUNCTION_LITERAL → z.status_flags.function_argument = false) →
    st.argument_count + argument_position l < 65536 →
    l1 = l.map initialize_vars_cleared
      ∧ st1.dst.length = st.dst.length + initialize_vars_bytes limit st.argument_count l
      ∧ st1.argument_count = st.argument_count + argument_position l := by
  intro n
  induction n with
  | zero =>
    intro l hl st st1 l1 h _ _
    have : l = [] := List.length_eq_zero.1 (Nat.le_zero.1 hl)
    subst this
    rw [initialize_vars_loop] at h
    simp only [Except.ok.injEq, Prod.mk.injEq] at h
    obtain ⟨rfl, rfl⟩ := h
    exact ⟨rfl, rfl, rfl⟩
  | succ n ih =>
    intro l hl st st1 l1 h hfun hlt
    match l, hl, h, hfun, hlt with
    | [], _, h, _, _ =>
      rw [initialize_vars_loop] at h
      simp only [Except.ok.injEq, Prod.mk.injEq] at h
      obtain ⟨rfl, rfl⟩ := h
      exact ⟨rfl, rfl, rfl⟩
    | [x], _, h, _, hlt =>
      rw [initialize_vars_loop] at h
      split at h
      · cases h
      · rename_i x1 s1 c hbody
        simp only [Except.ok.injEq, Prod.mk.injEq] at h
        obtain ⟨rfl, rfl⟩ := h
        rw [argument_position_cons] at hlt ⊢
        have hb : x.status_flags.function_argument = true → st.argument_count < 65535 := by
          intro hf
          rw [hf] at hlt
          simp only [Bool.toNat_true] at hlt
          omega
        obtain ⟨e1, -, e3, e4⟩ := initialize_vars_literal_length hb hbody
        rw [e4, e1, e3, next_position_le]
        simp only [initialize_vars_bytes, Option.toList, next_index, argument_position,
          List.filter_nil, List.length_nil, Nat.add_zero, Nat.zero_add, and_self,
          List.map_cons, List.map_nil]
    | x :: z :: rest, hl, h, hfun, hlt =>
      have hl1 : (z :: rest).length ≤ n := by simp at hl ⊢; omega
      have hl2 : rest.length ≤ n := by simp at hl; omega
      rw [argument_position_cons] at hlt
      have hb : x.status_flags.function_argument = true → st.argument_count < 65535 := by
        intro hf
        rw [hf] at hlt
        simp only [Bool.toNat_true] at hlt
        omega
      rw [initialize_vars_loop] at h
      split at h
      · cases h
      · rename_i x1 s1 hbody
        split at h
        · cases h
        · rename_i rest1 s2 hrec
          simp only [Except.ok.injEq, Prod.mk.injEq] at h
          obtain ⟨rfl, rfl⟩ := h
          obtain ⟨e1, -, e3, e4⟩ := initialize_vars_literal_length hb hbody
          rw [next_position_le] at e1
          obtain ⟨g0, g1, g2⟩ := ih _ hl1 _ _ _ hrec
            (fun w hw => hfun w (List.mem_cons_of_mem _ hw)) (by rw [e1]; omega)
          rw [e1] at g1 g2
          rw [g0, g1, g2, e3, e4, argument_position_cons x]
          refine ⟨by simp only [List.map_cons], ?_, by omega⟩
          rw [initialize_vars_bytes_cons limit st.argument_count x, next_position_le]
          simp only [Option.toList, next_index]
          omega
      · rename_i x1 s1 hbody
        split at h
        · cases h
        · rename_i rest1 s2 hrec
          simp only [Except.ok.injEq, Prod.mk.injEq] at h
          obtain ⟨rfl, rfl⟩ := h
          obtain ⟨e1, e2, e3, e4⟩ := initialize_vars_literal_length hb hbody
          obtain ⟨f, hf1, hf2⟩ := e2 rfl
          simp only [Option.some.injEq] at hf1
          subst hf1
          have hzf := hfun z (List.mem_cons_of_mem _ (List.mem_cons_self _ _)) hf2
          rw [next_position_le] at e1
          rw [argument_position_cons z, hzf] at hlt
          simp only [Bool.toNat_false, Nat.add_zero] at hlt
          obtain ⟨g0, g1, g2⟩ := ih _ hl2 _ _ _ hrec
            (fun w hw => hfun w (List.mem_cons_of_mem _ (List.mem_cons_of_mem _ hw)))
            (by rw [e1]; omega)
          rw [e1] at g1 g2
          obtain ⟨k1, k2⟩ := @initialize_vars_record_function limit
            (st.argument_count + (x.status_flags.function_argument).toNat)
            (next_index rest) z hf2
          rw [g0, g1, g2, e3, e4, argument_position_cons x, argument_position_cons z, hzf]
          refine ⟨by simp only [List.map_cons, k2], ?_,
            by simp only [Bool.toNat_false, Nat.add_zero]; omega⟩
          rw [initialize_vars_bytes_cons limit st.argument_count x,
            initialize_vars_bytes_cons limit _ z, next_position_le,
            next_position_le, hzf, k1]
          simp only [Option.toList, next_index, Bool.toNat_false, Nat.add_zero, Nat.zero_add]
          omega


/-- The body of the second loop of `parser_compute_indicies` for one record: the counter
of the arguments and the bytes added to the length, which are `counted_record` of the
record with its index. -/
theorem assign_index_length {lim : parser_limits} {hiv : Bool} {limit rc : Nat}
    {st st1 : index_state} {x x2 : lexer_literal_t} {next consumed : Option lexer_literal_t}
    (hcount : x.status_flags.function_argument = true → is_counted_argument x = true)
    (hlt : x.status_flags.function_argument = true → st.argument_count < 65535)
    (h : assign_index lim hiv limit rc st x next = .ok (x2, st1, consumed)) :
    st1.argument_count = next_position st.argument_count x
      ∧ x2.status_flags = x.status_flags
      ∧ (consumed = none → ∀ following,
          st1.length = st.length + counted_record hiv limit st.argument_count x2 following)
      ∧ (∀ f2, consumed = some f2 →
          (∃ f, next = some f ∧ f.type = LEXER_FUNCTION_LITERAL
            ∧ f2 = { f with index := f2.index })
          ∧ st1.length = st.length + counted_record hiv limit st.argument_count x2 f2.index)
    := by
  have hu1 : x.status_flags.function_argument = true →
      u16 (st.argument_count + 1) = st.argument_count + 1 := by
    intro hf
    have := hlt hf
    unfold u16; omega
  rcases x with ⟨v, len, idx, ty, ⟨f1, f2, f3, f4, f5, f6⟩⟩
  unfold is_counted_argument at hcount
  unfold assign_index at h
  unfold next_position counted_record
  dsimp only at h hcount hu1 ⊢
  cases ty <;> cases f1 <;> cases f2 <;> cases f3 <;> cases f4 <;> cases f5 <;>
    simp only [ne_eq, not_true_eq_false, not_false_eq_true, if_true, if_false,
      reduceCtorEq, Bool.false_eq_true, Bool.not_true, Bool.not_false, or_self, or_false,
      false_or, true_or, or_true, and_true, true_and, and_false, false_and,
      lexer_flags.mk.injEq, Bool.true_eq_false, and_self, decide_True, decide_False,
      Bool.and_self, Bool.and_true, Bool.and_false, Bool.true_and, Bool.false_and,
      Bool.or_false, Bool.or_true, Bool.or_self, forall_const,
      IsEmpty.forall_iff] at h hcount hu1 ⊢ <;>
    (try split_ifs at h) <;>
    (try (cases next <;> dsimp only at h)) <;>
    (try split_ifs at h) <;>
    first
      | (cases h; done)
      | (simp only [Except.ok.injEq, Prod.mk.injEq] at h
         obtain ⟨rfl, rfl, rfl⟩ := h
         simp [hu1, initializer_length_add _ _ _ _ st.length, *])


theorem counted_initializers_cons (hiv : Bool) (limit position : Nat) (x : lexer_literal_t)
    (rest : List lexer_literal_t) :
    counted_initializers hiv limit position (x :: rest)
      = counted_record hiv limit position x (next_index rest)
        + counted_initializers hiv limit (next_position position x) rest := by
  rw [counted_initializers]

theorem counted_record_function {hiv : Bool} {limit position following : Nat}
    {z : lexer_literal_t} (h : z.type = LEXER_FUNCTION_LITERAL) :
    counted_record hiv limit position z following = 0 := by
  unfold counted_record
  rw [h]
  rfl

/-- The second loop of `parser_compute_indicies`: it adds `counted_initializers` of the
final pool to the length and counts the arguments. -/
theorem assign_indices_length (lim : parser_limits) (hiv : Bool) (limit rc : Nat) :
    ∀ (n : Nat) (l : List lexer_literal_t), l.length ≤ n →
    ∀ (st : index_state) (l2 : List lexer_literal_t) (i : index_state),
    assign_indices lim hiv limit rc st l = .ok (l2, i) →
    (∀ z ∈ l, z.type = LEXER_FUNCTION_LITERAL → z.status_flags.function_argument = false) →
    (∀ x ∈ l, x.status_flags.function_argument = true → is_counted_argument x = true) →
    st.argument_count + argument_position l < 65536 →
    i.length = st.length + counted_initializers hiv limit st.argument_count l2
      ∧ i.argument_count = st.argument_count + argument_position l := by
  intro n
  induction n with
  | zero =>
    intro l hl st l2 i h _ _ _
    have : l = [] := List.length_eq_zero.1 (Nat.le_zero.1 hl)
    subst this
    rw [assign_indices] at h
    simp only [Except.ok.injEq, Prod.mk.injEq] at h
    obtain ⟨rfl, rfl⟩ := h
    exact ⟨rfl, rfl⟩
  | succ n ih =>
    intro l hl st l2 i h hfun hcnt hlt
    match l, hl, h, hfun, hcnt, hlt with
    | [], _, h, _, _, _ =>
      rw [assign_indices] at h
      simp only [Except.ok.injEq, Prod.mk.injEq] at h
      obtain ⟨rfl, rfl⟩ := h
      exact ⟨rfl, rfl⟩
    | [x], _, h, _, hcnt, hlt =>
      rw [assign_indices] at h
      split at h
      · cases h
      · rename_i x2 s1 c hbody
        simp only [Except.ok.injEq, Prod.mk.injEq] at h
        obtain ⟨rfl, rfl⟩ := h
        rw [argument_position_cons] at hlt ⊢
        have hb : x.status_flags.function_argument = true → st.argument_count < 65535 := by
          intro hf
          rw [hf] at hlt
          simp only [Bool.toNat_true] at hlt
          omega
        obtain ⟨e1, e2, e3, e4⟩ := assign_index_length
          (hcnt x (List.mem_cons_self _ _)) hb hbody
        rw [e1, next_position_le]
        refine ⟨?_, by simp only [argument_position, List.filter_nil, List.length_nil,
          Nat.zero_add]⟩
        rw [counted_initializers_cons]
        cases c with
        | none =>
          rw [e3 rfl (next_index [])]
          simp only [counted_initializers, Nat.add_zero]
        | some f2 =>
          obtain ⟨⟨f, hf, -⟩, -⟩ := e4 f2 rfl
          cases hf
    | x :: z :: rest, hl, h, hfun, hcnt, hlt =>
      have hl1 : (z :: rest).length ≤ n := by simp at hl ⊢; omega
      have hl2 : rest.length ≤ n := by simp at hl; omega
      rw [argument_position_cons] at hlt
      have hb : x.status_flags.function_argument = true → st.argument_count < 65535 := by
        intro hf
        rw [hf] at hlt
        simp only [Bool.toNat_true] at hlt
        omega
      rw [assign_indices] at h
      split at h
      · cases h
      · rename_i x2 s1 hbody
        split at h
        · cases h
        · rename_i rest1 s2 hrec
          simp only [Except.ok.injEq, Prod.mk.injEq] at h
          obtain ⟨rfl, rfl⟩ := h
          obtain ⟨e1, e2, e3, -⟩ := assign_index_length
            (hcnt x (List.mem_cons_self _ _)) hb hbody
          have hnp : next_position st.argument_count x2 = next_position st.argument_count x := by
            unfold next_position
            rw [e2]
          rw [next_position_le] at e1
          obtain ⟨g1, g2⟩ := ih _ hl1 _ _ _ hrec
            (fun w hw => hfun w (List.mem_cons_of_mem _ hw))
            (fun w hw => hcnt w (List.mem_cons_of_mem _ hw)) (by rw [e1]; omega)
          rw [e1] at g1 g2
          rw [g1, g2, e3 rfl (next_index rest1), argument_position_cons x]
          refine ⟨?_, by omega⟩
          rw [counted_initializers_cons hiv limit st.argument_count x2, hnp,
            next_position_le]
          omega
      · rename_i x2 s1 f2 hbody
        split at h
        · cases h
        · rename_i rest1 s2 hrec
          simp only [Except.ok.injEq, Prod.mk.injEq] at h
          obtain ⟨rfl, rfl⟩ := h
          obtain ⟨e1, e2, -, e4⟩ := assign_index_length
            (hcnt x (List.mem_cons_self _ _)) hb hbody
          obtain ⟨⟨f, hf1, hf2, hf3⟩, e5⟩ := e4 f2 rfl
          simp only [Option.some.injEq] at hf1
          subst hf1
          have hzf := hfun z (List.mem_cons_of_mem _ (List.mem_cons_self _ _)) hf2
          have hf2t : f2.type = LEXER_FUNCTION_LITERAL := by rw [hf3]; exact hf2
          have hf2f : f2.status_flags.function_argument = false := by rw [hf3]; exact hzf
          have hnp : next_position st.argument_count x2 = next_position st.argument_count x := by
            unfold next_position
            rw [e2]
          rw [next_position_le] at e1
          rw [argument_position_cons z, hzf] at hlt
          simp only [Bool.toNat_false, Nat.add_zero] at hlt
          obtain ⟨g1, g2⟩ := ih _ hl2 _ _ _ hrec
            (fun w hw => hfun w (List.mem_cons_of_mem _ (List.mem_cons_of_mem _ hw)))
            (fun w hw => hcnt w (List.mem_cons_of_mem _ (List.mem_cons_of_mem _ hw)))
            (by rw [e1]; omega)
          rw [e1] at g1 g2
          rw [g1, g2, e5, argument_position_cons x, argument_position_cons z, hzf]
          refine ⟨?_, by simp only [Bool.toNat_false, Nat.add_zero]; omega⟩
          rw [counted_initializers_cons hiv limit st.argument_count x2,
            counted_initializers_cons hiv limit _ f2, hnp, next_position_le,
            next_position_le, hf2f, counted_record_function hf2t]
          simp only [next_index, Bool.toNat_false, Nat.add_zero, Nat.zero_add]
          omega


/-- The bytes counted for a record are the bytes the two loops of
`parser_generate_initializers` write for it: the loop of `CBC_INITIALIZE_VARS` when the
context has `PARSER_HAS_INITIALIZED_VARS`, then the last loop on the record as the former
leaves it. -/
theorem counted_record_split (hiv : Bool) (limit position following : Nat)
    (x : lexer_literal_t)
    (hix : x.type = LEXER_IDENT_LITERAL → x.status_flags.var = true →
      x.status_flags.initialized = true → x.status_flags.function_argument = true →
      (x.status_flags.no_reg_store = false → x.index = position)
        ∧ (x.status_flags.no_reg_store = true → x.index ≠ position))
    (hun : x.status_flags.unused_ident = true →
      (x.status_flags.var && x.status_flags.initialized) = false) :
    counted_record hiv limit position x following
      = (if hiv = true then initialize_vars_record limit position x following else 0)
        + initialize_var_record limit position
            (if hiv = true then initialize_vars_cleared x else x) following := by
  rcases x with ⟨v, len, idx, ty, ⟨f1, f2, f3, f4, f5, f6⟩⟩
  unfold counted_record initialize_vars_record initialize_var_record initialize_vars_cleared
  dsimp only at hix hun ⊢
  cases hiv <;> cases ty <;> cases f1 <;> cases f2 <;> cases f3 <;> cases f4 <;> cases f5 <;>
    simp only [reduceCtorEq, Bool.false_eq_true, Bool.not_true, Bool.not_false, if_true,
      if_false, decide_True, decide_False, Bool.and_self, Bool.and_true, Bool.and_false,
      Bool.true_and, Bool.false_and, Bool.or_false, Bool.or_true, Bool.or_self,
      Nat.add_zero, Nat.zero_add, forall_const, IsEmpty.forall_iff, true_and, and_true,
      Bool.true_eq_false, imp_false, not_true_eq_false, false_implies,
      initializer_length_zero] at hix hun ⊢ <;>
    first
      | rfl
      | (rw [if_neg (fun hp => hix hp.symm)])
      | (rw [if_pos hix.symm])

theorem initialize_vars_cleared_fields (x : lexer_literal_t) :
    (initialize_vars_cleared x).index = x.index
      ∧ (initialize_vars_cleared x).type = x.type
      ∧ (initialize_vars_cleared x).status_flags.function_argument
        = x.status_flags.function_argument := by
  unfold initialize_vars_cleared
  split <;> exact ⟨rfl, rfl, rfl⟩

/-- The bytes counted for the records of the final pool are the bytes the two loops of
`parser_generate_initializers` write for them. -/
theorem counted_initializers_split (hiv : Bool) (limit : Nat) :
    ∀ (l : List lexer_literal_t) (position : Nat),
      arguments_indexed position l →
      (∀ x ∈ l, x.status_flags.unused_ident = true →
        (x.status_flags.var && x.status_flags.initialized) = false) →
      counted_initializers hiv limit position l
        = (if hiv = true then initialize_vars_bytes limit position l else 0)
          + initialize_var_bytes limit position
              (if hiv = true then l.map initialize_vars_cleared else l) := by
  intro l
  induction l with
  | nil =>
    intro position _ _
    cases hiv <;> rfl
  | cons x rest ih =>
    intro position hix hun
    obtain ⟨h1, h2⟩ := hix
    have hrec := ih (next_position position x) h2
      (fun y hy => hun y (List.mem_cons_of_mem _ hy))
    have hx := counted_record_split hiv limit position (next_index rest) x h1
      (hun x (List.mem_cons_self _ _))
    rw [counted_initializers_cons, hrec, hx]
    cases hiv
    · simp only [Bool.false_eq_true, if_false, Nat.zero_add]
      rw [initialize_var_bytes_cons]
    · simp only [if_true, List.map_cons]
      rw [initialize_var_bytes_cons, initialize_vars_bytes_cons]
      have hn : next_index (rest.map initialize_vars_cleared) = next_index rest := by
        cases rest with
        | nil => rfl
        | cons y _ => exact (initialize_vars_cleared_fields y).1
      have hp : next_position position (initialize_vars_cleared x)
          = next_position position x := by
        unfold next_position
        rw [(initialize_vars_cleared_fields x).2.2]
      rw [hn, hp]
      omega


/-- A property of every record with the number of arguments before it gives the recursive
form from any position on. -/
theorem arguments_indexed_of_positions (l0 : List lexer_literal_t)
    (h : ∀ pre y post, l0 = pre ++ y :: post →
      y.type = LEXER_IDENT_LITERAL → y.status_flags.var = true →
      y.status_flags.initialized = true → y.status_flags.function_argument = true →
      (y.status_flags.no_reg_store = false → y.index = argument_position pre)
        ∧ (y.status_flags.no_reg_store = true → y.index ≠ argument_position pre)) :
    ∀ (l pre0 : List lexer_literal_t), l0 = pre0 ++ l →
      arguments_indexed (argument_position pre0) l := by
  intro l
  induction l with
  | nil => intro _ _; trivial
  | cons y rest ih =>
    intro pre0 hl
    refine ⟨h pre0 y rest hl, ?_⟩
    have := ih (pre0 ++ [y]) (by rw [hl, List.append_assoc]; rfl)
    have hp : argument_position (pre0 ++ [y]) = next_position (argument_position pre0) y := by
      unfold argument_position next_position
      rw [List.filter_append, List.length_append]
      cases hf : y.status_flags.function_argument <;> simp [hf]
    rw [hp] at this
    exact this

/-- The pools of `parser_compute_indicies`: the final pool has the records of the pool on
entry in the same places, up to `LEXER_FLAG_NO_REG_STORE` and the index. -/
theorem compute_indicies_pools (lim : parser_limits) (context : parser_context_t)
    (r : compute_indicies_result) (h : parser_compute_indicies lim context = .ok r) :
    ∃ pool1, List.Forall₂ marked_from context.literal_pool pool1
      ∧ List.Forall₂ same_but_index pool1 r.context.literal_pool := by
  obtain ⟨cs, pool1, i, hcl, hassign, -⟩ := compute_indicies_full lim context r h
  exact ⟨pool1, (count_literals_spec lim _ _ _ _ hcl).1,
    (assign_indices_spec lim _ _ _ pool1.length pool1 (le_refl _) _ _ _ hassign).1⟩

/-- After `parser_compute_indicies` on a consistent pool the arguments carry the indices
that `parser_generate_initializers` tests: an argument without `LEXER_FLAG_NO_REG_STORE`
has its position as index, a mirrored argument has an index among the initialized
variables, which is not its position. -/
theorem compute_indicies_arguments_indexed (lim : parser_limits)
    (context : parser_context_t) (r : compute_indicies_result)
    (hc : pool_consistent context) (h : parser_compute_indicies lim context = .ok r)
    (hun : ∀ y ∈ r.context.literal_pool, y.status_flags.unused_ident = true →
      (y.status_flags.var && y.status_flags.initialized) = false) :
    arguments_indexed 0 r.context.literal_pool := by
  obtain ⟨pool1, hm, hsame⟩ := compute_indicies_pools lim context r h
  have hlen : r.context.literal_pool.length = context.literal_pool.length := by
    rw [← List.Forall₂.length_eq hsame, ← List.Forall₂.length_eq hm]
  obtain ⟨-, -, q1, q2, q3, -⟩ := compute_indicies_layout lim context r h hc.1 hc.2.2.2.1
  refine arguments_indexed_of_positions r.context.literal_pool ?_ r.context.literal_pool []
    rfl
  intro pre2 y post2 hpool2 hty hv hi hf
  have hk : pre2.length < context.literal_pool.length := by
    rw [← hlen, hpool2, List.length_append, List.length_cons]
    omega
  have hsplit : context.literal_pool
      = context.literal_pool.take pre2.length
        ++ context.literal_pool[pre2.length] :: context.literal_pool.drop (pre2.length + 1) := by
    rw [← List.drop_eq_getElem_cons hk, List.take_append_drop]
  have hlt : (context.literal_pool.take pre2.length).length = pre2.length := by
    rw [List.length_take]
    omega
  obtain ⟨-, -, -, -, y1, -, -, -, -, -, -, e7, -, e9, e10, -, e12, -, e14, -, -⟩ :=
    compute_indicies_record lim context r _ _ _ hc h hsplit
  rw [hlt] at e12
  try rw [hlt] at e7
  have hy : r.context.literal_pool[pre2.length]? = some y := by
    rw [hpool2, List.getElem?_append_right (le_refl _)]
    simp
  rw [hy] at e7
  have hy1 : y1 = y := (Option.some.inj e7).symm
  subst hy1
  have htake : r.context.literal_pool.take pre2.length = pre2 := by
    rw [hpool2, List.take_left']
    rfl
  rw [htake] at e12
  have hu : y1.status_flags.unused_ident = false := by
    cases hu : y1.status_flags.unused_ident
    · rfl
    · have := hun y1 e9 hu
      rw [hv, hi] at this
      cases this
  constructor
  · intro hn
    rw [e12]
    apply e10
    unfold is_argument
    rw [hty, hu, hv, hi, hf, hn]
    rfl
  · intro hn
    have hiv : is_initialized_var y1 = true := by
      unfold is_initialized_var
      rw [hty, hu, hv, hi, hn]
      rfl
    have hrange := mem_range'_of_class q3.1 q3.2 e9 hiv
    have hle : argument_position pre2 + 1 ≤ r.context.argument_count := by
      have hfx : (context.literal_pool[pre2.length]).status_flags.function_argument = true := by
        obtain ⟨x1, hx1, hxy⟩ := forall₂_getElem? hsame _ _ hy
        obtain ⟨x0, hx0, hxx⟩ := forall₂_getElem? hm _ _ hx1
        have hx0' : context.literal_pool[pre2.length]? = some x0 := hx0
        rw [List.getElem?_eq_getElem hk] at hx0'
        rw [Option.some.inj hx0']
        have := (counted_of_marked hxx hxy).2.2.2.1
        rw [← this]
        exact hf
      rw [hfx] at e14
      simp only [Bool.toNat_true] at e14
      rw [e12]
      exact e14
    have := q1.1
    have := q2.1
    omega


/-- The number of bytes `parser_generate_initializers` writes: `CBC_DEFINE_VARS` with its
index, `CBC_INITIALIZE_VARS` with its two indices and the index of each initializer, and
the `CBC_INITIALIZE_VAR` instructions of the last loop. -/
theorem parser_generate_initializers_length {t : cbc_tables}
    {context context1 : parser_context_t} {dst dst1 : List Nat}
    {literal_table literal_table1 : List literal_value_t}
    {uninitialized_var_end initialized_var_end limit : Nat}
    (hfun : ∀ z ∈ context.literal_pool, z.type = LEXER_FUNCTION_LITERAL →
      z.status_flags.function_argument = false)
    (hpos : argument_position context.literal_pool < 65536)
    (hue : uninitialized_var_end < 65536)
    (hie : context.status_flags.has_initialized_vars = true →
      0 < initialized_var_end ∧ initialized_var_end < 65536)
    (h : parser_generate_initializers t context dst literal_table uninitialized_var_end
      initialized_var_end limit = .ok (context1, dst1, literal_table1)) :
    dst1.length = dst.length
      + (if uninitialized_var_end > context.register_count then
          1 + encoded_length (uninitialized_var_end - 1) limit else 0)
      + (if context.status_flags.has_initialized_vars = true then
          1 + encoded_length uninitialized_var_end limit
            + encoded_length (initialized_var_end - 1) limit
            + initialize_vars_bytes limit 0 context.literal_pool
        else 0)
      + initialize_var_bytes limit 0
          (if context.status_flags.has_initialized_vars = true then
            context.literal_pool.map initialize_vars_cleared
          else context.literal_pool) := by
  have hd : (if uninitialized_var_end > context.register_count then
        parser_encode_literal (dst ++ [t.CBC_DEFINE_VARS])
          (u16 (uninitialized_var_end + 65535)) limit
      else dst).length
      = dst.length + (if uninitialized_var_end > context.register_count then
          1 + encoded_length (uninitialized_var_end - 1) limit else 0) := by
    split
    · rename_i hgt
      have : u16 (uninitialized_var_end + 65535) = uninitialized_var_end - 1 := by
        unfold u16
        omega
      rw [parser_encode_literal_length, this, List.length_append, List.length_singleton]
      omega
    · rfl
  unfold parser_generate_initializers at h
  dsimp only at h
  split at h
  · cases h
  · rename_i c1 d3 h1
    have e1 : c1.register_count = context.register_count
        ∧ c1.literal_pool = (if context.status_flags.has_initialized_vars = true then
            context.literal_pool.map initialize_vars_cleared else context.literal_pool)
        ∧ d3.length = dst.length
          + (if uninitialized_var_end > context.register_count then
              1 + encoded_length (uninitialized_var_end - 1) limit else 0)
          + (if context.status_flags.has_initialized_vars = true then
              1 + encoded_length uninitialized_var_end limit
                + encoded_length (initialized_var_end - 1) limit
                + initialize_vars_bytes limit 0 context.literal_pool
            else 0) := by
      by_cases hiv : context.status_flags.has_initialized_vars = true
      · rw [if_pos hiv] at h1
        obtain ⟨hi0, hi1⟩ := hie hiv
        split at h1
        · cases h1
        · rename_i pool1 st1 hloop
          split_ifs at h1
          simp only [Except.ok.injEq, Prod.mk.injEq] at h1
          obtain ⟨rfl, rfl⟩ := h1
          obtain ⟨g0, g1, -⟩ := initialize_vars_loop_length limit _ _ (le_refl _) _ _ _ hloop
            hfun (by rw [Nat.zero_add]; exact hpos)
          have : u16 (initialized_var_end + 65535) = initialized_var_end - 1 := by
            unfold u16
            omega
          dsimp only at g1
          rw [if_pos hiv, if_pos hiv, g1, parser_encode_literal_length,
            parser_encode_literal_length, List.length_append, List.length_singleton, hd,
            this]
          exact ⟨rfl, g0, by omega⟩
      · rw [if_neg hiv] at h1
        simp only [Except.ok.injEq, Prod.mk.injEq] at h1
        obtain ⟨rfl, rfl⟩ := h1
        rw [if_neg hiv, if_neg hiv, hd]
        exact ⟨rfl, rfl, rfl⟩
    obtain ⟨k1, k2, k3⟩ := e1
    split at h
    · cases h
    · rename_i st2 hloop2
      have hdst : dst1 = st2.dst := by
        split_ifs at h <;> simp only [Except.ok.injEq, Prod.mk.injEq] at h <;>
          exact h.2.1.symm
      have hfun2 : ∀ z ∈ c1.literal_pool, z.type = LEXER_FUNCTION_LITERAL →
          z.status_flags.function_argument = false := by
        rw [k2]
        split
        · intro z hz hzt
          obtain ⟨w, hw, rfl⟩ := List.mem_map.1 hz
          obtain ⟨-, w2, w3⟩ := initialize_vars_cleared_fields w
          rw [w3]
          rw [w2] at hzt
          exact hfun w hw hzt
        · exact hfun
      have hpos2 : argument_position c1.literal_pool = argument_position context.literal_pool := by
        rw [k2]
        split
        · unfold argument_position
          rw [List.filter_map, List.length_map]
          congr 1
          apply List.filter_congr
          intro w _
          exact (initialize_vars_cleared_fields w).2.2
        · rfl
      obtain ⟨g1, -⟩ := initialize_var_loop_length t limit c1.register_count _ _ (le_refl _)
        _ _ hloop2 hfun2 (by rw [Nat.zero_add, hpos2]; exact hpos)
      dsimp only at g1
      rw [hdst, g1, k3, k2]


/-- The length that `parser_compute_indicies` returns, for a consistent pool in which no
record flagged `LEXER_FLAG_UNUSED_IDENT` is an initialized variable and a context without
`PARSER_HAS_INITIALIZED_VARS` on entry: the bytes of `CBC_DEFINE_VARS`, of
`CBC_INITIALIZE_VARS` and of the `CBC_INITIALIZE_VAR` instructions for the final pool. -/
theorem compute_indicies_length (lim : parser_limits) (context : parser_context_t)
    (r : compute_indicies_result) (hc : pool_consistent context)
    (hflag : context.status_flags.has_initialized_vars = false)
    (hun : ∀ x ∈ context.literal_pool, x.status_flags.unused_ident = true →
      (x.status_flags.var && x.status_flags.initialized) = false)
    (h : parser_compute_indicies lim context = .ok r) :
    r.length
        = (if r.uninitialized_var_end > r.context.register_count then
            1 + encoded_length (r.uninitialized_var_end - 1)
              (if r.context.literal_count ≤ lim.CBC_MAXIMUM_SMALL_VALUE then
                CBC_MAXIMUM_BYTE_VALUE - 1 else CBC_LOWER_SEVEN_BIT_MASK) else 0)
          + (if r.context.status_flags.has_initialized_vars = true then
              1 + encoded_length r.uninitialized_var_end
                  (if r.context.literal_count ≤ lim.CBC_MAXIMUM_SMALL_VALUE then
                    CBC_MAXIMUM_BYTE_VALUE - 1 else CBC_LOWER_SEVEN_BIT_MASK)
                + encoded_length (r.initialized_var_end - 1)
                  (if r.context.literal_count ≤ lim.CBC_MAXIMUM_SMALL_VALUE then
                    CBC_MAXIMUM_BYTE_VALUE - 1 else CBC_LOWER_SEVEN_BIT_MASK)
                + initialize_vars_bytes
                  (if r.context.literal_count ≤ lim.CBC_MAXIMUM_SMALL_VALUE then
                    CBC_MAXIMUM_BYTE_VALUE - 1 else CBC_LOWER_SEVEN_BIT_MASK)
                  0 r.context.literal_pool
            else 0)
          + initialize_var_bytes
              (if r.context.literal_count ≤ lim.CBC_MAXIMUM_SMALL_VALUE then
                CBC_MAXIMUM_BYTE_VALUE - 1 else CBC_LOWER_SEVEN_BIT_MASK)
              0
              (if r.context.status_flags.has_initialized_vars = true then
                r.context.literal_pool.map initialize_vars_cleared
              else r.context.literal_pool)
      ∧ (∀ z ∈ r.context.literal_pool, z.type = LEXER_FUNCTION_LITERAL →
          z.status_flags.function_argument = false)
      ∧ argument_position r.context.literal_pool < 65536
      ∧ r.uninitialized_var_end < 65536
      ∧ (r.context.status_flags.has_initialized_vars = true →
          0 < r.initialized_var_end ∧ r.initialized_var_end < 65536) := by
  obtain ⟨cs, pool1, i, hcl, hassign, a0, a1, a2, a3, a4, a5, a6, r0, r1, r2, r3, -, -, -,
    r7, r8, r9, r10, r11⟩ := compute_indicies_full lim context r h
  have hc0 := hc
  obtain ⟨hrc, hac, hlc, hN, -⟩ := hc
  have hm := (count_literals_spec lim _ _ _ _ hcl).1
  obtain ⟨hsame, sa, -, -, -, -, -, sf⟩ :=
    assign_indices_spec lim _ _ _ pool1.length pool1 (le_refl _) _ _ _ hassign
  obtain ⟨-, -, q1, q2, q3, q4, q5, q6, -⟩ := compute_indicies_layout lim context r h hrc hN
  -- bounds
  have hlit : r.context.literal_count < 65536 := by
    rw [r3, ← a6, sf.1 (Nat.mod_lt _ (by norm_num))]
    exact Nat.mod_lt _ (by norm_num)
  have hle_ie : r.initialized_var_end ≤ r.context.literal_count := by
    have := q4.1
    have := q5.1
    have := q6.1
    omega
  -- the flag of the initialized variables
  have hcsf : cs.status_flags.has_initialized_vars = false := by
    have hs : (count_start context).status_flags.has_initialized_vars = false := by
      rw [(count_start_lexical_env context).2.2.1]
      exact hflag
    rcases count_literals_flags lim _ _ _ _ hcl with e | e <;> rw [e] <;> exact hs
  have hiv : r.context.status_flags.has_initialized_vars
      = decide (cs.initialized_var_count > 2) := by
    rw [r0]
    split
    · rename_i h2
      simp only [h2, decide_True]
    · rename_i h2
      simp only [h2, decide_False, hcsf]
  rw [hcsf, Bool.false_or] at hassign
  -- the arguments of the pool
  have hpos1 : argument_position pool1 = argument_position context.literal_pool :=
    argument_position_marked hm
  have hpos2 : argument_position r.context.literal_pool = argument_position pool1 :=
    argument_position_indexed hsame
  have hposle : argument_position context.literal_pool ≤ 32767 := by
    unfold argument_position
    exact le_trans (List.length_filter_le _ _) hN
  have hcnt : (pool1.filter is_counted_argument).length = argument_position pool1 := by
    have hle := (class_partition pool1).2.2.2.2
    have hlen1 : pool1.length = context.literal_pool.length :=
      (List.Forall₂.length_eq hm).symm
    have hs := sa.1 (by norm_num)
    dsimp only at hs
    rw [Nat.zero_add, Nat.mod_eq_of_lt (by omega)] at hs
    rw [← hs, a0, hac, hpos1]
    rfl
  have hpt := flagged_counted pool1 hcnt
  have hfun1 : ∀ z ∈ pool1, z.type = LEXER_FUNCTION_LITERAL →
      z.status_flags.function_argument = false := by
    intro z hz hzt
    cases hfa : z.status_flags.function_argument
    · rfl
    · have h2 := hpt z hz hfa
      unfold is_counted_argument at h2
      rw [hzt] at h2
      simp at h2
  have hfun2 : ∀ z ∈ r.context.literal_pool, z.type = LEXER_FUNCTION_LITERAL →
      z.status_flags.function_argument = false := by
    intro z hz hzt
    obtain ⟨z1, hz1, hzz⟩ := forall₂_mem_right hsame z hz
    unfold same_but_index at hzz
    rw [hzz]
    rw [hzz] at hzt
    exact hfun1 z1 hz1 hzt
  have hun2 : ∀ y ∈ r.context.literal_pool, y.status_flags.unused_ident = true →
      (y.status_flags.var && y.status_flags.initialized) = false := by
    intro y hy hyu
    obtain ⟨y1, hy1, hyy⟩ := forall₂_mem_right hsame y hy
    obtain ⟨y0, hy0, hy01⟩ := forall₂_mem_right hm y1 hy1
    obtain ⟨-, k2, k3, -, k5, -⟩ := counted_of_marked hy01 hyy
    rw [k2, k3]
    rw [k5] at hyu
    exact hun y0 hy0 hyu
  -- the length
  obtain ⟨hlen, -⟩ := assign_indices_length lim _ _ _ pool1.length pool1 (le_refl _) _ _ _
    hassign hfun1 hpt (by dsimp only; rw [Nat.zero_add, hpos1]; omega)
  have hidx := compute_indicies_arguments_indexed lim context r hc0 h hun2
  have hsplit := counted_initializers_split (decide (cs.initialized_var_count > 2))
    (if cs.literal_count ≤ lim.CBC_MAXIMUM_SMALL_VALUE then CBC_MAXIMUM_BYTE_VALUE - 1
      else CBC_LOWER_SEVEN_BIT_MASK) r.context.literal_pool 0 hidx hun2
  dsimp only at hlen
  rw [hsplit] at hlen
  have hue : r.uninitialized_var_end = cs.register_count + cs.uninitialized_var_count := by
    rw [r7, a2]
  have hie : r.initialized_var_end
      = cs.register_count + cs.uninitialized_var_count + cs.initialized_var_count := by
    rw [r8, a3, a2]
  have hu1 : u16 (cs.register_count + cs.uninitialized_var_count)
      = cs.register_count + cs.uninitialized_var_count := by
    unfold u16
    omega
  have hu2 : u16 (cs.register_count + cs.uninitialized_var_count + cs.initialized_var_count)
      = cs.register_count + cs.uninitialized_var_count + cs.initialized_var_count := by
    unfold u16
    omega
  have hposlt : argument_position r.context.literal_pool < 65536 := by
    rw [hpos2, hpos1]; omega
  have hq2 := q2.1
  clear hassign sa sf hsame hm hsplit hidx hun2 hfun1 hpt hcnt q1 q2 q3 q4 q5 q6 hcl h hun
  refine ⟨?_, hfun2, hposlt, by omega, ?_⟩
  · rw [r11, hlen, hiv, r3, hue, hie, r2]
    rw [hu1, hu2]
    generalize (if cs.literal_count ≤ lim.CBC_MAXIMUM_SMALL_VALUE then
      CBC_MAXIMUM_BYTE_VALUE - 1 else CBC_LOWER_SEVEN_BIT_MASK) = limit
    generalize initialize_vars_bytes limit 0 r.context.literal_pool = A
    generalize initialize_var_bytes limit 0 _ = B
    generalize cs.register_count = rc
    generalize cs.uninitialized_var_count = uc
    generalize cs.initialized_var_count = ic
    clear hlen hue hie hu1 hu2 hiv hcsf hle_ie hlit hposlt hq2 hfun2 a0 a1 a2 a3 a4 a5 a6
      r0 r1 r2 r3 r7 r8 r9 r10 r11 hc0 hrc hac hlc hN hflag hpos1 hpos2 hposle
    unfold encoded_length
    by_cases h2 : ic > 2
    · simp only [h2, decide_True, if_true]
      by_cases h0 : uc > 0
      · have hgt : rc + uc > rc := by omega
        simp only [h0, hgt, if_true]
        split_ifs <;> omega
      · have hgt : ¬ rc + uc > rc := by omega
        simp only [h0, hgt, if_false]
        split_ifs <;> omega
    · simp only [h2, decide_False, Bool.false_eq_true, if_false, Nat.add_zero]
      by_cases h0 : uc > 0
      · have hgt : rc + uc > rc := by omega
        simp only [h0, hgt, if_true]
        split_ifs <;> omega
      · have hgt : ¬ rc + uc > rc := by omega
        simp only [h0, hgt, if_false]
        omega
  · intro hh
    rw [hiv] at hh
    simp only [decide_eq_true_eq] at hh
    omega


/-- C29: for a pool that satisfies the preconditions of the classifier (it is consistent
with the counters of the context, no record flagged `LEXER_FLAG_UNUSED_IDENT` is an
initialized variable, and the context has no `PARSER_HAS_INITIALIZED_VARS` on entry), the
length that `parser_compute_indicies` returns is the number of bytes that
`parser_generate_initializers` writes (`CBC_DEFINE_VARS`, `CBC_INITIALIZE_VARS` and each
`CBC_INITIALIZE_VAR` with their indices of one or two bytes) when it is called, as in
`parser_post_processing`, with the final pool, the register count, the flag
`PARSER_HAS_INITIALIZED_VARS`, the two ends and the one-byte limit of the classification:
when it returns, `dst_p == byte_code_p + initializers_length`. -/
theorem C29_initializers_length (lim : parser_limits) (t : cbc_tables)
    (context context5 context6 : parser_context_t) (r : compute_indicies_result)
    (dst0 dst : List Nat) (literal_table literal_table1 : List literal_value_t)
    (hc : pool_consistent context)
    (hflag : context.status_flags.has_initialized_vars = false)
    (hun : ∀ x ∈ context.literal_pool, x.status_flags.unused_ident = true →
      (x.status_flags.var && x.status_flags.initialized) = false)
    (h : parser_compute_indicies lim context = .ok r)
    (hp5 : context5.literal_pool = r.context.literal_pool)
    (hr5 : context5.register_count = r.context.register_count)
    (hf5 : context5.status_flags.has_initialized_vars
      = r.context.status_flags.has_initialized_vars)
    (hgen : parser_generate_initializers t context5 dst0 literal_table
      r.uninitialized_var_end r.initialized_var_end
      (if r.context.literal_count ≤ lim.CBC_MAXIMUM_SMALL_VALUE then
        CBC_MAXIMUM_BYTE_VALUE - 1 else CBC_LOWER_SEVEN_BIT_MASK)
      = .ok (context6, dst, literal_table1)) :
    dst.length = dst0.length + r.length := by
  obtain ⟨e1, e2, e3, e4, e5⟩ := compute_indicies_length lim context r hc hflag hun h
  have hg := parser_generate_initializers_length (by rw [hp5]; exact e2)
    (by rw [hp5]; exact e3) e4 (by rw [hf5]; exact e5) hgen
  rw [hg, e1, hp5, hr5, hf5]
  omega

/-- Witness for `C29_initializers_length`: in `initializers_example` the classification
returns the length 8, and `parser_generate_initializers` writes the 8 bytes
`CBC_DEFINE_VARS 2`, `CBC_INITIALIZE_VARS 3 5` and the initializers `0`, `1`, `8`. -/
theorem C29_initializers_length_witness :
    ∃ r context6 dst literal_table1,
      parser_compute_indicies example_limits initializers_example = .ok r
      ∧ parser_generate_initializers example_tables r.context [] (List.replicate 8 none)
          r.uninitialized_var_end r.initialized_var_end
          (if r.context.literal_count ≤ example_limits.CBC_MAXIMUM_SMALL_VALUE then
            CBC_MAXIMUM_BYTE_VALUE - 1 else CBC_LOWER_SEVEN_BIT_MASK)
        = .ok (context6, dst, literal_table1)
      ∧ dst = [14, 2, 15, 3, 5, 0, 1, 8]
      ∧ dst.length = ([] : List Nat).length + r.length := by
  have hok : (parser_compute_indicies example_limits initializers_example).toOption.bind
      (fun r => (parser_generate_initializers example_tables r.context []
          (List.replicate 8 none) r.uninitialized_var_end r.initialized_var_end
          (if r.context.literal_count ≤ example_limits.CBC_MAXIMUM_SMALL_VALUE then
            CBC_MAXIMUM_BYTE_VALUE - 1 else CBC_LOWER_SEVEN_BIT_MASK)).toOption.map
        (fun g => g.2.1)) = some [14, 2, 15, 3, 5, 0, 1, 8] := by decide
  cases hrun : parser_compute_indicies example_limits initializers_example with
  | error e =>
    rw [hrun] at hok
    cases hok
  | ok r =>
    rw [hrun] at hok
    simp only [Except.toOption, Option.bind] at hok
    cases hgen : parser_generate_initializers example_tables r.context []
        (List.replicate 8 none) r.uninitialized_var_end r.initialized_var_end
        (if r.context.literal_count ≤ example_limits.CBC_MAXIMUM_SMALL_VALUE then
          CBC_MAXIMUM_BYTE_VALUE - 1 else CBC_LOWER_SEVEN_BIT_MASK) with
    | error e =>
      rw [hgen] at hok
      cases hok
    | ok g =>
      obtain ⟨context6, dst, literal_table1⟩ := g
      rw [hgen] at hok
      exact ⟨r, context6, dst, literal_table1, rfl, hgen, Option.some.inj hok,
        C29_initializers_length example_limits example_tables initializers_example
          r.context context6 r [] dst (List.replicate 8 none) literal_table1
          (by decide) rfl (by decide) hrun rfl rfl rfl hgen⟩


/-! ## The counters of the copy pass -/

theorem cell_counters_length (page_size : Nat) (kept : List Bool) :
    ∀ (q counter : Nat), (cell_counters page_size q counter kept).length = kept.length := by
  induction kept with
  | nil => intro _ _; rfl
  | cons k kept ih =>
    intro q counter
    rw [cell_counters, List.length_cons, List.length_cons, ih]

theorem cell_counters_append (page_size : Nat) (kept1 kept2 : List Bool) :
    ∀ (q counter : Nat),
      cell_counters page_size q counter (kept1 ++ kept2)
        = cell_counters page_size q counter kept1
          ++ cell_counters page_size (q + kept1.length)
              (counter_after page_size q counter kept1) kept2 := by
  induction kept1 with
  | nil => intro _ _; rfl
  | cons k kept1 ih =>
    intro q counter
    rw [List.cons_append, cell_counters, cell_counters, counter_after, ih, List.length_cons,
      List.cons_append]
    congr 3
    omega

theorem counter_after_append (page_size : Nat) (kept1 kept2 : List Bool) :
    ∀ (q counter : Nat),
      counter_after page_size q counter (kept1 ++ kept2)
        = counter_after page_size (q + kept1.length)
            (counter_after page_size q counter kept1) kept2 := by
  induction kept1 with
  | nil => intro _ _; rfl
  | cons k kept1 ih =>
    intro q counter
    rw [List.cons_append, counter_after, counter_after, ih, List.length_cons]
    congr 1
    omega

/-- The counter stays at most the offset in the page. -/
theorem counter_after_le (page_size : Nat) (hn : 0 < page_size) (kept : List Bool) :
    ∀ (q counter : Nat), counter ≤ q % page_size →
      counter_after page_size q counter kept ≤ (q + kept.length) % page_size := by
  induction kept with
  | nil => intro q counter h; exact h
  | cons k kept ih =>
    intro q counter h
    rw [counter_after, List.length_cons]
    have e : q + (kept.length + 1) = q + 1 + kept.length := by omega
    rw [e]
    apply ih
    have hsd := succ_div_mod page_size q hn
    have hk : k.toNat ≤ 1 := by cases k <;> simp
    split
    · omega
    · rename_i hz
      have hlt := Nat.mod_lt q hn
      by_cases hlast : q % page_size + 1 < page_size
      · have := (hsd.1 hlast).2
        omega
      · exact absurd (hsd.2 hlast).2 hz

theorem retained_count_append (kept1 kept2 : List Bool) :
    retained_count (kept1 ++ kept2) = retained_count kept1 + retained_count kept2 := by
  unfold retained_count
  exact List.count_append _ _ _


/-! ## Runs of the copy pass with the retained bytes -/

theorem agree_on_split {read1 read : Nat → Option Nat} {q n1 n2 : Nat}
    (h : agree_on read1 read q (n1 + n2)) :
    agree_on read1 read q n1 ∧ agree_on read1 read (q + n1) n2 :=
  ⟨fun r h1 h2 => h r h1 (by omega), fun r h1 h2 => h r (by omega) (by omega)⟩

theorem agree_on_congr {read1 read read2 : Nat → Option Nat} {q n : Nat}
    (h : agree_on read1 read q n) (h2 : ∀ r, q ≤ r → r < q + n → read r = read2 r) :
    agree_on read1 read2 q n :=
  fun r h3 h4 => (h r h3 h4).trans (h2 r h3 h4)

theorem kept_run_nil {t : cbc_tables} {chain : List Nat} {q : Nat} {st : copy_state}
    (hat : copy_at t chain q st) : kept_run t chain q st [] st := by
  refine ⟨hat, rfl, fun _ _ => rfl, fun _ _ => ⟨rfl, ?_⟩⟩
  intro j hj
  cases hj

/-- One call of `PARSER_NEXT_BYTE_UPDATE`, after the byte under the cursor was copied
(`k` true) or not. -/
theorem kept_run_step {t : cbc_tables} {chain : List Nat} {q : Nat}
    {st st1 : copy_state} (hat : copy_at t chain q st)
    (hn : 0 < t.PARSER_CBC_STREAM_PAGE_SIZE) (dst1 : List Nat) (ro1 : Nat) (k : Bool)
    (hlen : dst1.length = st.dst.length + k.toNat)
    (hro : t.PARSER_CBC_STREAM_PAGE_SIZE ≤ 127 →
      st.real_offset ≤ q % t.PARSER_CBC_STREAM_PAGE_SIZE → ro1 = st.real_offset + k.toNat)
    (h : PARSER_NEXT_BYTE_UPDATE t { st with dst := dst1, real_offset := ro1 } = .ok st1) :
    kept_run t chain q st [k] st1 ∧ st1.dst = dst1
      ∧ q < chain.length * t.PARSER_CBC_STREAM_PAGE_SIZE := by
  have hat1 : copy_at t chain q { st with dst := dst1, real_offset := ro1 } := hat
  obtain ⟨hq, hat2, hdst, hrd, hfr, hreal⟩ := next_byte_update_spec hat1 hn h
  dsimp only at hdst hrd hfr hreal
  have hk : k.toNat ≤ 1 := by cases k <;> simp
  have hcount : retained_count [k] = k.toNat := by
    cases k <;> simp [retained_count]
  refine ⟨⟨hat2, by rw [hdst, hlen, hcount], ?_, ?_⟩, hdst, hq⟩
  · intro r hr
    simp only [List.length_singleton] at hr
    exact hfr r (by omega)
  · intro hps hle
    have hro1 := hro hps hle
    have hmod : q % t.PARSER_CBC_STREAM_PAGE_SIZE < t.PARSER_CBC_STREAM_PAGE_SIZE :=
      Nat.mod_lt _ hn
    have hlt : ro1 < 128 := by omega
    refine ⟨?_, ?_⟩
    · rw [hreal, hro1]
      rfl
    · intro j hj
      simp only [List.length_singleton] at hj
      have hj0 : j = 0 := by omega
      subst hj0
      refine ⟨ro1, hrd, ?_⟩
      rw [and_127_of_lt hlt, hro1]
      rfl

/-- Two runs of the copy pass, one after the other. -/
theorem kept_run_trans {t : cbc_tables} {chain : List Nat} {q : Nat}
    {st st1 st2 : copy_state} {kept1 kept2 : List Bool}
    (hn : 0 < t.PARSER_CBC_STREAM_PAGE_SIZE)
    (h1 : kept_run t chain q st kept1 st1)
    (h2 : kept_run t chain (q + kept1.length) st1 kept2 st2) :
    kept_run t chain q st (kept1 ++ kept2) st2 := by
  obtain ⟨a1, a2, a3, a4⟩ := h1
  obtain ⟨b1, b2, b3, b4⟩ := h2
  have el : q + (kept1 ++ kept2).length = q + kept1.length + kept2.length := by
    rw [List.length_append]; omega
  refine ⟨by rw [el]; exact b1, by rw [b2, a2, retained_count_append]; omega, ?_, ?_⟩
  · intro r hr
    rw [el] at hr
    rw [b3 r (by omega), a3 r (by omega)]
  · intro hps hle
    obtain ⟨c1, c2⟩ := a4 hps hle
    have hle1 : st1.real_offset ≤ (q + kept1.length) % t.PARSER_CBC_STREAM_PAGE_SIZE := by
      rw [c1]
      exact counter_after_le _ hn kept1 q st.real_offset hle
    obtain ⟨d1, d2⟩ := b4 hps hle1
    refine ⟨by rw [d1, c1, counter_after_append], ?_⟩
    intro j hj
    rw [cell_counters_append]
    by_cases hj1 : j < kept1.length
    · obtain ⟨c, hc, hcv⟩ := c2 j hj1
      refine ⟨c, by rw [b3 (q + j) (by omega)]; exact hc, ?_⟩
      rw [List.getElem?_append_left (by rw [cell_counters_length]; exact hj1)]
      exact hcv
    · rw [List.length_append] at hj
      obtain ⟨c, hc, hcv⟩ := d2 (j - kept1.length) (by omega)
      have e : q + kept1.length + (j - kept1.length) = q + j := by omega
      rw [e] at hc
      refine ⟨c, hc, ?_⟩
      rw [List.getElem?_append_right (by rw [cell_counters_length]; omega),
        cell_counters_length, ← c1]
      exact hcv

/-- The branch mark on a cell of the run keeps the run. -/
theorem kept_run_mark {t : cbc_tables} {chain : List Nat} {q q1 : Nat}
    {st st1 : copy_state} {kept : List Bool} {pages1 : List parser_mem_page_t}
    (hn : 0 < t.PARSER_CBC_STREAM_PAGE_SIZE)
    (h : kept_run t chain q st kept st1) (hq1 : q ≤ q1) (hq2 : q1 < q + kept.length)
    (hm : set_branch_mark st1.pages (cursor t chain q1).1 (cursor t chain q1).2
      = .ok pages1) :
    kept_run t chain q st kept { st1 with pages := pages1 } := by
  obtain ⟨a1, a2, a3, a4⟩ := h
  obtain ⟨m1, m2, ⟨c0, m3, m4⟩, m5⟩ := set_branch_mark_spec a1.1 hn hm
  refine ⟨⟨m1, m2 0 a1.2.1, a1.2.2⟩, a2, ?_, ?_⟩
  · intro r hr
    dsimp only
    rw [m5 r (by omega)]
    exact a3 r hr
  · intro hps hle
    obtain ⟨c1, c2⟩ := a4 hps hle
    refine ⟨c1, ?_⟩
    intro j hj
    obtain ⟨c, hc, hcv⟩ := c2 j hj
    dsimp only
    by_cases hjq : q + j = q1
    · rw [hjq] at hc ⊢
      rw [m3] at hc
      cases hc
      exact ⟨c0 ||| CBC_HIGHEST_BIT_MASK, m4, by rw [mark_and_127]; exact hcv⟩
    · exact ⟨c, by rw [m5 _ hjq]; exact hc, hcv⟩


theorem kept_copy_byte {t : cbc_tables} {chain : List Nat} {q : Nat}
    {st st1 : copy_state} (hat : copy_at t chain q st)
    (hn : 0 < t.PARSER_CBC_STREAM_PAGE_SIZE) (h : copy_byte t st = .ok st1) :
    kept_run t chain q st [true] st1 ∧ ∃ b, stream_read t st.pages chain q = some b := by
  have hpp : st.page_p = (cursor t chain q).1 := congrArg Prod.fst hat.2.2
  have hoo : st.offset = (cursor t chain q).2 := congrArg Prod.snd hat.2.2
  unfold copy_byte at h
  cases hr : page_read st.pages st.page_p st.offset with
  | error e => rw [hr] at h; cases h
  | ok b =>
    rw [hr] at h
    dsimp only at h
    rw [hpp, hoo] at hr
    have hb := (page_read_ok_iff t st.pages chain q b).mp hr
    have := kept_run_step hat hn (st.dst ++ [b]) (u8 (st.real_offset + 1)) true
      (by simp) (fun hps hle => u8_succ_of_le hle (Nat.mod_lt _ hn) hps) h
    exact ⟨this.1, b, hb⟩

theorem kept_skip {t : cbc_tables} {chain : List Nat} {q : Nat}
    {st st1 : copy_state} (hat : copy_at t chain q st)
    (hn : 0 < t.PARSER_CBC_STREAM_PAGE_SIZE)
    (h : PARSER_NEXT_BYTE_UPDATE t st = .ok st1) :
    kept_run t chain q st [false] st1 :=
  (kept_run_step hat hn st.dst st.real_offset false rfl (fun _ _ => rfl) h).1

theorem kept_skip_bytes {t : cbc_tables} {chain : List Nat}
    (hn : 0 < t.PARSER_CBC_STREAM_PAGE_SIZE) (n : Nat) :
    ∀ (q : Nat) (st st1 : copy_state), copy_at t chain q st →
      skip_bytes t n st = .ok st1 →
      kept_run t chain q st (List.replicate n false) st1 := by
  induction n with
  | zero =>
    intro q st st1 hat h
    unfold skip_bytes at h
    cases h
    exact kept_run_nil hat
  | succ n ih =>
    intro q st st1 hat h
    unfold skip_bytes at h
    cases hs : PARSER_NEXT_BYTE_UPDATE t st with
    | error e => rw [hs] at h; cases h
    | ok st2 =>
      rw [hs] at h
      dsimp only at h
      have r1 := kept_skip hat hn hs
      have r2 := ih (q + 1) st2 st1 r1.1 h
      exact kept_run_trans hn r1 r2

theorem kept_copy_literal {t : cbc_tables} {chain : List Nat} {q limit : Nat}
    {st st1 : copy_state} (hat : copy_at t chain q st)
    (hn : 0 < t.PARSER_CBC_STREAM_PAGE_SIZE)
    (h : copy_literal t limit st = .ok st1) :
    ∃ kept, kept_run t chain q st kept st1 ∧ kept.length = 2
      ∧ ∀ read1, agree_on read1 (stream_read t st.pages chain) q kept.length →
          retained_literal limit read1 q = some kept := by
  have hpp : st.page_p = (cursor t chain q).1 := congrArg Prod.fst hat.2.2
  have hoo : st.offset = (cursor t chain q).2 := congrArg Prod.snd hat.2.2
  unfold copy_literal at h
  cases hr : page_read st.pages st.page_p st.offset with
  | error e => rw [hr] at h; cases h
  | ok first_byte =>
    rw [hr] at h
    dsimp only at h
    rw [hpp, hoo] at hr
    have hb := (page_read_ok_iff t st.pages chain q first_byte).mp hr
    cases hc : copy_byte t st with
    | error e => rw [hc] at h; cases h
    | ok st2 =>
      rw [hc] at h
      dsimp only at h
      obtain ⟨r1, _⟩ := kept_copy_byte hat hn hc
      have key : kept_run t chain (q + 1) st2 [decide (first_byte > limit)] st1 := by
        split_ifs at h with hf
        · rw [decide_eq_true hf]
          exact (kept_copy_byte r1.1 hn h).1
        · rw [decide_eq_false hf]
          exact kept_skip r1.1 hn h
      refine ⟨[true, decide (first_byte > limit)], kept_run_trans hn r1 key, rfl, ?_⟩
      intro read1 hag
      unfold retained_literal
      rw [hag q (le_refl _) (by simp), hb]

theorem kept_copy_literals {t : cbc_tables} {chain : List Nat} {limit : Nat}
    (hn : 0 < t.PARSER_CBC_STREAM_PAGE_SIZE) (fuel : Nat) :
    ∀ (flags flags1 : cbc_flags_t) (q : Nat) (st st1 : copy_state), copy_at t chain q st →
      copy_literals t limit fuel flags st = .ok (flags1, st1) →
      ∃ kept, kept_run t chain q st kept st1
        ∧ ∀ read1, agree_on read1 (stream_read t st.pages chain) q kept.length →
            retained_literals limit read1 fuel flags q = some (flags1, kept) := by
  induction fuel with
  | zero =>
    intro flags flags1 q st st1 hat h
    unfold copy_literals at h
    split_ifs at h with hf
    cases h
    refine ⟨[], kept_run_nil hat, ?_⟩
    intro read1 _
    unfold retained_literals
    rw [if_neg hf]
  | succ fuel ih =>
    intro flags flags1 q st st1 hat h
    unfold copy_literals at h
    split_ifs at h with hf
    · cases hl : copy_literal t limit st with
      | error e => rw [hl] at h; cases h
      | ok st2 =>
        rw [hl] at h
        dsimp only at h
        obtain ⟨kept, r1, hlen, hd1⟩ := kept_copy_literal hat hn hl
        cases hnf : next_literal_flags flags with
        | none =>
          rw [hnf] at h
          dsimp only at h
          cases h
          refine ⟨kept, r1, ?_⟩
          intro read1 hag
          unfold retained_literals
          rw [if_pos hf, hd1 read1 hag]
          dsimp only
          rw [hnf]
        | some flags2 =>
          rw [hnf] at h
          dsimp only at h
          obtain ⟨kept1, r2, hd2⟩ := ih flags2 flags1 (q + kept.length) st2 st1 r1.1 h
          refine ⟨kept ++ kept1, kept_run_trans hn r1 r2, ?_⟩
          intro read1 hag
          rw [List.length_append] at hag
          obtain ⟨hag1, hag3⟩ := agree_on_split hag
          have hag2 : agree_on read1 (stream_read t st2.pages chain) (q + kept.length)
              kept1.length := by
            intro r h1 h2
            rw [hag3 r h1 h2, r1.2.2.1 r (Or.inr h1)]
          unfold retained_literals
          rw [if_pos hf, hd1 read1 hag1]
          dsimp only
          rw [hnf]
          dsimp only
          rw [hd2 read1 hag2]
    · cases h
      refine ⟨[], kept_run_nil hat, ?_⟩
      intro read1 _
      unfold retained_literals
      rw [if_neg hf]

theorem decrement_opcode_length {dst dst1 : List Nat} {opcode_p : Nat}
    (h : decrement_opcode dst opcode_p = .ok dst1) : dst1.length = dst.length := by
  unfold decrement_opcode at h
  cases hg : dst[opcode_p]? with
  | none => rw [hg] at h; cases h
  | some opcode =>
    rw [hg] at h
    dsimp only at h
    simp only [Except.ok.injEq] at h
    rw [← h, List.length_set]

theorem kept_copy_branch_bytes {t : cbc_tables} {chain : List Nat}
    (hn : 0 < t.PARSER_CBC_STREAM_PAGE_SIZE) (opcode_p : Nat) (count : Nat) :
    ∀ (prefix_zero : Bool) (q : Nat) (st st1 : copy_state), copy_at t chain q st →
      copy_branch_bytes t opcode_p count prefix_zero st = .ok st1 →
      ∃ kept, kept_run t chain q st kept st1 ∧ kept.length = count
        ∧ ∀ read1, agree_on read1 (stream_read t st.pages chain) q kept.length →
            retained_branch_bytes read1 count prefix_zero q = some kept := by
  induction count with
  | zero =>
    intro prefix_zero q st st1 hat h
    unfold copy_branch_bytes at h
    cases h
    exact ⟨[], kept_run_nil hat, rfl, fun _ _ => rfl⟩
  | succ count ih =>
    intro prefix_zero q st st1 hat h
    have hpp : st.page_p = (cursor t chain q).1 := congrArg Prod.fst hat.2.2
    have hoo : st.offset = (cursor t chain q).2 := congrArg Prod.snd hat.2.2
    unfold copy_branch_bytes at h
    cases hr : page_read st.pages st.page_p st.offset with
    | error e => rw [hr] at h; cases h
    | ok b =>
      rw [hr] at h
      dsimp only at h
      rw [hpp, hoo] at hr
      have hb := (page_read_ok_iff t st.pages chain q b).mp hr
      by_cases hcond : b > 0 ∨ prefix_zero = false
      · rw [if_pos hcond] at h
        cases hs : PARSER_NEXT_BYTE_UPDATE t
            { st with dst := st.dst ++ [b], real_offset := u8 (st.real_offset + 1) } with
        | error e => rw [hs] at h; cases h
        | ok st2 =>
          rw [hs] at h
          dsimp only at h
          obtain ⟨r1, _, _⟩ := kept_run_step hat hn (st.dst ++ [b])
            (u8 (st.real_offset + 1)) true (by simp)
            (fun hps hle => u8_succ_of_le hle (Nat.mod_lt _ hn) hps) hs
          obtain ⟨kept, r2, hlen, hd⟩ := ih false (q + 1) st2 st1 r1.1 h
          refine ⟨true :: kept, kept_run_trans hn r1 r2, by rw [List.length_cons, hlen], ?_⟩
          intro read1 hag
          have hag2 : agree_on read1 (stream_read t st2.pages chain) (q + 1)
              kept.length := by
            intro r h1 h2
            rw [hag r (by omega) (by rw [List.length_cons]; omega),
              r1.2.2.1 r (Or.inr (by simpa using h1))]
          unfold retained_branch_bytes
          rw [hag q (le_refl _) (by simp), hb]
          dsimp only
          rw [if_pos hcond, hd read1 hag2]
      · rw [if_neg hcond] at h
        cases hdec : decrement_opcode st.dst opcode_p with
        | error e => rw [hdec] at h; cases h
        | ok dst1 =>
          rw [hdec] at h
          dsimp only at h
          cases hs : PARSER_NEXT_BYTE_UPDATE t { st with dst := dst1 } with
          | error e => rw [hs] at h; cases h
          | ok st2 =>
            rw [hs] at h
            dsimp only at h
            obtain ⟨r1, _, _⟩ := kept_run_step hat hn dst1 st.real_offset false
              (by rw [decrement_opcode_length hdec]; rfl) (fun _ _ => rfl) hs
            obtain ⟨kept, r2, hlen, hd⟩ := ih prefix_zero (q + 1) st2 st1 r1.1 h
            refine ⟨false :: kept, kept_run_trans hn r1 r2,
              by rw [List.length_cons, hlen], ?_⟩
            intro read1 hag
            have hag2 : agree_on read1 (stream_read t st2.pages chain) (q + 1)
                kept.length := by
              intro r h1 h2
              rw [hag r (by omega) (by rw [List.length_cons]; omega),
                r1.2.2.1 r (Or.inr (by simpa using h1))]
            unfold retained_branch_bytes
            rw [hag q (le_refl _) (by simp), hb]
            dsimp only
            rw [if_neg hcond, hd read1 hag2]


/-- The loop condition holds only before the end of the stream. -/
theorem loop_cond_lt_size {t : cbc_tables} {byte_code : parser_mem_data_t}
    {chain : List Nat} (hs : stream_ok t byte_code chain) {q : Nat}
    (hq : q < chain.length * t.PARSER_CBC_STREAM_PAGE_SIZE)
    (hc : (cursor t chain q).1 ≠ (stream_end t byte_code).1
      ∨ (cursor t chain q).2 < (stream_end t byte_code).2) :
    q < stream_size t byte_code chain := by
  by_contra hge
  obtain ⟨hn, hp, _, _, hlast, hle, hempty⟩ := hs
  unfold stream_size at hge
  unfold stream_end cursor at hc
  by_cases hfull : byte_code.last_position ≥ t.PARSER_CBC_STREAM_PAGE_SIZE
  · omega
  · rw [if_neg hfull] at hc
    dsimp only at hc
    have hne : chain ≠ [] := fun e => hfull (by rw [hempty e])
    have hlen : 0 < chain.length := List.length_pos.mpr hne
    have h4 : chain.length * t.PARSER_CBC_STREAM_PAGE_SIZE
        = (chain.length - 1) * t.PARSER_CBC_STREAM_PAGE_SIZE
          + t.PARSER_CBC_STREAM_PAGE_SIZE := by
      rw [Nat.sub_mul, Nat.one_mul, Nat.sub_add_cancel]
      exact Nat.le_mul_of_pos_left _ hlen
    have hdiv : q / t.PARSER_CBC_STREAM_PAGE_SIZE = chain.length - 1 := by
      apply Nat.div_eq_of_lt_le
      · omega
      · rw [Nat.succ_mul]
        omega
    have hdm := Nat.div_add_mod q t.PARSER_CBC_STREAM_PAGE_SIZE
    rw [hdiv, Nat.mul_comm] at hdm
    rw [hdiv, hlast, List.getLast?_eq_getElem?] at hc
    rcases hc with hc | hc
    · exact hc rfl
    · omega

theorem kept_copy_arguments {t : cbc_tables} {chain : List Nat} {limit q : Nat}
    {flags : cbc_flags_t} {branch_offset_length opcode_p : Nat} {st st1 : copy_state}
    (hn : 0 < t.PARSER_CBC_STREAM_PAGE_SIZE) (hat : copy_at t chain q st)
    (h : copy_arguments t limit flags branch_offset_length opcode_p st = .ok st1) :
    ∃ kept, kept_run t chain q st kept st1
      ∧ ∀ read1, agree_on read1 (stream_read t st.pages chain) q kept.length →
          retained_arguments limit flags branch_offset_length read1 q = some kept := by
  unfold copy_arguments at h
  cases hl : copy_literals t limit 3 flags st with
  | error e => rw [hl] at h; cases h
  | ok res =>
    obtain ⟨flags1, st4⟩ := res
    rw [hl] at h
    dsimp only at h
    obtain ⟨kept1, r1, hd1⟩ := kept_copy_literals hn 3 flags flags1 q st st4 hat hl
    cases hb : (if flags1.has_byte_arg then copy_byte t st4
        else .ok st4 : Except Fault copy_state) with
    | error e => rw [hb] at h; cases h
    | ok st5 =>
      rw [hb] at h
      dsimp only at h
      have r2 : kept_run t chain (q + kept1.length) st4
          (if flags1.has_byte_arg then [true] else []) st5 := by
        split_ifs at hb with hf
        · rw [if_pos hf]
          exact (kept_copy_byte r1.1 hn hb).1
        · rw [if_neg hf]
          simp only [Except.ok.injEq] at hb
          rw [← hb]
          exact kept_run_nil r1.1
      have r12 := kept_run_trans hn r1 r2
      by_cases hbr : flags1.has_branch_arg = true
      · rw [if_pos hbr] at h
        by_cases hbol : 0 < branch_offset_length ∧ branch_offset_length ≤ 3
        · rw [if_pos hbol] at h
          cases hbb : copy_branch_bytes t opcode_p (branch_offset_length - 1) true st5 with
          | error e => rw [hbb] at h; cases h
          | ok st6 =>
            rw [hbb] at h
            dsimp only at h
            obtain ⟨kept3, r3, _, hd3⟩ := kept_copy_branch_bytes hn opcode_p
              (branch_offset_length - 1) true _ st5 st6 r12.1 hbb
            obtain ⟨r4, _⟩ := kept_copy_byte r3.1 hn h
            have r34 := kept_run_trans hn r3 r4
            refine ⟨_, kept_run_trans hn r12 r34, ?_⟩
            intro read1 hag
            have hag1 : agree_on read1 (stream_read t st.pages chain) q kept1.length := by
              intro r h1 h2
              exact hag r h1 (by simp only [List.length_append]; omega)
            have hag3b : agree_on read1 (stream_read t st5.pages chain)
                (q + (kept1 ++ if flags1.has_byte_arg then [true] else []).length)
                kept3.length := by
              intro r h1 h2
              rw [hag r (by omega) (by simp only [List.length_append] at h2 ⊢; omega)]
              exact (r12.2.2.1 r (Or.inr h1)).symm
            unfold retained_arguments
            rw [hd1 read1 hag1]
            dsimp only
            rw [if_pos hbr, if_pos hbol, hd3 read1 hag3b]
        · rw [if_neg hbol] at h
          cases h
      · rw [if_neg hbr] at h
        simp only [Except.ok.injEq] at h
        rw [← h]
        refine ⟨_, r12, ?_⟩
        intro read1 hag
        rw [List.length_append] at hag
        obtain ⟨hag1, _⟩ := agree_on_split hag
        unfold retained_arguments
        rw [hd1 read1 hag1]
        dsimp only
        rw [if_neg hbr]

theorem kept_copy_opcode {t : cbc_tables} {chain : List Nat} {q opcode : Nat}
    {flags : cbc_flags_t} {branch_offset_length opcode_p : Nat} {st st2 : copy_state}
    (hn : 0 < t.PARSER_CBC_STREAM_PAGE_SIZE) (hat : copy_at t chain q st)
    (h : copy_opcode t opcode st = .ok (flags, branch_offset_length, opcode_p, st2)) :
    (opcode ≠ t.CBC_EXT_OPCODE ∧ kept_run t chain q st [true] st2
        ∧ flags = t.cbc_flags opcode
        ∧ branch_offset_length = t.CBC_BRANCH_OFFSET_LENGTH opcode)
      ∨ (opcode = t.CBC_EXT_OPCODE
        ∧ ∃ ext_opcode, stream_read t st.pages chain (q + 1) = some ext_opcode
          ∧ kept_run t chain q st [true, true] st2
          ∧ flags = t.cbc_ext_flags ext_opcode
          ∧ branch_offset_length = t.CBC_BRANCH_OFFSET_LENGTH ext_opcode) := by
  unfold copy_opcode at h
  dsimp only at h
  cases hc : copy_byte t st with
  | error e => rw [hc] at h; cases h
  | ok st1 =>
    rw [hc] at h
    dsimp only at h
    obtain ⟨r1, _⟩ := kept_copy_byte hat hn hc
    by_cases hext : opcode = t.CBC_EXT_OPCODE
    · rw [if_pos hext] at h
      have hpp : st1.page_p = (cursor t chain (q + 1)).1 := congrArg Prod.fst r1.1.2.2
      have hoo : st1.offset = (cursor t chain (q + 1)).2 := congrArg Prod.snd r1.1.2.2
      cases hr : page_read st1.pages st1.page_p st1.offset with
      | error e => rw [hr] at h; cases h
      | ok ext_opcode =>
        rw [hr] at h
        dsimp only at h
        rw [hpp, hoo] at hr
        have hb := (page_read_ok_iff t st1.pages chain (q + 1) ext_opcode).mp hr
        rw [r1.2.2.1 (q + 1) (Or.inr (le_refl _))] at hb
        cases hc2 : copy_byte t st1 with
        | error e => rw [hc2] at h; cases h
        | ok st3 =>
          rw [hc2] at h
          dsimp only at h
          simp only [Except.ok.injEq, Prod.mk.injEq] at h
          obtain ⟨h1, h2, _, h4⟩ := h
          obtain ⟨r2, _⟩ := kept_copy_byte r1.1 hn hc2
          rw [h4] at r2
          exact Or.inr ⟨hext, ext_opcode, hb, kept_run_trans hn r1 r2, h1.symm, h2.symm⟩
    · rw [if_neg hext] at h
      simp only [Except.ok.injEq, Prod.mk.injEq] at h
      obtain ⟨h1, h2, _, h4⟩ := h
      rw [h4] at r1
      exact Or.inl ⟨hext, r1, h1.symm, h2.symm⟩


theorem kept_copy_instruction {t : cbc_tables} {chain : List Nat} {limit q : Nat}
    {st st1 : copy_state} (hn : 0 < t.PARSER_CBC_STREAM_PAGE_SIZE)
    (hat : copy_at t chain q st) (h : copy_instruction t limit st = .ok st1) :
    ∃ kept, kept_run t chain q st kept st1 ∧ 0 < kept.length
      ∧ q < chain.length * t.PARSER_CBC_STREAM_PAGE_SIZE
      ∧ ∀ read1, agree_on read1 (stream_read t st.pages chain) q kept.length →
          retained_instruction t limit read1 q = some kept := by
  have hpp : st.page_p = (cursor t chain q).1 := congrArg Prod.fst hat.2.2
  have hoo : st.offset = (cursor t chain q).2 := congrArg Prod.snd hat.2.2
  unfold copy_instruction at h
  dsimp only at h
  cases hr : page_read st.pages st.page_p st.offset with
  | error e => rw [hr] at h; cases h
  | ok opcode =>
    rw [hr] at h
    dsimp only at h
    rw [hpp, hoo] at hr
    have hb := (page_read_ok_iff t st.pages chain q opcode).mp hr
    have hq := stream_read_lt hn hb
    by_cases hjf : opcode = t.CBC_JUMP_FORWARD
    · rw [if_pos hjf] at h
      have r := kept_skip_bytes hn _ q st st1 hat h
      refine ⟨_, r, by rw [List.length_replicate]; split_ifs <;> omega, hq, ?_⟩
      intro read1 hag
      unfold retained_instruction
      rw [hag q (le_refl _) (by rw [List.length_replicate]; split_ifs <;> omega), hb]
      dsimp only
      rw [if_pos hjf]
    · rw [if_neg hjf] at h
      cases hc : copy_opcode t opcode st with
      | error e => rw [hc] at h; cases h
      | ok res =>
        obtain ⟨flags, branch_offset_length, opcode_p, st2⟩ := res
        rw [hc] at h
        dsimp only at h
        have tail : ∀ kop, kept_run t chain q st kop st2 → 0 < kop.length →
            ∃ ka, kept_run t chain q st (kop ++ ka) st1
              ∧ ∀ read1, agree_on read1 (stream_read t st.pages chain) q
                  (kop ++ ka).length →
                retained_arguments limit flags branch_offset_length read1
                  (q + kop.length) = some ka := by
          intro kop r1 hpos
          have fin : ∀ st3, kept_run t chain q st kop st3 →
              copy_arguments t limit flags branch_offset_length opcode_p st3 = .ok st1 →
              ∃ ka, kept_run t chain q st (kop ++ ka) st1
                ∧ ∀ read1, agree_on read1 (stream_read t st.pages chain) q
                    (kop ++ ka).length →
                  retained_arguments limit flags branch_offset_length read1
                    (q + kop.length) = some ka := by
            intro st3 r3 h3
            obtain ⟨ka, r4, hd4⟩ := kept_copy_arguments hn r3.1 h3
            refine ⟨ka, kept_run_trans hn r3 r4, ?_⟩
            intro read1 hag
            rw [List.length_append] at hag
            apply hd4 read1
            intro r h1 h2
            rw [(agree_on_split hag).2 r h1 h2]
            exact (r3.2.2.1 r (Or.inr h1)).symm
          by_cases hbr : flags.has_branch_arg = true
          · rw [if_pos hbr] at h
            rw [hpp, hoo] at h
            cases hsm : set_branch_mark st2.pages (cursor t chain q).1
                (cursor t chain q).2 with
            | error e => rw [hsm] at h; cases h
            | ok pages1 =>
              rw [hsm] at h
              dsimp only at h
              split_ifs at h
              exact fin _ (kept_run_mark hn r1 (le_refl _) (by omega) hsm) h
          · rw [if_neg hbr] at h
            dsimp only at h
            split_ifs at h
            exact fin _ r1 h
        rcases kept_copy_opcode hn hat hc with ⟨hext, r1, hfl, hbol⟩
          | ⟨hext, ext_opcode, hb2, r1, hfl, hbol⟩
        · obtain ⟨ka, r, hd⟩ := tail [true] r1 (by simp)
          refine ⟨_, r, by simp, hq, ?_⟩
          intro read1 hag
          have hd1 := hd read1 hag
          unfold retained_instruction
          rw [hag q (le_refl _) (by simp), hb]
          dsimp only
          rw [if_neg hjf, if_neg hext, ← hfl, ← hbol]
          simp only [List.length_singleton] at hd1
          rw [hd1]
          rfl
        · obtain ⟨ka, r, hd⟩ := tail [true, true] r1 (by simp)
          refine ⟨_, r, by simp, hq, ?_⟩
          intro read1 hag
          have hd1 := hd read1 hag
          unfold retained_instruction
          rw [hag q (le_refl _) (by simp), hb]
          dsimp only
          rw [if_neg hjf, if_pos hext, hag (q + 1) (by omega) (by simp), hb2]
          dsimp only
          rw [← hfl, ← hbol]
          simp only [List.length_cons, List.length_singleton, List.length_nil] at hd1
          rw [hd1]
          rfl

/-- The second loop of `parser_post_processing` retains the bytes that `retained_stream`
gives for the stream it starts on. -/
theorem kept_copy_loop {t : cbc_tables} {byte_code : parser_mem_data_t} {chain : List Nat}
    {limit : Nat} (hs : stream_ok t byte_code chain) (fuel : Nat) :
    ∀ (q : Nat) (st copied : copy_state), copy_at t chain q st →
      copy_loop t limit (stream_end t byte_code) fuel st = .ok copied →
      ∃ kept, kept_run t chain q st kept copied
        ∧ stream_size t byte_code chain ≤ q + kept.length
        ∧ ∀ read1, agree_on read1 (stream_read t st.pages chain) q kept.length →
            retained_stream t limit read1 (stream_size t byte_code chain) fuel q
              = some kept := by
  have hn : 0 < t.PARSER_CBC_STREAM_PAGE_SIZE := hs.1
  have stop : ∀ (q : Nat) (st : copy_state), copy_at t chain q st →
      ¬ (st.page_p ≠ (stream_end t byte_code).1 ∨ st.offset < (stream_end t byte_code).2) →
      stream_size t byte_code chain ≤ q := by
    intro q st hat hc
    have hpp : st.page_p = (cursor t chain q).1 := congrArg Prod.fst hat.2.2
    have hoo : st.offset = (cursor t chain q).2 := congrArg Prod.snd hat.2.2
    rw [hpp, hoo] at hc
    by_contra hlt
    exact hc ((loop_cond_iff hs (by omega)).mpr (by omega))
  induction fuel with
  | zero =>
    intro q st copied hat h
    unfold copy_loop at h
    split_ifs at h with hc
    cases h
    have hge := stop q st hat hc
    refine ⟨[], kept_run_nil hat, hge, ?_⟩
    intro read1 _
    unfold retained_stream
    rw [if_neg (by omega)]
  | succ fuel ih =>
    intro q st copied hat h
    unfold copy_loop at h
    split_ifs at h with hc
    · cases hi : copy_instruction t limit st with
      | error e => rw [hi] at h; cases h
      | ok st2 =>
        rw [hi] at h
        dsimp only at h
        obtain ⟨kept1, r1, hpos, hq, hd1⟩ := kept_copy_instruction hn hat hi
        have hpp : st.page_p = (cursor t chain q).1 := congrArg Prod.fst hat.2.2
        have hoo : st.offset = (cursor t chain q).2 := congrArg Prod.snd hat.2.2
        rw [hpp, hoo] at hc
        have hlt := loop_cond_lt_size hs hq hc
        obtain ⟨kept2, r2, hge, hd2⟩ := ih (q + kept1.length) st2 copied r1.1 h
        refine ⟨kept1 ++ kept2, kept_run_trans hn r1 r2,
          by rw [List.length_append]; omega, ?_⟩
        intro read1 hag
        rw [List.length_append] at hag
        obtain ⟨hag1, hag3⟩ := agree_on_split hag
        have hag2 : agree_on read1 (stream_read t st2.pages chain) (q + kept1.length)
            kept2.length := by
          intro r h1 h2
          rw [hag3 r h1 h2, r1.2.2.1 r (Or.inr h1)]
        unfold retained_stream
        rw [if_pos hlt, hd1 read1 hag1]
        dsimp only
        rw [hd2 read1 hag2]
    · cases h
      have hge := stop q st hat hc
      refine ⟨[], kept_run_nil hat, hge, ?_⟩
      intro read1 _
      unfold retained_stream
      rw [if_neg (by omega)]


theorem add_mod_cases (n a m : Nat) (ha : a < n) (hm : m < n) :
    (a + m < n ∧ (a + m) % n = a + m) ∨ (n ≤ a + m ∧ (a + m) % n = a + m - n) := by
  by_cases h : a + m < n
  · exact Or.inl ⟨h, Nat.mod_eq_of_lt h⟩
  · refine Or.inr ⟨by omega, ?_⟩
    rw [Nat.mod_eq_sub_mod (by omega)]
    exact Nat.mod_eq_of_lt (by omega)

theorem retained_count_cons (k : Bool) (kept : List Bool) :
    retained_count (k :: kept) = k.toNat + retained_count kept := by
  unfold retained_count
  cases k <;> simp [Nat.add_comm]

/-- The counter of a cell is the number of retained bytes from the start of its page (or
from the start of the run, on top of the counter the run started with) up to the cell. -/
theorem cell_counters_get (page_size : Nat) (hn : 0 < page_size) (kept : List Bool) :
    ∀ (q counter j : Nat), counter ≤ q % page_size → j < kept.length →
      (cell_counters page_size q counter kept)[j]?
        = some ((if (q + j) % page_size ≤ j then 0 else counter)
            + retained_count ((kept.take (j + 1)).drop (j - (q + j) % page_size))) := by
  induction kept with
  | nil => intro q counter j _ hj; cases hj
  | cons k kept ih =>
    intro q counter j hc hj
    have hk : k.toNat ≤ 1 := by cases k <;> simp
    have hsd := succ_div_mod page_size q hn
    have hqm := Nat.mod_lt q hn
    rw [cell_counters]
    cases j with
    | zero =>
      simp only [List.getElem?_cons_zero, Nat.add_zero, Nat.le_zero_eq, Nat.zero_sub,
        List.take_succ_cons, List.take_zero, List.drop_zero, Option.some.injEq]
      rw [retained_count_cons]
      simp only [retained_count, List.count_nil, Nat.add_zero]
      split
      · omega
      · rfl
    | succ j =>
      rw [List.length_cons] at hj
      have hc1 : (if (q + 1) % page_size = 0 then 0 else counter + k.toNat)
          ≤ (q + 1) % page_size := by
        split
        · omega
        · rename_i hz
          by_cases hlast : q % page_size + 1 < page_size
          · have := (hsd.1 hlast).2
            omega
          · exact absurd (hsd.2 hlast).2 hz
      have e : q + (j + 1) = q + 1 + j := by omega
      rw [List.getElem?_cons_succ, ih (q + 1) _ j hc1 (by omega), e, List.take_succ_cons]
      generalize hs : (q + 1 + j) % page_size = s
      have hsl : s < page_size := by rw [← hs]; exact Nat.mod_lt _ hn
      rcases Nat.lt_or_ge j s with hjs | hjs
      · rw [if_neg (show ¬ s ≤ j by omega)]
        have e0 : j - s = 0 := by omega
        rw [e0, List.drop_zero]
        rcases Nat.lt_or_ge (j + 1) s with hjs1 | hjs1
        · rw [if_neg (show ¬ s ≤ j + 1 by omega)]
          have e1 : j + 1 - s = 0 := by omega
          rw [e1, List.drop_zero, retained_count_cons]
          have hnz : (q + 1) % page_size ≠ 0 := by
            intro hz
            have : (q + 1 + j) % page_size = j % page_size := by
              rw [Nat.add_mod, hz, Nat.zero_add, Nat.mod_mod]
            have := Nat.mod_le j page_size
            omega
          rw [if_neg hnz]
          simp only [Option.some.injEq]
          omega
        · have hsj : s = j + 1 := by omega
          rw [if_pos (show s ≤ j + 1 by omega)]
          have e1 : j + 1 - s = 0 := by omega
          rw [e1, List.drop_zero, retained_count_cons]
          have hq0 : q % page_size = 0 := by
            have h1 : (q + 1 + j) % page_size = (q % page_size + (j + 1)) % page_size := by
              rw [show q + 1 + j = q + (j + 1) by omega, Nat.add_mod,
                Nat.mod_eq_of_lt (by omega : j + 1 < page_size)]
            rcases add_mod_cases page_size (q % page_size) (j + 1) hqm (by omega)
              with ⟨_, h2⟩ | ⟨_, h2⟩
            · omega
            · omega
          have hnz : (q + 1) % page_size ≠ 0 := by
            by_cases hlast : q % page_size + 1 < page_size
            · have := (hsd.1 hlast).2
              omega
            · omega
          rw [if_neg hnz]
          simp only [Option.some.injEq]
          omega
      · rw [if_pos hjs, if_pos (show s ≤ j + 1 by omega)]
        have e1 : j + 1 - s = (j - s) + 1 := by omega
        rw [e1, List.drop_succ_cons]


/-- C30: after the second loop of `parser_post_processing` (the copy pass) over a stream
with pages of at most 127 bytes, the low seven bits of every cell the loop went through
are the number of the bytes of the cell's page, from the start of the page up to and
including the cell, that were copied into the final code; `kept` says for every position
whether its byte was copied, as `retained_stream` specifies it, and the final code grew by
the number of the copied bytes. The counter starts from zero on every page, so the last
cell of a full page holds the number of the copied bytes of the page. -/
theorem C30_page_counters (t : cbc_tables) (byte_code : parser_mem_data_t)
    (chain : List Nat) (pages : List parser_mem_page_t) (dst0 : List Nat)
    (limit fuel : Nat) (copied : copy_state)
    (hs : stream_ok t byte_code chain)
    (hsize : t.PARSER_CBC_STREAM_PAGE_SIZE ≤ 127)
    (hp : pages_ok t pages chain) (hl : linked pages chain 0)
    (h : copy_loop t limit (stream_end t byte_code) fuel
      { pages := pages, page_p := byte_code.first_p, offset := 0, real_offset := 0,
        dst := dst0 } = .ok copied) :
    ∃ kept, retained_stream t limit (stream_read t pages chain)
          (stream_size t byte_code chain) fuel 0 = some kept
      ∧ stream_size t byte_code chain ≤ kept.length
      ∧ copied.dst.length = dst0.length + retained_count kept
      ∧ (∀ p, p < kept.length →
          ∃ c, stream_read t copied.pages chain p = some c
            ∧ c &&& CBC_LOWER_SEVEN_BIT_MASK
              = retained_count
                  ((kept.take (p + 1)).drop (p - p % t.PARSER_CBC_STREAM_PAGE_SIZE)))
      ∧ (∀ i, (i + 1) * t.PARSER_CBC_STREAM_PAGE_SIZE ≤ kept.length →
          page_total t copied.pages chain i
            = retained_count
                ((kept.take ((i + 1) * t.PARSER_CBC_STREAM_PAGE_SIZE)).drop
                  (i * t.PARSER_CBC_STREAM_PAGE_SIZE))) := by
  have hn : 0 < t.PARSER_CBC_STREAM_PAGE_SIZE := hs.1
  have hat : copy_at t chain 0
      { pages := pages, page_p := byte_code.first_p, offset := 0, real_offset := 0,
        dst := dst0 } := by
    refine ⟨hp, hl, ?_⟩
    unfold cursor
    rw [Nat.zero_div, Nat.zero_mod, hs.2.2.2.1]
    cases chain <;> simp
  obtain ⟨kept, r, hge, hd⟩ := kept_copy_loop hs fuel 0 _ copied hat h
  obtain ⟨r1, r2, r3, r4⟩ := r
  obtain ⟨c1, c2⟩ := r4 hsize (Nat.zero_le _)
  have cells : ∀ p, p < kept.length →
      ∃ c, stream_read t copied.pages chain p = some c
        ∧ c &&& CBC_LOWER_SEVEN_BIT_MASK
          = retained_count
              ((kept.take (p + 1)).drop (p - p % t.PARSER_CBC_STREAM_PAGE_SIZE)) := by
    intro p hp1
    obtain ⟨c, hc, hcv⟩ := c2 p hp1
    rw [Nat.zero_add] at hc
    refine ⟨c, hc, ?_⟩
    rw [cell_counters_get _ hn kept 0 0 p (Nat.zero_le _) hp1] at hcv
    simp only [Nat.zero_add, ite_self, Option.some.injEq] at hcv
    exact hcv
  refine ⟨kept, hd _ (fun _ _ _ => rfl), by omega, r2, cells, ?_⟩
  intro i hi
  have e1 : (i + 1) * t.PARSER_CBC_STREAM_PAGE_SIZE
      = i * t.PARSER_CBC_STREAM_PAGE_SIZE + (t.PARSER_CBC_STREAM_PAGE_SIZE - 1) + 1 := by
    rw [Nat.succ_mul]; omega
  obtain ⟨c, hc, hcv⟩ := cells
    (i * t.PARSER_CBC_STREAM_PAGE_SIZE + (t.PARSER_CBC_STREAM_PAGE_SIZE - 1)) (by omega)
  have hmod : (i * t.PARSER_CBC_STREAM_PAGE_SIZE + (t.PARSER_CBC_STREAM_PAGE_SIZE - 1))
      % t.PARSER_CBC_STREAM_PAGE_SIZE = t.PARSER_CBC_STREAM_PAGE_SIZE - 1 := by
    rw [Nat.add_comm, Nat.add_mul_mod_self_right]
    exact Nat.mod_eq_of_lt (by omega)
  rw [hmod, Nat.add_sub_cancel, ← e1] at hcv
  unfold page_total
  rw [hc]
  exact hcv

/-- C30 at a concrete stream: the copy pass over the two pages of `branch_example`. -/
theorem C30_page_counters_witness :
    ∃ copied kept,
      copy_loop example_tables 254 (stream_end example_tables branch_example.byte_code) 17
          { pages := branch_example.byte_code.pages,
            page_p := branch_example.byte_code.first_p, offset := 0, real_offset := 0,
            dst := [] } = .ok copied
      ∧ retained_stream example_tables 254
          (stream_read example_tables branch_example.byte_code.pages [0, 1])
          (stream_size example_tables branch_example.byte_code [0, 1]) 17 0 = some kept
      ∧ stream_size example_tables branch_example.byte_code [0, 1] ≤ kept.length
      ∧ copied.dst.length = ([] : List Nat).length + retained_count kept
      ∧ (∀ p, p < kept.length →
          ∃ c, stream_read example_tables copied.pages [0, 1] p = some c
            ∧ c &&& CBC_LOWER_SEVEN_BIT_MASK
              = retained_count
                  ((kept.take (p + 1)).drop
                    (p - p % example_tables.PARSER_CBC_STREAM_PAGE_SIZE)))
      ∧ (∀ i, (i + 1) * example_tables.PARSER_CBC_STREAM_PAGE_SIZE ≤ kept.length →
          page_total example_tables copied.pages [0, 1] i
            = retained_count
                ((kept.take ((i + 1) * example_tables.PARSER_CBC_STREAM_PAGE_SIZE)).drop
                  (i * example_tables.PARSER_CBC_STREAM_PAGE_SIZE)))
      ∧ kept = [true, false, true, true, true, true, true, true, true, true, true, true]
      ∧ copied.pages.map (fun page => page.bytes)
        = [[129, 1, 2, 3, 4, 5, 6, 7], [129, 2, 3, 4, 0, 0, 0, 0]] := by
  have hok : (copy_loop example_tables 254
      (stream_end example_tables branch_example.byte_code) 17
      { pages := branch_example.byte_code.pages,
        page_p := branch_example.byte_code.first_p, offset := 0, real_offset := 0,
        dst := [] }).toBool = true := by decide
  cases hp : copy_loop example_tables 254
      (stream_end example_tables branch_example.byte_code) 17
      { pages := branch_example.byte_code.pages,
        page_p := branch_example.byte_code.first_p, offset := 0, real_offset := 0,
        dst := [] } with
  | error e => rw [hp] at hok; cases hok
  | ok copied =>
    obtain ⟨kept, hk⟩ := C30_page_counters example_tables branch_example.byte_code [0, 1]
      branch_example.byte_code.pages [] 254 17 copied (by decide) (by decide) (by decide)
      (by decide) hp
    have hv : retained_stream example_tables 254
        (stream_read example_tables branch_example.byte_code.pages [0, 1])
        (stream_size example_tables branch_example.byte_code [0, 1]) 17 0
        = some [true, false, true, true, true, true, true, true, true, true, true, true] := by
      decide
    have hc : (copy_loop example_tables 254
        (stream_end example_tables branch_example.byte_code) 17
        { pages := branch_example.byte_code.pages,
          page_p := branch_example.byte_code.first_p, offset := 0, real_offset := 0,
          dst := [] }).toOption.map (fun c => c.pages.map (fun page => page.bytes))
        = some [[129, 1, 2, 3, 4, 5, 6, 7], [129, 2, 3, 4, 0, 0, 0, 0]] := by decide
    rw [hp] at hc
    simp only [Except.toOption, Option.map_some', Option.some.injEq] at hc
    exact ⟨copied, kept, rfl, hk.1, hk.2.1, hk.2.2.1, hk.2.2.2.1, hk.2.2.2.2,
      Option.some.inj (hk.1.symm.trans hv), hc⟩


/-! ## The first pass counts the bytes that the copy pass retains -/

theorem u8_or_highest (x : Nat) :
    CBC_LOWER_SEVEN_BIT_MASK < u8 (u8 x ||| CBC_HIGHEST_BIT_MASK) := by
  have h : u8 x < 256 := Nat.mod_lt _ (by norm_num)
  generalize u8 x = y at h
  unfold CBC_LOWER_SEVEN_BIT_MASK CBC_HIGHEST_BIT_MASK u8
  interval_cases y <;> decide

theorem first_kept_nil {t : cbc_tables} {chain : List Nat} {q : Nat}
    {st : first_pass_state} (hat : first_at t chain q st) : first_kept t chain q st [] st :=
  ⟨hat, fun _ _ => rfl, rfl⟩

theorem first_kept_trans {t : cbc_tables} {chain : List Nat} {q : Nat}
    {st st1 st2 : first_pass_state} {kept1 kept2 : List Bool}
    (h1 : first_kept t chain q st kept1 st1)
    (h2 : first_kept t chain (q + kept1.length) st1 kept2 st2) :
    first_kept t chain q st (kept1 ++ kept2) st2 := by
  obtain ⟨a1, a2, a3⟩ := h1
  obtain ⟨b1, b2, b3⟩ := h2
  have el : q + (kept1 ++ kept2).length = q + kept1.length + kept2.length := by
    rw [List.length_append]; omega
  refine ⟨by rw [el]; exact b1, ?_, by rw [b3, a3]⟩
  intro r hr
  rw [el] at hr
  rw [b2 r (by omega), a2 r (by omega)]

/-- One literal argument in the first pass: the encoding it writes is the one the copy pass
keeps as many bytes of as the first pass counts. -/
theorem first_kept_literal {lim : parser_limits} {t : cbc_tables}
    {pool : List lexer_literal_t} {literal_count limit : Nat} {chain : List Nat} {q : Nat}
    {st st1 : first_pass_state} (hn : 0 < t.PARSER_CBC_STREAM_PAGE_SIZE)
    (hlimit : limit = if literal_count ≤ lim.CBC_MAXIMUM_SMALL_VALUE then
      CBC_MAXIMUM_BYTE_VALUE - 1 else CBC_LOWER_SEVEN_BIT_MASK)
    (hat : first_at t chain q st)
    (h : first_pass_literal lim t pool literal_count limit st = .ok st1) :
    ∃ kept, kept.length = 2 ∧ first_kept t chain q st kept st1
      ∧ st1.length = st.length + retained_count kept
      ∧ ∀ read1, agree_on read1 (stream_read t st1.pages chain) q kept.length →
          retained_literal limit read1 q = some kept := by
  have hpp : st.page_p = (cursor t chain q).1 := congrArg Prod.fst hat.2.2.1
  have hoo : st.offset = (cursor t chain q).2 := congrArg Prod.snd hat.2.2.1
  unfold first_pass_literal at h
  cases h1 : page_read st.pages st.page_p st.offset with
  | error e => rw [h1] at h; cases h
  | ok first =>
    rw [h1] at h
    dsimp only at h
    cases h2 : PARSER_NEXT_BYTE t st.pages st.page_p st.offset with
    | error e => rw [h2] at h; cases h
    | ok r =>
      obtain ⟨page1, offset1⟩ := r
      rw [h2] at h
      dsimp only at h
      obtain ⟨hc1, hq1⟩ := first_at_next hn hat h2
      have hp1 : page1 = (cursor t chain (q + 1)).1 := congrArg Prod.fst hc1
      have ho1 : offset1 = (cursor t chain (q + 1)).2 := congrArg Prod.snd hc1
      cases h3 : page_read st.pages page1 offset1 with
      | error e => rw [h3] at h; cases h
      | ok second =>
        rw [h3] at h
        dsimp only at h
        cases h4 : PARSER_GET_LITERAL pool (first ||| second <<< 8) with
        | error e => rw [h4] at h; cases h
        | ok literal0 =>
          rw [h4] at h
          dsimp only at h
          split at h
          · cases h
          · rename_i literal _
            split at h
            · cases h
            · rename_i pages2 length2 hw0
              have key : pages_ok t pages2 chain ∧ linked pages2 chain 0
                  ∧ (∀ r, r < q ∨ q + 2 ≤ r →
                      stream_read t pages2 chain r = stream_read t st.pages chain r)
                  ∧ ∃ f, stream_read t pages2 chain q = some f
                      ∧ length2 = st.length + retained_count [true, decide (f > limit)] := by
                split_ifs at hw0 with hle hsmall hidx hidx
                · cases hw : page_write st.pages st.page_p st.offset (u8 literal.index) with
                  | error e => rw [hw] at hw0; cases hw0
                  | ok pages1 =>
                    rw [hw] at hw0
                    cases hw0
                    rw [hpp, hoo] at hw
                    obtain ⟨_, a1, a2, a3, a4⟩ := page_write_cursor hat.1 hn hw
                    refine ⟨a1, a2 0 hat.2.1, fun r hr => a4 r (by omega), _, a3, ?_⟩
                    have hu : ¬ u8 literal.index > limit := by
                      have : u8 literal.index ≤ literal.index := Nat.mod_le _ _
                      omega
                    simp [retained_count, hu]
                · cases hw : page_write st.pages st.page_p st.offset
                      CBC_MAXIMUM_BYTE_VALUE with
                  | error e => rw [hw] at hw0; cases hw0
                  | ok pages1 =>
                    rw [hw] at hw0
                    dsimp only at hw0
                    rw [hpp, hoo] at hw
                    obtain ⟨_, a1, a2, a3, a4⟩ := page_write_cursor hat.1 hn hw
                    cases hw2 : page_write pages1 page1 offset1
                        (u8 (literal.index - CBC_MAXIMUM_BYTE_VALUE)) with
                    | error e => rw [hw2] at hw0; cases hw0
                    | ok pages3 =>
                      rw [hw2] at hw0
                      cases hw0
                      rw [hp1, ho1] at hw2
                      obtain ⟨_, b1, b2, b3, b4⟩ := page_write_cursor a1 hn hw2
                      refine ⟨b1, b2 0 (a2 0 hat.2.1),
                        fun r hr => by rw [b4 r (by omega), a4 r (by omega)],
                        CBC_MAXIMUM_BYTE_VALUE, by rw [b4 q (by omega)]; exact a3, ?_⟩
                      have hu : CBC_MAXIMUM_BYTE_VALUE > limit := by
                        rw [hlimit, if_pos hsmall]
                        decide
                      simp [retained_count, hu]
                · cases hw : page_write st.pages st.page_p st.offset
                      (u8 (u8 (literal.index >>> 8) ||| CBC_HIGHEST_BIT_MASK)) with
                  | error e => rw [hw] at hw0; cases hw0
                  | ok pages1 =>
                    rw [hw] at hw0
                    dsimp only at hw0
                    rw [hpp, hoo] at hw
                    obtain ⟨_, a1, a2, a3, a4⟩ := page_write_cursor hat.1 hn hw
                    cases hw2 : page_write pages1 page1 offset1
                        (u8 (literal.index &&& 0xff)) with
                    | error e => rw [hw2] at hw0; cases hw0
                    | ok pages3 =>
                      rw [hw2] at hw0
                      cases hw0
                      rw [hp1, ho1] at hw2
                      obtain ⟨_, b1, b2, b3, b4⟩ := page_write_cursor a1 hn hw2
                      refine ⟨b1, b2 0 (a2 0 hat.2.1),
                        fun r hr => by rw [b4 r (by omega), a4 r (by omega)],
                        _, by rw [b4 q (by omega)]; exact a3, ?_⟩
                      have hu : u8 (u8 (literal.index >>> 8) ||| CBC_HIGHEST_BIT_MASK)
                          > limit := by
                        rw [hlimit, if_neg hsmall]
                        exact u8_or_highest _
                      simp [retained_count, hu]
              obtain ⟨hp2, hl2, hfr, f, hf, hlen⟩ := key
              cases h5 : PARSER_NEXT_BYTE t pages2 page1 offset1 with
              | error e => rw [h5] at h; cases h
              | ok r2 =>
                obtain ⟨page2, offset2⟩ := r2
                rw [h5] at h
                dsimp only at h
                cases h
                rw [hp1, ho1] at h5
                obtain ⟨hc2, hq2⟩ := next_byte_cursor_le hp2 hl2 hn hq1 h5
                refine ⟨[true, decide (f > limit)], rfl, ⟨⟨hp2, hl2, hc2, hq2⟩, hfr, rfl⟩,
                  hlen, ?_⟩
                intro read1 hag
                unfold retained_literal
                rw [hag q (le_refl _) (by simp)]
                dsimp only
                rw [hf]


theorem first_kept_literals {lim : parser_limits} {t : cbc_tables}
    {pool : List lexer_literal_t} {literal_count limit : Nat} {chain : List Nat}
    (hn : 0 < t.PARSER_CBC_STREAM_PAGE_SIZE)
    (hlimit : limit = if literal_count ≤ lim.CBC_MAXIMUM_SMALL_VALUE then
      CBC_MAXIMUM_BYTE_VALUE - 1 else CBC_LOWER_SEVEN_BIT_MASK)
    (fuel : Nat) :
    ∀ (flags flags1 : cbc_flags_t) (q : Nat) (st st1 : first_pass_state),
      first_at t chain q st →
      first_pass_literals lim t pool literal_count limit fuel flags st = .ok (flags1, st1) →
      ∃ kept, first_kept t chain q st kept st1
        ∧ st1.length = st.length + retained_count kept
        ∧ (kept = [] → flags1 = flags ∧ st1 = st)
        ∧ (kept ≠ [] → flags.has_literal_arg = true ∨ flags.has_literal_arg2 = true)
        ∧ ∀ read1, agree_on read1 (stream_read t st1.pages chain) q kept.length →
            retained_literals limit read1 fuel flags q = some (flags1, kept) := by
  induction fuel with
  | zero =>
    intro flags flags1 q st st1 hat h
    unfold first_pass_literals at h
    split_ifs at h with hf
    cases h
    refine ⟨[], first_kept_nil hat, rfl, fun _ => ⟨rfl, rfl⟩, fun h => absurd rfl h, ?_⟩
    intro read1 _
    unfold retained_literals
    rw [if_neg hf]
  | succ fuel ih =>
    intro flags flags1 q st st1 hat h
    unfold first_pass_literals at h
    split_ifs at h with hf
    · have hf2 : flags.has_literal_arg = true ∨ flags.has_literal_arg2 = true := by
        simpa using hf
      cases hl : first_pass_literal lim t pool literal_count limit st with
      | error e => rw [hl] at h; cases h
      | ok st2 =>
        rw [hl] at h
        dsimp only at h
        obtain ⟨kept, hlen, r1, hc1, hd1⟩ := first_kept_literal hn hlimit hat hl
        have hne : kept ≠ [] := by
          intro e
          rw [e] at hlen
          cases hlen
        cases hnf : next_literal_flags flags with
        | none =>
          rw [hnf] at h
          dsimp only at h
          cases h
          refine ⟨kept, r1, hc1, fun e => absurd e hne, fun _ => hf2, ?_⟩
          intro read1 hag
          unfold retained_literals
          rw [if_pos hf, hd1 read1 hag]
          dsimp only
          rw [hnf]
        | some flags2 =>
          rw [hnf] at h
          dsimp only at h
          obtain ⟨kept1, r2, hc2, _, _, hd2⟩ :=
            ih flags2 flags1 (q + kept.length) st2 st1 r1.1 h
          refine ⟨kept ++ kept1, first_kept_trans r1 r2,
            by rw [hc2, hc1, retained_count_append]; omega,
            fun e => absurd (List.append_eq_nil.mp e).1 hne, fun _ => hf2, ?_⟩
          intro read1 hag
          rw [List.length_append] at hag
          obtain ⟨hag1, hag2⟩ := agree_on_split hag
          have hag3 : agree_on read1 (stream_read t st2.pages chain) q kept.length := by
            intro r h1 h2
            rw [hag1 r h1 h2, r2.2.1 r (Or.inl h2)]
          unfold retained_literals
          rw [if_pos hf, hd1 read1 hag3]
          dsimp only
          rw [hnf]
          dsimp only
          rw [hd2 read1 hag2]
    · cases h
      refine ⟨[], first_kept_nil hat, rfl, fun _ => ⟨rfl, rfl⟩, fun h => absurd rfl h, ?_⟩
      intro read1 _
      unfold retained_literals
      rw [if_neg hf]

theorem first_kept_branch_bytes {t : cbc_tables} {chain : List Nat} {flags : cbc_flags_t}
    (hn : 0 < t.PARSER_CBC_STREAM_PAGE_SIZE) (count : Nat) :
    ∀ (prefix_zero prefix_zero1 : Bool) (q : Nat) (st st1 : first_pass_state),
      first_at t chain q st →
      first_pass_branch_bytes t flags count prefix_zero st = .ok (prefix_zero1, st1) →
      ∃ kept, kept.length = count ∧ first_kept t chain q st kept st1
        ∧ st1.pages = st.pages
        ∧ st1.length = st.length + retained_count kept
        ∧ (prefix_zero = false → prefix_zero1 = false)
        ∧ (prefix_zero1 = true → retained_count kept = 0)
        ∧ ∀ read1, agree_on read1 (stream_read t st.pages chain) q kept.length →
            retained_branch_bytes read1 count prefix_zero q = some kept := by
  induction count with
  | zero =>
    intro prefix_zero prefix_zero1 q st st1 hat h
    unfold first_pass_branch_bytes at h
    simp only [Except.ok.injEq, Prod.mk.injEq] at h
    obtain ⟨h1, h2⟩ := h
    subst h1 h2
    exact ⟨[], rfl, first_kept_nil hat, rfl, rfl, fun e => e, fun _ => rfl, fun _ _ => rfl⟩
  | succ count ih =>
    intro prefix_zero prefix_zero1 q st st1 hat h
    have hpp : st.page_p = (cursor t chain q).1 := congrArg Prod.fst hat.2.2.1
    have hoo : st.offset = (cursor t chain q).2 := congrArg Prod.snd hat.2.2.1
    unfold first_pass_branch_bytes at h
    cases hr : page_read st.pages st.page_p st.offset with
    | error e => rw [hr] at h; cases h
    | ok byte =>
      rw [hr] at h
      dsimp only at h
      rw [hpp, hoo] at hr
      have hb := (page_read_ok_iff t st.pages chain q byte).mp hr
      have step : ∀ (pz1 k : Bool) (length1 : Nat),
          length1 = st.length + k.toNat →
          (match PARSER_NEXT_BYTE t st.pages st.page_p st.offset with
            | .error e => .error e
            | .ok (page1, offset1) =>
              first_pass_branch_bytes t flags count pz1
                { st with page_p := page1, offset := offset1, length := length1 } :
              Except Fault (Bool × first_pass_state))
            = .ok (prefix_zero1, st1) →
          ∃ kept, kept.length = count
            ∧ first_kept t chain q st (k :: kept) st1
            ∧ st1.pages = st.pages
            ∧ st1.length = st.length + retained_count (k :: kept)
            ∧ (pz1 = false → prefix_zero1 = false)
            ∧ (prefix_zero1 = true → retained_count kept = 0)
            ∧ ∀ read1, agree_on read1 (stream_read t st.pages chain) (q + 1) kept.length →
                retained_branch_bytes read1 count pz1 (q + 1) = some kept := by
        intro pz1 k length1 hlen1 h
        cases hnx : PARSER_NEXT_BYTE t st.pages st.page_p st.offset with
        | error e => rw [hnx] at h; cases h
        | ok r =>
          obtain ⟨page1, offset1⟩ := r
          rw [hnx] at h
          dsimp only at h
          obtain ⟨hc1, hq1⟩ := first_at_next hn hat hnx
          have hat2 : first_at t chain (q + 1)
              { st with page_p := page1, offset := offset1, length := length1 } :=
            ⟨hat.1, hat.2.1, hc1, hq1⟩
          obtain ⟨kept, hl, r2, hp2, hc2, hz1, hz2, hd2⟩ :=
            ih pz1 prefix_zero1 (q + 1) _ st1 hat2 h
          dsimp only at hp2 hc2 hd2
          obtain ⟨b1, b2, b3⟩ := r2
          dsimp only at b2 b3
          refine ⟨kept, hl, ⟨?_, ?_, b3⟩, hp2, ?_, hz1, hz2, hd2⟩
          · rw [List.length_cons, show q + (kept.length + 1) = q + 1 + kept.length by omega]
            exact b1
          · intro r hr
            rw [List.length_cons] at hr
            exact b2 r (by omega)
          · rw [hc2, hlen1, retained_count_cons]
            omega
      by_cases hcond : byte > 0 ∨ prefix_zero = false
      · rw [if_pos hcond] at h
        dsimp only at h
        obtain ⟨kept, hl, r, hp, hc, hz1, hz2, hd⟩ := step false true (st.length + 1) rfl h
        have hpz1 : prefix_zero1 = false := hz1 rfl
        refine ⟨true :: kept, by rw [List.length_cons, hl], r, hp, hc, (fun _ => hpz1),
          (fun e => by rw [hpz1] at e; cases e), ?_⟩
        intro read1 hag
        rw [List.length_cons] at hag
        unfold retained_branch_bytes
        rw [hag q (le_refl _) (by omega), hb]
        dsimp only
        rw [if_pos hcond, hd read1 (fun r h1 h2 => hag r (by omega) (by omega))]
      · rw [if_neg hcond] at h
        by_cases hfw : flags.forward_branch_arg = true
        · rw [if_pos hfw] at h
          dsimp only at h
          obtain ⟨kept, hl, r, hp, hc, hz1, hz2, hd⟩ :=
            step prefix_zero false st.length rfl h
          refine ⟨false :: kept, by rw [List.length_cons, hl], r, hp, hc, hz1, ?_, ?_⟩
          · intro e
            rw [retained_count_cons, hz2 e]
            rfl
          · intro read1 hag
            rw [List.length_cons] at hag
            unfold retained_branch_bytes
            rw [hag q (le_refl _) (by omega), hb]
            dsimp only
            rw [if_neg hcond, hd read1 (fun r h1 h2 => hag r (by omega) (by omega))]
        · rw [if_neg hfw] at h
          cases h


/-- The branch argument in the first pass: either the jump is kept, and the first pass
counts the bytes of the argument that the copy pass retains, or the instruction is an
unconditional forward jump of the widest form to the next instruction, and the first pass
takes back the byte counted for the opcode and marks the opcode. -/
theorem first_kept_branch {t : cbc_tables} {chain : List Nat} {flags : cbc_flags_t}
    {branch_offset_length q0 q : Nat} {st st1 : first_pass_state}
    (hn : 0 < t.PARSER_CBC_STREAM_PAGE_SIZE) (hat : first_at t chain q st)
    (h : first_pass_branch t flags branch_offset_length (cursor t chain q0).1
      (cursor t chain q0).2 st = .ok st1) :
    ∃ kept, kept.length + 1 = branch_offset_length
      ∧ (0 < branch_offset_length ∧ branch_offset_length ≤ 3)
      ∧ first_at t chain (q + branch_offset_length) st1
      ∧ st1.last_opcode = st.last_opcode
      ∧ ((st1.pages = st.pages ∧ st1.length = st.length + retained_count kept + 1
          ∧ ∀ read1, agree_on read1 (stream_read t st.pages chain) q kept.length →
              retained_branch_bytes read1 (branch_offset_length - 1) true q = some kept)
        ∨ (st.last_opcode = t.jump_forward ∧ st1.length = st.length - 1
          ∧ stream_read t st1.pages chain q0 = some t.CBC_JUMP_FORWARD
          ∧ ∀ r, r ≠ q0 →
              stream_read t st1.pages chain r = stream_read t st.pages chain r)) := by
  unfold first_pass_branch at h
  split_ifs at h with hb
  cases hbb : first_pass_branch_bytes t flags (branch_offset_length - 1) true st with
  | error e => rw [hbb] at h; cases h
  | ok r =>
    obtain ⟨prefix_zero, st2⟩ := r
    rw [hbb] at h
    dsimp only at h
    obtain ⟨kept, hlen, r1, hp1, hc1, _, hz1, hd1⟩ :=
      first_kept_branch_bytes hn _ true prefix_zero q st st2 hat hbb
    obtain ⟨a1, a2, a3⟩ := r1
    split at h
    · cases h
    · rename_i pages2 length2 hc
      have key : pages_ok t pages2 chain ∧ linked pages2 chain 0
          ∧ ((pages2 = st.pages ∧ length2 = st.length + retained_count kept + 1)
            ∨ (st.last_opcode = t.jump_forward ∧ length2 = st.length - 1
              ∧ stream_read t pages2 chain q0 = some t.CBC_JUMP_FORWARD
              ∧ ∀ r, r ≠ q0 →
                  stream_read t pages2 chain r = stream_read t st.pages chain r)) := by
        have keep : (pages2, length2) = (st2.pages, st2.length + 1) →
            pages_ok t pages2 chain ∧ linked pages2 chain 0
            ∧ ((pages2 = st.pages ∧ length2 = st.length + retained_count kept + 1)
              ∨ (st.last_opcode = t.jump_forward ∧ length2 = st.length - 1
                ∧ stream_read t pages2 chain q0 = some t.CBC_JUMP_FORWARD
                ∧ ∀ r, r ≠ q0 →
                    stream_read t pages2 chain r = stream_read t st.pages chain r)) := by
          intro e
          simp only [Prod.mk.injEq] at e
          obtain ⟨e1, e2⟩ := e
          rw [e1, e2]
          exact ⟨a1.1, a1.2.1, Or.inl ⟨hp1, by rw [hc1]⟩⟩
        split_ifs at hc with hdel
        · cases hr : page_read st2.pages st2.page_p st2.offset with
          | error e => rw [hr] at hc; cases hc
          | ok last =>
            rw [hr] at hc
            dsimp only at hc
            split_ifs at hc
            · cases hw : page_write st2.pages (cursor t chain q0).1 (cursor t chain q0).2
                  t.CBC_JUMP_FORWARD with
              | error e => rw [hw] at hc; cases hc
              | ok pages3 =>
                rw [hw] at hc
                dsimp only at hc
                simp only [Except.ok.injEq, Prod.mk.injEq] at hc
                obtain ⟨e1, e2⟩ := hc
                obtain ⟨_, b1, b2, b3, b4⟩ := page_write_cursor a1.1 hn hw
                rw [← e1, ← e2]
                refine ⟨b1, b2 0 a1.2.1, Or.inr ⟨by rw [← a3]; exact hdel.1, ?_, b3, ?_⟩⟩
                · rw [hc1, hz1 hdel.2]
                  rfl
                · intro r hr
                  rw [b4 r hr, hp1]
            · simp only [Except.ok.injEq] at hc
              exact keep hc.symm
        · simp only [Except.ok.injEq] at hc
          exact keep hc.symm
      obtain ⟨hp2, hl2, hcase⟩ := key
      cases hnx : PARSER_NEXT_BYTE t pages2 st2.page_p st2.offset with
      | error e => rw [hnx] at h; cases h
      | ok r2 =>
        obtain ⟨page2, offset2⟩ := r2
        rw [hnx] at h
        dsimp only at h
        cases h
        have hpp : st2.page_p = (cursor t chain (q + kept.length)).1 :=
          congrArg Prod.fst a1.2.2.1
        have hoo : st2.offset = (cursor t chain (q + kept.length)).2 :=
          congrArg Prod.snd a1.2.2.1
        rw [hpp, hoo] at hnx
        obtain ⟨hc2, hq2⟩ := next_byte_cursor_le hp2 hl2 hn a1.2.2.2 hnx
        have e : q + kept.length + 1 = q + branch_offset_length := by omega
        rw [e] at hc2 hq2
        refine ⟨kept, by omega, hb, ⟨hp2, hl2, hc2, hq2⟩, a3, ?_⟩
        rcases hcase with ⟨c1, c2⟩ | ⟨c1, c2, c3, c4⟩
        · exact Or.inl ⟨c1, c2, by rw [hlen]; rw [hlen] at hd1; exact hd1⟩
        · exact Or.inr ⟨c1, c2, c3, c4⟩


theorem retained_count_replicate_false (n : Nat) :
    retained_count (List.replicate n false) = 0 := by
  unfold retained_count
  simp [List.count_replicate]

/-- One instruction of the first pass: the first pass counts the bytes that the copy pass
retains of the instruction as the first pass leaves it in the stream. -/
theorem first_kept_instruction {lim : parser_limits} {t : cbc_tables}
    {pool : List lexer_literal_t} {literal_count limit : Nat} {chain : List Nat} {q : Nat}
    {st st1 : first_pass_state} (hn : 0 < t.PARSER_CBC_STREAM_PAGE_SIZE)
    (hlimit : limit = if literal_count ≤ lim.CBC_MAXIMUM_SMALL_VALUE then
      CBC_MAXIMUM_BYTE_VALUE - 1 else CBC_LOWER_SEVEN_BIT_MASK)
    (hext : t.jump_forward ≠ t.CBC_EXT_OPCODE) (hret : t.jump_forward ≠ t.CBC_RETURN)
    (hflags : t.cbc_flags t.jump_forward
      = { has_branch_arg := true, forward_branch_arg := true })
    (hwidth : t.CBC_BRANCH_OFFSET_LENGTH t.jump_forward + 1
      = if t.PARSER_MAXIMUM_CODE_SIZE ≤ 65535 then 3 else 4)
    (hat : first_at t chain q st)
    (hop : stream_read t st.pages chain q ≠ some t.CBC_JUMP_FORWARD)
    (h : first_pass_instruction lim t pool literal_count limit st = .ok st1) :
    ∃ kept, 0 < kept.length ∧ q < chain.length * t.PARSER_CBC_STREAM_PAGE_SIZE
      ∧ first_at t chain (q + kept.length) st1
      ∧ (∀ r, r < q ∨ q + kept.length ≤ r →
          stream_read t st1.pages chain r = stream_read t st.pages chain r)
      ∧ st1.length = st.length + retained_count kept
      ∧ ∀ read1, agree_on read1 (stream_read t st1.pages chain) q kept.length →
          retained_instruction t limit read1 q = some kept := by
  have hpp : st.page_p = (cursor t chain q).1 := congrArg Prod.fst hat.2.2.1
  have hoo : st.offset = (cursor t chain q).2 := congrArg Prod.snd hat.2.2.1
  unfold first_pass_instruction at h
  dsimp only at h
  cases hr : page_read st.pages st.page_p st.offset with
  | error e => rw [hr] at h; cases h
  | ok last_opcode =>
    rw [hr] at h
    dsimp only at h
    have hb : stream_read t st.pages chain q = some last_opcode := by
      rw [hpp, hoo] at hr
      exact (page_read_ok_iff t st.pages chain q last_opcode).mp hr
    have hq := stream_read_lt hn hb
    have hne : last_opcode ≠ t.CBC_JUMP_FORWARD := fun e => hop (by rw [hb, e])
    cases hnx : PARSER_NEXT_BYTE t st.pages st.page_p st.offset with
    | error e => rw [hnx] at h; cases h
    | ok r =>
      obtain ⟨page1, offset1⟩ := r
      rw [hnx] at h
      dsimp only at h
      obtain ⟨hc1, hq1⟩ := first_at_next hn hat hnx
      split at h
      · cases h
      · rename_i branch_offset_length flags st2 hhdr
        have key : ∃ kop : List Bool, first_at t chain (q + kop.length) st2
            ∧ st2.pages = st.pages ∧ st2.length = st.length + retained_count kop
            ∧ ((last_opcode ≠ t.CBC_EXT_OPCODE ∧ kop = [true]
                ∧ flags = t.cbc_flags last_opcode
                ∧ branch_offset_length = t.CBC_BRANCH_OFFSET_LENGTH last_opcode
                ∧ st2.last_opcode = last_opcode)
              ∨ (last_opcode = t.CBC_EXT_OPCODE ∧ kop = [true, true]
                ∧ (st2.last_opcode = t.CBC_EXT_OPCODE ∨ st2.last_opcode = t.CBC_RETURN)
                ∧ ∃ ext_opcode, stream_read t st.pages chain (q + 1) = some ext_opcode
                  ∧ flags = t.cbc_ext_flags ext_opcode
                  ∧ branch_offset_length = t.CBC_BRANCH_OFFSET_LENGTH ext_opcode)) := by
          split_ifs at hhdr with hx
          · cases hr2 : page_read st.pages page1 offset1 with
            | error e => rw [hr2] at hhdr; cases hhdr
            | ok ext_opcode =>
              rw [hr2] at hhdr
              dsimp only at hhdr
              cases hnx2 : PARSER_NEXT_BYTE t st.pages page1 offset1 with
              | error e => rw [hnx2] at hhdr; cases hhdr
              | ok r2 =>
                obtain ⟨page2, offset2⟩ := r2
                rw [hnx2] at hhdr
                dsimp only at hhdr
                simp only [Except.ok.injEq, Prod.mk.injEq] at hhdr
                obtain ⟨e1, e2, e3⟩ := hhdr
                have hp1 : page1 = (cursor t chain (q + 1)).1 := congrArg Prod.fst hc1
                have ho1 : offset1 = (cursor t chain (q + 1)).2 := congrArg Prod.snd hc1
                rw [hp1, ho1] at hnx2 hr2
                have hb2 := (page_read_ok_iff t st.pages chain (q + 1) ext_opcode).mp hr2
                obtain ⟨hc2, hq2⟩ := next_byte_cursor_le hat.1 hat.2.1 hn hq1 hnx2
                refine ⟨[true, true], ?_, ?_, ?_, Or.inr ⟨hx, rfl, ?_, ext_opcode, hb2,
                  e2.symm, e1.symm⟩⟩
                · rw [← e3]
                  exact ⟨hat.1, hat.2.1, hc2, hq2⟩
                · rw [← e3]
                · rw [← e3]
                  rfl
                · rw [← e3]
                  dsimp only
                  split_ifs
                  · exact Or.inr rfl
                  · exact Or.inl hx
          · simp only [Except.ok.injEq, Prod.mk.injEq] at hhdr
            obtain ⟨e1, e2, e3⟩ := hhdr
            refine ⟨[true], ?_, ?_, ?_, Or.inl ⟨hx, rfl, e2.symm, e1.symm, ?_⟩⟩
            · rw [← e3]
              exact ⟨hat.1, hat.2.1, hc1, hq1⟩
            · rw [← e3]
            · rw [← e3]
              rfl
            · rw [← e3]
        obtain ⟨kop, hat2, hp2, hlen2, hcase⟩ := key
        have hkop : kop.length = 1 ∨ kop.length = 2 := by
          rcases hcase with ⟨_, e, _⟩ | ⟨_, e, _⟩ <;> rw [e] <;> simp
        cases hl : first_pass_literals lim t pool literal_count limit 3 flags st2 with
        | error e => rw [hl] at h; cases h
        | ok rl =>
          obtain ⟨flags1, st3⟩ := rl
          rw [hl] at h
          dsimp only at h
          obtain ⟨kept1, r3, hlen3, hnil3, hcons3, hd3⟩ :=
            first_kept_literals hn hlimit 3 flags flags1 (q + kop.length) st2 st3 hat2 hl
          split at h
          · cases h
          · rename_i st4 hbyte
            have key2 : first_at t chain
                  (q + kop.length + kept1.length
                    + (if flags1.has_byte_arg then [true] else []).length) st4
                ∧ st4.pages = st3.pages
                ∧ st4.length = st3.length
                  + retained_count (if flags1.has_byte_arg then [true] else [])
                ∧ st4.last_opcode = st3.last_opcode := by
              split_ifs at hbyte with hby
              · cases hnx3 : PARSER_NEXT_BYTE t st3.pages st3.page_p st3.offset with
                | error e => rw [hnx3] at hbyte; cases hbyte
                | ok r4 =>
                  obtain ⟨page3, offset3⟩ := r4
                  rw [hnx3] at hbyte
                  dsimp only at hbyte
                  cases hbyte
                  obtain ⟨hc3, hq3⟩ := first_at_next hn r3.1 hnx3
                  rw [if_pos hby]
                  exact ⟨⟨r3.1.1, r3.1.2.1, hc3, hq3⟩, rfl, rfl, rfl⟩
              · cases hbyte
                rw [if_neg hby]
                exact ⟨r3.1, rfl, rfl, rfl⟩
            obtain ⟨hat4, hp4, hlen4, hop4⟩ := key2
            have hfr3 : ∀ r, r < q + kop.length ∨ q + kop.length + kept1.length ≤ r →
                stream_read t st3.pages chain r = stream_read t st.pages chain r := by
              intro r hr
              rw [r3.2.1 r hr, hp2]
            have hopc : ∀ read1, agree_on read1 (stream_read t st3.pages chain) q
                (kop.length + kept1.length) → read1 q = some last_opcode := by
              intro read1 hag
              rw [hag q (le_refl _) (by omega), hfr3 q (Or.inl (by omega)), hb]
            have harg : ∀ (tail : List Bool) (read1 : Nat → Option Nat),
                agree_on read1 (stream_read t st3.pages chain) q
                  (kop.length + ((kept1 ++ if flags1.has_byte_arg then [true] else [])
                    ++ tail).length) →
                (flags1.has_branch_arg = true →
                  (0 < branch_offset_length ∧ branch_offset_length ≤ 3)
                  ∧ ∃ kept3, tail = kept3 ++ [true]
                    ∧ retained_branch_bytes read1 (branch_offset_length - 1) true
                        (q + kop.length
                          + (kept1 ++ if flags1.has_byte_arg then [true] else []).length)
                      = some kept3) →
                (flags1.has_branch_arg = false → tail = []) →
                retained_instruction t limit read1 q
                  = some (kop ++ ((kept1 ++ if flags1.has_byte_arg then [true] else [])
                    ++ tail)) := by
              intro tail read1 hag hbr hnb
              have hag1 : agree_on read1 (stream_read t st3.pages chain) (q + kop.length)
                  kept1.length := by
                intro r h1 h2
                exact hag r (by omega) (by simp only [List.length_append]; omega)
              have hlit := hd3 read1 hag1
              have hargs : retained_arguments limit flags branch_offset_length read1
                  (q + kop.length)
                  = some ((kept1 ++ if flags1.has_byte_arg then [true] else [])
                    ++ tail) := by
                unfold retained_arguments
                rw [hlit]
                dsimp only
                by_cases hbf : flags1.has_branch_arg = true
                · obtain ⟨hbol, kept3, htl, hbb⟩ := hbr hbf
                  rw [if_pos hbf, if_pos hbol, hbb, htl]
                · rw [if_neg hbf]
                  have : flags1.has_branch_arg = false := by
                    cases hx : flags1.has_branch_arg
                    · rfl
                    · exact absurd hx hbf
                  rw [hnb this, List.append_nil]
              have ho : read1 q = some last_opcode := by
                rw [hag q (le_refl _) (by omega), hfr3 q (Or.inl (by omega)), hb]
              unfold retained_instruction
              rw [ho]
              dsimp only
              rw [if_neg hne]
              rcases hcase with ⟨hx, ek, ef, eb, _⟩ | ⟨hx, ek, _, ext_opcode, hb2, ef, eb⟩
              · rw [if_neg hx, ← ef, ← eb]
                rw [ek] at hargs ⊢
                simp only [List.length_singleton] at hargs
                rw [hargs]
                rfl
              · rw [if_pos hx]
                have hk2 : kop.length = 2 := by rw [ek]; rfl
                have ho2 : read1 (q + 1) = some ext_opcode := by
                  rw [hag (q + 1) (by omega) (by omega), hfr3 (q + 1) (Or.inl (by omega)),
                    hb2]
                rw [ho2]
                dsimp only
                rw [← ef, ← eb]
                rw [ek] at hargs ⊢
                simp only [List.length_cons, List.length_singleton, List.length_nil]
                  at hargs
                rw [hargs]
                rfl
            by_cases hbf : flags1.has_branch_arg = true
            · rw [if_pos hbf] at h
              rw [hpp, hoo] at h
              obtain ⟨kept3, hl3, hbol, hat5, hop5, hcase5⟩ := first_kept_branch hn hat4 h
              rcases hcase5 with ⟨c1, c2, c3⟩ | ⟨c1, c2, c3, c4⟩
              · refine ⟨kop ++ ((kept1 ++ if flags1.has_byte_arg then [true] else [])
                  ++ (kept3 ++ [true])), ?_, hq, ?_, ?_, ?_, ?_⟩
                · simp only [List.length_append]
                  omega
                · have e : q + (kop ++ ((kept1 ++ if flags1.has_byte_arg then [true]
                      else []) ++ (kept3 ++ [true]))).length
                      = q + kop.length + kept1.length
                        + (if flags1.has_byte_arg then [true] else []).length
                        + branch_offset_length := by
                    simp only [List.length_append, List.length_singleton]
                    omega
                  rw [e]
                  exact hat5
                · intro r hr
                  simp only [List.length_append] at hr
                  rw [c1, hp4]
                  exact hfr3 r (by omega)
                · rw [c2, hlen4, hlen3, hlen2]
                  simp only [retained_count_append]
                  simp [retained_count]
                  omega
                · intro read1 hag
                  rw [c1, hp4] at hag
                  rw [List.length_append] at hag
                  apply harg _ read1 hag
                  · intro _
                    refine ⟨hbol, kept3, rfl, ?_⟩
                    rw [List.length_append, ← Nat.add_assoc]
                    apply c3 read1
                    intro r h1 h2
                    rw [hp4]
                    exact hag r (by omega)
                      (by simp only [List.length_append] at h1 h2 ⊢; omega)
                  · intro hf
                    rw [hf] at hbf
                    cases hbf
              · have hjf : st2.last_opcode = t.jump_forward := by
                  rw [← c1, hop4, r3.2.2]
                rcases hcase with ⟨hx, ek, ef, eb, eo⟩ | ⟨hx, ek, eo, _⟩
                · have hlo : last_opcode = t.jump_forward := by rw [← eo, hjf]
                  rw [hlo, hflags] at ef
                  have hk1 : kept1 = [] := by
                    by_contra hk
                    rcases hcons3 hk with hh | hh <;> rw [ef] at hh <;> cases hh
                  obtain ⟨ef1, es3⟩ := hnil3 hk1
                  have hby : flags1.has_byte_arg = false := by rw [ef1, ef]
                  rw [hlo] at eb
                  rw [hk1, hby, ek] at hat5
                  simp only [List.length_singleton, List.length_nil, Nat.add_zero,
                    Bool.false_eq_true, if_false] at hat5
                  have hw : q + 1 + branch_offset_length
                      = q + if t.PARSER_MAXIMUM_CODE_SIZE ≤ 65535 then 3 else 4 := by
                    rw [← hwidth, eb]
                    omega
                  rw [hw] at hat5
                  refine ⟨List.replicate
                    (if t.PARSER_MAXIMUM_CODE_SIZE ≤ 65535 then 3 else 4) false,
                    by rw [List.length_replicate]; split_ifs <;> omega, hq,
                    by rw [List.length_replicate]; exact hat5, ?_, ?_, ?_⟩
                  · intro r hr
                    rw [List.length_replicate] at hr
                    rw [c4 r (by split_ifs at hr <;> omega), hp4]
                    exact hfr3 r (by rw [hk1, ek]; simp; split_ifs at hr <;> omega)
                  · rw [c2, hlen4, hlen3, hlen2, retained_count_replicate_false, hk1, hby,
                      ek]
                    simp [retained_count]
                  · intro read1 hag
                    unfold retained_instruction
                    rw [hag q (le_refl _)
                      (by rw [List.length_replicate]; split_ifs <;> omega), c3]
                    dsimp only
                    rw [if_pos rfl]
                · rcases eo with eo | eo
                  · exact absurd (hjf.symm.trans eo) hext
                  · exact absurd (hjf.symm.trans eo) hret
            · rw [if_neg hbf] at h
              simp only [Except.ok.injEq] at h
              subst h
              have hbff : flags1.has_branch_arg = false := by
                cases hx : flags1.has_branch_arg
                · rfl
                · exact absurd hx hbf
              refine ⟨kop ++ ((kept1 ++ if flags1.has_byte_arg then [true] else [])
                ++ []), ?_, hq, ?_, ?_, ?_, ?_⟩
              · simp only [List.length_append]
                omega
              · have e : q + (kop ++ ((kept1 ++ if flags1.has_byte_arg then [true]
                    else []) ++ [])).length
                    = q + kop.length + kept1.length
                      + (if flags1.has_byte_arg then [true] else []).length := by
                  simp only [List.length_append, List.length_nil]
                  omega
                rw [e]
                exact hat4
              · intro r hr
                simp only [List.length_append] at hr
                rw [hp4]
                exact hfr3 r (by omega)
              · rw [hlen4, hlen3, hlen2]
                simp only [retained_count_append]
                simp [retained_count]
                omega
              · intro read1 hag
                rw [hp4] at hag
                rw [List.length_append] at hag
                exact harg _ read1 hag (fun hf => absurd hf hbf) (fun _ => rfl)


/-- The first loop of `parser_post_processing` counts the bytes that `retained_stream`
gives for the stream the loop leaves behind. -/
theorem first_kept_loop {lim : parser_limits} {t : cbc_tables}
    {pool : List lexer_literal_t} {literal_count limit : Nat}
    {byte_code : parser_mem_data_t} {chain : List Nat}
    (hs : stream_ok t byte_code chain)
    (hlimit : limit = if literal_count ≤ lim.CBC_MAXIMUM_SMALL_VALUE then
      CBC_MAXIMUM_BYTE_VALUE - 1 else CBC_LOWER_SEVEN_BIT_MASK)
    (hext : t.jump_forward ≠ t.CBC_EXT_OPCODE) (hret : t.jump_forward ≠ t.CBC_RETURN)
    (hflags : t.cbc_flags t.jump_forward
      = { has_branch_arg := true, forward_branch_arg := true })
    (hwidth : t.CBC_BRANCH_OFFSET_LENGTH t.jump_forward + 1
      = if t.PARSER_MAXIMUM_CODE_SIZE ≤ 65535 then 3 else 4)
    (fuel : Nat) :
    ∀ (q : Nat) (st st1 : first_pass_state), first_at t chain q st →
      first_pass_loop lim t pool literal_count limit (stream_end t byte_code) fuel st
        = .ok st1 →
      no_marker_emitted lim t pool literal_count limit (stream_end t byte_code) fuel st
        = true →
      ∃ kept, first_at t chain (q + kept.length) st1
        ∧ (∀ r, r < q ∨ q + kept.length ≤ r →
            stream_read t st1.pages chain r = stream_read t st.pages chain r)
        ∧ st1.length = st.length + retained_count kept
        ∧ stream_size t byte_code chain ≤ q + kept.length
        ∧ ∀ read1, agree_on read1 (stream_read t st1.pages chain) q kept.length →
            retained_stream t limit read1 (stream_size t byte_code chain) fuel q
              = some kept := by
  have hn : 0 < t.PARSER_CBC_STREAM_PAGE_SIZE := hs.1
  have stop : ∀ (q : Nat) (st : first_pass_state), first_at t chain q st →
      ¬ (st.page_p ≠ (stream_end t byte_code).1 ∨ st.offset < (stream_end t byte_code).2) →
      stream_size t byte_code chain ≤ q := by
    intro q st hat hc
    have hpp : st.page_p = (cursor t chain q).1 := congrArg Prod.fst hat.2.2.1
    have hoo : st.offset = (cursor t chain q).2 := congrArg Prod.snd hat.2.2.1
    rw [hpp, hoo] at hc
    by_contra hlt
    exact hc ((loop_cond_iff hs (by omega)).mpr (by omega))
  induction fuel with
  | zero =>
    intro q st st1 hat h _
    unfold first_pass_loop at h
    split_ifs at h with hc
    cases h
    have hge := stop q st hat hc
    refine ⟨[], hat, fun _ _ => rfl, rfl, hge, ?_⟩
    intro read1 _
    unfold retained_stream
    rw [if_neg (by omega)]
  | succ fuel ih =>
    intro q st st1 hat h hm
    unfold first_pass_loop at h
    unfold no_marker_emitted at hm
    split_ifs at h with hc
    · rw [if_pos hc] at hm
      have hpp : st.page_p = (cursor t chain q).1 := congrArg Prod.fst hat.2.2.1
      have hoo : st.offset = (cursor t chain q).2 := congrArg Prod.snd hat.2.2.1
      cases hi : first_pass_instruction lim t pool literal_count limit st with
      | error e => rw [hi] at h; cases h
      | ok st2 =>
        rw [hi] at h
        dsimp only at h
        cases hr : page_read st.pages st.page_p st.offset with
        | error e =>
          unfold first_pass_instruction at hi
          rw [hr] at hi
          cases hi
        | ok opcode =>
          rw [hr] at hm
          dsimp only at hm
          by_cases hjf : opcode = t.CBC_JUMP_FORWARD
          · rw [if_pos hjf] at hm
            cases hm
          · rw [if_neg hjf, hi] at hm
            dsimp only at hm
            have hb : stream_read t st.pages chain q = some opcode := by
              rw [hpp, hoo] at hr
              exact (page_read_ok_iff t st.pages chain q opcode).mp hr
            have hop : stream_read t st.pages chain q ≠ some t.CBC_JUMP_FORWARD := by
              rw [hb]
              intro e
              exact hjf (Option.some.inj e)
            obtain ⟨kept1, hpos, hq, hat2, hfr1, hlen1, hd1⟩ :=
              first_kept_instruction hn hlimit hext hret hflags hwidth hat hop hi
            rw [hpp, hoo] at hc
            have hlt := loop_cond_lt_size hs hq hc
            obtain ⟨kept2, hat3, hfr2, hlen2, hge, hd2⟩ :=
              ih (q + kept1.length) st2 st1 hat2 h hm
            have el : q + (kept1 ++ kept2).length = q + kept1.length + kept2.length := by
              rw [List.length_append]; omega
            refine ⟨kept1 ++ kept2, by rw [el]; exact hat3, ?_,
              by rw [hlen2, hlen1, retained_count_append]; omega, by omega, ?_⟩
            · intro r hr
              rw [el] at hr
              rw [hfr2 r (by omega), hfr1 r (by omega)]
            · intro read1 hag
              rw [List.length_append] at hag
              obtain ⟨hag1, hag2⟩ := agree_on_split hag
              have hag3 : agree_on read1 (stream_read t st2.pages chain) q
                  kept1.length := by
                intro r h1 h2
                rw [hag1 r h1 h2, hfr2 r (Or.inl h2)]
              unfold retained_stream
              rw [if_pos hlt, hd1 read1 hag3]
              dsimp only
              rw [hd2 read1 hag2]
    · cases h
      have hge := stop q st hat hc
      refine ⟨[], hat, fun _ _ => rfl, rfl, hge, ?_⟩
      intro read1 _
      unfold retained_stream
      rw [if_neg (by omega)]

/-- The first loop as `post_processing_first_pass` runs it. -/
theorem post_processing_first_pass_loop {lim : parser_limits} {t : cbc_tables}
    {context : parser_context_t} {r : compute_indicies_result} {first : first_pass_state}
    (h : post_processing_first_pass lim t context = .ok (r, first)) :
    r.context.byte_code = context.byte_code
      ∧ first_pass_loop lim t r.context.literal_pool r.context.literal_count
          (if r.context.literal_count ≤ lim.CBC_MAXIMUM_SMALL_VALUE then
            CBC_MAXIMUM_BYTE_VALUE - 1 else CBC_LOWER_SEVEN_BIT_MASK)
          (stream_end t r.context.byte_code) (stream_fuel r.context.byte_code)
          { pages := r.context.byte_code.pages, page_p := r.context.byte_code.first_p,
            offset := 0, length := r.length, last_opcode := t.CBC_EXT_OPCODE }
        = .ok first := by
  unfold post_processing_first_pass at h
  split at h
  · cases h
  · split at h
    · cases h
    · split at h
      · cases h
      · rename_i context1 h1
        split at h
        · cases h
        · rename_i r1 h2
          dsimp only at h
          split at h
          · cases h
          · rename_i first1 h3
            simp only [Except.ok.injEq, Prod.mk.injEq] at h
            obtain ⟨rfl, rfl⟩ := h
            exact ⟨by rw [parser_compute_indicies_byte_code h2,
              parser_copy_identifiers_byte_code h1], h3⟩

theorem parser_generate_initializers_stream {t : cbc_tables}
    {context context1 : parser_context_t}
    {dst dst1 : List Nat} {literal_table literal_table1 : List literal_value_t}
    {uninitialized_var_end initialized_var_end limit : Nat}
    (h : parser_generate_initializers t context dst literal_table uninitialized_var_end
      initialized_var_end limit = .ok (context1, dst1, literal_table1)) :
    context1.byte_code = context.byte_code
      ∧ context1.status_flags.no_end_label = context.status_flags.no_end_label := by
  unfold parser_generate_initializers at h
  dsimp only at h
  split at h
  · cases h
  · rename_i c1 d3 h1
    have e1 : c1.byte_code = context.byte_code
        ∧ c1.status_flags.no_end_label = context.status_flags.no_end_label := by
      split at h1
      · split at h1
        · cases h1
        · split_ifs at h1
          cases h1
          exact ⟨rfl, rfl⟩
      · cases h1
        exact ⟨rfl, rfl⟩
    split at h
    · cases h
    · split_ifs at h <;> cases h <;> exact e1

theorem post_processing_header_stream {lim : parser_limits} {t : cbc_tables}
    {context3 context5 : parser_context_t} {r : compute_indicies_result} {length : Nat}
    {compiled_code : cbc_compiled_code_t}
    (h : post_processing_header lim t context3 r length = .ok (compiled_code, context5)) :
    context5.byte_code = context3.byte_code
      ∧ context5.status_flags.no_end_label = context3.status_flags.no_end_label := by
  unfold post_processing_header at h
  dsimp only at h
  split at h
  · cases h
  · rename_i context4 h4
    have e4 : context4.byte_code = context3.byte_code
        ∧ context4.status_flags.no_end_label = context3.status_flags.no_end_label := by
      split_ifs at h4 <;> cases h4 <;> exact ⟨rfl, rfl⟩
    simp only [Except.ok.injEq, Prod.mk.injEq] at h
    obtain ⟨_, h5⟩ := h
    rw [← h5]
    split_ifs
    · exact e4
    · exact e4

theorem post_processing_end_label_stream (t : cbc_tables) (context : parser_context_t)
    (first : first_pass_state) :
    (post_processing_end_label t context first).2.byte_code = context.byte_code
      ∧ (post_processing_end_label t context first).1
        = if !(post_processing_end_label t context first).2.status_flags.no_end_label then
            first.length + 1
          else first.length := by
  unfold post_processing_end_label
  split_ifs with h1 h2 h2
  · exact ⟨rfl, rfl⟩
  · simp at h2
  · simp only [Bool.or_eq_true, Bool.not_eq_true', not_or, Bool.not_eq_false] at h1
    rw [h1.1] at h2
    simp at h2
  · exact ⟨rfl, rfl⟩


/-- The calls of `post_processing_copy_pass` when it returns. -/
theorem post_processing_copy_pass_unfold {t : cbc_tables}
    {context5 context6 : parser_context_t}
    {r : compute_indicies_result} {first : first_pass_state} {length limit : Nat}
    {literal_table literal_table1 : List literal_value_t} {copied : copy_state}
    {dst1 : List Nat}
    (h : post_processing_copy_pass t context5 r first length limit literal_table
      = .ok (context6, copied, dst1, literal_table1)) :
    ∃ dst0, parser_generate_initializers t context5 [] literal_table
          r.uninitialized_var_end r.initialized_var_end limit
        = .ok (context6, dst0, literal_table1)
      ∧ dst0.length = r.length
      ∧ copy_loop t limit (stream_end t context6.byte_code)
          (stream_fuel context6.byte_code)
          { pages := first.pages, page_p := context6.byte_code.first_p, offset := 0,
            real_offset := 0, dst := dst0 } = .ok copied := by
  unfold post_processing_copy_pass at h
  split at h
  · cases h
  · rename_i c6 d0 lt1 hgen
    split at h
    · rename_i hlen
      split at h
      · cases h
      · rename_i cp hcp
        dsimp only at h
        by_cases hfin : (if (!c6.status_flags.no_end_label) = true then
            cp.dst ++ [t.CBC_RETURN_WITH_BLOCK] else cp.dst).length = length
        · rw [if_pos hfin] at h
          simp only [Except.ok.injEq, Prod.mk.injEq] at h
          obtain ⟨rfl, rfl, _, rfl⟩ := h
          exact ⟨d0, hgen, hlen, hcp⟩
        · rw [if_neg hfin] at h
          cases h
    · cases h

/-- The calls of `parser_post_processing` when it returns. -/
theorem post_processing_parts {lim : parser_limits} {t : cbc_tables}
    {context0 context7 : parser_context_t} {cc : cbc_compiled_code_t}
    (h : parser_post_processing lim t context0 = .ok (cc, context7)) :
    ∃ r first compiled_code context5 context6 copied dst1 literal_table,
      post_processing_first_pass lim t context0 = .ok (r, first)
      ∧ post_processing_header lim t (post_processing_end_label t r.context first).2 r
          (post_processing_end_label t r.context first).1 = .ok (compiled_code, context5)
      ∧ post_processing_copy_pass t context5 r first
          (post_processing_end_label t r.context first).1
          (if r.context.literal_count ≤ lim.CBC_MAXIMUM_SMALL_VALUE then
            CBC_MAXIMUM_BYTE_VALUE - 1 else CBC_LOWER_SEVEN_BIT_MASK)
          compiled_code.literal_table = .ok (context6, copied, dst1, literal_table) := by
  cases hfirst : post_processing_first_pass lim t context0 with
  | error e =>
    unfold parser_post_processing at h
    rw [hfirst] at h
    cases h
  | ok rf =>
    obtain ⟨r, first⟩ := rf
    unfold parser_post_processing at h
    rw [hfirst] at h
    dsimp only at h
    split at h
    · cases h
    rename_i compiled_code context5 hhdr
    split at h
    · cases h
    rename_i context6 copied dst1 literal_table hcopy
    exact ⟨r, first, compiled_code, context5, context6, copied, dst1, literal_table, rfl,
      hhdr, hcopy⟩

/-- C28: the size of the byte code that the first loop of `parser_post_processing` decides
is the number of bytes that `parser_generate_initializers` and the copy pass write, so the
assertion `dst_p == byte_code_p + length` at the end of the copy pass holds. The stream is
well formed (`stream_ok`), no instruction of the stream as emitted has the opcode
`CBC_JUMP_FORWARD` (`no_marker_emitted`), and the opcode tables are those of a jump
`jump_forward` of three or four bytes that is neither `CBC_EXT_OPCODE` nor `CBC_RETURN`.
When the first loop, the header, the initializers (of the length `r.length` that
`parser_compute_indicies` decided) and the second loop return, then the first loop counted
`r.length` and one byte for every byte that `retained_stream` marks in the stream it left
behind, the second loop wrote one byte for each of these, and
`post_processing_copy_pass` returns: the byte code with the final return, where one is
written, has the length decided before. -/
theorem C28_final_size (lim : parser_limits) (t : cbc_tables)
    (context0 : parser_context_t) (chain : List Nat) (r : compute_indicies_result)
    (first : first_pass_state) (compiled_code : cbc_compiled_code_t)
    (context5 context6 : parser_context_t) (dst0 : List Nat)
    (literal_table1 : List literal_value_t) (copied : copy_state)
    (hext : t.jump_forward ≠ t.CBC_EXT_OPCODE) (hret : t.jump_forward ≠ t.CBC_RETURN)
    (hflags : t.cbc_flags t.jump_forward
      = { has_branch_arg := true, forward_branch_arg := true })
    (hwidth : t.CBC_BRANCH_OFFSET_LENGTH t.jump_forward + 1
      = if t.PARSER_MAXIMUM_CODE_SIZE ≤ 65535 then 3 else 4)
    (hs : stream_ok t context0.byte_code chain)
    (hfirst : post_processing_first_pass lim t context0 = .ok (r, first))
    (hemit : no_marker_emitted lim t r.context.literal_pool r.context.literal_count
      (if r.context.literal_count ≤ lim.CBC_MAXIMUM_SMALL_VALUE then
        CBC_MAXIMUM_BYTE_VALUE - 1 else CBC_LOWER_SEVEN_BIT_MASK)
      (stream_end t context0.byte_code) (stream_fuel context0.byte_code)
      { pages := context0.byte_code.pages, page_p := context0.byte_code.first_p,
        offset := 0, length := r.length, last_opcode := t.CBC_EXT_OPCODE } = true)
    (hheader : post_processing_header lim t (post_processing_end_label t r.context first).2
      r (post_processing_end_label t r.context first).1 = .ok (compiled_code, context5))
    (hgen : parser_generate_initializers t context5 [] compiled_code.literal_table
      r.uninitialized_var_end r.initialized_var_end
      (if r.context.literal_count ≤ lim.CBC_MAXIMUM_SMALL_VALUE then
        CBC_MAXIMUM_BYTE_VALUE - 1 else CBC_LOWER_SEVEN_BIT_MASK)
      = .ok (context6, dst0, literal_table1))
    (hlen : dst0.length = r.length)
    (hcopy : copy_loop t
      (if r.context.literal_count ≤ lim.CBC_MAXIMUM_SMALL_VALUE then
        CBC_MAXIMUM_BYTE_VALUE - 1 else CBC_LOWER_SEVEN_BIT_MASK)
      (stream_end t context6.byte_code) (stream_fuel context6.byte_code)
      { pages := first.pages, page_p := context6.byte_code.first_p, offset := 0,
        real_offset := 0, dst := dst0 } = .ok copied) :
    ∃ kept, retained_stream t
          (if r.context.literal_count ≤ lim.CBC_MAXIMUM_SMALL_VALUE then
            CBC_MAXIMUM_BYTE_VALUE - 1 else CBC_LOWER_SEVEN_BIT_MASK)
          (stream_read t first.pages chain) (stream_size t context0.byte_code chain)
          (stream_fuel context0.byte_code) 0 = some kept
      ∧ first.length = r.length + retained_count kept
      ∧ copied.dst.length = dst0.length + retained_count kept
      ∧ post_processing_copy_pass t context5 r first
          (post_processing_end_label t r.context first).1
          (if r.context.literal_count ≤ lim.CBC_MAXIMUM_SMALL_VALUE then
            CBC_MAXIMUM_BYTE_VALUE - 1 else CBC_LOWER_SEVEN_BIT_MASK)
          compiled_code.literal_table
        = .ok (context6, copied,
            (if !context6.status_flags.no_end_label then
              copied.dst ++ [t.CBC_RETURN_WITH_BLOCK]
            else copied.dst), literal_table1) := by
  have hn : 0 < t.PARSER_CBC_STREAM_PAGE_SIZE := hs.1
  obtain ⟨hbc, hloop⟩ := post_processing_first_pass_loop hfirst
  rw [hbc] at hloop
  have hcur : (context0.byte_code.first_p, 0) = cursor t chain 0 := by
    unfold cursor
    rw [Nat.zero_div, Nat.zero_mod, hs.2.2.2.1]
    cases chain <;> simp
  have hat0 : first_at t chain 0
      { pages := context0.byte_code.pages, page_p := context0.byte_code.first_p,
        offset := 0, length := r.length, last_opcode := t.CBC_EXT_OPCODE } :=
    ⟨hs.2.1, hs.2.2.1, hcur, by simp⟩
  obtain ⟨keptf, hatf, _, hlenf, _, hdf⟩ :=
    first_kept_loop hs rfl hext hret hflags hwidth _ 0 _ first hat0 hloop hemit
  have hdf0 := hdf (stream_read t first.pages chain) (fun _ _ _ => rfl)
  obtain ⟨g1, g2⟩ := parser_generate_initializers_stream hgen
  obtain ⟨k1, k2⟩ := post_processing_header_stream hheader
  obtain ⟨l1, l2⟩ := post_processing_end_label_stream t r.context first
  have hbc6 : context6.byte_code = context0.byte_code := by rw [g1, k1, l1, hbc]
  have hcopy0 := hcopy
  rw [hbc6] at hcopy0
  have hatc : copy_at t chain 0
      { pages := first.pages, page_p := context0.byte_code.first_p, offset := 0,
        real_offset := 0, dst := dst0 } :=
    ⟨hatf.1, hatf.2.1, hcur⟩
  obtain ⟨keptc, rc, _, hdc⟩ := kept_copy_loop hs _ 0 _ copied hatc hcopy0
  have hdc0 := hdc (stream_read t first.pages chain) (fun _ _ _ => rfl)
  have hk : keptc = keptf := Option.some.inj (hdc0.symm.trans hdf0)
  have hdst : copied.dst.length = dst0.length + retained_count keptf := by
    rw [← hk]
    exact rc.2.1
  refine ⟨keptf, hdf0, hlenf, hdst, ?_⟩
  have hfin : (if (!context6.status_flags.no_end_label) = true then
        copied.dst ++ [t.CBC_RETURN_WITH_BLOCK] else copied.dst).length
      = (post_processing_end_label t r.context first).1 := by
    rw [l2, g2, k2]
    split_ifs
    · rw [List.length_append, List.length_singleton, hdst, hlen, hlenf]
    · rw [hdst, hlen, hlenf]
  unfold post_processing_copy_pass
  rw [hgen]
  dsimp only
  rw [if_pos hlen, hcopy]
  dsimp only
  rw [if_pos hfin]


/-- C28 at a concrete stream: in `final_size_example` the first loop decides on nine bytes
(the literal argument shrinks to one byte, the jump to the next instruction is deleted,
the extended branch loses its leading zero byte), and the second loop writes nine
bytes. -/
theorem C28_final_size_witness :
    ∃ (r : compute_indicies_result) (first : first_pass_state)
      (compiled_code : cbc_compiled_code_t) (context5 context6 : parser_context_t)
      (dst0 : List Nat) (literal_table1 : List literal_value_t) (copied : copy_state)
      (kept : List Bool),
      post_processing_first_pass example_limits example_tables final_size_example
        = .ok (r, first)
      ∧ dst0.length = r.length
      ∧ retained_stream example_tables
          (if r.context.literal_count ≤ example_limits.CBC_MAXIMUM_SMALL_VALUE then
            CBC_MAXIMUM_BYTE_VALUE - 1 else CBC_LOWER_SEVEN_BIT_MASK)
          (stream_read example_tables first.pages [0, 1])
          (stream_size example_tables final_size_example.byte_code [0, 1])
          (stream_fuel final_size_example.byte_code) 0 = some kept
      ∧ first.length = r.length + retained_count kept
      ∧ copied.dst.length = dst0.length + retained_count kept
      ∧ post_processing_copy_pass example_tables context5 r first
          (post_processing_end_label example_tables r.context first).1
          (if r.context.literal_count ≤ example_limits.CBC_MAXIMUM_SMALL_VALUE then
            CBC_MAXIMUM_BYTE_VALUE - 1 else CBC_LOWER_SEVEN_BIT_MASK)
          compiled_code.literal_table
        = .ok (context6, copied,
            (if !context6.status_flags.no_end_label then
              copied.dst ++ [example_tables.CBC_RETURN_WITH_BLOCK]
            else copied.dst), literal_table1)
      ∧ first.length = 9 ∧ copied.dst.length = 9 := by
  have hok : (parser_post_processing example_limits example_tables
      final_size_example).toBool = true := by decide
  cases hp : parser_post_processing example_limits example_tables final_size_example with
  | error e => rw [hp] at hok; cases hok
  | ok res =>
    obtain ⟨cc, context7⟩ := res
    obtain ⟨r, first, compiled_code, context5, context6, copied, dst1, literal_table, h1,
      h2, h3⟩ := post_processing_parts hp
    obtain ⟨dst0, h4, h5, h6⟩ := post_processing_copy_pass_unfold h3
    have hv : (post_processing_first_pass example_limits example_tables
        final_size_example).toOption.map
          (fun x => (x.1.context.literal_pool, x.1.context.literal_count, x.1.length,
            x.2.length))
        = some ([ { value := some [100], length := 1, type := LEXER_IDENT_LITERAL } ],
            1, 0, 9) := by decide
    rw [h1] at hv
    simp only [Except.toOption, Option.map_some', Option.some.injEq, Prod.mk.injEq] at hv
    obtain ⟨v1, v2, v3, v4⟩ := hv
    obtain ⟨kept, k1, k2, k3, k4⟩ := C28_final_size example_limits example_tables
      final_size_example [0, 1] r first compiled_code context5 context6 dst0 literal_table
      copied (by decide) (by decide) (by decide) (by decide) (by decide) h1
      (by rw [v1, v2, v3]; decide) h2 h4 h5 h6
    refine ⟨r, first, compiled_code, context5, context6, dst0, literal_table, copied, kept,
      h1, h5, k1, k2, k3, k4, v4, ?_⟩
    rw [k3, h5, ← k2, v4]

/-! ## `parser_copy_identifiers`: the inherited `PARSER_NO_REG_STORE` -/

/-- C35: when the finished function has `PARSER_NO_REG_STORE` and its parent is a function,
`parser_copy_identifiers` returns, and the only change is `PARSER_NO_REG_STORE` set in the
flags of the parent: the records of the parent pool and the parent `literal_count` are the
same, every other flag of the parent is the same, and the context of the finished function
(its pool included) is the same except for the parent it points to. -/
theorem C35_no_reg_store_inherited (context : parser_context_t)
    (parent : parser_saved_context_t)
    (hparent : context.last_context_p = some parent)
    (hfun : parent.status_flags.is_function = true)
    (hflag : context.status_flags.no_reg_store = true) :
    ∃ context1 parent1, parser_copy_identifiers context = .ok context1
      ∧ context1 = { context with last_context_p := some parent1 }
      ∧ context1.literal_pool = context.literal_pool
      ∧ parent1 = { parent with
          status_flags := { parent.status_flags with no_reg_store := true } }
      ∧ parent1.status_flags.no_reg_store = true
      ∧ parent1.literal_pool_data = parent.literal_pool_data
      ∧ parent1.literal_count = parent.literal_count := by
  refine ⟨_, _, ?_, rfl, rfl, rfl, rfl, rfl, rfl⟩
  unfold parser_copy_identifiers
  rw [hparent]
  simp only [hfun, hflag, Bool.not_true, Bool.false_eq_true, if_false, if_true]

/-- Witness of C35: `no_reg_store_example` in the function `hoist_example_parent`. -/
theorem C35_no_reg_store_inherited_witness :
    ∃ context1 parent1, parser_copy_identifiers no_reg_store_example = .ok context1
      ∧ context1 = { no_reg_store_example with last_context_p := some parent1 }
      ∧ context1.literal_pool = no_reg_store_example.literal_pool
      ∧ parent1 = { hoist_example_parent with
          status_flags := { hoist_example_parent.status_flags with no_reg_store := true } }
      ∧ parent1.status_flags.no_reg_store = true
      ∧ parent1.literal_pool_data = hoist_example_parent.literal_pool_data
      ∧ parent1.literal_count = hoist_example_parent.literal_count :=
  C35_no_reg_store_inherited no_reg_store_example hoist_example_parent rfl rfl rfl

/-! ## The 8 bit header -/

/-- The second loop leaves a record flagged `LEXER_FLAG_UNUSED_IDENT` alone: it passes only
for an identifier, and the record and the counters are as before. -/
theorem assign_index_flagged (lim : parser_limits) (hiv : Bool) (limit rc : Nat)
    (st st1 : index_state) (x x2 : lexer_literal_t) (next fo : Option lexer_literal_t)
    (h : assign_index lim hiv limit rc st x next = .ok (x2, st1, fo))
    (hx : x.status_flags.unused_ident = true) :
    x.type = LEXER_IDENT_LITERAL ∧ x2 = x ∧ st1 = st ∧ fo = none := by
  rcases x with ⟨v, len, idx, t, ⟨f1, f2, f3, f4, f5, f6⟩⟩
  dsimp only at hx
  subst hx
  unfold assign_index at h
  cases t <;>
    simp only [ne_eq, reduceCtorEq, not_false_eq_true, not_true_eq_false, if_true, if_false,
      or_self, or_false, false_or, lexer_flags.mk.injEq, Bool.true_eq_false, and_false,
      false_and, Except.ok.injEq, Prod.mk.injEq] at h
  · obtain ⟨rfl, rfl, rfl⟩ := h
    exact ⟨rfl, rfl, rfl, rfl⟩

/-- The second loop over the pool leaves every record flagged `LEXER_FLAG_UNUSED_IDENT`
that is no function literal as it is. -/
theorem assign_indices_flagged (lim : parser_limits) (hiv : Bool) (limit rc : Nat) :
    ∀ (n : Nat) (l : List lexer_literal_t), l.length ≤ n →
    ∀ (st : index_state) (l2 : List lexer_literal_t) (i : index_state),
    assign_indices lim hiv limit rc st l = .ok (l2, i) →
    List.Forall₂ (fun a b => a.status_flags.unused_ident = true →
      a.type ≠ LEXER_FUNCTION_LITERAL → b = a ∧ a.type = LEXER_IDENT_LITERAL) l l2 := by
  intro n
  induction n with
  | zero =>
    intro l hl st l2 i h
    have : l = [] := List.length_eq_zero.1 (Nat.le_zero.1 hl)
    subst this
    rw [assign_indices] at h
    simp only [Except.ok.injEq, Prod.mk.injEq] at h
    obtain ⟨rfl, -⟩ := h
    exact List.Forall₂.nil
  | succ n ih =>
    intro l hl st l2 i h
    match l, hl, h with
    | [], _, h =>
      rw [assign_indices] at h
      simp only [Except.ok.injEq, Prod.mk.injEq] at h
      obtain ⟨rfl, -⟩ := h
      exact List.Forall₂.nil
    | [x], _, h =>
      rw [assign_indices] at h
      split at h
      · exact absurd h (by simp)
      · rename_i x2 st1 fo hbody
        simp only [Except.ok.injEq, Prod.mk.injEq] at h
        obtain ⟨rfl, -⟩ := h
        exact List.Forall₂.cons
          (fun hx _ =>
            have g := assign_index_flagged lim hiv limit rc st st1 x x2 none fo hbody hx
            ⟨g.2.1, g.1⟩)
          List.Forall₂.nil
    | x :: z :: rest, hl, h =>
      have hl1 : (z :: rest).length ≤ n := by simp at hl ⊢; omega
      have hl2 : rest.length ≤ n := by simp at hl; omega
      rw [assign_indices] at h
      split at h
      · exact absurd h (by simp)
      · rename_i x2 st1 hbody
        split at h
        · exact absurd h (by simp)
        · rename_i rest1 st2 hrec
          simp only [Except.ok.injEq, Prod.mk.injEq] at h
          obtain ⟨rfl, -⟩ := h
          exact List.Forall₂.cons
            (fun hx _ =>
              have g := assign_index_flagged lim hiv limit rc st st1 x x2 (some z) none hbody hx
              ⟨g.2.1, g.1⟩)
            (ih _ hl1 _ _ _ hrec)
      · rename_i x2 st1 z2 hbody
        split at h
        · exact absurd h (by simp)
        · rename_i rest1 st2 hrec
          simp only [Except.ok.injEq, Prod.mk.injEq] at h
          obtain ⟨rfl, -⟩ := h
          refine List.Forall₂.cons
            (fun hx _ =>
              have g := assign_index_flagged lim hiv limit rc st st1 x x2 (some z) (some z2)
                hbody hx
              ⟨g.2.1, g.1⟩)
            (List.Forall₂.cons ?_ (ih _ hl2 _ _ _ hrec))
          intro _ hzt
          obtain ⟨_, _, _, _, _, _, _, h7⟩ :=
            assign_index_spec lim hiv limit rc st st1 x x2 (some z) (some z2) hbody
          rcases h7 with ⟨hf, _⟩ | ⟨_, _, f, hf, hft, _⟩
          · exact absurd hf (by simp)
          · simp only [Option.some.injEq] at hf
            subst hf
            exact absurd hft hzt

/-- The first loop keeps `literal_count` a `uint16_t`. -/
theorem count_literal_bound (lim : parser_limits) (st st1 : count_state)
    (x x1 : lexer_literal_t) (h : count_literal lim st x = .ok (x1, st1))
    (hb : st.literal_count < 65536) : st1.literal_count < 65536 := by
  rcases x with ⟨v, len, idx, t, ⟨f1, f2, f3, f4, f5, f6⟩⟩
  unfold count_literal at h
  generalize st.status_flags.no_reg_store = a at h
  generalize (st.status_flags.arguments_needed && !st.status_flags.is_strict) = b at h
  generalize decide (st.register_count < lim.PARSER_MAXIMUM_NUMBER_OF_REGISTERS) = c at h
  cases f5
  · cases t
    · cases f1
      · simp only [Bool.false_eq_true, if_false, Except.ok.injEq, Prod.mk.injEq] at h
        obtain ⟨rfl, rfl⟩ := h
        exact hb
      · cases f2 <;> cases f3 <;> cases f4 <;> cases a <;> cases b <;> cases c <;>
        simp only [lexer_literal_t.set_no_reg_store, Bool.false_eq_true, if_false, if_true,
          Bool.not_false, Bool.not_true, Bool.and_self, Bool.and_true, Bool.and_false,
          Bool.true_and, Bool.false_and] at h <;>
        (try split_ifs at h) <;>
        first
          | (cases h; done)
          | (simp only [Except.ok.injEq, Prod.mk.injEq] at h
             obtain ⟨rfl, rfl⟩ := h
             try dsimp only
             first
               | (unfold u16; omega)
               | exact hb)
    all_goals
      cases f4 <;>
      simp only [Bool.false_eq_true, if_false, if_true, Bool.not_false, Bool.not_true,
        Except.ok.injEq, Prod.mk.injEq] at h <;>
      obtain ⟨rfl, rfl⟩ := h <;>
      (try dsimp only) <;>
      first
        | (unfold u16; omega)
        | exact hb
  · simp only [if_true, Except.ok.injEq, Prod.mk.injEq] at h
    obtain ⟨rfl, rfl⟩ := h
    dsimp only
    unfold u16
    omega

theorem count_literals_bound (lim : parser_limits) (l : List lexer_literal_t) :
    ∀ (st c : count_state) (l1 : List lexer_literal_t),
    count_literals lim st l = .ok (l1, c) → st.literal_count < 65536 →
    c.literal_count < 65536 := by
  induction l with
  | nil =>
    intro st c l1 h hb
    rw [count_literals] at h
    simp only [Except.ok.injEq, Prod.mk.injEq] at h
    obtain ⟨rfl, rfl⟩ := h
    exact hb
  | cons x l ih =>
    intro st c l1 h hb
    rw [count_literals] at h
    split at h
    · exact absurd h (by simp)
    · rename_i x1 st1 hbody
      split at h
      · exact absurd h (by simp)
      · rename_i rest1 st2 hrec
        simp only [Except.ok.injEq, Prod.mk.injEq] at h
        obtain ⟨rfl, rfl⟩ := h
        exact ih _ _ _ hrec (count_literal_bound lim st st1 x x1 hbody hb)

/-- A class that does not look at `prop.index` has as many records after the second loop
as before. -/
theorem filter_length_indexed (K : lexer_literal_t → Bool)
    (hK : ∀ (a : lexer_literal_t) (n : Nat), K { a with index := n } = K a)
    {l l2 : List lexer_literal_t} (h : List.Forall₂ same_but_index l l2) :
    (l2.filter K).length = (l.filter K).length := by
  induction h with
  | nil => rfl
  | cons hab _ ih =>
    rw [length_filter_cons, length_filter_cons, ih]
    unfold same_but_index at hab
    rw [hab, hK]

theorem class_indices_length (K : lexer_literal_t → Bool) (l : List lexer_literal_t) :
    (class_indices K l).length = (l.filter K).length := by
  unfold class_indices
  rw [List.length_map]

/-- Every index from `argument_end` to `literal_end` is the index of exactly one record in
use. -/
theorem compute_indicies_slots (lim : parser_limits) (context : parser_context_t)
    (r : compute_indicies_result) (hc : pool_consistent context)
    (h : parser_compute_indicies lim context = .ok r) :
    ∀ j, r.context.argument_count ≤ j → j < r.context.literal_count →
      (class_indices in_use r.context.literal_pool).count j = 1 := by
  obtain ⟨_, q0, q1, q2, q3, q4, q5, q6, _⟩ :=
    compute_indicies_layout lim context r h hc.1 hc.2.2.2.1
  have hf := function_literal_indices lim context r hc h
  have q7 := hf.trans q6.2
  have hcount : ∀ j, (class_indices in_use r.context.literal_pool).count j
      = (class_indices is_argument r.context.literal_pool).count j
        + (if r.context.argument_count ≤ j ∧ j < r.context.literal_count then 1 else 0) := by
    intro j
    rw [count_in_use_indices, q1.2, q2.2, q3.2, q4.2, q5.2, q7]
    simp only [count_range']
    rw [Nat.add_sub_cancel' q1.1, Nat.add_sub_cancel' q2.1, Nat.add_sub_cancel' q3.1,
      Nat.add_sub_cancel' q4.1, Nat.add_sub_cancel' q5.1, Nat.add_sub_cancel' q6.1,
      ← indicator_chain _ _ _ _ _ _ _ j q1.1 q2.1 q3.1 q4.1 q5.1 q6.1]
    ring
  have harg : ∀ j, (class_indices is_argument r.context.literal_pool).count j
      ≤ if j < r.context.argument_count then 1 else 0 := by
    intro j
    have h1 := q0.count_le j
    rw [count_range'] at h1
    simpa using h1
  intro j hj1 hj2
  rw [hcount j]
  have := harg j
  split_ifs at * <;> omega

/-- The `literal_count` that `parser_compute_indicies` leaves: the number of records, less
the dropped records, plus the mirrored arguments. -/
theorem compute_indicies_literal_count (lim : parser_limits) (context : parser_context_t)
    (r : compute_indicies_result) (hc : pool_consistent context)
    (h : parser_compute_indicies lim context = .ok r) :
    r.context.literal_count + (r.context.literal_pool.filter is_dropped).length
        = context.literal_pool.length
          + (r.context.literal_pool.filter is_mirrored_argument).length := by
  obtain ⟨hrc, hac, hlc, hN, hfol⟩ := hc
  obtain ⟨c, pool1, i, hcl, hassign, -, -, -, -, -, -, -, -, -, -, elc, -⟩ :=
    compute_indicies_full lim context r h
  obtain ⟨qa, q0, q1, q2, q3, q4, q5, q6, qf⟩ :=
    compute_indicies_layout lim context r h hrc hN
  have hm := count_literals_spec lim _ _ _ _ hcl
  have hsame := (assign_indices_spec lim _ _ _ pool1.length pool1 (le_refl _) _ _ _ hassign).1
  have hstart : (count_start context).literal_count = context.literal_count := rfl
  have hbc : c.literal_count < 65536 :=
    count_literals_bound lim _ _ _ _ hcl (by rw [hstart, hlc]; omega)
  have hD := filter_length_indexed is_dropped (fun _ _ => rfl) hsame
  have hM := filter_length_indexed is_mirrored_argument (fun _ _ => rfl) hsame
  have hlen2 : r.context.literal_pool.length = context.literal_pool.length :=
    (List.Forall₂.length_eq hsame).symm.trans (List.Forall₂.length_eq hm.1).symm
  obtain ⟨p1, p2, p3, p4, p5⟩ := class_partition r.context.literal_pool
  have l1 := congrArg List.length q1.2
  have l2 := congrArg List.length q2.2
  have l3 := congrArg List.length q3.2
  have l4 := congrArg List.length q4.2
  have l5 := congrArg List.length q5.2
  have l6 := congrArg List.length q6.2
  rw [class_indices_length, List.length_range'] at l1 l2 l3 l4 l5 l6
  have hmod := hm.2
  rw [hstart, hlc, ← hD, ← hM, ← elc, ← hlen2] at hmod
  rw [← elc] at hbc
  rw [← hlen2] at hN
  have harg_le : r.context.argument_count ≤ r.context.literal_pool.length := by
    rw [qa, hac, hlen2]
    exact List.length_filter_le _ _
  have hq1 := q1.1
  have hq2 := q2.1
  have hq3 := q3.1
  have hq4 := q4.1
  have hq5 := q5.1
  have hq6 := q6.1
  rw [← hlen2]
  clear hcl hassign hsame q0 q1 q2 q3 q4 q5 q6 qf hm hfol hac hrc hlc hstart hD hM elc
  omega

/-- C36: a record `x` of a consistent pool that is flagged `LEXER_FLAG_UNUSED_IDENT`, when
`parser_compute_indicies` returns: the record is an identifier and is in the pool on return
as it was (no index is written to it); the first loop, which reaches it with the counters
`c1`, lowers `literal_count` by exactly one (no wrap-around) and changes no other counter;
on return `literal_count` is the number of records less the dropped records plus the
mirrored arguments; the record is dropped, neither in use nor counted as an argument, while
every index from `argument_end` to `literal_end` is the index of exactly one record in
use. -/
theorem C36_unused_ident_elided (lim : parser_limits) (context : parser_context_t)
    (r : compute_indicies_result) (pre post : List lexer_literal_t) (x : lexer_literal_t)
    (hc : pool_consistent context) (h : parser_compute_indicies lim context = .ok r)
    (hpool : context.literal_pool = pre ++ x :: post)
    (hx : x.status_flags.unused_ident = true) :
    r.context.literal_pool[pre.length]? = some x
      ∧ x.type = LEXER_IDENT_LITERAL
      ∧ (∃ pre1 c1, count_literals lim (count_start context) pre = .ok (pre1, c1)
          ∧ 0 < c1.literal_count
          ∧ count_literal lim c1 x
            = .ok (x, { c1 with literal_count := c1.literal_count - 1 }))
      ∧ r.context.literal_count + (r.context.literal_pool.filter is_dropped).length
        = context.literal_pool.length
          + (r.context.literal_pool.filter is_mirrored_argument).length
      ∧ is_dropped x = true ∧ in_use x = false ∧ is_counted_argument x = false
      ∧ ∀ j, r.context.argument_count ≤ j → j < r.context.literal_count →
          (class_indices in_use r.context.literal_pool).count j = 1 := by
  have hslots := compute_indicies_slots lim context r hc h
  have hexact := compute_indicies_literal_count lim context r hc h
  obtain ⟨hrc, hac, hlc, hN, hfol⟩ := hc
  obtain ⟨c, pool1, i, hcl, hassign, -⟩ := compute_indicies_full lim context r h
  obtain ⟨-, -, -, -, -, -, -, -, qf⟩ := compute_indicies_layout lim context r h hrc hN
  have hsame := (assign_indices_spec lim _ _ _ pool1.length pool1 (le_refl _) _ _ _ hassign).1
  have hflag := assign_indices_flagged lim _ _ _ pool1.length pool1 (le_refl _) _ _ _ hassign
  have hstart : (count_start context).literal_count = context.literal_count := rfl
  have hplen : (pre ++ x :: post).length = pre.length + 1 + post.length := by simp; omega
  -- the first loop at the record
  rw [hpool] at hcl
  obtain ⟨pre1, c1, x1, c2, post1, e1, e2, e3, e4, e5⟩ :=
    count_literals_split lim pre _ _ _ _ _ hcl
  have hb1 : c1.literal_count < 65536 :=
    count_literals_bound lim _ _ _ _ e1 (by rw [hstart, hlc]; omega)
  have hm1 := (count_literals_spec lim _ _ _ _ e1).2
  have hd1 : (pre1.filter is_dropped).length ≤ pre1.length := List.length_filter_le _ _
  have hs1 : (pre1.filter is_mirrored_argument).length ≤ pre1.length :=
    List.length_filter_le _ _
  have hpos : 0 < c1.literal_count := by
    rw [hstart, hlc, hpool, hplen] at hm1
    rw [hpool, hplen] at hN
    clear hcl hassign hsame hflag e1 e2 e3 e4 hslots hexact qf
    omega
  unfold count_literal at e2
  rw [if_pos hx] at e2
  simp only [Except.ok.injEq, Prod.mk.injEq] at e2
  obtain ⟨ex1, -⟩ := e2
  have hstep : count_literal lim c1 x
      = .ok (x, { c1 with literal_count := c1.literal_count - 1 }) := by
    unfold count_literal
    rw [if_pos hx]
    have : u16 (c1.literal_count + 65535) = c1.literal_count - 1 := by
      unfold u16
      omega
    rw [this]
  -- the record after the second loop
  have hx1 : pool1[pre.length]? = some x := by
    rw [e4, ← e5, List.getElem?_append_right (le_refl _), ← ex1]
    simp
  obtain ⟨y, hy, hxy⟩ := forall₂_getElem?_left hsame _ _ hx1
  obtain ⟨y2, hy2, hxy2⟩ := forall₂_getElem?_left hflag _ _ hx1
  rw [hy] at hy2
  simp only [Option.some.injEq] at hy2
  subst hy2
  have hymem : y ∈ r.context.literal_pool := List.getElem?_mem hy
  unfold same_but_index at hxy
  have hnf : x.type ≠ LEXER_FUNCTION_LITERAL := by
    intro ht
    have hyu := qf hlc y hymem (by rw [hxy]; simp [is_function_type, ht])
    rw [hxy] at hyu
    rw [hx] at hyu
    cases hyu
  obtain ⟨hyx, hxt⟩ := hxy2 hx hnf
  refine ⟨by rw [hy, hyx], hxt, ⟨pre1, c1, e1, hpos, hstep⟩, hexact, ?_, ?_, ?_, hslots⟩
  · unfold is_dropped
    rw [hx]
    rfl
  · unfold in_use
    rw [hx]
    simp
  · unfold is_counted_argument
    rw [hx]
    rfl

/-- Witness of C36: in `unused_ident_example` the record of `u` stays as it is, the
argument gets the index 0 and the string the index 1, and `literal_count` goes from 3
to 2. -/
theorem C36_unused_ident_elided_witness :
    ∃ r, parser_compute_indicies example_limits unused_ident_example = .ok r
      ∧ r.context.literal_count = 2
      ∧ class_indices in_use r.context.literal_pool = [0, 1]
      ∧ r.context.literal_pool[1]?
        = some { value := some [117], length := 1, type := LEXER_IDENT_LITERAL,
                 status_flags := { no_reg_store := true, unused_ident := true } }
      ∧ ∀ j, r.context.argument_count ≤ j → j < r.context.literal_count →
          (class_indices in_use r.context.literal_pool).count j = 1 :=
  ⟨_, rfl, rfl, rfl,
    (C36_unused_ident_elided example_limits unused_ident_example _
      [ { value := some [97], length := 1, type := LEXER_IDENT_LITERAL,
          status_flags := { var := true, initialized := true, function_argument := true } } ]
      [ { value := some [115], length := 1, type := LEXER_STRING_LITERAL } ]
      { value := some [117], length := 1, type := LEXER_IDENT_LITERAL,
        status_flags := { no_reg_store := true, unused_ident := true } }
      (by decide) rfl rfl rfl).1,
    (C36_unused_ident_elided example_limits unused_ident_example _
      [ { value := some [97], length := 1, type := LEXER_IDENT_LITERAL,
          status_flags := { var := true, initialized := true, function_argument := true } } ]
      [ { value := some [115], length := 1, type := LEXER_STRING_LITERAL } ]
      { value := some [117], length := 1, type := LEXER_IDENT_LITERAL,
        status_flags := { no_reg_store := true, unused_ident := true } }
      (by decide) rfl rfl rfl).2.2.2.2.2.2.2⟩

/-! ## The stack limit check of `parser_post_processing` -/

/-- The check on entry: when `stack_limit` plus `register_count` is above
`PARSER_MAXIMUM_STACK_LIMIT`, `PARSER_ERR_STACK_LIMIT_REACHED` is raised. -/
theorem post_processing_stack_limit_raised (lim : parser_limits) (t : cbc_tables)
    (context0 : parser_context_t)
    (h : context0.stack_limit + context0.register_count > t.PARSER_MAXIMUM_STACK_LIMIT) :
    parser_post_processing lim t context0
      = .error (Fault.raised parser_error_t.PARSER_ERR_STACK_LIMIT_REACHED) := by
  unfold parser_post_processing post_processing_first_pass
  rw [if_pos h]

/-- When `parser_post_processing` returns, the stack limit and the register count of the
context on entry are within `PARSER_MAXIMUM_STACK_LIMIT`. -/
theorem post_processing_stack_limit_entry {lim : parser_limits} {t : cbc_tables}
    {context0 context7 : parser_context_t} {cc : cbc_compiled_code_t}
    (h : parser_post_processing lim t context0 = .ok (cc, context7)) :
    context0.stack_limit + context0.register_count ≤ t.PARSER_MAXIMUM_STACK_LIMIT := by
  by_contra hgt
  rw [post_processing_stack_limit_raised lim t context0 (by omega)] at h
  cases h

/-- C38 (failing input): `stack_limit_example` passes the check on entry (stack limit 1024,
no register yet, `PARSER_MAXIMUM_STACK_LIMIT` 1024); `parser_compute_indicies` then makes
the local variable a register, and `parser_post_processing` returns compiled code with the
16 bit header, `stack_limit` 1024 and `register_end` 1: the sum is 1025. -/
theorem C38_stack_limit_exceeded :
    pool_consistent stack_limit_example
      ∧ stack_limit_example.stack_limit + stack_limit_example.register_count
        ≤ example_tables.PARSER_MAXIMUM_STACK_LIMIT
      ∧ ∃ cc context7, parser_post_processing example_limits example_tables
          stack_limit_example = .ok (cc, context7)
        ∧ cc.status_flags.uint16_arguments = true
        ∧ cc.stack_limit = 1024 ∧ cc.register_end = 1
        ∧ cc.byte_code = [4, 13]
        ∧ ¬ cc.stack_limit + cc.register_end ≤ example_tables.PARSER_MAXIMUM_STACK_LIMIT :=
  ⟨by decide, by decide, _, _, rfl, rfl, rfl, rfl, rfl, by decide⟩

/-! ## The assertion after the operands of `CBC_INITIALIZE_VARS` -/

/-- C39 (failing input): for `rest_initialized_example`, a function with a rest parameter
and three initialized variables that are no registers, `parser_post_processing` takes the
rest parameter off `argument_count` (2 becomes 1) before `parser_generate_initializers`
runs; the walk that writes the operands of `CBC_INITIALIZE_VARS` counts both argument
records, the assertion that closes it compares 2 with 1 and fails. Without the rest
parameter the same function is compiled. -/
theorem C39_rest_parameter_initializers_assertion :
    pool_consistent rest_initialized_example
      ∧ ∃ r first compiled_code context5,
      post_processing_first_pass example_limits example_tables rest_initialized_example
        = .ok (r, first)
      ∧ post_processing_header example_limits example_tables
          (post_processing_end_label example_tables r.context first).2 r
          (post_processing_end_label example_tables r.context first).1
        = .ok (compiled_code, context5)
      ∧ context5.status_flags.has_initialized_vars = true
      ∧ context5.status_flags.function_has_rest_param = true
      ∧ r.context.argument_count = 2
      ∧ context5.argument_count = 1
      ∧ (initialize_vars_loop (CBC_MAXIMUM_BYTE_VALUE - 1)
          { dst := [15, 2, 4], argument_count := 0, next_index := r.uninitialized_var_end,
            literal_table := compiled_code.literal_table }
          context5.literal_pool).toOption.map (fun x => (x.2.argument_count, x.2.dst))
        = some (2, [15, 2, 4, 0, 1, 5])
      ∧ parser_generate_initializers example_tables context5 [] compiled_code.literal_table
          r.uninitialized_var_end r.initialized_var_end (CBC_MAXIMUM_BYTE_VALUE - 1)
        = .error Fault.assertion
      ∧ parser_post_processing example_limits example_tables rest_initialized_example
        = .error Fault.assertion
      ∧ (parser_post_processing example_limits example_tables
          { rest_initialized_example with
            status_flags := { is_function := true } }).toOption.map
            (fun x => (x.1.argument_end, x.1.byte_code))
        = some (2, [15, 2, 4, 0, 1, 5, 4, 13]) :=
  ⟨by decide, _, _, _, _, rfl, rfl, rfl, rfl, rfl, rfl, rfl, rfl, rfl, rfl⟩

/-! ## The table of argument names -/

/-- The loop that fills the table of argument names: when it returns, it has appended one
entry for each of the next records flagged `LEXER_FLAG_FUNCTION_ARGUMENT`, in pool order,
up to the argument count. -/
theorem argument_names_loop_spec (pool : List lexer_literal_t)
    (literal_table : List literal_value_t) (rc ac : Nat) (hac : ac < 65536) :
    ∀ (fuel : Nat) (iterator : List lexer_literal_t) (argument_count : Nat)
      (names out : List literal_value_t),
    argument_count ≤ ac →
    argument_names_loop pool literal_table rc ac fuel iterator argument_count names
      = .ok out →
    ∃ vs, out = names ++ vs ∧ vs.length = ac - argument_count
      ∧ List.Forall₂ (argument_entry pool literal_table rc)
        ((iterator.filter (fun x => x.status_flags.function_argument)).take
          (ac - argument_count)) vs := by
  intro fuel
  induction fuel with
  | zero =>
    intro iterator argument_count names out hle h
    unfold argument_names_loop at h
    split_ifs at h with hlt
    simp only [Except.ok.injEq] at h
    subst h
    have hz : ac - argument_count = 0 := by omega
    rw [hz]
    exact ⟨[], by simp, rfl, by simp⟩
  | succ fuel ih =>
    intro iterator argument_count names out hle h
    unfold argument_names_loop at h
    by_cases hlt : argument_count < ac
    · rw [if_pos hlt] at h
      have hu : u16 (argument_count + 1) = argument_count + 1 := by
        unfold u16
        omega
      have hsub : ac - argument_count = (ac - (argument_count + 1)) + 1 := by omega
      cases iterator with
      | nil => cases h
      | cons literal rest =>
        dsimp only at h
        by_cases hfa : literal.status_flags.function_argument = true
        · simp only [hfa, Bool.not_true, Bool.false_eq_true, if_false] at h
          have hfilter : (literal :: rest).filter (fun x => x.status_flags.function_argument)
              = literal :: rest.filter (fun x => x.status_flags.function_argument) := by
            rw [List.filter_cons_of_pos (by simpa using hfa)]
          rw [hfilter, hsub, List.take_succ_cons]
          by_cases hnull : literal.type = LEXER_UNUSED_LITERAL ∧ literal.value = none
          · rw [if_pos hnull, hu] at h
            obtain ⟨vs, e1, e2, e3⟩ := ih rest (argument_count + 1) _ out (by omega) h
            refine ⟨none :: vs, ?_, by rw [List.length_cons, e2], ?_⟩
            · rw [e1, List.append_assoc]
              rfl
            · exact List.Forall₂.cons (Or.inl ⟨hnull.1, hnull.2, rfl⟩) e3
          · rw [if_neg hnull] at h
            split at h
            · cases h
            · rename_i target htarget
              by_cases hasrt : target.type = LEXER_IDENT_LITERAL
                  ∧ target.status_flags.var = true ∧ target.index ≥ rc
              · rw [if_pos hasrt] at h
                split at h
                · cases h
                · rename_i value hvalue
                  rw [hu] at h
                  obtain ⟨vs, e1, e2, e3⟩ := ih rest (argument_count + 1) _ out (by omega) h
                  refine ⟨value :: vs, ?_, by rw [List.length_cons, e2], ?_⟩
                  · rw [e1, List.append_assoc]
                    rfl
                  · refine List.Forall₂.cons (Or.inr ⟨hnull, target, ?_, hasrt.1, hasrt.2.1,
                      hasrt.2.2, hvalue⟩) e3
                    by_cases hty : literal.type = LEXER_UNUSED_LITERAL
                    · rw [if_pos hty] at htarget ⊢
                      unfold PARSER_GET_LITERAL at htarget
                      split at htarget
                      · cases htarget
                      · rename_i l hl
                        simp only [Except.ok.injEq] at htarget
                        rw [hl, htarget]
                    · rw [if_neg hty] at htarget ⊢
                      simp only [Except.ok.injEq] at htarget
                      rw [htarget]
              · rw [if_neg hasrt] at h
                cases h
        · have hfa2 : literal.status_flags.function_argument = false := by
            simpa using hfa
          simp only [hfa2, Bool.not_false, if_true] at h
          have hfilter : (literal :: rest).filter (fun x => x.status_flags.function_argument)
              = rest.filter (fun x => x.status_flags.function_argument) := by
            rw [List.filter_cons_of_neg (by simpa using hfa)]
          rw [hfilter]
          exact ih rest argument_count names out hle h
    · rw [if_neg hlt] at h
      simp only [Except.ok.injEq] at h
      subst h
      have hz : ac - argument_count = 0 := by omega
      rw [hz]
      exact ⟨[], by simp, rfl, by simp⟩

/-- The literal table after the body of the last loop of `parser_generate_initializers`:
the value of a record in use with an index from `register_count` on is stored at its
index. -/
theorem initialize_var_literal_table {t : cbc_tables} {limit rc : Nat}
    {st st1 : initializers_state} {x : lexer_literal_t} {next : Option lexer_literal_t}
    {consumed : Bool}
    (h : initialize_var_literal t limit rc st x next = .ok (st1, consumed)) :
    st1.literal_table
        = (if x.type ≠ LEXER_UNUSED_LITERAL ∧ x.status_flags.unused_ident = false
              ∧ x.index ≥ rc then
            st.literal_table.set (x.index - rc) x.value else st.literal_table)
      ∧ (x.type ≠ LEXER_UNUSED_LITERAL ∧ x.status_flags.unused_ident = false
          ∧ x.index ≥ rc → x.index - rc < st.literal_table.length) := by
  unfold initialize_var_literal at h
  split at h
  · cases h
  · rename_i table1 heq
    dsimp only at h
    have key : st1.literal_table = table1 := by
      revert h
      cases hfa : x.status_flags.function_argument <;> intro h <;>
        simp only [Bool.false_eq_true, if_false, if_true] at h
      · by_cases hvi : (x.status_flags.var && x.status_flags.initialized) = true
        · rw [if_pos hvi] at h
          by_cases hty : x.type = LEXER_IDENT_LITERAL
          · rw [if_pos hty] at h
            cases next with
            | none => cases h
            | some f =>
              dsimp only at h
              by_cases hft : f.type = LEXER_FUNCTION_LITERAL
              · rw [if_pos hft] at h
                by_cases hge : f.index ≥ rc
                · rw [if_pos hge] at h
                  simp only [Except.ok.injEq, Prod.mk.injEq] at h
                  obtain ⟨rfl, -⟩ := h
                  rfl
                · rw [if_neg hge] at h
                  cases h
              · rw [if_neg hft] at h
                cases h
          · rw [if_neg hty] at h
            cases h
        · rw [if_neg hvi] at h
          simp only [Except.ok.injEq, Prod.mk.injEq] at h
          obtain ⟨rfl, -⟩ := h
          rfl
      · by_cases hvi : (x.status_flags.var && x.status_flags.initialized) = true
        · rw [if_pos hvi] at h
          by_cases hty : x.type = LEXER_IDENT_LITERAL
          · rw [if_pos hty] at h
            by_cases hidx : u16 (u16 (st.argument_count + 1) + 65535) = x.index
            · rw [if_pos hidx] at h
              simp only [Except.ok.injEq, Prod.mk.injEq] at h
              obtain ⟨rfl, -⟩ := h
              rfl
            · rw [if_neg hidx] at h
              simp only [Except.ok.injEq, Prod.mk.injEq] at h
              obtain ⟨rfl, -⟩ := h
              rfl
          · rw [if_neg hty] at h
            cases h
        · rw [if_neg hvi] at h
          simp only [Except.ok.injEq, Prod.mk.injEq] at h
          obtain ⟨rfl, -⟩ := h
          rfl
    rw [key]
    by_cases hc : x.type ≠ LEXER_UNUSED_LITERAL ∧ x.status_flags.unused_ident = false
        ∧ x.index ≥ rc
    · rw [if_pos hc] at heq ⊢
      by_cases hb : x.index - rc < st.literal_table.length
      · rw [if_pos hb] at heq
        simp only [Except.ok.injEq] at heq
        exact ⟨heq.symm, fun _ => hb⟩
      · rw [if_neg hb] at heq
        cases heq
    · rw [if_neg hc] at heq ⊢
      simp only [Except.ok.injEq] at heq
      exact ⟨heq.symm, fun hc2 => absurd hc2 hc⟩

/-- The last loop of `parser_generate_initializers` leaves an entry of the literal table
alone when no record in use has the index of the entry. -/
theorem initialize_var_loop_table_frame (t : cbc_tables) (limit rc : Nat) :
    ∀ (n : Nat) (l : List lexer_literal_t), l.length ≤ n →
    ∀ (st st1 : initializers_state) (s : Nat),
    initialize_var_loop t limit rc st l = .ok st1 →
    (∀ z ∈ l, z.type ≠ LEXER_UNUSED_LITERAL → z.status_flags.unused_ident = false →
      z.index ≥ rc → z.index - rc ≠ s) →
    st1.literal_table[s]? = st.literal_table[s]? := by
  intro n
  induction n with
  | zero =>
    intro l hl st st1 s h _
    have : l = [] := List.length_eq_zero.1 (Nat.le_zero.1 hl)
    subst this
    rw [initialize_var_loop] at h
    cases h
    rfl
  | succ n ih =>
    intro l hl st st1 s h hne
    have step : ∀ (x : lexer_literal_t) (next : Option lexer_literal_t)
        (st2 : initializers_state) (consumed : Bool), x ∈ l →
        initialize_var_literal t limit rc st x next = .ok (st2, consumed) →
        st2.literal_table[s]? = st.literal_table[s]? := by
      intro x next st2 consumed hx hbody
      obtain ⟨e1, _⟩ := initialize_var_literal_table hbody
      rw [e1]
      split_ifs with hc
      · rw [List.getElem?_set_ne (hne x hx hc.1 hc.2.1 hc.2.2)]
      · rfl
    match l, hl, h, hne, step with
    | [], _, h, _, _ =>
      rw [initialize_var_loop] at h
      cases h
      rfl
    | [x], _, h, _, step =>
      rw [initialize_var_loop] at h
      split at h
      · cases h
      · rename_i st2 consumed hbody
        simp only [Except.ok.injEq] at h
        subst h
        exact step x none _ _ (List.mem_singleton_self _) hbody
    | x :: z :: rest, hl, h, hne, step =>
      have hl1 : (z :: rest).length ≤ n := by simp at hl ⊢; omega
      have hl2 : rest.length ≤ n := by simp at hl; omega
      rw [initialize_var_loop] at h
      split at h
      · cases h
      · rename_i st2 hbody
        rw [ih _ hl1 _ _ s h (fun w hw => hne w (List.mem_cons_of_mem _ hw))]
        exact step x (some z) _ _ (List.mem_cons_self _ _) hbody
      · rename_i st2 hbody
        rw [ih _ hl2 _ _ s h
          (fun w hw => hne w (List.mem_cons_of_mem _ (List.mem_cons_of_mem _ hw)))]
        exact step x (some z) _ _ (List.mem_cons_self _ _) hbody

/-- The literal table after the last loop of `parser_generate_initializers`: the entry for
the index of a record in use (no function literal, index from `register_count` on) holds
the value of the record, when no later record in use has the same index. -/
theorem initialize_var_loop_table (t : cbc_tables) (limit rc : Nat) :
    ∀ (n : Nat) (l : List lexer_literal_t), l.length ≤ n →
    ∀ (st st1 : initializers_state) (pre post : List lexer_literal_t) (y : lexer_literal_t),
    initialize_var_loop t limit rc st l = .ok st1 →
    l = pre ++ y :: post →
    y.type ≠ LEXER_FUNCTION_LITERAL → y.type ≠ LEXER_UNUSED_LITERAL →
    y.status_flags.unused_ident = false → y.index ≥ rc →
    (∀ z ∈ post, z.type ≠ LEXER_UNUSED_LITERAL → z.status_flags.unused_ident = false →
      z.index ≥ rc → z.index - rc ≠ y.index - rc) →
    st1.literal_table[y.index - rc]? = some y.value := by
  intro n
  induction n with
  | zero =>
    intro l hl st st1 pre post y h hsplit
    have : l = [] := List.length_eq_zero.1 (Nat.le_zero.1 hl)
    subst this
    cases pre <;> cases hsplit
  | succ n ih =>
    intro l hl st st1 pre post y h hsplit hnf hnu huse hge hlater
    have here : ∀ (next : Option lexer_literal_t) (st2 : initializers_state)
        (consumed : Bool),
        initialize_var_literal t limit rc st y next = .ok (st2, consumed) →
        st2.literal_table[y.index - rc]? = some y.value := by
      intro next st2 consumed hbody
      obtain ⟨e1, e2⟩ := initialize_var_literal_table hbody
      rw [e1, if_pos ⟨hnu, huse, hge⟩]
      exact List.getElem?_set_eq_of_lt _ (e2 ⟨hnu, huse, hge⟩)
    match l, hl, h, hsplit with
    | [], _, _, hsplit => cases pre <;> cases hsplit
    | [x], _, h, hsplit =>
      rw [initialize_var_loop] at h
      split at h
      · cases h
      · rename_i st2 consumed hbody
        simp only [Except.ok.injEq] at h
        subst h
        cases pre with
        | nil =>
          simp only [List.nil_append, List.cons.injEq] at hsplit
          obtain ⟨rfl, -⟩ := hsplit
          exact here none _ _ hbody
        | cons a pre =>
          simp only [List.cons_append, List.cons.injEq] at hsplit
          obtain ⟨-, hs2⟩ := hsplit
          cases pre <;> cases hs2
    | x :: z :: rest, hl, h, hsplit =>
      have hl1 : (z :: rest).length ≤ n := by simp at hl ⊢; omega
      have hl2 : rest.length ≤ n := by simp at hl; omega
      rw [initialize_var_loop] at h
      cases pre with
      | nil =>
        simp only [List.nil_append, List.cons.injEq] at hsplit
        obtain ⟨rfl, rfl⟩ := hsplit
        split at h
        · cases h
        · rename_i st2 hbody
          rw [initialize_var_loop_table_frame t limit rc _ _ (le_refl _) _ _ _ h hlater]
          exact here (some z) _ _ hbody
        · rename_i st2 hbody
          rw [initialize_var_loop_table_frame t limit rc _ _ (le_refl _) _ _ _ h
            (fun w hw => hlater w (List.mem_cons_of_mem _ hw))]
          exact here (some z) _ _ hbody
      | cons a pre =>
        simp only [List.cons_append, List.cons.injEq] at hsplit
        obtain ⟨rfl, hs2⟩ := hsplit
        split at h
        · cases h
        · rename_i st2 hbody
          exact ih _ hl1 _ _ pre post y h hs2 hnf hnu huse hge hlater
        · rename_i st2 hbody
          obtain ⟨-, hcons, -⟩ := initialize_var_literal_spec hbody
          obtain ⟨f, hf, hft⟩ := hcons rfl
          simp only [Option.some.injEq] at hf
          subst hf
          cases pre with
          | nil =>
            simp only [List.nil_append, List.cons.injEq] at hs2
            obtain ⟨rfl, -⟩ := hs2
            exact absurd hft hnf
          | cons b pre =>
            simp only [List.cons_append, List.cons.injEq] at hs2
            obtain ⟨-, hs3⟩ := hs2
            exact ih _ hl2 _ _ pre post y h hs3 hnf hnu huse hge hlater

/-- The record that the body of the loop over the operands of `CBC_INITIALIZE_VARS`
leaves: the record itself, with at most `LEXER_FLAG_INITIALIZED` cleared. -/
theorem initialize_vars_literal_record {limit : Nat}
    {st st1 : initializers_state} {x x1 : lexer_literal_t} {next : Option lexer_literal_t}
    {consumed : Bool}
    (h : initialize_vars_literal limit st x next = .ok (x1, st1, consumed)) :
    x1 = x ∨ x1 = { x with status_flags := { x.status_flags with initialized := false } } := by
  unfold initialize_vars_literal at h
  dsimp only at h
  revert h
  cases hfa : x.status_flags.function_argument <;> intro h <;>
    simp only [Bool.false_eq_true, if_false, if_true] at h
  · by_cases hvi : (x.status_flags.var && x.status_flags.no_reg_store
        && x.status_flags.initialized) = true
    · rw [if_pos hvi] at h
      by_cases hty : x.type = LEXER_IDENT_LITERAL ∧ x.index = st.next_index
      · rw [if_pos hty] at h
        cases next with
        | none => cases h
        | some f =>
          dsimp only at h
          by_cases hft : f.type = LEXER_FUNCTION_LITERAL
          · rw [if_pos hft] at h
            simp only [Except.ok.injEq, Prod.mk.injEq] at h
            exact Or.inr (by rw [← h.1]; simp only [hfa])
          · rw [if_neg hft] at h
            cases h
      · rw [if_neg hty] at h
        cases h
    · rw [if_neg hvi] at h
      simp only [Except.ok.injEq, Prod.mk.injEq] at h
      exact Or.inl h.1.symm
  · by_cases hvi : (x.status_flags.var && x.status_flags.no_reg_store
        && x.status_flags.initialized) = true
    · rw [if_pos hvi] at h
      by_cases hty : x.type = LEXER_IDENT_LITERAL ∧ x.index = st.next_index
      · rw [if_pos hty] at h
        simp only [Except.ok.injEq, Prod.mk.injEq] at h
        exact Or.inr (by rw [← h.1]; simp only [hfa])
      · rw [if_neg hty] at h
        cases h
    · rw [if_neg hvi] at h
      simp only [Except.ok.injEq, Prod.mk.injEq] at h
      exact Or.inl h.1.symm

/-- The pool that the loop over the operands of `CBC_INITIALIZE_VARS` leaves: the records of
the pool, with at most `LEXER_FLAG_INITIALIZED` cleared. -/
theorem initialize_vars_loop_records (limit : Nat) :
    ∀ (n : Nat) (l : List lexer_literal_t), l.length ≤ n →
    ∀ (st st1 : initializers_state) (l1 : List lexer_literal_t),
    initialize_vars_loop limit st l = .ok (l1, st1) →
    List.Forall₂ (fun a b => b = a
      ∨ b = { a with status_flags := { a.status_flags with initialized := false } }) l l1 := by
  intro n
  induction n with
  | zero =>
    intro l hl st st1 l1 h
    have : l = [] := List.length_eq_zero.1 (Nat.le_zero.1 hl)
    subst this
    rw [initialize_vars_loop] at h
    simp only [Except.ok.injEq, Prod.mk.injEq] at h
    obtain ⟨rfl, -⟩ := h
    exact List.Forall₂.nil
  | succ n ih =>
    intro l hl st st1 l1 h
    match l, hl, h with
    | [], _, h =>
      rw [initialize_vars_loop] at h
      simp only [Except.ok.injEq, Prod.mk.injEq] at h
      obtain ⟨rfl, -⟩ := h
      exact List.Forall₂.nil
    | [x], _, h =>
      rw [initialize_vars_loop] at h
      split at h
      · cases h
      · rename_i x1 st2 consumed hbody
        simp only [Except.ok.injEq, Prod.mk.injEq] at h
        obtain ⟨rfl, -⟩ := h
        exact List.Forall₂.cons (initialize_vars_literal_record hbody) List.Forall₂.nil
    | x :: z :: rest, hl, h =>
      have hl1 : (z :: rest).length ≤ n := by simp at hl ⊢; omega
      have hl2 : rest.length ≤ n := by simp at hl; omega
      rw [initialize_vars_loop] at h
      split at h
      · cases h
      · rename_i x1 st2 hbody
        split at h
        · cases h
        · rename_i rest1 st3 hrec
          simp only [Except.ok.injEq, Prod.mk.injEq] at h
          obtain ⟨rfl, -⟩ := h
          exact List.Forall₂.cons (initialize_vars_literal_record hbody) (ih _ hl1 _ _ _ hrec)
      · rename_i x1 st2 hbody
        split at h
        · cases h
        · rename_i rest1 st3 hrec
          simp only [Except.ok.injEq, Prod.mk.injEq] at h
          obtain ⟨rfl, -⟩ := h
          exact List.Forall₂.cons (initialize_vars_literal_record hbody)
            (List.Forall₂.cons (Or.inl rfl) (ih _ hl2 _ _ _ hrec))

/-- The last loop of `parser_generate_initializers` when the function returns: it runs on
the pool that the function leaves and fills the literal table that the function returns;
the pool is the pool on entry with at most `LEXER_FLAG_INITIALIZED` cleared. -/
theorem parser_generate_initializers_table {t : cbc_tables}
    {context context1 : parser_context_t} {dst dst1 : List Nat}
    {literal_table literal_table1 : List literal_value_t}
    {uninitialized_var_end initialized_var_end limit : Nat}
    (h : parser_generate_initializers t context dst literal_table uninitialized_var_end
      initialized_var_end limit = .ok (context1, dst1, literal_table1)) :
    List.Forall₂ (fun a b => b = a
        ∨ b = { a with status_flags := { a.status_flags with initialized := false } })
        context.literal_pool context1.literal_pool
      ∧ context1.register_count = context.register_count
      ∧ context1.argument_count = context.argument_count
      ∧ ∃ dst3 st2, initialize_var_loop t limit context1.register_count
          { dst := dst3, argument_count := 0, next_index := 0, literal_table := literal_table }
          context1.literal_pool = .ok st2
        ∧ st2.literal_table = literal_table1 := by
  have hrefl : ∀ l : List lexer_literal_t, List.Forall₂ (fun a b => b = a
      ∨ b = { a with status_flags := { a.status_flags with initialized := false } }) l l := by
    intro l
    induction l with
    | nil => exact List.Forall₂.nil
    | cons a l ih => exact List.Forall₂.cons (Or.inl rfl) ih
  unfold parser_generate_initializers at h
  dsimp only at h
  split at h
  · cases h
  · rename_i c1 d3 h1
    have e1 : List.Forall₂ (fun a b => b = a
        ∨ b = { a with status_flags := { a.status_flags with initialized := false } })
        context.literal_pool c1.literal_pool
        ∧ c1.register_count = context.register_count
        ∧ c1.argument_count = context.argument_count := by
      split at h1
      · split at h1
        · cases h1
        · rename_i pool1 st1 hloop
          split_ifs at h1
          simp only [Except.ok.injEq, Prod.mk.injEq] at h1
          obtain ⟨rfl, -⟩ := h1
          exact ⟨initialize_vars_loop_records limit _ _ (le_refl _) _ _ _ hloop, rfl, rfl⟩
      · simp only [Except.ok.injEq, Prod.mk.injEq] at h1
        obtain ⟨rfl, -⟩ := h1
        exact ⟨hrefl _, rfl, rfl⟩
    split at h
    · cases h
    · rename_i st2 hloop2
      have e2 : context1 = c1 ∧ literal_table1 = st2.literal_table := by
        split_ifs at h <;>
          first
            | (cases h; done)
            | (simp only [Except.ok.injEq, Prod.mk.injEq] at h
               exact ⟨h.1.symm, h.2.2.symm⟩)
      obtain ⟨rfl, rfl⟩ := e2
      exact ⟨e1.1, e1.2.1, e1.2.2, d3, st2, hloop2, rfl⟩

/-- The parts of `parser_post_processing` that decide the table of argument names. -/
theorem post_processing_names_unfold {lim : parser_limits} {t : cbc_tables}
    {context0 context7 : parser_context_t} {cc : cbc_compiled_code_t}
    (h : parser_post_processing lim t context0 = .ok (cc, context7)) :
    ∃ r first compiled_code context5 context6 dst0,
      post_processing_first_pass lim t context0 = .ok (r, first)
      ∧ post_processing_header lim t (post_processing_end_label t r.context first).2 r
          (post_processing_end_label t r.context first).1 = .ok (compiled_code, context5)
      ∧ parser_generate_initializers t context5 [] compiled_code.literal_table
          r.uninitialized_var_end r.initialized_var_end
          (if r.context.literal_count ≤ lim.CBC_MAXIMUM_SMALL_VALUE then
            CBC_MAXIMUM_BYTE_VALUE - 1 else CBC_LOWER_SEVEN_BIT_MASK)
        = .ok (context6, dst0, cc.literal_table)
      ∧ context7.literal_pool = context6.literal_pool
      ∧ context7.register_count = context6.register_count
      ∧ context7.argument_count = context6.argument_count
      ∧ context7.status_flags = context6.status_flags
      ∧ post_processing_argument_names context7 cc.literal_table = .ok cc.argument_names := by
  cases hfirst : post_processing_first_pass lim t context0 with
  | error e =>
    unfold parser_post_processing at h
    rw [hfirst] at h
    cases h
  | ok rf =>
    obtain ⟨r, first⟩ := rf
    unfold parser_post_processing at h
    rw [hfirst] at h
    dsimp only at h
    split at h
    · cases h
    rename_i compiled_code context5 hhdr
    split at h
    · cases h
    rename_i context6 copied dst1 literal_table hcopy
    split at h
    · cases h
    rename_i byte_code code hupd
    split at h
    · cases h
    rename_i argument_names hnames
    simp only [Except.ok.injEq, Prod.mk.injEq] at h
    obtain ⟨rfl, rfl⟩ := h
    obtain ⟨dst0, hgen, -, -⟩ := post_processing_copy_pass_unfold hcopy
    exact ⟨r, first, compiled_code, context5, context6, dst0, rfl, hhdr, hgen, rfl, rfl, rfl,
      rfl, hnames⟩

/-- No two records in use have the same index after `parser_compute_indicies`. -/
theorem compute_indicies_nodup (lim : parser_limits) (context : parser_context_t)
    (r : compute_indicies_result) (hc : pool_consistent context)
    (h : parser_compute_indicies lim context = .ok r) :
    (class_indices in_use r.context.literal_pool).Nodup := by
  obtain ⟨_, q0, q1, q2, q3, q4, q5, q6, _⟩ :=
    compute_indicies_layout lim context r h hc.1 hc.2.2.2.1
  have hf := function_literal_indices lim context r hc h
  have q7 := hf.trans q6.2
  have hcount : ∀ j, (class_indices in_use r.context.literal_pool).count j
      = (class_indices is_argument r.context.literal_pool).count j
        + (if r.context.argument_count ≤ j ∧ j < r.context.literal_count then 1 else 0) := by
    intro j
    rw [count_in_use_indices, q1.2, q2.2, q3.2, q4.2, q5.2, q7]
    simp only [count_range']
    rw [Nat.add_sub_cancel' q1.1, Nat.add_sub_cancel' q2.1, Nat.add_sub_cancel' q3.1,
      Nat.add_sub_cancel' q4.1, Nat.add_sub_cancel' q5.1, Nat.add_sub_cancel' q6.1,
      ← indicator_chain _ _ _ _ _ _ _ j q1.1 q2.1 q3.1 q4.1 q5.1 q6.1]
    ring
  have harg : ∀ j, (class_indices is_argument r.context.literal_pool).count j
      ≤ if j < r.context.argument_count then 1 else 0 := by
    intro j
    have h1 := q0.count_le j
    rw [count_range'] at h1
    simpa using h1
  rw [List.nodup_iff_count_le_one]
  intro j
  rw [hcount j]
  have := harg j
  split_ifs at * <;> omega

/-- After `parser_compute_indicies` on a consistent pool no argument binding is flagged
`LEXER_FLAG_UNUSED_IDENT`. -/
theorem compute_indicies_argument_used (lim : parser_limits) (context : parser_context_t)
    (r : compute_indicies_result) (hc : pool_consistent context)
    (h : parser_compute_indicies lim context = .ok r) :
    ∀ y ∈ r.context.literal_pool, y.status_flags.function_argument = true →
      y.status_flags.var = true → y.status_flags.unused_ident = false := by
  obtain ⟨pool1, hm, hsame⟩ := compute_indicies_pools lim context r h
  intro y hy hfa hv
  obtain ⟨k, hk⟩ := List.mem_iff_getElem?.1 hy
  obtain ⟨x1, hx1, hxy⟩ := forall₂_getElem? hsame _ _ hk
  obtain ⟨x0, hx0, hxx⟩ := forall₂_getElem? hm _ _ hx1
  have hklt : k < context.literal_pool.length := by
    by_contra hge
    rw [List.getElem?_eq_none (by omega)] at hx0
    cases hx0
  have hget : context.literal_pool[k] = x0 := by
    rw [List.getElem?_eq_getElem hklt] at hx0
    exact Option.some.inj hx0
  have hsplit : context.literal_pool
      = context.literal_pool.take k ++ x0 :: context.literal_pool.drop (k + 1) := by
    rw [← hget, ← List.drop_eq_getElem_cons hklt, List.take_append_drop]
  obtain ⟨-, -, -, -, -, -, -, -, -, -, -, -, -, -, -, -, -, -, -, -, e⟩ :=
    compute_indicies_record lim context r _ _ _ hc h hsplit
  obtain ⟨-, f2, -, f4, f5, -, -⟩ := counted_of_marked hxx hxy
  rw [f5]
  exact (e (by rw [← f4]; exact hfa) (by rw [← f2]; exact hv)).2

/-- Clearing `LEXER_FLAG_INITIALIZED` changes neither the records in use nor their
indices. -/
theorem class_indices_cleared {l l1 : List lexer_literal_t}
    (h : List.Forall₂ (fun a b => b = a
      ∨ b = { a with status_flags := { a.status_flags with initialized := false } }) l l1) :
    class_indices in_use l1 = class_indices in_use l := by
  induction h with
  | nil => rfl
  | cons hab _ ih =>
    unfold class_indices at ih ⊢
    rcases hab with rfl | rfl
    · simp only [List.filter_cons]
      split_ifs
      · simp only [List.map_cons, ih]
      · exact ih
    · simp only [List.filter_cons, in_use]
      split_ifs
      · simp only [List.map_cons, ih]
      · exact ih

/-- In a pool whose records in use have different indices, the records in use behind a
record in use have other indices. -/
theorem class_indices_later {pre post : List lexer_literal_t} {y : lexer_literal_t}
    (hn : (class_indices in_use (pre ++ y :: post)).Nodup) (hy : in_use y = true) :
    ∀ z ∈ post, in_use z = true → z.index ≠ y.index := by
  unfold class_indices at hn
  rw [List.filter_append, List.filter_cons_of_pos hy, List.map_append, List.map_cons] at hn
  have h2 := (List.nodup_append.1 hn).2.1
  have h3 := (List.nodup_cons.1 h2).1
  intro z hz hzu hzi
  apply h3
  rw [← hzi]
  exact List.mem_map_of_mem _ (List.mem_filter.2 ⟨hz, hzu⟩)

/-- The argument count that `parser_post_processing` leaves is a `uint16_t`. -/
theorem post_processing_argument_count_bound {lim : parser_limits} {t : cbc_tables}
    {context0 context7 : parser_context_t} {cc : cbc_compiled_code_t}
    (hc : pool_consistent context0)
    (h : parser_post_processing lim t context0 = .ok (cc, context7)) :
    context7.argument_count < 65536 := by
  obtain ⟨context1, r, first, compiled_code, context5, h1, h2, -, hhdr, -, -, ha7, -⟩ :=
    post_processing_unfold h
  obtain ⟨-, c2, c3, -, -, c6⟩ := parser_copy_identifiers_child h1
  have hlen := List.Forall₂.length_eq c6
  obtain ⟨qa, -⟩ := compute_indicies_layout lim context1 r h2 (by rw [c2, c3]; exact hc.1)
    (by rw [← hlen]; exact hc.2.2.2.1)
  obtain ⟨l1, -⟩ := post_processing_end_label_context t r.context first
  obtain ⟨-, -, -, -, -, -, -, -, -, -, f10, -⟩ := post_processing_header_fields hhdr
  rw [ha7, f10, l1, qa, c2]
  have hle : context0.argument_count ≤ context0.literal_pool.length := by
    rw [hc.2.1]
    exact List.length_filter_le _ _
  have hN := hc.2.2.2.1
  split_ifs
  · unfold u16
    omega
  · omega

/-- C40: when `parser_post_processing` returns compiled code with the table of argument
names for a consistent pool, the table has one entry for each of the first `argument_count`
records flagged `LEXER_FLAG_FUNCTION_ARGUMENT` of the pool, in pool order (`argument_count`
as the function leaves it, the value of `argument_end`). A tombstone (type Unused) with a
value names a record of the pool by its `prop.index`. The entry is the name of the record
as `argument_name` states it: the value of the record, for a tombstone the value of the
record it names, and `NULL` for a tombstone without a value; for a tombstone with a value
this holds when the record it names is not flagged `LEXER_FLAG_UNUSED_IDENT`. -/
theorem C40_argument_names (lim : parser_limits) (t : cbc_tables)
    (context0 context7 : parser_context_t) (cc : cbc_compiled_code_t)
    (names : List literal_value_t)
    (hc : pool_consistent context0)
    (h : parser_post_processing lim t context0 = .ok (cc, context7))
    (hn : cc.argument_names = some names) :
    names.length = context7.argument_count
      ∧ ((context7.literal_pool.filter (fun x => x.status_flags.function_argument)).take
          context7.argument_count).length = context7.argument_count
      ∧ ∀ (i : Nat) (literal : lexer_literal_t),
        ((context7.literal_pool.filter (fun x => x.status_flags.function_argument)).take
          context7.argument_count)[i]? = some literal →
        (literal.type = LEXER_UNUSED_LITERAL → literal.value ≠ none →
          ∃ target, context7.literal_pool[literal.index]? = some target
            ∧ target.type = LEXER_IDENT_LITERAL)
        ∧ ((∀ target, literal.type = LEXER_UNUSED_LITERAL → literal.value ≠ none →
              context7.literal_pool[literal.index]? = some target →
              target.status_flags.unused_ident = false) →
            names[i]? = some (argument_name context7.literal_pool literal)) := by
  have hbound := post_processing_argument_count_bound hc h
  obtain ⟨context1, r1, first1, -, -, h1, h2, hfirst1, -⟩ := post_processing_unfold h
  obtain ⟨r, first, compiled_code, context5, context6, dst0, hfirst, hhdr, hgen, e_pool, e_rc,
    e_ac, e_fl, hnames⟩ := post_processing_names_unfold h
  rw [hfirst] at hfirst1
  simp only [Except.ok.injEq, Prod.mk.injEq] at hfirst1
  obtain ⟨rfl, rfl⟩ := hfirst1
  have hc1 := pool_consistent_copy_identifiers hc h1
  have hnodup := compute_indicies_nodup lim context1 r hc1 h2
  have hused := compute_indicies_argument_used lim context1 r hc1 h2
  obtain ⟨-, -, -, -, l5, -⟩ := post_processing_end_label_context t r.context first
  obtain ⟨-, -, -, -, -, -, -, -, -, -, -, -, -, -, f14, -⟩ := post_processing_header_fields hhdr
  obtain ⟨hrel, g_rc, -, dst3, st2, hloop2, htab⟩ := parser_generate_initializers_table hgen
  rw [f14, l5] at hrel
  rw [← e_pool] at hrel hloop2
  rw [← e_rc] at hloop2
  have hnodup7 : (class_indices in_use context7.literal_pool).Nodup := by
    rw [class_indices_cleared hrel]
    exact hnodup
  -- the loop over the arguments
  rw [hn] at hnames
  unfold post_processing_argument_names at hnames
  split at hnames
  swap
  · cases hnames
  split at hnames
  · cases hnames
  rename_i names1 hloop
  simp only [Except.ok.injEq, Option.some.injEq] at hnames
  subst hnames
  obtain ⟨vs, e1, e2, e3⟩ := argument_names_loop_spec context7.literal_pool cc.literal_table
    context7.register_count context7.argument_count hbound _ _ 0 [] _ (Nat.zero_le _) hloop
  rw [List.nil_append] at e1
  subst e1
  rw [Nat.sub_zero] at e2 e3
  refine ⟨e2, by rw [List.Forall₂.length_eq e3, e2], ?_⟩
  intro i literal hi
  obtain ⟨v, hv, hentry⟩ := forall₂_getElem?_left e3 _ _ hi
  have hmem : literal ∈ context7.literal_pool
      ∧ literal.status_flags.function_argument = true := by
    have := List.mem_of_mem_take (List.getElem?_mem hi)
    simpa using List.mem_filter.1 this
  rcases hentry with ⟨hty, hval, rfl⟩ | ⟨hnn, target, htarget, tty, tvar, tge, ttab⟩
  · refine ⟨fun _ hne => absurd hval hne, fun _ => ?_⟩
    rw [hv]
    unfold argument_name
    rw [if_pos hty, if_pos hval]
  · have key : target ∈ context7.literal_pool → target.status_flags.unused_ident = false →
        v = target.value := by
      intro htm htu
      obtain ⟨pre, post, hsplit⟩ := List.append_of_mem htm
      have hiu : in_use target = true := by
        unfold in_use
        rw [tty, htu]
        rfl
      rw [hsplit] at hnodup7
      have hlater := class_indices_later hnodup7 hiu
      have hget := initialize_var_loop_table t _ context7.register_count _ _ (le_refl _) _ _
        pre post target hloop2 hsplit (by rw [tty]; simp) (by rw [tty]; simp) htu tge
        (fun z hz hz1 hz2 hz3 => by
          have := hlater z hz (by unfold in_use; simp [hz1, hz2])
          omega)
      rw [htab, ttab] at hget
      exact Option.some.inj hget
    by_cases hty : literal.type = LEXER_UNUSED_LITERAL
    · rw [if_pos hty] at htarget
      refine ⟨fun _ _ => ⟨target, htarget, tty⟩, fun hin => ?_⟩
      have hne : literal.value ≠ none := fun hval => hnn ⟨hty, hval⟩
      rw [hv, key (List.getElem?_mem htarget) (hin target hty hne htarget)]
      unfold argument_name
      rw [if_pos hty, if_neg hne, htarget]
    · rw [if_neg hty] at htarget
      simp only [Option.some.injEq] at htarget
      subst htarget
      refine ⟨fun h1 => absurd h1 hty, fun _ => ?_⟩
      have htu : literal.status_flags.unused_ident = false := by
        obtain ⟨y, hy, hyl⟩ := forall₂_mem_right hrel literal hmem.1
        have hyu := hused y hy
        rcases hyl with rfl | rfl
        · exact hyu hmem.2 tvar
        · exact hyu hmem.2 tvar
      rw [hv, key hmem.1 htu]
      unfold argument_name
      rw [if_neg hty]

/-- Witness of C40: for `argument_names_example` the table is `NULL`, the name `a`
(byte 97) and the name `b` (byte 98) of the record that the tombstone of `b` names. -/
theorem C40_argument_names_witness :
    pool_consistent argument_names_example
      ∧ ∃ cc context7, parser_post_processing example_limits example_tables
          argument_names_example = .ok (cc, context7)
        ∧ cc.argument_names = some [none, some [97], some [98]]
        ∧ context7.argument_count = 3
        ∧ (context7.literal_pool.filter (fun x => x.status_flags.function_argument)).map
            (argument_name context7.literal_pool) = [none, some [97], some [98]]
        ∧ [none, some [97], some [98]].length = context7.argument_count
        ∧ ((context7.literal_pool.filter (fun x => x.status_flags.function_argument)).take
            context7.argument_count).length = context7.argument_count
        ∧ ∀ (i : Nat) (literal : lexer_literal_t),
          ((context7.literal_pool.filter (fun x => x.status_flags.function_argument)).take
            context7.argument_count)[i]? = some literal →
          (literal.type = LEXER_UNUSED_LITERAL → literal.value ≠ none →
            ∃ target, context7.literal_pool[literal.index]? = some target
              ∧ target.type = LEXER_IDENT_LITERAL)
          ∧ ((∀ target, literal.type = LEXER_UNUSED_LITERAL → literal.value ≠ none →
                context7.literal_pool[literal.index]? = some target →
                target.status_flags.unused_ident = false) →
              [none, some [97], some [98]][i]?
                = some (argument_name context7.literal_pool literal)) :=
  ⟨by decide, _, _, rfl, rfl, rfl, rfl,
    C40_argument_names example_limits example_tables argument_names_example _ _
      [none, some [97], some [98]] (by decide) rfl rfl⟩

/-! ## The first pass marks exactly the jumps to the next instruction -/

theorem degenerate_jump_iff (t : cbc_tables) (read : Nat → Option Nat) (q : Nat) :
    degenerate_jump t read q = true
      ↔ read q = some t.jump_forward
        ∧ (∀ i, 1 ≤ i → i < t.CBC_BRANCH_OFFSET_LENGTH t.jump_forward →
            read (q + i) = some 0)
        ∧ read (q + t.CBC_BRANCH_OFFSET_LENGTH t.jump_forward)
          = some (t.CBC_BRANCH_OFFSET_LENGTH t.jump_forward + 1) := by
  unfold degenerate_jump
  simp only [Bool.and_eq_true, decide_eq_true_eq, List.all_eq_true, List.mem_range]
  constructor
  · rintro ⟨⟨h1, h2⟩, h3⟩
    refine ⟨h1, ?_, h3⟩
    intro i hi1 hi2
    have := h2 (i - 1) (by omega)
    rw [show q + 1 + (i - 1) = q + i by omega] at this
    exact this
  · rintro ⟨h1, h2, h3⟩
    refine ⟨⟨h1, ?_⟩, h3⟩
    intro i hi
    have := h2 (i + 1) (by omega) (by omega)
    rw [show q + (i + 1) = q + 1 + i by omega] at this
    exact this

/-- When none of the leading offset bytes is retained, they are all zero. -/
theorem retained_branch_bytes_zero (read : Nat → Option Nat) (count : Nat) :
    ∀ (q : Nat) (kept : List Bool),
      retained_branch_bytes read count true q = some kept → retained_count kept = 0 →
      ∀ i, i < count → read (q + i) = some 0 := by
  induction count with
  | zero =>
    intro q kept _ _ i hi
    omega
  | succ count ih =>
    intro q kept h hz i hi
    unfold retained_branch_bytes at h
    cases hr : read q with
    | none => rw [hr] at h; cases h
    | some byte =>
      rw [hr] at h
      dsimp only at h
      by_cases hcond : byte > 0 ∨ true = false
      · rw [if_pos hcond] at h
        split at h
        · cases h
        · simp only [Option.some.injEq] at h
          subst h
          rw [retained_count_cons] at hz
          simp at hz
      · rw [if_neg hcond] at h
        split at h
        · cases h
        · rename_i kept1 hrec
          simp only [Option.some.injEq] at h
          subst h
          rw [retained_count_cons] at hz
          have hz1 : retained_count kept1 = 0 := by
            simp at hz
            exact hz
          cases i with
          | zero =>
            have : byte = 0 := by
              simp at hcond
              exact hcond
            rw [Nat.add_zero, hr, this]
          | succ i =>
            have := ih (q + 1) kept1 hrec hz1 i (by omega)
            rw [show q + (i + 1) = q + 1 + i by omega]
            exact this

/-- The branch argument in the first pass: the stream is left as it is, unless the opcode is
`jump_forward`, the offset bytes before the last are zero and the last offset byte is the
offset width plus one. -/
theorem first_pass_branch_marked {t : cbc_tables} {chain : List Nat} {flags : cbc_flags_t}
    {branch_offset_length : Nat} {opcode_page : Option Nat} {opcode_offset q : Nat}
    {st st1 : first_pass_state}
    (hn : 0 < t.PARSER_CBC_STREAM_PAGE_SIZE) (hat : first_at t chain q st)
    (h : first_pass_branch t flags branch_offset_length opcode_page opcode_offset st
      = .ok st1) :
    (0 < branch_offset_length ∧ branch_offset_length ≤ 3)
      ∧ (st1.pages = st.pages
        ∨ (st.last_opcode = t.jump_forward
          ∧ (∀ i, i + 1 < branch_offset_length →
              stream_read t st.pages chain (q + i) = some 0)
          ∧ stream_read t st.pages chain (q + (branch_offset_length - 1))
            = some (t.CBC_BRANCH_OFFSET_LENGTH t.jump_forward + 1))) := by
  unfold first_pass_branch at h
  split_ifs at h with hb
  refine ⟨hb, ?_⟩
  cases hbb : first_pass_branch_bytes t flags (branch_offset_length - 1) true st with
  | error e => rw [hbb] at h; cases h
  | ok r =>
    obtain ⟨prefix_zero, st2⟩ := r
    rw [hbb] at h
    dsimp only at h
    obtain ⟨kept, hlen, r1, hp1, hc1, _, hz1, hd1⟩ :=
      first_kept_branch_bytes hn _ true prefix_zero q st st2 hat hbb
    obtain ⟨a1, a2, a3⟩ := r1
    split at h
    · cases h
    · rename_i pages2 length2 hc
      have key : pages2 = st.pages
          ∨ (st.last_opcode = t.jump_forward
            ∧ (∀ i, i + 1 < branch_offset_length →
                stream_read t st.pages chain (q + i) = some 0)
            ∧ stream_read t st.pages chain (q + (branch_offset_length - 1))
              = some (t.CBC_BRANCH_OFFSET_LENGTH t.jump_forward + 1)) := by
        split_ifs at hc with hdel
        · cases hr : page_read st2.pages st2.page_p st2.offset with
          | error e => rw [hr] at hc; cases hc
          | ok last =>
            rw [hr] at hc
            dsimp only at hc
            split_ifs at hc with hlast
            · refine Or.inr ⟨by rw [← a3]; exact hdel.1, ?_, ?_⟩
              · intro i hi
                exact retained_branch_bytes_zero _ _ q kept (hd1 _ (fun _ _ _ => rfl))
                  (hz1 hdel.2) i (by omega)
              · have hpp : st2.page_p = (cursor t chain (q + kept.length)).1 :=
                  congrArg Prod.fst a1.2.2.1
                have hoo : st2.offset = (cursor t chain (q + kept.length)).2 :=
                  congrArg Prod.snd a1.2.2.1
                rw [hpp, hoo, hp1] at hr
                have := (page_read_ok_iff t st.pages chain (q + kept.length) last).mp hr
                rw [hlen, hlast] at this
                exact this
            · simp only [Except.ok.injEq, Prod.mk.injEq] at hc
              exact Or.inl (by rw [← hc.1, hp1])
        · simp only [Except.ok.injEq, Prod.mk.injEq] at hc
          exact Or.inl (by rw [← hc.1, hp1])
      cases hnx : PARSER_NEXT_BYTE t pages2 st2.page_p st2.offset with
      | error e => rw [hnx] at h; cases h
      | ok r2 =>
        obtain ⟨page2, offset2⟩ := r2
        rw [hnx] at h
        dsimp only at h
        simp only [Except.ok.injEq] at h
        subst h
        exact key

/-- One instruction of the first pass and the cell of its opcode: the cell is left as it
is, unless the opcode is `jump_forward`, the offset bytes before the last are zero and the
last offset byte is the offset width plus one. -/
theorem first_pass_instruction_opcode_cell {lim : parser_limits} {t : cbc_tables}
    {pool : List lexer_literal_t} {literal_count limit : Nat} {chain : List Nat} {q : Nat}
    {st st1 : first_pass_state} {opcode : Nat} (hn : 0 < t.PARSER_CBC_STREAM_PAGE_SIZE)
    (hlimit : limit = if literal_count ≤ lim.CBC_MAXIMUM_SMALL_VALUE then
      CBC_MAXIMUM_BYTE_VALUE - 1 else CBC_LOWER_SEVEN_BIT_MASK)
    (hext : t.jump_forward ≠ t.CBC_EXT_OPCODE) (hret : t.jump_forward ≠ t.CBC_RETURN)
    (hflags : t.cbc_flags t.jump_forward
      = { has_branch_arg := true, forward_branch_arg := true })
    (hat : first_at t chain q st)
    (hop : stream_read t st.pages chain q = some opcode)
    (h : first_pass_instruction lim t pool literal_count limit st = .ok st1) :
    stream_read t st1.pages chain q = some opcode
      ∨ (opcode = t.jump_forward
        ∧ (∀ i, 1 ≤ i → i < t.CBC_BRANCH_OFFSET_LENGTH t.jump_forward →
            stream_read t st.pages chain (q + i) = some 0)
        ∧ stream_read t st.pages chain (q + t.CBC_BRANCH_OFFSET_LENGTH t.jump_forward)
          = some (t.CBC_BRANCH_OFFSET_LENGTH t.jump_forward + 1)) := by
  have hpp : st.page_p = (cursor t chain q).1 := congrArg Prod.fst hat.2.2.1
  have hoo : st.offset = (cursor t chain q).2 := congrArg Prod.snd hat.2.2.1
  unfold first_pass_instruction at h
  dsimp only at h
  cases hr : page_read st.pages st.page_p st.offset with
  | error e => rw [hr] at h; cases h
  | ok last_opcode =>
    rw [hr] at h
    dsimp only at h
    have hb : stream_read t st.pages chain q = some last_opcode := by
      rw [hpp, hoo] at hr
      exact (page_read_ok_iff t st.pages chain q last_opcode).mp hr
    have hlo : last_opcode = opcode := by
      rw [hop] at hb
      exact (Option.some.inj hb).symm
    subst hlo
    cases hnx : PARSER_NEXT_BYTE t st.pages st.page_p st.offset with
    | error e => rw [hnx] at h; cases h
    | ok r =>
      obtain ⟨page1, offset1⟩ := r
      rw [hnx] at h
      dsimp only at h
      obtain ⟨hc1, hq1⟩ := first_at_next hn hat hnx
      split at h
      · cases h
      · rename_i branch_offset_length flags st2 hhdr
        have key : ∃ kop : Nat, first_at t chain (q + kop) st2 ∧ 0 < kop
            ∧ st2.pages = st.pages
            ∧ ((last_opcode ≠ t.CBC_EXT_OPCODE ∧ kop = 1
                ∧ flags = t.cbc_flags last_opcode
                ∧ branch_offset_length = t.CBC_BRANCH_OFFSET_LENGTH last_opcode
                ∧ st2.last_opcode = last_opcode)
              ∨ (st2.last_opcode = t.CBC_EXT_OPCODE ∨ st2.last_opcode = t.CBC_RETURN)) := by
          split_ifs at hhdr with hx
          · cases hr2 : page_read st.pages page1 offset1 with
            | error e => rw [hr2] at hhdr; cases hhdr
            | ok ext_opcode =>
              rw [hr2] at hhdr
              dsimp only at hhdr
              cases hnx2 : PARSER_NEXT_BYTE t st.pages page1 offset1 with
              | error e => rw [hnx2] at hhdr; cases hhdr
              | ok r2 =>
                obtain ⟨page2, offset2⟩ := r2
                rw [hnx2] at hhdr
                dsimp only at hhdr
                simp only [Except.ok.injEq, Prod.mk.injEq] at hhdr
                obtain ⟨e1, e2, e3⟩ := hhdr
                have hp1 : page1 = (cursor t chain (q + 1)).1 := congrArg Prod.fst hc1
                have ho1 : offset1 = (cursor t chain (q + 1)).2 := congrArg Prod.snd hc1
                rw [hp1, ho1] at hnx2
                obtain ⟨hc2, hq2⟩ := next_byte_cursor_le hat.1 hat.2.1 hn hq1 hnx2
                refine ⟨2, ?_, by omega, ?_, Or.inr ?_⟩
                · rw [← e3]
                  exact ⟨hat.1, hat.2.1, hc2, hq2⟩
                · rw [← e3]
                · rw [← e3]
                  dsimp only
                  split_ifs
                  · exact Or.inr rfl
                  · exact Or.inl hx
          · simp only [Except.ok.injEq, Prod.mk.injEq] at hhdr
            obtain ⟨e1, e2, e3⟩ := hhdr
            refine ⟨1, ?_, by omega, ?_, Or.inl ⟨hx, rfl, e2.symm, e1.symm, ?_⟩⟩
            · rw [← e3]
              exact ⟨hat.1, hat.2.1, hc1, hq1⟩
            · rw [← e3]
            · rw [← e3]
        obtain ⟨kop, hat2, hkop, hp2, hcase⟩ := key
        cases hl : first_pass_literals lim t pool literal_count limit 3 flags st2 with
        | error e => rw [hl] at h; cases h
        | ok rl =>
          obtain ⟨flags1, st3⟩ := rl
          rw [hl] at h
          dsimp only at h
          obtain ⟨kept1, r3, -, hnil3, hcons3, -⟩ :=
            first_kept_literals hn hlimit 3 flags flags1 (q + kop) st2 st3 hat2 hl
          split at h
          · cases h
          · rename_i st4 hbyte
            have key2 : first_at t chain
                  (q + kop + kept1.length
                    + (if flags1.has_byte_arg then [true] else []).length) st4
                ∧ st4.pages = st3.pages
                ∧ st4.last_opcode = st3.last_opcode := by
              split_ifs at hbyte with hby
              · cases hnx3 : PARSER_NEXT_BYTE t st3.pages st3.page_p st3.offset with
                | error e => rw [hnx3] at hbyte; cases hbyte
                | ok r4 =>
                  obtain ⟨page3, offset3⟩ := r4
                  rw [hnx3] at hbyte
                  dsimp only at hbyte
                  cases hbyte
                  obtain ⟨hc3, hq3⟩ := first_at_next hn r3.1 hnx3
                  rw [if_pos hby]
                  exact ⟨⟨r3.1.1, r3.1.2.1, hc3, hq3⟩, rfl, rfl⟩
              · cases hbyte
                rw [if_neg hby]
                exact ⟨r3.1, rfl, rfl⟩
            obtain ⟨hat4, hp4, hop4⟩ := key2
            have hcell : stream_read t st4.pages chain q = some last_opcode := by
              rw [hp4, r3.2.1 q (Or.inl (by omega)), hp2, hop]
            by_cases hbf : flags1.has_branch_arg = true
            · rw [if_pos hbf] at h
              obtain ⟨hbol, hm⟩ := first_pass_branch_marked hn hat4 h
              rcases hm with hm | ⟨m1, m2, m3⟩
              · exact Or.inl (by rw [hm]; exact hcell)
              · rw [hop4, r3.2.2] at m1
                rcases hcase with ⟨c1, c2, c3, c4, c5⟩ | c1
                · have hjf : last_opcode = t.jump_forward := by rw [← c5, m1]
                  have hk1 : kept1 = [] := by
                    by_contra hne
                    rcases hcons3 hne with e | e
                    · rw [c3, hjf, hflags] at e
                      cases e
                    · rw [c3, hjf, hflags] at e
                      cases e
                  obtain ⟨hf1, hs3⟩ := hnil3 hk1
                  have hby : flags1.has_byte_arg = false := by
                    rw [hf1, c3, hjf, hflags]
                  rw [hp4, hs3, hp2] at m2 m3
                  rw [hk1, hby, c2, c4, hjf] at m2 m3
                  simp only [Bool.false_eq_true, if_false, List.length_nil,
                    Nat.add_zero] at m2 m3
                  rw [c4, hjf] at hbol
                  refine Or.inr ⟨hjf, ?_, ?_⟩
                  · intro i hi1 hi2
                    have := m2 (i - 1) (by omega)
                    rw [show q + 1 + (i - 1) = q + i by omega] at this
                    exact this
                  · rw [show q + 1 + (t.CBC_BRANCH_OFFSET_LENGTH t.jump_forward - 1)
                      = q + t.CBC_BRANCH_OFFSET_LENGTH t.jump_forward by omega] at m3
                    exact m3
                · rcases c1 with c1 | c1
                  · exact absurd (m1.symm.trans c1) hext
                  · exact absurd (m1.symm.trans c1) hret
            · rw [if_neg hbf] at h
              simp only [Except.ok.injEq] at h
              subst h
              exact Or.inl hcell

/-- C33: one instruction of the first pass of `parser_post_processing`, for opcode tables in
which `jump_forward` (`CBC_JUMP_FORWARD_2`, or `CBC_JUMP_FORWARD_3` when the maximum code
size is above 65535) is a forward branch without other arguments, three or four bytes long,
and neither `CBC_EXT_OPCODE` nor `CBC_RETURN`. When the instruction at position `q` is that
jump with zero in the offset bytes before the last and the offset width plus one in the
last (`degenerate_jump`), the first pass writes `CBC_JUMP_FORWARD` over the opcode, counts
no byte for the instruction, and the copy pass writes no byte for the marked instruction
and continues behind it. For every other instruction the cell of the opcode is left as it
is. -/
theorem C33_degenerate_jump_marked (lim : parser_limits) (t : cbc_tables)
    (pool : List lexer_literal_t) (literal_count limit : Nat) (chain : List Nat) (q : Nat)
    (st st1 : first_pass_state) (opcode : Nat) (hn : 0 < t.PARSER_CBC_STREAM_PAGE_SIZE)
    (hlimit : limit = if literal_count ≤ lim.CBC_MAXIMUM_SMALL_VALUE then
      CBC_MAXIMUM_BYTE_VALUE - 1 else CBC_LOWER_SEVEN_BIT_MASK)
    (hext : t.jump_forward ≠ t.CBC_EXT_OPCODE) (hret : t.jump_forward ≠ t.CBC_RETURN)
    (hflags : t.cbc_flags t.jump_forward
      = { has_branch_arg := true, forward_branch_arg := true })
    (hwidth : t.CBC_BRANCH_OFFSET_LENGTH t.jump_forward + 1
      = if t.PARSER_MAXIMUM_CODE_SIZE ≤ 65535 then 3 else 4)
    (hat : first_at t chain q st)
    (hop : stream_read t st.pages chain q = some opcode)
    (h : first_pass_instruction lim t pool literal_count limit st = .ok st1) :
    (degenerate_jump t (stream_read t st.pages chain) q = true →
        stream_read t st1.pages chain q = some t.CBC_JUMP_FORWARD
          ∧ st1.length = st.length
          ∧ first_at t chain (q + t.CBC_BRANCH_OFFSET_LENGTH t.jump_forward + 1) st1
          ∧ ∀ (copy copy1 : copy_state), copy_at t chain q copy →
              stream_read t copy.pages chain q = some t.CBC_JUMP_FORWARD →
              copy_instruction t limit copy = .ok copy1 →
              copy1.dst = copy.dst
                ∧ copy_at t chain (q + t.CBC_BRANCH_OFFSET_LENGTH t.jump_forward + 1) copy1)
      ∧ (degenerate_jump t (stream_read t st.pages chain) q = false →
        stream_read t st1.pages chain q = some opcode) := by
  constructor
  · intro hd
    obtain ⟨d1, d2, d3⟩ := (degenerate_jump_iff t _ q).1 hd
    obtain ⟨a1, a2, a3, _⟩ := first_pass_instruction_degenerate hn hat d1 hext
      (by rw [hflags]) (by rw [hflags]) (by rw [hflags]) (by rw [hflags]) (by rw [hflags])
      d2 d3 h
    refine ⟨a3, a1, a2, ?_⟩
    intro copy copy1 hc hs hi
    obtain ⟨c1, c2⟩ := copy_instruction_deleted hn hc hs hi
    rw [← hwidth] at c2
    exact ⟨c1, c2⟩
  · intro hd
    rcases first_pass_instruction_opcode_cell hn hlimit hext hret hflags hat hop h with
      hc | ⟨c1, c2, c3⟩
    · exact hc
    · have : degenerate_jump t (stream_read t st.pages chain) q = true :=
        (degenerate_jump_iff t _ q).2 ⟨by rw [hop, c1], c2, c3⟩
      rw [this] at hd
      cases hd

/-- Witness of C33: in the stream `2, 0, 6, 2, 0, 3, 4` the jump at position 3 targets the
instruction behind it and is marked (the opcode 2 becomes 1, `CBC_JUMP_FORWARD`, and the
length stays 3); the jump at position 0 does not, and its opcode stays 2. -/
theorem C33_degenerate_jump_marked_witness :
    degenerate_jump example_tables
        (stream_read example_tables [ { bytes := [2, 0, 6, 2, 0, 3, 4, 0] } ] [0]) 3 = true
      ∧ degenerate_jump example_tables
        (stream_read example_tables [ { bytes := [2, 0, 6, 2, 0, 3, 4, 0] } ] [0]) 0 = false
      ∧ stream_read example_tables [ { bytes := [2, 0, 6, 1, 0, 3, 4, 0] } ] [0] 3
        = some example_tables.CBC_JUMP_FORWARD
      ∧ stream_read example_tables [ { bytes := [2, 0, 6, 2, 0, 3, 4, 0] } ] [0] 0 = some 2 :=
  ⟨by decide, by decide,
    ((C33_degenerate_jump_marked example_limits example_tables [] 0 254 [0] 3
      { pages := [ { bytes := [2, 0, 6, 2, 0, 3, 4, 0] } ], page_p := some 0, offset := 3,
        length := 3, last_opcode := 2 }
      { pages := [ { bytes := [2, 0, 6, 1, 0, 3, 4, 0] } ], page_p := some 0, offset := 6,
        length := 3, last_opcode := 2 }
      2 (by decide) (by decide) (by decide) (by decide) rfl rfl
      ⟨by decide, by decide, rfl, by decide⟩ rfl rfl).1 (by decide)).1,
    (C33_degenerate_jump_marked example_limits example_tables [] 0 254 [0] 0
      { pages := [ { bytes := [2, 0, 6, 2, 0, 3, 4, 0] } ], page_p := some 0, offset := 0,
        length := 0, last_opcode := 0 }
      { pages := [ { bytes := [2, 0, 6, 2, 0, 3, 4, 0] } ], page_p := some 0, offset := 3,
        length := 2, last_opcode := 2 }
      2 (by decide) (by decide) (by decide) (by decide) rfl rfl
      ⟨by decide, by decide, rfl, by decide⟩ rfl rfl).2 (by decide)⟩

/-! ## The opcode of a branch in the final byte code -/

/-- What `update_branch` reads and writes: the header of the instruction at the position
`bytes_p` that it computes, then as many distance bytes as the opcode says, and it writes
the new distance into the same bytes. -/
theorem update_branch_header {t : cbc_tables} {base : Nat} {st : update_state}
    {code1 : List Nat} (h : update_branch t base st = .ok code1) :
    ∃ before hdr w target_distance new_distance,
      (if st.offset > 0 then page_read_count st.pages st.page_p (st.offset - 1)
        else .ok 0 : Except Fault Nat) = .ok before
      ∧ final_branch_header t st.code (base + st.bytes_copied + before) = some (hdr, w)
      ∧ decode_target st.code w (base + st.bytes_copied + before + hdr) 0
        = .ok target_distance
      ∧ encode_target w (base + st.bytes_copied + before + hdr + w) new_distance st.code
        = .ok code1 := by
  unfold update_branch at h
  split at h
  · cases h
  · rename_i before hbefore
    dsimp only at h
    cases hr : code_read st.code (base + st.bytes_copied + before) with
    | error e => rw [hr] at h; cases h
    | ok first =>
      rw [hr] at h
      dsimp only at h
      have hfirst : st.code[base + st.bytes_copied + before]? = some first := by
        unfold code_read at hr
        split at hr
        · cases hr
        · rename_i b hb
          simp only [Except.ok.injEq] at hr
          rw [hb, hr]
      split at h
      · cases h
      · rename_i bytes_p1 opcode flags hhdr
        have key : ∃ hdr, bytes_p1 + 1 = base + st.bytes_copied + before + hdr
            ∧ (flags.has_branch_arg = true →
              final_branch_header t st.code (base + st.bytes_copied + before)
                = some (hdr, t.CBC_BRANCH_OFFSET_LENGTH opcode)) := by
          split_ifs at hhdr with hx
          · cases hr2 : code_read st.code (base + st.bytes_copied + before + 1) with
            | error e => rw [hr2] at hhdr; cases hhdr
            | ok ext_opcode =>
              rw [hr2] at hhdr
              simp only [Except.ok.injEq, Prod.mk.injEq] at hhdr
              obtain ⟨e1, e2, e3⟩ := hhdr
              have hsecond : st.code[base + st.bytes_copied + before + 1]?
                  = some ext_opcode := by
                unfold code_read at hr2
                split at hr2
                · cases hr2
                · rename_i b hb
                  simp only [Except.ok.injEq] at hr2
                  rw [hb, hr2]
              refine ⟨2, by omega, ?_⟩
              intro hf
              unfold final_branch_header
              rw [hfirst]
              dsimp only
              rw [if_pos hx, hsecond]
              dsimp only
              rw [← e3] at hf
              rw [if_pos hf, e2]
          · simp only [Except.ok.injEq, Prod.mk.injEq] at hhdr
            obtain ⟨e1, e2, e3⟩ := hhdr
            refine ⟨1, by omega, ?_⟩
            intro hf
            unfold final_branch_header
            rw [hfirst]
            dsimp only
            rw [← e3] at hf
            rw [if_neg hx, if_pos hf, e2]
        obtain ⟨hdr, hpos, hhead⟩ := key
        by_cases hbr : flags.has_branch_arg = true
        · rw [if_pos hbr] at h
          try dsimp only at h
          by_cases hzero : t.CBC_BRANCH_OFFSET_LENGTH opcode = 0
          · rw [if_pos hzero] at h
            cases h
          · rw [if_neg hzero] at h
            cases hdec : decode_target st.code (t.CBC_BRANCH_OFFSET_LENGTH opcode)
                (bytes_p1 + 1) 0 with
            | error e => rw [hdec] at h; cases h
            | ok target_distance =>
              rw [hdec] at h
              dsimp only at h
              split at h
              · cases h
              · rename_i new_distance hnew
                rw [hpos] at hdec h
                exact ⟨before, hdr, _, target_distance, new_distance, hbefore, hhead hbr,
                  hdec, h⟩
        · rw [if_neg hbr] at h
          cases h

/-- A branch instruction in the copy pass, in terms of its opcode: the number `z` of
leading zero bytes of the distance that are dropped, the opcode written (the opcode of the
stream less `z`) and the distance bytes written behind it. -/
theorem copy_instruction_branch_opcode {t : cbc_tables} {chain : List Nat} {limit q : Nat}
    {st st1 : copy_state} (hn : 0 < t.PARSER_CBC_STREAM_PAGE_SIZE) (htab : tables_ok t)
    (hbytes : ∀ r b, q ≤ r → stream_read t st.pages chain r = some b → b < 256)
    (hat : copy_at t chain q st) (h : copy_instruction t limit st = .ok st1)
    (hm : branch_marked t (stream_read t st.pages chain) q = true) :
    ∃ hdr opcode z fwd,
      ((hdr = 1 ∧ stream_read t st.pages chain q = some opcode
          ∧ opcode ≠ t.CBC_EXT_OPCODE)
        ∨ (hdr = 2 ∧ stream_read t st.pages chain q = some t.CBC_EXT_OPCODE
          ∧ stream_read t st.pages chain (q + 1) = some opcode
          ∧ st1.dst[st.dst.length]? = some t.CBC_EXT_OPCODE))
      ∧ z + 1 ≤ t.CBC_BRANCH_OFFSET_LENGTH opcode ∧ t.CBC_BRANCH_OFFSET_LENGTH opcode ≤ 3
      ∧ (∀ i, i < z → stream_read t st.pages chain (q + hdr + i) = some 0)
      ∧ (z + 1 < t.CBC_BRANCH_OFFSET_LENGTH opcode →
          nonzero_at st1.dst (st.dst.length + hdr))
      ∧ (∀ i, i < t.CBC_BRANCH_OFFSET_LENGTH opcode - z →
          st1.dst[st.dst.length + hdr + i]?
            = stream_read t st.pages chain (q + hdr + z + i))
      ∧ st1.dst.length = st.dst.length + hdr + (t.CBC_BRANCH_OFFSET_LENGTH opcode - z)
      ∧ z ≤ opcode
      ∧ st1.dst[st.dst.length + hdr - 1]? = some (opcode - z)
      ∧ t.CBC_BRANCH_OFFSET_LENGTH (opcode - z) = t.CBC_BRANCH_OFFSET_LENGTH opcode - z
      ∧ code_branch t st1.dst st.dst.length hdr (t.CBC_BRANCH_OFFSET_LENGTH opcode - z)
          fwd := by
  have hpp : st.page_p = (cursor t chain q).1 := congrArg Prod.fst hat.2.2
  have hoo : st.offset = (cursor t chain q).2 := congrArg Prod.snd hat.2.2
  unfold copy_instruction at h
  dsimp only at h
  cases hr : page_read st.pages st.page_p st.offset with
  | error e => rw [hr] at h; cases h
  | ok opcode =>
    rw [hr] at h
    dsimp only at h
    have hb : stream_read t st.pages chain q = some opcode := by
      rw [hpp, hoo] at hr
      exact (page_read_ok_iff t st.pages chain q opcode).mp hr
    have hjf : opcode ≠ t.CBC_JUMP_FORWARD := by
      intro e
      unfold branch_marked at hm
      rw [hb] at hm
      dsimp only at hm
      rw [if_pos e] at hm
      cases hm
    rw [if_neg hjf] at h
    cases hc : copy_opcode t opcode st with
    | error e => rw [hc] at h; cases h
    | ok r =>
      obtain ⟨flags, bol, opcode_p1, st3⟩ := r
      rw [hc] at h
      dsimp only at h
      obtain ⟨q3, r3, hq3, ho1, ho2, hmk, hhdr⟩ := copy_opcode_run hn hat hb hjf hc
      have hbr : flags.has_branch_arg = true := by rw [← hmk]; exact hm
      rw [if_pos hbr, hpp, hoo] at h
      cases hsm : set_branch_mark st3.pages (cursor t chain q).1 (cursor t chain q).2 with
      | error e => rw [hsm] at h; cases h
      | ok pages1 =>
        rw [hsm] at h
        dsimp only at h
        split_ifs at h
        obtain ⟨m1, m2, _, m4⟩ := set_branch_mark_spec r3.2.1.1 hn hsm
        have hat3 : copy_at t chain q3 { st3 with pages := pages1 } :=
          ⟨m1, m2 0 r3.2.1.2.1, r3.2.1.2.2⟩
        have hread : ∀ r, q3 ≤ r → stream_read t pages1 chain r
            = stream_read t st.pages chain r := by
          intro r hr3
          rw [m4 r (by omega), r3.2.2.2.2.2.1 r (Or.inr hr3)]
        have hlt : opcode < 256 := hbytes q opcode (le_refl _) hb
        rcases hhdr with ⟨hne, e1, e2, e3, e4, e5⟩ | ⟨hext, e1, e2, ext_opcode, hb2, e3, e4, e5⟩
        · -- one opcode byte
          subst e1 e2 e4 e5
          obtain ⟨t1, t2, t3, t4, _⟩ := htab.1 opcode hlt hbr
          obtain ⟨z, hz, hz3, l1, hzero, hrd, hfr, hopc, hlead⟩ := copy_arguments_branch
            st.dst.length hn hat3 (le_refl _) ho2 t1 t2 t3 hbr h
          dsimp only at l1 hzero hrd hfr hopc
          obtain ⟨d1, d2, d3, d4⟩ := decrement_iterate t t.cbc_flags
            (fun op h1 h2 h3 => (htab.1 op h1 h2).2.2.2.2 h3) z opcode hlt hbr hz
          have hl3 : st3.dst.length = st.dst.length + 1 := by rw [e3]; simp
          have hop : st1.dst[st.dst.length]? = some (opcode - z) := by
            rw [hopc, e3]
            simp [d1]
          have hagree : ∀ i, i < t.CBC_BRANCH_OFFSET_LENGTH opcode - z →
              st1.dst[st.dst.length + 1 + i]?
                = stream_read t st.pages chain (q + 1 + z + i) := by
            intro i hi
            rw [← hl3, hrd i hi, hread _ (by omega)]
          refine ⟨1, opcode, z, (t.cbc_flags opcode).forward_branch_arg,
            Or.inl ⟨rfl, hb, hne⟩, hz, hz3, ?_, ?_, hagree, by omega, d4, hop, d3, ?_⟩
          · intro i hi
            rw [← hread _ (by omega)]
            exact hzero i hi
          · intro hw
            rw [← hl3]
            exact hlead hw
          · refine ⟨Or.inl ⟨rfl, opcode - z, hop, ?_, by rw [d2]; exact hbr, by rw [d2], d3⟩,
              by omega, by omega, by omega⟩
            exact (htab.1 (opcode - z) (by omega) (by rw [d2]; exact hbr)).2.2.2.1
        · -- two opcode bytes
          subst e1 e2 e4 e5
          have hlt2 : ext_opcode < 256 := hbytes (q + 1) ext_opcode (by omega) hb2
          obtain ⟨t1, t2, t3, _⟩ := htab.2.1 ext_opcode hlt2 hbr
          obtain ⟨z, hz, hz3, l1, hzero, hrd, hfr, hopc, hlead⟩ := copy_arguments_branch
            st.dst.length hn hat3 (by omega) ho2 t1 t2 t3 hbr h
          dsimp only at l1 hzero hrd hfr hopc
          obtain ⟨d1, d2, d3, d4⟩ := decrement_iterate t t.cbc_ext_flags
            (fun op h1 h2 h3 => (htab.2.1 op h1 h2).2.2.2 h3) z ext_opcode hlt2 hbr hz
          have hl3 : st3.dst.length = st.dst.length + 2 := by rw [e3]; simp
          have hop0 : st1.dst[st.dst.length]? = some t.CBC_EXT_OPCODE := by
            rw [hfr _ (by omega) (by omega), e3, hext]
            exact getElem?_append_pair_left _ _ _
          have hop : st1.dst[st.dst.length + 1]? = some (ext_opcode - z) := by
            rw [hopc, e3, getElem?_append_pair_right, Option.map_some', d1]
          have hagree : ∀ i, i < t.CBC_BRANCH_OFFSET_LENGTH ext_opcode - z →
              st1.dst[st.dst.length + 2 + i]?
                = stream_read t st.pages chain (q + 2 + z + i) := by
            intro i hi
            rw [← hl3, hrd i hi, hread _ (by omega)]
          refine ⟨2, ext_opcode, z, (t.cbc_ext_flags ext_opcode).forward_branch_arg,
            Or.inr ⟨rfl, by rw [hb, hext], hb2, hop0⟩, hz, hz3, ?_, ?_, hagree, by omega, d4,
            hop, d3, ?_⟩
          · intro i hi
            rw [← hread _ (by omega)]
            exact hzero i hi
          · intro hw
            rw [← hl3]
            exact hlead hw
          · exact ⟨Or.inr ⟨rfl, hop0, ext_opcode - z, hop, by rw [d2]; exact hbr, by rw [d2],
              d3⟩, by omega, by omega, by omega⟩

/-- The header that `update_branch` reads where the byte code holds a branch. -/
theorem final_branch_header_of_code_branch {t : cbc_tables} {dst code : List Nat}
    {n hdr w : Nat} {fwd : Bool} (hcb : code_branch t dst n hdr w fwd)
    (hag : ∀ x, x < hdr → code[n + x]? = dst[n + x]?) :
    final_branch_header t code n = some (hdr, w) := by
  unfold final_branch_header
  rcases hcb.1 with ⟨e, opcode, a1, a2, a3, _, a5⟩ | ⟨e, a0, opcode, a1, a3, _, a5⟩
  · subst e
    have h0 := hag 0 (by omega)
    rw [Nat.add_zero, a1] at h0
    rw [h0]
    dsimp only
    rw [if_neg a2, if_pos a3, a5]
  · subst e
    have h0 := hag 0 (by omega)
    have h1 := hag 1 (by omega)
    rw [Nat.add_zero, a0] at h0
    rw [a1] at h1
    rw [h0]
    dsimp only
    rw [if_pos rfl, h1]
    dsimp only
    rw [if_pos a3, a5]

/-- C31: for a branch instruction at position `q` of the stream (opcode tables as
`tables_ok` states them, cells holding bytes), the copy pass writes at the position `n` of
the final byte code: the opcode of the stream less `z` (after `CBC_EXT_OPCODE` the extended
opcode less `z`), where `z` is the number of leading zero bytes of the distance that it
drops, and behind it the remaining `CBC_BRANCH_OFFSET_LENGTH opcode - z` distance bytes,
between one and three, the first of them not zero unless it is the only one. This number
is `CBC_BRANCH_OFFSET_LENGTH` of the opcode written, and it is the number of distance
bytes that `update_branch` (the body of `parse_update_branches` for a branch) reads and
writes when it comes to position `n` of a byte code with these opcode bytes. -/
theorem C31_branch_opcode_width (t : cbc_tables) (chain : List Nat)
    (limit q : Nat) (st st1 : copy_state) (hn : 0 < t.PARSER_CBC_STREAM_PAGE_SIZE)
    (htab : tables_ok t)
    (hbytes : ∀ r b, q ≤ r → stream_read t st.pages chain r = some b → b < 256)
    (hat : copy_at t chain q st) (h : copy_instruction t limit st = .ok st1)
    (hm : branch_marked t (stream_read t st.pages chain) q = true) :
    ∃ hdr opcode z fwd,
      ((hdr = 1 ∧ stream_read t st.pages chain q = some opcode
          ∧ opcode ≠ t.CBC_EXT_OPCODE)
        ∨ (hdr = 2 ∧ stream_read t st.pages chain q = some t.CBC_EXT_OPCODE
          ∧ stream_read t st.pages chain (q + 1) = some opcode
          ∧ st1.dst[st.dst.length]? = some t.CBC_EXT_OPCODE))
      ∧ z + 1 ≤ t.CBC_BRANCH_OFFSET_LENGTH opcode ∧ t.CBC_BRANCH_OFFSET_LENGTH opcode ≤ 3
      ∧ (∀ i, i < z → stream_read t st.pages chain (q + hdr + i) = some 0)
      ∧ (z + 1 < t.CBC_BRANCH_OFFSET_LENGTH opcode →
          nonzero_at st1.dst (st.dst.length + hdr))
      ∧ (∀ i, i < t.CBC_BRANCH_OFFSET_LENGTH opcode - z →
          st1.dst[st.dst.length + hdr + i]?
            = stream_read t st.pages chain (q + hdr + z + i))
      ∧ st1.dst.length = st.dst.length + hdr + (t.CBC_BRANCH_OFFSET_LENGTH opcode - z)
      ∧ z ≤ opcode
      ∧ st1.dst[st.dst.length + hdr - 1]? = some (opcode - z)
      ∧ t.CBC_BRANCH_OFFSET_LENGTH (opcode - z) = t.CBC_BRANCH_OFFSET_LENGTH opcode - z
      ∧ 1 ≤ t.CBC_BRANCH_OFFSET_LENGTH opcode - z
      ∧ t.CBC_BRANCH_OFFSET_LENGTH opcode - z ≤ 3
      ∧ code_branch t st1.dst st.dst.length hdr (t.CBC_BRANCH_OFFSET_LENGTH opcode - z) fwd
      ∧ ∀ (base : Nat) (upd : update_state) (code1 : List Nat) (before : Nat),
          (if upd.offset > 0 then page_read_count upd.pages upd.page_p (upd.offset - 1)
            else .ok 0 : Except Fault Nat) = .ok before →
          base + upd.bytes_copied + before = st.dst.length →
          (∀ x, x < hdr → upd.code[st.dst.length + x]? = st1.dst[st.dst.length + x]?) →
          update_branch t base upd = .ok code1 →
          final_branch_header t upd.code st.dst.length
              = some (hdr, t.CBC_BRANCH_OFFSET_LENGTH opcode - z)
            ∧ ∃ target_distance new_distance,
              decode_target upd.code (t.CBC_BRANCH_OFFSET_LENGTH opcode - z)
                  (st.dst.length + hdr) 0 = .ok target_distance
              ∧ encode_target (t.CBC_BRANCH_OFFSET_LENGTH opcode - z)
                  (st.dst.length + hdr + (t.CBC_BRANCH_OFFSET_LENGTH opcode - z))
                  new_distance upd.code = .ok code1 := by
  obtain ⟨hdr, opcode, z, fwd, a1, a2, a3, a4, a5, a6, a7, a8, a9, a10, a11⟩ :=
    copy_instruction_branch_opcode hn htab hbytes hat h hm
  refine ⟨hdr, opcode, z, fwd, a1, a2, a3, a4, a5, a6, a7, a8, a9, a10, by omega, by omega,
    a11, ?_⟩
  intro base upd code1 before hbefore hpos hag hupd
  have hhead := final_branch_header_of_code_branch a11 hag
  obtain ⟨before1, hdr1, w1, target_distance, new_distance, b1, b2, b3, b4⟩ :=
    update_branch_header hupd
  rw [hbefore] at b1
  simp only [Except.ok.injEq] at b1
  subst b1
  rw [hpos] at b2 b3 b4
  rw [hhead] at b2
  simp only [Option.some.injEq, Prod.mk.injEq] at b2
  obtain ⟨rfl, rfl⟩ := b2
  exact ⟨hhead, target_distance, new_distance, b3, b4⟩

/-- Witness of C31: the copy pass at the jump `3, 0, 1, 5` (`CBC_JUMP_FORWARD_3` with the
distance bytes 0, 1, 5) writes `2, 1, 5` behind the byte 9 already written. -/
theorem C31_branch_opcode_width_witness :
    ∃ hdr opcode z fwd,
      ((hdr = 1 ∧ stream_read example_tables [ { bytes := [3, 0, 1, 5, 4, 0, 0, 0] } ] [0] 0
            = some opcode
          ∧ opcode ≠ example_tables.CBC_EXT_OPCODE)
        ∨ (hdr = 2 ∧ stream_read example_tables [ { bytes := [3, 0, 1, 5, 4, 0, 0, 0] } ] [0] 0
            = some example_tables.CBC_EXT_OPCODE
          ∧ stream_read example_tables [ { bytes := [3, 0, 1, 5, 4, 0, 0, 0] } ] [0] (0 + 1)
            = some opcode
          ∧ ([9, 2, 1, 5] : List Nat)[([9] : List Nat).length]?
            = some example_tables.CBC_EXT_OPCODE))
      ∧ z + 1 ≤ example_tables.CBC_BRANCH_OFFSET_LENGTH opcode
      ∧ example_tables.CBC_BRANCH_OFFSET_LENGTH opcode ≤ 3
      ∧ (∀ i, i < z →
          stream_read example_tables [ { bytes := [3, 0, 1, 5, 4, 0, 0, 0] } ] [0]
            (0 + hdr + i) = some 0)
      ∧ (z + 1 < example_tables.CBC_BRANCH_OFFSET_LENGTH opcode →
          nonzero_at [9, 2, 1, 5] (([9] : List Nat).length + hdr))
      ∧ (∀ i, i < example_tables.CBC_BRANCH_OFFSET_LENGTH opcode - z →
          ([9, 2, 1, 5] : List Nat)[([9] : List Nat).length + hdr + i]?
            = stream_read example_tables [ { bytes := [3, 0, 1, 5, 4, 0, 0, 0] } ] [0]
                (0 + hdr + z + i))
      ∧ ([9, 2, 1, 5] : List Nat).length
        = ([9] : List Nat).length + hdr
          + (example_tables.CBC_BRANCH_OFFSET_LENGTH opcode - z)
      ∧ z ≤ opcode
      ∧ ([9, 2, 1, 5] : List Nat)[([9] : List Nat).length + hdr - 1]? = some (opcode - z)
      ∧ example_tables.CBC_BRANCH_OFFSET_LENGTH (opcode - z)
        = example_tables.CBC_BRANCH_OFFSET_LENGTH opcode - z
      ∧ 1 ≤ example_tables.CBC_BRANCH_OFFSET_LENGTH opcode - z
      ∧ example_tables.CBC_BRANCH_OFFSET_LENGTH opcode - z ≤ 3
      ∧ code_branch example_tables [9, 2, 1, 5] ([9] : List Nat).length hdr
          (example_tables.CBC_BRANCH_OFFSET_LENGTH opcode - z) fwd
      ∧ ∀ (base : Nat) (upd : update_state) (code1 : List Nat) (before : Nat),
          (if upd.offset > 0 then page_read_count upd.pages upd.page_p (upd.offset - 1)
            else .ok 0 : Except Fault Nat) = .ok before →
          base + upd.bytes_copied + before = ([9] : List Nat).length →
          (∀ x, x < hdr → upd.code[([9] : List Nat).length + x]?
            = ([9, 2, 1, 5] : List Nat)[([9] : List Nat).length + x]?) →
          update_branch example_tables base upd = .ok code1 →
          final_branch_header example_tables upd.code ([9] : List Nat).length
              = some (hdr, example_tables.CBC_BRANCH_OFFSET_LENGTH opcode - z)
            ∧ ∃ target_distance new_distance,
              decode_target upd.code (example_tables.CBC_BRANCH_OFFSET_LENGTH opcode - z)
                  (([9] : List Nat).length + hdr) 0 = .ok target_distance
              ∧ encode_target (example_tables.CBC_BRANCH_OFFSET_LENGTH opcode - z)
                  (([9] : List Nat).length + hdr
                    + (example_tables.CBC_BRANCH_OFFSET_LENGTH opcode - z))
                  new_distance upd.code = .ok code1 :=
  C31_branch_opcode_width example_tables [0] 254 0
    { pages := [ { bytes := [3, 0, 1, 5, 4, 0, 0, 0] } ], page_p := some 0, offset := 0,
      real_offset := 0, dst := [9] }
    { pages := [ { bytes := [129, 1, 2, 3, 4, 0, 0, 0] } ], page_p := some 0,
      offset := 4, real_offset := 3, dst := [9, 2, 1, 5] }
    (by decide) example_tables_ok
    (fun _ _ _ hr => stream_byte_lt (by decide) hr)
    (by decide) rfl rfl

/-! ## The page list after `parse_update_branches` -/

/-- The loop of `parse_update_branches` ends in the state of the end of the stream: the
pages before the page of the end position point to their predecessors. -/
theorem update_loop_at {t : cbc_tables} {chain : List Nat} {final : List parser_mem_page_t}
    {base qe : Nat} {last : Option Nat × Nat} (hn : 0 < t.PARSER_CBC_STREAM_PAGE_SIZE)
    (hcond : ∀ r, r ≤ qe →
      (((cursor t chain r).1 ≠ last.1 ∨ (cursor t chain r).2 < last.2) ↔ r < qe))
    (fuel : Nat) :
    ∀ (r : Nat) (st stE : update_state), upd_at t chain final r st → r ≤ qe →
      update_loop t base last fuel st = .ok stE → upd_at t chain final qe stE := by
  induction fuel with
  | zero =>
    intro r st stE hat hr h
    have hc := hat.2.2.2.1
    have hpp : st.page_p = (cursor t chain r).1 := congrArg Prod.fst hc
    have hoo : st.offset = (cursor t chain r).2 := congrArg Prod.snd hc
    unfold update_loop at h
    split_ifs at h with hc1
    cases h
    rw [hpp, hoo] at hc1
    have hnot : ¬ r < qe := fun hlt => hc1 ((hcond r hr).mpr hlt)
    have e : r = qe := by omega
    subst e
    exact hat
  | succ fuel ih =>
    intro r st stE hat hr h
    have hc := hat.2.2.2.1
    have hpp : st.page_p = (cursor t chain r).1 := congrArg Prod.fst hc
    have hoo : st.offset = (cursor t chain r).2 := congrArg Prod.snd hc
    unfold update_loop at h
    by_cases hc1 : st.page_p ≠ last.1 ∨ st.offset < last.2
    · rw [if_pos hc1] at h
      rw [hpp, hoo] at hc1
      have hlt : r < qe := (hcond r hr).mp hc1
      cases hst : update_step t base st with
      | error e => rw [hst] at h; cases h
      | ok st1 =>
        rw [hst] at h
        obtain ⟨_, _, hat1, _⟩ := update_step_spec hn hat hst
        exact ih (r + 1) st1 stE hat1 hlt h
    · rw [if_neg hc1] at h
      cases h
      rw [hpp, hoo] at hc1
      have hnot : ¬ r < qe := fun hlt => hc1 ((hcond r hr).mpr hlt)
      have e : r = qe := by omega
      subst e
      exact hat

/-- The page with number `i` of the chain and its `next_p` pointer, from `linked`. -/
theorem linked_page {pages : List parser_mem_page_t} {chain : List Nat} {c i : Nat}
    (hl : linked pages chain c) (hi : i < chain.length) :
    ∃ p page, chain[i]? = some p ∧ pages[p]? = some page
      ∧ page.next_p = (if i < c then (if i = 0 then none else chain[i - 1]?)
          else chain[i + 1]?) := by
  have h := hl i hi
  unfold page_at at h
  have hp : chain[i]? = some (chain[i]) := List.getElem?_eq_getElem hi
  rw [hp] at h
  simp only [Option.some_bind] at h
  cases hpage : pages[chain[i]]? with
  | none => rw [hpage] at h; cases h
  | some page =>
    rw [hpage] at h
    simp only [Option.map_some', Option.some.injEq] at h
    exact ⟨chain[i], page, hp, hpage, h⟩

/-- In a stream whose pages all point to their predecessors, the walk from page `k - 1`
meets the first `k` pages in reverse order and ends. -/
theorem follow_next_reversed {pages : List parser_mem_page_t} {chain : List Nat}
    (hl : linked pages chain chain.length) :
    ∀ (k fuel : Nat), k ≤ chain.length → k ≤ fuel →
      follow_next pages fuel (if k = 0 then none else chain[k - 1]?)
        = some (chain.take k).reverse := by
  intro k
  induction k with
  | zero =>
    intro fuel _ _
    rw [if_pos rfl, List.take_zero, List.reverse_nil]
    cases fuel <;> rfl
  | succ k ih =>
    intro fuel hk hf
    obtain ⟨fuel1, rfl⟩ : ∃ fuel1, fuel = fuel1 + 1 := ⟨fuel - 1, by omega⟩
    obtain ⟨p, page, hp, hpage, hnext⟩ := linked_page hl (show k < chain.length by omega)
    rw [if_pos (show k < chain.length by omega)] at hnext
    rw [if_neg (Nat.succ_ne_zero k), Nat.add_sub_cancel, hp]
    unfold follow_next
    rw [hpage]
    dsimp only
    rw [hnext, ih fuel1 (by omega) (by omega), List.take_succ, hp]
    simp only [Option.map_some', Option.toList_some, List.reverse_append, List.reverse_cons,
      List.reverse_nil, List.nil_append, List.singleton_append]

/-- In a stream whose pages all point to their successors, the walk from page `k` meets the
pages from `k` on in the order of the stream and ends. -/
theorem follow_next_forward {pages : List parser_mem_page_t} {chain : List Nat}
    (hl : linked pages chain 0) :
    ∀ (m k fuel : Nat), k + m = chain.length → m ≤ fuel →
      follow_next pages fuel chain[k]? = some (chain.drop k) := by
  intro m
  induction m with
  | zero =>
    intro k fuel hk _
    have e : chain[k]? = none := List.getElem?_eq_none_iff.mpr (by omega)
    rw [e, List.drop_of_length_le (by omega)]
    cases fuel <;> rfl
  | succ m ih =>
    intro k fuel hk hf
    obtain ⟨fuel1, rfl⟩ : ∃ fuel1, fuel = fuel1 + 1 := ⟨fuel - 1, by omega⟩
    have hlt : k < chain.length := by omega
    obtain ⟨p, page, hp, hpage, hnext⟩ := linked_page hl hlt
    rw [if_neg (Nat.not_lt_zero k)] at hnext
    rw [hp]
    unfold follow_next
    rw [hpage]
    dsimp only
    rw [hnext, ih (k + 1) fuel1 (by omega) (by omega)]
    have e : chain[k] = p := by
      rw [List.getElem?_eq_getElem hlt] at hp
      exact Option.some.inj hp
    rw [List.drop_eq_getElem_cons hlt, e]
    rfl

/-- The closing assignment `last_page_p->next_p = prev_page_p` of `parse_update_branches`:
when the pages before the last one point to their predecessors, afterwards all pages do. -/
theorem linked_set_last {pages : List parser_mem_page_t} {chain : List Nat} {p : Nat}
    {page : parser_mem_page_t} (hnd : chain.Nodup) (hne : 0 < chain.length)
    (hl : linked pages chain (chain.length - 1))
    (hp : chain[chain.length - 1]? = some p) (hpage : pages[p]? = some page) :
    linked (pages.set p { page with
        next_p := (if chain.length - 1 = 0 then none else chain[chain.length - 1 - 1]?) })
      chain chain.length := by
  intro i hi
  have hplt : p < pages.length := by
    by_contra hge
    rw [List.getElem?_eq_none_iff.mpr (by omega)] at hpage
    cases hpage
  rw [if_pos hi]
  unfold page_at
  have hci : chain[i]? = some (chain[i]) := List.getElem?_eq_getElem hi
  by_cases hlast : i = chain.length - 1
  · subst hlast
    rw [hp]
    simp only [Option.some_bind, List.getElem?_set_self hplt, Option.map_some']
  · have hlt : i < chain.length - 1 := by omega
    have hne1 : p ≠ chain[i] := by
      intro e
      have hlen : chain.length - 1 < chain.length := by omega
      rw [List.getElem?_eq_getElem hlen] at hp
      have e2 : chain[chain.length - 1] = chain[i] := (Option.some.inj hp).trans e
      have := (List.Nodup.getElem_inj_iff hnd).mp e2
      omega
    have h := hl i hi
    unfold page_at at h
    rw [if_pos hlt] at h
    rw [hci] at h ⊢
    simp only [Option.some_bind] at h ⊢
    rw [List.getElem?_set_ne hne1]
    exact h

/-- The stream that `parse_update_branches` returns: its pages all point to their
predecessors, and `first_p` and `last_p` are exchanged. -/
theorem parse_update_branches_linked {t : cbc_tables} {byte_code bc1 : parser_mem_data_t}
    {chain code code1 : List Nat} {base : Nat} (hs : stream_ok t byte_code chain)
    (h : parse_update_branches t byte_code code base = .ok (bc1, code1)) :
    linked bc1.pages chain chain.length ∧ bc1.first_p = byte_code.last_p
      ∧ bc1.last_p = byte_code.first_p ∧ bc1.last_position = byte_code.last_position := by
  have hs0 := hs
  obtain ⟨hn, hp, hl0, hfirst, hlast, hle, hempty⟩ := hs
  unfold parse_update_branches at h
  dsimp only at h
  cases hul : update_loop t base (stream_end t byte_code) (stream_fuel byte_code)
      { pages := byte_code.pages, page_p := byte_code.first_p, prev_page_p := none,
        offset := 0, bytes_copied := 0, code := code } with
  | error e => rw [hul] at h; cases h
  | ok stE =>
    rw [hul] at h
    dsimp only at h
    have hatu : upd_at t chain byte_code.pages 0
        { pages := byte_code.pages, page_p := byte_code.first_p, prev_page_p := none,
          offset := 0, bytes_copied := 0, code := code } := by
      refine ⟨hp, ?_, fun _ => rfl, ?_, ?_, ?_⟩
      · rw [Nat.zero_div]; exact hl0
      · unfold cursor
        rw [Nat.zero_div, Nat.zero_mod, ← List.head?_eq_getElem?, ← hfirst]
      · rw [Nat.zero_div]; rfl
      · rw [Nat.zero_div]; rfl
    obtain ⟨hpE, hlE, _, _, hprevE, _⟩ := update_loop_at hn
      (fun r hr => loop_cond_iff hs0 hr) (stream_fuel byte_code) 0 _ stE hatu
      (Nat.zero_le _) hul
    by_cases hfull : byte_code.last_position ≥ t.PARSER_CBC_STREAM_PAGE_SIZE
    · have hse : stream_end t byte_code = (none, 0) := by
        unfold stream_end; rw [if_pos hfull]
      have hdiv : stream_size t byte_code chain / t.PARSER_CBC_STREAM_PAGE_SIZE
          = chain.length := by
        unfold stream_size
        have e : byte_code.last_position = t.PARSER_CBC_STREAM_PAGE_SIZE := by omega
        rw [e, Nat.add_sub_cancel]
        exact Nat.mul_div_cancel _ hn
      rw [hdiv] at hlE
      rw [hse] at h
      simp only [Except.ok.injEq, Prod.mk.injEq] at h
      obtain ⟨rfl, -⟩ := h
      exact ⟨hlE, rfl, rfl, rfl⟩
    · have hse : stream_end t byte_code = (byte_code.last_p, byte_code.last_position) := by
        unfold stream_end; rw [if_neg hfull]
      have hne : 0 < chain.length := by
        rcases Nat.eq_zero_or_pos chain.length with h0 | h0
        · have := hempty (List.length_eq_zero.mp h0)
          omega
        · exact h0
      have hdiv : stream_size t byte_code chain / t.PARSER_CBC_STREAM_PAGE_SIZE
          = chain.length - 1 := by
        unfold stream_size
        obtain ⟨m, hm⟩ : ∃ m, chain.length = m + 1 := ⟨chain.length - 1, by omega⟩
        rw [hm, Nat.add_sub_cancel, Nat.add_mul, Nat.one_mul,
          Nat.add_right_comm, Nat.add_sub_cancel, Nat.add_comm,
          Nat.add_mul_div_right _ _ hn, Nat.div_eq_of_lt (by omega), Nat.zero_add]
      rw [hdiv] at hlE hprevE
      have hlp : byte_code.last_p = chain[chain.length - 1]? := by
        rw [hlast, List.getLast?_eq_getElem?]
      have hlt : chain.length - 1 < chain.length := by omega
      have hget : chain[chain.length - 1]? = some (chain[chain.length - 1]) :=
        List.getElem?_eq_getElem hlt
      rw [hse] at h
      dsimp only at h
      rw [hlp, hget] at h
      dsimp only at h
      rw [if_pos rfl] at h
      cases hpage : stE.pages[chain[chain.length - 1]]? with
      | none => rw [hpage] at h; cases h
      | some page =>
        rw [hpage] at h
        simp only [Except.ok.injEq, Prod.mk.injEq] at h
        obtain ⟨rfl, -⟩ := h
        refine ⟨?_, hlp.trans hget |>.symm ▸ rfl, rfl, rfl⟩
        dsimp only
        rw [hprevE]
        exact linked_set_last hpE.1 hne hlE hget hpage

/-- C34: in a well-formed stream (`stream_ok`, pages `chain` from `first_p` to `last_p`),
following the `next_p` pointers from `first_p` meets the pages `chain`; after
`parse_update_branches` has returned, following them from the new `first_p`, which is the
old `last_p`, meets the same pages in reverse order, every page once, and ends at the old
first page, which is the new `last_p`; this holds for a full last page, a partly filled last
page and a stream without pages alike. -/
theorem C34_page_list_reversed (t : cbc_tables) (byte_code bc1 : parser_mem_data_t)
    (chain code code1 : List Nat) (base fuel : Nat) (hs : stream_ok t byte_code chain)
    (h : parse_update_branches t byte_code code base = .ok (bc1, code1))
    (hfuel : chain.length ≤ fuel) :
    follow_next byte_code.pages fuel byte_code.first_p = some chain
      ∧ follow_next bc1.pages fuel bc1.first_p = some chain.reverse
      ∧ chain.reverse.Nodup
      ∧ (∀ p, chain.reverse.count p = chain.count p)
      ∧ bc1.first_p = byte_code.last_p ∧ bc1.last_p = byte_code.first_p
      ∧ chain.reverse.getLast? = bc1.last_p
      ∧ chain.reverse.head? = bc1.first_p := by
  obtain ⟨hlink, hf, hl, _⟩ := parse_update_branches_linked hs h
  obtain ⟨hn, hp, hl0, hfirst, hlast, hle, hempty⟩ := hs
  refine ⟨?_, ?_, List.nodup_reverse.mpr hp.1, fun p => List.count_reverse p chain, hf, hl, ?_, ?_⟩
  · rw [hfirst, List.head?_eq_getElem?]
    have := follow_next_forward hl0 chain.length 0 fuel (by omega) hfuel
    rw [List.drop_zero] at this
    exact this
  · have := follow_next_reversed hlink chain.length fuel (Nat.le_refl _) hfuel
    rw [List.take_length] at this
    rw [hf, hlast, List.getLast?_eq_getElem?]
    by_cases h0 : chain.length = 0
    · rw [if_pos h0] at this
      rw [← this, List.getElem?_eq_none_iff.mpr (by omega)]
    · rw [if_neg h0] at this
      exact this
  · rw [List.getLast?_reverse, hl, hfirst]
  · rw [List.head?_reverse, hf, hlast]

/-- Witness for C34 on `reversal_example` with a partly filled last page, with a full last
page, and on the stream without pages: the walk from the new `first_p` meets the pages
`1, 2, 0`, the reverse of the stream order `0, 2, 1` (no page for the empty stream). -/
theorem C34_page_list_reversed_witness :
    (stream_ok example_tables (reversal_example 4) [0, 2, 1]
      ∧ parse_update_branches example_tables (reversal_example 4) [] 0
        = .ok ({ pages := [ { next_p := none, bytes := [4, 4, 4, 4, 4, 4, 4, 4] },
                            { next_p := some 2, bytes := [4, 4, 4, 12, 0, 0, 0, 0] },
                            { next_p := some 0, bytes := [11, 7, 4, 4, 4, 4, 4, 4] } ],
                 first_p := some 1, last_p := some 0, last_position := 4 }, [])
      ∧ follow_next (reversal_example 4).pages 3 (reversal_example 4).first_p
        = some [0, 2, 1]
      ∧ follow_next [ { next_p := none, bytes := [4, 4, 4, 4, 4, 4, 4, 4] },
                      { next_p := some 2, bytes := [4, 4, 4, 12, 0, 0, 0, 0] },
                      { next_p := some 0, bytes := [11, 7, 4, 4, 4, 4, 4, 4] } ] 3 (some 1)
        = some [1, 2, 0])
    ∧ (stream_ok example_tables (reversal_example 8) [0, 2, 1]
      ∧ parse_update_branches example_tables (reversal_example 8) [] 0
        = .ok ({ pages := [ { next_p := none, bytes := [4, 4, 4, 4, 4, 4, 4, 4] },
                            { next_p := some 2, bytes := [4, 4, 4, 12, 0, 0, 0, 0] },
                            { next_p := some 0, bytes := [11, 7, 4, 4, 4, 4, 4, 4] } ],
                 first_p := some 1, last_p := some 0, last_position := 8 }, [])
      ∧ follow_next [ { next_p := none, bytes := [4, 4, 4, 4, 4, 4, 4, 4] },
                      { next_p := some 2, bytes := [4, 4, 4, 12, 0, 0, 0, 0] },
                      { next_p := some 0, bytes := [11, 7, 4, 4, 4, 4, 4, 4] } ] 3 (some 1)
        = some [1, 2, 0])
    ∧ (stream_ok example_tables empty_stream_example []
      ∧ parse_update_branches example_tables empty_stream_example [] 0
        = .ok (empty_stream_example, [])
      ∧ follow_next empty_stream_example.pages 0 empty_stream_example.first_p
        = some []) :=
  ⟨⟨by decide, rfl,
      (C34_page_list_reversed example_tables (reversal_example 4) _ [0, 2, 1] [] [] 0 3
        (by decide) rfl (by decide)).1,
      (C34_page_list_reversed example_tables (reversal_example 4) _ [0, 2, 1] [] [] 0 3
        (by decide) rfl (by decide)).2.1⟩,
    ⟨by decide, rfl,
      (C34_page_list_reversed example_tables (reversal_example 8)
        { pages := [ { next_p := none, bytes := [4, 4, 4, 4, 4, 4, 4, 4] },
                     { next_p := some 2, bytes := [4, 4, 4, 12, 0, 0, 0, 0] },
                     { next_p := some 0, bytes := [11, 7, 4, 4, 4, 4, 4, 4] } ],
          first_p := some 1, last_p := some 0, last_position := 8 }
        [0, 2, 1] [] [] 0 3 (by decide) rfl (by decide)).2.1⟩,
    ⟨by decide, rfl,
      (C34_page_list_reversed example_tables empty_stream_example empty_stream_example
        [] [] [] 0 0 (by decide) rfl (by decide)).2.1⟩⟩

/-! ## The width of the recomputed distances -/

/-- The copy pass writes at most one byte per byte of the stream: the number of bytes of
final byte code between a branch written at `n` for position `r` and the state at the target
`r + d` (forward) or `r - d` (backward) of the stream is at most `d`. -/
theorem copy_site_distance_le {t : cbc_tables} {chain : List Nat} {limit base kx : Nat}
    {last : Option Nat × Nat} {st0 sx : copy_state} {r n hdr w d : Nat} {fwd : Bool}
    (hn : 0 < t.PARSER_CBC_STREAM_PAGE_SIZE) (h127 : t.PARSER_CBC_STREAM_PAGE_SIZE ≤ 127)
    (hat0 : copy_at t chain 0 st0) (hco : counters_ok t chain base 0 st0)
    (hs : copy_site t limit last chain st0 r n hdr w fwd d)
    (hkx : copy_steps t limit last kx st0 = .ok sx)
    (hx : copy_pos t chain sx = if fwd = true then r + d else r - d)
    (hback : fwd = false → d ≤ r) :
    (if fwd = true then sx.dst.length - n else n - sx.dst.length) ≤ d := by
  cases fwd with
  | true =>
    simp only [if_true] at hx ⊢
    rcases Nat.eq_zero_or_pos d with h0 | h0
    · have := (copy_site_after hn h127 hat0 (Nat.zero_le _) hco hs hkx (by omega)).1
      omega
    · have := (copy_site_order hn h127 hat0 (Nat.zero_le _) hco hs hkx (by omega)).2
      omega
  | false =>
    simp only [Bool.false_eq_true, if_false] at hx ⊢
    have hle := hback rfl
    have := (copy_site_after hn h127 hat0 (Nat.zero_le _) hco hs hkx (by omega)).2
    omega

/-- C32: for a well-formed paged stream that `parser_post_processing` processes with success,
take a branch that the copy pass wrote at position `n` of the final byte code with `w`
distance bytes, for the instruction at position `q` of the stream whose distance as emitted
is `d` (forward or backward), and whose target is the first byte of an instruction or the
end of the stream. The distance `v` that `parse_update_branches` computes for it (the number
of bytes of final byte code between the branch and the target) is at most `d`; `d` fits in
the `w` bytes retained, so `v` does, and the `w` distance bytes of the final byte code hold
`v` itself, nothing cut off, behind the unchanged opcode bytes. -/
theorem C32_recomputed_distance_fits (lim : parser_limits) (t : cbc_tables)
    (context0 context7 : parser_context_t) (chain : List Nat) (r : compute_indicies_result)
    (first : first_pass_state) (compiled_code cc : cbc_compiled_code_t)
    (context5 context6 : parser_context_t) (dst0 : List Nat)
    (literal_table : List literal_value_t) (q n hdr w d kx : Nat) (fwd : Bool)
    (sx : copy_state)
    (htab : tables_ok t) (hs : stream_ok t context0.byte_code chain)
    (hfirst : post_processing_first_pass lim t context0 = .ok (r, first))
    (hb : stream_bytes_ok first.pages chain)
    (hhdr : post_processing_header lim t (post_processing_end_label t r.context first).2 r
      (post_processing_end_label t r.context first).1 = .ok (compiled_code, context5))
    (hinit : parser_generate_initializers t context5 [] compiled_code.literal_table
      r.uninitialized_var_end r.initialized_var_end
      (if r.context.literal_count ≤ lim.CBC_MAXIMUM_SMALL_VALUE then
        CBC_MAXIMUM_BYTE_VALUE - 1 else CBC_LOWER_SEVEN_BIT_MASK)
      = .ok (context6, dst0, literal_table))
    (h : parser_post_processing lim t context0 = .ok (cc, context7))
    (hsite : copy_site t
      (if r.context.literal_count ≤ lim.CBC_MAXIMUM_SMALL_VALUE then
        CBC_MAXIMUM_BYTE_VALUE - 1 else CBC_LOWER_SEVEN_BIT_MASK)
      (stream_end t context0.byte_code) chain
      { pages := first.pages, page_p := context0.byte_code.first_p, offset := 0,
        real_offset := 0, dst := dst0 } q n hdr w fwd d)
    (hkx : copy_steps t
      (if r.context.literal_count ≤ lim.CBC_MAXIMUM_SMALL_VALUE then
        CBC_MAXIMUM_BYTE_VALUE - 1 else CBC_LOWER_SEVEN_BIT_MASK)
      (stream_end t context0.byte_code) kx
      { pages := first.pages, page_p := context0.byte_code.first_p, offset := 0,
        real_offset := 0, dst := dst0 } = .ok sx)
    (hx : copy_pos t chain sx = if fwd = true then q + d else q - d)
    (hback : fwd = false → d ≤ q) :
    ∃ v, v = (if fwd = true then sx.dst.length - n else n - sx.dst.length)
      ∧ v ≤ d ∧ d < 256 ^ w ∧ v < 256 ^ w
      ∧ code_branch t cc.byte_code n hdr w fwd
      ∧ big_endian (fun x => cc.byte_code[x]?) w (n + hdr) 0 = some v := by
  obtain ⟨compiled_code1, context51, context61, copied, dst1, literal_table1, byte_code,
    hhdr1, hcopy, hupd⟩ := post_processing_passes hfirst h
  rw [hhdr] at hhdr1
  simp only [Except.ok.injEq, Prod.mk.injEq] at hhdr1
  obtain ⟨rfl, rfl⟩ := hhdr1
  obtain ⟨dst01, suffix, hgen, hl, hcp, hdst1⟩ := post_processing_copy_pass_loop hcopy
  rw [hinit] at hgen
  simp only [Except.ok.injEq, Prod.mk.injEq] at hgen
  obtain ⟨rfl, rfl, rfl⟩ := hgen
  obtain ⟨e1, q1, hf1, _⟩ := post_processing_first_pass_run hs hfirst
  have ebc : context6.byte_code = context0.byte_code := by
    rw [parser_generate_initializers_byte_code hinit, post_processing_header_byte_code hhdr,
      post_processing_end_label_byte_code, e1]
  have hat0 : copy_at t chain 0
      { pages := first.pages, page_p := context0.byte_code.first_p, offset := 0,
        real_offset := 0, dst := dst0 } := by
    refine ⟨hf1.1, hf1.2.1, ?_⟩
    unfold cursor
    rw [Nat.zero_div, Nat.zero_mod, ← List.head?_eq_getElem?, ← hs.2.2.2.1]
  have hco0 : counters_ok t chain dst0.length 0
      { pages := first.pages, page_p := context0.byte_code.first_p, offset := 0,
        real_offset := 0, dst := dst0 } := by
    unfold counters_ok copied_before counter_at pages_total
    simp
  have hle := copy_site_distance_le hs.1 htab.2.2 hat0 hco0 hsite hkx hx hback
  have hd : d < 256 ^ w := by
    obtain ⟨_, _, _, _, _, _, _, _, _, _, _, _, _, hd⟩ := hsite
    exact hd
  rw [← ebc] at hs hsite hkx
  rw [hdst1] at hupd
  obtain ⟨_, hcb, hbe⟩ :=
    update_after_copy htab hs hf1.1 hf1.2.1 hb hl.symm hcp hupd hsite hkx hx hback
  exact ⟨_, rfl, hle, hd, Nat.lt_of_le_of_lt hle hd, hcb, hbe⟩

/-- Witness of C32: in `branch_example` the backward jump `5, 8` at position 8 of the
stream, whose target is position 0, is written at position 7 of the final byte code with one
distance byte; the distance as emitted is 8, the recomputed distance is 7 (the forward jump
before it lost a byte), and the final byte code `1, 10, 4, 4, 4, 4, 4, 5, 7, 4, 12, 13`
holds it. -/
theorem C32_recomputed_distance_fits_witness :
    ∃ cc context7, parser_post_processing example_limits example_tables branch_example
        = .ok (cc, context7)
      ∧ ∃ v, v = 7 ∧ v ≤ 8 ∧ 8 < 256 ^ 1 ∧ v < 256 ^ 1
        ∧ code_branch example_tables cc.byte_code 7 1 1 false
        ∧ big_endian (fun x => cc.byte_code[x]?) 1 (7 + 1) 0 = some v := by
  have hok : (parser_post_processing example_limits example_tables branch_example).toBool
      = true := by decide
  cases hp : parser_post_processing example_limits example_tables branch_example with
  | error e => rw [hp] at hok; cases hok
  | ok res =>
    obtain ⟨cc, context7⟩ := res
    exact ⟨cc, context7, rfl,
      C32_recomputed_distance_fits example_limits example_tables branch_example context7
        [0, 1] _ _ _ cc _ _ [] _ 8 7 1 1 8 0 false
        { pages := [ { next_p := some 1, bytes := [2, 0, 11, 4, 4, 4, 4, 4] },
                     { bytes := [5, 8, 4, 12, 0, 0, 0, 0] } ],
          page_p := some 0, offset := 0, real_offset := 0, dst := [] }
        example_tables_ok (by decide) rfl (by decide) rfl rfl hp
        ⟨6, _, { pages := [ { next_p := some 1, bytes := [129, 1, 2, 3, 4, 5, 6, 7] },
                            { bytes := [129, 2, 4, 12, 0, 0, 0, 0] } ],
                 page_p := some 1, offset := 2, real_offset := 2,
                 dst := [1, 11, 4, 4, 4, 4, 4, 5, 8] },
          rfl, rfl, Or.inr (by decide), rfl, rfl, rfl,
          ⟨Or.inl ⟨rfl, 5, rfl, by decide, rfl, rfl, rfl⟩, by decide, by decide, by decide⟩,
          rfl, rfl, rfl, by decide⟩
        rfl rfl (fun _ => by decide)⟩

/-! ## The bytes that the copy pass emits for one instruction -/

theorem literal_flags_cases (flags : cbc_flags_t) :
    (next_literal_flags flags = none ∧ flags.has_literal_arg2 = false)
      ∨ ∃ flags1, next_literal_flags flags = some flags1
          ∧ flags.has_literal_arg2 = true
          ∧ (flags1.has_literal_arg || flags1.has_literal_arg2) = true
          ∧ literal_argument_count flags = literal_argument_count flags1 + 1
          ∧ flags_after_literals flags1 = flags_after_literals flags := by
  obtain ⟨a, b, c, d, e⟩ := flags
  cases a <;> cases b <;>
    simp [next_literal_flags, literal_argument_count, flags_after_literals]

theorem emitted_literals_one (limit : Nat) (read : Nat → Option Nat) (q : Nat) :
    emitted_literals limit read 1 q
      = (match read q with
          | none => []
          | some first_byte =>
            if first_byte > limit then first_byte :: (read (q + 1)).toList
            else [first_byte]) := by
  have h1 : emitted_literals limit read 1 q
      = (match read q with
          | none => []
          | some first_byte =>
            if first_byte > limit then first_byte :: (read (q + 1)).toList
            else [first_byte]) ++ [] := rfl
  rw [h1, List.append_nil]

/-- One literal argument of the copy pass: two bytes of the stream are consumed, the first
is emitted, the second only when the first is above the one byte limit. -/
theorem copy_literal_bytes {t : cbc_tables} {chain : List Nat} (pfx : Nat) {q limit : Nat}
    {st st1 : copy_state} (hat : copy_at t chain q st)
    (hn : 0 < t.PARSER_CBC_STREAM_PAGE_SIZE) (hpfx : pfx ≤ st.dst.length)
    (h : copy_literal t limit st = .ok st1) :
    copy_run t chain pfx q st (q + 2) st1
      ∧ st1.dst = st.dst ++ emitted_literals limit (stream_read t st.pages chain) 1 q
      ∧ 1 ≤ (emitted_literals limit (stream_read t st.pages chain) 1 q).length
      ∧ (emitted_literals limit (stream_read t st.pages chain) 1 q).length ≤ 2 := by
  have hpp : st.page_p = (cursor t chain q).1 := congrArg Prod.fst hat.2.2
  have hoo : st.offset = (cursor t chain q).2 := congrArg Prod.snd hat.2.2
  unfold copy_literal at h
  cases hr : page_read st.pages st.page_p st.offset with
  | error e => rw [hr] at h; cases h
  | ok first_byte =>
    rw [hr] at h
    dsimp only at h
    rw [hpp, hoo] at hr
    have hb := (page_read_ok_iff t st.pages chain q first_byte).mp hr
    cases hc : copy_byte t st with
    | error e => rw [hc] at h; cases h
    | ok st2 =>
      rw [hc] at h
      dsimp only at h
      obtain ⟨b, hb1, hd1, r1⟩ := copy_byte_run pfx hat hn hpfx hc
      rw [hb] at hb1
      cases hb1
      have hpfx2 : pfx ≤ st2.dst.length := by rw [hd1]; simp; omega
      rw [emitted_literals_one, hb]
      dsimp only
      by_cases hf : first_byte > limit
      · rw [if_pos hf] at h ⊢
        obtain ⟨b2, hb2, hd2, r2⟩ := copy_byte_run pfx r1.2.1 hn hpfx2 h
        rw [r1.2.2.2.2.2.1 (q + 1) (Or.inr (le_refl _))] at hb2
        rw [hb2]
        refine ⟨copy_run_trans r1 r2, ?_, by simp, by simp⟩
        rw [hd2, hd1]
        simp
      · rw [if_neg hf] at h ⊢
        obtain ⟨r2, hd2, _⟩ := skip_run pfx r1.2.1 hn h
        refine ⟨copy_run_trans r1 r2, ?_, by simp, by simp⟩
        rw [hd2, hd1]

theorem emitted_literals_succ (limit : Nat) (read : Nat → Option Nat) (n q : Nat) :
    emitted_literals limit read (n + 1) q
      = emitted_literals limit read 1 q ++ emitted_literals limit read n (q + 2) := by
  have h1 : emitted_literals limit read 1 q
      = (match read q with
          | none => []
          | some first_byte =>
            if first_byte > limit then first_byte :: (read (q + 1)).toList
            else [first_byte]) ++ [] := rfl
  have h2 : emitted_literals limit read (n + 1) q
      = (match read q with
          | none => []
          | some first_byte =>
            if first_byte > limit then first_byte :: (read (q + 1)).toList
            else [first_byte]) ++ emitted_literals limit read n (q + 2) := rfl
  rw [h2, h1, List.append_nil]

theorem emitted_literals_congr (limit : Nat) {read1 read : Nat → Option Nat} (n : Nat) :
    ∀ q, (∀ r, q ≤ r → read1 r = read r) →
      emitted_literals limit read1 n q = emitted_literals limit read n q := by
  induction n with
  | zero => intro q _; rfl
  | succ n ih =>
    intro q hag
    rw [emitted_literals_succ, emitted_literals_succ limit read, emitted_literals_one,
      emitted_literals_one, hag q (le_refl _), hag (q + 1) (by omega),
      ih (q + 2) (fun r hr => hag r (by omega))]

/-- The loop over the literal arguments in the copy pass: it goes through
`literal_argument_count flags` arguments of two stream bytes each, emits
`emitted_literals` for them (one or two bytes each) and leaves with the flags
`flags_after_literals flags`. -/
theorem copy_literals_bytes {t : cbc_tables} {chain : List Nat} (pfx : Nat) {limit : Nat}
    (hn : 0 < t.PARSER_CBC_STREAM_PAGE_SIZE) (fuel : Nat) :
    ∀ (flags flags1 : cbc_flags_t) (q : Nat) (st st1 : copy_state), copy_at t chain q st →
      pfx ≤ st.dst.length → literal_argument_count flags ≤ fuel →
      copy_literals t limit fuel flags st = .ok (flags1, st1) →
      flags1 = flags_after_literals flags
        ∧ copy_run t chain pfx q st (q + 2 * literal_argument_count flags) st1
        ∧ st1.dst = st.dst ++ emitted_literals limit (stream_read t st.pages chain)
            (literal_argument_count flags) q
        ∧ literal_argument_count flags
            ≤ (emitted_literals limit (stream_read t st.pages chain)
                (literal_argument_count flags) q).length
        ∧ (emitted_literals limit (stream_read t st.pages chain)
                (literal_argument_count flags) q).length
            ≤ 2 * literal_argument_count flags := by
  induction fuel with
  | zero =>
    intro flags flags1 q st st1 hat hpfx hcount h
    unfold copy_literals at h
    split_ifs at h with hf
    simp only [Except.ok.injEq, Prod.mk.injEq] at h
    obtain ⟨rfl, rfl⟩ := h
    have h0 : literal_argument_count flags = 0 := by omega
    have hfa : flags_after_literals flags = flags := by
      obtain ⟨a, b, c, d, e⟩ := flags
      cases a <;> cases b <;> simp_all [flags_after_literals]
    rw [h0, hfa]
    exact ⟨rfl, copy_run_refl hat, by simp [emitted_literals], by simp [emitted_literals],
      by simp [emitted_literals]⟩
  | succ fuel ih =>
    intro flags flags1 q st st1 hat hpfx hcount h
    unfold copy_literals at h
    by_cases hf : (flags.has_literal_arg || flags.has_literal_arg2) = true
    · rw [if_pos hf] at h
      cases hc : copy_literal t limit st with
      | error e => rw [hc] at h; cases h
      | ok st2 =>
        rw [hc] at h
        dsimp only at h
        obtain ⟨r1, hd1, hl1, hl2⟩ := copy_literal_bytes pfx hat hn hpfx hc
        rcases literal_flags_cases flags with ⟨hnone, h2⟩ | ⟨flags2, hsome, h2, hf2, hcnt, hafter⟩
        · rw [hnone] at h
          simp only [Except.ok.injEq, Prod.mk.injEq] at h
          obtain ⟨rfl, rfl⟩ := h
          have h1 : literal_argument_count flags = 1 := by
            obtain ⟨a, b, c, d, e⟩ := flags
            cases a <;> cases b <;> simp_all [literal_argument_count]
          have hfa : flags_after_literals flags = flags := by
            unfold flags_after_literals
            rw [h2]
            rfl
          rw [h1, hfa]
          exact ⟨rfl, r1, hd1, hl1, hl2⟩
        · rw [hsome] at h
          dsimp only at h
          have hpfx2 : pfx ≤ st2.dst.length := by
            have := r1.2.2.1
            omega
          obtain ⟨e1, r2, hd2, hl3, hl4⟩ := ih flags2 flags1 (q + 2) st2 st1 r1.2.1 hpfx2
            (by omega) h
          have hread : emitted_literals limit (stream_read t st2.pages chain)
                (literal_argument_count flags2) (q + 2)
              = emitted_literals limit (stream_read t st.pages chain)
                (literal_argument_count flags2) (q + 2) :=
            emitted_literals_congr limit _ _
              (fun r hr => r1.2.2.2.2.2.1 r (Or.inr hr))
          rw [hread] at hd2 hl3 hl4
          rw [hcnt, emitted_literals_succ]
          refine ⟨by rw [e1, hafter], ?_, ?_, ?_, ?_⟩
          · have : q + 2 * (literal_argument_count flags2 + 1)
                = q + 2 + 2 * literal_argument_count flags2 := by omega
            rw [this]
            exact copy_run_trans r1 r2
          · rw [hd2, hd1, List.append_assoc]
          · rw [List.length_append]; omega
          · rw [List.length_append]; omega
    · rw [if_neg hf] at h
      simp only [Except.ok.injEq, Prod.mk.injEq] at h
      obtain ⟨rfl, rfl⟩ := h
      have h0 : literal_argument_count flags = 0 := by
        obtain ⟨a, b, c, d, e⟩ := flags
        cases a <;> cases b <;> simp_all [literal_argument_count]
      have hfa : flags_after_literals flags = flags := by
        obtain ⟨a, b, c, d, e⟩ := flags
        cases a <;> cases b <;> simp_all [flags_after_literals]
      rw [h0, hfa]
      exact ⟨rfl, copy_run_refl hat, by simp [emitted_literals], by simp [emitted_literals],
        by simp [emitted_literals]⟩

/-- The arguments of an instruction without a branch argument in the copy pass: the literal
arguments are emitted as `emitted_literals`, the byte argument as it is. -/
theorem copy_arguments_bytes {t : cbc_tables} {chain : List Nat} (pfx : Nat)
    {limit branch_offset_length opcode_p q : Nat} {flags : cbc_flags_t}
    {st st1 : copy_state} (hn : 0 < t.PARSER_CBC_STREAM_PAGE_SIZE)
    (hat : copy_at t chain q st) (hpfx : pfx ≤ st.dst.length)
    (hnb : (flags_after_literals flags).has_branch_arg = false)
    (h : copy_arguments t limit flags branch_offset_length opcode_p st = .ok st1) :
    ∃ byt, (((flags_after_literals flags).has_byte_arg = false ∧ byt = [])
          ∨ ((flags_after_literals flags).has_byte_arg = true
            ∧ ∃ b, stream_read t st.pages chain (q + 2 * literal_argument_count flags)
                = some b ∧ byt = [b]))
      ∧ copy_run t chain pfx q st (q + 2 * literal_argument_count flags + byt.length) st1
      ∧ st1.dst = st.dst ++ emitted_literals limit (stream_read t st.pages chain)
            (literal_argument_count flags) q ++ byt
      ∧ literal_argument_count flags
          ≤ (emitted_literals limit (stream_read t st.pages chain)
              (literal_argument_count flags) q).length
      ∧ (emitted_literals limit (stream_read t st.pages chain)
              (literal_argument_count flags) q).length
          ≤ 2 * literal_argument_count flags := by
  unfold copy_arguments at h
  cases hl : copy_literals t limit 3 flags st with
  | error e => rw [hl] at h; cases h
  | ok res =>
    obtain ⟨flags1, st4⟩ := res
    rw [hl] at h
    dsimp only at h
    have hcount : literal_argument_count flags ≤ 3 := by
      unfold literal_argument_count
      split_ifs <;> omega
    obtain ⟨e1, r1, hd1, hl1, hl2⟩ :=
      copy_literals_bytes pfx hn 3 flags flags1 q st st4 hat hpfx hcount hl
    subst e1
    have hpfx4 : pfx ≤ st4.dst.length := by
      have := r1.2.2.1
      omega
    rw [hnb] at h
    by_cases hby : (flags_after_literals flags).has_byte_arg = true
    · rw [if_pos hby] at h
      cases hc : copy_byte t st4 with
      | error e => rw [hc] at h; cases h
      | ok st5 =>
        rw [hc] at h
        simp only [Bool.false_eq_true, if_false, Except.ok.injEq] at h
        subst h
        obtain ⟨b, hb, hd5, r5⟩ := copy_byte_run pfx r1.2.1 hn hpfx4 hc
        rw [r1.2.2.2.2.2.1 _ (Or.inr (le_refl _))] at hb
        refine ⟨[b], Or.inr ⟨hby, b, hb, rfl⟩, copy_run_trans r1 r5, ?_, hl1, hl2⟩
        rw [hd5, hd1]
    · rw [if_neg hby] at h
      simp only [Bool.false_eq_true, if_false, Except.ok.injEq] at h
      subst h
      have hbf : (flags_after_literals flags).has_byte_arg = false := by
        cases hx : (flags_after_literals flags).has_byte_arg
        · rfl
        · exact absurd hx hby
      refine ⟨[], Or.inl ⟨hbf, rfl⟩, ?_, ?_, hl1, hl2⟩
      · rw [List.length_nil, Nat.add_zero]; exact r1
      · rw [hd1, List.append_nil]

theorem flags_after_branch {flags : cbc_flags_t}
    (h : (flags_after_literals flags).has_branch_arg = true) :
    flags.has_literal_arg2 = false ∧ flags.has_branch_arg = true := by
  obtain ⟨a, b, c, d, e⟩ := flags
  cases b <;> simp_all [flags_after_literals]

/-- The branch argument of an instruction in the copy pass consumes `branch_offset_length`
bytes of the stream. -/
theorem copy_arguments_branch_pos {t : cbc_tables} {chain : List Nat} (pfx : Nat)
    {limit branch_offset_length opcode_p q : Nat} {flags : cbc_flags_t}
    {st st1 : copy_state} (hn : 0 < t.PARSER_CBC_STREAM_PAGE_SIZE)
    (hat : copy_at t chain q st) (hpfx : pfx ≤ opcode_p) (hop : opcode_p < st.dst.length)
    (hf1 : flags.has_literal_arg = false) (hf2 : flags.has_literal_arg2 = false)
    (hf3 : flags.has_byte_arg = false) (hf4 : flags.has_branch_arg = true)
    (h : copy_arguments t limit flags branch_offset_length opcode_p st = .ok st1) :
    copy_run t chain pfx q st (q + branch_offset_length) st1 := by
  unfold copy_arguments at h
  rw [copy_literals_none 3 flags st hf1 hf2] at h
  dsimp only at h
  rw [hf3, hf4] at h
  simp only [Bool.false_eq_true, if_false, if_true] at h
  split_ifs at h with hlen
  cases hcb : copy_branch_bytes t opcode_p (branch_offset_length - 1) true st with
  | error e => rw [hcb] at h; cases h
  | ok st6 =>
    rw [hcb] at h
    dsimp only at h
    obtain ⟨z, hz, _, r6, l6, _⟩ := copy_branch_bytes_run pfx hn opcode_p
      (branch_offset_length - 1) true q st st6 hat hpfx hop hcb
    obtain ⟨b, hb, hd7, r7⟩ := copy_byte_run pfx r6.2.1 hn (by omega) h
    have e : q + branch_offset_length = q + (branch_offset_length - 1) + 1 := by omega
    rw [e]
    exact copy_run_trans r6 r7

/-- C10: one instruction of the copy pass, from the state `st` at position `q` of the
stream to `st1`, emits no more bytes than it consumes, operand by operand. A deleted jump
(opcode `CBC_JUMP_FORWARD`, three or four stream bytes) emits nothing. Any other instruction
has the opcode bytes `hdr` (the opcode, after `CBC_EXT_OPCODE` the extended opcode too),
which select `flags` and the branch offset length `bol`. Without a branch argument the
final byte code grows by exactly `hdr`, the bytes `lit` of the `literal_argument_count
flags` literal arguments (two stream bytes each, emitted as one or two bytes each:
`emitted_literals`) and the byte argument as it is, when the flags have one; the cursor
advances by the opcode bytes, two bytes per literal argument and the byte argument. With a
branch argument (then there is no literal and no byte argument) of `bol` bytes, at most
three, the `z` leading zero bytes are dropped and the other `bol - z` bytes, at least one,
follow the opcode bytes as they are in the stream; the opcode bytes keep their place and
size, the last of them decreased `z` times. -/
theorem C10_copy_instruction_bytes (t : cbc_tables) (chain : List Nat)
    (limit q : Nat) (st st1 : copy_state) (hn : 0 < t.PARSER_CBC_STREAM_PAGE_SIZE)
    (hat : copy_at t chain q st) (h : copy_instruction t limit st = .ok st1) :
    ∃ opcode q1, stream_read t st.pages chain q = some opcode
      ∧ (st1.page_p, st1.offset) = cursor t chain q1 ∧ q < q1
      ∧ st.dst.length ≤ st1.dst.length
      ∧ st1.dst.length - st.dst.length ≤ q1 - q
      ∧ ((opcode = t.CBC_JUMP_FORWARD ∧ st1.dst = st.dst
            ∧ q1 = q + if t.PARSER_MAXIMUM_CODE_SIZE ≤ 65535 then 3 else 4)
        ∨ (opcode ≠ t.CBC_JUMP_FORWARD
          ∧ ∃ (hdr : List Nat) (flags : cbc_flags_t) (bol : Nat),
            ((opcode ≠ t.CBC_EXT_OPCODE ∧ hdr = [opcode] ∧ flags = t.cbc_flags opcode
                ∧ bol = t.CBC_BRANCH_OFFSET_LENGTH opcode)
              ∨ (opcode = t.CBC_EXT_OPCODE
                ∧ ∃ ext_opcode, stream_read t st.pages chain (q + 1) = some ext_opcode
                  ∧ hdr = [opcode, ext_opcode] ∧ flags = t.cbc_ext_flags ext_opcode
                  ∧ bol = t.CBC_BRANCH_OFFSET_LENGTH ext_opcode))
            ∧ (((flags_after_literals flags).has_branch_arg = false
                ∧ ∃ lit byt,
                  lit = emitted_literals limit (stream_read t st.pages chain)
                      (literal_argument_count flags) (q + hdr.length)
                  ∧ literal_argument_count flags ≤ lit.length
                  ∧ lit.length ≤ 2 * literal_argument_count flags
                  ∧ (((flags_after_literals flags).has_byte_arg = false ∧ byt = [])
                    ∨ ((flags_after_literals flags).has_byte_arg = true
                      ∧ ∃ b, stream_read t st.pages chain
                            (q + hdr.length + 2 * literal_argument_count flags) = some b
                        ∧ byt = [b]))
                  ∧ st1.dst = st.dst ++ hdr ++ lit ++ byt
                  ∧ q1 = q + hdr.length + 2 * literal_argument_count flags + byt.length)
              ∨ ((flags_after_literals flags).has_branch_arg = true
                ∧ literal_argument_count flags = 0 ∧ flags.has_byte_arg = false
                ∧ ∃ z, z + 1 ≤ bol ∧ bol ≤ 3
                  ∧ (∀ i, i < z → stream_read t st.pages chain (q + hdr.length + i) = some 0)
                  ∧ st1.dst.length = st.dst.length + hdr.length + (bol - z)
                  ∧ (∀ x, x < st.dst.length + hdr.length - 1 →
                      st1.dst[x]? = (st.dst ++ hdr)[x]?)
                  ∧ st1.dst[st.dst.length + hdr.length - 1]?
                      = hdr.getLast?.map ((fun x => u8 (x + 255))^[z])
                  ∧ (∀ i, i < bol - z →
                      st1.dst[st.dst.length + hdr.length + i]?
                        = stream_read t st.pages chain (q + hdr.length + z + i))
                  ∧ q1 = q + hdr.length + bol)))) := by
  have hpp : st.page_p = (cursor t chain q).1 := congrArg Prod.fst hat.2.2
  have hoo : st.offset = (cursor t chain q).2 := congrArg Prod.snd hat.2.2
  unfold copy_instruction at h
  dsimp only at h
  cases hr : page_read st.pages st.page_p st.offset with
  | error e => rw [hr] at h; cases h
  | ok opcode =>
    rw [hr] at h
    dsimp only at h
    have hb : stream_read t st.pages chain q = some opcode := by
      rw [hpp, hoo] at hr
      exact (page_read_ok_iff t st.pages chain q opcode).mp hr
    by_cases hjf : opcode = t.CBC_JUMP_FORWARD
    · rw [if_pos hjf] at h
      obtain ⟨r1, hd1⟩ := skip_bytes_run st.dst.length hn _ q st st1 hat h
      refine ⟨opcode, _, hb, r1.2.1.2.2, by split_ifs <;> omega, by rw [hd1],
        by rw [hd1]; omega, Or.inl ⟨hjf, hd1, rfl⟩⟩
    · rw [if_neg hjf] at h
      cases hc : copy_opcode t opcode st with
      | error e => rw [hc] at h; cases h
      | ok r =>
        obtain ⟨flags, bol, opcode_p1, st2⟩ := r
        rw [hc] at h
        dsimp only at h
        obtain ⟨q3, r3, hq3, ho1, ho2, hmk, hhdr⟩ := copy_opcode_run hn hat hb hjf hc
        -- the opcode bytes
        have hhdr2 : ∃ hdr : List Nat, st2.dst = st.dst ++ hdr ∧ q3 = q + hdr.length
            ∧ opcode_p1 = st.dst.length + hdr.length - 1 ∧ 1 ≤ hdr.length
            ∧ ((opcode ≠ t.CBC_EXT_OPCODE ∧ hdr = [opcode] ∧ flags = t.cbc_flags opcode
                ∧ bol = t.CBC_BRANCH_OFFSET_LENGTH opcode)
              ∨ (opcode = t.CBC_EXT_OPCODE
                ∧ ∃ ext_opcode, stream_read t st.pages chain (q + 1) = some ext_opcode
                  ∧ hdr = [opcode, ext_opcode] ∧ flags = t.cbc_ext_flags ext_opcode
                  ∧ bol = t.CBC_BRANCH_OFFSET_LENGTH ext_opcode)) := by
          rcases hhdr with ⟨hne, e1, e2, e3, e4, e5⟩ | ⟨hext, e1, e2, ext_opcode, hb2, e3, e4, e5⟩
          · exact ⟨[opcode], e3, e1, by rw [e2]; rfl, by simp, Or.inl ⟨hne, rfl, e4, e5⟩⟩
          · exact ⟨[opcode, ext_opcode], e3, e1, by rw [e2]; rfl, by simp,
              Or.inr ⟨hext, ext_opcode, hb2, rfl, e4, e5⟩⟩
        obtain ⟨hdr, hd2, hq3e, hope, hlen, hform⟩ := hhdr2
        have fin : ∀ st3, copy_at t chain q3 st3 → st3.dst = st2.dst →
            (∀ r, q3 ≤ r → stream_read t st3.pages chain r
              = stream_read t st.pages chain r) →
            (!flags.has_branch_arg || !(flags.has_byte_arg || flags.has_literal_arg)) = true →
            copy_arguments t limit flags bol opcode_p1 st3 = .ok st1 →
            ∃ opcode q1, stream_read t st.pages chain q = some opcode
              ∧ (st1.page_p, st1.offset) = cursor t chain q1 ∧ q < q1
              ∧ st.dst.length ≤ st1.dst.length
              ∧ st1.dst.length - st.dst.length ≤ q1 - q
              ∧ ((opcode = t.CBC_JUMP_FORWARD ∧ st1.dst = st.dst
                    ∧ q1 = q + if t.PARSER_MAXIMUM_CODE_SIZE ≤ 65535 then 3 else 4)
                ∨ (opcode ≠ t.CBC_JUMP_FORWARD
                  ∧ ∃ (hdr : List Nat) (flags : cbc_flags_t) (bol : Nat),
                    ((opcode ≠ t.CBC_EXT_OPCODE ∧ hdr = [opcode]
                        ∧ flags = t.cbc_flags opcode
                        ∧ bol = t.CBC_BRANCH_OFFSET_LENGTH opcode)
                      ∨ (opcode = t.CBC_EXT_OPCODE
                        ∧ ∃ ext_opcode,
                          stream_read t st.pages chain (q + 1) = some ext_opcode
                          ∧ hdr = [opcode, ext_opcode] ∧ flags = t.cbc_ext_flags ext_opcode
                          ∧ bol = t.CBC_BRANCH_OFFSET_LENGTH ext_opcode))
                    ∧ (((flags_after_literals flags).has_branch_arg = false
                        ∧ ∃ lit byt,
                          lit = emitted_literals limit (stream_read t st.pages chain)
                              (literal_argument_count flags) (q + hdr.length)
                          ∧ literal_argument_count flags ≤ lit.length
                          ∧ lit.length ≤ 2 * literal_argument_count flags
                          ∧ (((flags_after_literals flags).has_byte_arg = false ∧ byt = [])
                            ∨ ((flags_after_literals flags).has_byte_arg = true
                              ∧ ∃ b, stream_read t st.pages chain
                                    (q + hdr.length + 2 * literal_argument_count flags)
                                  = some b
                                ∧ byt = [b]))
                          ∧ st1.dst = st.dst ++ hdr ++ lit ++ byt
                          ∧ q1 = q + hdr.length + 2 * literal_argument_count flags
                              + byt.length)
                      ∨ ((flags_after_literals flags).has_branch_arg = true
                        ∧ literal_argument_count flags = 0 ∧ flags.has_byte_arg = false
                        ∧ ∃ z, z + 1 ≤ bol ∧ bol ≤ 3
                          ∧ (∀ i, i < z →
                              stream_read t st.pages chain (q + hdr.length + i) = some 0)
                          ∧ st1.dst.length = st.dst.length + hdr.length + (bol - z)
                          ∧ (∀ x, x < st.dst.length + hdr.length - 1 →
                              st1.dst[x]? = (st.dst ++ hdr)[x]?)
                          ∧ st1.dst[st.dst.length + hdr.length - 1]?
                              = hdr.getLast?.map ((fun x => u8 (x + 255))^[z])
                          ∧ (∀ i, i < bol - z →
                              st1.dst[st.dst.length + hdr.length + i]?
                                = stream_read t st.pages chain (q + hdr.length + z + i))
                          ∧ q1 = q + hdr.length + bol)))) := by
          intro st3 hat3 hd3 hread hassert h
          have hl3 : st3.dst.length = st.dst.length + hdr.length := by
            rw [hd3, hd2, List.length_append]
          by_cases hbr1 : (flags_after_literals flags).has_branch_arg = true
          · -- a branch argument
            obtain ⟨f2, f4⟩ := flags_after_branch hbr1
            have f13 : flags.has_literal_arg = false ∧ flags.has_byte_arg = false := by
              rw [f4] at hassert
              cases h1 : flags.has_literal_arg <;> cases h3 : flags.has_byte_arg <;>
                simp_all
            have hcnt : literal_argument_count flags = 0 := by
              unfold literal_argument_count
              rw [f2, f13.1]
              rfl
            obtain ⟨z, hz, hz3, l1, hzero, hrd, hfr, hopc, _⟩ := copy_arguments_branch
              st.dst.length hn hat3 ho1 (by rw [hd3]; exact ho2) f13.1 f2 f13.2 f4 h
            rw [hl3] at l1 hrd
            refine ⟨opcode, q3 + bol, hb, ?_, by omega, by omega, by omega,
              Or.inr ⟨hjf, hdr, flags, bol, hform, Or.inr ⟨hbr1, hcnt, f13.2, z, hz, hz3, ?_,
                l1, ?_, ?_, ?_, by rw [hq3e]⟩⟩⟩
            · exact (copy_arguments_branch_pos st.dst.length hn hat3 ho1
                (by rw [hd3]; exact ho2) f13.1 f2 f13.2 f4 h).2.1.2.2
            · intro i hi
              rw [← hq3e, ← hread _ (by omega)]
              exact hzero i hi
            · intro x hx
              rw [hfr x (show x < st3.dst.length by clear hform; omega)
                (show x ≠ opcode_p1 by clear hform; omega), hd3, hd2]
            · rw [← hope, hopc, hd3, hd2]
              rcases hform with ⟨_, e, _⟩ | ⟨_, ext_opcode, _, e, _⟩
              · subst e
                rw [hope]
                simp
              · subst e
                rw [hope]
                simp only [List.length_cons, List.length_singleton, List.length_nil,
                  Nat.add_sub_cancel, List.getLast?_cons_cons, List.getLast?_singleton,
                  Option.map_some']
                rw [show st.dst.length + (0 + 1 + 1) - 1 = st.dst.length + 1 by omega,
                  getElem?_append_pair_right, Option.map_some']
            · intro i hi
              rw [hrd i hi, hread _ (by omega), hq3e]
          · -- no branch argument
            have hnb : (flags_after_literals flags).has_branch_arg = false := by
              cases hx : (flags_after_literals flags).has_branch_arg
              · rfl
              · exact absurd hx hbr1
            obtain ⟨byt, hbyt, r4, hd4, hl1, hl2⟩ := copy_arguments_bytes st.dst.length hn hat3
              (by omega) hnb h
            have hlit : emitted_literals limit (stream_read t st3.pages chain)
                  (literal_argument_count flags) q3
                = emitted_literals limit (stream_read t st.pages chain)
                  (literal_argument_count flags) (q + hdr.length) := by
              rw [hq3e]
              exact emitted_literals_congr limit _ _ (fun r hr => hread r (by omega))
            rw [hlit] at hd4 hl1 hl2
            have hbyt2 : ((flags_after_literals flags).has_byte_arg = false ∧ byt = [])
                ∨ ((flags_after_literals flags).has_byte_arg = true
                  ∧ ∃ b, stream_read t st.pages chain
                        (q + hdr.length + 2 * literal_argument_count flags) = some b
                    ∧ byt = [b]) := by
              rcases hbyt with hbyt | ⟨e, b, hb5, e5⟩
              · exact Or.inl hbyt
              · refine Or.inr ⟨e, b, ?_, e5⟩
                rw [← hq3e, ← hread _ (by omega)]
                exact hb5
            have hdst : st1.dst = st.dst ++ hdr
                ++ emitted_literals limit (stream_read t st.pages chain)
                  (literal_argument_count flags) (q + hdr.length) ++ byt := by
              rw [hd4, hd3, hd2]
            have hlen1 : st1.dst.length = st.dst.length + hdr.length
                + (emitted_literals limit (stream_read t st.pages chain)
                    (literal_argument_count flags) (q + hdr.length)).length + byt.length := by
              rw [hdst]
              simp only [List.length_append]
            refine ⟨opcode, q3 + 2 * literal_argument_count flags + byt.length, hb,
              r4.2.1.2.2, by omega, by omega, by omega,
              Or.inr ⟨hjf, hdr, flags, bol, hform, Or.inl ⟨hnb, _, byt, rfl, hl1, hl2, hbyt2,
                hdst, by rw [hq3e]⟩⟩⟩
        by_cases hbr : flags.has_branch_arg = true
        · rw [if_pos hbr, hpp, hoo] at h
          cases hsm : set_branch_mark st2.pages (cursor t chain q).1
              (cursor t chain q).2 with
          | error e => rw [hsm] at h; cases h
          | ok pages1 =>
            rw [hsm] at h
            dsimp only at h
            obtain ⟨m1, m2, _, m4⟩ := set_branch_mark_spec r3.2.1.1 hn hsm
            by_cases hassert : (!flags.has_branch_arg
                || !(flags.has_byte_arg || flags.has_literal_arg)) = true
            · rw [if_pos hassert] at h
              refine fin { st2 with pages := pages1 } ⟨m1, m2 0 r3.2.1.2.1, r3.2.1.2.2⟩ rfl
                ?_ hassert h
              intro r hr3
              dsimp only
              rw [m4 r (by omega), r3.2.2.2.2.2.1 r (Or.inr hr3)]
            · rw [if_neg hassert] at h
              cases h
        · rw [if_neg hbr] at h
          dsimp only at h
          by_cases hassert : (!flags.has_branch_arg
              || !(flags.has_byte_arg || flags.has_literal_arg)) = true
          · rw [if_pos hassert] at h
            exact fin st2 r3.2.1 rfl (fun r hr3 => r3.2.2.2.2.2.1 r (Or.inr hr3)) hassert h
          · rw [if_neg hassert] at h
            cases h

/-- Witness for C10 on two instructions: `copy_example_state` holds an instruction with two
literal arguments, `1, 0` emitted as `1` and `255, 45` emitted as both bytes (five stream
bytes, four emitted); `copy_branch_example_state` holds a forward jump whose leading zero
distance byte is dropped (three stream bytes, two emitted). -/
theorem C10_copy_instruction_bytes_witness :
    (copy_at example_tables [0] 0 copy_example_state
      ∧ copy_instruction example_tables 254 copy_example_state = .ok copy_example_result
      ∧ (∃ opcode q1, stream_read example_tables copy_example_state.pages [0] 0 = some opcode
        ∧ (copy_example_result.page_p, copy_example_result.offset) = cursor example_tables [0] q1 ∧ 0 < q1
        ∧ copy_example_state.dst.length ≤ copy_example_result.dst.length
        ∧ copy_example_result.dst.length - copy_example_state.dst.length ≤ q1 - 0
        ∧ ((opcode = example_tables.CBC_JUMP_FORWARD ∧ copy_example_result.dst = copy_example_state.dst
              ∧ q1 = 0 + if example_tables.PARSER_MAXIMUM_CODE_SIZE ≤ 65535 then 3 else 4)
          ∨ (opcode ≠ example_tables.CBC_JUMP_FORWARD
            ∧ ∃ (hdr : List Nat) (flags : cbc_flags_t) (bol : Nat),
              ((opcode ≠ example_tables.CBC_EXT_OPCODE ∧ hdr = [opcode] ∧ flags = example_tables.cbc_flags opcode
                  ∧ bol = example_tables.CBC_BRANCH_OFFSET_LENGTH opcode)
                ∨ (opcode = example_tables.CBC_EXT_OPCODE
                  ∧ ∃ ext_opcode, stream_read example_tables copy_example_state.pages [0] (0 + 1) = some ext_opcode
                    ∧ hdr = [opcode, ext_opcode] ∧ flags = example_tables.cbc_ext_flags ext_opcode
                    ∧ bol = example_tables.CBC_BRANCH_OFFSET_LENGTH ext_opcode))
              ∧ (((flags_after_literals flags).has_branch_arg = false
                  ∧ ∃ lit byt,
                    lit = emitted_literals 254 (stream_read example_tables copy_example_state.pages [0])
                        (literal_argument_count flags) (0 + hdr.length)
                    ∧ literal_argument_count flags ≤ lit.length
                    ∧ lit.length ≤ 2 * literal_argument_count flags
                    ∧ (((flags_after_literals flags).has_byte_arg = false ∧ byt = [])
                      ∨ ((flags_after_literals flags).has_byte_arg = true
                        ∧ ∃ b, stream_read example_tables copy_example_state.pages [0]
                              (0 + hdr.length + 2 * literal_argument_count flags) = some b
                          ∧ byt = [b]))
                    ∧ copy_example_result.dst = copy_example_state.dst ++ hdr ++ lit ++ byt
                    ∧ q1 = 0 + hdr.length + 2 * literal_argument_count flags + byt.length)
                ∨ ((flags_after_literals flags).has_branch_arg = true
                  ∧ literal_argument_count flags = 0 ∧ flags.has_byte_arg = false
                  ∧ ∃ z, z + 1 ≤ bol ∧ bol ≤ 3
                    ∧ (∀ i, i < z → stream_read example_tables copy_example_state.pages [0] (0 + hdr.length + i) = some 0)
                    ∧ copy_example_result.dst.length = copy_example_state.dst.length + hdr.length + (bol - z)
                    ∧ (∀ x, x < copy_example_state.dst.length + hdr.length - 1 →
                        copy_example_result.dst[x]? = (copy_example_state.dst ++ hdr)[x]?)
                    ∧ copy_example_result.dst[copy_example_state.dst.length + hdr.length - 1]?
                        = hdr.getLast?.map ((fun x => u8 (x + 255))^[z])
                    ∧ (∀ i, i < bol - z →
                        copy_example_result.dst[copy_example_state.dst.length + hdr.length + i]?
                          = stream_read example_tables copy_example_state.pages [0] (0 + hdr.length + z + i))
                    ∧ q1 = 0 + hdr.length + bol))))))
    ∧ (copy_at example_tables [0, 1] 0 copy_branch_example_state
      ∧ copy_instruction example_tables 254 copy_branch_example_state
        = .ok copy_branch_example_result
      ∧ (∃ opcode q1, stream_read example_tables copy_branch_example_state.pages [0, 1] 0 = some opcode
        ∧ (copy_branch_example_result.page_p, copy_branch_example_result.offset) = cursor example_tables [0, 1] q1 ∧ 0 < q1
        ∧ copy_branch_example_state.dst.length ≤ copy_branch_example_result.dst.length
        ∧ copy_branch_example_result.dst.length - copy_branch_example_state.dst.length ≤ q1 - 0
        ∧ ((opcode = example_tables.CBC_JUMP_FORWARD ∧ copy_branch_example_result.dst = copy_branch_example_state.dst
              ∧ q1 = 0 + if example_tables.PARSER_MAXIMUM_CODE_SIZE ≤ 65535 then 3 else 4)
          ∨ (opcode ≠ example_tables.CBC_JUMP_FORWARD
            ∧ ∃ (hdr : List Nat) (flags : cbc_flags_t) (bol : Nat),
              ((opcode ≠ example_tables.CBC_EXT_OPCODE ∧ hdr = [opcode] ∧ flags = example_tables.cbc_flags opcode
                  ∧ bol = example_tables.CBC_BRANCH_OFFSET_LENGTH opcode)
                ∨ (opcode = example_tables.CBC_EXT_OPCODE
                  ∧ ∃ ext_opcode, stream_read example_tables copy_branch_example_state.pages [0, 1] (0 + 1) = some ext_opcode
                    ∧ hdr = [opcode, ext_opcode] ∧ flags = example_tables.cbc_ext_flags ext_opcode
                    ∧ bol = example_tables.CBC_BRANCH_OFFSET_LENGTH ext_opcode))
              ∧ (((flags_after_literals flags).has_branch_arg = false
                  ∧ ∃ lit byt,
                    lit = emitted_literals 254 (stream_read example_tables copy_branch_example_state.pages [0, 1])
                        (literal_argument_count flags) (0 + hdr.length)
                    ∧ literal_argument_count flags ≤ lit.length
                    ∧ lit.length ≤ 2 * literal_argument_count flags
                    ∧ (((flags_after_literals flags).has_byte_arg = false ∧ byt = [])
                      ∨ ((flags_after_literals flags).has_byte_arg = true
                        ∧ ∃ b, stream_read example_tables copy_branch_example_state.pages [0, 1]
                              (0 + hdr.length + 2 * literal_argument_count flags) = some b
                          ∧ byt = [b]))
                    ∧ copy_branch_example_result.dst = copy_branch_example_state.dst ++ hdr ++ lit ++ byt
                    ∧ q1 = 0 + hdr.length + 2 * literal_argument_count flags + byt.length)
                ∨ ((flags_after_literals flags).has_branch_arg = true
                  ∧ literal_argument_count flags = 0 ∧ flags.has_byte_arg = false
                  ∧ ∃ z, z + 1 ≤ bol ∧ bol ≤ 3
                    ∧ (∀ i, i < z → stream_read example_tables copy_branch_example_state.pages [0, 1] (0 + hdr.length + i) = some 0)
                    ∧ copy_branch_example_result.dst.length = copy_branch_example_state.dst.length + hdr.length + (bol - z)
                    ∧ (∀ x, x < copy_branch_example_state.dst.length + hdr.length - 1 →
                        copy_branch_example_result.dst[x]? = (copy_branch_example_state.dst ++ hdr)[x]?)
                    ∧ copy_branch_example_result.dst[copy_branch_example_state.dst.length + hdr.length - 1]?
                        = hdr.getLast?.map ((fun x => u8 (x + 255))^[z])
                    ∧ (∀ i, i < bol - z →
                        copy_branch_example_result.dst[copy_branch_example_state.dst.length + hdr.length + i]?
                          = stream_read example_tables copy_branch_example_state.pages [0, 1] (0 + hdr.length + z + i))
                    ∧ q1 = 0 + hdr.length + bol)))))) :=
  ⟨⟨by decide, rfl,
      C10_copy_instruction_bytes example_tables [0] 254 0 copy_example_state
        copy_example_result (by decide) (by decide) rfl⟩,
    ⟨by decide, rfl,
      C10_copy_instruction_bytes example_tables [0, 1] 254 0 copy_branch_example_state
        copy_branch_example_result (by decide) (by decide) rfl⟩⟩

/-! ## The operands of the initializers, in order -/

theorem encoded_operands_append (limit : Nat) (a b : List Nat) :
    encoded_operands limit (a ++ b) = encoded_operands limit a ++ encoded_operands limit b := by
  unfold encoded_operands
  rw [List.map_append, List.flatten_append]

theorem encoded_operands_singleton (limit v : Nat) :
    encoded_operands limit [v] = parser_encode_literal [] v limit := by
  unfold encoded_operands
  simp

theorem initialize_var_instructions_append (t : cbc_tables) (limit : Nat)
    (a b : List (Nat × Nat)) :
    initialize_var_instructions t limit (a ++ b)
      = initialize_var_instructions t limit a ++ initialize_var_instructions t limit b := by
  unfold initialize_var_instructions
  rw [List.map_append, List.flatten_append]

/-- One record in the loop of `CBC_INITIALIZE_VARS`: either nothing is written, or one
operand is written and the debug counter `next_index` goes up by one. -/
theorem initialize_vars_literal_ops {limit : Nat}
    {st st1 : initializers_state} {x x1 : lexer_literal_t} {next : Option lexer_literal_t}
    {consumed : Bool}
    (h : initialize_vars_literal limit st x next = .ok (x1, st1, consumed)) :
    (st1.dst = st.dst ∧ st1.next_index = st.next_index)
      ∨ ∃ v, st1.dst = st.dst ++ parser_encode_literal [] v limit
          ∧ st1.next_index = u16 (st.next_index + 1) := by
  unfold initialize_vars_literal at h
  dsimp only at h
  by_cases hvi : (x.status_flags.var && x.status_flags.no_reg_store
      && x.status_flags.initialized) = true
  · rw [if_pos hvi] at h
    by_cases hty : x.type = LEXER_IDENT_LITERAL ∧ x.index = st.next_index
    · rw [if_pos hty] at h
      by_cases hfa : x.status_flags.function_argument = true
      · rw [if_pos hfa] at h
        simp only [Except.ok.injEq, Prod.mk.injEq] at h
        obtain ⟨_, rfl, _⟩ := h
        dsimp only
        rw [parser_encode_literal_append]
        exact Or.inr ⟨_, rfl, rfl⟩
      · rw [if_neg hfa] at h
        cases next with
        | none => cases h
        | some f =>
          dsimp only at h
          by_cases hft : f.type = LEXER_FUNCTION_LITERAL
          · rw [if_pos hft] at h
            simp only [Except.ok.injEq, Prod.mk.injEq] at h
            obtain ⟨_, rfl, _⟩ := h
            dsimp only
            rw [parser_encode_literal_append]
            exact Or.inr ⟨_, rfl, rfl⟩
          · rw [if_neg hft] at h
            cases h
    · rw [if_neg hty] at h
      cases h
  · rw [if_neg hvi] at h
    simp only [Except.ok.injEq, Prod.mk.injEq] at h
    obtain ⟨_, rfl, _⟩ := h
    exact Or.inl ⟨rfl, rfl⟩

/-- One record in the last loop of `parser_generate_initializers`: either nothing is written,
or one instruction `CBC_INITIALIZE_VAR`. -/
theorem initialize_var_literal_instr {t : cbc_tables} {limit rc : Nat}
    {st st1 : initializers_state} {x : lexer_literal_t} {next : Option lexer_literal_t}
    {consumed : Bool}
    (h : initialize_var_literal t limit rc st x next = .ok (st1, consumed)) :
    st1.dst = st.dst
      ∨ ∃ i s, st1.dst = st.dst ++ ([t.CBC_INITIALIZE_VAR] ++ parser_encode_literal [] i limit
          ++ parser_encode_literal [] s limit) := by
  unfold initialize_var_literal at h
  split at h
  · cases h
  · rename_i table1 _
    dsimp only at h
    by_cases hvi : (x.status_flags.var && x.status_flags.initialized) = true
    · rw [if_pos hvi] at h
      by_cases hty : x.type = LEXER_IDENT_LITERAL
      · rw [if_pos hty] at h
        by_cases hfa : x.status_flags.function_argument = true
        · rw [if_pos hfa] at h
          split_ifs at h with hidx
          · simp only [Except.ok.injEq, Prod.mk.injEq] at h
            obtain ⟨rfl, _⟩ := h
            exact Or.inl rfl
          · simp only [Except.ok.injEq, Prod.mk.injEq] at h
            obtain ⟨rfl, _⟩ := h
            dsimp only
            rw [parser_encode_literal_append, parser_encode_literal_append (st.dst ++ _)]
            exact Or.inr ⟨x.index, u16 (u16 (st.argument_count + 1) + 65535),
              by simp only [List.append_assoc]⟩
        · rw [if_neg hfa] at h
          cases next with
          | none => cases h
          | some f =>
            dsimp only at h
            by_cases hft : f.type = LEXER_FUNCTION_LITERAL
            · rw [if_pos hft] at h
              by_cases hge : f.index ≥ rc
              · rw [if_pos hge] at h
                simp only [Except.ok.injEq, Prod.mk.injEq] at h
                obtain ⟨rfl, _⟩ := h
                dsimp only
                rw [parser_encode_literal_append, parser_encode_literal_append (st.dst ++ _)]
                exact Or.inr ⟨x.index, f.index, by simp only [List.append_assoc]⟩
              · rw [if_neg hge] at h
                cases h
            · rw [if_neg hft] at h
              cases h
      · rw [if_neg hty] at h
        cases h
    · rw [if_neg hvi] at h
      simp only [Except.ok.injEq, Prod.mk.injEq] at h
      obtain ⟨rfl, _⟩ := h
      exact Or.inl rfl

/-- The loop of `CBC_INITIALIZE_VARS` reaches a record that is no function literal with the
number of arguments before it in its counter, and with every property `I` that holds at the
start and that each record of the loop hands on; `I` is indexed by the number of records
gone through. -/
theorem initialize_vars_loop_prefix_inv (limit : Nat)
    (I : Nat → initializers_state → Prop)
    (hI1 : ∀ k st x next x1 st1 c,
      initialize_vars_literal limit st x next = .ok (x1, st1, c) → I k st → I (k + 1) st1)
    (hI2 : ∀ k st, I k st → I (k + 1) st) :
    ∀ (n : Nat) (pre : List lexer_literal_t), pre.length ≤ n →
    ∀ (k : Nat) (st st1 : initializers_state) (y : lexer_literal_t)
      (post l1 : List lexer_literal_t),
    (∀ z ∈ pre, z.type = LEXER_FUNCTION_LITERAL → z.status_flags.function_argument = false) →
    y.type ≠ LEXER_FUNCTION_LITERAL → st.argument_count < 65536 → I k st →
    initialize_vars_loop limit st (pre ++ y :: post) = .ok (l1, st1) →
    ∃ st2 l2, st2.argument_count = (st.argument_count + argument_position pre) % 65536
      ∧ I (k + pre.length) st2
      ∧ initialize_vars_loop limit st2 (y :: post) = .ok (l2, st1) := by
  intro n
  induction n with
  | zero =>
    intro pre hl k st st1 y post l1 _ _ hs hi h
    have : pre = [] := List.length_eq_zero.1 (Nat.le_zero.1 hl)
    subst this
    exact ⟨st, l1, by simp [argument_position, Nat.mod_eq_of_lt hs], hi, h⟩
  | succ n ih =>
    intro pre hl k st st1 y post l1 hfun hy hs hi h
    match pre, hl, hfun, h with
    | [], _, _, h =>
      exact ⟨st, l1, by simp [argument_position, Nat.mod_eq_of_lt hs], hi, h⟩
    | [x], _, hfun, h =>
      rw [List.singleton_append, initialize_vars_loop] at h
      split at h
      · cases h
      · rename_i x1 s1 hbody
        obtain ⟨e1, _, b1, e3⟩ := initialize_vars_literal_spec hbody
        split at h
        · cases h
        · rename_i rest1 s2 hrec
          simp only [Except.ok.injEq, Prod.mk.injEq] at h
          obtain ⟨_, rfl⟩ := h
          refine ⟨s1, rest1, ?_, hI1 _ _ _ _ _ _ _ hbody hi, hrec⟩
          rw [e1, argument_position_cons]
          cases x.status_flags.function_argument <;>
            simp [argument_position, u16, Nat.mod_eq_of_lt hs]
      · rename_i x1 s1 hbody
        obtain ⟨_, e2, _⟩ := initialize_vars_literal_spec hbody
        obtain ⟨f, hf, hft⟩ := e2 rfl
        simp only [Option.some.injEq] at hf
        subst hf
        exact absurd hft hy
    | x :: z :: rest, hl, hfun, h =>
      have hl1 : (z :: rest).length ≤ n := by simp at hl ⊢; omega
      have hl2 : rest.length ≤ n := by simp at hl; omega
      rw [List.cons_append, List.cons_append, initialize_vars_loop] at h
      split at h
      · cases h
      · rename_i x1 s1 hbody
        obtain ⟨e1, _, b1, e3⟩ := initialize_vars_literal_spec hbody
        have hs1 : s1.argument_count < 65536 := by
          rw [e1]
          split_ifs
          · exact Nat.mod_lt _ (by norm_num)
          · exact hs
        split at h
        · cases h
        · rename_i rest1 s2 hrec
          simp only [Except.ok.injEq, Prod.mk.injEq] at h
          obtain ⟨_, rfl⟩ := h
          obtain ⟨st2, l2, a1, a2, a3⟩ := ih _ hl1 (k + 1) s1 s2 y post rest1
            (fun w hw => hfun w (List.mem_cons_of_mem _ hw)) hy hs1
            (hI1 _ _ _ _ _ _ _ hbody hi)
            (by rw [List.cons_append]; exact hrec)
          refine ⟨st2, l2, ?_, ?_, a3⟩
          · rw [a1, e1, argument_position_cons x]
            cases x.status_flags.function_argument <;> simp [u16]
            omega
          · have e : k + (x :: z :: rest).length = k + 1 + (z :: rest).length := by
              simp only [List.length_cons]; omega
            rw [e]
            exact a2
      · rename_i x1 s1 hbody
        obtain ⟨e1, e2, b1, e3⟩ := initialize_vars_literal_spec hbody
        obtain ⟨f, hf, hft⟩ := e2 rfl
        simp only [Option.some.injEq] at hf
        subst hf
        have hzf := hfun z (by simp) hft
        have hs1 : s1.argument_count < 65536 := by
          rw [e1]
          split_ifs
          · exact Nat.mod_lt _ (by norm_num)
          · exact hs
        split at h
        · cases h
        · rename_i rest1 s2 hrec
          simp only [Except.ok.injEq, Prod.mk.injEq] at h
          obtain ⟨_, rfl⟩ := h
          obtain ⟨st2, l2, a1, a2, a3⟩ := ih _ hl2 (k + 1 + 1) s1 s2 y post rest1
            (fun w hw => hfun w (List.mem_cons_of_mem _ (List.mem_cons_of_mem _ hw))) hy hs1
            (hI2 _ _ (hI1 _ _ _ _ _ _ _ hbody hi)) hrec
          refine ⟨st2, l2, ?_, ?_, a3⟩
          · rw [a1, e1, argument_position_cons x, argument_position_cons z, hzf]
            cases x.status_flags.function_argument <;> simp [u16]
            omega
          · have e : k + (x :: z :: rest).length = k + 1 + 1 + rest.length := by
              simp only [List.length_cons]; omega
            rw [e]
            exact a2

/-- The last loop of `parser_generate_initializers` reaches a record that is no function
literal with the number of arguments before it in its counter, and with every property `I`
that holds at the start and that each record of the loop hands on. -/
theorem initialize_var_loop_prefix_inv (t : cbc_tables) (limit rc : Nat)
    (I : initializers_state → Prop)
    (hI : ∀ st x next st1 c,
      initialize_var_literal t limit rc st x next = .ok (st1, c) → I st → I st1) :
    ∀ (n : Nat) (pre : List lexer_literal_t), pre.length ≤ n →
    ∀ (st st1 : initializers_state) (y : lexer_literal_t) (post : List lexer_literal_t),
    (∀ z ∈ pre, z.type = LEXER_FUNCTION_LITERAL → z.status_flags.function_argument = false) →
    y.type ≠ LEXER_FUNCTION_LITERAL → st.argument_count < 65536 → I st →
    initialize_var_loop t limit rc st (pre ++ y :: post) = .ok st1 →
    ∃ st2, st2.argument_count = (st.argument_count + argument_position pre) % 65536
      ∧ I st2
      ∧ initialize_var_loop t limit rc st2 (y :: post) = .ok st1 := by
  intro n
  induction n with
  | zero =>
    intro pre hl st st1 y post _ _ hs hi h
    have : pre = [] := List.length_eq_zero.1 (Nat.le_zero.1 hl)
    subst this
    exact ⟨st, by simp [argument_position, Nat.mod_eq_of_lt hs], hi, h⟩
  | succ n ih =>
    intro pre hl st st1 y post hfun hy hs hi h
    match pre, hl, hfun, h with
    | [], _, _, h =>
      exact ⟨st, by simp [argument_position, Nat.mod_eq_of_lt hs], hi, h⟩
    | [x], _, hfun, h =>
      rw [List.singleton_append, initialize_var_loop] at h
      split at h
      · cases h
      · rename_i s1 hbody
        obtain ⟨e1, _, b1, e3⟩ := initialize_var_literal_spec hbody
        refine ⟨s1, ?_, hI _ _ _ _ _ hbody hi, h⟩
        rw [e1, argument_position_cons]
        cases x.status_flags.function_argument <;>
          simp [argument_position, u16, Nat.mod_eq_of_lt hs]
      · rename_i s1 hbody
        obtain ⟨_, e2, _⟩ := initialize_var_literal_spec hbody
        obtain ⟨f, hf, hft⟩ := e2 rfl
        simp only [Option.some.injEq] at hf
        subst hf
        exact absurd hft hy
    | x :: z :: rest, hl, hfun, h =>
      have hl1 : (z :: rest).length ≤ n := by simp at hl ⊢; omega
      have hl2 : rest.length ≤ n := by simp at hl; omega
      rw [List.cons_append, List.cons_append, initialize_var_loop] at h
      split at h
      · cases h
      · rename_i s1 hbody
        obtain ⟨e1, _, b1, e3⟩ := initialize_var_literal_spec hbody
        have hs1 : s1.argument_count < 65536 := by
          rw [e1]
          split_ifs
          · exact Nat.mod_lt _ (by norm_num)
          · exact hs
        obtain ⟨st2, a1, a2, a3⟩ := ih _ hl1 s1 st1 y post
          (fun w hw => hfun w (List.mem_cons_of_mem _ hw)) hy hs1 (hI _ _ _ _ _ hbody hi)
          (by rw [List.cons_append]; exact h)
        refine ⟨st2, ?_, a2, a3⟩
        rw [a1, e1, argument_position_cons x]
        cases x.status_flags.function_argument <;> simp [u16]
        omega
      · rename_i s1 hbody
        obtain ⟨e1, e2, b1, e3⟩ := initialize_var_literal_spec hbody
        obtain ⟨f, hf, hft⟩ := e2 rfl
        simp only [Option.some.injEq] at hf
        subst hf
        have hzf := hfun z (by simp) hft
        have hs1 : s1.argument_count < 65536 := by
          rw [e1]
          split_ifs
          · exact Nat.mod_lt _ (by norm_num)
          · exact hs
        obtain ⟨st2, a1, a2, a3⟩ := ih _ hl2 s1 st1 y post
          (fun w hw => hfun w (List.mem_cons_of_mem _ (List.mem_cons_of_mem _ hw))) hy hs1
          (hI _ _ _ _ _ hbody hi) h
        refine ⟨st2, ?_, a2, a3⟩
        rw [a1, e1, argument_position_cons x, argument_position_cons z, hzf]
        cases x.status_flags.function_argument <;> simp [u16]
        omega

theorem define_vars_bytes_eq (t : cbc_tables) (dst : List Nat) (rc u limit : Nat) :
    (if u > rc then parser_encode_literal (dst ++ [t.CBC_DEFINE_VARS]) (u16 (u + 65535)) limit
      else dst) = dst ++ define_vars_bytes t rc u limit := by
  unfold define_vars_bytes
  split_ifs
  · rw [parser_encode_literal_append, List.append_assoc]
  · rw [List.append_nil]

/-- The bytes `parser_generate_initializers` writes for an argument binding without
register, the record behind `pre` in the pool, and where it writes them. With
`PARSER_HAS_INITIALIZED_VARS`: behind `CBC_DEFINE_VARS`, the opcode `CBC_INITIALIZE_VARS`
and its two bounds come the operands `ops` of the records before, as many as the index of
the record is above `uninitialized_var_end`, and then the position of the argument.
Otherwise: behind `CBC_DEFINE_VARS` and whole `CBC_INITIALIZE_VAR` instructions comes
`CBC_INITIALIZE_VAR` with the index of the record and the position of the argument. -/
theorem generate_initializers_argument_exact (pre post : List lexer_literal_t)
    (y : lexer_literal_t) {t : cbc_tables} {context context6 : parser_context_t}
    {dst dst1 : List Nat} {literal_table literal_table1 : List literal_value_t}
    {uninitialized_var_end initialized_var_end limit : Nat}
    (hpool : context.literal_pool = pre ++ y :: post)
    (hfun : ∀ z ∈ pre, z.type = LEXER_FUNCTION_LITERAL →
      z.status_flags.function_argument = false)
    (ht : y.type = LEXER_IDENT_LITERAL) (hv : y.status_flags.var = true)
    (hn : y.status_flags.no_reg_store = true) (hi : y.status_flags.initialized = true)
    (hf : y.status_flags.function_argument = true)
    (hp : argument_position pre + 1 < 65536) (hne : argument_position pre ≠ y.index)
    (hu : uninitialized_var_end < 65536)
    (h : parser_generate_initializers t context dst literal_table uninitialized_var_end
      initialized_var_end limit = .ok (context6, dst1, literal_table1)) :
    (context.status_flags.has_initialized_vars = true →
      ∃ ops b, ops.length ≤ pre.length
        ∧ y.index = (uninitialized_var_end + ops.length) % 65536
        ∧ dst1 = dst ++ define_vars_bytes t context.register_count uninitialized_var_end limit
            ++ [t.CBC_INITIALIZE_VARS]
            ++ parser_encode_literal [] uninitialized_var_end limit
            ++ parser_encode_literal [] (u16 (initialized_var_end + 65535)) limit
            ++ encoded_operands limit ops
            ++ parser_encode_literal [] (argument_position pre) limit ++ b)
    ∧ (context.status_flags.has_initialized_vars = false →
      ∃ instructions b,
        dst1 = dst ++ define_vars_bytes t context.register_count uninitialized_var_end limit
            ++ initialize_var_instructions t limit instructions
            ++ ([t.CBC_INITIALIZE_VAR] ++ parser_encode_literal [] y.index limit
              ++ parser_encode_literal [] (argument_position pre) limit) ++ b) := by
  have hyf : y.type ≠ LEXER_FUNCTION_LITERAL := by rw [ht]; decide
  unfold parser_generate_initializers at h
  dsimp only at h
  rw [define_vars_bytes_eq] at h
  split at h
  · cases h
  · rename_i context1 dst3 hfirst
    split at h
    · cases h
    · rename_i st3 hsecond
      have hd : dst1 = st3.dst := by
        split_ifs at h <;>
          first
            | (cases h; done)
            | (simp only [Except.ok.injEq, Prod.mk.injEq] at h
               exact h.2.1.symm)
      rw [hd]
      cases hiv : context.status_flags.has_initialized_vars
      · -- the instructions `CBC_INITIALIZE_VAR`
        refine ⟨(fun hc => by cases hc), fun _ => ?_⟩
        rw [hiv] at hfirst
        simp only [Bool.false_eq_true, if_false, Except.ok.injEq, Prod.mk.injEq] at hfirst
        obtain ⟨rfl, rfl⟩ := hfirst
        rw [hpool] at hsecond
        obtain ⟨st2, a1, ⟨instructions, a2⟩, a3⟩ := initialize_var_loop_prefix_inv t limit
          context.register_count
          (fun s => ∃ instructions, s.dst = dst
            ++ define_vars_bytes t context.register_count uninitialized_var_end limit
            ++ initialize_var_instructions t limit instructions)
          (by
            intro s x next s1 c hbody ⟨instructions, hs⟩
            rcases initialize_var_literal_instr hbody with e | ⟨i, src, e⟩
            · exact ⟨instructions, by rw [e, hs]⟩
            · refine ⟨instructions ++ [(i, src)], ?_⟩
              rw [e, hs, initialize_var_instructions_append]
              simp [initialize_var_instructions, List.append_assoc])
          _ pre (le_refl _) _ st3 y post hfun hyf (by norm_num)
          ⟨[], by simp [initialize_var_instructions]⟩ hsecond
        have e2 : st2.argument_count = argument_position pre := by
          rw [a1]
          simp only [Nat.zero_add]
          exact Nat.mod_eq_of_lt (by omega)
        obtain ⟨b, hb⟩ := initialize_var_loop_argument ht hv hi hf (by omega)
          (by rw [e2]; exact hne) a3
        rw [e2, a2] at hb
        exact ⟨instructions, b, hb⟩
      · -- the operands of `CBC_INITIALIZE_VARS`
        refine ⟨fun _ => ?_, fun hc => by cases hc⟩
        rw [hiv] at hfirst
        simp only [if_true] at hfirst
        split at hfirst
        · cases hfirst
        · rename_i pool1 st1 hloop
          split_ifs at hfirst
          simp only [Except.ok.injEq, Prod.mk.injEq] at hfirst
          obtain ⟨_, rfl⟩ := hfirst
          rw [hpool] at hloop
          obtain ⟨st2, l2, a1, ⟨ops, o1, o2, o3⟩, a3⟩ := initialize_vars_loop_prefix_inv limit
            (fun k s => ∃ ops : List Nat, ops.length ≤ k
              ∧ s.dst = dst
                ++ define_vars_bytes t context.register_count uninitialized_var_end limit
                ++ [t.CBC_INITIALIZE_VARS]
                ++ parser_encode_literal [] uninitialized_var_end limit
                ++ parser_encode_literal [] (u16 (initialized_var_end + 65535)) limit
                ++ encoded_operands limit ops
              ∧ s.next_index = (uninitialized_var_end + ops.length) % 65536)
            (by
              intro k s x next x1 s1 c hbody ⟨ops, hk, hs, hnx⟩
              rcases initialize_vars_literal_ops hbody with ⟨e, en⟩ | ⟨v, e, en⟩
              · exact ⟨ops, by omega, by rw [e, hs], by rw [en, hnx]⟩
              · refine ⟨ops ++ [v], by simp; omega, ?_, ?_⟩
                · rw [e, hs, encoded_operands_append, encoded_operands_singleton]
                  simp only [List.append_assoc]
                · rw [en, hnx]
                  unfold u16
                  simp only [List.length_append, List.length_singleton]
                  omega)
            (fun k s ⟨ops, hk, hs, hnx⟩ => ⟨ops, by omega, hs, hnx⟩)
            _ pre (le_refl _) 0 _ st1 y post pool1 hfun hyf (by norm_num)
            ⟨[], by simp, (by
              dsimp only
              rw [parser_encode_literal_append, parser_encode_literal_append (_ ++ _)]
              simp [encoded_operands, List.append_assoc]), (by
              dsimp only
              simp only [List.length_nil, Nat.add_zero]
              exact (Nat.mod_eq_of_lt hu).symm)⟩ hloop
          have e2 : st2.argument_count = argument_position pre := by
            rw [a1]
            simp only [Nat.zero_add]
            exact Nat.mod_eq_of_lt (by omega)
          obtain ⟨hidx, b, hb⟩ := initialize_vars_loop_argument hv hn hi hf (by omega) a3
          rw [e2, o2] at hb
          obtain ⟨b2, hb2⟩ := initialize_var_loop_dst t limit _ _ _ (le_refl _) _ _ hsecond
          dsimp only at hb2
          refine ⟨ops, b ++ b2, by omega, by rw [hidx, o3], ?_⟩
          rw [hb2, hb]
          simp only [List.append_assoc]

/-- C14: an argument record (flagged Var, Initialized and FunctionArgument) of a consistent
pool, the record behind `pre`, is an identifier in use and keeps type, value and flags
apart from NoRegStore. After classification it is NoRegStore exactly when it was
NoRegStore before, or the context has `PARSER_NO_REG_STORE`, or the `arguments` object is
needed (`PARSER_ARGUMENTS_NEEDED` without `PARSER_ARGUMENTS_NOT_NEEDED`) in non-strict code.
Without NoRegStore its index is its position among the records flagged FunctionArgument;
with NoRegStore its index lies in the range of the initialized variables and
`parser_generate_initializers` writes the initialization of that index from the argument
position. With `PARSER_HAS_INITIALIZED_VARS` it is an operand of `CBC_INITIALIZE_VARS`:
behind the bytes of `CBC_DEFINE_VARS`, the opcode and the two bounds
`uninitialized_var_end` and `initialized_var_end - 1` come `index - uninitialized_var_end`
operands and then the position, so the position is the operand for this index. Otherwise it
is the instruction `CBC_INITIALIZE_VAR` with the index and the position, behind the bytes of
`CBC_DEFINE_VARS` and whole `CBC_INITIALIZE_VAR` instructions. -/
theorem C14_argument_index_and_operand (lim : parser_limits)
    (context : parser_context_t) (r : compute_indicies_result)
    (pre post : List lexer_literal_t) (x : lexer_literal_t)
    (hc : pool_consistent context) (h : parser_compute_indicies lim context = .ok r)
    (hpool : context.literal_pool = pre ++ x :: post)
    (hv : x.status_flags.var = true) (hi : x.status_flags.initialized = true)
    (hf : x.status_flags.function_argument = true) :
    ∃ y, r.context.literal_pool[pre.length]? = some y
      ∧ x.type = LEXER_IDENT_LITERAL ∧ x.status_flags.unused_ident = false
      ∧ y = { x with index := y.index
                     status_flags := { x.status_flags with
                       no_reg_store := y.status_flags.no_reg_store } }
      ∧ y.status_flags.no_reg_store
        = (x.status_flags.no_reg_store || context.status_flags.no_reg_store
          || (context.status_flags.arguments_needed
              && !context.status_flags.arguments_not_needed
              && !context.status_flags.is_strict))
      ∧ (y.status_flags.no_reg_store = false → y.index = argument_position pre)
      ∧ (y.status_flags.no_reg_store = true →
          r.uninitialized_var_end ≤ y.index ∧ y.index < r.initialized_var_end
          ∧ ∀ (t : cbc_tables) (context5 context6 : parser_context_t) (dst dst1 : List Nat)
              (literal_table literal_table1 : List literal_value_t) (limit : Nat),
            context5.literal_pool = r.context.literal_pool →
            context5.status_flags.has_initialized_vars
              = r.context.status_flags.has_initialized_vars →
            parser_generate_initializers t context5 dst literal_table
              r.uninitialized_var_end r.initialized_var_end limit
              = .ok (context6, dst1, literal_table1) →
            (r.context.status_flags.has_initialized_vars = true →
              ∃ ops b, ops.length = y.index - r.uninitialized_var_end
                ∧ dst1 = dst
                  ++ define_vars_bytes t context5.register_count r.uninitialized_var_end limit
                  ++ [t.CBC_INITIALIZE_VARS]
                  ++ parser_encode_literal [] r.uninitialized_var_end limit
                  ++ parser_encode_literal [] (u16 (r.initialized_var_end + 65535)) limit
                  ++ encoded_operands limit ops
                  ++ parser_encode_literal [] (argument_position pre) limit ++ b)
            ∧ (r.context.status_flags.has_initialized_vars = false →
              ∃ instructions b,
                dst1 = dst
                  ++ define_vars_bytes t context5.register_count r.uninitialized_var_end limit
                  ++ initialize_var_instructions t limit instructions
                  ++ ([t.CBC_INITIALIZE_VAR] ++ parser_encode_literal [] y.index limit
                    ++ parser_encode_literal [] (argument_position pre) limit) ++ b)) := by
  obtain ⟨pre1, c1, x1, c2, y, _, e2, g1, g2, g3, _, hy, hxy, hymem, hargpos, hsplit, hpos2,
    hfun, hcountle, hplen, hident⟩ :=
    compute_indicies_record lim context r pre post x hc h hpool
  obtain ⟨ht, hu⟩ := hident hf hv
  have hx1 := count_literal_argument lim c1 c2 x x1 e2 ht hu hv hi hf
  rw [g1, g2, g3] at hx1
  unfold same_but_index at hxy
  have hyt : y.type = LEXER_IDENT_LITERAL := by rw [hxy, hx1]; exact ht
  have hyu : y.status_flags.unused_ident = false := by rw [hxy, hx1]; exact hu
  have hyv : y.status_flags.var = true := by rw [hxy, hx1]; exact hv
  have hyi : y.status_flags.initialized = true := by rw [hxy, hx1]; exact hi
  have hyf : y.status_flags.function_argument = true := by rw [hxy, hx1]; exact hf
  have hyn : y.status_flags.no_reg_store
      = (x.status_flags.no_reg_store || context.status_flags.no_reg_store
        || (context.status_flags.arguments_needed
            && !context.status_flags.arguments_not_needed
            && !context.status_flags.is_strict)) := by
    rw [hxy, hx1]
  refine ⟨y, hy, ht, hu, ?_, hyn, ?_, ?_⟩
  · rw [hyn]
    conv_lhs => rw [hxy, hx1]
  · intro hn
    apply hargpos
    unfold is_argument
    rw [hyt, hyu, hyv, hyi, hyf, hn]
    rfl
  · intro hn
    obtain ⟨_, _, q1, q2, q3, q4, q5, q6, _⟩ :=
      compute_indicies_layout lim context r h hc.1 hc.2.2.2.1
    have hiv : is_initialized_var y = true := by
      unfold is_initialized_var
      rw [hyt, hyu, hyv, hyi, hn]
      rfl
    have hrange := mem_range'_of_class q3.1 q3.2 hymem hiv
    have hlc : r.context.literal_count < 65536 := by
      obtain ⟨c, pool1, i, hcl, -, -, -, -, -, -, -, -, -, -, -, elc, -⟩ :=
        compute_indicies_full lim context r h
      rw [elc]
      refine count_literals_bound lim _ _ _ _ hcl ?_
      have e : (count_start context).literal_count = context.literal_count := rfl
      rw [e, hc.2.2.1]
      have := hc.2.2.2.1
      omega
    have hule : r.uninitialized_var_end < 65536 := by
      have := q3.1
      have := q4.1
      have := q5.1
      have := q6.1
      omega
    refine ⟨hrange.1, hrange.2, ?_⟩
    intro t context5 context6 dst dst1 literal_table literal_table1 limit hp5 hf5 hgen
    rw [hf] at hcountle
    simp only [Bool.toNat_true] at hcountle
    have hle : argument_position pre ≤ pre.length := by
      unfold argument_position
      exact List.length_filter_le _ _
    have hlen : (r.context.literal_pool.take pre.length).length = pre.length := by
      rw [List.length_take]
      have := congrArg List.length hsplit
      simp only [List.length_append, List.length_cons, List.length_take,
        List.length_drop] at this
      omega
    obtain ⟨k1, k2⟩ := generate_initializers_argument_exact
      (r.context.literal_pool.take pre.length)
      (r.context.literal_pool.drop (pre.length + 1)) y
      (by rw [hp5]; exact hsplit)
      (fun z hz => hfun z (List.mem_of_mem_take hz)) hyt hyv hn hyi hyf
      (by rw [hpos2]; omega)
      (by
        rw [hpos2]
        have := q1.1
        have := q2.1
        omega) hule hgen
    rw [hpos2, hf5] at k1 k2
    refine ⟨fun hiv1 => ?_, k2⟩
    obtain ⟨ops, b, o1, o2, o3⟩ := k1 hiv1
    rw [hlen] at o1
    refine ⟨ops, b, ?_, o3⟩
    have := hrange.1
    have := hrange.2
    omega

/-- Witness of C14 with `CBC_INITIALIZE_VARS`: in `initializers_example` (the arguments `a`
and `b` are mirrored, `c` is initialized with a function) the argument `b`, behind one
argument, is NoRegStore; `parser_generate_initializers` writes
`CBC_DEFINE_VARS 2`, `CBC_INITIALIZE_VARS 3 5` and the operands `0`, `1`, `8`: one operand
comes before the position 1 of `b`, as many as the index of `b` is above
`uninitialized_var_end`. -/
theorem C14_argument_index_and_operand_witness :
    ∃ r y context6 literal_table1,
      parser_compute_indicies example_limits initializers_example = .ok r
      ∧ r.context.literal_pool[1]? = some y
      ∧ y.status_flags.no_reg_store = true
      ∧ r.context.status_flags.has_initialized_vars = true
      ∧ parser_generate_initializers example_tables r.context [] (List.replicate 8 none)
          r.uninitialized_var_end r.initialized_var_end 254
        = .ok (context6, [14, 2, 15, 3, 5, 0, 1, 8], literal_table1)
      ∧ r.uninitialized_var_end ≤ y.index ∧ y.index < r.initialized_var_end
      ∧ ∃ ops b, ops.length = y.index - r.uninitialized_var_end
        ∧ [14, 2, 15, 3, 5, 0, 1, 8] = []
          ++ define_vars_bytes example_tables r.context.register_count
              r.uninitialized_var_end 254
          ++ [example_tables.CBC_INITIALIZE_VARS]
          ++ parser_encode_literal [] r.uninitialized_var_end 254
          ++ parser_encode_literal [] (u16 (r.initialized_var_end + 65535)) 254
          ++ encoded_operands 254 ops
          ++ parser_encode_literal [] 1 254 ++ b := by
  have hok : (parser_compute_indicies example_limits initializers_example).toOption.bind
      (fun r => (parser_generate_initializers example_tables r.context []
          (List.replicate 8 none) r.uninitialized_var_end r.initialized_var_end
          254).toOption.map
        (fun g => (g.2.1, r.context.status_flags.has_initialized_vars)))
      = some ([14, 2, 15, 3, 5, 0, 1, 8], true) := by decide
  cases hrun : parser_compute_indicies example_limits initializers_example with
  | error e =>
    rw [hrun] at hok
    cases hok
  | ok r =>
    rw [hrun] at hok
    simp only [Except.toOption, Option.bind] at hok
    cases hgen : parser_generate_initializers example_tables r.context []
        (List.replicate 8 none) r.uninitialized_var_end r.initialized_var_end 254 with
    | error e =>
      rw [hgen] at hok
      cases hok
    | ok g =>
      obtain ⟨context6, dst, literal_table1⟩ := g
      rw [hgen] at hok
      simp only [Option.map_some', Option.some.injEq, Prod.mk.injEq] at hok
      obtain ⟨hdst, hflag⟩ := hok
      subst hdst
      obtain ⟨y, hy, -, -, -, hnrs, -, himp⟩ :=
        C14_argument_index_and_operand example_limits initializers_example r
          [ { value := some [97], length := 1, type := LEXER_IDENT_LITERAL,
              status_flags := { var := true, initialized := true,
                                function_argument := true } } ]
          [ { value := some [99], length := 1, type := LEXER_IDENT_LITERAL,
              status_flags := { var := true, initialized := true, no_reg_store := true } },
            { type := LEXER_FUNCTION_LITERAL },
            { value := some [100], length := 1, type := LEXER_IDENT_LITERAL },
            { value := some [115], length := 1, type := LEXER_STRING_LITERAL },
            { value := some [101], length := 1, type := LEXER_IDENT_LITERAL,
              status_flags := { var := true, no_reg_store := true } } ]
          { value := some [98], length := 1, type := LEXER_IDENT_LITERAL,
            status_flags := { var := true, initialized := true, function_argument := true } }
          (by decide) hrun rfl rfl rfl rfl
      have hn : y.status_flags.no_reg_store = true := by rw [hnrs]; rfl
      obtain ⟨h1, h2, hall⟩ := himp hn
      exact ⟨r, y, context6, literal_table1, rfl, hy, hn, hflag, hgen, h1, h2,
        (hall example_tables r.context context6 [] _ _ literal_table1 254 rfl rfl hgen).1
          hflag⟩

/-! ## Local variables, record by record -/

/-- C15: in a consistent pool in which no record flagged Var is flagged UnusedIdent (the
parser sets `LEXER_FLAG_UNUSED_IDENT` only on the records that `parser_copy_identifiers`
appends, which carry no `LEXER_FLAG_VAR`), take a variable that is no argument: an
identifier record flagged Var that is not both Initialized and FunctionArgument, the record
behind `pre`. It keeps type, value and flags apart from NoRegStore. It stays without
NoRegStore, and gets an index in the register range, exactly when it was not NoRegStore, the
context lacks `PARSER_NO_REG_STORE` and the register count is below
`PARSER_MAXIMUM_NUMBER_OF_REGISTERS` when the first loop reaches the record; otherwise it is
NoRegStore, its index lies in the range of the uninitialized or of the initialized variables
according to its Initialized flag, and `PARSER_LEXICAL_ENV_NEEDED` is set in the context. -/
theorem C15_local_variable_placement (lim : parser_limits)
    (context : parser_context_t) (r : compute_indicies_result)
    (pre post : List lexer_literal_t) (x : lexer_literal_t)
    (hc : pool_consistent context)
    (hun : ∀ z ∈ context.literal_pool, z.status_flags.var = true →
      z.status_flags.unused_ident = false)
    (h : parser_compute_indicies lim context = .ok r)
    (hpool : context.literal_pool = pre ++ x :: post)
    (ht : x.type = LEXER_IDENT_LITERAL) (hv : x.status_flags.var = true)
    (hna : (x.status_flags.initialized && x.status_flags.function_argument) = false) :
    ∃ pre1 c1 y, count_literals lim (count_start context) pre = .ok (pre1, c1)
      ∧ r.context.literal_pool[pre.length]? = some y
      ∧ y = { x with index := y.index
                     status_flags := { x.status_flags with
                       no_reg_store := y.status_flags.no_reg_store } }
      ∧ (y.status_flags.no_reg_store = false ↔
          (x.status_flags.no_reg_store = false ∧ context.status_flags.no_reg_store = false
            ∧ c1.register_count < lim.PARSER_MAXIMUM_NUMBER_OF_REGISTERS))
      ∧ (y.status_flags.no_reg_store = false →
          r.context.argument_count ≤ y.index ∧ y.index < r.context.register_count)
      ∧ (y.status_flags.no_reg_store = true →
          r.context.status_flags.lexical_env_needed = true
          ∧ (x.status_flags.initialized = false →
              r.context.register_count ≤ y.index ∧ y.index < r.uninitialized_var_end)
          ∧ (x.status_flags.initialized = true →
              r.uninitialized_var_end ≤ y.index ∧ y.index < r.initialized_var_end)) := by
  have hu : x.status_flags.unused_ident = false :=
    hun x (by rw [hpool]; exact List.mem_append_right _ (List.mem_cons_self _ _)) hv
  obtain ⟨pre1, c1, x1, c2, y, e1, e2, g1, _, _, hlex, hy, hxy, hymem, _⟩ :=
    compute_indicies_record lim context r pre post x hc h hpool
  obtain ⟨hx1, hl1⟩ := count_literal_local lim c1 c2 x x1 e2 ht hu hv hna
  rw [g1] at hx1
  unfold same_but_index at hxy
  have hyt : y.type = LEXER_IDENT_LITERAL := by rw [hxy, hx1]; exact ht
  have hyu : y.status_flags.unused_ident = false := by rw [hxy, hx1]; exact hu
  have hyv : y.status_flags.var = true := by rw [hxy, hx1]; exact hv
  have hyi : y.status_flags.initialized = x.status_flags.initialized := by rw [hxy, hx1]
  have hyf : y.status_flags.function_argument = x.status_flags.function_argument := by
    rw [hxy, hx1]
  have hyn1 : y.status_flags.no_reg_store = x1.status_flags.no_reg_store := by rw [hxy]
  have hyn : y.status_flags.no_reg_store
      = !(!x.status_flags.no_reg_store && !context.status_flags.no_reg_store
        && decide (c1.register_count < lim.PARSER_MAXIMUM_NUMBER_OF_REGISTERS)) := by
    rw [hxy, hx1]
  obtain ⟨_, _, q1, q2, q3, _⟩ := compute_indicies_layout lim context r h hc.1 hc.2.2.2.1
  refine ⟨pre1, c1, y, e1, hy, ?_, ?_, ?_, ?_⟩
  · rw [hyn]
    conv_lhs => rw [hxy, hx1]
  · rw [hyn]
    cases x.status_flags.no_reg_store <;> cases context.status_flags.no_reg_store <;>
      simp
  · intro hn
    have hreg : is_register y = true := by
      unfold is_register
      rw [hyt, hyu, hyv, hyi, hyf, hn, hna]
      rfl
    exact mem_range'_of_class q1.1 q1.2 hymem hreg
  · intro hn
    refine ⟨hlex (hl1 (by rw [← hyn1]; exact hn)), ?_, ?_⟩
    · intro hi
      have hcl : is_uninitialized_var y = true := by
        unfold is_uninitialized_var
        rw [hyt, hyu, hyv, hyi, hi, hn]
        rfl
      exact mem_range'_of_class q2.1 q2.2 hymem hcl
    · intro hi
      have hcl : is_initialized_var y = true := by
        unfold is_initialized_var
        rw [hyt, hyu, hyv, hyi, hi, hn]
        rfl
      exact mem_range'_of_class q3.1 q3.2 hymem hcl

/-- Witness of C15 on `compute_example`: the local `c` is reached with two registers in
use, below the maximum 256, and gets the register index 2; the captured local `e`, flagged
NoRegStore and not Initialized, is reached with three registers in use, stays NoRegStore,
gets the index 3 of the uninitialized variables, and `PARSER_LEXICAL_ENV_NEEDED` is set. -/
theorem C15_local_variable_placement_witness :
    ∃ r, parser_compute_indicies example_limits compute_example = .ok r
      ∧ r.context.literal_pool.map (fun x => x.index) = [0, 4, 2, 7, 5, 6, 3]
      ∧ r.context.status_flags.lexical_env_needed = true
      ∧ (∃ pre1 c1 y, count_literals example_limits (count_start compute_example)
            [ { value := some [97], length := 1, type := LEXER_IDENT_LITERAL,
                status_flags := { var := true, initialized := true,
                                  function_argument := true } },
              { value := some [98], length := 1, type := LEXER_IDENT_LITERAL,
                status_flags := { var := true, initialized := true, function_argument := true,
                                  no_reg_store := true } } ] = .ok (pre1, c1)
        ∧ r.context.literal_pool[2]? = some y
        ∧ y = { ({ value := some [99], length := 1, type := LEXER_IDENT_LITERAL,
                   status_flags := { var := true, initialized := true } } : lexer_literal_t)
                with
                index := y.index
                status_flags := { var := true, initialized := true,
                                  no_reg_store := y.status_flags.no_reg_store } }
        ∧ (y.status_flags.no_reg_store = false ↔
            (false = false ∧ compute_example.status_flags.no_reg_store = false
              ∧ c1.register_count < example_limits.PARSER_MAXIMUM_NUMBER_OF_REGISTERS))
        ∧ (y.status_flags.no_reg_store = false →
            r.context.argument_count ≤ y.index ∧ y.index < r.context.register_count)
        ∧ (y.status_flags.no_reg_store = true →
            r.context.status_flags.lexical_env_needed = true
            ∧ (true = false →
                r.context.register_count ≤ y.index ∧ y.index < r.uninitialized_var_end)
            ∧ (true = true →
                r.uninitialized_var_end ≤ y.index ∧ y.index < r.initialized_var_end)))
      ∧ (∃ pre1 c1 y, count_literals example_limits (count_start compute_example)
            (compute_example.literal_pool.take 6) = .ok (pre1, c1)
        ∧ r.context.literal_pool[(compute_example.literal_pool.take 6).length]? = some y
        ∧ y = { ({ value := some [101], length := 1, type := LEXER_IDENT_LITERAL,
                   status_flags := { var := true, no_reg_store := true } } : lexer_literal_t)
                with
                index := y.index
                status_flags := { var := true,
                                  no_reg_store := y.status_flags.no_reg_store } }
        ∧ (y.status_flags.no_reg_store = false ↔
            (true = false ∧ compute_example.status_flags.no_reg_store = false
              ∧ c1.register_count < example_limits.PARSER_MAXIMUM_NUMBER_OF_REGISTERS))
        ∧ (y.status_flags.no_reg_store = false →
            r.context.argument_count ≤ y.index ∧ y.index < r.context.register_count)
        ∧ (y.status_flags.no_reg_store = true →
            r.context.status_flags.lexical_env_needed = true
            ∧ (false = false →
                r.context.register_count ≤ y.index ∧ y.index < r.uninitialized_var_end)
            ∧ (false = true →
                r.uninitialized_var_end ≤ y.index ∧ y.index < r.initialized_var_end))) := by
  have hok : (parser_compute_indicies example_limits compute_example).toBool = true := rfl
  have hval : (parser_compute_indicies example_limits compute_example).map
      (fun r => (r.context.literal_pool.map (fun x => x.index),
        r.context.status_flags.lexical_env_needed))
      = .ok ([0, 4, 2, 7, 5, 6, 3], true) := rfl
  cases hrun : parser_compute_indicies example_limits compute_example with
  | error e => rw [hrun] at hok; exact absurd hok (by simp [Except.toBool])
  | ok r =>
    rw [hrun] at hval
    simp only [Except.map, Except.ok.injEq, Prod.mk.injEq] at hval
    exact ⟨r, rfl, hval.1, hval.2,
      C15_local_variable_placement example_limits compute_example r
        [ { value := some [97], length := 1, type := LEXER_IDENT_LITERAL,
            status_flags := { var := true, initialized := true, function_argument := true } },
          { value := some [98], length := 1, type := LEXER_IDENT_LITERAL,
            status_flags := { var := true, initialized := true, function_argument := true,
                              no_reg_store := true } } ]
        [ { type := LEXER_FUNCTION_LITERAL },
          { value := some [100], length := 1, type := LEXER_IDENT_LITERAL },
          { value := some [115], length := 1, type := LEXER_STRING_LITERAL },
          { value := some [101], length := 1, type := LEXER_IDENT_LITERAL,
            status_flags := { var := true, no_reg_store := true } } ]
        { value := some [99], length := 1, type := LEXER_IDENT_LITERAL,
          status_flags := { var := true, initialized := true } }
        (by decide) (by decide) hrun rfl rfl rfl rfl,
      C15_local_variable_placement example_limits compute_example r
        (compute_example.literal_pool.take 6) []
        { value := some [101], length := 1, type := LEXER_IDENT_LITERAL,
          status_flags := { var := true, no_reg_store := true } }
        (by decide) (by decide) hrun rfl rfl rfl rfl⟩

/-! ## The literal limit with the allocation of `parser_list_append` -/

/-- When every call of `parser_list_append` returns, the loop with the allocation is
`copy_identifiers_loop`. -/
theorem copy_identifiers_loop_alloc_none (rest : List lexer_literal_t) :
    ∀ (done pool : List lexer_literal_t) (count : Nat),
      copy_identifiers_loop_alloc (fun _ => none) rest done pool count
        = copy_identifiers_loop rest done pool count := by
  induction rest with
  | nil =>
    intro done pool count
    rfl
  | cons lit rest ih =>
    intro done pool count
    unfold copy_identifiers_loop_alloc copy_identifiers_loop
    by_cases hskip : lit.type ≠ LEXER_IDENT_LITERAL ∨ lit.status_flags.var = true
    · rw [if_pos hskip, if_pos hskip]
      exact ih _ _ _
    · rw [if_neg hskip, if_neg hskip]
      dsimp only
      by_cases hfound : (mark_parent_literal lit.value lit.length pool).2 = true
      · rw [if_pos hfound, if_pos hfound]
        exact ih _ _ _
      · rw [if_neg hfound, if_neg hfound]
        by_cases hmax : count ≥ PARSER_MAXIMUM_NUMBER_OF_LITERALS
        · rw [if_pos hmax, if_pos hmax]
        · rw [if_neg hmax, if_neg hmax]
          exact ih _ _ _

/-- When every call of `parser_list_append` returns, `parser_copy_identifiers_alloc` is
`parser_copy_identifiers`. -/
theorem parser_copy_identifiers_alloc_none (context : parser_context_t) :
    parser_copy_identifiers_alloc (fun _ => none) context = parser_copy_identifiers context := by
  unfold parser_copy_identifiers_alloc parser_copy_identifiers
  cases context.last_context_p with
  | none => rfl
  | some parent =>
    dsimp only
    rw [copy_identifiers_loop_alloc_none]
    all_goals
      (split_ifs <;> first
        | rfl
        | (cases copy_identifiers_loop context.literal_pool [] parent.literal_pool_data
            parent.literal_count <;> rfl))

/-- The outer loop of `parser_copy_identifiers` raises `PARSER_ERR_LITERAL_LIMIT_REACHED`
exactly when it reaches a free identifier that the parent pool, as the loop has left it,
does not know while the parent `literal_count`, as the loop has left it, is at the maximum;
`parser_list_append` raises other errors only. -/
theorem copy_identifiers_loop_alloc_raises_iff
    (la : List lexer_literal_t → Option Fault)
    (hla : ∀ pool, la pool
      ≠ some (Fault.raised parser_error_t.PARSER_ERR_LITERAL_LIMIT_REACHED))
    (rest : List lexer_literal_t) :
    ∀ (done pool : List lexer_literal_t) (count : Nat),
      copy_identifiers_loop_alloc la rest done pool count
          = .error (Fault.raised parser_error_t.PARSER_ERR_LITERAL_LIMIT_REACHED) ↔
      ∃ pre c post done1 pool1 count1, rest = pre ++ c :: post
        ∧ copy_identifiers_loop_alloc la pre done pool count = .ok (done1, pool1, count1)
        ∧ c.type = LEXER_IDENT_LITERAL ∧ c.status_flags.var = false
        ∧ (mark_parent_literal c.value c.length pool1).2 = false
        ∧ count1 ≥ PARSER_MAXIMUM_NUMBER_OF_LITERALS := by
  induction rest with
  | nil =>
    intro done pool count
    constructor
    · intro h
      simp [copy_identifiers_loop_alloc] at h
    · rintro ⟨pre, c, post, _, _, _, hsplit, _⟩
      simp at hsplit
  | cons lit rest ih =>
    intro done pool count
    have step : ∀ (done2 pool2 : List lexer_literal_t) (count2 : Nat),
        (∀ pre, copy_identifiers_loop_alloc la (lit :: pre) done pool count
          = copy_identifiers_loop_alloc la pre done2 pool2 count2) →
        ¬ (lit.type = LEXER_IDENT_LITERAL ∧ lit.status_flags.var = false
            ∧ (mark_parent_literal lit.value lit.length pool).2 = false
            ∧ count ≥ PARSER_MAXIMUM_NUMBER_OF_LITERALS) →
        (copy_identifiers_loop_alloc la (lit :: rest) done pool count
            = .error (Fault.raised parser_error_t.PARSER_ERR_LITERAL_LIMIT_REACHED) ↔
          ∃ pre c post done1 pool1 count1, lit :: rest = pre ++ c :: post
            ∧ copy_identifiers_loop_alloc la pre done pool count
              = .ok (done1, pool1, count1)
            ∧ c.type = LEXER_IDENT_LITERAL ∧ c.status_flags.var = false
            ∧ (mark_parent_literal c.value c.length pool1).2 = false
            ∧ count1 ≥ PARSER_MAXIMUM_NUMBER_OF_LITERALS) := by
      intro done2 pool2 count2 hstep hnot
      rw [hstep rest, ih done2 pool2 count2]
      constructor
      · rintro ⟨pre, c, post, done1, pool1, count1, e1, e2, e3⟩
        exact ⟨lit :: pre, c, post, done1, pool1, count1, by rw [e1]; rfl,
          by rw [hstep pre]; exact e2, e3⟩
      · rintro ⟨pre, c, post, done1, pool1, count1, e1, e2, e3, e4, e5, e6⟩
        cases pre with
        | nil =>
          simp only [List.nil_append, List.cons.injEq] at e1
          obtain ⟨rfl, rfl⟩ := e1
          simp only [copy_identifiers_loop_alloc, Except.ok.injEq, Prod.mk.injEq] at e2
          obtain ⟨_, rfl, rfl⟩ := e2
          exact absurd ⟨e3, e4, e5, e6⟩ hnot
        | cons a pre =>
          simp only [List.cons_append, List.cons.injEq] at e1
          obtain ⟨rfl, rfl⟩ := e1
          rw [hstep pre] at e2
          exact ⟨pre, c, post, done1, pool1, count1, rfl, e2, e3, e4, e5, e6⟩
    by_cases hskip : lit.type ≠ LEXER_IDENT_LITERAL ∨ lit.status_flags.var = true
    · apply step (done ++ [lit]) pool count
      · intro pre
        conv_lhs => unfold copy_identifiers_loop_alloc
        rw [if_pos hskip]
      · rintro ⟨h1, h2, _⟩
        rcases hskip with h | h
        · exact h h1
        · rw [h2] at h
          cases h
    · by_cases hfound : (mark_parent_literal lit.value lit.length pool).2 = true
      · apply step (done ++ [lit]) (mark_parent_literal lit.value lit.length pool).1 count
        · intro pre
          conv_lhs => unfold copy_identifiers_loop_alloc
          rw [if_neg hskip]
          dsimp only
          rw [if_pos hfound]
        · rintro ⟨_, _, h3, _⟩
          rw [hfound] at h3
          cases h3
      · by_cases hmax : count ≥ PARSER_MAXIMUM_NUMBER_OF_LITERALS
        · have hfree : lit.type = LEXER_IDENT_LITERAL ∧ lit.status_flags.var = false := by
            constructor
            · by_contra hc
              exact hskip (Or.inl hc)
            · cases hv : lit.status_flags.var
              · rfl
              · exact absurd (Or.inr hv) hskip
          constructor
          · intro _
            exact ⟨[], lit, rest, done, pool, count, rfl,
              by simp [copy_identifiers_loop_alloc], hfree.1, hfree.2,
              by simpa using hfound, hmax⟩
          · intro _
            unfold copy_identifiers_loop_alloc
            rw [if_neg hskip]
            dsimp only
            rw [if_neg hfound, if_pos hmax]
        · cases hap : la (mark_parent_literal lit.value lit.length pool).1 with
          | some fault =>
            have hrun : ∀ pre, copy_identifiers_loop_alloc la (lit :: pre) done pool count
                = .error fault := by
              intro pre
              conv_lhs => unfold copy_identifiers_loop_alloc
              rw [if_neg hskip]
              dsimp only
              rw [if_neg hfound, if_neg hmax, hap]
            constructor
            · intro h
              rw [hrun rest] at h
              simp only [Except.error.injEq] at h
              exact absurd (by rw [hap, h]) (hla _)
            · rintro ⟨pre, c, post, done1, pool1, count1, e1, e2, e3, e4, e5, e6⟩
              cases pre with
              | nil =>
                simp only [List.nil_append, List.cons.injEq] at e1
                obtain ⟨rfl, rfl⟩ := e1
                simp only [copy_identifiers_loop_alloc, Except.ok.injEq,
                  Prod.mk.injEq] at e2
                obtain ⟨_, rfl, rfl⟩ := e2
                exact absurd e6 hmax
              | cons a pre =>
                simp only [List.cons_append, List.cons.injEq] at e1
                obtain ⟨rfl, rfl⟩ := e1
                rw [hrun pre] at e2
                cases e2
          | none =>
            apply step
              (done ++ [{ lit with
                status_flags := { lit.status_flags with source_ptr := true } }])
              ((mark_parent_literal lit.value lit.length pool).1
                ++ [{ value := lit.value, length := u16 lit.length, index := 0,
                      type := LEXER_IDENT_LITERAL,
                      status_flags := { source_ptr := lit.status_flags.source_ptr,
                                        no_reg_store := true, unused_ident := true } }])
              (u16 (count + 1))
            · intro pre
              conv_lhs => unfold copy_identifiers_loop_alloc
              rw [if_neg hskip]
              dsimp only
              rw [if_neg hfound, if_neg hmax, hap]
            · rintro ⟨_, _, _, h4⟩
              exact hmax h4

/-- The outer loop of `parser_copy_identifiers` adds one to the parent `literal_count` for
every record it appends to the parent pool. -/
theorem copy_identifiers_loop_alloc_count (la : List lexer_literal_t → Option Fault)
    (rest : List lexer_literal_t) :
    ∀ (done pool : List lexer_literal_t) (count : Nat)
      (child parent_pool : List lexer_literal_t) (parent_count : Nat),
      copy_identifiers_loop_alloc la rest done pool count
        = .ok (child, parent_pool, parent_count) →
      pool.length ≤ parent_pool.length
        ∧ parent_count = count + (parent_pool.length - pool.length) := by
  induction rest with
  | nil =>
    intro done pool count child parent_pool parent_count h
    simp only [copy_identifiers_loop_alloc, Except.ok.injEq, Prod.mk.injEq] at h
    obtain ⟨_, rfl, rfl⟩ := h
    exact ⟨le_refl _, by omega⟩
  | cons lit rest ih =>
    intro done pool count child parent_pool parent_count h
    have hmark : (mark_parent_literal lit.value lit.length pool).1.length = pool.length :=
      (List.Forall₂.length_eq (mark_parent_literal_forall₂ _ _ _)).symm
    unfold copy_identifiers_loop_alloc at h
    by_cases hskip : lit.type ≠ LEXER_IDENT_LITERAL ∨ lit.status_flags.var = true
    · rw [if_pos hskip] at h
      exact ih _ _ _ _ _ _ h
    · rw [if_neg hskip] at h
      dsimp only at h
      by_cases hfound : (mark_parent_literal lit.value lit.length pool).2 = true
      · rw [if_pos hfound] at h
        obtain ⟨a1, a2⟩ := ih _ _ _ _ _ _ h
        rw [hmark] at a1 a2
        exact ⟨a1, a2⟩
      · rw [if_neg hfound] at h
        by_cases hmax : count ≥ PARSER_MAXIMUM_NUMBER_OF_LITERALS
        · rw [if_pos hmax] at h
          cases h
        · rw [if_neg hmax] at h
          cases hap : la (mark_parent_literal lit.value lit.length pool).1 with
          | some fault =>
            rw [hap] at h
            cases h
          | none =>
            rw [hap] at h
            dsimp only at h
            obtain ⟨a1, a2⟩ := ih _ _ _ _ _ _ h
            rw [List.length_append, hmark] at a1 a2
            simp only [List.length_singleton] at a1 a2
            have hc : u16 (count + 1) = count + 1 := by
              unfold u16
              unfold PARSER_MAXIMUM_NUMBER_OF_LITERALS at hmax
              omega
            rw [hc] at a2
            exact ⟨by omega, by omega⟩

theorem mark_parent_literal_absent (char_p : literal_value_t) (length : Nat)
    (pool : List lexer_literal_t)
    (h : ∀ p ∈ pool, ¬ (p.type = LEXER_IDENT_LITERAL ∧ p.length = length
          ∧ memcmp_eq p.value char_p length = true)) :
    (mark_parent_literal char_p length pool).2 = false := by
  induction pool with
  | nil => rfl
  | cons a l ih =>
    unfold mark_parent_literal
    rw [if_neg (h a (List.mem_cons_self _ _))]
    exact ih (fun p hp => h p (List.mem_cons_of_mem _ hp))

/-- C17 (amended): for a finished function whose parent context is a function and whose own
context lacks `PARSER_NO_REG_STORE`, `parser_copy_identifiers` raises
`PARSER_ERR_LITERAL_LIMIT_REACHED` exactly when its walk reaches a free identifier that the
parent pool (with the records appended so far) does not know while the parent
`literal_count` (with the increments made so far) is at least 32767. Whenever the function
returns, with or without the walk, the parent `literal_count` has grown by exactly the number
of records appended to the parent pool. The call of `parser_list_append`, which can leave the
function when no memory is left, is a parameter; `hoom` says that the error it raises then is
not `PARSER_ERR_LITERAL_LIMIT_REACHED`. -/
theorem C17_literal_limit_exactly (parser_list_append : List lexer_literal_t → Option Fault)
    (context : parser_context_t) (parent : parser_saved_context_t)
    (hparent : context.last_context_p = some parent)
    (hoom : ∀ pool, parser_list_append pool
      ≠ some (Fault.raised parser_error_t.PARSER_ERR_LITERAL_LIMIT_REACHED)) :
    (parent.status_flags.is_function = true → context.status_flags.no_reg_store = false →
      ((parser_copy_identifiers_alloc parser_list_append context
          = .error (Fault.raised parser_error_t.PARSER_ERR_LITERAL_LIMIT_REACHED)) ↔
        ∃ pre c post done1 pool1 count1, context.literal_pool = pre ++ c :: post
          ∧ copy_identifiers_loop_alloc parser_list_append pre [] parent.literal_pool_data
              parent.literal_count = .ok (done1, pool1, count1)
          ∧ c.type = LEXER_IDENT_LITERAL ∧ c.status_flags.var = false
          ∧ (mark_parent_literal c.value c.length pool1).2 = false
          ∧ count1 ≥ PARSER_MAXIMUM_NUMBER_OF_LITERALS))
    ∧ (∀ context1, parser_copy_identifiers_alloc parser_list_append context = .ok context1 →
        ∃ parent1, context1.last_context_p = some parent1
          ∧ parent.literal_pool_data.length ≤ parent1.literal_pool_data.length
          ∧ parent1.literal_count = parent.literal_count
              + (parent1.literal_pool_data.length - parent.literal_pool_data.length)) := by
  refine ⟨?_, ?_⟩
  · intro hfun hnrs
    have hiff := copy_identifiers_loop_alloc_raises_iff parser_list_append hoom
      context.literal_pool [] parent.literal_pool_data parent.literal_count
    rw [← hiff]
    unfold parser_copy_identifiers_alloc
    rw [hparent]
    simp only [hfun, hnrs, Bool.not_true, Bool.false_eq_true, if_false]
    constructor
    · intro h
      split at h
      · rename_i e he
        cases h
        exact he
      · cases h
    · intro he
      rw [he]
  · intro context1 h
    unfold parser_copy_identifiers_alloc at h
    rw [hparent] at h
    dsimp only at h
    split_ifs at h
    · cases h
      exact ⟨parent, hparent, le_refl _, by omega⟩
    · cases h
      exact ⟨_, rfl, le_refl _, by simp⟩
    · split at h
      · cases h
      · rename_i pool parent_pool parent_count hloop
        cases h
        obtain ⟨a1, a2⟩ := copy_identifiers_loop_alloc_count _ _ _ _ _ _ _ _ hloop
        exact ⟨_, rfl, a1, a2⟩

/-- Witness of C17, with a `parser_list_append` that always returns. In `hoist_example` the
parent is a function; the call returns, one record is appended to the parent pool and the
parent `literal_count` goes from 1 to 2. In `full_parent_walk_example` the walk reaches the
free identifier `a`, which the full parent pool does not know, and the call raises
`PARSER_ERR_LITERAL_LIMIT_REACHED`. -/
theorem C17_literal_limit_exactly_witness :
    (hoist_example.last_context_p = some hoist_example_parent
      ∧ (∀ context1, parser_copy_identifiers_alloc (fun _ => none) hoist_example
            = .ok context1 →
          ∃ parent1, context1.last_context_p = some parent1
            ∧ hoist_example_parent.literal_pool_data.length
              ≤ parent1.literal_pool_data.length
            ∧ parent1.literal_count = hoist_example_parent.literal_count
                + (parent1.literal_pool_data.length
                    - hoist_example_parent.literal_pool_data.length))
      ∧ (parser_copy_identifiers_alloc (fun _ => none) hoist_example).map
          (fun c => c.last_context_p.map
            (fun q => (q.literal_count, q.literal_pool_data.length)))
          = .ok (some (2, 2)))
    ∧ (∃ parent, full_parent_walk_example.last_context_p = some parent
        ∧ parent.status_flags.is_function = true
        ∧ full_parent_walk_example.status_flags.no_reg_store = false
        ∧ parent.literal_count ≥ PARSER_MAXIMUM_NUMBER_OF_LITERALS
        ∧ parser_copy_identifiers_alloc (fun _ => none) full_parent_walk_example
          = .error (Fault.raised parser_error_t.PARSER_ERR_LITERAL_LIMIT_REACHED)) :=
  ⟨⟨rfl,
    (C17_literal_limit_exactly (fun _ => none) hoist_example hoist_example_parent rfl
      (fun _ h => Option.noConfusion h)).2, rfl⟩,
   ⟨_, rfl, rfl, rfl, (by decide),
    ((C17_literal_limit_exactly (fun _ => none) full_parent_walk_example _ rfl
      (fun _ h => Option.noConfusion h)).1 rfl rfl).2
      ⟨[], _, [], [], _, _, rfl, rfl, rfl, rfl,
        mark_parent_literal_absent _ _ _
          (fun p hp => by rw [List.eq_of_mem_replicate hp]; decide),
        (by decide)⟩⟩⟩

/-! ## Built-in objects: the names of the lazy properties -/

theorem mask_prop_id_ne_built_in_id (index : Nat) :
    ecma_internal_property_id_t.ECMA_INTERNAL_PROPERTY_BUILT_IN_ID
      ≠ ecma_builtin_mask_prop_id index := by
  unfold ecma_builtin_mask_prop_id
  split <;> exact fun h => by cases h

theorem mask_prop_id_same_half (i j : Nat) :
    ecma_builtin_mask_prop_id i = ecma_builtin_mask_prop_id j ↔ (i < 32 ↔ j < 32) := by
  unfold ecma_builtin_mask_prop_id
  by_cases hi : i < 32 <;> by_cases hj : j < 32 <;> simp [hi, hj]

/-- The bit set of a mask property that is there. -/
theorem instantiated_bitset_of_find (object : ecma_object_t)
    (id : ecma_internal_property_id_t) (n : Nat)
    (h : ecma_find_internal_property object id = some (ecma_internal_value_t.uint32 n)) :
    ecma_builtin_instantiated_bitset object id = n := by
  unfold ecma_builtin_instantiated_bitset
  rw [h]

/-- The bit set of a mask property that is not there is 0. -/
theorem instantiated_bitset_of_none (object : ecma_object_t)
    (id : ecma_internal_property_id_t) (h : ecma_find_internal_property object id = none) :
    ecma_builtin_instantiated_bitset object id = 0 := by
  unfold ecma_builtin_instantiated_bitset
  rw [h]

/-- The bit set depends on the internal property only. -/
theorem instantiated_bitset_congr (object object1 : ecma_object_t)
    (id : ecma_internal_property_id_t)
    (h : ecma_find_internal_property object1 id = ecma_find_internal_property object id) :
    ecma_builtin_instantiated_bitset object1 id
      = ecma_builtin_instantiated_bitset object id := by
  unfold ecma_builtin_instantiated_bitset
  rw [h]

/-- The property lookup returns the named property of the object when there is one. -/
theorem get_own_property_found (t : ecma_builtin_tables) (heap : ecma_heap_t)
    (object_p : Nat) (object : ecma_object_t) (name : ecma_string_t) (prop : ecma_property_t)
    (hobj : heap.objects[object_p]? = some object)
    (hf : object.named_properties.find? (fun p => decide (p.name = name)) = some prop) :
    ecma_op_object_get_own_property t heap object_p name = .ok (some prop, heap) := by
  rw [ecma_op_object_get_own_property, hobj]
  simp only [hf]

/-- The property lookup for the name of a descriptor that the object of the built-in has no
named property for is the instantiation of the descriptor. -/
theorem get_own_property_lazy (t : ecma_builtin_tables) (heap : ecma_heap_t)
    (object_p : Nat) (object : ecma_object_t) (builtin_id : Nat)
    (builtin : ecma_builtin_description_t) (index : Nat)
    (curr_property : ecma_builtin_property_descriptor_t)
    (hst : ecma_builtin_object_ok t object_p builtin_id heap object)
    (hbi : t.builtins[builtin_id]? = some builtin)
    (hcur : builtin.property_descriptor_list[index]? = some curr_property)
    (hfirst : ∀ (j : Nat) (d : ecma_builtin_property_descriptor_t), j < index →
      builtin.property_descriptor_list[j]? = some d →
      d.magic_string_id ≠ curr_property.magic_string_id
        ∧ d.magic_string_id ≠ t.LIT_MAGIC_STRING__COUNT)
    (hnf : object.named_properties.find?
      (fun p => decide (p.name = ecma_string_t.magic curr_property.magic_string_id))
        = none) :
    ecma_op_object_get_own_property t heap object_p
        (ecma_string_t.magic curr_property.magic_string_id)
      = ecma_builtin_instantiate_descriptor t heap object_p object
          (ecma_string_t.magic curr_property.magic_string_id) builtin_id
          curr_property.magic_string_id index curr_property := by
  obtain ⟨hobj, hb, hty, hid, hreg, _, _⟩ := hst
  have hfd := ecma_builtin_find_descriptor_at t curr_property.magic_string_id
    builtin.property_descriptor_list 0 index curr_property hcur rfl hfirst
  rw [Nat.zero_add] at hfd
  rw [ecma_op_object_get_own_property, hobj]
  simp only [hnf, hb, if_true]
  rw [try_to_instantiate_magic t heap object_p object curr_property.magic_string_id
    builtin_id builtin hobj hb hty hid hreg hbi, hfd]

/-- The instantiation of a descriptor whose bit is clear: a property with the name of the
descriptor is returned, the object behind the pointer is still the object of the built-in,
it has the new property in front of the former ones and the bit of the descriptor set in
the mask property of its half; its other internal properties are as before. -/
theorem instantiate_descriptor_state (t : ecma_builtin_tables) (heap : ecma_heap_t)
    (object_p : Nat) (object : ecma_object_t) (builtin_id index : Nat)
    (curr_property : ecma_builtin_property_descriptor_t)
    (hst : ecma_builtin_object_ok t object_p builtin_id heap object)
    (hi : index < 64)
    (hclear : (ecma_builtin_instantiated_bitset object
      (ecma_builtin_mask_prop_id index)).testBit (index % 32) = false)
    (hok : ecma_builtin_value_ok t builtin_id curr_property.magic_string_id curr_property) :
    ∃ prop heap1 object1,
      ecma_builtin_instantiate_descriptor t heap object_p object
          (ecma_string_t.magic curr_property.magic_string_id) builtin_id
          curr_property.magic_string_id index curr_property = .ok (some prop, heap1)
      ∧ ecma_builtin_object_ok t object_p builtin_id heap1 object1
      ∧ (∃ p : ecma_property_t, p.name = ecma_string_t.magic curr_property.magic_string_id
          ∧ object1.named_properties = p :: object.named_properties)
      ∧ (∀ k, (ecma_builtin_instantiated_bitset object1
            (ecma_builtin_mask_prop_id index)).testBit k
          = (decide (k = index % 32)
            || (ecma_builtin_instantiated_bitset object
                (ecma_builtin_mask_prop_id index)).testBit k))
      ∧ (∀ id, id ≠ ecma_builtin_mask_prop_id index →
          ecma_find_internal_property object1 id
            = ecma_find_internal_property object id) := by
  obtain ⟨hobj, hb, hty, hid, hreg, hregl, hm⟩ := hst
  have hmask : ecma_find_internal_property object (ecma_builtin_mask_prop_id index) = none
      ∨ ∃ v, ecma_find_internal_property object (ecma_builtin_mask_prop_id index)
            = some (ecma_internal_value_t.uint32 v) ∧ v.testBit (index % 32) = false := by
    cases hfm : ecma_find_internal_property object (ecma_builtin_mask_prop_id index) with
    | none => exact Or.inl rfl
    | some v =>
      obtain ⟨n, rfl⟩ := hm index v hfm
      rw [instantiated_bitset_of_find object _ n hfm] at hclear
      exact Or.inr ⟨n, rfl, hclear⟩
  obtain ⟨prop, heap1, hd⟩ := ecma_builtin_instantiate_descriptor_clear t heap object_p object
    (ecma_string_t.magic curr_property.magic_string_id) builtin_id
    curr_property.magic_string_id index curr_property hobj hregl hi hmask hok
  obtain ⟨object2, value, heap3, _, _, hf2, hother, hnamed, hb2, hty2, hv, h3, hprop, hheap⟩ :=
    ecma_builtin_instantiate_descriptor_some t heap heap1 object_p object _ builtin_id
      curr_property.magic_string_id index curr_property prop hobj hd
  obtain ⟨_, hlen3, hkeep3⟩ := ecma_builtin_property_value_heap t _ heap3 _ _ _ value hv
  have hlt3 : object_p < heap3.objects.length := by
    rcases Nat.lt_or_ge object_p heap3.objects.length with h1 | h1
    · exact h1
    · rw [List.getElem?_eq_none h1] at h3; cases h3
  have hfind : ∀ id, ecma_find_internal_property
      (ecma_create_named_data_property object2
        (ecma_string_t.magic curr_property.magic_string_id) curr_property.attributes value) id
      = ecma_find_internal_property object2 id := fun _ => rfl
  refine ⟨prop, heap1, ecma_create_named_data_property object2
    (ecma_string_t.magic curr_property.magic_string_id) curr_property.attributes value,
    hd, ⟨?_, ?_, ?_, ?_, ?_, ?_, ?_⟩,
    ⟨{ name := ecma_string_t.magic curr_property.magic_string_id,
       attributes := curr_property.attributes, value := some value }, rfl, ?_⟩, ?_, ?_⟩
  · rw [hheap]
    show (heap3.objects.set object_p _)[object_p]? = _
    rw [List.getElem?_set_self hlt3]
  · show object2.is_builtin = true
    rw [hb2, hb]
  · show object2.type ≠ _
    rw [hty2]
    exact hty
  · rw [hfind, hother _ (mask_prop_id_ne_built_in_id index)]
    exact hid
  · rw [hheap]
    show heap3.ecma_builtin_objects[builtin_id]? = _
    exact hkeep3 builtin_id object_p hreg
  · rw [hheap]
    show heap3.ecma_builtin_objects.length = _
    rw [hlen3]
    exact hregl
  · intro index1 v hv1
    rw [hfind] at hv1
    by_cases hsame : ecma_builtin_mask_prop_id index1 = ecma_builtin_mask_prop_id index
    · rw [hsame, hf2] at hv1
      exact ⟨_, (Option.some.inj hv1).symm⟩
    · rw [hother _ hsame] at hv1
      exact hm index1 v hv1
  · show _ :: object2.named_properties = _
    rw [hnamed]
  · intro k
    rw [instantiated_bitset_of_find _ _ _ ((hfind _).trans hf2)]
    exact testBit_or_two_pow _ _ _
  · intro id hne
    rw [hfind]
    exact hother id hne

/-- The name of another descriptor is listed for the object after an instantiation exactly
as for the object before. -/
theorem lazy_name_listed_after (object object1 : ecma_object_t) (index i : Nat)
    (e : ecma_builtin_property_descriptor_t) (p : ecma_property_t)
    (hi : index < 64) (hi1 : i < 64) (hne : i ≠ index)
    (hp : p.name ≠ ecma_string_t.magic e.magic_string_id)
    (hnamed : object1.named_properties = p :: object.named_properties)
    (hbits : ∀ k, (ecma_builtin_instantiated_bitset object1
          (ecma_builtin_mask_prop_id index)).testBit k
        = (decide (k = index % 32)
          || (ecma_builtin_instantiated_bitset object
              (ecma_builtin_mask_prop_id index)).testBit k))
    (hother : ∀ id, id ≠ ecma_builtin_mask_prop_id index →
        ecma_find_internal_property object1 id = ecma_find_internal_property object id) :
    ecma_builtin_lazy_name_listed object1 i e = ecma_builtin_lazy_name_listed object i e := by
  have hbit : (ecma_builtin_instantiated_bitset object1
        (ecma_builtin_mask_prop_id i)).testBit (i % 32)
      = (ecma_builtin_instantiated_bitset object
        (ecma_builtin_mask_prop_id i)).testBit (i % 32) := by
    by_cases hsame : ecma_builtin_mask_prop_id i = ecma_builtin_mask_prop_id index
    · rw [hsame, hbits]
      have hhalf := (mask_prop_id_same_half i index).1 hsame
      have hmod : i % 32 ≠ index % 32 := by omega
      simp [hmod]
    · rw [instantiated_bitset_congr object object1 _ (hother _ hsame)]
  have hfind : object1.named_properties.find?
        (fun q => decide (q.name = ecma_string_t.magic e.magic_string_id))
      = object.named_properties.find?
        (fun q => decide (q.name = ecma_string_t.magic e.magic_string_id)) := by
    rw [hnamed, List.find?_cons_of_neg]
    simpa using hp
  unfold ecma_builtin_lazy_name_listed
  rw [hbit, hfind]

/-- One round of the loop of `ecma_builtin_list_lazy_property_names` for the descriptor `d`
at `index`, on the object of the built-in: the name of `d` is appended exactly when
`ecma_builtin_lazy_name_listed` selects it for the object; the loop goes on with an object
of the built-in for which the other descriptors are selected as before. -/
theorem ecma_builtin_list_lazy_step (t : ecma_builtin_tables) (object_p builtin_id : Nat)
    (builtin : ecma_builtin_description_t) (heap : ecma_heap_t) (object : ecma_object_t)
    (index : Nat) (d : ecma_builtin_property_descriptor_t)
    (mask_prop_p : Option ecma_internal_property_id_t)
    (hst : ecma_builtin_object_ok t object_p builtin_id heap object)
    (hbi : t.builtins[builtin_id]? = some builtin)
    (hcur : builtin.property_descriptor_list[index]? = some d)
    (hfirst : ∀ (j : Nat) (e : ecma_builtin_property_descriptor_t), j < index →
      builtin.property_descriptor_list[j]? = some e →
      e.magic_string_id ≠ d.magic_string_id
        ∧ e.magic_string_id ≠ t.LIT_MAGIC_STRING__COUNT)
    (hd : d.magic_string_id ≠ t.LIT_MAGIC_STRING__COUNT)
    (hi : index < 64)
    (hok : ecma_builtin_value_ok t builtin_id d.magic_string_id d)
    (hmask : index ≠ 32 → ∀ id, mask_prop_p = some id →
      id = ecma_builtin_mask_prop_id index
        ∧ (ecma_find_internal_property object id).isSome = true) :
    ∃ heap1 object1 mask_prop_p1,
      (∀ rest coll,
        ecma_builtin_list_lazy_loop t object_p (d :: rest) heap index mask_prop_p coll
          = ecma_builtin_list_lazy_loop t object_p rest heap1 (index + 1) mask_prop_p1
              (coll ++ (if ecma_builtin_lazy_name_listed object index d = true then
                [ecma_value_t.string d.magic_string_id] else [])))
      ∧ ecma_builtin_object_ok t object_p builtin_id heap1 object1
      ∧ (∀ i e, i < 64 → i ≠ index → e.magic_string_id ≠ d.magic_string_id →
          ecma_builtin_lazy_name_listed object1 i e
            = ecma_builtin_lazy_name_listed object i e)
      ∧ (index + 1 ≠ 32 → ∀ id, mask_prop_p1 = some id →
          id = ecma_builtin_mask_prop_id (index + 1)
            ∧ (ecma_find_internal_property object1 id).isSome = true) := by
  have hobj := hst.1
  have hm := hst.2.2.2.2.2.2
  have hp1 : ∀ id,
      (if index = 32 then
        (ecma_find_internal_property object
          ecma_internal_property_id_t.ECMA_INTERNAL_PROPERTY_NON_INSTANTIATED_BUILT_IN_MASK_32_63).map
          (fun _ =>
            ecma_internal_property_id_t.ECMA_INTERNAL_PROPERTY_NON_INSTANTIATED_BUILT_IN_MASK_32_63)
        else mask_prop_p) = some id →
      id = ecma_builtin_mask_prop_id index
        ∧ (ecma_find_internal_property object id).isSome = true := by
    intro id h
    by_cases h32 : index = 32
    · rw [if_pos h32] at h
      cases hf : ecma_find_internal_property object
          ecma_internal_property_id_t.ECMA_INTERNAL_PROPERTY_NON_INSTANTIATED_BUILT_IN_MASK_32_63 with
      | none => rw [hf] at h; cases h
      | some v =>
        rw [hf] at h
        simp only [Option.map_some', Option.some.injEq] at h
        subst h
        rw [h32, hf]
        exact ⟨rfl, rfl⟩
    · rw [if_neg h32] at h
      exact hmask h32 id h
  have hbit : (if index ≥ 32 then (1 <<< (index - 32)) % 2 ^ 32
      else (1 <<< index) % 2 ^ 32) = 2 ^ (index % 32) := by
    rw [← bit_for_index_eq index hi]
    by_cases h : index < 32
    · rw [if_neg (by omega), if_pos h]
    · rw [if_pos (by omega), if_neg h]
  have hnextid : index + 1 ≠ 32 →
      ecma_builtin_mask_prop_id (index + 1) = ecma_builtin_mask_prop_id index := by
    intro h
    rw [mask_prop_id_same_half]
    omega
  have hl : ecma_builtin_lazy_name_listed object index d
      = (!(ecma_builtin_instantiated_bitset object
            (ecma_builtin_mask_prop_id index)).testBit (index % 32)
        || ((ecma_builtin_instantiated_bitset object
              (ecma_builtin_mask_prop_id index)).testBit (index % 32)
            && (object.named_properties.find? (fun p =>
                decide (p.name = ecma_string_t.magic d.magic_string_id))).isSome)) := rfl
  have hsame : ∀ (mask1 : Option ecma_internal_property_id_t),
      (∀ id, mask1 = some id → id = ecma_builtin_mask_prop_id index
        ∧ (ecma_find_internal_property object id).isSome = true) →
      (index + 1 ≠ 32 → ∀ id, mask1 = some id →
        id = ecma_builtin_mask_prop_id (index + 1)
          ∧ (ecma_find_internal_property object id).isSome = true) := by
    intro mask1 h hne id hid
    rw [hnextid hne]
    exact h id hid
  -- the bit of the descriptor is set: the mask property is there
  have hset : (ecma_builtin_instantiated_bitset object
        (ecma_builtin_mask_prop_id index)).testBit (index % 32) = true →
      ∃ n, ecma_find_internal_property object (ecma_builtin_mask_prop_id index)
          = some (ecma_internal_value_t.uint32 n) ∧ n.testBit (index % 32) = true := by
    intro hb0
    cases hfm : ecma_find_internal_property object (ecma_builtin_mask_prop_id index) with
    | none =>
      rw [instantiated_bitset_of_none object _ hfm, Nat.zero_testBit] at hb0
      cases hb0
    | some v =>
      obtain ⟨n, rfl⟩ := hm index v hfm
      rw [instantiated_bitset_of_find object _ n hfm] at hb0
      exact ⟨n, rfl, hb0⟩
  -- the lookup when the object has no named property for the name and the bit is set
  have hprobe_set : object.named_properties.find? (fun p =>
        decide (p.name = ecma_string_t.magic d.magic_string_id)) = none →
      (ecma_builtin_instantiated_bitset object
        (ecma_builtin_mask_prop_id index)).testBit (index % 32) = true →
      ecma_op_object_get_own_property t heap object_p
        (ecma_string_t.magic d.magic_string_id) = .ok (none, heap) := by
    intro hnf hb0
    obtain ⟨n, hfm, hn⟩ := hset hb0
    rw [get_own_property_lazy t heap object_p object builtin_id builtin index d hst hbi hcur
      hfirst hnf]
    exact ecma_builtin_instantiate_descriptor_set t heap object_p object _ builtin_id _ index
      d n hi hfm hn
  cases hm1 : (if index = 32 then
        (ecma_find_internal_property object
          ecma_internal_property_id_t.ECMA_INTERNAL_PROPERTY_NON_INSTANTIATED_BUILT_IN_MASK_32_63).map
          (fun _ =>
            ecma_internal_property_id_t.ECMA_INTERNAL_PROPERTY_NON_INSTANTIATED_BUILT_IN_MASK_32_63)
        else mask_prop_p) with
  | none =>
    cases hfn : object.named_properties.find? (fun p =>
        decide (p.name = ecma_string_t.magic d.magic_string_id)) with
    | some prop =>
      refine ⟨heap, object, none, ?_, hst, fun _ _ _ _ _ => rfl,
        fun _ id h => by cases h⟩
      intro rest coll
      have hlt : ecma_builtin_lazy_name_listed object index d = true := by
        rw [hl, hfn]
        cases (ecma_builtin_instantiated_bitset object
          (ecma_builtin_mask_prop_id index)).testBit (index % 32) <;> rfl
      rw [ecma_builtin_list_lazy_loop, if_pos hd, if_pos hi, hobj]
      simp only [hm1, hbit, ecma_builtin_lazy_was_instantiated, Bool.not_true,
        Bool.false_eq_true, if_false,
        get_own_property_found t heap object_p object _ prop hobj hfn, Option.isSome_some,
        if_true, hlt]
    | none =>
      cases hb0 : (ecma_builtin_instantiated_bitset object
          (ecma_builtin_mask_prop_id index)).testBit (index % 32) with
      | false =>
        obtain ⟨prop, heap1, object1, hd1, hst1, ⟨p, hpn, hnamed⟩, hbits, hother⟩ :=
          instantiate_descriptor_state t heap object_p object builtin_id index d hst hi hb0
            hok
        refine ⟨heap1, object1, none, ?_, hst1, ?_, fun _ id h => by cases h⟩
        · intro rest coll
          have hlt : ecma_builtin_lazy_name_listed object index d = true := by
            rw [hl, hb0]
            rfl
          rw [ecma_builtin_list_lazy_loop, if_pos hd, if_pos hi, hobj]
          simp only [hm1, hbit, ecma_builtin_lazy_was_instantiated, Bool.not_true,
            Bool.false_eq_true, if_false,
            get_own_property_lazy t heap object_p object builtin_id builtin index d hst hbi
              hcur hfirst hfn, hd1, Option.isSome_some, if_true, hlt]
        · intro i e hi1 hne hname
          exact lazy_name_listed_after object object1 index i e p hi hi1 hne
            (by rw [hpn]; exact fun h => hname (ecma_string_t.magic.inj h).symm)
            hnamed hbits hother
      | true =>
        refine ⟨heap, object, none, ?_, hst, fun _ _ _ _ _ => rfl,
          fun _ id h => by cases h⟩
        intro rest coll
        have hlf : ecma_builtin_lazy_name_listed object index d = false := by
          rw [hl, hb0, hfn]
          rfl
        rw [ecma_builtin_list_lazy_loop, if_pos hd, if_pos hi, hobj]
        simp only [hm1, hbit, ecma_builtin_lazy_was_instantiated, Bool.not_true,
          Bool.false_eq_true, if_false, hprobe_set hfn hb0, Option.isSome_none, hlf,
          List.append_nil]
  | some id =>
    obtain ⟨hid1, hsome⟩ := hp1 id hm1
    subst hid1
    cases hfm : ecma_find_internal_property object (ecma_builtin_mask_prop_id index) with
    | none =>
      rw [hfm] at hsome
      cases hsome
    | some v =>
      obtain ⟨n, rfl⟩ := hm index v hfm
      have hbs := instantiated_bitset_of_find object _ n hfm
      have hdec : decide (n &&& 2 ^ (index % 32) ≠ 0) = n.testBit (index % 32) := by
        cases hb : n.testBit (index % 32)
        · exact decide_eq_false (fun h => by
            rw [(and_bit_ne_zero n (index % 32)).1 h] at hb; cases hb)
        · exact decide_eq_true ((and_bit_ne_zero n (index % 32)).2 hb)
      have hnext := hsame (some (ecma_builtin_mask_prop_id index))
        (fun id1 h1 => by
          cases h1
          exact ⟨rfl, by rw [hfm]; rfl⟩)
      cases hb0 : n.testBit (index % 32) with
      | false =>
        refine ⟨heap, object, some (ecma_builtin_mask_prop_id index), ?_, hst,
          fun _ _ _ _ _ => rfl, hnext⟩
        intro rest coll
        have hlt : ecma_builtin_lazy_name_listed object index d = true := by
          rw [hl, hbs, hb0]
          rfl
        rw [ecma_builtin_list_lazy_loop, if_pos hd, if_pos hi, hobj]
        simp only [hm1, hbit, ecma_builtin_lazy_was_instantiated, hfm, hdec, hb0,
          Bool.not_false, if_true, hlt]
      | true =>
        cases hfn : object.named_properties.find? (fun p =>
            decide (p.name = ecma_string_t.magic d.magic_string_id)) with
        | some prop =>
          refine ⟨heap, object, some (ecma_builtin_mask_prop_id index), ?_, hst,
            fun _ _ _ _ _ => rfl, hnext⟩
          intro rest coll
          have hlt : ecma_builtin_lazy_name_listed object index d = true := by
            rw [hl, hbs, hb0, hfn]
            rfl
          rw [ecma_builtin_list_lazy_loop, if_pos hd, if_pos hi, hobj]
          simp only [hm1, hbit, ecma_builtin_lazy_was_instantiated, hfm, hdec, hb0,
            Bool.not_true, Bool.false_eq_true, if_false,
            get_own_property_found t heap object_p object _ prop hobj hfn,
            Option.isSome_some, if_true, hlt]
        | none =>
          refine ⟨heap, object, some (ecma_builtin_mask_prop_id index), ?_, hst,
            fun _ _ _ _ _ => rfl, hnext⟩
          intro rest coll
          have hlf : ecma_builtin_lazy_name_listed object index d = false := by
            rw [hl, hbs, hb0, hfn]
            rfl
          rw [ecma_builtin_list_lazy_loop, if_pos hd, if_pos hi, hobj]
          simp only [hm1, hbit, ecma_builtin_lazy_was_instantiated, hfm, hdec, hb0,
            Bool.not_true, Bool.false_eq_true, if_false,
            hprobe_set hfn (by rw [hbs]; exact hb0), Option.isSome_none, hlf,
            List.append_nil]

/-- The loop of `ecma_builtin_list_lazy_property_names` returns and appends, in the order of
the descriptors, the names of the descriptors before the one with `LIT_MAGIC_STRING__COUNT`
that `ecma_builtin_lazy_name_listed` selects for the object as it is when the loop is
entered. -/
theorem ecma_builtin_list_lazy_loop_spec (t : ecma_builtin_tables) (object_p builtin_id : Nat)
    (builtin : ecma_builtin_description_t) (s : ecma_builtin_property_descriptor_t)
    (post : List ecma_builtin_property_descriptor_t)
    (hbi : t.builtins[builtin_id]? = some builtin)
    (hs : s.magic_string_id = t.LIT_MAGIC_STRING__COUNT) :
    ∀ (pre done : List ecma_builtin_property_descriptor_t) (heap : ecma_heap_t)
      (object : ecma_object_t) (mask_prop_p : Option ecma_internal_property_id_t)
      (coll : List ecma_value_t),
      builtin.property_descriptor_list = done ++ (pre ++ s :: post) →
      (∀ d ∈ done ++ pre, d.magic_string_id ≠ t.LIT_MAGIC_STRING__COUNT) →
      ((done ++ pre).map (fun d => d.magic_string_id)).Nodup →
      (∀ d ∈ pre, ecma_builtin_value_ok t builtin_id d.magic_string_id d) →
      done.length + pre.length ≤ 64 →
      ecma_builtin_object_ok t object_p builtin_id heap object →
      (done.length ≠ 32 → ∀ id, mask_prop_p = some id →
        id = ecma_builtin_mask_prop_id done.length
          ∧ (ecma_find_internal_property object id).isSome = true) →
      ∃ heap1,
        ecma_builtin_list_lazy_loop t object_p (pre ++ s :: post) heap done.length
            mask_prop_p coll
          = .ok (coll ++ ((pre.enumFrom done.length).filter
              (fun p => ecma_builtin_lazy_name_listed object p.1 p.2)).map
              (fun p => ecma_value_t.string p.2.magic_string_id), heap1) := by
  intro pre
  induction pre with
  | nil =>
    intro done heap object mask_prop_p coll _ _ _ _ _ _ _
    refine ⟨heap, ?_⟩
    simp only [List.nil_append, List.enumFrom_nil, List.filter_nil, List.map_nil,
      List.append_nil]
    rw [ecma_builtin_list_lazy_loop, if_neg (fun h => h hs)]
  | cons d pre ih =>
    intro done heap object mask_prop_p coll hlist hnc hnd hok hlen hst hmask
    have hd : d.magic_string_id ≠ t.LIT_MAGIC_STRING__COUNT :=
      hnc d (List.mem_append_right _ (List.mem_cons_self _ _))
    have hlen1 : done.length + (pre.length + 1) ≤ 64 := by simpa using hlen
    have hlt : done.length < 64 := by omega
    rw [List.map_append, List.map_cons] at hnd
    obtain ⟨_, hnd2, hdisj⟩ := List.nodup_append.1 hnd
    obtain ⟨hdpre, _⟩ := List.nodup_cons.1 hnd2
    have hcur : builtin.property_descriptor_list[done.length]? = some d := by
      rw [hlist, List.getElem?_append_right (le_refl _), Nat.sub_self]
      simp
    have hfirst : ∀ (j : Nat) (e : ecma_builtin_property_descriptor_t), j < done.length →
        builtin.property_descriptor_list[j]? = some e →
        e.magic_string_id ≠ d.magic_string_id
          ∧ e.magic_string_id ≠ t.LIT_MAGIC_STRING__COUNT := by
      intro j e hj he
      rw [hlist, List.getElem?_append_left hj] at he
      have hmem : e ∈ done := List.mem_iff_getElem?.2 ⟨j, he⟩
      refine ⟨fun heq => ?_, hnc e (List.mem_append_left _ hmem)⟩
      exact hdisj (List.mem_map_of_mem (fun d => d.magic_string_id) hmem)
        (by rw [heq]; exact List.mem_cons_self _ _)
    obtain ⟨heap1, object1, mask1, hstep, hst1, hkeep, hmask1⟩ :=
      ecma_builtin_list_lazy_step t object_p builtin_id builtin heap object done.length d
        mask_prop_p hst hbi hcur hfirst hd hlt (hok d (List.mem_cons_self _ _)) hmask
    have hdl : (done ++ [d]).length = done.length + 1 := by simp
    obtain ⟨heap2, h2⟩ := ih (done ++ [d]) heap1 object1 mask1
      (coll ++ (if ecma_builtin_lazy_name_listed object done.length d = true then
        [ecma_value_t.string d.magic_string_id] else []))
      (by rw [hlist]; simp)
      (fun e he => hnc e (by simpa using he))
      (by
        rw [List.append_assoc, List.map_append]
        exact hnd)
      (fun e he => hok e (List.mem_cons_of_mem _ he))
      (by rw [hdl]; omega)
      hst1
      (by rw [hdl]; exact hmask1)
    rw [hdl] at h2
    refine ⟨heap2, ?_⟩
    simp only [List.cons_append]
    rw [hstep, h2]
    have hcongr : (pre.enumFrom (done.length + 1)).filter
          (fun p => ecma_builtin_lazy_name_listed object1 p.1 p.2)
        = (pre.enumFrom (done.length + 1)).filter
          (fun p => ecma_builtin_lazy_name_listed object p.1 p.2) := by
      apply List.filter_congr
      intro x hx
      have h1 := List.le_fst_of_mem_enumFrom hx
      have h2 := List.fst_lt_add_of_mem_enumFrom hx
      have h3 := List.snd_mem_of_mem_enumFrom hx
      exact hkeep x.1 x.2 (by omega) (by omega)
        (fun heq => hdpre (by
          rw [← heq]
          exact List.mem_map_of_mem (fun d => d.magic_string_id) h3))
    rw [hcongr]
    simp only [List.enumFrom_cons, List.filter_cons]
    cases ecma_builtin_lazy_name_listed object done.length d <;> simp

/-- C21: for the object of a non-function built-in (it stands in the registry, the
descriptor list of the built-in ends with `LIT_MAGIC_STRING__COUNT` after at most 64
descriptors with different names, each with what its type needs for a value),
`ecma_builtin_list_lazy_property_names` returns and appends to the collection of the
non-enumerable names (the main collection unless `separate_enumerable`), in the order of
the descriptors, the name of every descriptor whose instantiation bit is clear (the mask
property of its half, the second mask for the indices 32..63, holds the bit clear or does
not exist yet) and the name of every descriptor whose bit is set and for which the object
has a named property; it appends no other name and leaves the other collection as it
is. -/
theorem C21_lazy_property_names_listed (t : ecma_builtin_tables) (heap : ecma_heap_t)
    (object_p : Nat) (object : ecma_object_t) (builtin_id : Nat)
    (builtin : ecma_builtin_description_t)
    (pre : List ecma_builtin_property_descriptor_t) (s : ecma_builtin_property_descriptor_t)
    (post : List ecma_builtin_property_descriptor_t) (separate_enumerable : Bool)
    (main_collection non_enum_collection : List ecma_value_t)
    (hst : ecma_builtin_object_ok t object_p builtin_id heap object)
    (hbi : t.builtins[builtin_id]? = some builtin)
    (hlist : builtin.property_descriptor_list = pre ++ s :: post)
    (hs : s.magic_string_id = t.LIT_MAGIC_STRING__COUNT)
    (hpre : ∀ d ∈ pre, d.magic_string_id ≠ t.LIT_MAGIC_STRING__COUNT)
    (hlen : pre.length ≤ 64)
    (hnodup : (pre.map (fun d => d.magic_string_id)).Nodup)
    (hok : ∀ d ∈ pre, ecma_builtin_value_ok t builtin_id d.magic_string_id d) :
    ∃ heap1,
      ecma_builtin_list_lazy_property_names t heap object_p separate_enumerable
          main_collection non_enum_collection
        = .ok ((if separate_enumerable = true then
            (main_collection,
              non_enum_collection ++ ((pre.enumFrom 0).filter
                (fun p => ecma_builtin_lazy_name_listed object p.1 p.2)).map
                (fun p => ecma_value_t.string p.2.magic_string_id))
          else
            (main_collection ++ ((pre.enumFrom 0).filter
                (fun p => ecma_builtin_lazy_name_listed object p.1 p.2)).map
                (fun p => ecma_value_t.string p.2.magic_string_id),
              non_enum_collection)), heap1) := by
  obtain ⟨hobj, hb, hty, hid, hreg, hregl, hm⟩ := id hst
  have hlt : object_p < heap.objects.length := by
    rcases Nat.lt_or_ge object_p heap.objects.length with h1 | h1
    · exact h1
    · rw [List.getElem?_eq_none h1] at hobj; cases hobj
  have hblt : builtin_id < t.ECMA_BUILTIN_ID__COUNT := by
    rcases Nat.lt_or_ge builtin_id t.builtins.length with h1 | h1
    · exact h1
    · rw [List.getElem?_eq_none h1] at hbi; cases hbi
  have his : (ecma_builtin_is t heap object_p builtin_id).toOption = some true := by
    rw [ecma_builtin_is, if_pos ⟨hlt, hblt⟩, hreg]
    simp [Except.toOption]
  have hmask0 : (0 : Nat) ≠ 32 → ∀ id,
      (ecma_find_internal_property object
        ecma_internal_property_id_t.ECMA_INTERNAL_PROPERTY_NON_INSTANTIATED_BUILT_IN_MASK_0_31).map
        (fun _ =>
          ecma_internal_property_id_t.ECMA_INTERNAL_PROPERTY_NON_INSTANTIATED_BUILT_IN_MASK_0_31)
        = some id →
      id = ecma_builtin_mask_prop_id 0
        ∧ (ecma_find_internal_property object id).isSome = true := by
    intro _ id h
    cases hf : ecma_find_internal_property object
        ecma_internal_property_id_t.ECMA_INTERNAL_PROPERTY_NON_INSTANTIATED_BUILT_IN_MASK_0_31 with
    | none => rw [hf] at h; cases h
    | some v =>
      rw [hf] at h
      simp only [Option.map_some', Option.some.injEq] at h
      subst h
      rw [hf]
      exact ⟨rfl, rfl⟩
  obtain ⟨heap1, hloop⟩ := ecma_builtin_list_lazy_loop_spec t object_p builtin_id builtin s
    post hbi hs pre [] heap object _
    (if separate_enumerable = true then non_enum_collection else main_collection)
    (by rw [hlist]; rfl) (by simpa using hpre) (by simpa using hnodup) hok
    (by simpa using hlen) hst hmask0
  refine ⟨heap1, ?_⟩
  rw [ecma_builtin_list_lazy_property_names, hobj]
  simp only [if_neg hty, hid]
  rw [if_pos ⟨hblt, his⟩]
  simp only [hbi, hlist]
  simp only [List.length_nil] at hloop
  rw [hloop]
  cases separate_enumerable <;> simp

/-- The descriptors of the examples hold what their types need for a value. -/
theorem builtin_example_descriptors_ok :
    ∀ d ∈ builtin_example_descriptors,
      ecma_builtin_value_ok builtin_example_tables 0 d.magic_string_id d := by
  intro d hd
  simp only [builtin_example_descriptors, List.mem_cons, List.mem_singleton,
    List.not_mem_nil, or_false] at hd
  rcases hd with rfl | rfl | rfl | rfl
  · exact trivial
  · exact Or.inr (Or.inl ⟨by decide, by decide⟩)
  · show prototype_chain_ends builtin_example_tables _ _ = true
    decide
  · exact ⟨by decide, by decide⟩

/-- Witness of C21. In `builtin_example_heap` the object of built-in 0 has no mask property
and no named property: the names of all four descriptors are listed. With
`builtin_example_listed_object` the mask of the lower half is 6 (the bits of the indices 1
and 2 are set) and the object has the property with the name 7 of index 1: the names 3 and
11 (bits clear) and 7 (bit set, property on the object) are listed, the name 9 (bit set,
property deleted) is not. -/
theorem C21_lazy_property_names_listed_witness :
    (∃ heap1,
      ecma_builtin_list_lazy_property_names builtin_example_tables builtin_example_heap 0
          false [] []
        = .ok (([ecma_value_t.string 3, ecma_value_t.string 7, ecma_value_t.string 9,
                 ecma_value_t.string 11], []), heap1))
    ∧ ∃ heap1,
      ecma_builtin_list_lazy_property_names builtin_example_tables
          { objects := [builtin_example_listed_object],
            ecma_builtin_objects := [some 0, none] } 0 true [] []
        = .ok (([], [ecma_value_t.string 3, ecma_value_t.string 7,
                     ecma_value_t.string 11]), heap1) :=
  ⟨C21_lazy_property_names_listed builtin_example_tables builtin_example_heap 0
      builtin_example_object 0 _ builtin_example_descriptors builtin_example_sentinel []
      false [] []
      ⟨rfl, rfl, (by decide), rfl, rfl, rfl, (fun index v h => by
        unfold ecma_builtin_mask_prop_id at h
        by_cases h32 : index < 32
        · rw [if_pos h32] at h
          cases h
        · rw [if_neg h32] at h
          cases h)⟩
      rfl rfl rfl (by decide) (by decide) (by decide) builtin_example_descriptors_ok,
   C21_lazy_property_names_listed builtin_example_tables
      { objects := [builtin_example_listed_object], ecma_builtin_objects := [some 0, none] }
      0 builtin_example_listed_object 0 _ builtin_example_descriptors
      builtin_example_sentinel [] true [] []
      ⟨rfl, rfl, (by decide), rfl, rfl, rfl, (fun index v h => by
        unfold ecma_builtin_mask_prop_id at h
        by_cases h32 : index < 32
        · rw [if_pos h32] at h
          exact ⟨6, by cases h; rfl⟩
        · rw [if_neg h32] at h
          cases h)⟩
      rfl rfl rfl (by decide) (by decide) (by decide) builtin_example_descriptors_ok⟩

/-! ## `parser_parse_source`: the report of an error -/

/-- When the calls before `parser_parse_statements` return, the `PARSER_TRY` block is the
call of `parser_parse_statements`, the assertions and `parser_post_processing`. -/
theorem parser_parse_source_try_reaches (lim : parser_limits) (t : cbc_tables)
    (routines : parser_routines) (arg_list_p : Option (List Nat)) (source_p : List Nat)
    (context context4 : parser_source_context_t)
    (hr : parser_source_reaches routines arg_list_p source_p context context4) :
    parser_parse_source_try lim t routines arg_list_p source_p context
      = (parser_call (routines.parser_parse_statements context4)).and_then fun context5 =>
          if context5.stack_top_uint8 = CBC_MAXIMUM_BYTE_VALUE
              ∧ context5.stack.last_position = 1
              ∧ (context5.stack.first_p.bind
                  (fun first_p => context5.stack.pages[first_p]?)).map
                  (fun (page : parser_mem_page_t) => page.next_p) = some none
              ∧ context5.stack.last_p = none
              ∧ context5.last_statement_current_p = none
              ∧ context5.last_cbc_opcode = routines.PARSER_CBC_UNAVAILABLE
              ∧ context5.allocated_buffer_p = none then
            parser_call_post_processing lim t context5
          else parser_result.aborted Fault.assertion := by
  cases hr with
  | script context1 context2 ha h1 h2 =>
    subst ha
    unfold parser_parse_source_try
    simp only [h1, h2, parser_call, parser_result.and_then]
  | function_body arg_list context1 context2 context3 context4 ha h1 h2 h3 h4 =>
    subst ha
    unfold parser_parse_source_try
    simp only [h1, h2, h3, h4, parser_call, parser_result.and_then]

/-- A call that raises ends the `PARSER_TRY` block with the error recorded in the context
of the call. -/
theorem parser_parse_source_try_raises (lim : parser_limits) (t : cbc_tables)
    (routines : parser_routines) (arg_list_p : Option (List Nat)) (source_p : List Nat)
    (context raised : parser_source_context_t) (error : parser_error_t)
    (h : parser_source_raises lim t routines arg_list_p source_p context raised error) :
    parser_parse_source_try lim t routines arg_list_p source_p context
      = parser_result.raised { raised with error := error } := by
  cases h with
  | stack_push raised error h1 =>
    unfold parser_parse_source_try
    simp only [h1, parser_call, parser_result.and_then, parser_raise_error]
  | first_token context1 raised error h1 h2 =>
    unfold parser_parse_source_try
    simp only [h1, h2, parser_call, parser_result.and_then, parser_raise_error]
  | function_arguments arg_list context1 context2 raised error ha h1 h2 h3 =>
    subst ha
    unfold parser_parse_source_try
    simp only [h1, h2, h3, parser_call, parser_result.and_then, parser_raise_error]
  | body_token arg_list context1 context2 context3 raised error ha h1 h2 h3 h4 =>
    subst ha
    unfold parser_parse_source_try
    simp only [h1, h2, h3, h4, parser_call, parser_result.and_then, parser_raise_error]
  | statements context4 raised error hr h5 =>
    rw [parser_parse_source_try_reaches lim t routines arg_list_p source_p context context4 hr]
    simp only [h5, parser_call, parser_result.and_then, parser_raise_error]
  | post_processing context4 raised error hr h5 hs h6 =>
    rw [parser_parse_source_try_reaches lim t routines arg_list_p source_p context context4 hr]
    unfold parser_source_settled at hs
    simp only [h5, parser_call, parser_result.and_then]
    rw [if_pos hs]
    unfold parser_call_post_processing
    simp only [h6, parser_raise_error]

/-- When the `PARSER_TRY` block is left through `PARSER_CATCH`, one of its calls has
raised, and the context has the error of that call and the token of its context. -/
theorem parser_parse_source_try_raised (lim : parser_limits) (t : cbc_tables)
    (routines : parser_routines) (arg_list_p : Option (List Nat)) (source_p : List Nat)
    (context final : parser_source_context_t)
    (h : parser_parse_source_try lim t routines arg_list_p source_p context
      = parser_result.raised final) :
    ∃ raised error,
      parser_source_raises lim t routines arg_list_p source_p context raised error
        ∧ final = { raised with error := error } := by
  have tail : ∀ context4,
      parser_source_reaches routines arg_list_p source_p context context4 →
      ∃ raised error,
        parser_source_raises lim t routines arg_list_p source_p context raised error
          ∧ final = { raised with error := error } := by
    intro context4 hr
    rw [parser_parse_source_try_reaches lim t routines arg_list_p source_p context context4
      hr] at h
    rcases h5 : routines.parser_parse_statements context4 with (⟨c, e⟩ | f) | context5
    · simp only [h5, parser_call, parser_result.and_then, parser_raise_error,
        parser_result.raised.injEq] at h
      exact ⟨c, e, parser_source_raises.statements context4 c e hr h5, h.symm⟩
    · simp only [h5, parser_call, parser_result.and_then] at h
      cases h
    · simp only [h5, parser_call, parser_result.and_then] at h
      split_ifs at h with hs
      unfold parser_call_post_processing at h
      rcases h6 : parser_post_processing lim t context5.context with f | ⟨code, c7⟩
      · rw [h6] at h
        cases f with
        | raised e =>
          simp only [parser_raise_error, parser_result.raised.injEq] at h
          exact ⟨context5, e,
            parser_source_raises.post_processing context4 context5 e hr h5 hs h6, h.symm⟩
        | assertion => cases h
        | invalid_pointer => cases h
      · rw [h6] at h
        cases h
  rcases h1 : routines.parser_stack_push_uint8 context CBC_MAXIMUM_BYTE_VALUE
    with (⟨c, e⟩ | f) | context1
  · unfold parser_parse_source_try at h
    simp only [h1, parser_call, parser_result.and_then, parser_raise_error,
      parser_result.raised.injEq] at h
    exact ⟨c, e, parser_source_raises.stack_push c e h1, h.symm⟩
  · unfold parser_parse_source_try at h
    simp only [h1, parser_call, parser_result.and_then] at h
    cases h
  rcases h2 : routines.lexer_next_token context1 with (⟨c, e⟩ | f) | context2
  · unfold parser_parse_source_try at h
    simp only [h1, h2, parser_call, parser_result.and_then, parser_raise_error,
      parser_result.raised.injEq] at h
    exact ⟨c, e, parser_source_raises.first_token context1 c e h1 h2, h.symm⟩
  · unfold parser_parse_source_try at h
    simp only [h1, h2, parser_call, parser_result.and_then] at h
    cases h
  have hcases : arg_list_p = none ∨ ∃ arg_list, arg_list_p = some arg_list := by
    cases arg_list_p with
    | none => exact Or.inl rfl
    | some arg_list => exact Or.inr ⟨arg_list, rfl⟩
  rcases hcases with ha | ⟨arg_list, ha⟩
  · exact tail context2 (parser_source_reaches.script context1 context2 ha h1 h2)
  · rcases h3 : routines.parser_parse_function_arguments context2
      with (⟨c, e⟩ | f) | context3
    · unfold parser_parse_source_try at h
      simp only [h1, h2, h3, ha, parser_call, parser_result.and_then, parser_raise_error,
        parser_result.raised.injEq] at h
      exact ⟨c, e,
        parser_source_raises.function_arguments arg_list context1 context2 c e ha h1 h2 h3,
        h.symm⟩
    · unfold parser_parse_source_try at h
      simp only [h1, h2, h3, ha, parser_call, parser_result.and_then] at h
      cases h
    rcases h4 : routines.lexer_next_token
        { context3 with source_p := source_p, line := 1, column := 1 }
      with (⟨c, e⟩ | f) | context4
    · unfold parser_parse_source_try at h
      simp only [h1, h2, h3, h4, ha, parser_call, parser_result.and_then,
        parser_raise_error, parser_result.raised.injEq] at h
      exact ⟨c, e,
        parser_source_raises.body_token arg_list context1 context2 context3 c e ha h1 h2 h3
          h4, h.symm⟩
    · unfold parser_parse_source_try at h
      simp only [h1, h2, h3, h4, ha, parser_call, parser_result.and_then] at h
      cases h
    exact tail context4 (parser_source_reaches.function_body arg_list context1 context2
      context3 context4 ha h1 h2 h3 h4)

/-- C23: `parser_parse_source` returns `NULL` exactly when an error is raised during the
parse, that is when one of the calls of its `PARSER_TRY` block (the push of the dummy byte,
`lexer_next_token`, `parser_parse_function_arguments`, `parser_parse_statements`,
`parser_post_processing`) ends with `parser_raise_error` after the calls before it have
returned. Whenever a call raises, `NULL` is returned and the error location, when the
caller passes one, holds the error raised and the line and column of the token of the
context in which it was raised. When all calls return, the code that
`parser_post_processing` returns is returned and the error of the location is
`PARSER_ERR_NO_ERROR`; with compiled code returned the error of the location is always
`PARSER_ERR_NO_ERROR`. -/
theorem C23_parse_source_reports_raise (lim : parser_limits) (t : cbc_tables)
    (routines : parser_routines) (arg_list_p : Option (List Nat)) (source_p : List Nat)
    (error_location_p : Option parser_error_location_t)
    (context0 : parser_source_context_t) :
    (∀ raised error,
        parser_source_raises lim t routines arg_list_p source_p
          (parser_parse_source_init routines arg_list_p source_p context0) raised error →
        parser_parse_source lim t routines arg_list_p source_p error_location_p context0
          = .ok (none, error_location_p.map (fun _ =>
              { error := error, line := raised.token_line,
                column := raised.token_column })))
      ∧ (∀ context4 context5 compiled_code context7,
          parser_source_reaches routines arg_list_p source_p
            (parser_parse_source_init routines arg_list_p source_p context0) context4 →
          routines.parser_parse_statements context4 = .ok context5 →
          parser_source_settled routines context5 →
          parser_post_processing lim t context5.context = .ok (compiled_code, context7) →
          parser_parse_source lim t routines arg_list_p source_p error_location_p context0
            = .ok (some compiled_code, error_location_p.map (fun location =>
                { location with error := parser_error_t.PARSER_ERR_NO_ERROR })))
      ∧ (∀ compiled_code error_location,
          parser_parse_source lim t routines arg_list_p source_p error_location_p context0
            = .ok (compiled_code, error_location) →
          (compiled_code = none ↔
            ∃ raised error, parser_source_raises lim t routines arg_list_p source_p
              (parser_parse_source_init routines arg_list_p source_p context0) raised error)
          ∧ (compiled_code ≠ none → ∀ location, error_location = some location →
              location.error = parser_error_t.PARSER_ERR_NO_ERROR)) := by
  refine ⟨?_, ?_, ?_⟩
  · intro raised error hr
    unfold parser_parse_source
    simp only [parser_parse_source_try_raises lim t routines arg_list_p source_p _ raised
      error hr]
    cases error_location_p <;> rfl
  · intro context4 context5 compiled_code context7 hr h5 hs h6
    unfold parser_parse_source
    rw [parser_parse_source_try_reaches lim t routines arg_list_p source_p _ context4 hr]
    unfold parser_source_settled at hs
    simp only [h5, parser_call, parser_result.and_then]
    rw [if_pos hs]
    unfold parser_call_post_processing
    simp only [h6]
  · intro compiled_code error_location h
    unfold parser_parse_source at h
    cases htry : parser_parse_source_try lim t routines arg_list_p source_p
        (parser_parse_source_init routines arg_list_p source_p context0) with
    | returned code =>
      rw [htry] at h
      simp only [Except.ok.injEq, Prod.mk.injEq] at h
      obtain ⟨rfl, rfl⟩ := h
      refine ⟨⟨(fun hc => by cases hc), ?_⟩, ?_⟩
      · rintro ⟨raised, error, hr⟩
        rw [parser_parse_source_try_raises lim t routines arg_list_p source_p _ raised error
          hr] at htry
        cases htry
      · intro _ location hl
        cases error_location_p with
        | none => cases hl
        | some l0 =>
          simp only [Option.map_some', Option.some.injEq] at hl
          rw [← hl]
    | raised final =>
      rw [htry] at h
      simp only [Except.ok.injEq, Prod.mk.injEq] at h
      obtain ⟨rfl, rfl⟩ := h
      obtain ⟨raised, error, hr, _⟩ := parser_parse_source_try_raised lim t routines
        arg_list_p source_p _ final htry
      exact ⟨⟨fun _ => ⟨raised, error, hr⟩, fun _ => rfl⟩, fun hc => absurd rfl hc⟩
    | aborted fault =>
      rw [htry] at h
      cases h

/-- Witness of C23. With `literal_limit_routines` the call of `parser_parse_statements`
raises `PARSER_ERR_LITERAL_LIMIT_REACHED` at line 3, column 7: `NULL` is returned and the
location holds that error, line and column. With `var_x_routines` every call returns:
compiled code is returned and the error of the location, which the caller passed with
another error, is `PARSER_ERR_NO_ERROR`. -/
theorem C23_parse_source_reports_raise_witness :
    parser_parse_source example_limits example_tables literal_limit_routines none
        [118, 97, 114, 32, 120, 32, 61, 32, 49, 59]
        (some { error := parser_error_t.PARSER_ERR_NO_ERROR, line := 0, column := 0 }) {}
      = .ok (none,
          some { error := parser_error_t.PARSER_ERR_LITERAL_LIMIT_REACHED, line := 3,
                 column := 7 })
    ∧ ∃ compiled_code,
      parser_parse_source example_limits example_tables var_x_routines none
          [118, 97, 114, 32, 120, 32, 61, 32, 49, 59]
          (some { error := parser_error_t.PARSER_ERR_STACK_LIMIT_REACHED, line := 9,
                  column := 9 }) {}
        = .ok (some compiled_code,
            some { error := parser_error_t.PARSER_ERR_NO_ERROR, line := 9, column := 9 }) := by
  refine ⟨?_, ?_⟩
  · exact (C23_parse_source_reports_raise example_limits example_tables
      literal_limit_routines none [118, 97, 114, 32, 120, 32, 61, 32, 49, 59]
      (some { error := parser_error_t.PARSER_ERR_NO_ERROR, line := 0, column := 0 }) {}).1
      _ _ (parser_source_raises.statements _ _ _
        (parser_source_reaches.script _ _ rfl rfl rfl) rfl)
  · have hok : (parser_post_processing example_limits example_tables
        { status_flags := { no_reg_store := true, lexical_env_needed := true,
                            arguments_not_needed := true },
          literal_count := 2, literal_pool := var_x_pool,
          byte_code := var_x_stream }).toBool = true := by decide
    cases hp : parser_post_processing example_limits example_tables
        { status_flags := { no_reg_store := true, lexical_env_needed := true,
                            arguments_not_needed := true },
          literal_count := 2, literal_pool := var_x_pool, byte_code := var_x_stream } with
    | error e => rw [hp] at hok; cases hok
    | ok res =>
      obtain ⟨compiled_code, context7⟩ := res
      exact ⟨compiled_code,
        (C23_parse_source_reports_raise example_limits example_tables var_x_routines none
          [118, 97, 114, 32, 120, 32, 61, 32, 49, 59]
          (some { error := parser_error_t.PARSER_ERR_STACK_LIMIT_REACHED, line := 9,
                  column := 9 }) {}).2.1
          _ _ compiled_code context7 (parser_source_reaches.script _ _ rfl rfl rfl) rfl
          ⟨rfl, rfl, rfl, rfl, rfl, rfl, rfl⟩ hp⟩

end Jerry
